import Mathlib

/-!
# pointSynthesizingIter (pkg/storage/point_synthesizing_iter.go)

A shallow embedding of the point-synthesizing MVCC iterator.

* `roachpb.Key` is a byte string that the code only compares (`Equal`,
  `Compare`) and tests for emptiness; it is represented by a natural number
  (`Nat`), ordered as usual, with `0` standing for the empty (nil) key.
* `hlc.Timestamp` is likewise a natural number with `0` the empty timestamp.
* A byte-slice value is `Option (List Nat)`, `none` being the nil slice.
* Go's `int` fields are `Int`; an out-of-range slice index or a call through
  a nil iterator is a run-time panic, represented by `none`.
* The wrapped `MVCCIterator` is an interface: it is a record of operations
  over an arbitrary state type.
-/

set_option autoImplicit false

/-- A `uuid.UUID`. -/
abbrev uuid.UUID := Nat

/-- Go's `error` values; `none` of `Option Error` is the nil error. -/
abbrev Error := String

/-- A `[]byte` value; `none` is the nil slice. -/
abbrev Value := Option (List Nat)

/-- `Timestamp.IsEmpty`. -/
def hlc.Timestamp.IsEmpty (t : Nat) : Bool := t == 0

/-- `Timestamp.IsSet`. -/
def hlc.Timestamp.IsSet (t : Nat) : Bool := t != 0

/-- `Timestamp.Less`. -/
def hlc.Timestamp.Less (t s : Nat) : Bool := decide (t < s)

/-- `Timestamp.LessEq`. -/
def hlc.Timestamp.LessEq (t s : Nat) : Bool := decide (t ≤ s)

/-- `roachpb.Key.Equal`. -/
def roachpb.Key.Equal (a b : Nat) : Bool := a == b

/-- `roachpb.Key.Compare`: negative, zero or positive. -/
def roachpb.Key.Compare (a b : Nat) : Int :=
  if a < b then -1 else if a = b then 0 else 1

/-- `MVCCKey`: a key and a timestamp; `MVCCKey{}` is `⟨0, 0⟩`. -/
structure MVCCKey where
  Key : Nat
  Timestamp : Nat
deriving DecidableEq, Repr

/-- `MVCCRangeKeyVersion`: one version of a range key stack. -/
structure MVCCRangeKeyVersion where
  Timestamp : Nat
  Value : Value
deriving DecidableEq, Repr

/-- `MVCCRangeKeyVersions`: newest first. -/
abbrev MVCCRangeKeyVersions := List MVCCRangeKeyVersion

/-- `roachpb.Span`. -/
structure roachpb.Span where
  Key : Nat
  EndKey : Nat
deriving DecidableEq, Repr

/-- `MVCCRangeKeyStack`. -/
structure MVCCRangeKeyStack where
  Bounds : roachpb.Span
  Versions : MVCCRangeKeyVersions
deriving DecidableEq, Repr

/-- The part of the `MVCCIterator` interface that the adapter consumes, as
operations on an iterator state `σ`. -/
structure MVCCIterator (σ : Type) where
  SeekGE : MVCCKey → σ → σ
  SeekIntentGE : Nat → uuid.UUID → σ → σ
  SeekLT : MVCCKey → σ → σ
  Next : σ → σ
  NextKey : σ → σ
  Prev : σ → σ
  Valid : σ → Bool × Option Error
  HasPointAndRange : σ → Bool × Bool
  UnsafeKey : σ → MVCCKey
  UnsafeValue : σ → Value
  RangeBounds : σ → roachpb.Span
  RangeKeys : σ → MVCCRangeKeyStack

/-- Go slice indexing `s[i]` with an `int` index: `none` is the
index-out-of-range panic. -/
def sliceIndex {α : Type} (s : List α) (i : Int) : Option α :=
  if i < 0 then none else s[i.toNat]?

/-- The loop of `sort.Search`: `for i < j { h := (i+j)/2; if !f(h) { i = h+1 }
else { j = h } }`, with a step budget; `none` when `f` panics or the budget
runs out. -/
def sortSearchLoop (f : Nat → Option Bool) : Nat → Nat → Nat → Option Nat
  | 0, i, j => if i < j then none else some i
  | fuel + 1, i, j =>
    if i < j then
      match f ((i + j) / 2) with
      | none => none
      | some false => sortSearchLoop f fuel ((i + j) / 2 + 1) j
      | some true => sortSearchLoop f fuel i ((i + j) / 2)
    else some i

/-- `sort.Search(n, f)`: the loop on `[0, n)`; a non-positive `n` returns 0. -/
def sortSearch (n : Int) (f : Nat → Option Bool) : Option Int :=
  (sortSearchLoop f n.toNat 0 n.toNat).map Int.ofNat

/-- The state of a `pointSynthesizingIter`; `iter = none` is a nil iterator. -/
structure pointSynthesizingIter (σ : Type) where
  iter : Option σ
  rangeKeys : MVCCRangeKeyVersions
  rangeKeysPos : Nat
  rangeKeysIdx : Int
  rangeKeysEnd : Int
  rangeKeysStart : Nat
  atPoint : Bool
  reverse : Bool
  emitOnSeekGE : Bool
  iterValid : Bool
  iterErr : Option Error

namespace pointSynthesizingIter

variable {σ : Type}

/-- `updateValid`: cache the underlying iterator's validity and error. -/
def updateValid (I : MVCCIterator σ) (i : pointSynthesizingIter σ) :
    Option (pointSynthesizingIter σ) :=
  match i.iter with
  | none => none
  | some it => some { i with iterValid := (I.Valid it).1, iterErr := (I.Valid it).2 }

/-- `iterNext`: `iter.Next()` followed by `updateValid`. -/
def iterNext (I : MVCCIterator σ) (i : pointSynthesizingIter σ) :
    Option (pointSynthesizingIter σ) :=
  match i.iter with
  | none => none
  | some it => updateValid I { i with iter := some (I.Next it) }

/-- `iterPrev`: `iter.Prev()` followed by `updateValid`. -/
def iterPrev (I : MVCCIterator σ) (i : pointSynthesizingIter σ) :
    Option (pointSynthesizingIter σ) :=
  match i.iter with
  | none => none
  | some it => updateValid I { i with iter := some (I.Prev it) }

/-- `clearRangeKeys`. -/
def clearRangeKeys (i : pointSynthesizingIter σ) : pointSynthesizingIter σ :=
  let i1 : pointSynthesizingIter σ :=
    if i.rangeKeys.length ≠ 0 then
      { i with rangeKeys := [], rangeKeysPos := 0, rangeKeysStart := 0 }
    else i
  let i2 := { i1 with rangeKeysEnd := 0 }
  if !i2.reverse then { i2 with rangeKeysIdx := 0 } else { i2 with rangeKeysIdx := -1 }

/-- `extendRangeKeysEnd`. -/
def extendRangeKeysEnd (I : MVCCIterator σ) (i : pointSynthesizingIter σ) :
    Option (pointSynthesizingIter σ) :=
  if i.iterValid then
    match i.iter with
    | none => none
    | some it =>
      if (I.HasPointAndRange it).1 then
        let p := I.UnsafeKey it
        if roachpb.Key.Equal p.Key i.rangeKeysPos && !hlc.Timestamp.IsEmpty p.Timestamp then
          match sortSearch i.rangeKeys.length
              (fun idx => (sliceIndex i.rangeKeys idx).map
                (fun v => hlc.Timestamp.Less v.Timestamp p.Timestamp)) with
          | none => none
          | some e => if e > i.rangeKeysEnd then some { i with rangeKeysEnd := e } else some i
        else some i
      else some i
  else some i

/-- `updateRangeKeys`. -/
def updateRangeKeys (I : MVCCIterator σ) (i : pointSynthesizingIter σ) :
    Option (pointSynthesizingIter σ) :=
  if !i.iterValid then some (clearRangeKeys i)
  else
    match i.iter with
    | none => none
    | some it =>
      if (I.HasPointAndRange it).2 then
        let i1 := { i with rangeKeysPos := (I.UnsafeKey it).Key }
        let rangeStart := (I.RangeBounds it).Key
        let i2 : pointSynthesizingIter σ :=
          if !roachpb.Key.Equal rangeStart i1.rangeKeysStart then
            { i1 with rangeKeysStart := rangeStart, rangeKeys := (I.RangeKeys it).Versions }
          else i1
        let i3 : Option (pointSynthesizingIter σ) :=
          if roachpb.Key.Equal i2.rangeKeysPos i2.rangeKeysStart then
            some { i2 with rangeKeysEnd := i2.rangeKeys.length }
          else extendRangeKeysEnd I { i2 with rangeKeysEnd := 0 }
        match i3 with
        | none => none
        | some i4 =>
          if !i4.reverse then some { i4 with rangeKeysIdx := 0 }
          else some { i4 with rangeKeysIdx := i4.rangeKeysEnd - 1 }
      else some (clearRangeKeys i)

/-- `updateAtPoint`. -/
def updateAtPoint (I : MVCCIterator σ) (i : pointSynthesizingIter σ) :
    Option (pointSynthesizingIter σ) :=
  if !i.iterValid then some { i with atPoint := false }
  else
    match i.iter with
    | none => none
    | some it =>
      if !(I.HasPointAndRange it).1 then some { i with atPoint := false }
      else if i.rangeKeys.length = 0 then some { i with atPoint := true }
      else
        let point := I.UnsafeKey it
        if !roachpb.Key.Equal point.Key i.rangeKeysPos then some { i with atPoint := false }
        else if !i.reverse then
          if i.rangeKeysIdx ≥ i.rangeKeysEnd || !hlc.Timestamp.IsSet point.Timestamp then
            some { i with atPoint := true }
          else
            match sliceIndex i.rangeKeys i.rangeKeysIdx with
            | none => none
            | some v => some { i with atPoint := hlc.Timestamp.LessEq v.Timestamp point.Timestamp }
        else
          if i.rangeKeysIdx < 0 then some { i with atPoint := true }
          else if hlc.Timestamp.IsSet point.Timestamp then
            match sliceIndex i.rangeKeys i.rangeKeysIdx with
            | none => none
            | some v => some { i with atPoint := hlc.Timestamp.LessEq point.Timestamp v.Timestamp }
          else some { i with atPoint := false }

/-- `updatePosition`. -/
def updatePosition (I : MVCCIterator σ) (i : pointSynthesizingIter σ) :
    Option (pointSynthesizingIter σ) :=
  if !i.iterValid then some (clearRangeKeys { i with atPoint := false })
  else
    match i.iter with
    | none => none
    | some it =>
      let hasPoint := (I.HasPointAndRange it).1
      let hasRange := (I.HasPointAndRange it).2
      if !hasRange then some (clearRangeKeys { i with atPoint := hasPoint })
      else if !i.reverse then
        match updateRangeKeys I i with
        | none => none
        | some i1 =>
          if hasRange && !hasPoint then
            match iterNext I i1 with
            | none => none
            | some i2 =>
              if i2.iterErr ≠ none then some i2
              else
                match extendRangeKeysEnd I i2 with
                | none => none
                | some i3 => updateAtPoint I i3
          else updateAtPoint I i1
      else
        let stepped : Option (pointSynthesizingIter σ × Bool) :=
          if hasRange && !hasPoint && roachpb.Key.Equal (I.UnsafeKey it).Key i.rangeKeysPos then
            match iterPrev I i with
            | none => none
            | some i1 => some (i1, decide (i1.iterErr ≠ none))
          else some (i, false)
        match stepped with
        | none => none
        | some (i1, true) => some i1
        | some (i1, false) =>
          match updateRangeKeys I i1 with
          | none => none
          | some i2 => updateAtPoint I i2

/-- The common end of `updateSeekGEPosition` and `Next`: `updateAtPoint`, then
`updatePosition` when the range keys are exhausted and there is no point. -/
def finishFwd (I : MVCCIterator σ) (i : pointSynthesizingIter σ) :
    Option (pointSynthesizingIter σ) :=
  match updateAtPoint I i with
  | none => none
  | some i2 =>
    if !i2.atPoint && decide (i2.rangeKeysIdx ≥ i2.rangeKeysEnd) then updatePosition I i2
    else some i2

/-- In `updateSeekGEPosition`: with `emitOnSeekGE`, expose all range keys at the
current position. -/
def seekWindow (hasRange : Bool) (i : pointSynthesizingIter σ) : pointSynthesizingIter σ :=
  if hasRange && i.emitOnSeekGE then { i with rangeKeysEnd := i.rangeKeys.length } else i

/-- In `updateSeekGEPosition`: when seeking to a specific version, skip the newer
range keys. -/
def seekCursor (seekKey : MVCCKey) (i : pointSynthesizingIter σ) :
    Option (pointSynthesizingIter σ) :=
  if decide (i.rangeKeys.length > 0) && hlc.Timestamp.IsSet seekKey.Timestamp &&
      roachpb.Key.Equal seekKey.Key i.rangeKeysPos then
    (sortSearch i.rangeKeysEnd
      (fun idx => (sliceIndex i.rangeKeys idx).map
        (fun v => hlc.Timestamp.LessEq v.Timestamp seekKey.Timestamp))).map
      (fun n => { i with rangeKeysIdx := n })
  else some i

/-- The part of `updateSeekGEPosition` after the optional skip over a bare
range key: `hasPoint`, `hasRange` are the flags of the landing position. -/
def updateSeekGEPositionTail (I : MVCCIterator σ) (seekKey : MVCCKey)
    (hasPoint hasRange : Bool) (i : pointSynthesizingIter σ) :
    Option (pointSynthesizingIter σ) :=
  match updateRangeKeys I i with
  | none => none
  | some i1 =>
    let bare : Option (pointSynthesizingIter σ × Bool) :=
      if hasRange && !hasPoint then
        match iterNext I i1 with
        | none => none
        | some i2 =>
          if i2.iterErr ≠ none then some (i2, true)
          else (extendRangeKeysEnd I i2).map (fun i3 => (i3, false))
      else some (i1, false)
    match bare with
    | none => none
    | some (i2, true) => some i2
    | some (i2, false) =>
      match seekCursor seekKey (seekWindow hasRange i2) with
      | none => none
      | some i5 => finishFwd I i5

/-- `updateSeekGEPosition`. -/
def updateSeekGEPosition (I : MVCCIterator σ) (seekKey : MVCCKey)
    (i : pointSynthesizingIter σ) : Option (pointSynthesizingIter σ) :=
  match i.iter with
  | none => none
  | some it =>
    let hasPoint := (I.HasPointAndRange it).1
    let hasRange := (I.HasPointAndRange it).2
    if !hasRange then some (clearRangeKeys { i with atPoint := hasPoint })
    else if !i.emitOnSeekGE && hasRange && !hasPoint &&
        !roachpb.Key.Equal (I.RangeBounds it).Key (I.UnsafeKey it).Key then
      match iterNext I i with
      | none => none
      | some i1 =>
        if !i1.iterValid then updatePosition I i1
        else
          match i1.iter with
          | none => none
          | some it1 =>
            updateSeekGEPositionTail I seekKey (I.HasPointAndRange it1).1
              (I.HasPointAndRange it1).2 i1
    else updateSeekGEPositionTail I seekKey hasPoint hasRange i

/-- `SeekGE`. -/
def SeekGE (I : MVCCIterator σ) (seekKey : MVCCKey) (i : pointSynthesizingIter σ) :
    Option (pointSynthesizingIter σ) :=
  match i.iter with
  | none => none
  | some it =>
    match updateValid I { i with reverse := false, iter := some (I.SeekGE seekKey it) } with
    | none => none
    | some i1 =>
      if !i1.iterValid then updatePosition I i1
      else updateSeekGEPosition I seekKey i1

/-- `SeekIntentGE`. -/
def SeekIntentGE (I : MVCCIterator σ) (seekKey : Nat) (txnUUID : uuid.UUID)
    (i : pointSynthesizingIter σ) : Option (pointSynthesizingIter σ) :=
  match i.iter with
  | none => none
  | some it =>
    match updateValid I
        { i with reverse := false, iter := some (I.SeekIntentGE seekKey txnUUID it) } with
    | none => none
    | some i1 =>
      if !i1.iterValid then updatePosition I i1
      else updateSeekGEPosition I ⟨seekKey, 0⟩ i1

/-- The common end of `Next`: step off the current point, real or synthetic,
and reposition when the range keys are exhausted. -/
def nextStep (I : MVCCIterator σ) (i : pointSynthesizingIter σ) :
    Option (pointSynthesizingIter σ) :=
  let stepped : Option (pointSynthesizingIter σ × Bool) :=
    if i.atPoint then
      match iterNext I i with
      | none => none
      | some i1 =>
        if i1.iterErr ≠ none then some (i1, true)
        else (extendRangeKeysEnd I i1).map (fun i2 => (i2, false))
    else some ({ i with rangeKeysIdx := i.rangeKeysIdx + 1 }, false)
  match stepped with
  | none => none
  | some (i1, true) => some i1
  | some (i1, false) => finishFwd I i1

/-- `Next`. -/
def Next (I : MVCCIterator σ) (i : pointSynthesizingIter σ) :
    Option (pointSynthesizingIter σ) :=
  if i.reverse then
    let i0 := { i with reverse := false }
    if !i0.atPoint && i0.rangeKeys.length = 0 then
      match iterNext I i0 with
      | none => none
      | some i1 => if i1.iterErr ≠ none then some i1 else updatePosition I i1
    else if i0.atPoint then nextStep I { i0 with rangeKeysIdx := i0.rangeKeysIdx + 1 }
    else
      match iterNext I i0 with
      | none => none
      | some i1 => if i1.iterErr ≠ none then some i1 else nextStep I i1
  else nextStep I i

/-- `NextKey`. -/
def NextKey (I : MVCCIterator σ) (i : pointSynthesizingIter σ) :
    Option (pointSynthesizingIter σ) :=
  let flipped : Option (pointSynthesizingIter σ × Bool) :=
    if i.reverse then
      let i0 := { i with reverse := false }
      if !i0.atPoint then
        match iterNext I i0 with
        | none => none
        | some i1 => some (i1, decide (i1.iterErr ≠ none))
      else some (i0, false)
    else some (i, false)
  match flipped with
  | none => none
  | some (i1, true) => some i1
  | some (i1, false) =>
    match i1.iter with
    | none => none
    | some it =>
      if i1.atPoint || roachpb.Key.Equal i1.rangeKeysPos (I.UnsafeKey it).Key then
        match updateValid I { i1 with iter := some (I.NextKey it) } with
        | none => none
        | some i2 => if i2.iterErr ≠ none then some i2 else updatePosition I i2
      else updatePosition I i1

/-- In `SeekLT`: when seeking to a specific version, skip over the older range
keys. -/
def seekLTCursor (seekKey : MVCCKey) (i : pointSynthesizingIter σ) :
    Option (pointSynthesizingIter σ) :=
  if hlc.Timestamp.IsSet seekKey.Timestamp && roachpb.Key.Equal seekKey.Key i.rangeKeysPos then
    (sortSearch i.rangeKeysEnd
      (fun idx => (sliceIndex i.rangeKeys idx).map
        (fun v => hlc.Timestamp.LessEq v.Timestamp seekKey.Timestamp))).map
      (fun n => { i with rangeKeysIdx := n - 1 })
  else some i

/-- The end of `SeekLT`, after the range keys have been loaded. -/
def seekLTTail (I : MVCCIterator σ) (seekKey : MVCCKey) (i : pointSynthesizingIter σ) :
    Option (pointSynthesizingIter σ) :=
  match seekLTCursor seekKey i with
  | none => none
  | some i2 =>
    match updateAtPoint I i2 with
    | none => none
    | some i3 =>
      if !i3.atPoint && decide (i3.rangeKeysIdx < 0) then updatePosition I i3 else some i3

/-- `SeekLT`. -/
def SeekLT (I : MVCCIterator σ) (seekKey : MVCCKey) (i : pointSynthesizingIter σ) :
    Option (pointSynthesizingIter σ) :=
  match i.iter with
  | none => none
  | some it =>
    match updateValid I { i with reverse := true, iter := some (I.SeekLT seekKey it) } with
    | none => none
    | some i1 =>
      if !i1.iterValid then updatePosition I i1
      else
        match i1.iter with
        | none => none
        | some it1 =>
          let hasPoint := (I.HasPointAndRange it1).1
          let hasRange := (I.HasPointAndRange it1).2
          if !hasRange then some (clearRangeKeys { i1 with atPoint := hasPoint })
          else if hlc.Timestamp.IsSet seekKey.Timestamp && hasRange &&
              decide (roachpb.Key.Compare seekKey.Key (I.RangeBounds it1).EndKey < 0) then
            match iterNext I i1 with
            | none => none
            | some i2 =>
              if i2.iterErr ≠ none then some i2
              else
                let peeked : Option (pointSynthesizingIter σ × Bool) :=
                  if i2.iterValid then
                    match i2.iter with
                    | none => none
                    | some it2 =>
                      if (I.HasPointAndRange it2).1 &&
                          roachpb.Key.Equal (I.UnsafeKey it2).Key seekKey.Key then
                        (updateRangeKeys I i2).map (fun i3 => (i3, true))
                      else some (i2, false)
                  else some (i2, false)
                match peeked with
                | none => none
                | some (i3, positioned) =>
                  match iterPrev I i3 with
                  | none => none
                  | some i4 =>
                    if !i4.iterValid then updatePosition I i4
                    else if positioned then seekLTTail I seekKey i4
                    else
                      match updateRangeKeys I i4 with
                      | none => none
                      | some i5 => seekLTTail I seekKey i5
          else
            match updateRangeKeys I i1 with
            | none => none
            | some i2 => seekLTTail I seekKey i2

/-- The end of `Prev`: `updateAtPoint`, then `updatePosition` when the range
keys are exhausted and the adapter is not on a point at the cached key. -/
def finishRev (I : MVCCIterator σ) (i : pointSynthesizingIter σ) :
    Option (pointSynthesizingIter σ) :=
  match updateAtPoint I i with
  | none => none
  | some i2 =>
    if decide (i2.rangeKeysIdx < 0) then
      if !i2.atPoint then updatePosition I i2
      else
        match i2.iter with
        | none => none
        | some it =>
          if !roachpb.Key.Equal i2.rangeKeysPos (I.UnsafeKey it).Key then updatePosition I i2
          else some i2
    else some i2

/-- The common end of `Prev`: step off the current point, real or synthetic,
and reposition when needed. -/
def prevStep (I : MVCCIterator σ) (i : pointSynthesizingIter σ) :
    Option (pointSynthesizingIter σ) :=
  let stepped : Option (pointSynthesizingIter σ × Bool) :=
    if i.atPoint then
      match iterPrev I i with
      | none => none
      | some i1 => some (i1, decide (i1.iterErr ≠ none))
    else some ({ i with rangeKeysIdx := i.rangeKeysIdx - 1 }, false)
  match stepped with
  | none => none
  | some (i1, true) => some i1
  | some (i1, false) => finishRev I i1

/-- `Prev`. -/
def Prev (I : MVCCIterator σ) (i : pointSynthesizingIter σ) :
    Option (pointSynthesizingIter σ) :=
  if !i.reverse then
    let i0 := { i with reverse := true }
    if !i0.atPoint && i0.rangeKeys.length = 0 then
      match iterPrev I i0 with
      | none => none
      | some i1 => if i1.iterErr ≠ none then some i1 else updatePosition I i1
    else if i0.atPoint then prevStep I { i0 with rangeKeysIdx := i0.rangeKeysIdx - 1 }
    else
      match iterPrev I i0 with
      | none => none
      | some i1 => if i1.iterErr ≠ none then some i1 else prevStep I i1
  else prevStep I i

/-- `Valid`, lines 560-563: what the method returns in a build without the race
assertions, and in a race build once `assertInvariants` has passed (lines
555-559, which `ValidRace` adds). -/
def Valid (i : pointSynthesizingIter σ) : Bool × Option Error :=
  if i.iterErr = none ∧ i.atPoint = false ∧ i.rangeKeysIdx ≥ 0 ∧
      i.rangeKeysIdx < i.rangeKeysEnd then (true, none)
  else (i.iterValid, i.iterErr)

/-- `UnsafeKey`. -/
def UnsafeKey (I : MVCCIterator σ) (i : pointSynthesizingIter σ) : Option MVCCKey :=
  if i.atPoint then i.iter.map I.UnsafeKey
  else if i.rangeKeysIdx ≥ i.rangeKeysEnd ∨ i.rangeKeysIdx < 0 then some ⟨0, 0⟩
  else (sliceIndex i.rangeKeys i.rangeKeysIdx).map (fun v => ⟨i.rangeKeysPos, v.Timestamp⟩)

/-- `UnsafeValue`. -/
def UnsafeValue (I : MVCCIterator σ) (i : pointSynthesizingIter σ) : Option Value :=
  if i.atPoint then i.iter.map I.UnsafeValue
  else if i.rangeKeysIdx ≥ i.rangeKeys.length ∨ i.rangeKeysIdx < 0 then some none
  else (sliceIndex i.rangeKeys i.rangeKeysIdx).map (fun v => v.Value)

/-- `HasPointAndRange`. -/
def HasPointAndRange (_i : pointSynthesizingIter σ) : Bool × Bool := (true, false)

/-- `RangeBounds`: the empty span. -/
def RangeBounds (_i : pointSynthesizingIter σ) : roachpb.Span := ⟨0, 0⟩

/-- `RangeKeys`: the empty stack. -/
def RangeKeys (_i : pointSynthesizingIter σ) : MVCCRangeKeyStack := ⟨⟨0, 0⟩, []⟩

/-- `RangeKeyChanged`. -/
def RangeKeyChanged (_i : pointSynthesizingIter σ) : Bool := false

/-- `release`: every field zeroed, the three slices truncated to length 0. -/
def release (_i : pointSynthesizingIter σ) : pointSynthesizingIter σ :=
  { iter := none, rangeKeys := [], rangeKeysPos := 0, rangeKeysIdx := 0, rangeKeysEnd := 0,
    rangeKeysStart := 0, atPoint := false, reverse := false, emitOnSeekGE := false,
    iterValid := false, iterErr := none }

end pointSynthesizingIter

/-- `newPointSynthesizingIter`: `pooled` is the instance the pool hands out,
whose three slices are reused. -/
def newPointSynthesizingIter {σ : Type} (pooled : pointSynthesizingIter σ) (parent : σ)
    (emitOnSeekGE : Bool) : pointSynthesizingIter σ :=
  { iter := some parent, emitOnSeekGE := emitOnSeekGE, rangeKeys := pooled.rangeKeys,
    rangeKeysPos := pooled.rangeKeysPos, rangeKeysStart := pooled.rangeKeysStart,
    rangeKeysIdx := 0, rangeKeysEnd := 0, atPoint := false, reverse := false,
    iterValid := false, iterErr := none }

/-! ## The wrapped iterator over a finite dataset -/

/-- `MVCCKey.Less`: MVCC order, key ascending, then the empty timestamp first
and set timestamps descending. -/
def MVCCKey.Less (a b : MVCCKey) : Prop :=
  a.Key < b.Key ∨ (a.Key = b.Key ∧
    ((a.Timestamp = 0 ∧ b.Timestamp ≠ 0) ∨ (b.Timestamp ≠ 0 ∧ b.Timestamp < a.Timestamp)))

instance (a b : MVCCKey) : Decidable (a.Less b) := by
  unfold MVCCKey.Less; infer_instance

/-- A stored point record. -/
structure PointKV where
  key : Nat
  ts : Nat
  value : Value
deriving DecidableEq, Repr

/-- A stored range record: the span `[start, endKey)` and its version stack. -/
structure RangeKV where
  start : Nat
  endKey : Nat
  versions : MVCCRangeKeyVersions
deriving DecidableEq, Repr

/-- A finite dataset of point records and range records. -/
structure Dataset where
  points : List PointKV
  ranges : List RangeKV
deriving Repr

/-- Timestamps strictly descending (newest first) and all set. -/
def versionsSorted : MVCCRangeKeyVersions → Bool
  | [] => true
  | [v] => v.Timestamp != 0
  | v :: w :: l => decide (w.Timestamp < v.Timestamp) && versionsSorted (w :: l)

/-- The range record covers key `k`. -/
def RangeKV.covers (r : RangeKV) (k : Nat) : Bool :=
  decide (r.start ≤ k) && decide (k < r.endKey)

/-- Well-formed datasets: keys are non-empty, point positions are distinct,
spans are non-empty and pairwise disjoint, every version stack is non-empty and
newest first, no point has the timestamp of a range version covering it, and
every span surfaces as a bare range position at its start key (no point with
the empty timestamp sits on a span's start key). -/
def Dataset.WF (D : Dataset) : Prop :=
  (∀ p ∈ D.points, p.key ≠ 0) ∧
  D.points.Pairwise (fun p q => ¬ (p.key = q.key ∧ p.ts = q.ts)) ∧
  (∀ r ∈ D.ranges, r.start ≠ 0 ∧ r.start < r.endKey ∧ r.versions ≠ [] ∧
    versionsSorted r.versions = true) ∧
  D.ranges.Pairwise (fun r s => r.endKey ≤ s.start ∨ s.endKey ≤ r.start) ∧
  (∀ p ∈ D.points, ∀ r ∈ D.ranges, r.covers p.key = true →
    ∀ v ∈ r.versions, v.Timestamp ≠ p.ts) ∧
  (∀ p ∈ D.points, ∀ r ∈ D.ranges, ¬ (p.key = r.start ∧ p.ts = 0))

instance (D : Dataset) : Decidable D.WF := by
  unfold Dataset.WF; infer_instance

/-- The point record stored at an MVCC key, if any. -/
def Dataset.pointAt (D : Dataset) (c : MVCCKey) : Option PointKV :=
  D.points.find? (fun p => p.key == c.Key && p.ts == c.Timestamp)

/-- The range record covering a key, if any. -/
def Dataset.rangeAt (D : Dataset) (k : Nat) : Option RangeKV :=
  D.ranges.find? (fun r => r.covers k)

/-- The positions of a scan: every point key, and the start key of every span
with the empty timestamp. -/
def Dataset.positions (D : Dataset) : List MVCCKey :=
  D.points.map (fun p => ⟨p.key, p.ts⟩) ++ D.ranges.map (fun r => ⟨r.start, 0⟩)

/-- The least key of a list in MVCC order. -/
def minKey : List MVCCKey → Option MVCCKey
  | [] => none
  | k :: l =>
    match minKey l with
    | none => some k
    | some m => if k.Less m then some k else some m

/-- The greatest key of a list in MVCC order. -/
def maxKey : List MVCCKey → Option MVCCKey
  | [] => none
  | k :: l =>
    match maxKey l with
    | none => some k
    | some m => if m.Less k then some k else some m

/-- The position of the wrapped iterator: exhausted at either end, or on an
MVCC key. -/
inductive DataCursor where
  | before : DataCursor
  | onKey : MVCCKey → DataCursor
  | after : DataCursor
deriving DecidableEq, Repr

/-- The cursor on the least of the given keys, `after` when there is none. -/
def DataCursor.ofMin (o : Option MVCCKey) : DataCursor :=
  match o with
  | none => DataCursor.after
  | some k => DataCursor.onKey k

/-- The cursor on the greatest of the given keys, `before` when there is none. -/
def DataCursor.ofMax (o : Option MVCCKey) : DataCursor :=
  match o with
  | none => DataCursor.before
  | some k => DataCursor.onKey k

/-- The first position strictly after `x` in MVCC order. -/
def Dataset.nextPos (D : Dataset) (x : MVCCKey) : DataCursor :=
  DataCursor.ofMin (minKey (D.positions.filter (fun p => decide (x.Less p))))

/-- The last position strictly before `x` in MVCC order. -/
def Dataset.prevPos (D : Dataset) (x : MVCCKey) : DataCursor :=
  DataCursor.ofMax (maxKey (D.positions.filter (fun p => decide (p.Less x))))

/-- Modelled from the spec: the wrapped MVCC iterator (the storage engine's
iterator, which is not part of these sources), as a faithful iterator over a
finite dataset. Its positions follow MVCC order; a span surfaces as a bare range
position at its start key; every position inside a span reports `hasRange`; a
forward seek into a span that finds no point at the seek key lands on a bare
range position at the seek key; it never reports an error. -/
def dataIter (D : Dataset) : MVCCIterator DataCursor where
  SeekGE := fun k _ =>
    if (D.pointAt k).isSome || (D.rangeAt k.Key).isSome then DataCursor.onKey k
    else D.nextPos k
  SeekIntentGE := fun k _ _ =>
    if (D.pointAt ⟨k, 0⟩).isSome || (D.rangeAt k).isSome then DataCursor.onKey ⟨k, 0⟩
    else D.nextPos ⟨k, 0⟩
  SeekLT := fun k _ => D.prevPos k
  Next := fun c =>
    match c with
    | DataCursor.before => DataCursor.ofMin (minKey D.positions)
    | DataCursor.onKey k => D.nextPos k
    | DataCursor.after => DataCursor.after
  NextKey := fun c =>
    match c with
    | DataCursor.before => DataCursor.ofMin (minKey D.positions)
    | DataCursor.onKey k =>
      DataCursor.ofMin (minKey (D.positions.filter (fun p => decide (k.Key < p.Key))))
    | DataCursor.after => DataCursor.after
  Prev := fun c =>
    match c with
    | DataCursor.before => DataCursor.before
    | DataCursor.onKey k => D.prevPos k
    | DataCursor.after => DataCursor.ofMax (maxKey D.positions)
  Valid := fun c =>
    match c with
    | DataCursor.onKey _ => (true, none)
    | _ => (false, none)
  HasPointAndRange := fun c =>
    match c with
    | DataCursor.onKey k => ((D.pointAt k).isSome, (D.rangeAt k.Key).isSome)
    | _ => (false, false)
  UnsafeKey := fun c =>
    match c with
    | DataCursor.onKey k => k
    | _ => ⟨0, 0⟩
  UnsafeValue := fun c =>
    match c with
    | DataCursor.onKey k => (D.pointAt k).bind (fun p => p.value)
    | _ => none
  RangeBounds := fun c =>
    match c with
    | DataCursor.onKey k =>
      match D.rangeAt k.Key with
      | some r => ⟨r.start, r.endKey⟩
      | none => ⟨0, 0⟩
    | _ => ⟨0, 0⟩
  RangeKeys := fun c =>
    match c with
    | DataCursor.onKey k =>
      match D.rangeAt k.Key with
      | some r => ⟨⟨r.start, r.endKey⟩, r.versions⟩
      | none => ⟨⟨0, 0⟩, []⟩
    | _ => ⟨⟨0, 0⟩, []⟩

/-- The adapter over the dataset iterator. -/
abbrev DataIter := pointSynthesizingIter DataCursor

/-! ## What a scan must expose -/

/-- The number of versions of a stack strictly newer than timestamp `t`. -/
def newer (V : MVCCRangeKeyVersions) (t : Nat) : Nat :=
  (V.filter (fun v => decide (t < v.Timestamp))).length

/-- The number of versions newer than a point with timestamp `t`; a point with
the empty timestamp sorts before every version. -/
def newerPt (V : MVCCRangeKeyVersions) (t : Nat) : Nat :=
  if t = 0 then 0 else newer V t

/-- Version `v` of range record `r` is synthesized at key `K`: `K` is the start
key of the span, or `K` carries a real timestamped point below `v`, or `K` is
the key `fk` of an `emitOnSeekGE` seek (`fk = 0` when there is none). -/
def Dataset.synthAt (D : Dataset) (fk : Nat) (r : RangeKV) (K : Nat)
    (v : MVCCRangeKeyVersion) : Bool :=
  decide (K = r.start) || decide (K = fk) ||
    D.points.any (fun p => decide (p.key = K) && decide (p.ts ≠ 0) &&
      decide (p.ts < v.Timestamp))

/-- The number of versions of `r` synthesized at key `K`. -/
def Dataset.window (D : Dataset) (fk : Nat) (r : RangeKV) (K : Nat) : Nat :=
  (r.versions.filter (D.synthAt fk r K)).length

/-- The MVCC key `e` is exposed: it is a real point, or a synthesized point. -/
def Dataset.isExposed (D : Dataset) (fk : Nat) (e : MVCCKey) : Prop :=
  (D.pointAt e).isSome = true ∨
    ∃ r, D.rangeAt e.Key = some r ∧
      ∃ v ∈ r.versions, v.Timestamp = e.Timestamp ∧ D.synthAt fk r e.Key v = true

/-! ## Coupling between the adapter and the dataset -/

/-- The cursor is on a position. -/
def DataCursor.isOn : DataCursor → Bool
  | DataCursor.onKey _ => true
  | _ => false

/-- The number of versions at or above timestamp `t`. -/
def newerEq (V : MVCCRangeKeyVersions) (t : Nat) : Nat :=
  (V.filter (fun v => decide (t ≤ v.Timestamp))).length

/-- The cache holds the versions of `r`, positioned at key `K`. -/
structure CacheAt (st : DataIter) (r : RangeKV) (K : Nat) : Prop where
  rangeKeys : st.rangeKeys = r.versions
  pos : st.rangeKeysPos = K
  start : st.rangeKeysStart = r.start

/-- The cache is cleared. -/
structure CacheEmpty (st : DataIter) : Prop where
  rangeKeys : st.rangeKeys = []
  pos : st.rangeKeysPos = 0
  start : st.rangeKeysStart = 0

/-- The cache is cleared or memoizes a range record of the dataset. -/
def CacheOK (D : Dataset) (st : DataIter) : Prop :=
  CacheEmpty st ∨ ∃ r ∈ D.ranges, st.rangeKeys = r.versions ∧ st.rangeKeysStart = r.start

/-- A state from which a seek can start: it wraps an iterator and its cache is
cleared or memoizes a range record of the dataset. -/
def Ready (D : Dataset) (st : DataIter) : Prop :=
  st.iter.isSome = true ∧ CacheOK D st

/-- The adapter wraps the error-free dataset iterator at cursor `ic`, with the
given direction. -/
structure Coupled (st : DataIter) (ic : DataCursor) (rev : Bool) : Prop where
  iter : st.iter = some ic
  reverse : st.reverse = rev
  iterErr : st.iterErr = none
  iterValid : st.iterValid = ic.isOn

/-- The window end `e` at key `K`: only synthesized versions are inside, and the
synthesized versions still outside lie below the point the iterator is on. -/
def EndOK (D : Dataset) (fk : Nat) (r : RangeKV) (K : Nat) (ic : DataCursor) (e : Nat) : Prop :=
  e ≤ D.window fk r K ∧
    (D.window fk r K ≤ e ∨
      (K ≠ r.start ∧ K ≠ fk ∧
        ∃ q, ic = DataCursor.onKey q ∧ q.Key = K ∧ newerPt r.versions q.Timestamp ≤ e))

/-- Forward direction, on the real point `x`. -/
structure FwdReal (D : Dataset) (fk : Nat) (st : DataIter) (x : MVCCKey) : Prop where
  base : Coupled st (DataCursor.onKey x) false
  point : (D.pointAt x).isSome = true
  atPoint : st.atPoint = true
  fk_le : fk ≤ x.Key
  bare : D.rangeAt x.Key = none →
    CacheEmpty st ∧ st.rangeKeysIdx = 0 ∧ st.rangeKeysEnd = 0
  covered : ∀ r, D.rangeAt x.Key = some r →
    CacheAt st r x.Key ∧ st.rangeKeysIdx = (newerPt r.versions x.Timestamp : Nat) ∧
      ∃ e : Nat, st.rangeKeysEnd = (e : Int) ∧ EndOK D fk r x.Key (DataCursor.onKey x) e

/-- Forward direction, on the synthesized point `x`: the iterator is on the
first position after it. -/
structure FwdSyn (D : Dataset) (fk : Nat) (st : DataIter) (x : MVCCKey) : Prop where
  base : Coupled st (D.nextPos x) false
  atPoint : st.atPoint = false
  fk_le : fk ≤ x.Key
  covered : ∃ r, D.rangeAt x.Key = some r ∧ CacheAt st r x.Key ∧
    st.rangeKeysIdx = (newer r.versions x.Timestamp : Nat) ∧
    (∃ v, r.versions[newer r.versions x.Timestamp]? = some v ∧ v.Timestamp = x.Timestamp) ∧
    ∃ e : Nat, st.rangeKeysEnd = (e : Int) ∧ newer r.versions x.Timestamp < e ∧
      EndOK D fk r x.Key (D.nextPos x) e

/-- Forward direction, positioned on the exposed key `x`. -/
def FwdAt (D : Dataset) (fk : Nat) (st : DataIter) (x : MVCCKey) : Prop :=
  FwdReal D fk st x ∨ FwdSyn D fk st x

/-- Forward direction, exhausted. -/
structure FwdDone (st : DataIter) : Prop where
  base : Coupled st DataCursor.after false
  atPoint : st.atPoint = false
  cache : CacheEmpty st
  idx : st.rangeKeysIdx = 0
  endEq : st.rangeKeysEnd = 0

/-- The state is positioned on the first exposed key after `x`, or exhausted
when there is none. -/
def LandsAfter (D : Dataset) (fk : Nat) (st : DataIter) (x : MVCCKey) : Prop :=
  (FwdDone st ∧ ∀ e, D.isExposed fk e → ¬ x.Less e) ∨
    ∃ y, FwdAt D fk st y ∧ x.Less y ∧ ∀ e, D.isExposed fk e → x.Less e → ¬ e.Less y

/-- The number of versions at key `K` already passed once `x` is consumed. -/
def consumed (V : MVCCRangeKeyVersions) (K : Nat) (x : MVCCKey) : Nat :=
  if x.Key = K ∧ x.Timestamp ≠ 0 then newerEq V x.Timestamp else 0

/-- Forward direction, in the middle of a step: everything up to `x` is
consumed, the cache is positioned at key `K`, the iterator is on the first
position after `x`, and `atPoint` is still to be decided. -/
structure FwdMid (D : Dataset) (fk : Nat) (st : DataIter) (K : Nat) (x : MVCCKey)
    (r : RangeKV) (e : Nat) : Prop where
  base : Coupled st (D.nextPos x) false
  range : D.rangeAt K = some r
  cache : CacheAt st r K
  key_le : x.Key ≤ K
  fk_le : fk ≤ K
  idx : st.rangeKeysIdx = (consumed r.versions K x : Nat)
  endEq : st.rangeKeysEnd = (e : Int)
  idx_le : consumed r.versions K x ≤ e
  endOK : EndOK D fk r K (D.nextPos x) e
  gapPos : x.Key < K → ∃ q, D.nextPos x = DataCursor.onKey q ∧ q.Key = K ∧
    (D.pointAt q).isSome = true
  gapExp : ∀ y, D.isExposed fk y → x.Less y → K ≤ y.Key

/-- The window of the cached key is exhausted and the iterator has left the key:
the state that `updatePosition` re-synchronises. -/
structure FwdStuck (D : Dataset) (fk : Nat) (st : DataIter) (x : MVCCKey) : Prop where
  base : Coupled st (D.nextPos x) false
  cache : CacheOK D st
  fk_le : fk ≤ x.Key
  gapPos : ∀ q, D.nextPos x = DataCursor.onKey q → x.Key < q.Key
  gapExp : ∀ y, D.isExposed fk y → x.Less y → x.Key < y.Key

/-- The window end `e` at key `K` in the reverse direction, everything from `x`
on being consumed: the window is complete, or the synthesized versions still
outside lie below a point of the key at or after `x`. -/
def RevEndOK (D : Dataset) (fk : Nat) (r : RangeKV) (K : Nat) (x : MVCCKey) (e : Nat) : Prop :=
  D.window fk r K ≤ e ∨
    (K ≠ r.start ∧ K ≠ fk ∧
      ∃ q, (D.pointAt q).isSome = true ∧ q.Key = K ∧ ¬ q.Less x ∧
        newerPt r.versions q.Timestamp ≤ e)

/-- Reverse direction, on the real point `x`. The key `fk` of an `emitOnSeekGE`
seek (`fk = 0` when there is none) is not below the key of `x`. -/
structure RevReal (D : Dataset) (fk : Nat) (st : DataIter) (x : MVCCKey) : Prop where
  base : Coupled st (DataCursor.onKey x) true
  point : (D.pointAt x).isSome = true
  atPoint : st.atPoint = true
  fk_ge : fk = 0 ∨ x.Key ≤ fk
  bare : D.rangeAt x.Key = none →
    CacheEmpty st ∧ st.rangeKeysIdx = -1 ∧ st.rangeKeysEnd = 0
  covered : ∀ r, D.rangeAt x.Key = some r →
    CacheAt st r x.Key ∧ st.rangeKeysIdx = (newerPt r.versions x.Timestamp : Int) - 1 ∧
      ∃ e : Nat, st.rangeKeysEnd = (e : Int) ∧ newerPt r.versions x.Timestamp ≤ e ∧
        e ≤ D.window fk r x.Key ∧ RevEndOK D fk r x.Key x e

/-- Reverse direction, on the synthesized point `x`: the iterator is on the
last position before it. -/
structure RevSyn (D : Dataset) (fk : Nat) (st : DataIter) (x : MVCCKey) : Prop where
  base : Coupled st (D.prevPos x) true
  atPoint : st.atPoint = false
  fk_ge : fk = 0 ∨ x.Key ≤ fk
  covered : ∃ r, D.rangeAt x.Key = some r ∧ CacheAt st r x.Key ∧
    st.rangeKeysIdx = (newer r.versions x.Timestamp : Nat) ∧
    (∃ v, r.versions[newer r.versions x.Timestamp]? = some v ∧ v.Timestamp = x.Timestamp) ∧
    ∃ e : Nat, st.rangeKeysEnd = (e : Int) ∧ newer r.versions x.Timestamp < e ∧
      e ≤ D.window fk r x.Key ∧ RevEndOK D fk r x.Key x e

/-- Reverse direction, positioned on the exposed key `x`. -/
def RevAt (D : Dataset) (fk : Nat) (st : DataIter) (x : MVCCKey) : Prop :=
  RevReal D fk st x ∨ RevSyn D fk st x

/-- Reverse direction, exhausted. -/
structure RevDone (st : DataIter) : Prop where
  base : Coupled st DataCursor.before true
  atPoint : st.atPoint = false
  cache : CacheEmpty st
  idx : st.rangeKeysIdx = -1
  endEq : st.rangeKeysEnd = 0

/-- The state is positioned on the last exposed key before `x`, or exhausted
when there is none. -/
def LandsBefore (D : Dataset) (fk : Nat) (st : DataIter) (x : MVCCKey) : Prop :=
  (RevDone st ∧ ∀ e, D.isExposed fk e → ¬ e.Less x) ∨
    ∃ y, RevAt D fk st y ∧ y.Less x ∧ ∀ e, D.isExposed fk e → e.Less x → ¬ y.Less e

/-- The number of versions at key `K` still to be exposed in reverse before
`x`, out of a window of `e`. -/
def remaining (V : MVCCRangeKeyVersions) (K : Nat) (x : MVCCKey) (e : Nat) : Nat :=
  if x.Key = K then newerPt V x.Timestamp else e

/-- Reverse direction, in the middle of a step: everything from `x` on is
consumed, the cache is positioned at key `K`, the iterator is on the last
position before `x`, and `atPoint` is still to be decided. -/
structure RevMid (D : Dataset) (fk : Nat) (st : DataIter) (K : Nat) (x : MVCCKey)
    (r : RangeKV) (e : Nat) : Prop where
  base : Coupled st (D.prevPos x) true
  range : D.rangeAt K = some r
  cache : CacheAt st r K
  key_ge : K ≤ x.Key
  idx : st.rangeKeysIdx = (remaining r.versions K x e : Int) - 1
  endEq : st.rangeKeysEnd = (e : Int)
  rem_le : remaining r.versions K x e ≤ e
  end_le : e ≤ D.window fk r K
  gapPos : K < x.Key → e = D.window fk r K ∧ ∃ q, D.prevPos x = DataCursor.onKey q ∧ q.Key = K
  gapExp : ∀ y, D.isExposed fk y → y.Less x → y.Key ≤ K
  fk_ge : fk = 0 ∨ x.Key ≤ fk
  endOK : RevEndOK D fk r K x e

/-- Reverse direction: nothing is left to expose at the key of `x` except real
points outside every span: the state that `updatePosition` re-synchronises. A
bare range position under the iterator has the cached key exactly when it is
the start of the span of `x`, whose synthesized points are all consumed. -/
structure RevStuck (D : Dataset) (fk : Nat) (st : DataIter) (x : MVCCKey) : Prop where
  base : Coupled st (D.prevPos x) true
  cache : CacheOK D st
  skip : ∀ q, D.prevPos x = DataCursor.onKey q → (D.pointAt q).isSome = false →
    (q.Key = st.rangeKeysPos ↔ q.Key = x.Key)
  same : ∀ y, D.isExposed fk y → y.Less x → y.Key = x.Key →
    (D.pointAt y).isSome = true ∧ D.rangeAt x.Key = none
  fk_ge : fk = 0 ∨ x.Key ≤ fk

/-- The state is positioned on the first exposed key at or after `k`, or
exhausted when there is none. -/
def LandsFrom (D : Dataset) (fk : Nat) (st : DataIter) (k : MVCCKey) : Prop :=
  (FwdDone st ∧ ∀ e, D.isExposed fk e → e.Less k) ∨
    ∃ y, FwdAt D fk st y ∧ ¬ y.Less k ∧ ∀ e, D.isExposed fk e → ¬ e.Less k → ¬ e.Less y

/-! ## Scans -/

/-- The value stored under an exposed key: the value of the real point at that
key, or else the value of the covering range key version with that timestamp. -/
def Dataset.valueOf (D : Dataset) (x : MVCCKey) : Value :=
  match D.pointAt x with
  | some p => p.value
  | none =>
    match D.rangeAt x.Key with
    | some r =>
      (r.versions.find? (fun v => v.Timestamp == x.Timestamp)).bind (fun v => v.Value)
    | none => none

/-- A scan loop: while `Valid` reports true, record `UnsafeKey` and
`UnsafeValue` and take one step. The result is `none` when a call fails or the
fuel `n` runs out before the adapter turns invalid. -/
def scanLoop {σ : Type} (I : MVCCIterator σ)
    (step : pointSynthesizingIter σ → Option (pointSynthesizingIter σ)) :
    Nat → pointSynthesizingIter σ → Option (List (MVCCKey × Value))
  | 0, _ => none
  | n + 1, st =>
    if (pointSynthesizingIter.Valid st).1 then
      match pointSynthesizingIter.UnsafeKey I st, pointSynthesizingIter.UnsafeValue I st,
          step st with
      | some k, some v, some st' => (scanLoop I step n st').map (fun l => (k, v) :: l)
      | _, _, _ => none
    else some []

/-- `SeekGE` to `k` followed by `Next` until `Valid` is false. -/
def forwardScan {σ : Type} (I : MVCCIterator σ) (k : MVCCKey) (n : Nat)
    (st : pointSynthesizingIter σ) : Option (List (MVCCKey × Value)) :=
  (pointSynthesizingIter.SeekGE I k st).bind (scanLoop I (pointSynthesizingIter.Next I) n)

/-- `SeekLT` to `k` followed by `Prev` until `Valid` is false. -/
def reverseScan {σ : Type} (I : MVCCIterator σ) (k : MVCCKey) (n : Nat)
    (st : pointSynthesizingIter σ) : Option (List (MVCCKey × Value)) :=
  (pointSynthesizingIter.SeekLT I k st).bind (scanLoop I (pointSynthesizingIter.Prev I) n)

/-- The step function `f` applied `n` times. -/
def stepN {α : Type} (f : α → Option α) : Nat → α → Option α
  | 0, a => some a
  | n + 1, a => (f a).bind (stepN f n)

/-- The record a full forward scan must expose, in the words of the forward-scan
reference: a real point, or a synthesized point `(K, v.timestamp)` with value
`v.value` for a covering range version `v` where `K` is the start key of the
span of `v` or `K` carries a real timestamped point below `v`. -/
def Dataset.Reference (D : Dataset) (rec : MVCCKey × Value) : Prop :=
  (∃ p ∈ D.points, rec = (⟨p.key, p.ts⟩, p.value)) ∨
  (∃ r ∈ D.ranges, r.covers rec.1.Key = true ∧ ∃ v ∈ r.versions,
    rec = (⟨rec.1.Key, v.Timestamp⟩, v.Value) ∧
    (rec.1.Key = r.start ∨
      ∃ p ∈ D.points, p.key = rec.1.Key ∧ p.ts ≠ 0 ∧ p.ts < v.Timestamp))

/-! ## Example datasets -/

/-- A fresh adapter: the pooled instance as `release` leaves it, wrapped around
the dataset iterator before its first position. -/
def freshIter (emitOnSeekGE : Bool) : DataIter :=
  newPointSynthesizingIter
    (pointSynthesizingIter.release
      ⟨none, [], 0, 0, 0, 0, false, false, false, false, none⟩)
    DataCursor.before emitOnSeekGE

/-- Range record `[a, c)` at timestamp 10 and a point at key `a`, timestamp 5
(keys `a = 1`, `c = 3`). -/
def scenarioPointBelow : Dataset :=
  ⟨[⟨1, 5, some [5]⟩], [⟨1, 3, [⟨10, some [10]⟩]⟩]⟩

/-- Range record `[a, c)` at timestamp 10 and no points. -/
def scenarioRangeOnly : Dataset :=
  ⟨[], [⟨1, 3, [⟨10, some [10]⟩]⟩]⟩

/-- Two range versions over `[a, d)` at timestamps 20 and 10, and a point at
key `a`, timestamp 15 (keys `a = 1`, `d = 4`). -/
def scenarioShadow : Dataset :=
  ⟨[⟨1, 15, some [15]⟩], [⟨1, 4, [⟨20, some [20]⟩, ⟨10, some [10]⟩]⟩]⟩

/-- Two range versions over `[a, d)` at timestamps 20 and 10, and no points. -/
def scenarioTwoVersions : Dataset :=
  ⟨[], [⟨1, 4, [⟨20, some [20]⟩, ⟨10, some [10]⟩]⟩]⟩

/-- Range record `[a, c)` at timestamp 10 and a point at the mid-span key
`b = 2`, timestamp 5. -/
def scenarioMidPoint : Dataset :=
  ⟨[⟨2, 5, some [5]⟩], [⟨1, 3, [⟨10, some [10]⟩]⟩]⟩

/-- Two range versions over `[a, d)` at timestamps 20 and 10, and two points at
the mid-span key `b = 2`, timestamps 15 and 5. -/
def scenarioMidShadow : Dataset :=
  ⟨[⟨2, 15, some [15]⟩, ⟨2, 5, some [5]⟩], [⟨1, 4, [⟨20, some [20]⟩, ⟨10, some [10]⟩]⟩]⟩

open pointSynthesizingIter

/-! ## Sequences of public positioning operations -/

/-- The public positioning operations of the adapter. -/
inductive PosOp where
  | seekGE : MVCCKey → PosOp
  | seekIntentGE : Nat → uuid.UUID → PosOp
  | seekLT : MVCCKey → PosOp
  | next : PosOp
  | nextKey : PosOp
  | prev : PosOp
deriving DecidableEq, Repr

/-- Whether the operation is one of the three seeks. -/
def PosOp.isSeek : PosOp → Bool
  | PosOp.seekGE _ => true
  | PosOp.seekIntentGE _ _ => true
  | PosOp.seekLT _ => true
  | _ => false

/-- Whether the operation is `SeekGE` or `Next`. -/
def PosOp.isForward : PosOp → Bool
  | PosOp.seekGE _ => true
  | PosOp.next => true
  | _ => false

/-- One public positioning call on the adapter. -/
def PosOp.apply {σ : Type} (I : MVCCIterator σ) :
    PosOp → pointSynthesizingIter σ → Option (pointSynthesizingIter σ)
  | PosOp.seekGE k, i => SeekGE I k i
  | PosOp.seekIntentGE k u, i => SeekIntentGE I k u i
  | PosOp.seekLT k, i => SeekLT I k i
  | PosOp.next, i => Next I i
  | PosOp.nextKey, i => NextKey I i
  | PosOp.prev, i => Prev I i

/-- A sequence of public positioning calls, first to last. -/
def PosOp.run {σ : Type} (I : MVCCIterator σ) :
    List PosOp → pointSynthesizingIter σ → Option (pointSynthesizingIter σ)
  | [], i => some i
  | op :: ops, i => (op.apply I i).bind (PosOp.run I ops)

/-- The bound on `rangeKeysEnd` that `assertInvariants` checks. -/
def WindowOK {σ : Type} (i : pointSynthesizingIter σ) : Prop :=
  0 ≤ i.rangeKeysEnd ∧ i.rangeKeysEnd ≤ i.rangeKeys.length

instance {σ : Type} (i : pointSynthesizingIter σ) : Decidable (WindowOK i) := by
  unfold WindowOK; infer_instance

/-- The bound on `rangeKeysIdx` that `assertInvariants` checks: at most one
step outside the window, on the side the direction allows. -/
def CursorOK {σ : Type} (i : pointSynthesizingIter σ) : Prop :=
  if i.reverse then -1 ≤ i.rangeKeysIdx ∧ i.rangeKeysIdx ≤ i.rangeKeysEnd - 1
  else 0 ≤ i.rangeKeysIdx ∧ i.rangeKeysIdx ≤ i.rangeKeysEnd

instance {σ : Type} (i : pointSynthesizingIter σ) : Decidable (CursorOK i) := by
  unfold CursorOK; infer_instance

/-- The cached validity and error are the ones the underlying iterator reports
at its current position. -/
def Synced {σ : Type} (I : MVCCIterator σ) (i : pointSynthesizingIter σ) : Prop :=
  ∃ it, i.iter = some it ∧ I.Valid it = (i.iterValid, i.iterErr)

/-- What every step of the adapter keeps: the window bound, and the cached
validity, which either is left alone together with the underlying iterator or
ends synchronised with it. -/
def Keeps {σ : Type} (I : MVCCIterator σ) (i s : pointSynthesizingIter σ) : Prop :=
  (WindowOK i → WindowOK s) ∧
    ((s.iter = i.iter ∧ s.iterValid = i.iterValid ∧ s.iterErr = i.iterErr) ∨ Synced I s)

/-- On a real point, with no cached error, the cached validity is true and the
underlying iterator is on a point. -/
def AtPointOK {σ : Type} (I : MVCCIterator σ) (i : pointSynthesizingIter σ) : Prop :=
  i.iterErr = none → i.atPoint = true →
    i.iterValid = true ∧ ∃ it, i.iter = some it ∧ (I.HasPointAndRange it).1 = true

/-! ## Example adapter states -/

/-- The version stack `[20, 10]` of `scenarioShadow`. -/
def stackShadow : MVCCRangeKeyVersions := [⟨20, some [20]⟩, ⟨10, some [10]⟩]

/-- An adapter over `scenarioShadow` on the synthetic point `1@20`, the
underlying iterator on the real point `1@15`. -/
def stateSynthetic : DataIter :=
  { iter := some (DataCursor.onKey ⟨1, 15⟩), rangeKeys := stackShadow, rangeKeysPos := 1,
    rangeKeysIdx := 0, rangeKeysEnd := 2, rangeKeysStart := 1, atPoint := false,
    reverse := false, emitOnSeekGE := false, iterValid := true, iterErr := none }

/-- An adapter over `scenarioShadow` mid-step: the underlying iterator on the
real point `1@15`, the window not yet opened. -/
def stateClosedWindow : DataIter :=
  { stateSynthetic with rangeKeysEnd := 0 }

/-- An adapter with an empty `rangeKeys` whose `rangeKeysPos` and
`rangeKeysStart` still hold a key. -/
def stateStalePos : DataIter :=
  { iter := some DataCursor.after, rangeKeys := [], rangeKeysPos := 5, rangeKeysIdx := 0,
    rangeKeysEnd := 0, rangeKeysStart := 5, atPoint := false, reverse := false,
    emitOnSeekGE := false, iterValid := false, iterErr := none }

/-- The dataset iterator with a fault injected: past the last record `Valid`
reports the error `e` instead of exhaustion. -/
def faultyIter (D : Dataset) (e : Error) : MVCCIterator DataCursor :=
  { dataIter D with
    Valid := fun c =>
      match c with
      | DataCursor.after => (false, some e)
      | c => (dataIter D).Valid c }

/-! ## The calls that reach the wrapped iterator -/

/-- Whether the operation is one of `SeekGE`, `SeekLT`, `Next`, `Prev`. -/
def PosOp.isPlain : PosOp → Bool
  | PosOp.seekGE _ => true
  | PosOp.seekLT _ => true
  | PosOp.next => true
  | PosOp.prev => true
  | _ => false

/-- The positioning call of the wrapped iterator that has the name of the
operation. -/
def PosOp.under {σ : Type} (I : MVCCIterator σ) : PosOp → σ → σ
  | PosOp.seekGE k => I.SeekGE k
  | PosOp.seekIntentGE k u => I.SeekIntentGE k u
  | PosOp.seekLT k => I.SeekLT k
  | PosOp.next => I.Next
  | PosOp.nextKey => I.NextKey
  | PosOp.prev => I.Prev

/-- The same sequence of positioning calls, issued to the wrapped iterator
directly, first to last. -/
def PosOp.underRun {σ : Type} (I : MVCCIterator σ) : List PosOp → σ → σ
  | [], c => c
  | op :: ops, c => PosOp.underRun I ops (op.under I c)

/-- An adapter that passes the wrapped iterator through: it wraps `it`, caches
no range keys and the validity of `it`, and is on a real point when `it` is
valid. -/
def Passthrough {σ : Type} (I : MVCCIterator σ) (s : pointSynthesizingIter σ) (it : σ) : Prop :=
  s.iter = some it ∧ s.rangeKeys = [] ∧ s.rangeKeysEnd = 0 ∧
    I.Valid it = (s.iterValid, s.iterErr) ∧ (s.iterValid = true → s.atPoint = true)

/-- Whether every `Next`, `NextKey` and `Prev` of the sequence is issued while
the adapter is valid; a seek may be issued in any state. -/
def PosOp.whileValid {σ : Type} (I : MVCCIterator σ) :
    List PosOp → pointSynthesizingIter σ → Bool
  | [], _ => true
  | op :: ops, i =>
    (op.isSeek || (Valid i).1) &&
      match op.apply I i with
      | none => true
      | some s => PosOp.whileValid I ops s

/-- An example iterator without range keys: its positions are the indices into
a list of point records, `-1` before the first and the length after the last. -/
def pointsIter (ps : List (MVCCKey × Value)) : MVCCIterator Int where
  SeekGE := fun k _ => (ps.findIdx (fun p => decide (¬ p.1.Less k)) : Nat)
  SeekIntentGE := fun k _ _ =>
    (ps.findIdx (fun p => decide (¬ p.1.Less ⟨k, 0⟩)) : Nat)
  SeekLT := fun k _ => (ps.findIdx (fun p => decide (¬ p.1.Less k)) : Nat) - 1
  Next := fun c => if c < ps.length then c + 1 else c
  NextKey := fun c =>
    match sliceIndex ps c with
    | none => c
    | some p => (ps.findIdx (fun q => decide (p.1.Key < q.1.Key)) : Nat)
  Prev := fun c => if 0 ≤ c then c - 1 else c
  Valid := fun c => (decide (0 ≤ c ∧ c < ps.length), none)
  HasPointAndRange := fun c => (decide (0 ≤ c ∧ c < ps.length), false)
  UnsafeKey := fun c => ((sliceIndex ps c).map Prod.fst).getD ⟨0, 0⟩
  UnsafeValue := fun c => ((sliceIndex ps c).map Prod.snd).getD none
  RangeBounds := fun _ => ⟨0, 0⟩
  RangeKeys := fun _ => ⟨⟨0, 0⟩, []⟩

/-- Two point records, `a@5` and `b@7` (keys `a = 1`, `b = 2`). -/
def twoPoints : List (MVCCKey × Value) := [(⟨1, 5⟩, some [5]), (⟨2, 7⟩, some [7])]

/-! ## Histories without a reported error -/

/-- The flag `atPoint` is the one `updateAtPoint` decides in this state. -/
def Settled {σ : Type} (I : MVCCIterator σ) (s : pointSynthesizingIter σ) : Prop :=
  updateAtPoint I s = some s

/-- A sequence of public positioning calls none of which leaves an error
cached: `none` when a call fails or returns with `iterErr` set. -/
def PosOp.runClean {σ : Type} (I : MVCCIterator σ) :
    List PosOp → pointSynthesizingIter σ → Option (pointSynthesizingIter σ)
  | [], i => some i
  | op :: ops, i =>
    (op.apply I i).bind (fun s => if s.iterErr = none then PosOp.runClean I ops s else none)

/-- The window and cursor bounds that `assertInvariants` checks, in direction
`rev`. -/
def Bounded {σ : Type} (rev : Bool) (s : pointSynthesizingIter σ) : Prop :=
  WindowOK s ∧ CursorOK s ∧ s.reverse = rev

/-- The bounds that `assertInvariants` checks, for a decided `atPoint`. -/
def CursorInv {σ : Type} (I : MVCCIterator σ) (s : pointSynthesizingIter σ) : Prop :=
  WindowOK s ∧ CursorOK s ∧ Settled I s

/-! ## The contract of the wrapped iterator -/

/-- A bare range position (a range and no point) is at the start key of its
span. -/
def BareAtStart {σ : Type} (I : MVCCIterator σ) (c : σ) : Prop :=
  (I.Valid c).1 = true → (I.HasPointAndRange c).2 = true → (I.HasPointAndRange c).1 = false →
    (I.UnsafeKey c).Key = (I.RangeBounds c).Key

/-- The contract of an error-free wrapped iterator: it never reports an error;
a valid position has a point or a range; a position with a range has a non-empty
version stack and a non-empty span start key; and a bare range position reached
by `Next`, `NextKey`, `Prev` or `SeekLT` is at the start key of its span (a
forward seek may land on a bare range position anywhere in a span, at its seek
key). -/
structure IterContract {σ : Type} (I : MVCCIterator σ) : Prop where
  noError : ∀ c, (I.Valid c).2 = none
  pointOrRange : ∀ c, (I.Valid c).1 = true →
    (I.HasPointAndRange c).1 = true ∨ (I.HasPointAndRange c).2 = true
  versions : ∀ c, (I.Valid c).1 = true → (I.HasPointAndRange c).2 = true →
    (I.RangeKeys c).Versions ≠ []
  startKey : ∀ c, (I.Valid c).1 = true → (I.HasPointAndRange c).2 = true →
    (I.RangeBounds c).Key ≠ 0
  bareNext : ∀ c, BareAtStart I (I.Next c)
  bareNextKey : ∀ c, BareAtStart I (I.NextKey c)
  barePrev : ∀ c, BareAtStart I (I.Prev c)
  bareSeekLT : ∀ k c, BareAtStart I (I.SeekLT k c)

/-- The cached validity is the wrapped iterator's, or the adapter has not yet
reached the wrapped iterator. -/
def SyncedOrIdle {σ : Type} (I : MVCCIterator σ) (s : pointSynthesizingIter σ) : Prop :=
  Synced I s ∨ (s.iterValid = false ∧ s.iterErr = none)

/-- An empty `rangeKeys` comes with an empty `rangeKeysStart`. -/
def Coherent {σ : Type} (s : pointSynthesizingIter σ) : Prop :=
  s.rangeKeys = [] → s.rangeKeysStart = 0

/-- The wrapped iterator is left on no bare range position inside a span. -/
def AtRest {σ : Type} (I : MVCCIterator σ) (s : pointSynthesizingIter σ) : Prop :=
  s.iterValid = true → ∀ it, s.iter = some it → (I.HasPointAndRange it).2 = true →
    (I.HasPointAndRange it).1 = false → (I.UnsafeKey it).Key = (I.RangeBounds it).Key

/-- What a positioning operation leaves, over an iterator that obeys its
contract. -/
def Rest {σ : Type} (I : MVCCIterator σ) (s : pointSynthesizingIter σ) : Prop :=
  SyncedOrIdle I s ∧ Coherent s ∧ AtRest I s

/-- The synthetic-cursor bound of `assertInvariants`: off a real point and not
exhausted, the cursor is inside the window. -/
def SynOK {σ : Type} (s : pointSynthesizingIter σ) : Prop :=
  s.atPoint = false → (s.iterValid = true ∨ s.rangeKeys ≠ []) →
    0 ≤ s.rangeKeysIdx ∧ s.rangeKeysIdx < s.rangeKeysEnd

/-! ## An example iterator that obeys the contract -/

/-- One position of a table iterator: its key, whether it carries a point and
the point's value, and the span and version stack of the range covering it. -/
structure Row where
  key : MVCCKey
  hasPoint : Bool
  value : Value
  span : Option (roachpb.Span × MVCCRangeKeyVersions)

/-- An example iterator over a table of positions in MVCC order: its states are
the indices into the table, `-1` before the first position and the length after
the last. -/
def tableIter (rows : List Row) : MVCCIterator Int where
  SeekGE := fun k _ => (rows.findIdx (fun r => decide (¬ r.key.Less k)) : Nat)
  SeekIntentGE := fun k _ _ => (rows.findIdx (fun r => decide (¬ r.key.Less ⟨k, 0⟩)) : Nat)
  SeekLT := fun k _ => (rows.findIdx (fun r => decide (¬ r.key.Less k)) : Nat) - 1
  Next := fun c => if c < rows.length then c + 1 else c
  NextKey := fun c =>
    match sliceIndex rows c with
    | none => c
    | some r => (rows.findIdx (fun q => decide (r.key.Key < q.key.Key)) : Nat)
  Prev := fun c => if 0 ≤ c then c - 1 else c
  Valid := fun c => ((sliceIndex rows c).isSome, none)
  HasPointAndRange := fun c =>
    match sliceIndex rows c with
    | none => (false, false)
    | some r => (r.hasPoint, r.span.isSome)
  UnsafeKey := fun c => ((sliceIndex rows c).map (fun r => r.key)).getD ⟨0, 0⟩
  UnsafeValue := fun c => ((sliceIndex rows c).bind (fun r => r.value))
  RangeBounds := fun c =>
    (((sliceIndex rows c).bind (fun r => r.span)).map Prod.fst).getD ⟨0, 0⟩
  RangeKeys := fun c =>
    (((sliceIndex rows c).bind (fun r => r.span)).map
      (fun p => (⟨p.1, p.2⟩ : MVCCRangeKeyStack))).getD ⟨⟨0, 0⟩, []⟩

/-- The positions of `scenarioShadow`: the bare range position at `a`, then the
point `a@15` under the range record `[a, d)` with versions 20 and 10. -/
def shadowRows : List Row :=
  [⟨⟨1, 0⟩, false, none, some (⟨1, 4⟩, stackShadow)⟩,
   ⟨⟨1, 15⟩, true, some [15], some (⟨1, 4⟩, stackShadow)⟩]

/-! ## The states of the adapter over a dataset -/

/-- A fresh adapter: forward, over the iterator before its first position, with
the cache cleared. -/
structure Fresh (st : DataIter) : Prop where
  base : Coupled st DataCursor.before false
  atPoint : st.atPoint = false
  cache : CacheEmpty st
  idx : st.rangeKeysIdx = 0
  endEq : st.rangeKeysEnd = 0

/-- The states the public positioning operations keep the adapter in: fresh,
exhausted in either direction, or positioned on an exposed key in either
direction, for some key `fk` of an `emitOnSeekGE` seek. -/
def Tracked (D : Dataset) (st : DataIter) : Prop :=
  Fresh st ∨ FwdDone st ∨ RevDone st ∨ ∃ fk x, FwdAt D fk st x ∨ RevAt D fk st x

/-- `hlc.MinTimestamp`: the least timestamp that is set. -/
def hlc.MinTimestamp : Nat := 1

/-- The last check of `assertInvariants`, which it reaches with range keys and a
valid underlying iterator: the relative positioning of the underlying iterator
and the synthesized position. The result `some false` is a failed assertion,
`none` an index-out-of-range panic or a nil iterator. -/
def assertRelativePosition {σ : Type} (I : MVCCIterator σ) (i : pointSynthesizingIter σ) :
    Option Bool :=
  match i.iter with
  | none => none
  | some it =>
    let minKey0 : MVCCKey := if !i.reverse then ⟨i.rangeKeysPos, 0⟩ else ⟨0, 0⟩
    let maxKey0 : MVCCKey := if !i.reverse then ⟨0, 0⟩ else ⟨i.rangeKeysPos, hlc.MinTimestamp⟩
    let minIdx : Int :=
      if !i.atPoint then (if !i.reverse then i.rangeKeysIdx else -1)
      else if !i.reverse then i.rangeKeysIdx - 1
      else i.rangeKeysIdx
    let maxIdx : Int :=
      if !i.atPoint then (if !i.reverse then -1 else i.rangeKeysIdx)
      else if !i.reverse then i.rangeKeysIdx
      else i.rangeKeysIdx + 1
    let minKey : Option MVCCKey :=
      if minIdx ≥ 0 ∧ minIdx < i.rangeKeysEnd then
        (sliceIndex i.rangeKeys minIdx).map (fun v => ⟨i.rangeKeysPos, v.Timestamp⟩)
      else some minKey0
    let maxKey : Option MVCCKey :=
      if maxIdx ≥ 0 ∧ maxIdx < i.rangeKeysEnd then
        (sliceIndex i.rangeKeys maxIdx).map (fun v => ⟨i.rangeKeysPos, v.Timestamp⟩)
      else some maxKey0
    match minKey, maxKey with
    | some lo, some hi =>
      let iterKey := I.UnsafeKey it
      some (!(lo.Key != 0 && decide (iterKey.Less lo)) && !(hi.Key != 0 && decide (hi.Less iterKey)))
    | _, _ => none

/-! ## The race-build assertions -/

namespace pointSynthesizingIter

variable {σ : Type}

/-- `assertInvariants` (lines 668-788): `some none` when every check passes,
`some (some msg)` for the assertion error it returns, `none` where the Go code
panics (no wrapped iterator, an index out of range). The checks are made on what
the wrapped iterator reports now, not on the cached `iterValid` and `iterErr`.
The two checks of lines 779-785 are those of `assertRelativePosition`, reported
under one message. -/
def assertInvariants (I : MVCCIterator σ) (i : pointSynthesizingIter σ) :
    Option (Option Error) :=
  match i.iter with
  | none => none
  | some it =>
    if (I.Valid it).2 ≠ none then
      if !i.atPoint && decide (i.rangeKeysIdx ≥ 0) &&
          decide (i.rangeKeysIdx < i.rangeKeys.length) then
        some (some "iterator error with synthetic point")
      else some none
    else if i.atPoint && !(I.Valid it).1 then some (some "atPoint with invalid iter")
    else if i.atPoint && !(I.HasPointAndRange it).1 then
      some (some "atPoint at non-point position")
    else if i.rangeKeysEnd < 0 ∨ i.rangeKeysEnd > i.rangeKeys.length then
      some (some "invalid rangeKeysEnd")
    else if (i.rangeKeysIdx < 0 ∨ i.rangeKeysIdx ≥ i.rangeKeysEnd) ∧
        ((i.reverse = false ∧ i.rangeKeysIdx ≠ i.rangeKeysEnd) ∨
          (i.reverse = true ∧ i.rangeKeysIdx ≠ -1)) then
      some (some "invalid rangeKeysIdx")
    else if i.rangeKeys.length = 0 then
      if (I.Valid it).1 && !i.atPoint then some (some "no rangeKeys nor atPoint")
      else if i.rangeKeysPos ≠ 0 then some (some "no rangeKeys but rangeKeysPos")
      else if i.rangeKeysStart ≠ 0 then some (some "no rangeKeys but rangeKeysStart")
      else some none
    else if i.rangeKeysStart = 0 then some (some "no rangeKeysStart")
    else if roachpb.Key.Compare i.rangeKeysPos i.rangeKeysStart < 0 then
      some (some "rangeKeysPos not after rangeKeysStart")
    else if i.atPoint = false ∧ (i.rangeKeysIdx < 0 ∨ i.rangeKeysIdx ≥ i.rangeKeysEnd) then
      some (some "not atPoint with invalid rangeKeysIdx")
    else if !(I.Valid it).1 then some none
    else
      match assertRelativePosition I i with
      | none => none
      | some true => some none
      | some false => some (some "iter outside the minimum and maximum keys")

/-- `Valid` (lines 554-564) in a build whose constant `util.RaceEnabled` is
`raceEnabled`: a race build runs `assertInvariants` first and panics (`none`) on
the error it returns; lines 560-563, the rest, are `Valid`. -/
def ValidRace (I : MVCCIterator σ) (raceEnabled : Bool) (i : pointSynthesizingIter σ) :
    Option (Bool × Option Error) :=
  if raceEnabled then
    match assertInvariants I i with
    | some none => some (Valid i)
    | _ => none
  else some (Valid i)

end pointSynthesizingIter

/-! ## The steps a positioning operation is made of -/

/-- One step of the adapter, as far as the wrapped iterator, its cached validity
and the cached range keys go: a change of the other fields only; a call of the
wrapped iterator's `Next`, `Prev` or `NextKey` (of any of its methods when
`seeks` is set) followed by `updateValid`; the truncation of the three slices
in `clearRangeKeys`; or the load of the current range keys in `updateRangeKeys`,
on a position cached as valid, which keeps the cached stack when the span start
is the cached one. -/
def Move {σ : Type} (I : MVCCIterator σ) (seeks : Bool) (i s : pointSynthesizingIter σ) : Prop :=
  (s.iter = i.iter ∧ s.iterValid = i.iterValid ∧ s.iterErr = i.iterErr ∧
      s.rangeKeys = i.rangeKeys ∧ s.rangeKeysPos = i.rangeKeysPos ∧
      s.rangeKeysStart = i.rangeKeysStart) ∨
    (∃ it c, i.iter = some it ∧
      (c = I.Next it ∨ c = I.Prev it ∨ c = I.NextKey it ∨ seeks = true) ∧
      s.iter = some c ∧ s.iterValid = (I.Valid c).1 ∧ s.iterErr = (I.Valid c).2 ∧
      s.rangeKeys = i.rangeKeys ∧ s.rangeKeysPos = i.rangeKeysPos ∧
      s.rangeKeysStart = i.rangeKeysStart) ∨
    (s.iter = i.iter ∧ s.iterValid = i.iterValid ∧ s.iterErr = i.iterErr ∧
      s.rangeKeys = [] ∧ s.rangeKeysPos = 0 ∧ s.rangeKeysStart = 0) ∨
    (∃ it, i.iter = some it ∧ i.iterValid = true ∧ (I.HasPointAndRange it).2 = true ∧
      s.iter = i.iter ∧ s.iterValid = i.iterValid ∧ s.iterErr = i.iterErr ∧
      s.rangeKeysPos = (I.UnsafeKey it).Key ∧ s.rangeKeysStart = (I.RangeBounds it).Key ∧
      s.rangeKeys = (if (I.RangeBounds it).Key = i.rangeKeysStart then i.rangeKeys
        else (I.RangeKeys it).Versions))

/-- A sequence of steps of the adapter. -/
def Moves {σ : Type} (I : MVCCIterator σ) (seeks : Bool) :
    pointSynthesizingIter σ → pointSynthesizingIter σ → Prop :=
  Relation.ReflTransGen (Move I seeks)

/-- The struct comment on `rangeKeysPos` (lines 74-76), with `rangeKeysStart`:
both are set only if `rangeKeys` is non-empty. -/
def KeysCleared {σ : Type} (i : pointSynthesizingIter σ) : Prop :=
  i.rangeKeys = [] → i.rangeKeysPos = 0 ∧ i.rangeKeysStart = 0

/-- The range positions of the wrapped iterator are those of range keys: on a
valid position with a range, the span has a start key and the version stack is
not empty. -/
def SpansSet {σ : Type} (I : MVCCIterator σ) : Prop :=
  ∀ c, (I.Valid c).1 = true → (I.HasPointAndRange c).2 = true →
    (I.RangeBounds c).Key ≠ 0 ∧ (I.RangeKeys c).Versions ≠ []

/-- The wrapped iterator keeps a reported error until it is next sought: on a
position where `Valid` reports an error, `Next`, `Prev` and `NextKey` lead to a
position where it reports one. -/
def ErrorsPersist {σ : Type} (I : MVCCIterator σ) : Prop :=
  ∀ c, (I.Valid c).2 ≠ none →
    (I.Valid (I.Next c)).2 ≠ none ∧ (I.Valid (I.Prev c)).2 ≠ none ∧
      (I.Valid (I.NextKey c)).2 ≠ none

/-- The adapter has cached an error that the wrapped iterator still reports. -/
def Errored {σ : Type} (I : MVCCIterator σ) (i : pointSynthesizingIter σ) : Prop :=
  i.iterErr ≠ none ∧ ∃ it, i.iter = some it ∧ (I.Valid it).2 ≠ none

/-- The dataset iterator failing for good past the last record: there `Valid`
reports the error `e`, and `Next`, `Prev` and `NextKey` stay there. -/
def failedIter (D : Dataset) (e : Error) : MVCCIterator DataCursor :=
  { faultyIter D e with
    Prev := fun c =>
      match c with
      | DataCursor.after => DataCursor.after
      | c => (dataIter D).Prev c }

/-- A point at key `a`, timestamp 5, before the range record `[b, e)` with the
versions 20 and 10 (keys `a = 1`, `b = 2`, `e = 5`). -/
def scenarioAhead : Dataset :=
  ⟨[⟨1, 5, some [5]⟩], [⟨2, 5, [⟨20, some [20]⟩, ⟨10, some [10]⟩]⟩]⟩

/-! # Theorems -/

/-! ### MVCC order -/

theorem MVCCKey.ext_iff' (a b : MVCCKey) : a = b ↔ a.Key = b.Key ∧ a.Timestamp = b.Timestamp := by
  cases a; cases b; simp

theorem MVCCKey.Less.irrefl (a : MVCCKey) : ¬ a.Less a := by
  unfold MVCCKey.Less; omega

theorem MVCCKey.Less.trans {a b c : MVCCKey} (h1 : a.Less b) (h2 : b.Less c) : a.Less c := by
  unfold MVCCKey.Less at *; omega

theorem MVCCKey.Less.asymm {a b : MVCCKey} (h1 : a.Less b) : ¬ b.Less a := by
  unfold MVCCKey.Less at *; omega

theorem MVCCKey.Less.total (a b : MVCCKey) : a.Less b ∨ a = b ∨ b.Less a := by
  rw [MVCCKey.ext_iff']; unfold MVCCKey.Less; omega

theorem MVCCKey.less_mk_left (k t : Nat) (b : MVCCKey) :
    MVCCKey.Less ⟨k, t⟩ b ↔ (k < b.Key ∨ (k = b.Key ∧
      ((t = 0 ∧ b.Timestamp ≠ 0) ∨ (b.Timestamp ≠ 0 ∧ b.Timestamp < t)))) := Iff.rfl

theorem MVCCKey.less_mk_right (a : MVCCKey) (k t : Nat) :
    a.Less ⟨k, t⟩ ↔ (a.Key < k ∨ (a.Key = k ∧
      ((a.Timestamp = 0 ∧ t ≠ 0) ∨ (t ≠ 0 ∧ t < a.Timestamp)))) := Iff.rfl

theorem MVCCKey.less_zero_left (s : Nat) (q : MVCCKey) :
    MVCCKey.Less ⟨s, 0⟩ q ↔ (s < q.Key ∨ (s = q.Key ∧ q.Timestamp ≠ 0)) := by
  rw [MVCCKey.less_mk_left]; omega

theorem MVCCKey.less_zero_right (x : MVCCKey) (s : Nat) :
    x.Less ⟨s, 0⟩ ↔ x.Key < s := by
  rw [MVCCKey.less_mk_right]; omega

/-! ### minKey / maxKey -/

theorem minKey_eq_none {l : List MVCCKey} : minKey l = none ↔ l = [] := by
  cases l with
  | nil => simp [minKey]
  | cons k l =>
    simp only [minKey]
    cases minKey l <;> simp
    split <;> simp

theorem minKey_mem {l : List MVCCKey} {m : MVCCKey} (h : minKey l = some m) : m ∈ l := by
  induction l generalizing m with
  | nil => simp [minKey] at h
  | cons k l ih =>
    simp only [minKey] at h
    cases hm : minKey l with
    | none => simp [hm] at h; simp [h]
    | some m' =>
      simp only [hm] at h
      split at h
      · simp at h; simp [h]
      · simp at h; subst h; simp [ih hm]

theorem minKey_le {l : List MVCCKey} {m : MVCCKey} (h : minKey l = some m) :
    ∀ x ∈ l, ¬ x.Less m := by
  induction l generalizing m with
  | nil => simp
  | cons k l ih =>
    simp only [minKey] at h
    intro x hx
    cases hm : minKey l with
    | none =>
      simp [hm] at h
      rw [minKey_eq_none] at hm
      subst hm; subst h
      simp at hx; subst hx
      exact MVCCKey.Less.irrefl _
    | some m' =>
      simp only [hm] at h
      have ih' := ih hm
      rcases List.mem_cons.1 hx with rfl | hx'
      · split at h
        · simp at h; subst h; exact MVCCKey.Less.irrefl _
        · simp at h; subst h; assumption
      · have := ih' x hx'
        split at h
        · simp at h; subst h
          intro hlt
          rename_i hk
          exact this (MVCCKey.Less.trans hlt hk)
        · simp at h; subst h; exact this

theorem maxKey_eq_none {l : List MVCCKey} : maxKey l = none ↔ l = [] := by
  cases l with
  | nil => simp [maxKey]
  | cons k l =>
    simp only [maxKey]
    cases maxKey l <;> simp
    split <;> simp

theorem maxKey_mem {l : List MVCCKey} {m : MVCCKey} (h : maxKey l = some m) : m ∈ l := by
  induction l generalizing m with
  | nil => simp [maxKey] at h
  | cons k l ih =>
    simp only [maxKey] at h
    cases hm : maxKey l with
    | none => simp [hm] at h; simp [h]
    | some m' =>
      simp only [hm] at h
      split at h
      · simp at h; simp [h]
      · simp at h; subst h; simp [ih hm]

theorem maxKey_ge {l : List MVCCKey} {m : MVCCKey} (h : maxKey l = some m) :
    ∀ x ∈ l, ¬ m.Less x := by
  induction l generalizing m with
  | nil => simp
  | cons k l ih =>
    simp only [maxKey] at h
    intro x hx
    cases hm : maxKey l with
    | none =>
      simp [hm] at h
      rw [maxKey_eq_none] at hm
      subst hm; subst h
      simp at hx; subst hx
      exact MVCCKey.Less.irrefl _
    | some m' =>
      simp only [hm] at h
      have ih' := ih hm
      rcases List.mem_cons.1 hx with rfl | hx'
      · split at h
        · simp at h; subst h; exact MVCCKey.Less.irrefl _
        · simp at h; subst h; assumption
      · have := ih' x hx'
        split at h
        · simp at h; subst h
          intro hlt
          rename_i hk
          exact this (MVCCKey.Less.trans hk hlt)
        · simp at h; subst h; exact this
/-! ### sort.Search -/

theorem sortSearchLoop_spec (f : Nat → Option Bool) (p : Nat → Bool) (n : Nat)
    (hf : ∀ a, a < n → f a = some (p a))
    (mono : ∀ a b, a ≤ b → b < n → p a = true → p b = true) :
    ∀ fuel i j, i ≤ j → j ≤ n → j - i ≤ fuel →
      (∀ a, a < i → p a = false) → (∀ a, j ≤ a → a < n → p a = true) →
      ∃ k, sortSearchLoop f fuel i j = some k ∧ i ≤ k ∧ k ≤ j ∧
        (∀ a, a < k → p a = false) ∧ (∀ a, k ≤ a → a < n → p a = true) := by
  intro fuel
  induction fuel with
  | zero =>
    intro i j hij hjn hfuel hlo hhi
    have : i = j := by omega
    subst this
    exact ⟨i, by simp [sortSearchLoop], le_refl _, le_refl _, hlo, hhi⟩
  | succ fuel ih =>
    intro i j hij hjn hfuel hlo hhi
    by_cases hlt : i < j
    · have hh : (i + j) / 2 < n := by omega
      simp only [sortSearchLoop, hlt, if_true, hf _ hh]
      cases hp : p ((i + j) / 2) with
      | false =>
        simp only []
        have : ∀ a, a < (i + j) / 2 + 1 → p a = false := by
          intro a ha
          by_contra hc
          have hpa : p a = true := by simpa using hc
          have := mono a ((i + j) / 2) (by omega) hh hpa
          rw [hp] at this; exact Bool.noConfusion this
        obtain ⟨k, h1, h2, h3, h4, h5⟩ := ih ((i + j) / 2 + 1) j (by omega) hjn (by omega) this hhi
        exact ⟨k, h1, by omega, h3, h4, h5⟩
      | true =>
        simp only []
        have : ∀ a, (i + j) / 2 ≤ a → a < n → p a = true := by
          intro a ha han
          exact mono _ a ha han hp
        obtain ⟨k, h1, h2, h3, h4, h5⟩ := ih i ((i + j) / 2) (by omega) (by omega) (by omega) hlo this
        exact ⟨k, h1, h2, by omega, h4, h5⟩
    · have : i = j := by omega
      subst this
      exact ⟨i, by simp [sortSearchLoop], le_refl _, le_refl _, hlo, hhi⟩

theorem sliceIndex_ofNat {α : Type} (s : List α) (n : Nat) : sliceIndex s (n : Int) = s[n]? := by
  simp [sliceIndex]

/-- `sort.Search` over the first `n` entries of a slice, for a predicate that
is monotone along the slice. -/
theorem sortSearch_spec {α : Type} (s : List α) (q : α → Bool) (n : Nat) (hn : n ≤ s.length)
    (mono : ∀ (a b : Nat) (x y : α), a ≤ b → s[a]? = some x → s[b]? = some y → q x = true →
      q y = true) :
    ∃ k : Nat, sortSearch (n : Int) (fun idx => (sliceIndex s idx).map q) = some (k : Int) ∧
      k ≤ n ∧ (∀ (a : Nat) (x : α), a < k → s[a]? = some x → q x = false) ∧
      (∀ (a : Nat) (x : α), k ≤ a → a < n → s[a]? = some x → q x = true) := by
  let p : Nat → Bool := fun a => match s[a]? with | some x => q x | none => false
  have hf : ∀ a, a < n → (fun idx : Nat => (sliceIndex s (idx : Int)).map q) a = some (p a) := by
    intro a ha
    have : a < s.length := by omega
    simp [sliceIndex_ofNat, p, List.getElem?_eq_getElem this]
  have hmono : ∀ a b, a ≤ b → b < n → p a = true → p b = true := by
    intro a b hab hb hpa
    have h1 : a < s.length := by omega
    have h2 : b < s.length := by omega
    simp only [p, List.getElem?_eq_getElem h1, List.getElem?_eq_getElem h2] at hpa ⊢
    exact mono a b _ _ hab (List.getElem?_eq_getElem h1) (List.getElem?_eq_getElem h2) hpa
  obtain ⟨k, h1, _, h3, h4, h5⟩ := sortSearchLoop_spec _ p n hf hmono n 0 n (Nat.zero_le _)
    (le_refl _) (by omega) (by intro a ha; omega) (by intro a h1 h2; omega)
  refine ⟨k, ?_, h3, ?_, ?_⟩
  · simp only [sortSearch, Int.toNat_ofNat]
    rw [h1]; rfl
  · intro a x hak hx
    have := h4 a hak
    simpa [p, hx] using this
  · intro a x hka han hx
    have := h5 a hka han
    simpa [p, hx] using this

/-! ### Version stacks -/

theorem versionsSorted_cons {v : MVCCRangeKeyVersion} {l : MVCCRangeKeyVersions}
    (h : versionsSorted (v :: l) = true) :
    v.Timestamp ≠ 0 ∧ (∀ w ∈ l, w.Timestamp < v.Timestamp) ∧ versionsSorted l = true := by
  induction l generalizing v with
  | nil => simp [versionsSorted] at h ⊢; exact h
  | cons w l ih =>
    simp only [versionsSorted, Bool.and_eq_true, decide_eq_true_eq] at h
    obtain ⟨h1, h2, h3⟩ := ih h.2
    refine ⟨by omega, ?_, h.2⟩
    intro x hx
    rcases List.mem_cons.1 hx with rfl | hx
    · exact h.1
    · have := h2 x hx; omega

theorem versionsSorted_ne_zero {l : MVCCRangeKeyVersions} (h : versionsSorted l = true) :
    ∀ v ∈ l, v.Timestamp ≠ 0 := by
  induction l with
  | nil => simp
  | cons v l ih =>
    obtain ⟨h1, _, h3⟩ := versionsSorted_cons h
    intro x hx
    rcases List.mem_cons.1 hx with rfl | hx
    · exact h1
    · exact ih h3 x hx

/-- In a stack sorted newest first, the versions satisfying a predicate that is
closed under "newer" form a prefix, whose length is the count. -/
theorem prefix_count {l : MVCCRangeKeyVersions} (h : versionsSorted l = true)
    (P : MVCCRangeKeyVersion → Bool)
    (up : ∀ v w, P w = true → w.Timestamp ≤ v.Timestamp → P v = true) :
    ∀ (j : Nat) (v : MVCCRangeKeyVersion), l[j]? = some v →
      (j < (l.filter P).length ↔ P v = true) := by
  induction l with
  | nil => simp
  | cons x l ih =>
    obtain ⟨_, h2, h3⟩ := versionsSorted_cons h
    intro j v hj
    by_cases hx : P x = true
    · simp only [List.filter_cons, hx, if_true, List.length_cons]
      cases j with
      | zero => simp at hj; subst hj; simp [hx]
      | succ j =>
        simp only [List.getElem?_cons_succ] at hj
        have := ih h3 j v hj
        rw [← this]; omega
    · have hall : ∀ w ∈ l, P w = false := by
        intro w hw
        by_contra hc
        have : P w = true := by simpa using hc
        exact hx (up x w this (Nat.le_of_lt (h2 w hw)))
      have hnil : l.filter P = [] := by
        rw [List.filter_eq_nil_iff]
        intro w hw; simp [hall w hw]
      simp only [List.filter_cons, hx, hnil]
      simp only [Bool.false_eq_true, ↓reduceIte, List.length_nil, Nat.not_lt_zero, false_iff]
      cases j with
      | zero => simp at hj; subst hj; exact hx
      | succ j =>
        simp only [List.getElem?_cons_succ] at hj
        have := hall v (List.getElem?_mem hj)
        simp [this]

/-! ### Dataset lookups -/

theorem Dataset.mem_positions {D : Dataset} {q : MVCCKey} :
    q ∈ D.positions ↔ (∃ p ∈ D.points, q = ⟨p.key, p.ts⟩) ∨ (∃ r ∈ D.ranges, q = ⟨r.start, 0⟩) := by
  simp only [Dataset.positions, List.mem_append, List.mem_map]
  constructor
  · rintro (⟨p, hp, rfl⟩ | ⟨r, hr, rfl⟩)
    · exact Or.inl ⟨p, hp, rfl⟩
    · exact Or.inr ⟨r, hr, rfl⟩
  · rintro (⟨p, hp, rfl⟩ | ⟨r, hr, rfl⟩)
    · exact Or.inl ⟨p, hp, rfl⟩
    · exact Or.inr ⟨r, hr, rfl⟩

theorem Dataset.pointAt_some {D : Dataset} {c : MVCCKey} {p : PointKV}
    (h : D.pointAt c = some p) : p ∈ D.points ∧ p.key = c.Key ∧ p.ts = c.Timestamp := by
  unfold Dataset.pointAt at h
  have h1 := List.mem_of_find?_eq_some h
  have h2 := List.find?_some h
  simp only [Bool.and_eq_true, beq_iff_eq] at h2
  exact ⟨h1, h2.1, h2.2⟩

theorem Dataset.pointAt_isSome {D : Dataset} {c : MVCCKey} :
    (D.pointAt c).isSome = true ↔ ∃ p ∈ D.points, p.key = c.Key ∧ p.ts = c.Timestamp := by
  unfold Dataset.pointAt
  rw [List.find?_isSome]
  simp only [Bool.and_eq_true, beq_iff_eq]

theorem Dataset.pointAt_eq_none {D : Dataset} {c : MVCCKey} :
    D.pointAt c = none ↔ ∀ p ∈ D.points, ¬ (p.key = c.Key ∧ p.ts = c.Timestamp) := by
  unfold Dataset.pointAt
  rw [List.find?_eq_none]
  simp only [Bool.and_eq_true, beq_iff_eq]

theorem Dataset.rangeAt_some {D : Dataset} {k : Nat} {r : RangeKV}
    (h : D.rangeAt k = some r) : r ∈ D.ranges ∧ r.start ≤ k ∧ k < r.endKey := by
  unfold Dataset.rangeAt at h
  have h1 := List.mem_of_find?_eq_some h
  have h2 := List.find?_some h
  simp only [RangeKV.covers, Bool.and_eq_true, decide_eq_true_eq] at h2
  exact ⟨h1, h2.1, h2.2⟩

theorem Dataset.rangeAt_eq_none {D : Dataset} {k : Nat} :
    D.rangeAt k = none ↔ ∀ r ∈ D.ranges, ¬ (r.start ≤ k ∧ k < r.endKey) := by
  unfold Dataset.rangeAt
  rw [List.find?_eq_none]
  simp only [RangeKV.covers, Bool.and_eq_true, decide_eq_true_eq]

/-! ### Well-formedness -/

theorem Dataset.WF.point_key_ne {D : Dataset} (h : D.WF) {p : PointKV} (hp : p ∈ D.points) :
    p.key ≠ 0 := h.1 p hp

theorem Dataset.WF.range_ok {D : Dataset} (h : D.WF) {r : RangeKV} (hr : r ∈ D.ranges) :
    r.start ≠ 0 ∧ r.start < r.endKey ∧ r.versions ≠ [] ∧ versionsSorted r.versions = true :=
  h.2.2.1 r hr

theorem Dataset.WF.disjoint {D : Dataset} (h : D.WF) {r s : RangeKV} (hr : r ∈ D.ranges)
    (hs : s ∈ D.ranges) (hne : r ≠ s) : r.endKey ≤ s.start ∨ s.endKey ≤ r.start :=
  List.Pairwise.forall (fun _ _ hab => hab.symm) h.2.2.2.1 hr hs hne

theorem Dataset.WF.range_unique {D : Dataset} (h : D.WF) {r s : RangeKV} {k : Nat}
    (hr : r ∈ D.ranges) (hs : s ∈ D.ranges) (hrk : r.start ≤ k ∧ k < r.endKey)
    (hsk : s.start ≤ k ∧ k < s.endKey) : r = s := by
  by_contra hne
  have := h.disjoint hr hs hne
  omega

theorem Dataset.WF.rangeAt_eq {D : Dataset} (h : D.WF) {r : RangeKV} {k : Nat}
    (hr : r ∈ D.ranges) (hrk : r.start ≤ k ∧ k < r.endKey) : D.rangeAt k = some r := by
  cases hs : D.rangeAt k with
  | none =>
    rw [Dataset.rangeAt_eq_none] at hs
    exact absurd hrk (hs r hr)
  | some s =>
    obtain ⟨h1, h2, h3⟩ := Dataset.rangeAt_some hs
    rw [h.range_unique hr h1 hrk ⟨h2, h3⟩]

theorem Dataset.WF.rangeAt_start {D : Dataset} (h : D.WF) {r : RangeKV} (hr : r ∈ D.ranges) :
    D.rangeAt r.start = some r :=
  h.rangeAt_eq hr ⟨le_refl _, (h.range_ok hr).2.1⟩

theorem Dataset.WF.ts_ne {D : Dataset} (h : D.WF) {p : PointKV} {r : RangeKV}
    {v : MVCCRangeKeyVersion} (hp : p ∈ D.points) (hr : r ∈ D.ranges)
    (hc : r.start ≤ p.key ∧ p.key < r.endKey) (hv : v ∈ r.versions) : v.Timestamp ≠ p.ts := by
  apply h.2.2.2.2.1 p hp r hr _ v hv
  simp [RangeKV.covers, hc.1, hc.2]

theorem Dataset.WF.no_start_intent {D : Dataset} (h : D.WF) {p : PointKV} {r : RangeKV}
    (hp : p ∈ D.points) (hr : r ∈ D.ranges) : ¬ (p.key = r.start ∧ p.ts = 0) :=
  h.2.2.2.2.2 p hp r hr

theorem Dataset.WF.point_unique {D : Dataset} (h : D.WF) {p q : PointKV} (hp : p ∈ D.points)
    (hq : q ∈ D.points) (hk : p.key = q.key) (ht : p.ts = q.ts) : p = q := by
  by_contra hne
  exact List.Pairwise.forall (R := fun p q : PointKV => ¬ (p.key = q.key ∧ p.ts = q.ts))
    (fun a b hab hba => hab ⟨hba.1.symm, hba.2.symm⟩) h.2.1 hp hq hne ⟨hk, ht⟩

theorem Dataset.WF.pointAt_eq {D : Dataset} (h : D.WF) {p : PointKV} (hp : p ∈ D.points) :
    D.pointAt ⟨p.key, p.ts⟩ = some p := by
  cases hq : D.pointAt ⟨p.key, p.ts⟩ with
  | none =>
    rw [Dataset.pointAt_eq_none] at hq
    exact absurd ⟨rfl, rfl⟩ (hq p hp)
  | some q =>
    obtain ⟨h1, h2, h3⟩ := Dataset.pointAt_some hq
    rw [h.point_unique h1 hp h2 h3]

/-! ### Next and previous positions -/

theorem Dataset.nextPos_cases (D : Dataset) (x : MVCCKey) :
    (D.nextPos x = DataCursor.after ∧ ∀ p ∈ D.positions, ¬ x.Less p) ∨
    (∃ q, D.nextPos x = DataCursor.onKey q ∧ q ∈ D.positions ∧ x.Less q ∧
      ∀ p ∈ D.positions, x.Less p → ¬ p.Less q) := by
  unfold Dataset.nextPos
  cases hm : minKey (D.positions.filter (fun p => decide (x.Less p))) with
  | none =>
    left
    refine ⟨rfl, ?_⟩
    rw [minKey_eq_none, List.filter_eq_nil_iff] at hm
    intro p hp
    simpa using hm p hp
  | some q =>
    right
    have h1 := minKey_mem hm
    have h2 := minKey_le hm
    rw [List.mem_filter] at h1
    refine ⟨q, rfl, h1.1, by simpa using h1.2, ?_⟩
    intro p hp hxp
    exact h2 p (List.mem_filter.2 ⟨hp, by simpa using hxp⟩)

theorem Dataset.prevPos_cases (D : Dataset) (x : MVCCKey) :
    (D.prevPos x = DataCursor.before ∧ ∀ p ∈ D.positions, ¬ p.Less x) ∨
    (∃ q, D.prevPos x = DataCursor.onKey q ∧ q ∈ D.positions ∧ q.Less x ∧
      ∀ p ∈ D.positions, p.Less x → ¬ q.Less p) := by
  unfold Dataset.prevPos
  cases hm : maxKey (D.positions.filter (fun p => decide (p.Less x))) with
  | none =>
    left
    refine ⟨rfl, ?_⟩
    rw [maxKey_eq_none, List.filter_eq_nil_iff] at hm
    intro p hp
    simpa using hm p hp
  | some q =>
    right
    have h1 := maxKey_mem hm
    have h2 := maxKey_ge hm
    rw [List.mem_filter] at h1
    refine ⟨q, rfl, h1.1, by simpa using h1.2, ?_⟩
    intro p hp hxp
    exact h2 p (List.mem_filter.2 ⟨hp, by simpa using hxp⟩)

/-- The next position is determined by its characterisation. -/
theorem Dataset.nextPos_eq_on {D : Dataset} {x q : MVCCKey} (hq : q ∈ D.positions)
    (hxq : x.Less q) (hmin : ∀ p ∈ D.positions, x.Less p → ¬ p.Less q) :
    D.nextPos x = DataCursor.onKey q := by
  rcases D.nextPos_cases x with ⟨_, h⟩ | ⟨q', h1, h2, h3, h4⟩
  · exact absurd hxq (h q hq)
  · rw [h1]
    have a := hmin q' h2 h3
    have b := h4 q hq hxq
    rcases MVCCKey.Less.total q q' with h | h | h
    · exact absurd h b
    · rw [h]
    · exact absurd h a

theorem Dataset.nextPos_eq_after {D : Dataset} {x : MVCCKey}
    (h : ∀ p ∈ D.positions, ¬ x.Less p) : D.nextPos x = DataCursor.after := by
  rcases D.nextPos_cases x with ⟨h1, _⟩ | ⟨q', _, h2, h3, _⟩
  · exact h1
  · exact absurd h3 (h q' h2)

theorem Dataset.prevPos_eq_on {D : Dataset} {x q : MVCCKey} (hq : q ∈ D.positions)
    (hxq : q.Less x) (hmax : ∀ p ∈ D.positions, p.Less x → ¬ q.Less p) :
    D.prevPos x = DataCursor.onKey q := by
  rcases D.prevPos_cases x with ⟨_, h⟩ | ⟨q', h1, h2, h3, h4⟩
  · exact absurd hxq (h q hq)
  · rw [h1]
    have a := hmax q' h2 h3
    have b := h4 q hq hxq
    rcases MVCCKey.Less.total q q' with h | h | h
    · exact absurd h a
    · rw [h]
    · exact absurd h b

theorem Dataset.prevPos_eq_before {D : Dataset} {x : MVCCKey}
    (h : ∀ p ∈ D.positions, ¬ p.Less x) : D.prevPos x = DataCursor.before := by
  rcases D.prevPos_cases x with ⟨h1, _⟩ | ⟨q', _, h2, h3, _⟩
  · exact h1
  · exact absurd h3 (h q' h2)

/-! ### Counting versions -/

theorem versionsSorted_mono {V : MVCCRangeKeyVersions} (h : versionsSorted V = true) :
    ∀ (a b : Nat) (x y : MVCCRangeKeyVersion), a < b → V[a]? = some x → V[b]? = some y →
      y.Timestamp < x.Timestamp := by
  induction V with
  | nil => intro a b x y _ hx; simp at hx
  | cons v l ih =>
    obtain ⟨_, h2, h3⟩ := versionsSorted_cons h
    intro a b x y hab hx hy
    cases b with
    | zero => omega
    | succ b =>
      simp only [List.getElem?_cons_succ] at hy
      cases a with
      | zero =>
        simp at hx; subst hx
        exact h2 y (List.getElem?_mem hy)
      | succ a =>
        simp only [List.getElem?_cons_succ] at hx
        exact ih h3 a b x y (by omega) hx hy

theorem newer_lt_iff {V : MVCCRangeKeyVersions} (h : versionsSorted V = true) (t : Nat)
    {j : Nat} {v : MVCCRangeKeyVersion} (hv : V[j]? = some v) :
    j < newer V t ↔ t < v.Timestamp := by
  have := prefix_count h (fun v => decide (t < v.Timestamp))
    (by intro v w hw hle; simp only [decide_eq_true_eq] at hw ⊢; omega) j v hv
  simpa [newer] using this

theorem newerEq_lt_iff {V : MVCCRangeKeyVersions} (h : versionsSorted V = true) (t : Nat)
    {j : Nat} {v : MVCCRangeKeyVersion} (hv : V[j]? = some v) :
    j < newerEq V t ↔ t ≤ v.Timestamp := by
  have := prefix_count h (fun v => decide (t ≤ v.Timestamp))
    (by intro v w hw hle; simp only [decide_eq_true_eq] at hw ⊢; omega) j v hv
  simpa [newerEq] using this

theorem newer_le_length (V : MVCCRangeKeyVersions) (t : Nat) : newer V t ≤ V.length := by
  unfold newer; exact List.length_filter_le _ _

theorem newerEq_le_length (V : MVCCRangeKeyVersions) (t : Nat) : newerEq V t ≤ V.length := by
  unfold newerEq; exact List.length_filter_le _ _

/-- A count below the length is characterised by the entries around it. -/
theorem count_unique {V : MVCCRangeKeyVersions} {k n : Nat} (hk : k ≤ V.length)
    (hn : n ≤ V.length) (P : MVCCRangeKeyVersion → Prop)
    (hcount : ∀ (j : Nat) (v : MVCCRangeKeyVersion), V[j]? = some v → (j < n ↔ P v))
    (hlo : ∀ (j : Nat) (v : MVCCRangeKeyVersion), j < k → V[j]? = some v → P v)
    (hhi : ∀ (j : Nat) (v : MVCCRangeKeyVersion), k ≤ j → V[j]? = some v → ¬ P v) : k = n := by
  rcases Nat.lt_trichotomy k n with h | h | h
  · have hkl : k < V.length := by omega
    have h1 := (hcount k _ (List.getElem?_eq_getElem hkl)).1 h
    exact absurd h1 (hhi k _ (le_refl _) (List.getElem?_eq_getElem hkl))
  · exact h
  · have hnl : n < V.length := by omega
    have h1 := hlo n _ h (List.getElem?_eq_getElem hnl)
    have := (hcount n _ (List.getElem?_eq_getElem hnl)).2 h1
    omega

theorem search_less {V : MVCCRangeKeyVersions} (h : versionsSorted V = true) (t : Nat) :
    sortSearch (V.length : Int)
      (fun idx => (sliceIndex V idx).map (fun v => hlc.Timestamp.Less v.Timestamp t)) =
      some (newerEq V t : Int) := by
  obtain ⟨k, h1, h2, h3, h4⟩ := sortSearch_spec V
    (fun v => hlc.Timestamp.Less v.Timestamp t) V.length (le_refl _)
    (by
      intro a b x y hab hx hy hq
      simp only [hlc.Timestamp.Less, decide_eq_true_eq] at hq ⊢
      rcases Nat.eq_or_lt_of_le hab with rfl | hlt
      · rw [hx] at hy; cases hy; exact hq
      · have := versionsSorted_mono h a b x y hlt hx hy; omega)
  rw [h1]
  have : k = newerEq V t := by
    apply count_unique h2 (newerEq_le_length V t) (fun v => t ≤ v.Timestamp)
    · intro j v hv; exact newerEq_lt_iff h t hv
    · intro j v hj hv
      have := h3 j v hj hv
      simpa [hlc.Timestamp.Less] using this
    · intro j v hj hv
      have hjl : j < V.length := by
        by_contra hc
        rw [List.getElem?_eq_none (by omega)] at hv; cases hv
      have := h4 j v hj hjl hv
      simp only [hlc.Timestamp.Less, decide_eq_true_eq] at this
      omega
  rw [this]

theorem search_lessEq {V : MVCCRangeKeyVersions} (h : versionsSorted V = true) (T n : Nat)
    (hn : n ≤ V.length) :
    sortSearch (n : Int)
      (fun idx => (sliceIndex V idx).map (fun v => hlc.Timestamp.LessEq v.Timestamp T)) =
      some ((min n (newer V T) : Nat) : Int) := by
  obtain ⟨k, h1, h2, h3, h4⟩ := sortSearch_spec V
    (fun v => hlc.Timestamp.LessEq v.Timestamp T) n hn
    (by
      intro a b x y hab hx hy hq
      simp only [hlc.Timestamp.LessEq, decide_eq_true_eq] at hq ⊢
      rcases Nat.eq_or_lt_of_le hab with rfl | hlt
      · rw [hx] at hy; cases hy; exact hq
      · have := versionsSorted_mono h a b x y hlt hx hy; omega)
  rw [h1]
  have hnew := newer_le_length V T
  have : k = min n (newer V T) := by
    rcases Nat.lt_or_ge k (newer V T) with hlt | hge
    · -- entry k is newer than T, so the search cannot have stopped before n
      have hkl : k < V.length := by omega
      have hk := (newer_lt_iff h T (List.getElem?_eq_getElem hkl)).1 hlt
      have : ¬ k < n := by
        intro hkn
        have := h4 k _ (le_refl _) hkn (List.getElem?_eq_getElem hkl)
        simp only [hlc.Timestamp.LessEq, decide_eq_true_eq] at this
        omega
      omega
    · rcases Nat.eq_or_lt_of_le hge with heq | hgt
      · omega
      · -- entry newer V T lies before k, so it is newer than T
        have hjl : newer V T < V.length := by omega
        have := h3 (newer V T) _ hgt (List.getElem?_eq_getElem hjl)
        simp only [hlc.Timestamp.LessEq, decide_eq_false_iff_not] at this
        have := (newer_lt_iff h T (List.getElem?_eq_getElem hjl)).2 (by omega)
        omega
  rw [this]

/-! ### The dataset iterator, evaluated -/

@[simp] theorem DataCursor.isOn_onKey (q : MVCCKey) : (DataCursor.onKey q).isOn = true := rfl
@[simp] theorem DataCursor.isOn_after : DataCursor.after.isOn = false := rfl
@[simp] theorem DataCursor.isOn_before : DataCursor.before.isOn = false := rfl

@[simp] theorem dataIter_Valid (D : Dataset) (c : DataCursor) :
    (dataIter D).Valid c = (c.isOn, none) := by cases c <;> rfl
@[simp] theorem dataIter_Next_on (D : Dataset) (q : MVCCKey) :
    (dataIter D).Next (DataCursor.onKey q) = D.nextPos q := rfl
@[simp] theorem dataIter_Next_after (D : Dataset) :
    (dataIter D).Next DataCursor.after = DataCursor.after := rfl
@[simp] theorem dataIter_Prev_on (D : Dataset) (q : MVCCKey) :
    (dataIter D).Prev (DataCursor.onKey q) = D.prevPos q := rfl
@[simp] theorem dataIter_Prev_before (D : Dataset) :
    (dataIter D).Prev DataCursor.before = DataCursor.before := rfl
@[simp] theorem dataIter_HasPointAndRange_on (D : Dataset) (q : MVCCKey) :
    (dataIter D).HasPointAndRange (DataCursor.onKey q) =
      ((D.pointAt q).isSome, (D.rangeAt q.Key).isSome) := rfl
@[simp] theorem dataIter_UnsafeKey_on (D : Dataset) (q : MVCCKey) :
    (dataIter D).UnsafeKey (DataCursor.onKey q) = q := rfl
@[simp] theorem dataIter_UnsafeValue_on (D : Dataset) (q : MVCCKey) :
    (dataIter D).UnsafeValue (DataCursor.onKey q) = (D.pointAt q).bind (fun p => p.value) := rfl
@[simp] theorem dataIter_SeekLT (D : Dataset) (k : MVCCKey) (c : DataCursor) :
    (dataIter D).SeekLT k c = D.prevPos k := rfl

theorem dataIter_RangeBounds_on {D : Dataset} {q : MVCCKey} {r : RangeKV}
    (h : D.rangeAt q.Key = some r) :
    (dataIter D).RangeBounds (DataCursor.onKey q) = ⟨r.start, r.endKey⟩ := by
  simp [dataIter, h]

theorem dataIter_RangeKeys_on {D : Dataset} {q : MVCCKey} {r : RangeKV}
    (h : D.rangeAt q.Key = some r) :
    (dataIter D).RangeKeys (DataCursor.onKey q) = ⟨⟨r.start, r.endKey⟩, r.versions⟩ := by
  simp [dataIter, h]

/-! ### The helpers of the adapter, evaluated over the dataset iterator -/

theorem iterNext_on {D : Dataset} {st : DataIter} {q : MVCCKey}
    (hi : st.iter = some (DataCursor.onKey q)) :
    iterNext (dataIter D) st = some { st with
      iter := some (D.nextPos q), iterValid := (D.nextPos q).isOn, iterErr := none } := by
  simp [iterNext, updateValid, hi]

theorem iterPrev_on {D : Dataset} {st : DataIter} {q : MVCCKey}
    (hi : st.iter = some (DataCursor.onKey q)) :
    iterPrev (dataIter D) st = some { st with
      iter := some (D.prevPos q), iterValid := (D.prevPos q).isOn, iterErr := none } := by
  simp [iterPrev, updateValid, hi]

theorem extend_invalid {D : Dataset} {st : DataIter} (hv : st.iterValid = false) :
    extendRangeKeysEnd (dataIter D) st = some st := by
  simp [extendRangeKeysEnd, hv]

theorem extend_noop {D : Dataset} {st : DataIter} {q : MVCCKey}
    (hi : st.iter = some (DataCursor.onKey q))
    (h : (D.pointAt q).isSome = false ∨ q.Key ≠ st.rangeKeysPos ∨ q.Timestamp = 0) :
    extendRangeKeysEnd (dataIter D) st = some st := by
  simp only [extendRangeKeysEnd, hi, dataIter_HasPointAndRange_on, dataIter_UnsafeKey_on]
  split
  · rcases h with h | h | h
    · simp [h]
    · simp [roachpb.Key.Equal, h]
    · simp [hlc.Timestamp.IsEmpty, h]
  · rfl

theorem extend_point {D : Dataset} {st : DataIter} {q : MVCCKey}
    (hi : st.iter = some (DataCursor.onKey q)) (hv : st.iterValid = true)
    (hp : (D.pointAt q).isSome = true) (hk : q.Key = st.rangeKeysPos) (ht : q.Timestamp ≠ 0)
    (hs : versionsSorted st.rangeKeys = true) :
    extendRangeKeysEnd (dataIter D) st = some { st with
      rangeKeysEnd := max st.rangeKeysEnd (newerEq st.rangeKeys q.Timestamp : Nat) } := by
  cases st
  simp only at hi hv hk hs
  subst hi hv hk
  simp only [extendRangeKeysEnd, dataIter_HasPointAndRange_on, dataIter_UnsafeKey_on, hp,
    if_true, roachpb.Key.Equal, hlc.Timestamp.IsEmpty, search_less hs]
  simp only [beq_self_eq_true, Bool.true_and, Bool.not_eq_true', beq_eq_false_iff_ne, ne_eq, ht,
    not_false_eq_true, ↓reduceIte]
  split
  · congr 2; omega
  · congr 2; omega

theorem clearRangeKeys_eval {st : DataIter}
    (hc : st.rangeKeys = [] → st.rangeKeysPos = 0 ∧ st.rangeKeysStart = 0) :
    clearRangeKeys st = { st with
      rangeKeys := [], rangeKeysPos := 0, rangeKeysStart := 0, rangeKeysEnd := 0,
      rangeKeysIdx := if st.reverse then -1 else 0 } := by
  cases st with
  | mk iter rk pos idx e start atP rev emit iv ierr =>
    simp only at hc
    unfold clearRangeKeys
    by_cases h : rk = []
    · obtain ⟨h1, h2⟩ := hc h
      subst h h1 h2
      cases rev <;> simp
    · have : rk.length ≠ 0 := by
        intro h0; exact h (List.length_eq_zero.1 h0)
      cases rev <;> simp [this]

theorem CacheOK.clear {D : Dataset} (h : D.WF) {st : DataIter} (hc : CacheOK D st) :
    st.rangeKeys = [] → st.rangeKeysPos = 0 ∧ st.rangeKeysStart = 0 := by
  intro he
  rcases hc with hc | ⟨r, hr, h1, _⟩
  · exact ⟨hc.pos, hc.start⟩
  · rw [h1] at he
    exact absurd he (h.range_ok hr).2.2.1

theorem CacheOK.memo {D : Dataset} (h : D.WF) {st : DataIter} (hc : CacheOK D st)
    {r : RangeKV} (hr : r ∈ D.ranges) (hs : st.rangeKeysStart = r.start) :
    st.rangeKeys = r.versions := by
  rcases hc with hc | ⟨r', hr', h1, h2⟩
  · rw [hc.start] at hs
    exact absurd hs.symm (h.range_ok hr).1
  · have h3 := (h.range_ok hr).2.1
    have h4 := (h.range_ok hr').2.1
    have : r' = r := h.range_unique hr' hr (k := r.start) (by omega) (by omega)
    rw [h1, this]

theorem updateRangeKeys_clear {D : Dataset} {st : DataIter} {ic : DataCursor}
    (hi : st.iter = some ic) (hv : st.iterValid = ic.isOn)
    (hno : ∀ q, ic = DataCursor.onKey q → D.rangeAt q.Key = none) :
    updateRangeKeys (dataIter D) st = some (clearRangeKeys st) := by
  cases ic with
  | onKey q =>
    simp only [DataCursor.isOn_onKey] at hv
    simp [updateRangeKeys, hi, hv, hno q rfl]
  | before => simp only [DataCursor.isOn_before] at hv; simp [updateRangeKeys, hv]
  | after => simp only [DataCursor.isOn_after] at hv; simp [updateRangeKeys, hv]

/-- The window end that `updateRangeKeys` computes on position `q`. -/
theorem updateRangeKeys_on {D : Dataset} {st : DataIter} {q : MVCCKey} {r : RangeKV}
    (hi : st.iter = some (DataCursor.onKey q)) (hv : st.iterValid = true)
    (hr : D.rangeAt q.Key = some r) (hs : versionsSorted r.versions = true)
    (hm : st.rangeKeysStart = r.start → st.rangeKeys = r.versions) :
    ∃ e : Nat,
      (e = if q.Key = r.start then r.versions.length
        else if (D.pointAt q).isSome = true ∧ q.Timestamp ≠ 0
          then newerEq r.versions q.Timestamp else 0) ∧
      updateRangeKeys (dataIter D) st = some { st with
        rangeKeysPos := q.Key, rangeKeysStart := r.start, rangeKeys := r.versions,
        rangeKeysEnd := (e : Int),
        rangeKeysIdx := if st.reverse then (e : Int) - 1 else 0 } := by
  refine ⟨_, rfl, ?_⟩
  cases st with
  | mk iter rk pos idx e start atP rev emit iv ierr =>
    simp only at hi hv hm
    subst hi hv
    simp only [updateRangeKeys, dataIter_HasPointAndRange_on, hr, Option.isSome_some,
      dataIter_UnsafeKey_on, dataIter_RangeBounds_on hr, dataIter_RangeKeys_on hr,
      roachpb.Key.Equal, Bool.not_true, Bool.false_eq_true, ↓reduceIte]
    by_cases hst : r.start = start
    · have hrk := hm hst.symm
      subst hrk hst
      simp only [beq_self_eq_true, Bool.not_true, Bool.false_eq_true, ↓reduceIte]
      by_cases hk : q.Key = r.start
      · simp only [hk, beq_self_eq_true, ↓reduceIte]
        cases rev <;> simp
      · have hk' : (q.Key == r.start) = false := by simpa using hk
        simp only [hk', Bool.false_eq_true, ↓reduceIte, hk]
        by_cases hp : (D.pointAt q).isSome = true ∧ q.Timestamp ≠ 0
        · rw [extend_point (q := q) rfl rfl hp.1 rfl hp.2 hs]
          simp only [hp.1, hp.2, ne_eq, not_false_eq_true, and_self, ↓reduceIte]
          have : max (0 : Int) (newerEq r.versions q.Timestamp : Int) =
              (newerEq r.versions q.Timestamp : Int) := by omega
          cases rev <;> simp [this]
        · rw [extend_noop (q := q) rfl (by
            by_cases h1 : (D.pointAt q).isSome = true
            · right; right
              by_contra h2; exact hp ⟨h1, h2⟩
            · left; simpa using h1)]
          simp only [hp, ↓reduceIte]
          cases rev <;> simp
    · have hst' : (r.start == start) = false := by simpa using hst
      simp only [hst', Bool.not_false, ↓reduceIte]
      by_cases hk : q.Key = r.start
      · simp only [hk, beq_self_eq_true, ↓reduceIte]
        cases rev <;> simp
      · have hk' : (q.Key == r.start) = false := by simpa using hk
        simp only [hk', Bool.false_eq_true, ↓reduceIte, hk]
        by_cases hp : (D.pointAt q).isSome = true ∧ q.Timestamp ≠ 0
        · rw [extend_point (q := q) rfl rfl hp.1 rfl hp.2 hs]
          simp only [hp.1, hp.2, ne_eq, not_false_eq_true, and_self, ↓reduceIte]
          have : max (0 : Int) (newerEq r.versions q.Timestamp : Int) =
              (newerEq r.versions q.Timestamp : Int) := by omega
          cases rev <;> simp [this]
        · rw [extend_noop (q := q) rfl (by
            by_cases h1 : (D.pointAt q).isSome = true
            · right; right
              by_contra h2; exact hp ⟨h1, h2⟩
            · left; simpa using h1)]
          simp only [hp, ↓reduceIte]
          cases rev <;> simp

theorem updateAtPoint_invalid {D : Dataset} {st : DataIter} (hv : st.iterValid = false) :
    updateAtPoint (dataIter D) st = some { st with atPoint := false } := by
  simp [updateAtPoint, hv]

theorem updateAtPoint_noPoint {D : Dataset} {st : DataIter} {q : MVCCKey}
    (hi : st.iter = some (DataCursor.onKey q)) (hp : (D.pointAt q).isSome = false) :
    updateAtPoint (dataIter D) st = some { st with atPoint := false } := by
  simp only [updateAtPoint, hi, dataIter_HasPointAndRange_on, hp]
  split <;> simp

theorem updateAtPoint_noRange {D : Dataset} {st : DataIter} {q : MVCCKey}
    (hi : st.iter = some (DataCursor.onKey q)) (hv : st.iterValid = true)
    (hp : (D.pointAt q).isSome = true) (hr : st.rangeKeys = []) :
    updateAtPoint (dataIter D) st = some { st with atPoint := true } := by
  simp [updateAtPoint, hi, hv, hp, hr]

theorem updateAtPoint_otherKey {D : Dataset} {st : DataIter} {q : MVCCKey}
    (hi : st.iter = some (DataCursor.onKey q)) (hr : st.rangeKeys ≠ [])
    (hk : q.Key ≠ st.rangeKeysPos) :
    updateAtPoint (dataIter D) st = some { st with atPoint := false } := by
  have hl : st.rangeKeys.length ≠ 0 := fun h0 => hr (List.length_eq_zero.1 h0)
  simp only [updateAtPoint, hi, dataIter_HasPointAndRange_on, dataIter_UnsafeKey_on,
    roachpb.Key.Equal]
  have hk' : (q.Key == st.rangeKeysPos) = false := by simpa using hk
  split
  · rfl
  · split
    · rfl
    · simp [hl, hk']

/-- Forward direction, a point of the cached key: `atPoint` is decided by the
cursor and the timestamps. -/
theorem updateAtPoint_fwd {D : Dataset} {st : DataIter} {q : MVCCKey}
    (hi : st.iter = some (DataCursor.onKey q)) (hv : st.iterValid = true)
    (hp : (D.pointAt q).isSome = true) (hr : st.rangeKeys ≠ [])
    (hk : q.Key = st.rangeKeysPos) (hrev : st.reverse = false)
    {j : Nat} (hj : st.rangeKeysIdx = (j : Int))
    (hin : (j : Int) < st.rangeKeysEnd → q.Timestamp ≠ 0 → j < st.rangeKeys.length) :
    updateAtPoint (dataIter D) st = some { st with
      atPoint := decide ((j : Int) ≥ st.rangeKeysEnd ∨ q.Timestamp = 0 ∨
        ∃ v, st.rangeKeys[j]? = some v ∧ v.Timestamp ≤ q.Timestamp) } := by
  have hl : st.rangeKeys.length ≠ 0 := fun h0 => hr (List.length_eq_zero.1 h0)
  simp only [updateAtPoint, hi, hv, dataIter_HasPointAndRange_on, dataIter_UnsafeKey_on,
    roachpb.Key.Equal, hp, hl, hk, hrev, hj, hlc.Timestamp.IsSet, hlc.Timestamp.LessEq]
  simp only [Bool.not_true, Bool.false_eq_true, ↓reduceIte, beq_self_eq_true, Bool.not_false,
    ge_iff_le, Bool.or_eq_true, decide_eq_true_eq, Bool.not_eq_true', bne_eq_false_iff_eq]
  by_cases h1 : st.rangeKeysEnd ≤ (j : Int) ∨ q.Timestamp = 0
  · simp only [h1, ↓reduceIte]
    congr 2
    rcases h1 with h1 | h1
    · simp [h1]
    · simp [h1]
  · simp only [h1, ↓reduceIte]
    have h2 : (j : Int) < st.rangeKeysEnd := by omega
    have h3 : q.Timestamp ≠ 0 := by omega
    have hjl := hin h2 h3
    simp only [sliceIndex_ofNat, List.getElem?_eq_getElem hjl]
    congr 2
    simp only [Option.some.injEq, exists_eq_left']
    have : ¬ st.rangeKeysEnd ≤ (j : Int) := by omega
    simp [this, h3]

/-! ### Positions -/

theorem Dataset.point_mem_positions {D : Dataset} {q : MVCCKey}
    (h : (D.pointAt q).isSome = true) : q ∈ D.positions := by
  rw [Dataset.pointAt_isSome] at h
  obtain ⟨p, hp, h1, h2⟩ := h
  rw [Dataset.mem_positions]
  left
  refine ⟨p, hp, ?_⟩
  rw [MVCCKey.ext_iff']; exact ⟨h1.symm, h2.symm⟩

theorem Dataset.start_mem_positions {D : Dataset} {r : RangeKV} (h : r ∈ D.ranges) :
    (⟨r.start, 0⟩ : MVCCKey) ∈ D.positions := by
  rw [Dataset.mem_positions]
  exact Or.inr ⟨r, h, rfl⟩

theorem Dataset.positions_cases {D : Dataset} {q : MVCCKey} (h : q ∈ D.positions) :
    (D.pointAt q).isSome = true ∨ ∃ r ∈ D.ranges, q = ⟨r.start, 0⟩ := by
  rw [Dataset.mem_positions] at h
  rcases h with ⟨p, hp, rfl⟩ | h
  · left
    rw [Dataset.pointAt_isSome]
    exact ⟨p, hp, rfl, rfl⟩
  · exact Or.inr h

/-- A point lying in a span is not on the span's start key with the empty timestamp. -/
theorem Dataset.WF.start_not_point {D : Dataset} (h : D.WF) {r : RangeKV} (hr : r ∈ D.ranges) :
    (D.pointAt ⟨r.start, 0⟩).isSome = false := by
  cases hp : D.pointAt ⟨r.start, 0⟩ with
  | none => rfl
  | some p =>
    obtain ⟨h1, h2, h3⟩ := Dataset.pointAt_some hp
    exact absurd ⟨h2, h3⟩ (h.no_start_intent h1 hr)

/-! ### Windows -/

theorem Dataset.synthAt_iff {D : Dataset} {f : Nat} {r : RangeKV} {K : Nat}
    {v : MVCCRangeKeyVersion} :
    D.synthAt f r K v = true ↔ K = r.start ∨ K = f ∨
      ∃ p ∈ D.points, p.key = K ∧ p.ts ≠ 0 ∧ p.ts < v.Timestamp := by
  simp only [Dataset.synthAt, Bool.or_eq_true, decide_eq_true_eq, List.any_eq_true,
    Bool.and_eq_true, or_assoc, and_assoc]

theorem Dataset.window_lt_iff {D : Dataset} {f : Nat} {r : RangeKV} {K : Nat}
    (hs : versionsSorted r.versions = true) {j : Nat} {v : MVCCRangeKeyVersion}
    (hv : r.versions[j]? = some v) :
    j < D.window f r K ↔ D.synthAt f r K v = true := by
  apply prefix_count hs (D.synthAt f r K) _ j v hv
  intro v w hw hle
  rw [Dataset.synthAt_iff] at hw ⊢
  rcases hw with h | h | ⟨p, hp, h1, h2, h3⟩
  · exact Or.inl h
  · exact Or.inr (Or.inl h)
  · exact Or.inr (Or.inr ⟨p, hp, h1, h2, by omega⟩)

theorem Dataset.window_le_length (D : Dataset) (f : Nat) (r : RangeKV) (K : Nat) :
    D.window f r K ≤ r.versions.length := by
  unfold Dataset.window; exact List.length_filter_le _ _

/-- Comparing two prefix lengths entry by entry. -/
theorem count_le {V : MVCCRangeKeyVersions} {a b : Nat} (ha : a ≤ V.length)
    (h : ∀ (j : Nat) (v : MVCCRangeKeyVersion), V[j]? = some v → j < a → j < b) : a ≤ b := by
  by_contra hc
  have hb : b < V.length := by omega
  have := h b _ (List.getElem?_eq_getElem hb) (by omega)
  omega

theorem Dataset.window_full {D : Dataset} {f : Nat} {r : RangeKV} {K : Nat}
    (hs : versionsSorted r.versions = true) (h : K = r.start ∨ K = f) :
    D.window f r K = r.versions.length := by
  apply Nat.le_antisymm (D.window_le_length f r K)
  apply count_le (le_refl _)
  intro j v hv _
  rw [Dataset.window_lt_iff hs hv, Dataset.synthAt_iff]
  rcases h with h | h
  · exact Or.inl h
  · exact Or.inr (Or.inl h)

theorem Dataset.newerPt_le_window {D : Dataset} {f : Nat} {r : RangeKV} {q : MVCCKey}
    (hs : versionsSorted r.versions = true) (hp : (D.pointAt q).isSome = true) :
    newerPt r.versions q.Timestamp ≤ D.window f r q.Key := by
  unfold newerPt
  split
  · omega
  · rename_i ht
    apply count_le (newer_le_length _ _)
    intro j v hv hj
    rw [newer_lt_iff hs _ hv] at hj
    rw [Dataset.window_lt_iff hs hv, Dataset.synthAt_iff]
    rw [Dataset.pointAt_isSome] at hp
    obtain ⟨p, hp, h1, h2⟩ := hp
    exact Or.inr (Or.inr ⟨p, hp, h1, by omega, by omega⟩)

/-- Away from the start key, the window is bounded by the versions newer than
every timestamped point of the key. -/
theorem Dataset.window_le_newer {D : Dataset} {f : Nat} {r : RangeKV} {K t : Nat}
    (hs : versionsSorted r.versions = true) (h1 : K ≠ r.start) (h2 : K ≠ f)
    (hall : ∀ p ∈ D.points, p.key = K → p.ts ≠ 0 → t ≤ p.ts) :
    D.window f r K ≤ newer r.versions t := by
  apply count_le (D.window_le_length f r K)
  intro j v hv hj
  rw [Dataset.window_lt_iff hs hv, Dataset.synthAt_iff] at hj
  rw [newer_lt_iff hs _ hv]
  rcases hj with h | h | ⟨p, hp, h3, h4, h5⟩
  · exact absurd h h1
  · exact absurd h h2
  · have := hall p hp h3 h4
    omega

theorem Dataset.window_eq_zero {D : Dataset} {f : Nat} {r : RangeKV} {K : Nat}
    (hs : versionsSorted r.versions = true) (h1 : K ≠ r.start) (h2 : K ≠ f)
    (hall : ∀ p ∈ D.points, p.key = K → p.ts = 0) :
    D.window f r K = 0 := by
  have : D.window f r K ≤ 0 := by
    apply count_le (D.window_le_length f r K)
    intro j v hv hj
    rw [Dataset.window_lt_iff hs hv, Dataset.synthAt_iff] at hj
    rcases hj with h | h | ⟨p, hp, h3, h4, h5⟩
    · exact absurd h h1
    · exact absurd h h2
    · exact absurd (hall p hp h3) h4
  omega

/-! ### Exposed keys -/

theorem Dataset.isExposed_point {D : Dataset} {f : Nat} {z : MVCCKey}
    (h : (D.pointAt z).isSome = true) : D.isExposed f z := Or.inl h

theorem Dataset.isExposed_syn {D : Dataset} {f : Nat} {r : RangeKV} {K j : Nat}
    {v : MVCCRangeKeyVersion} (hs : versionsSorted r.versions = true)
    (hr : D.rangeAt K = some r) (hv : r.versions[j]? = some v) (hj : j < D.window f r K) :
    D.isExposed f ⟨K, v.Timestamp⟩ := by
  right
  exact ⟨r, hr, v, List.getElem?_mem hv, rfl, (Dataset.window_lt_iff hs hv).1 hj⟩

/-- A synthesized key is justified by a position: the bare start of its span, or
an older timestamped point of its key, or the `emitOnSeekGE` key. -/
theorem Dataset.isExposed_cases {D : Dataset} {f : Nat} {z : MVCCKey} (h : D.isExposed f z) :
    (D.pointAt z).isSome = true ∨
    ∃ r, D.rangeAt z.Key = some r ∧ ∃ (j : Nat) (v : MVCCRangeKeyVersion),
      r.versions[j]? = some v ∧ v.Timestamp = z.Timestamp ∧
      (z.Key = r.start ∨ z.Key = f ∨
        ∃ p ∈ D.points, p.key = z.Key ∧ p.ts ≠ 0 ∧ p.ts < z.Timestamp) := by
  rcases h with h | ⟨r, hr, v, hv, h1, h2⟩
  · exact Or.inl h
  · right
    obtain ⟨j, hj⟩ := List.getElem?_of_mem hv
    refine ⟨r, hr, j, v, hj, h1, ?_⟩
    rw [Dataset.synthAt_iff] at h2
    rw [← h1]; exact h2

/-! ### Deciding real against synthetic, forward -/

theorem newer_self {V : MVCCRangeKeyVersions} (hs : versionsSorted V = true) {c : Nat}
    {v : MVCCRangeKeyVersion} (hv : V[c]? = some v) : newer V v.Timestamp = c := by
  have hc : c < V.length := by
    by_contra hc
    rw [List.getElem?_eq_none (by omega)] at hv; cases hv
  symm
  apply count_unique (Nat.le_of_lt hc) (newer_le_length _ _) (fun w => v.Timestamp < w.Timestamp)
  · intro j w hw; exact newer_lt_iff hs _ hw
  · intro j w hj hw; exact versionsSorted_mono hs j c w v hj hw hv
  · intro j w hj hw
    rcases Nat.eq_or_lt_of_le hj with rfl | hlt
    · rw [hv] at hw; cases hw; omega
    · have := versionsSorted_mono hs c j v w hlt hv hw; omega

theorem FwdMid.sorted {D : Dataset} (hwf : D.WF) {fk : Nat} {st : DataIter} {K : Nat}
    {x : MVCCKey} {r : RangeKV} {e : Nat} (h : FwdMid D fk st K x r e) :
    versionsSorted r.versions = true :=
  (hwf.range_ok (Dataset.rangeAt_some h.range).1).2.2.2

theorem FwdMid.e_le {D : Dataset} {fk : Nat} {st : DataIter} {K : Nat}
    {x : MVCCKey} {r : RangeKV} {e : Nat} (h : FwdMid D fk st K x r e) :
    e ≤ r.versions.length :=
  Nat.le_trans h.endOK.1 (D.window_le_length fk r K)

/-- A version already consumed does not lie after `x`. -/
theorem FwdMid.consumed_not_after {D : Dataset} (hwf : D.WF) {fk : Nat} {st : DataIter}
    {K : Nat} {x : MVCCKey} {r : RangeKV} {e : Nat} (h : FwdMid D fk st K x r e)
    {j : Nat} {w : MVCCRangeKeyVersion} (hw : r.versions[j]? = some w)
    (hj : j < consumed r.versions K x) : ¬ x.Less ⟨K, w.Timestamp⟩ := by
  unfold consumed at hj
  split at hj
  · rename_i hx
    rw [newerEq_lt_iff (h.sorted hwf) _ hw] at hj
    unfold MVCCKey.Less
    simp only
    omega
  · omega

theorem fwdMid_syn {D : Dataset} (hwf : D.WF) {fk : Nat} {st : DataIter} {K : Nat}
    {x : MVCCKey} {r : RangeKV} {e : Nat} (h : FwdMid D fk st K x r e)
    (hce : consumed r.versions K x < e)
    (hpos : ∀ q v, D.nextPos x = DataCursor.onKey q →
      r.versions[consumed r.versions K x]? = some v → MVCCKey.Less ⟨K, v.Timestamp⟩ q) :
    LandsAfter D fk { st with atPoint := false } x := by
  have hs := h.sorted hwf
  have hel := h.e_le
  have hcl : consumed r.versions K x < r.versions.length := by omega
  have hv := List.getElem?_eq_getElem hcl
  generalize r.versions[consumed r.versions K x] = v at hv
  have hvne : v.Timestamp ≠ 0 := versionsSorted_ne_zero hs v (List.getElem?_mem hv)
  have hnew : newer r.versions v.Timestamp = consumed r.versions K x := newer_self hs hv
  have hxy : x.Less ⟨K, v.Timestamp⟩ := by
    have hk := h.key_le
    by_cases hxk : x.Key = K ∧ x.Timestamp ≠ 0
    · have : ¬ consumed r.versions K x < newerEq r.versions x.Timestamp := by
        simp [consumed, hxk]
      rw [newerEq_lt_iff hs _ hv] at this
      unfold MVCCKey.Less; simp only; omega
    · unfold MVCCKey.Less; simp only; omega
  have hnext : D.nextPos ⟨K, v.Timestamp⟩ = D.nextPos x := by
    rcases D.nextPos_cases x with ⟨hn, hnone⟩ | ⟨q, hn, hq, hxq, hmin⟩
    · rw [hn]
      apply Dataset.nextPos_eq_after
      intro p hp hyp
      exact hnone p hp (MVCCKey.Less.trans hxy hyp)
    · rw [hn]
      apply Dataset.nextPos_eq_on hq (hpos q v hn hv)
      intro p hp hyp
      exact hmin p hp (MVCCKey.Less.trans hxy hyp)
  right
  refine ⟨⟨K, v.Timestamp⟩, Or.inr ?_, hxy, ?_⟩
  · refine ⟨?_, rfl, h.fk_le, r, h.range, ⟨h.cache.rangeKeys, h.cache.pos, h.cache.start⟩, ?_,
      ⟨v, ?_, rfl⟩, e, h.endEq, ?_, ?_⟩
    · rw [hnext]
      exact ⟨h.base.iter, h.base.reverse, h.base.iterErr, h.base.iterValid⟩
    · simp only [hnew]; exact h.idx
    · simp only [hnew]; exact hv
    · simp only [hnew]; exact hce
    · rw [hnext]; exact h.endOK
  · intro z hz hxz hzy
    have hzk : z.Key = K := by
      have := h.gapExp z hz hxz
      unfold MVCCKey.Less at hzy; simp only at hzy; omega
    rcases Dataset.isExposed_cases hz with hp | ⟨r', hr', j, w, hw, hwt, _⟩
    · have hzp := Dataset.point_mem_positions hp
      rcases D.nextPos_cases x with ⟨hn, hnone⟩ | ⟨q, hn, hq, hxq, hmin⟩
      · exact hnone z hzp hxz
      · exact hmin z hzp hxz (MVCCKey.Less.trans hzy (hpos q v hn hv))
    · rw [hzk, h.range] at hr'
      cases hr'
      have hjc : j < consumed r.versions K x := by
        rw [← hnew, newer_lt_iff hs _ hw]
        have := versionsSorted_ne_zero hs w (List.getElem?_mem hw)
        unfold MVCCKey.Less at hzy; simp only at hzy; omega
      have := h.consumed_not_after hwf hw hjc
      apply this
      have : z = ⟨K, w.Timestamp⟩ := by
        rw [MVCCKey.ext_iff']; exact ⟨hzk, hwt.symm⟩
      rw [← this]; exact hxz

theorem fwdMid_real {D : Dataset} (hwf : D.WF) {fk : Nat} {st : DataIter} {K : Nat}
    {x : MVCCKey} {r : RangeKV} {e : Nat} (h : FwdMid D fk st K x r e) {q : MVCCKey}
    (hn : D.nextPos x = DataCursor.onKey q) (hp : (D.pointAt q).isSome = true)
    (hk : q.Key = K)
    (hdec : e ≤ consumed r.versions K x ∨ q.Timestamp = 0 ∨
      ∃ v, r.versions[consumed r.versions K x]? = some v ∧ v.Timestamp ≤ q.Timestamp) :
    LandsAfter D fk { st with atPoint := true } x := by
  have hs := h.sorted hwf
  have hel := h.e_le
  obtain ⟨hq, hxq, hmin⟩ : q ∈ D.positions ∧ x.Less q ∧
      ∀ p ∈ D.positions, x.Less p → ¬ p.Less q := by
    rcases D.nextPos_cases x with ⟨hn', _⟩ | ⟨q', hn', h1, h2, h3⟩
    · rw [hn] at hn'; cases hn'
    · rw [hn] at hn'; cases hn'; exact ⟨h1, h2, h3⟩
  have hr := Dataset.rangeAt_some h.range
  have hidx : consumed r.versions K x = newerPt r.versions q.Timestamp := by
    unfold newerPt
    split
    · rename_i ht
      unfold consumed
      split
      · rename_i hx
        unfold MVCCKey.Less at hxq; omega
      · rfl
    · rename_i ht
      apply count_unique (Nat.le_trans h.idx_le hel) (newer_le_length _ _)
        (fun w => q.Timestamp < w.Timestamp)
      · intro j w hw; exact newer_lt_iff hs _ hw
      · intro j w hj hw
        have h1 := h.consumed_not_after hwf hw hj
        have h2 : 0 < consumed r.versions K x := by omega
        have h3 : x.Key = K ∧ x.Timestamp ≠ 0 := by
          by_contra hc; simp [consumed, hc] at h2
        have h4 := versionsSorted_ne_zero hs w (List.getElem?_mem hw)
        unfold MVCCKey.Less at h1 hxq; simp only at h1; omega
      · intro j w hj hw hlt
        rcases hdec with hd | hd | ⟨v, hv, hvq⟩
        · -- the window is exhausted
          have hsyn : j < D.window fk r K := by
            rw [Dataset.window_lt_iff hs hw, Dataset.synthAt_iff]
            rw [Dataset.pointAt_isSome] at hp
            obtain ⟨p, hp, h1, h2⟩ := hp
            exact Or.inr (Or.inr ⟨p, hp, by omega, by omega, by omega⟩)
          rcases h.endOK.2 with hw' | ⟨_, _, q', hq', _, hle⟩
          · omega
          · rw [hn] at hq'; cases hq'
            have : j < newer r.versions q.Timestamp := (newer_lt_iff hs _ hw).2 hlt
            simp only [newerPt, ht, if_false] at hle
            omega
        · exact ht hd
        · rcases Nat.eq_or_lt_of_le hj with rfl | hlt'
          · rw [hv] at hw; cases hw; omega
          · have := versionsSorted_mono hs _ j v w hlt' hv hw; omega
  right
  refine ⟨q, Or.inl ?_, hxq, ?_⟩
  · refine ⟨?_, hp, rfl, ?_, ?_, ?_⟩
    · have := h.base
      rw [hn] at this
      exact ⟨this.iter, this.reverse, this.iterErr, this.iterValid⟩
    · rw [hk]; exact h.fk_le
    · intro hnone; rw [hk, h.range] at hnone; cases hnone
    · intro r' hr'
      rw [hk, h.range] at hr'; cases hr'
      refine ⟨⟨h.cache.rangeKeys, ?_, h.cache.start⟩, ?_, e, h.endEq, ?_⟩
      · rw [hk]; exact h.cache.pos
      · rw [← hidx]; exact h.idx
      · rw [hk, ← hn]; exact h.endOK
  · intro z hz hxz hzq
    have hzk : z.Key = K := by
      have := h.gapExp z hz hxz
      unfold MVCCKey.Less at hzq; omega
    rcases Dataset.isExposed_cases hz with hp' | ⟨r', hr', j, w, hw, hwt, _⟩
    · exact hmin z (Dataset.point_mem_positions hp') hxz hzq
    · rw [hzk, h.range] at hr'
      cases hr'
      have hwne := versionsSorted_ne_zero hs w (List.getElem?_mem hw)
      have hjc : j < consumed r.versions K x := by
        rw [hidx]
        unfold newerPt
        split
        · unfold MVCCKey.Less at hzq; omega
        · rw [newer_lt_iff hs _ hw]
          unfold MVCCKey.Less at hzq; omega
      have := h.consumed_not_after hwf hw hjc
      apply this
      have : z = ⟨K, w.Timestamp⟩ := by
        rw [MVCCKey.ext_iff']; exact ⟨hzk, hwt.symm⟩
      rw [← this]; exact hxz

theorem fwdMid_stuck {D : Dataset} (hwf : D.WF) {fk : Nat} {st : DataIter} {K : Nat}
    {x : MVCCKey} {r : RangeKV} {e : Nat} (h : FwdMid D fk st K x r e)
    (hce : e ≤ consumed r.versions K x)
    (hpos : ∀ q, D.nextPos x = DataCursor.onKey q → K < q.Key) :
    FwdStuck D fk { st with atPoint := false } x := by
  have hs := h.sorted hwf
  have hr := Dataset.rangeAt_some h.range
  have hxk : x.Key = K := by
    by_contra hc
    have : x.Key < K := by have := h.key_le; omega
    obtain ⟨q, hq, hqk, _⟩ := h.gapPos this
    have := hpos q hq
    omega
  have hwin : D.window fk r K ≤ e := by
    rcases h.endOK.2 with hw | ⟨_, _, q, hq, hqk, _⟩
    · exact hw
    · have := hpos q hq; omega
  refine ⟨⟨h.base.iter, h.base.reverse, h.base.iterErr, h.base.iterValid⟩, ?_, ?_, ?_, ?_⟩
  · exact Or.inr ⟨r, hr.1, h.cache.rangeKeys, h.cache.start⟩
  · rw [hxk]; exact h.fk_le
  · intro q hq; rw [hxk]; exact hpos q hq
  · intro y hy hxy
    have hge := h.gapExp y hy hxy
    rw [hxk]
    by_contra hc
    have hyk : y.Key = K := by omega
    rcases Dataset.isExposed_cases hy with hp | ⟨r', hr', j, w, hw, hwt, hj⟩
    · have hyp := Dataset.point_mem_positions hp
      rcases D.nextPos_cases x with ⟨hn, hnone⟩ | ⟨q, hn, hq, hxq, hmin⟩
      · exact hnone y hyp hxy
      · have h1 := hpos q hn
        have h2 := hmin y hyp hxy
        unfold MVCCKey.Less at h2; omega
    · rw [hyk, h.range] at hr'
      cases hr'
      have hjw : j < D.window fk r K := by
        rw [Dataset.window_lt_iff hs hw, Dataset.synthAt_iff]
        rcases hj with hj | hj | ⟨p, hp, h1, h2, h3⟩
        · exact Or.inl (by omega)
        · exact Or.inr (Or.inl (by omega))
        · exact Or.inr (Or.inr ⟨p, hp, by omega, h2, by omega⟩)
      have := h.consumed_not_after hwf hw (by omega : j < consumed r.versions K x)
      apply this
      have : y = ⟨K, w.Timestamp⟩ := by
        rw [MVCCKey.ext_iff']; exact ⟨hyk, hwt.symm⟩
      rw [← this]; exact hxy

theorem FwdMid.key_eq_of_left {D : Dataset} {fk : Nat} {st : DataIter} {K : Nat}
    {x : MVCCKey} {r : RangeKV} {e : Nat} (h : FwdMid D fk st K x r e)
    (hpos : ∀ q, D.nextPos x = DataCursor.onKey q → K < q.Key) : x.Key = K := by
  by_contra hc
  have : x.Key < K := by have := h.key_le; omega
  obtain ⟨q, hq, hqk, _⟩ := h.gapPos this
  have := hpos q hq
  omega

/-- `updateAtPoint` in the middle of a forward step: either the state lands on
the first exposed key after `x`, or the window is exhausted and the iterator
has left the key. -/
theorem fwdMid_decide {D : Dataset} (hwf : D.WF) {fk : Nat} {st : DataIter} {K : Nat}
    {x : MVCCKey} {r : RangeKV} {e : Nat} (h : FwdMid D fk st K x r e) :
    ∃ b : Bool, updateAtPoint (dataIter D) st = some { st with atPoint := b } ∧
      (((b = true ∨ consumed r.versions K x < e) ∧
          LandsAfter D fk { st with atPoint := b } x) ∨
       (b = false ∧ e ≤ consumed r.versions K x ∧ x.Key = K ∧
          FwdStuck D fk { st with atPoint := false } x)) := by
  have hs := h.sorted hwf
  have hel := h.e_le
  have hr := Dataset.rangeAt_some h.range
  have hrk : st.rangeKeys ≠ [] := by
    rw [h.cache.rangeKeys]; exact (hwf.range_ok hr.1).2.2.1
  -- the outcome when the iterator is not on a point of the cached key
  have other : (∀ q, D.nextPos x = DataCursor.onKey q → K < q.Key) →
      (((false = true ∨ consumed r.versions K x < e) ∧
          LandsAfter D fk { st with atPoint := false } x) ∨
       (false = false ∧ e ≤ consumed r.versions K x ∧ x.Key = K ∧
          FwdStuck D fk { st with atPoint := false } x)) := by
    intro hpos
    by_cases hce : consumed r.versions K x < e
    · left
      refine ⟨Or.inr hce, fwdMid_syn hwf h hce ?_⟩
      intro q v hq _
      have := hpos q hq
      unfold MVCCKey.Less; simp only; omega
    · right
      exact ⟨rfl, by omega, h.key_eq_of_left hpos, fwdMid_stuck hwf h (by omega) hpos⟩
  rcases D.nextPos_cases x with ⟨hn, hnone⟩ | ⟨q, hn, hq, hxq, hmin⟩
  · -- the iterator is exhausted
    have hv : st.iterValid = false := by rw [h.base.iterValid, hn]; rfl
    refine ⟨false, updateAtPoint_invalid hv, other ?_⟩
    intro q hq; rw [hn] at hq; cases hq
  · have hi : st.iter = some (DataCursor.onKey q) := by rw [h.base.iter, hn]
    have hv : st.iterValid = true := by rw [h.base.iterValid, hn]; rfl
    have hqK : K ≤ q.Key := by
      have := h.key_le
      by_cases hxk : x.Key < K
      · obtain ⟨q', hq', hqk, _⟩ := h.gapPos hxk
        have hqq : q = q' := by rw [hn] at hq'; injection hq'
        subst hqq; omega
      · unfold MVCCKey.Less at hxq; omega
    by_cases hp : (D.pointAt q).isSome = true
    · by_cases hk : q.Key = K
      · -- a point of the cached key
        have hk' : q.Key = st.rangeKeysPos := by rw [h.cache.pos]; exact hk
        have hin : ((consumed r.versions K x : Nat) : Int) < st.rangeKeysEnd →
            q.Timestamp ≠ 0 → consumed r.versions K x < st.rangeKeys.length := by
          intro h1 _
          rw [h.endEq] at h1
          rw [h.cache.rangeKeys]; omega
        refine ⟨_, updateAtPoint_fwd hi hv hp hrk hk' h.base.reverse h.idx hin, ?_⟩
        by_cases hdec : (((consumed r.versions K x : Nat) : Int) ≥ st.rangeKeysEnd ∨
            q.Timestamp = 0 ∨
            ∃ v, st.rangeKeys[consumed r.versions K x]? = some v ∧ v.Timestamp ≤ q.Timestamp)
        · left
          simp only [hdec, decide_True, true_or, true_and]
          apply fwdMid_real hwf h hn hp hk
          rw [h.endEq, h.cache.rangeKeys] at hdec
          rcases hdec with hd | hd | hd
          · exact Or.inl (by omega)
          · exact Or.inr (Or.inl hd)
          · exact Or.inr (Or.inr hd)
        · left
          simp only [hdec, decide_False]
          rw [h.endEq, h.cache.rangeKeys] at hdec
          have hce : consumed r.versions K x < e := by
            by_contra hc; exact hdec (Or.inl (by omega))
          refine ⟨Or.inr hce, fwdMid_syn hwf h hce ?_⟩
          intro q' v hq' hv'
          have hqq : q = q' := by rw [hn] at hq'; injection hq'
          subst hqq
          have h1 : q.Timestamp ≠ 0 := fun h0 => hdec (Or.inr (Or.inl h0))
          have h2 : ¬ v.Timestamp ≤ q.Timestamp := fun h0 => hdec (Or.inr (Or.inr ⟨v, hv', h0⟩))
          unfold MVCCKey.Less; simp only; omega
      · have hk' : q.Key ≠ st.rangeKeysPos := by rw [h.cache.pos]; exact hk
        refine ⟨false, updateAtPoint_otherKey hi hrk hk', other ?_⟩
        intro q' hq'
        have hqq : q = q' := by rw [hn] at hq'; injection hq'
        subst hqq; omega
    · -- a bare range position: it starts a later span
      have hp' : (D.pointAt q).isSome = false := by simpa using hp
      refine ⟨false, updateAtPoint_noPoint hi hp', other ?_⟩
      intro q' hq'
      have hqq : q = q' := by rw [hn] at hq'; injection hq'
      subst hqq
      by_contra hc
      have hqk : q.Key = K := by omega
      by_cases hxk : x.Key < K
      · obtain ⟨q'', hq'', _, hpt⟩ := h.gapPos hxk
        have hqq : q = q'' := by rw [hn] at hq''; injection hq''
        subst hqq
        rw [hpt] at hp'; cases hp'
      · rcases Dataset.positions_cases hq with hpt | ⟨r', _, hr'⟩
        · rw [hpt] at hp'; cases hp'
        · rw [hr'] at hxq
          unfold MVCCKey.Less at hxq; simp only at hxq
          rw [hr'] at hqk; simp only at hqk
          have := h.key_le
          omega

/-! ### Re-synchronising, forward -/

theorem updatePosition_invalid {D : Dataset} {st : DataIter} (hv : st.iterValid = false) :
    updatePosition (dataIter D) st = some (clearRangeKeys { st with atPoint := false }) := by
  simp [updatePosition, hv]

theorem updatePosition_noRange {D : Dataset} {st : DataIter} {q : MVCCKey}
    (hi : st.iter = some (DataCursor.onKey q)) (hv : st.iterValid = true)
    (hr : D.rangeAt q.Key = none) :
    updatePosition (dataIter D) st =
      some (clearRangeKeys { st with atPoint := (D.pointAt q).isSome }) := by
  simp [updatePosition, hi, hv, hr]

theorem updatePosition_fwd_point {D : Dataset} {st : DataIter} {q : MVCCKey} {r : RangeKV}
    (hi : st.iter = some (DataCursor.onKey q)) (hv : st.iterValid = true)
    (hr : D.rangeAt q.Key = some r) (hp : (D.pointAt q).isSome = true)
    (hrev : st.reverse = false) :
    updatePosition (dataIter D) st =
      (updateRangeKeys (dataIter D) st).bind (updateAtPoint (dataIter D)) := by
  simp only [updatePosition, hi, hv, hr, hp, hrev, dataIter_HasPointAndRange_on,
    Option.isSome_some, Bool.not_true, Bool.false_eq_true, ↓reduceIte, Bool.not_false,
    Bool.and_false]
  cases updateRangeKeys (dataIter D) st <;> rfl

theorem updatePosition_fwd_bare {D : Dataset} {st : DataIter} {q : MVCCKey} {r : RangeKV}
    (hi : st.iter = some (DataCursor.onKey q)) (hv : st.iterValid = true)
    (hr : D.rangeAt q.Key = some r) (hp : (D.pointAt q).isSome = false)
    (hrev : st.reverse = false) :
    updatePosition (dataIter D) st =
      (updateRangeKeys (dataIter D) st).bind (fun i1 =>
        (iterNext (dataIter D) i1).bind (fun i2 =>
          if i2.iterErr ≠ none then some i2
          else (extendRangeKeysEnd (dataIter D) i2).bind (updateAtPoint (dataIter D)))) := by
  simp only [updatePosition, hi, hv, hr, hp, hrev, dataIter_HasPointAndRange_on,
    Option.isSome_some, Bool.not_true, Bool.false_eq_true, ↓reduceIte, Bool.not_false,
    Bool.and_true]
  cases updateRangeKeys (dataIter D) st with
  | none => rfl
  | some i1 =>
    simp only [Option.bind]
    cases iterNext (dataIter D) i1 with
    | none => rfl
    | some i2 =>
      simp only
      split
      · rfl
      · cases extendRangeKeysEnd (dataIter D) i2 <;> rfl

theorem newerEq_eq_newer {V : MVCCRangeKeyVersions} {t : Nat}
    (h : ∀ v ∈ V, v.Timestamp ≠ t) : newerEq V t = newer V t := by
  unfold newerEq newer
  congr 1
  apply List.filter_congr
  intro v hv
  have := h v hv
  simp only [decide_eq_decide]
  omega

/-- An exposed key away from the `emitOnSeekGE` key shares its key with a
position of the dataset. -/
theorem Dataset.WF.exposed_position {D : Dataset} (_hwf : D.WF) {fk : Nat} {z : MVCCKey}
    (hz : D.isExposed fk z) (hfk : z.Key ≠ fk) : ∃ p ∈ D.positions, p.Key = z.Key := by
  rcases Dataset.isExposed_cases hz with hp | ⟨r, hr, j, v, _, _, h | h | ⟨p, hp, h1, _, _⟩⟩
  · exact ⟨z, Dataset.point_mem_positions hp, rfl⟩
  · exact ⟨⟨r.start, 0⟩, Dataset.start_mem_positions (Dataset.rangeAt_some hr).1, h.symm⟩
  · exact absurd h hfk
  · refine ⟨⟨p.key, p.ts⟩, ?_, h1⟩
    rw [Dataset.mem_positions]; exact Or.inl ⟨p, hp, rfl⟩

theorem LandsAfter.weaken {D : Dataset} {fk : Nat} {st : DataIter} {x x' : MVCCKey}
    (h : LandsAfter D fk st x') (hx : x.Less x')
    (hgap : ∀ z, D.isExposed fk z → x.Less z → x'.Less z) : LandsAfter D fk st x := by
  rcases h with ⟨hd, hnone⟩ | ⟨y, hy, hxy, hmin⟩
  · left
    refine ⟨hd, ?_⟩
    intro e he hxe
    exact hnone e he (hgap e he hxe)
  · right
    refine ⟨y, hy, MVCCKey.Less.trans hx hxy, ?_⟩
    intro e he hxe
    exact hmin e he (hgap e he hxe)

theorem FwdStuck.position_after {D : Dataset} (hwf : D.WF) {fk : Nat} {st : DataIter}
    {x : MVCCKey} (h : FwdStuck D fk st x) {z : MVCCKey} (hz : D.isExposed fk z)
    (hxz : x.Less z) : ∃ p ∈ D.positions, p.Key = z.Key ∧ x.Less p := by
  have h1 := h.gapExp z hz hxz
  have h2 := h.fk_le
  obtain ⟨p, hp, hpk⟩ := hwf.exposed_position hz (by omega)
  refine ⟨p, hp, hpk, ?_⟩
  unfold MVCCKey.Less; omega

/-- The positions after `x`, when the iterator is on one. -/
theorem Dataset.nextPos_on {D : Dataset} {x q : MVCCKey} (hn : D.nextPos x = DataCursor.onKey q) :
    q ∈ D.positions ∧ x.Less q ∧ ∀ p ∈ D.positions, x.Less p → ¬ p.Less q := by
  rcases D.nextPos_cases x with ⟨hn', _⟩ | ⟨q', hn', h1, h2, h3⟩
  · rw [hn] at hn'; cases hn'
  · have hqq : q' = q := by rw [hn] at hn'; injection hn' with h; exact h.symm
    subst hqq; exact ⟨h1, h2, h3⟩

theorem Dataset.nextPos_after {D : Dataset} {x : MVCCKey} (hn : D.nextPos x = DataCursor.after) :
    ∀ p ∈ D.positions, ¬ x.Less p := by
  rcases D.nextPos_cases x with ⟨_, h⟩ | ⟨q', hn', _⟩
  · exact h
  · rw [hn] at hn'; cases hn'

/-- A position without a point is the bare start of its span. -/
theorem Dataset.WF.bare_position {D : Dataset} (hwf : D.WF) {q : MVCCKey} {r : RangeKV}
    (hq : q ∈ D.positions) (hp : (D.pointAt q).isSome = false) (hr : D.rangeAt q.Key = some r) :
    q = ⟨r.start, 0⟩ := by
  rcases Dataset.positions_cases hq with hp' | ⟨r', hr', hqr⟩
  · rw [hp] at hp'; cases hp'
  · have h1 := hwf.rangeAt_start hr'
    rw [hqr] at hr; simp only at hr
    rw [hr] at h1; cases h1; exact hqr

/-- Every position has a point or lies in a span. -/
theorem Dataset.WF.position_point_or_range {D : Dataset} (hwf : D.WF) {q : MVCCKey}
    (hq : q ∈ D.positions) (hr : D.rangeAt q.Key = none) : (D.pointAt q).isSome = true := by
  rcases Dataset.positions_cases hq with hp | ⟨r', hr', hqr⟩
  · exact hp
  · have := hwf.rangeAt_start hr'
    rw [hqr] at hr; simp only at hr
    rw [hr] at this; cases this

/-- Re-synchronising on a point inside a span: the range keys are loaded and the
state is in the middle of a step at the key of the point. -/
theorem arrive_point {D : Dataset} (hwf : D.WF) {fk : Nat} {st : DataIter}
    {x q : MVCCKey} {r : RangeKV} (h : FwdStuck D fk st x)
    (hn : D.nextPos x = DataCursor.onKey q) (hp : (D.pointAt q).isSome = true)
    (hr : D.rangeAt q.Key = some r) :
    q.Key ≠ r.start ∧
    updateRangeKeys (dataIter D) st = some { st with
      rangeKeysPos := q.Key, rangeKeysStart := r.start, rangeKeys := r.versions,
      rangeKeysEnd := (newerPt r.versions q.Timestamp : Nat), rangeKeysIdx := 0 } ∧
    FwdMid D fk { st with
      rangeKeysPos := q.Key, rangeKeysStart := r.start, rangeKeys := r.versions,
      rangeKeysEnd := (newerPt r.versions q.Timestamp : Nat), rangeKeysIdx := 0 }
      q.Key x r (newerPt r.versions q.Timestamp) := by
  obtain ⟨hq, hxq, hmin⟩ := Dataset.nextPos_on hn
  have hi : st.iter = some (DataCursor.onKey q) := by rw [h.base.iter, hn]
  have hv : st.iterValid = true := by rw [h.base.iterValid, hn]; rfl
  have hxq' := h.gapPos q hn
  have hfk := h.fk_le
  have hrr := Dataset.rangeAt_some hr
  have hs := (hwf.range_ok hrr.1).2.2.2
  have hm : st.rangeKeysStart = r.start → st.rangeKeys = r.versions :=
    CacheOK.memo hwf h.cache hrr.1
  obtain ⟨e, he, hupd⟩ := updateRangeKeys_on hi hv hr hs hm
  have hqs : q.Key ≠ r.start := by
    intro hqs
    have hsp := Dataset.start_mem_positions hrr.1
    have hnp := hwf.start_not_point hrr.1
    have h1 := hmin _ hsp (by rw [MVCCKey.less_zero_right]; omega)
    have hqt : q.Timestamp ≠ 0 := by
      intro h0
      have : q = ⟨r.start, 0⟩ := by rw [MVCCKey.ext_iff']; exact ⟨hqs, h0⟩
      rw [this] at hp; rw [hp] at hnp; cases hnp
    apply h1
    rw [MVCCKey.less_zero_left]; omega
  have hee : e = newerPt r.versions q.Timestamp := by
    rw [he, if_neg hqs]
    unfold newerPt
    by_cases h0 : q.Timestamp = 0
    · simp [h0]
    · rw [if_pos ⟨hp, h0⟩, if_neg h0]
      apply newerEq_eq_newer
      intro v hv'
      rw [Dataset.pointAt_isSome] at hp
      obtain ⟨p, hp, h1, h2⟩ := hp
      rw [← h2]
      exact hwf.ts_ne hp hrr.1 (by omega) hv'
  subst hee
  have hcons : consumed r.versions q.Key x = 0 := by
    unfold consumed; rw [if_neg]; omega
  refine ⟨hqs, ?_, ?_⟩
  · rw [hupd]; simp [h.base.reverse]
  · refine ⟨⟨h.base.iter, h.base.reverse, h.base.iterErr, h.base.iterValid⟩, hr,
      ⟨rfl, rfl, rfl⟩, by omega, by omega, ?_, rfl, ?_, ?_, ?_, ?_⟩
    · simp [hcons]
    · omega
    · refine ⟨?_, Or.inr ⟨hqs, by omega, q, hn, rfl, le_refl _⟩⟩
      exact Dataset.newerPt_le_window hs hp
    · intro _; exact ⟨q, hn, rfl, hp⟩
    · intro y hy hxy
      obtain ⟨p, hp, hpk, hxp⟩ := h.position_after hwf hy hxy
      have := hmin p hp hxp
      unfold MVCCKey.Less at this; omega

/-- Once the window is complete, extending it changes nothing. -/
theorem extend_full {D : Dataset} {s : DataIter} {ic : DataCursor}
    (hs : versionsSorted s.rangeKeys = true)
    (he : s.rangeKeysEnd = (s.rangeKeys.length : Int))
    (hi : s.iter = some ic) (hv : s.iterValid = ic.isOn) :
    extendRangeKeysEnd (dataIter D) s = some s := by
  cases ic with
  | after => exact extend_invalid (by rw [hv]; rfl)
  | before => exact extend_invalid (by rw [hv]; rfl)
  | onKey q2 =>
    by_cases hc : (D.pointAt q2).isSome = true ∧ q2.Key = s.rangeKeysPos ∧ q2.Timestamp ≠ 0
    · rw [extend_point hi (by rw [hv]; rfl) hc.1 hc.2.1 hc.2.2 hs]
      have := newerEq_le_length s.rangeKeys q2.Timestamp
      have : max s.rangeKeysEnd (newerEq s.rangeKeys q2.Timestamp : Int) = s.rangeKeysEnd := by
        rw [he]; omega
      rw [this]
    · apply extend_noop hi
      by_cases h5 : (D.pointAt q2).isSome = true
      · by_cases h6 : q2.Key = s.rangeKeysPos
        · right; right
          by_contra h7; exact hc ⟨h5, h6, h7⟩
        · right; left; exact h6
      · left; simpa using h5

/-- Re-synchronising on the bare start of a span: the range keys are loaded, the
iterator steps ahead, and the state is in the middle of a step at the start key. -/
theorem arrive_bare {D : Dataset} (hwf : D.WF) {fk : Nat} {st : DataIter}
    {x q : MVCCKey} {r : RangeKV} (h : FwdStuck D fk st x)
    (hn : D.nextPos x = DataCursor.onKey q) (hp : (D.pointAt q).isSome = false)
    (hr : D.rangeAt q.Key = some r) :
    q = ⟨r.start, 0⟩ ∧
    updateRangeKeys (dataIter D) st = some { st with
      rangeKeysPos := q.Key, rangeKeysStart := r.start, rangeKeys := r.versions,
      rangeKeysEnd := (r.versions.length : Nat), rangeKeysIdx := 0 } ∧
    extendRangeKeysEnd (dataIter D) { st with
      rangeKeysPos := q.Key, rangeKeysStart := r.start, rangeKeys := r.versions,
      rangeKeysEnd := (r.versions.length : Nat), rangeKeysIdx := 0,
      iter := some (D.nextPos q), iterValid := (D.nextPos q).isOn, iterErr := none } =
    some { st with
      rangeKeysPos := q.Key, rangeKeysStart := r.start, rangeKeys := r.versions,
      rangeKeysEnd := (r.versions.length : Nat), rangeKeysIdx := 0,
      iter := some (D.nextPos q), iterValid := (D.nextPos q).isOn, iterErr := none } ∧
    FwdMid D fk { st with
      rangeKeysPos := q.Key, rangeKeysStart := r.start, rangeKeys := r.versions,
      rangeKeysEnd := (r.versions.length : Nat), rangeKeysIdx := 0,
      iter := some (D.nextPos q), iterValid := (D.nextPos q).isOn, iterErr := none }
      q.Key q r r.versions.length ∧
    x.Less q ∧ (∀ z, D.isExposed fk z → x.Less z → q.Less z) := by
  obtain ⟨hq, hxq, hmin⟩ := Dataset.nextPos_on hn
  have hi : st.iter = some (DataCursor.onKey q) := by rw [h.base.iter, hn]
  have hv : st.iterValid = true := by rw [h.base.iterValid, hn]; rfl
  have hxq' := h.gapPos q hn
  have hfk := h.fk_le
  have hrr := Dataset.rangeAt_some hr
  have hok := hwf.range_ok hrr.1
  have hs := hok.2.2.2
  have hm : st.rangeKeysStart = r.start → st.rangeKeys = r.versions :=
    CacheOK.memo hwf h.cache hrr.1
  obtain ⟨e, he, hupd⟩ := updateRangeKeys_on hi hv hr hs hm
  have hqr : q = ⟨r.start, 0⟩ := hwf.bare_position hq hp hr
  have hqk : q.Key = r.start := by rw [hqr]
  have hqt : q.Timestamp = 0 := by rw [hqr]
  have hee : e = r.versions.length := by rw [he]; simp [hqk]
  subst hee
  have hcons : consumed r.versions q.Key q = 0 := by
    unfold consumed; rw [if_neg]; omega
  refine ⟨hqr, ?_, ?_, ?_, hxq, ?_⟩
  · rw [hupd]; simp [h.base.reverse]
  · exact extend_full hs rfl rfl rfl
  · refine ⟨⟨rfl, h.base.reverse, rfl, rfl⟩, hr,
      ⟨rfl, rfl, rfl⟩, le_refl _, by omega, ?_, rfl, ?_, ?_, ?_, ?_⟩
    · simp [hcons]
    · omega
    · have := Dataset.window_full (D := D) (f := fk) (K := q.Key) hs (Or.inl hqk)
      exact ⟨by omega, Or.inl (by omega)⟩
    · intro hlt; omega
    · intro y _ hqy
      unfold MVCCKey.Less at hqy; omega
  · intro z hz hxz
    obtain ⟨p, hpp, hpk, hxp⟩ := h.position_after hwf hz hxz
    have h1 := hmin p hpp hxp
    have hzt : z.Timestamp ≠ 0 ∨ (D.pointAt z).isSome = true := by
      rcases Dataset.isExposed_cases hz with hpz | ⟨r', hr', j, v, hv, hvt, -⟩
      · exact Or.inr hpz
      · left
        have hs' := (hwf.range_ok (Dataset.rangeAt_some hr').1).2.2.2
        have := versionsSorted_ne_zero hs' v (List.getElem?_mem hv)
        omega
    rcases hzt with hzt | hzt
    · unfold MVCCKey.Less at h1 ⊢; omega
    · have h2 := hmin z (Dataset.point_mem_positions hzt) hxz
      rcases MVCCKey.Less.total q z with h3 | h3 | h3
      · exact h3
      · rw [← h3, hp] at hzt; cases hzt
      · exact absurd h3 h2

/-- Landing on a point outside every span. -/
theorem arrive_uncovered {D : Dataset} (hwf : D.WF) {fk : Nat} {st : DataIter}
    {x q : MVCCKey} (h : FwdStuck D fk st x)
    (hn : D.nextPos x = DataCursor.onKey q) (hr : D.rangeAt q.Key = none) :
    (D.pointAt q).isSome = true ∧
    LandsAfter D fk (pointSynthesizingIter.clearRangeKeys { st with atPoint := true }) x := by
  have hclear := CacheOK.clear hwf h.cache
  obtain ⟨hq, hxq, hmin⟩ := Dataset.nextPos_on hn
  have hi : st.iter = some (DataCursor.onKey q) := by rw [h.base.iter, hn]
  have hv : st.iterValid = true := by rw [h.base.iterValid, hn]; rfl
  have hxq' := h.gapPos q hn
  have hfk := h.fk_le
  have hp := hwf.position_point_or_range hq hr
  refine ⟨hp, Or.inr ⟨q, Or.inl ?_, hxq, ?_⟩⟩
  · rw [clearRangeKeys_eval (by exact hclear)]
    refine ⟨⟨hi, h.base.reverse, h.base.iterErr, hv⟩, hp, rfl, by omega, ?_, ?_⟩
    · intro _
      exact ⟨⟨rfl, rfl, rfl⟩, by simp [h.base.reverse], rfl⟩
    · intro r' hr'; rw [hr] at hr'; cases hr'
  · intro z hz hxz hzq
    obtain ⟨p, hp, hpk, hxp⟩ := h.position_after hwf hz hxz
    have h1 := hmin p hp hxp
    have hzk : z.Key = q.Key := by
      unfold MVCCKey.Less at h1 hzq; omega
    rcases Dataset.isExposed_cases hz with hp' | ⟨r', hr', -⟩
    · exact hmin z (Dataset.point_mem_positions hp') hxz hzq
    · rw [hzk, hr] at hr'; cases hr'

/-- Landing past the last position. -/
theorem arrive_done {D : Dataset} (hwf : D.WF) {fk : Nat} {st : DataIter}
    {x : MVCCKey} (h : FwdStuck D fk st x) (hn : D.nextPos x = DataCursor.after) :
    LandsAfter D fk (pointSynthesizingIter.clearRangeKeys { st with atPoint := false }) x := by
  have hclear := CacheOK.clear hwf h.cache
  have hnone := Dataset.nextPos_after hn
  refine Or.inl ⟨?_, ?_⟩
  · rw [clearRangeKeys_eval (by exact hclear)]
    refine ⟨⟨?_, h.base.reverse, h.base.iterErr, ?_⟩, rfl, ⟨rfl, rfl, rfl⟩, ?_, rfl⟩
    · rw [← hn]; exact h.base.iter
    · rw [← hn]; exact h.base.iterValid
    · simp [h.base.reverse]
  · intro z hz hxz
    obtain ⟨p, hp, _, hxp⟩ := h.position_after hwf hz hxz
    exact hnone p hp hxp

/-- `updatePosition` in the forward direction lands on the first exposed key
after `x`. -/
theorem fwdStuck_updatePosition {D : Dataset} (hwf : D.WF) {fk : Nat} {st : DataIter}
    {x : MVCCKey} (h : FwdStuck D fk st x) :
    ∃ st', updatePosition (dataIter D) st = some st' ∧ LandsAfter D fk st' x := by
  rcases D.nextPos_cases x with ⟨hn, -⟩ | ⟨q, hn, -, -, -⟩
  · have hv : st.iterValid = false := by rw [h.base.iterValid, hn]; rfl
    exact ⟨_, updatePosition_invalid hv, arrive_done hwf h hn⟩
  · have hi : st.iter = some (DataCursor.onKey q) := by rw [h.base.iter, hn]
    have hv : st.iterValid = true := by rw [h.base.iterValid, hn]; rfl
    cases hr : D.rangeAt q.Key with
    | none =>
      obtain ⟨hp, hland⟩ := arrive_uncovered hwf h hn hr
      refine ⟨_, updatePosition_noRange hi hv hr, ?_⟩
      rw [hp]; exact hland
    | some r =>
      have hne : r.versions.length ≠ 0 := fun h0 =>
        (hwf.range_ok (Dataset.rangeAt_some hr).1).2.2.1 (List.length_eq_zero.1 h0)
      by_cases hp : (D.pointAt q).isSome = true
      · obtain ⟨hqs, hupd, hmid⟩ := arrive_point hwf h hn hp hr
        rw [updatePosition_fwd_point hi hv hr hp h.base.reverse, hupd]
        simp only [Option.bind]
        obtain ⟨b, hb, hcase | ⟨_, _, hxk, _⟩⟩ := fwdMid_decide hwf hmid
        · exact ⟨_, hb, hcase.2⟩
        · have := h.gapPos q hn; omega
      · have hp' : (D.pointAt q).isSome = false := by simpa using hp
        obtain ⟨hqr, hupd, hext, hmid, hxq, hgap⟩ := arrive_bare hwf h hn hp' hr
        rw [updatePosition_fwd_bare hi hv hr hp' h.base.reverse, hupd]
        simp only [Option.bind]
        rw [iterNext_on (q := q) (by exact hi)]
        simp only [ne_eq, not_true_eq_false, if_false]
        rw [hext]
        simp only
        obtain ⟨b, hb, hcase | ⟨_, hle, _, _⟩⟩ := fwdMid_decide hwf hmid
        · exact ⟨_, hb, hcase.2.weaken hxq hgap⟩
        · exfalso
          have : consumed r.versions q.Key q = 0 := by
            unfold consumed; rw [if_neg]
            rw [hqr]; simp
          omega

/-! ### Next -/

theorem nextStep_real {σ : Type} (I : MVCCIterator σ) (i : pointSynthesizingIter σ)
    (h : i.atPoint = true) :
    nextStep I i = (iterNext I i).bind (fun i1 =>
      if i1.iterErr ≠ none then some i1
      else (extendRangeKeysEnd I i1).bind (finishFwd I)) := by
  unfold nextStep
  simp only [h, if_true]
  cases iterNext I i with
  | none => rfl
  | some i1 =>
    simp only [Option.bind]
    by_cases he : i1.iterErr = none
    · simp only [he, ne_eq, not_true_eq_false, if_false]
      cases extendRangeKeysEnd I i1 <;> rfl
    · simp only [he, ne_eq, not_false_eq_true, if_true]

theorem nextStep_syn {σ : Type} (I : MVCCIterator σ) (i : pointSynthesizingIter σ)
    (h : i.atPoint = false) :
    nextStep I i = finishFwd I { i with rangeKeysIdx := i.rangeKeysIdx + 1 } := by
  unfold nextStep
  simp only [h]
  rfl

/-- The end of a forward step lands on the first exposed key after `x`. -/
theorem fwdMid_finish {D : Dataset} (hwf : D.WF) {fk : Nat} {st : DataIter} {K : Nat}
    {x : MVCCKey} {r : RangeKV} {e : Nat} (h : FwdMid D fk st K x r e) :
    ∃ st', finishFwd (dataIter D) st = some st' ∧ LandsAfter D fk st' x := by
  obtain ⟨b, hb, ⟨hc, hland⟩ | ⟨hb', hle, _, hstuck⟩⟩ := fwdMid_decide hwf h
  · refine ⟨_, ?_, hland⟩
    unfold finishFwd
    rw [hb]
    have hcond : ¬ ((!b && decide (st.rangeKeysIdx ≥ st.rangeKeysEnd)) = true) := by
      rw [h.idx, h.endEq]
      rcases hc with hc | hc
      · simp [hc]
      · have : ¬ ((e : Int) ≤ (consumed r.versions K x : Nat)) := by omega
        simp [this]
    exact if_neg hcond
  · subst hb'
    obtain ⟨st', h1, h2⟩ := fwdStuck_updatePosition hwf hstuck
    refine ⟨st', ?_, h2⟩
    unfold finishFwd
    rw [hb]
    have hcond : (!false && decide (st.rangeKeysIdx ≥ st.rangeKeysEnd)) = true := by
      rw [h.idx, h.endEq]
      have : ((e : Int) ≤ (consumed r.versions K x : Nat)) := by omega
      simp [this]
    exact (if_pos hcond).trans h1

theorem newerEq_self {V : MVCCRangeKeyVersions} (hs : versionsSorted V = true) {c : Nat}
    {v : MVCCRangeKeyVersion} (hv : V[c]? = some v) : newerEq V v.Timestamp = c + 1 := by
  have hc : c < V.length := by
    by_contra hc
    rw [List.getElem?_eq_none (by omega)] at hv; cases hv
  symm
  apply count_unique (by omega) (newerEq_le_length _ _) (fun w => v.Timestamp ≤ w.Timestamp)
  · intro j w hw; exact newerEq_lt_iff hs _ hw
  · intro j w hj hw
    rcases Nat.eq_or_lt_of_le (Nat.le_of_lt_succ hj) with rfl | hlt
    · rw [hv] at hw; cases hw; omega
    · have := versionsSorted_mono hs j c w v hlt hw hv; omega
  · intro j w hj hw
    have := versionsSorted_mono hs c j v w (by omega) hv hw; omega

theorem fwdSyn_next {D : Dataset} (hwf : D.WF) {fk : Nat} {st : DataIter} {x : MVCCKey}
    (h : FwdSyn D fk st x) :
    ∃ st', Next (dataIter D) st = some st' ∧ LandsAfter D fk st' x := by
  obtain ⟨r, hr, hcache, hidx, ⟨v, hv, hvt⟩, e, he, hlt, hend⟩ := h.covered
  have hs := (hwf.range_ok (Dataset.rangeAt_some hr).1).2.2.2
  have hvne := versionsSorted_ne_zero hs v (List.getElem?_mem hv)
  have hcons : consumed r.versions x.Key x = newer r.versions x.Timestamp + 1 := by
    unfold consumed
    rw [if_pos ⟨rfl, by omega⟩]
    have := newerEq_self hs hv
    rw [hvt] at this
    exact this
  have hmid : FwdMid D fk { st with rangeKeysIdx := st.rangeKeysIdx + 1 } x.Key x r e := by
    refine ⟨⟨h.base.iter, h.base.reverse, h.base.iterErr, h.base.iterValid⟩, hr,
      ⟨hcache.rangeKeys, hcache.pos, hcache.start⟩, le_refl _, h.fk_le, ?_, he, ?_, hend, ?_, ?_⟩
    · simp only [hidx, hcons]; omega
    · omega
    · intro hlt; omega
    · intro y _ hxy; unfold MVCCKey.Less at hxy; omega
  unfold Next
  simp only [h.base.reverse, Bool.false_eq_true, if_false]
  rw [nextStep_syn _ _ h.atPoint]
  exact fwdMid_finish hwf hmid

/-- `extendRangeKeysEnd` over the dataset iterator: the window end grows to the
versions above the point the iterator is on, when that point has the cached key. -/
theorem extend_eval {D : Dataset} {s : DataIter} {c : DataCursor} {e : Nat}
    (hs : versionsSorted s.rangeKeys = true) (hi : s.iter = some c)
    (hv : s.iterValid = c.isOn) (he : s.rangeKeysEnd = (e : Int)) :
    ∃ e' : Nat, extendRangeKeysEnd (dataIter D) s = some { s with rangeKeysEnd := (e' : Int) } ∧
      e ≤ e' ∧
      (e' = e ∨ ∃ q, c = DataCursor.onKey q ∧ (D.pointAt q).isSome = true ∧
        q.Key = s.rangeKeysPos ∧ q.Timestamp ≠ 0 ∧ e' = max e (newerEq s.rangeKeys q.Timestamp)) ∧
      (∀ q, c = DataCursor.onKey q → (D.pointAt q).isSome = true → q.Key = s.rangeKeysPos →
        q.Timestamp ≠ 0 → newerEq s.rangeKeys q.Timestamp ≤ e') := by
  have hsame : some s = some { s with rangeKeysEnd := (e : Int) } := by
    cases s; simp only at he; subst he; rfl
  cases c with
  | after =>
    exact ⟨e, by rw [extend_invalid (by rw [hv]; rfl)]; exact hsame, le_refl _, Or.inl rfl,
      by intro q hq; cases hq⟩
  | before =>
    exact ⟨e, by rw [extend_invalid (by rw [hv]; rfl)]; exact hsame, le_refl _, Or.inl rfl,
      by intro q hq; cases hq⟩
  | onKey q =>
    by_cases hc : (D.pointAt q).isSome = true ∧ q.Key = s.rangeKeysPos ∧ q.Timestamp ≠ 0
    · refine ⟨max e (newerEq s.rangeKeys q.Timestamp), ?_, le_max_left _ _,
        Or.inr ⟨q, rfl, hc.1, hc.2.1, hc.2.2, rfl⟩, ?_⟩
      · rw [extend_point hi (by rw [hv]; rfl) hc.1 hc.2.1 hc.2.2 hs, he]
        congr 2
        omega
      · intro q' hq' _ _ _
        cases hq'
        exact le_max_right _ _
    · refine ⟨e, ?_, le_refl _, Or.inl rfl, ?_⟩
      · rw [extend_noop hi]
        · exact hsame
        · by_cases h5 : (D.pointAt q).isSome = true
          · by_cases h6 : q.Key = s.rangeKeysPos
            · right; right
              by_contra h7; exact hc ⟨h5, h6, h7⟩
            · right; left; exact h6
          · left; simpa using h5
      · intro q' hq' h1 h2 h3
        cases hq'
        exact absurd ⟨h1, h2, h3⟩ hc

/-- A point inside a span has none of the span's version timestamps. -/
theorem Dataset.WF.newerEq_point {D : Dataset} (hwf : D.WF) {q : MVCCKey} {r : RangeKV}
    (hp : (D.pointAt q).isSome = true) (hr : D.rangeAt q.Key = some r) :
    newerEq r.versions q.Timestamp = newer r.versions q.Timestamp := by
  apply newerEq_eq_newer
  intro v hv
  rw [Dataset.pointAt_isSome] at hp
  obtain ⟨p, hp, h1, h2⟩ := hp
  have hrr := Dataset.rangeAt_some hr
  rw [← h2]
  exact hwf.ts_ne hp hrr.1 (by omega) hv

theorem Dataset.WF.consumed_point {D : Dataset} (hwf : D.WF) {q : MVCCKey} {r : RangeKV}
    (hp : (D.pointAt q).isSome = true) (hr : D.rangeAt q.Key = some r) :
    consumed r.versions q.Key q = newerPt r.versions q.Timestamp := by
  unfold consumed newerPt
  by_cases h0 : q.Timestamp = 0
  · simp [h0]
  · rw [if_pos ⟨rfl, h0⟩, if_neg h0]
    exact hwf.newerEq_point hp hr

/-- The keys of the positions are not empty. -/
theorem Dataset.WF.position_key_ne {D : Dataset} (hwf : D.WF) {q : MVCCKey}
    (hq : q ∈ D.positions) : q.Key ≠ 0 := by
  rw [Dataset.mem_positions] at hq
  rcases hq with ⟨p, hp, rfl⟩ | ⟨r, hr, rfl⟩
  · exact hwf.point_key_ne hp
  · exact (hwf.range_ok hr).1

/-- After a real point that is the last position of its key, the window is complete. -/
theorem Dataset.WF.window_le_last {D : Dataset} (hwf : D.WF) {f : Nat} {x : MVCCKey}
    {r : RangeKV} (hr : D.rangeAt x.Key = some r)
    (h1 : x.Key ≠ r.start) (h2 : x.Key ≠ f)
    (hlast : ∀ p ∈ D.positions, p.Key = x.Key → ¬ x.Less p) :
    D.window f r x.Key ≤ newerPt r.versions x.Timestamp := by
  have hs := (hwf.range_ok (Dataset.rangeAt_some hr).1).2.2.2
  have hall : ∀ p ∈ D.points, p.key = x.Key → p.ts ≠ 0 → x.Timestamp ≠ 0 ∧ x.Timestamp ≤ p.ts := by
    intro p hp hk ht
    have hpos : (⟨p.key, p.ts⟩ : MVCCKey) ∈ D.positions := by
      rw [Dataset.mem_positions]; exact Or.inl ⟨p, hp, rfl⟩
    have := hlast _ hpos hk
    rw [MVCCKey.less_mk_right] at this
    omega
  unfold newerPt
  by_cases h0 : x.Timestamp = 0
  · rw [if_pos h0]
    have := Dataset.window_eq_zero (D := D) (f := f) hs h1 h2 (by
      intro p hp hk
      by_contra ht
      exact (hall p hp hk ht).1 h0)
    omega
  · rw [if_neg h0]
    exact Dataset.window_le_newer hs h1 h2 (fun p hp hk ht => (hall p hp hk ht).2)

theorem fwdReal_next_covered {D : Dataset} (hwf : D.WF) {fk : Nat} {st : DataIter}
    {x : MVCCKey} (h : FwdReal D fk st x) {r : RangeKV} (hr : D.rangeAt x.Key = some r) :
    ∃ st', Next (dataIter D) st = some st' ∧ LandsAfter D fk st' x := by
  obtain ⟨hcache, hidx, e, he, hend⟩ := h.covered r hr
  have hrr := Dataset.rangeAt_some hr
  have hs := (hwf.range_ok hrr.1).2.2.2
  unfold Next
  simp only [h.base.reverse, Bool.false_eq_true, if_false]
  rw [nextStep_real _ _ h.atPoint, iterNext_on h.base.iter]
  simp only [Option.bind, ne_eq, not_true_eq_false, if_false]
  obtain ⟨e', hext, hle, hcase, hge⟩ := extend_eval (D := D)
    (s := { st with iter := some (D.nextPos x), iterValid := (D.nextPos x).isOn, iterErr := none })
    (c := D.nextPos x) (e := e) (by rw [hcache.rangeKeys]; exact hs) rfl rfl he
  rw [hext]
  simp only
  apply fwdMid_finish hwf (K := x.Key) (r := r) (e := e')
  have hidx_le : newerPt r.versions x.Timestamp ≤ e := by
    rcases hend.2 with hw | ⟨_, _, q, hq, _, hle'⟩
    · exact Nat.le_trans (Dataset.newerPt_le_window hs h.point) hw
    · cases hq; exact hle'
  refine ⟨⟨rfl, h.base.reverse, rfl, rfl⟩, hr, ⟨hcache.rangeKeys, hcache.pos, hcache.start⟩,
    le_refl _, h.fk_le, ?_, rfl, ?_, ⟨?_, ?_⟩, ?_, ?_⟩
  · rw [hwf.consumed_point h.point hr]; exact hidx
  · rw [hwf.consumed_point h.point hr]; omega
  · rcases hcase with hc | ⟨q, hq, hp, hk, ht, hc⟩
    · rw [hc]; exact hend.1
    · rw [hc, hcache.rangeKeys]
      have hk' : q.Key = x.Key := by rw [hk]; exact hcache.pos
      have hrq : D.rangeAt q.Key = some r := by rw [hk']; exact hr
      rw [hwf.newerEq_point hp hrq]
      have := Dataset.newerPt_le_window (f := fk) hs hp
      rw [hk'] at this
      simp only [newerPt, ht, if_false] at this
      have := hend.1
      omega
  · rcases hend.2 with hw | ⟨h1, h2, _, _, _, hle'⟩
    · exact Or.inl (by omega)
    · by_cases hq : ∃ q, D.nextPos x = DataCursor.onKey q ∧ q.Key = x.Key
      · obtain ⟨q, hq, hk⟩ := hq
        right
        refine ⟨h1, h2, q, hq, hk, ?_⟩
        obtain ⟨hqp, hxq, _⟩ : q ∈ D.positions ∧ x.Less q ∧
            ∀ p ∈ D.positions, x.Less p → ¬ p.Less q := by
          rcases D.nextPos_cases x with ⟨hn', _⟩ | ⟨q', hn', h1, h2, h3⟩
          · rw [hq] at hn'; cases hn'
          · have hqq : q' = q := by rw [hq] at hn'; injection hn' with h; exact h.symm
            subst hqq; exact ⟨h1, h2, h3⟩
        have hqt : q.Timestamp ≠ 0 := by unfold MVCCKey.Less at hxq; omega
        have hp : (D.pointAt q).isSome = true := by
          rcases Dataset.positions_cases hqp with hp | ⟨r', _, hqr⟩
          · exact hp
          · rw [hqr] at hqt; exact absurd rfl hqt
        have hrq : D.rangeAt q.Key = some r := by rw [hk]; exact hr
        have := hge q hq hp (by rw [hk]; exact hcache.pos.symm) hqt
        rw [hcache.rangeKeys, hwf.newerEq_point hp hrq] at this
        simp only [newerPt, hqt, if_false]
        exact this
      · left
        have := hwf.window_le_last (f := fk) hr h1 h2 (by
          intro p hp hk hxp
          rcases D.nextPos_cases x with ⟨_, hnone⟩ | ⟨q, hn, _, hxq, hmin⟩
          · exact hnone p hp hxp
          · apply hq
            refine ⟨q, hn, ?_⟩
            have := hmin p hp hxp
            unfold MVCCKey.Less at this hxq; omega)
        omega
  · intro hlt; omega
  · intro y _ hxy; unfold MVCCKey.Less at hxy; omega

theorem fwdReal_next_bare {D : Dataset} (hwf : D.WF) {fk : Nat} {st : DataIter}
    {x : MVCCKey} (h : FwdReal D fk st x) (hr : D.rangeAt x.Key = none) :
    ∃ st', Next (dataIter D) st = some st' ∧ LandsAfter D fk st' x := by
  obtain ⟨hcache, hidx, hend⟩ := h.bare hr
  unfold Next
  simp only [h.base.reverse, Bool.false_eq_true, if_false]
  rw [nextStep_real _ _ h.atPoint, iterNext_on h.base.iter]
  simp only [Option.bind, ne_eq, not_true_eq_false, if_false]
  have hext : extendRangeKeysEnd (dataIter D) { st with
      iter := some (D.nextPos x), iterValid := (D.nextPos x).isOn, iterErr := none } =
      some { st with
        iter := some (D.nextPos x), iterValid := (D.nextPos x).isOn, iterErr := none } := by
    rcases D.nextPos_cases x with ⟨hn, _⟩ | ⟨q, hn, hq, _, _⟩
    · apply extend_invalid; simp [hn]
    · apply extend_noop (q := q) (by simp [hn])
      right; left
      simp only [hcache.pos]
      exact hwf.position_key_ne hq
  rw [hext]
  simp only
  -- exposed keys of the key of `x` are points: the key is outside every span
  have hpt : ∀ y, D.isExposed fk y → y.Key = x.Key → (D.pointAt y).isSome = true := by
    intro y hy hk
    rcases Dataset.isExposed_cases hy with hp | ⟨r', hr', _⟩
    · exact hp
    · rw [hk, hr] at hr'; cases hr'
  have hstuck : (∀ q, D.nextPos x = DataCursor.onKey q → (D.pointAt q).isSome = false) →
      FwdStuck D fk { st with
        iter := some (D.nextPos x), iterValid := (D.nextPos x).isOn, iterErr := none,
        atPoint := false } x := by
    intro hbare
    have hpos : ∀ q, D.nextPos x = DataCursor.onKey q → x.Key < q.Key := by
      intro q hn
      obtain ⟨hq, hxq, _⟩ : q ∈ D.positions ∧ x.Less q ∧
          ∀ p ∈ D.positions, x.Less p → ¬ p.Less q := by
        rcases D.nextPos_cases x with ⟨hn', _⟩ | ⟨q', hn', h1, h2, h3⟩
        · rw [hn] at hn'; cases hn'
        · have hqq : q' = q := by rw [hn] at hn'; injection hn' with h; exact h.symm
          subst hqq; exact ⟨h1, h2, h3⟩
      rcases Dataset.positions_cases hq with hp | ⟨r', hr', hqr⟩
      · rw [hbare q hn] at hp; cases hp
      · have h1 := hwf.rangeAt_start hr'
        by_contra hc
        have : q.Key = x.Key := by unfold MVCCKey.Less at hxq; omega
        rw [hqr] at this; simp only at this
        rw [this, hr] at h1; cases h1
    refine ⟨⟨rfl, h.base.reverse, rfl, rfl⟩, Or.inl ⟨hcache.rangeKeys, hcache.pos, hcache.start⟩,
      h.fk_le, hpos, ?_⟩
    intro y hy hxy
    by_contra hc
    have hk : y.Key = x.Key := by unfold MVCCKey.Less at hxy; omega
    have hyp := Dataset.point_mem_positions (hpt y hy hk)
    rcases D.nextPos_cases x with ⟨_, hnone⟩ | ⟨q, hn, _, _, hmin⟩
    · exact hnone y hyp hxy
    · have h1 := hpos q hn
      have h2 := hmin y hyp hxy
      unfold MVCCKey.Less at h2; omega
  have hcond : (!false && decide (st.rangeKeysIdx ≥ st.rangeKeysEnd)) = true := by
    simp [hidx, hend]
  rcases D.nextPos_cases x with ⟨hn, hnone⟩ | ⟨q, hn, hq, hxq, hmin⟩
  · -- exhausted
    obtain ⟨st', h1, h2⟩ := fwdStuck_updatePosition hwf
      (hstuck (by intro q hq; rw [hn] at hq; cases hq))
    refine ⟨st', ?_, h2⟩
    unfold finishFwd
    rw [updateAtPoint_invalid (by simp [hn])]
    exact (if_pos hcond).trans h1
  · by_cases hp : (D.pointAt q).isSome = true
    · -- the next point, outside every span as well
      have hrq : D.rangeAt q.Key = none := by
        cases hrq : D.rangeAt q.Key with
        | none => rfl
        | some r' =>
          exfalso
          have hrr := Dataset.rangeAt_some hrq
          have hsp := Dataset.start_mem_positions hrr.1
          have hnp := hwf.start_not_point hrr.1
          have hxs : x.Key < r'.start := by
            by_contra hc
            have := hwf.rangeAt_eq hrr.1 (k := x.Key)
              ⟨by omega, by unfold MVCCKey.Less at hxq; omega⟩
            rw [hr] at this; cases this
          have h1 := hmin _ hsp (by rw [MVCCKey.less_zero_right]; exact hxs)
          rw [MVCCKey.less_zero_left] at h1
          have : q = ⟨r'.start, 0⟩ := by rw [MVCCKey.ext_iff']; simp only; omega
          rw [this] at hp; rw [hp] at hnp; cases hnp
      refine ⟨{ st with
        iter := some (D.nextPos x), iterValid := (D.nextPos x).isOn,
        iterErr := none, atPoint := true }, ?_, Or.inr ⟨q, Or.inl ?_, hxq, ?_⟩⟩
      · unfold finishFwd
        rw [updateAtPoint_noRange (q := q) ?_ ?_ hp ?_]
        · rfl
        · simp [hn]
        · simp [hn]
        · exact hcache.rangeKeys
      · refine ⟨⟨by simp [hn], h.base.reverse, rfl, by simp [hn]⟩, hp, rfl, ?_, ?_, ?_⟩
        · have := h.fk_le; unfold MVCCKey.Less at hxq; omega
        · intro _; exact ⟨⟨hcache.rangeKeys, hcache.pos, hcache.start⟩, hidx, hend⟩
        · intro r' hr'; rw [hrq] at hr'; cases hr'
      · intro z hz hxz hzq
        rcases Dataset.isExposed_cases hz with hpz | ⟨r', hr', -⟩
        · exact hmin z (Dataset.point_mem_positions hpz) hxz hzq
        · have hzk : z.Key ≠ x.Key := by
            intro hk; rw [hk, hr] at hr'; cases hr'
          have hfk := h.fk_le
          obtain ⟨p, hpp, hpk⟩ := hwf.exposed_position hz
            (by unfold MVCCKey.Less at hxz; omega)
          have h1 := hmin p hpp (by unfold MVCCKey.Less at hxz ⊢; omega)
          have : z.Key = q.Key := by unfold MVCCKey.Less at h1 hzq; omega
          rw [this, hrq] at hr'; cases hr'
    · -- the bare start of a span
      have hp' : (D.pointAt q).isSome = false := by simpa using hp
      obtain ⟨st', h1, h2⟩ := fwdStuck_updatePosition hwf (hstuck (by
        intro q' hq'
        have hqq : q = q' := by rw [hn] at hq'; injection hq'
        subst hqq; exact hp'))
      refine ⟨st', ?_, h2⟩
      unfold finishFwd
      rw [updateAtPoint_noPoint (q := q) (by simp [hn]) hp']
      exact (if_pos hcond).trans h1

/-- `Next` moves to the first exposed key after the current one. -/
theorem fwdAt_next {D : Dataset} (hwf : D.WF) {fk : Nat} {st : DataIter} {x : MVCCKey}
    (h : FwdAt D fk st x) :
    ∃ st', Next (dataIter D) st = some st' ∧ LandsAfter D fk st' x := by
  rcases h with h | h
  · cases hr : D.rangeAt x.Key with
    | none => exact fwdReal_next_bare hwf h hr
    | some r => exact fwdReal_next_covered hwf h hr
  · exact fwdSyn_next hwf h

/-- `Next` on an exhausted adapter leaves it exhausted. -/
theorem fwdDone_next {D : Dataset} {st : DataIter} (h : FwdDone st) :
    ∃ st', Next (dataIter D) st = some st' ∧ FwdDone st' := by
  unfold Next
  simp only [h.base.reverse, Bool.false_eq_true, if_false]
  rw [nextStep_syn _ _ h.atPoint]
  unfold finishFwd
  rw [updateAtPoint_invalid (by simp [h.base.iterValid])]
  have hcond : (!false && decide (st.rangeKeysIdx + 1 ≥ st.rangeKeysEnd)) = true := by
    simp [h.idx, h.endEq]
  refine ⟨_, (if_pos hcond).trans (updatePosition_invalid (by simp [h.base.iterValid])), ?_⟩
  rw [clearRangeKeys_eval (by intro _; exact ⟨h.cache.pos, h.cache.start⟩)]
  exact ⟨⟨h.base.iter, h.base.reverse, h.base.iterErr, h.base.iterValid⟩, rfl, ⟨rfl, rfl, rfl⟩,
    by simp [h.base.reverse], rfl⟩

/-! ### SeekGE: preliminaries -/

theorem FwdAt.exposed {D : Dataset} (hwf : D.WF) {fk : Nat} {st : DataIter} {y : MVCCKey}
    (h : FwdAt D fk st y) : D.isExposed fk y := by
  rcases h with h | h
  · exact Or.inl h.point
  · obtain ⟨r, hr, _, _, ⟨v, hv, hvt⟩, e, _, hlt, hend⟩ := h.covered
    have hs := (hwf.range_ok (Dataset.rangeAt_some hr).1).2.2.2
    have := Dataset.isExposed_syn (f := fk) hs hr hv (by have := hend.1; omega)
    rw [hvt] at this
    exact this

theorem LandsAfter.toFrom {D : Dataset} (hwf : D.WF) {fk : Nat} {st : DataIter} {x k : MVCCKey}
    (h : LandsAfter D fk st x)
    (hiff : ∀ e, D.isExposed fk e → (x.Less e ↔ ¬ e.Less k)) : LandsFrom D fk st k := by
  rcases h with ⟨hd, hnone⟩ | ⟨y, hy, hxy, hmin⟩
  · left
    refine ⟨hd, ?_⟩
    intro e he
    by_contra hc
    exact hnone e he ((hiff e he).2 hc)
  · right
    refine ⟨y, hy, (hiff y (hy.exposed hwf)).1 hxy, ?_⟩
    intro e he hek
    exact hmin e he ((hiff e he).2 hek)

/-- The cut just before a versioned seek key. -/
theorem cut_less (k e : MVCCKey) (hk : k.Timestamp ≠ 0) :
    MVCCKey.Less ⟨k.Key, k.Timestamp + 1⟩ e ↔ ¬ e.Less k := by
  rw [MVCCKey.less_mk_left]; unfold MVCCKey.Less; omega

theorem Dataset.nextPos_congr {D : Dataset} {x y : MVCCKey}
    (h : ∀ p ∈ D.positions, x.Less p ↔ y.Less p) : D.nextPos x = D.nextPos y := by
  unfold Dataset.nextPos
  congr 2
  apply List.filter_congr
  intro p hp
  have := h p hp
  simp only [decide_eq_decide]
  exact this

theorem Dataset.nextPos_cut {D : Dataset} {k : MVCCKey} (hk : k.Timestamp ≠ 0)
    (hp : (D.pointAt k).isSome = false) :
    D.nextPos ⟨k.Key, k.Timestamp + 1⟩ = D.nextPos k := by
  apply Dataset.nextPos_congr
  intro p hpp
  rw [cut_less k p hk]
  constructor
  · intro h
    rcases MVCCKey.Less.total k p with h1 | h1 | h1
    · exact h1
    · exfalso
      rcases Dataset.positions_cases hpp with h2 | ⟨r, _, h2⟩
      · rw [← h1, hp] at h2; cases h2
      · rw [← h1] at h2; rw [h2] at hk; exact hk rfl
    · exact absurd h1 h
  · intro h; exact MVCCKey.Less.asymm h

theorem Dataset.nextPos_cut_point {D : Dataset} {k : MVCCKey} (hk : k.Timestamp ≠ 0)
    (hp : (D.pointAt k).isSome = true) :
    D.nextPos ⟨k.Key, k.Timestamp + 1⟩ = DataCursor.onKey k := by
  apply Dataset.nextPos_eq_on (Dataset.point_mem_positions hp)
  · rw [cut_less k k hk]; exact MVCCKey.Less.irrefl k
  · intro p _ h
    rw [cut_less k p hk] at h; exact h

theorem newerEq_succ (V : MVCCRangeKeyVersions) (t : Nat) : newerEq V (t + 1) = newer V t := by
  unfold newerEq newer
  congr 1

theorem newer_mono {V : MVCCRangeKeyVersions} (hs : versionsSorted V = true) {t t' : Nat}
    (h : t ≤ t') : newer V t' ≤ newer V t := by
  apply count_le (newer_le_length _ _)
  intro j v hv hj
  rw [newer_lt_iff hs _ hv] at hj ⊢
  omega

/-! ### SeekGE: evaluation -/

theorem seekGE_eval {D : Dataset} {st : DataIter} {it : DataCursor} (k : MVCCKey)
    (hi : st.iter = some it) :
    SeekGE (dataIter D) k st =
      if ((dataIter D).SeekGE k it).isOn then
        updateSeekGEPosition (dataIter D) k { st with
          reverse := false, iter := some ((dataIter D).SeekGE k it),
          iterValid := ((dataIter D).SeekGE k it).isOn, iterErr := none }
      else
        updatePosition (dataIter D) { st with
          reverse := false, iter := some ((dataIter D).SeekGE k it),
          iterValid := ((dataIter D).SeekGE k it).isOn, iterErr := none } := by
  simp only [SeekGE, hi, updateValid, dataIter_Valid]
  cases ((dataIter D).SeekGE k it).isOn <;> simp

theorem dataIter_SeekGE_covered {D : Dataset} {k : MVCCKey} {it : DataCursor}
    (h : (D.pointAt k).isSome = true ∨ (D.rangeAt k.Key).isSome = true) :
    (dataIter D).SeekGE k it = DataCursor.onKey k := by
  simp only [dataIter]
  rcases h with h | h <;> simp [h]

theorem dataIter_SeekGE_uncovered {D : Dataset} {k : MVCCKey} {it : DataCursor}
    (h1 : (D.pointAt k).isSome = false) (h2 : D.rangeAt k.Key = none) :
    (dataIter D).SeekGE k it = D.nextPos k := by
  simp [dataIter, h1, h2]

theorem seekCursor_skip {k : MVCCKey} {s : DataIter}
    (h : s.rangeKeys = [] ∨ k.Timestamp = 0 ∨ k.Key ≠ s.rangeKeysPos) :
    seekCursor k s = some s := by
  unfold seekCursor
  rw [if_neg]
  rcases h with h | h | h
  · simp [h]
  · simp [hlc.Timestamp.IsSet, h]
  · simp [roachpb.Key.Equal, h]

theorem seekCursor_versioned {k : MVCCKey} {s : DataIter} {e : Nat}
    (hs : versionsSorted s.rangeKeys = true) (hne : s.rangeKeys ≠ [])
    (hk : k.Timestamp ≠ 0) (hpos : k.Key = s.rangeKeysPos) (he : s.rangeKeysEnd = (e : Int))
    (hle : e ≤ s.rangeKeys.length) :
    seekCursor k s = some { s with
      rangeKeysIdx := ((min e (newer s.rangeKeys k.Timestamp) : Nat) : Int) } := by
  unfold seekCursor
  have hl : s.rangeKeys.length > 0 := by
    cases hrk : s.rangeKeys with
    | nil => exact absurd hrk hne
    | cons a l => simp
  rw [if_pos (by simp [hl, hlc.Timestamp.IsSet, hk, roachpb.Key.Equal, hpos])]
  rw [he, search_lessEq hs _ _ hle]
  rfl

theorem seekWindow_off {s : DataIter} (b : Bool) (h : s.emitOnSeekGE = false) :
    seekWindow b s = s := by
  unfold seekWindow; simp [h]

theorem seekWindow_noRange {s : DataIter} : seekWindow false s = s := by
  unfold seekWindow; simp

theorem seekWindow_full {s : DataIter} (b : Bool)
    (h : s.rangeKeysEnd = (s.rangeKeys.length : Int)) : seekWindow b s = s := by
  unfold seekWindow
  split
  · cases s; simp only at h; subst h; rfl
  · rfl

theorem seekWindow_on {s : DataIter} (h : s.emitOnSeekGE = true) :
    seekWindow true s = { s with rangeKeysEnd := (s.rangeKeys.length : Int) } := by
  unfold seekWindow; simp [h]

theorem tail_point {D : Dataset} (k : MVCCKey) (hr : Bool) (st : DataIter) :
    updateSeekGEPositionTail (dataIter D) k true hr st =
      (updateRangeKeys (dataIter D) st).bind (fun i1 =>
        (seekCursor k (seekWindow hr i1)).bind (finishFwd (dataIter D))) := by
  unfold updateSeekGEPositionTail
  cases updateRangeKeys (dataIter D) st with
  | none => rfl
  | some i1 =>
    simp only [Bool.not_true, Bool.and_false, Bool.false_eq_true, if_false, Option.bind]
    cases seekCursor k (seekWindow hr i1) <;> rfl

theorem tail_noRange {D : Dataset} (k : MVCCKey) (hp : Bool) (st : DataIter) :
    updateSeekGEPositionTail (dataIter D) k hp false st =
      (updateRangeKeys (dataIter D) st).bind (fun i1 =>
        (seekCursor k (seekWindow false i1)).bind (finishFwd (dataIter D))) := by
  unfold updateSeekGEPositionTail
  cases updateRangeKeys (dataIter D) st with
  | none => rfl
  | some i1 =>
    simp only [Bool.false_and, Bool.false_eq_true, if_false, Option.bind]
    cases seekCursor k (seekWindow false i1) <;> rfl

theorem tail_bare {D : Dataset} (k : MVCCKey) (st : DataIter) :
    updateSeekGEPositionTail (dataIter D) k false true st =
      (updateRangeKeys (dataIter D) st).bind (fun i1 =>
        (iterNext (dataIter D) i1).bind (fun i2 =>
          if i2.iterErr ≠ none then some i2
          else (extendRangeKeysEnd (dataIter D) i2).bind (fun i3 =>
            (seekCursor k (seekWindow true i3)).bind (finishFwd (dataIter D))))) := by
  unfold updateSeekGEPositionTail
  cases updateRangeKeys (dataIter D) st with
  | none => rfl
  | some i1 =>
    simp only [Bool.not_false, Bool.and_self, if_true, Option.bind]
    cases iterNext (dataIter D) i1 with
    | none => rfl
    | some i2 =>
      simp only
      by_cases he : i2.iterErr = none
      · simp only [he, ne_eq, not_true_eq_false, if_false]
        cases extendRangeKeysEnd (dataIter D) i2 with
        | none => rfl
        | some i3 =>
          simp only [Option.map]
          cases seekCursor k (seekWindow true i3) <;> rfl
      · simp only [he, ne_eq, not_false_eq_true, if_true]

theorem finishFwd_cleared {D : Dataset} {st : DataIter} {q : MVCCKey}
    (hi : st.iter = some (DataCursor.onKey q)) (hv : st.iterValid = true)
    (hp : (D.pointAt q).isSome = true) (hr : st.rangeKeys = []) :
    finishFwd (dataIter D) st = some { st with atPoint := true } := by
  unfold finishFwd
  rw [updateAtPoint_noRange hi hv hp hr]
  simp

/-- Arrival of the tail of `updateSeekGEPosition` at the first position after
`x`, whose key is beyond the seek key. -/
theorem tail_arrive {D : Dataset} (hwf : D.WF) {fk : Nat} {st : DataIter}
    {x q : MVCCKey} (k : MVCCKey) (h : FwdStuck D fk st x)
    (hn : D.nextPos x = DataCursor.onKey q) (hk : k.Key ≤ x.Key)
    (hemit : st.emitOnSeekGE = false ∨ (D.pointAt q).isSome = false ∨ D.rangeAt q.Key = none) :
    ∃ st', updateSeekGEPositionTail (dataIter D) k (D.pointAt q).isSome
        (D.rangeAt q.Key).isSome st = some st' ∧ LandsAfter D fk st' x := by
  have hxq := h.gapPos q hn
  have hv : st.iterValid = true := by rw [h.base.iterValid, hn]; rfl
  have hi : st.iter = some (DataCursor.onKey q) := by rw [h.base.iter, hn]
  cases hr : D.rangeAt q.Key with
  | none =>
    obtain ⟨hp, hl⟩ := arrive_uncovered hwf h hn hr
    rw [hp]
    simp only [Option.isSome_none]
    rw [tail_noRange, updateRangeKeys_clear hi (by rw [hv]; rfl)
      (by intro q' hq'; injection hq' with hq'; subst hq'; exact hr)]
    simp only [Option.bind]
    rw [seekWindow_noRange, clearRangeKeys_eval (h.cache.clear hwf), seekCursor_skip (Or.inl rfl)]
    simp only
    rw [finishFwd_cleared (q := q) ?_ ?_ hp ?_]
    · refine ⟨_, rfl, ?_⟩
      rw [clearRangeKeys_eval ?_] at hl
      · exact hl
      · exact h.cache.clear hwf
    · exact hi
    · exact hv
    · rfl
  | some r =>
    simp only [Option.isSome_some]
    cases hp : (D.pointAt q).isSome with
    | true =>
      obtain ⟨hqs, hupd, hmid⟩ := arrive_point hwf h hn hp hr
      have hem : st.emitOnSeekGE = false := by
        rcases hemit with h1 | h1 | h1
        · exact h1
        · rw [hp] at h1; cases h1
        · rw [hr] at h1; cases h1
      rw [tail_point, hupd]
      simp only [Option.bind]
      rw [seekWindow_off _ ?_, seekCursor_skip (Or.inr (Or.inr ?_))]
      · simp only
        exact fwdMid_finish hwf hmid
      · simp only; omega
      · exact hem
    | false =>
      obtain ⟨hq, hupd, hext, hmid, hxq', hgap⟩ := arrive_bare hwf h hn hp hr
      rw [tail_bare, hupd]
      simp only [Option.bind]
      rw [iterNext_on (q := q) ?_]
      · simp only [ne_eq, not_true_eq_false, if_false]
        rw [hext]
        simp only
        rw [seekWindow_full _ ?_, seekCursor_skip (Or.inr (Or.inr ?_))]
        · simp only
          obtain ⟨st', h1, h2⟩ := fwdMid_finish hwf hmid
          exact ⟨st', h1, h2.weaken hxq' hgap⟩
        · simp only; omega
        · rfl
      · exact hi

theorem useek_noRange {D : Dataset} {st : DataIter} {q : MVCCKey} (k : MVCCKey)
    (hi : st.iter = some (DataCursor.onKey q)) (hr : D.rangeAt q.Key = none) :
    updateSeekGEPosition (dataIter D) k st =
      some (clearRangeKeys { st with atPoint := (D.pointAt q).isSome }) := by
  simp [updateSeekGEPosition, hi, hr]

theorem useek_direct {D : Dataset} {st : DataIter} {q : MVCCKey} {r : RangeKV} (k : MVCCKey)
    (hi : st.iter = some (DataCursor.onKey q)) (hr : D.rangeAt q.Key = some r)
    (h : st.emitOnSeekGE = true ∨ (D.pointAt q).isSome = true ∨ r.start = q.Key) :
    updateSeekGEPosition (dataIter D) k st =
      updateSeekGEPositionTail (dataIter D) k (D.pointAt q).isSome true st := by
  simp only [updateSeekGEPosition, hi, dataIter_HasPointAndRange_on, hr, Option.isSome_some,
    Bool.not_true, Bool.false_eq_true, if_false, dataIter_RangeBounds_on hr,
    dataIter_UnsafeKey_on, roachpb.Key.Equal]
  rw [if_neg]
  rcases h with h | h | h <;> simp [h]

theorem useek_skip {D : Dataset} {st : DataIter} {q : MVCCKey} {r : RangeKV} (k : MVCCKey)
    (hi : st.iter = some (DataCursor.onKey q)) (hr : D.rangeAt q.Key = some r)
    (h1 : st.emitOnSeekGE = false) (h2 : (D.pointAt q).isSome = false) (h3 : r.start ≠ q.Key) :
    updateSeekGEPosition (dataIter D) k st =
      match D.nextPos q with
      | DataCursor.onKey q1 =>
        updateSeekGEPositionTail (dataIter D) k (D.pointAt q1).isSome (D.rangeAt q1.Key).isSome
          { st with iter := some (D.nextPos q), iterValid := (D.nextPos q).isOn, iterErr := none }
      | _ =>
        updatePosition (dataIter D)
          { st with iter := some (D.nextPos q), iterValid := (D.nextPos q).isOn, iterErr := none } := by
  simp only [updateSeekGEPosition, hi, dataIter_HasPointAndRange_on, hr, Option.isSome_some,
    Bool.not_true, Bool.false_eq_true, if_false, dataIter_RangeBounds_on hr,
    dataIter_UnsafeKey_on, roachpb.Key.Equal]
  rw [if_pos (by simp [h1, h2, h3]), iterNext_on hi]
  simp only
  cases hn : D.nextPos q with
  | onKey q1 => simp [DataCursor.isOn]
  | after => simp [DataCursor.isOn]
  | before => simp [DataCursor.isOn]

/-! ### SeekGE: cuts -/

theorem cut0_less (k e : MVCCKey) (hk : k.Timestamp = 0) (hK : k.Key ≠ 0) :
    MVCCKey.Less ⟨k.Key - 1, 1⟩ e ↔ ¬ e.Less k := by
  rw [MVCCKey.less_mk_left]; unfold MVCCKey.Less; omega

theorem MVCCKey.less_iff_not_of_ne {k e : MVCCKey} (h : e ≠ k) : k.Less e ↔ ¬ e.Less k := by
  constructor
  · intro h1; exact MVCCKey.Less.asymm h1
  · intro h1
    rcases MVCCKey.Less.total k e with h2 | h2 | h2
    · exact h2
    · exact absurd h2.symm h
    · exact absurd h2 h1

theorem Dataset.nextPos_self_cut {D : Dataset} {x k : MVCCKey}
    (hiff : ∀ e, x.Less e ↔ ¬ e.Less k) (hk : k ∈ D.positions) :
    D.nextPos x = DataCursor.onKey k := by
  apply Dataset.nextPos_eq_on hk
  · rw [hiff]; exact MVCCKey.Less.irrefl k
  · intro p _ h
    rw [hiff] at h; exact h

theorem fwdStuck_intro {D : Dataset} {fk : Nat} {st : DataIter} {x : MVCCKey}
    (hb : Coupled st (D.nextPos x) false) (hc : CacheOK D st) (hfk : fk ≤ x.Key)
    (hpos : ∀ p ∈ D.positions, x.Less p → x.Key < p.Key)
    (hcov : ∀ r, D.rangeAt x.Key = some r → x.Key ≠ r.start ∧ x.Key ≠ fk) :
    FwdStuck D fk st x := by
  refine ⟨hb, hc, hfk, ?_, ?_⟩
  · intro q hn
    obtain ⟨hq, hxq, -⟩ := Dataset.nextPos_on hn
    exact hpos q hq hxq
  · intro y hy hxy
    by_contra hlt
    have hkey : y.Key = x.Key := by unfold MVCCKey.Less at hxy; omega
    rcases Dataset.isExposed_cases hy with hp | ⟨r, hr, j, v, -, hvt, hsyn⟩
    · exact hlt (hpos y (Dataset.point_mem_positions hp) hxy)
    · rw [hkey] at hr
      obtain ⟨h1, h2⟩ := hcov r hr
      rcases hsyn with h | h | ⟨p, hp, hpk, hp0, hplt⟩
      · exact h1 (hkey ▸ h)
      · exact h2 (hkey ▸ h)
      · have hmem : (⟨p.key, p.ts⟩ : MVCCKey) ∈ D.positions :=
          Dataset.mem_positions.2 (Or.inl ⟨p, hp, rfl⟩)
        have hless : x.Less ⟨p.key, p.ts⟩ := by
          rw [MVCCKey.less_mk_right]; unfold MVCCKey.Less at hxy; omega
        have := hpos _ hmem hless
        simp only at this
        omega

theorem Dataset.no_pos_at_key {D : Dataset} {x : MVCCKey}
    (h : D.nextPos x = DataCursor.after ∨ ∃ q, D.nextPos x = DataCursor.onKey q ∧ x.Key < q.Key) :
    ∀ p ∈ D.positions, x.Less p → x.Key < p.Key := by
  intro p hp hxp
  rcases h with h | ⟨q, hn, hq⟩
  · exact absurd hxp (Dataset.nextPos_after h p hp)
  · have := (Dataset.nextPos_on hn).2.2 p hp hxp
    unfold MVCCKey.Less at this hxp; omega

theorem seekCursor_cut {S : DataIter} {K : Nat} {V : MVCCRangeKeyVersions} {e : Nat}
    {k x : MVCCKey} (hs : versionsSorted V = true) (hrk : S.rangeKeys = V) (hne : V ≠ [])
    (hpos : S.rangeKeysPos = K) (hkK : k.Key = K) (hend : S.rangeKeysEnd = (e : Int))
    (hle : e ≤ V.length) (hidx : S.rangeKeysIdx = 0)
    (hx0 : k.Timestamp = 0 → consumed V K x = 0)
    (hx1 : k.Timestamp ≠ 0 → x = ⟨K, k.Timestamp + 1⟩)
    (hce : consumed V K x ≤ e) :
    seekCursor k S = some { S with rangeKeysIdx := ((consumed V K x : Nat) : Int) } := by
  by_cases hk : k.Timestamp = 0
  · rw [seekCursor_skip (Or.inr (Or.inl hk)), hx0 hk]
    cases S; simp only at hidx; subst hidx; rfl
  · have hxe := hx1 hk
    have hcons : consumed V K x = newer V k.Timestamp := by
      rw [hxe]; unfold consumed; simp only [true_and]
      rw [if_pos (by omega), newerEq_succ]
    rw [seekCursor_versioned (e := e) (by rw [hrk]; exact hs) (by rw [hrk]; exact hne) hk
      (by rw [hpos, hkK]) hend (by rw [hrk]; exact hle)]
    rw [hrk, ← hcons, Nat.min_eq_right hce]

/-! ### SeekGE: landings -/

theorem fwdReal_cleared {D : Dataset} (hwf : D.WF) {fk : Nat} {st : DataIter} {q : MVCCKey}
    (hb : Coupled st (DataCursor.onKey q) false) (hc : CacheOK D st)
    (hp : (D.pointAt q).isSome = true) (hr : D.rangeAt q.Key = none) (hfk : fk ≤ q.Key) :
    FwdReal D fk (clearRangeKeys { st with atPoint := true }) q := by
  rw [clearRangeKeys_eval ?_]
  · refine ⟨⟨hb.iter, hb.reverse, hb.iterErr, hb.iterValid⟩, hp, rfl, hfk, ?_, ?_⟩
    · intro _
      exact ⟨⟨rfl, rfl, rfl⟩, by simp [hb.reverse], rfl⟩
    · intro r' hr'; rw [hr] at hr'; cases hr'
  · exact hc.clear hwf

theorem Dataset.WF.not_exposed {D : Dataset} (hwf : D.WF) {fk : Nat} {k : MVCCKey}
    (hp : (D.pointAt k).isSome = false)
    (h : k.Timestamp = 0 ∨ D.rangeAt k.Key = none) : ¬ D.isExposed fk k := by
  intro hk
  rcases hk with hk | ⟨r, hr, v, hv, hvt, -⟩
  · rw [hp] at hk; cases hk
  · rcases h with h | h
    · have := versionsSorted_ne_zero (hwf.range_ok (Dataset.rangeAt_some hr).1).2.2.2 v hv
      omega
    · rw [h] at hr; cases hr

theorem seek_mid {D : Dataset} (hwf : D.WF) {fk : Nat} {S : DataIter} {K : Nat}
    {x k : MVCCKey} {r : RangeKV} {e : Nat}
    (hmid : FwdMid D fk { S with rangeKeysIdx := ((consumed r.versions K x : Nat) : Int) } K x r e)
    (hidx : S.rangeKeysIdx = 0) (hkK : k.Key = K)
    (hx0 : k.Timestamp = 0 → consumed r.versions K x = 0)
    (hx1 : k.Timestamp ≠ 0 → x = ⟨K, k.Timestamp + 1⟩) :
    ∃ st', (seekCursor k S).bind (finishFwd (dataIter D)) = some st' ∧ LandsAfter D fk st' x := by
  have hs := hmid.sorted hwf
  have hne := (hwf.range_ok (Dataset.rangeAt_some hmid.range).1).2.2.1
  have h1 : S.rangeKeys = r.versions := hmid.cache.rangeKeys
  have h2 : S.rangeKeysPos = K := hmid.cache.pos
  have h3 : S.rangeKeysEnd = (e : Int) := hmid.endEq
  rw [seekCursor_cut (x := x) hs h1 hne h2 hkK h3 hmid.e_le hidx hx0 hx1 hmid.idx_le]
  exact fwdMid_finish hwf hmid

theorem Dataset.WF.covered_key_ne {D : Dataset} (hwf : D.WF) {K : Nat} {r : RangeKV}
    (hr : D.rangeAt K = some r) : K ≠ 0 := by
  obtain ⟨h1, h2, -⟩ := Dataset.rangeAt_some hr
  have := (hwf.range_ok h1).1
  omega

theorem Dataset.WF.point_ne_zero {D : Dataset} (hwf : D.WF) {k : MVCCKey}
    (hp : (D.pointAt k).isSome = true) : k.Key ≠ 0 :=
  hwf.position_key_ne (Dataset.point_mem_positions hp)

theorem consumed_of_lt {V : MVCCRangeKeyVersions} {K : Nat} {x : MVCCKey} (h : x.Key < K) :
    consumed V K x = 0 := by
  unfold consumed; rw [if_neg]; omega

theorem consumed_of_zero {V : MVCCRangeKeyVersions} {K : Nat} {x : MVCCKey}
    (h : x.Timestamp = 0) : consumed V K x = 0 := by
  unfold consumed; rw [if_neg]; omega

theorem consumed_cut (V : MVCCRangeKeyVersions) (K t : Nat) :
    consumed V K ⟨K, t + 1⟩ = newer V t := by
  unfold consumed; simp only [true_and]
  rw [if_pos (by omega), newerEq_succ]

theorem newerPt_le_length (V : MVCCRangeKeyVersions) (t : Nat) : newerPt V t ≤ V.length := by
  unfold newerPt; split
  · omega
  · exact newer_le_length V t

theorem CacheOK.of_eq {D : Dataset} {s t : DataIter} (h : CacheOK D s)
    (h1 : t.rangeKeys = s.rangeKeys) (h2 : t.rangeKeysPos = s.rangeKeysPos)
    (h3 : t.rangeKeysStart = s.rangeKeysStart) : CacheOK D t := by
  rcases h with h | ⟨r, hr, ha, hb⟩
  · exact Or.inl ⟨h1.trans h.rangeKeys, h2.trans h.pos, h3.trans h.start⟩
  · exact Or.inr ⟨r, hr, h1.trans ha, h3.trans hb⟩

theorem exists_cut {k : MVCCKey} (hK : k.Key ≠ 0) :
    ∃ x : MVCCKey, (∀ e, x.Less e ↔ ¬ e.Less k) ∧ x.Key ≤ k.Key ∧
      (k.Timestamp = 0 → x.Key < k.Key) ∧ (k.Timestamp ≠ 0 → x = ⟨k.Key, k.Timestamp + 1⟩) := by
  by_cases hk : k.Timestamp = 0
  · refine ⟨⟨k.Key - 1, 1⟩, fun e => cut0_less k e hk hK, ?_, ?_, ?_⟩
    · simp only; omega
    · intro _; simp only; omega
    · intro h; exact absurd hk h
  · refine ⟨⟨k.Key, k.Timestamp + 1⟩, fun e => cut_less k e hk, le_refl _, ?_, ?_⟩
    · intro h; exact absurd h hk
    · intro _; rfl

theorem updateRangeKeys_fwd {D : Dataset} {s : DataIter} {q : MVCCKey} {r : RangeKV}
    (hi : s.iter = some (DataCursor.onKey q)) (hv : s.iterValid = true)
    (hr : D.rangeAt q.Key = some r) (hs : versionsSorted r.versions = true)
    (hm : s.rangeKeysStart = r.start → s.rangeKeys = r.versions)
    (hrev : s.reverse = false) :
    ∃ e : Nat,
      (e = if q.Key = r.start then r.versions.length
        else if (D.pointAt q).isSome = true ∧ q.Timestamp ≠ 0
          then newerEq r.versions q.Timestamp else 0) ∧
      updateRangeKeys (dataIter D) s = some { s with
        rangeKeysPos := q.Key, rangeKeysStart := r.start, rangeKeys := r.versions,
        rangeKeysEnd := (e : Int), rangeKeysIdx := 0 } := by
  obtain ⟨e, he, h⟩ := updateRangeKeys_on hi hv hr hs hm
  refine ⟨e, he, ?_⟩
  rw [h, if_neg (by rw [hrev]; simp)]

/-- The seek lands on a real point inside a span. -/
theorem seek_point_covered {D : Dataset} (hwf : D.WF) {fk : Nat} {st : DataIter}
    {k : MVCCKey} {r : RangeKV} (hp : (D.pointAt k).isSome = true)
    (hr : D.rangeAt k.Key = some r) (hb : Coupled st (DataCursor.onKey k) false)
    (hc : CacheOK D st) (hfk : fk = if st.emitOnSeekGE = true then k.Key else 0) :
    ∃ st', updateSeekGEPosition (dataIter D) k st = some st' ∧ LandsFrom D fk st' k := by
  obtain ⟨hrm, hrs, hre⟩ := Dataset.rangeAt_some hr
  have hs := (hwf.range_ok hrm).2.2.2
  have hK0 := hwf.point_ne_zero hp
  have hv : st.iterValid = true := by rw [hb.iterValid]; rfl
  obtain ⟨e0, he0, hupd⟩ :=
    updateRangeKeys_fwd hb.iter hv hr hs (fun h => hc.memo hwf hrm h) hb.reverse
  obtain ⟨x, hiff, hxK, hx0, hx1⟩ := exists_cut hK0
  have hnx : D.nextPos x = DataCursor.onKey k :=
    Dataset.nextPos_self_cut hiff (Dataset.point_mem_positions hp)
  rw [useek_direct k hb.iter hr (Or.inr (Or.inl hp)), hp, tail_point, hupd, Option.some_bind]
  have hwin : ∃ e : Nat, seekWindow true { st with
        rangeKeysPos := k.Key, rangeKeysStart := r.start, rangeKeys := r.versions,
        rangeKeysEnd := (e0 : Int), rangeKeysIdx := 0 } =
      { st with
        rangeKeysPos := k.Key, rangeKeysStart := r.start, rangeKeys := r.versions,
        rangeKeysEnd := (e : Int), rangeKeysIdx := 0 } ∧
      newerPt r.versions k.Timestamp ≤ e ∧ EndOK D fk r k.Key (DataCursor.onKey k) e := by
    by_cases hem : st.emitOnSeekGE = true
    · refine ⟨r.versions.length, ?_, newerPt_le_length _ _, ?_⟩
      · rw [seekWindow_on ?_]
        exact hem
      · rw [if_pos hem] at hfk
        have := Dataset.window_full (D := D) (f := fk) (K := k.Key) hs (Or.inr hfk.symm)
        exact ⟨by omega, Or.inl (by omega)⟩
    · have hem' : st.emitOnSeekGE = false := by
        cases h : st.emitOnSeekGE
        · rfl
        · exact absurd h hem
      rw [if_neg hem] at hfk
      refine ⟨e0, ?_, ?_, ?_⟩
      · rw [seekWindow_off _ ?_]
        exact hem'
      · by_cases hst : k.Key = r.start
        · rw [if_pos hst] at he0; rw [he0]; exact newerPt_le_length _ _
        · rw [if_neg hst] at he0
          by_cases hk0 : k.Timestamp = 0
          · unfold newerPt; rw [if_pos hk0]; omega
          · rw [if_pos ⟨hp, hk0⟩, hwf.newerEq_point hp hr] at he0
            unfold newerPt; rw [if_neg hk0]; omega
      · by_cases hst : k.Key = r.start
        · rw [if_pos hst] at he0
          have := Dataset.window_full (D := D) (f := fk) (K := k.Key) hs (Or.inl hst)
          exact ⟨by omega, Or.inl (by omega)⟩
        · rw [if_neg hst] at he0
          have he0' : e0 = newerPt r.versions k.Timestamp := by
            by_cases hk0 : k.Timestamp = 0
            · unfold newerPt; rw [if_pos hk0]
              rw [if_neg (by omega)] at he0; exact he0
            · rw [if_pos ⟨hp, hk0⟩, hwf.newerEq_point hp hr] at he0
              unfold newerPt; rw [if_neg hk0]; exact he0
          have := Dataset.newerPt_le_window (D := D) (f := fk) hs hp
          refine ⟨by omega, Or.inr ⟨hst, by omega, k, rfl, rfl, by omega⟩⟩
  obtain ⟨e, hwe, hpt, hendok⟩ := hwin
  rw [hwe]
  have hcle : consumed r.versions k.Key x ≤ e := by
    by_cases hk0 : k.Timestamp = 0
    · rw [consumed_of_lt (hx0 hk0)]; omega
    · rw [hx1 hk0, consumed_cut]
      unfold newerPt at hpt; rw [if_neg hk0] at hpt; exact hpt
  have hmid : FwdMid D fk { st with
        rangeKeysPos := k.Key, rangeKeysStart := r.start, rangeKeys := r.versions,
        rangeKeysEnd := (e : Int),
        rangeKeysIdx := ((consumed r.versions k.Key x : Nat) : Int) } k.Key x r e := by
    refine ⟨⟨?_, hb.reverse, hb.iterErr, ?_⟩, hr, ⟨rfl, rfl, rfl⟩, hxK, ?_, rfl, rfl, hcle, ?_,
      ?_, ?_⟩
    · rw [hnx]; exact hb.iter
    · rw [hnx]; exact hb.iterValid
    · rw [hfk]; split <;> omega
    · rw [hnx]; exact hendok
    · intro _; exact ⟨k, hnx, rfl, hp⟩
    · intro y _ hxy
      rw [hiff] at hxy
      unfold MVCCKey.Less at hxy; omega
  obtain ⟨st', h1, h2⟩ := seek_mid (k := k)
    (S := { st with
        rangeKeysPos := k.Key, rangeKeysStart := r.start, rangeKeys := r.versions,
        rangeKeysEnd := (e : Int), rangeKeysIdx := 0 })
    hwf hmid rfl rfl (fun h => consumed_of_lt (hx0 h)) hx1
  exact ⟨st', h1, h2.toFrom hwf (fun e _ => hiff e)⟩

theorem exists_cut_bare {D : Dataset} (hwf : D.WF) (fk : Nat) {k : MVCCKey}
    (hp : (D.pointAt k).isSome = false) :
    ∃ x : MVCCKey, x.Key = k.Key ∧
      (∀ e, D.isExposed fk e → (x.Less e ↔ ¬ e.Less k)) ∧
      (k.Timestamp = 0 → x = k) ∧ (k.Timestamp ≠ 0 → x = ⟨k.Key, k.Timestamp + 1⟩) ∧
      D.nextPos x = D.nextPos k := by
  by_cases hk : k.Timestamp = 0
  · refine ⟨k, rfl, ?_, fun _ => rfl, fun h => absurd hk h, rfl⟩
    intro e he
    apply MVCCKey.less_iff_not_of_ne
    intro hek
    rw [hek] at he
    exact hwf.not_exposed hp (Or.inl hk) he
  · exact ⟨⟨k.Key, k.Timestamp + 1⟩, rfl, fun e _ => cut_less k e hk,
      fun h => absurd h hk, fun _ => rfl, Dataset.nextPos_cut hk hp⟩

theorem consumed_le_length (V : MVCCRangeKeyVersions) (K : Nat) (x : MVCCKey) :
    consumed V K x ≤ V.length := by
  unfold consumed; split
  · exact newerEq_le_length _ _
  · omega

/-- The seek lands on a bare range position that is not skipped: the start key
of the span, or any key with `emitOnSeekGE`. -/
theorem seek_bare_direct {D : Dataset} (hwf : D.WF) {fk : Nat} {st : DataIter}
    {k : MVCCKey} {r : RangeKV} (hp : (D.pointAt k).isSome = false)
    (hr : D.rangeAt k.Key = some r) (hb : Coupled st (DataCursor.onKey k) false)
    (hc : CacheOK D st) (hfk : fk = if st.emitOnSeekGE = true then k.Key else 0)
    (hdir : st.emitOnSeekGE = true ∨ r.start = k.Key) :
    ∃ st', updateSeekGEPosition (dataIter D) k st = some st' ∧ LandsFrom D fk st' k := by
  obtain ⟨hrm, hrs, hre⟩ := Dataset.rangeAt_some hr
  have hs := (hwf.range_ok hrm).2.2.2
  have hv : st.iterValid = true := by rw [hb.iterValid]; rfl
  obtain ⟨e0, he0, hupd⟩ :=
    updateRangeKeys_fwd hb.iter hv hr hs (fun h => hc.memo hwf hrm h) hb.reverse
  obtain ⟨x, hxK, hiff, hx0, hx1, hnx⟩ := exists_cut_bare hwf fk hp
  have hdir' : st.emitOnSeekGE = true ∨ (D.pointAt k).isSome = true ∨ r.start = k.Key := by
    rcases hdir with h | h
    · exact Or.inl h
    · exact Or.inr (Or.inr h)
  rw [useek_direct k hb.iter hr hdir', hp, tail_bare, hupd, Option.some_bind,
    iterNext_on (q := k) ?_, Option.some_bind]
  swap
  · exact hb.iter
  simp only [ne_eq, not_true_eq_false, if_false]
  obtain ⟨e1, hext, hle, hcase, -⟩ := extend_eval (D := D) (c := D.nextPos k) (e := e0)
    (s := { st with
        rangeKeysPos := k.Key, rangeKeysStart := r.start, rangeKeys := r.versions,
        rangeKeysEnd := (e0 : Int), rangeKeysIdx := 0,
        iter := some (D.nextPos k), iterValid := (D.nextPos k).isOn, iterErr := none })
    hs rfl rfl rfl
  rw [hext, Option.some_bind]
  have he1 : e1 ≤ r.versions.length := by
    have h0 : e0 ≤ r.versions.length := by
      rw [he0]; split
      · omega
      · split
        · exact newerEq_le_length _ _
        · omega
    rcases hcase with h | ⟨q, -, -, -, -, h⟩
    · omega
    · have := newerEq_le_length r.versions q.Timestamp
      rw [h]; simp only at this ⊢; omega
  have hfull : D.window fk r k.Key = r.versions.length := by
    apply Dataset.window_full hs
    rcases hdir with h | h
    · rw [if_pos h] at hfk; exact Or.inr hfk.symm
    · exact Or.inl h.symm
  have hwin : seekWindow true { st with
        rangeKeysPos := k.Key, rangeKeysStart := r.start, rangeKeys := r.versions,
        rangeKeysEnd := (e1 : Int), rangeKeysIdx := 0,
        iter := some (D.nextPos k), iterValid := (D.nextPos k).isOn, iterErr := none } =
      { st with
        rangeKeysPos := k.Key, rangeKeysStart := r.start, rangeKeys := r.versions,
        rangeKeysEnd := (r.versions.length : Int), rangeKeysIdx := 0,
        iter := some (D.nextPos k), iterValid := (D.nextPos k).isOn, iterErr := none } := by
    by_cases hem : st.emitOnSeekGE = true
    · rw [seekWindow_on ?_]
      exact hem
    · have hem' : st.emitOnSeekGE = false := by
        cases h : st.emitOnSeekGE
        · rfl
        · exact absurd h hem
      have hst : r.start = k.Key := by
        rcases hdir with h | h
        · exact absurd h hem
        · exact h
      rw [if_pos hst.symm] at he0
      have : e1 = r.versions.length := by omega
      rw [seekWindow_off _ ?_, this]
      exact hem'
  rw [hwin]
  have hmid : FwdMid D fk { st with
        rangeKeysPos := k.Key, rangeKeysStart := r.start, rangeKeys := r.versions,
        rangeKeysEnd := (r.versions.length : Int),
        rangeKeysIdx := ((consumed r.versions k.Key x : Nat) : Int),
        iter := some (D.nextPos k), iterValid := (D.nextPos k).isOn, iterErr := none }
      k.Key x r r.versions.length := by
    refine ⟨⟨?_, hb.reverse, rfl, ?_⟩, hr, ⟨rfl, rfl, rfl⟩, by omega, ?_, rfl, rfl,
      consumed_le_length _ _ _, ?_, ?_, ?_⟩
    · rw [hnx]
    · rw [hnx]
    · rw [hfk]; split <;> omega
    · exact ⟨by omega, Or.inl (by omega)⟩
    · intro h; omega
    · intro y _ hxy
      unfold MVCCKey.Less at hxy; omega
  obtain ⟨st', h1, h2⟩ := seek_mid (k := k)
    (S := { st with
        rangeKeysPos := k.Key, rangeKeysStart := r.start, rangeKeys := r.versions,
        rangeKeysEnd := (r.versions.length : Int), rangeKeysIdx := 0,
        iter := some (D.nextPos k), iterValid := (D.nextPos k).isOn, iterErr := none })
    hwf hmid rfl rfl (fun h => by rw [hx0 h]; exact consumed_of_zero h)
    (fun h => by rw [hx1 h])
  exact ⟨st', h1, h2.toFrom hwf hiff⟩

/-- The seek lands on a bare range position inside a span and skips it. -/
theorem seek_bare_skip {D : Dataset} (hwf : D.WF) {st : DataIter}
    {k : MVCCKey} {r : RangeKV} (hp : (D.pointAt k).isSome = false)
    (hr : D.rangeAt k.Key = some r) (hb : Coupled st (DataCursor.onKey k) false)
    (hc : CacheOK D st) (hem : st.emitOnSeekGE = false) (hst : r.start ≠ k.Key) :
    ∃ st', updateSeekGEPosition (dataIter D) k st = some st' ∧ LandsFrom D 0 st' k := by
  obtain ⟨hrm, hrs, hre⟩ := Dataset.rangeAt_some hr
  have hs := (hwf.range_ok hrm).2.2.2
  have hK0 := hwf.covered_key_ne hr
  obtain ⟨x, hxK, hiff, hx0, hx1, hnx⟩ := exists_cut_bare hwf 0 hp
  rw [useek_skip k hb.iter hr hem hp hst]
  have hb2 : Coupled { st with
      iter := some (D.nextPos k), iterValid := (D.nextPos k).isOn, iterErr := none }
      (D.nextPos x) false := by
    refine ⟨?_, hb.reverse, rfl, ?_⟩
    · rw [hnx]
    · rw [hnx]
  have hc2 : CacheOK D { st with
      iter := some (D.nextPos k), iterValid := (D.nextPos k).isOn, iterErr := none } :=
    hc.of_eq rfl rfl rfl
  have hcov : ∀ r', D.rangeAt x.Key = some r' → x.Key ≠ r'.start ∧ x.Key ≠ 0 := by
    intro r' hr'
    rw [hxK, hr] at hr'
    injection hr' with hr'
    subst hr'
    exact ⟨by omega, by omega⟩
  rcases D.nextPos_cases k with ⟨hn, -⟩ | ⟨q, hn, hq, hkq, hmin⟩
  · rw [hn]
    simp only
    have hstuck : FwdStuck D 0 { st with
        iter := some DataCursor.after, iterValid := DataCursor.after.isOn, iterErr := none } x := by
      rw [hn] at hb2 hc2
      exact fwdStuck_intro hb2 hc2 (Nat.zero_le _)
        (Dataset.no_pos_at_key (Or.inl (hnx.trans hn))) hcov
    obtain ⟨st', h1, h2⟩ := fwdStuck_updatePosition hwf hstuck
    exact ⟨st', h1, h2.toFrom hwf hiff⟩
  · rw [hn]
    simp only
    rw [hn] at hb2 hc2
    by_cases hqK : q.Key = k.Key
    · have hrq : D.rangeAt q.Key = some r := by rw [hqK]; exact hr
      have hpq : (D.pointAt q).isSome = true := by
        cases h : (D.pointAt q).isSome
        · have := hwf.bare_position hq h hrq
          rw [this] at hqK
          exact absurd hqK hst
        · rfl
      have hqt : q.Timestamp ≠ 0 := by
        unfold MVCCKey.Less at hkq; omega
      obtain ⟨e0, he0, hupd⟩ := updateRangeKeys_fwd (D := D) (q := q) (r := r)
        (s := { st with
          iter := some (DataCursor.onKey q), iterValid := (DataCursor.onKey q).isOn,
          iterErr := none })
        rfl rfl hrq hs (fun h => hc.memo hwf hrm h) hb.reverse
      rw [if_neg (by omega), if_pos ⟨hpq, hqt⟩, hwf.newerEq_point hpq hrq] at he0
      rw [hpq, hrq]
      simp only [Option.isSome_some]
      rw [tail_point, hupd, Option.some_bind, seekWindow_off _ ?_]
      swap
      · exact hem
      have hcle : consumed r.versions q.Key x ≤ e0 := by
        by_cases hk0 : k.Timestamp = 0
        · rw [hx0 hk0, consumed_of_zero hk0]; omega
        · rw [hx1 hk0, ← hqK, consumed_cut, he0]
          apply newer_mono hs
          unfold MVCCKey.Less at hkq; omega
      have hmid : FwdMid D 0 { st with
            rangeKeysPos := q.Key, rangeKeysStart := r.start, rangeKeys := r.versions,
            rangeKeysEnd := (e0 : Int),
            rangeKeysIdx := ((consumed r.versions q.Key x : Nat) : Int),
            iter := some (DataCursor.onKey q), iterValid := (DataCursor.onKey q).isOn,
            iterErr := none }
          q.Key x r e0 := by
        refine ⟨⟨?_, hb.reverse, rfl, ?_⟩, hrq, ⟨rfl, rfl, rfl⟩, by omega, Nat.zero_le _, rfl,
          rfl, hcle, ?_, ?_, ?_⟩
        · rw [hnx, hn]
        · rw [hnx, hn]
        · have := Dataset.newerPt_le_window (D := D) (f := 0) hs hpq
          have hnp : newerPt r.versions q.Timestamp = e0 := by
            unfold newerPt; rw [if_neg hqt, he0]
          refine ⟨by omega, Or.inr ⟨by omega, by omega, q, hnx.trans hn, rfl, by omega⟩⟩
        · intro h; omega
        · intro y _ hxy
          unfold MVCCKey.Less at hxy; omega
      obtain ⟨st', h1, h2⟩ := seek_mid (k := k)
        (S := { st with
            rangeKeysPos := q.Key, rangeKeysStart := r.start, rangeKeys := r.versions,
            rangeKeysEnd := (e0 : Int), rangeKeysIdx := 0,
            iter := some (DataCursor.onKey q), iterValid := (DataCursor.onKey q).isOn,
            iterErr := none })
        hwf hmid rfl hqK.symm (fun h => by rw [hx0 h]; exact consumed_of_zero h)
        (fun h => by rw [hx1 h, hqK])
      exact ⟨st', h1, h2.toFrom hwf hiff⟩
    · have hlt : k.Key < q.Key := by
        unfold MVCCKey.Less at hkq; omega
      have hstuck : FwdStuck D 0 { st with
          iter := some (DataCursor.onKey q), iterValid := (DataCursor.onKey q).isOn,
          iterErr := none } x :=
        fwdStuck_intro hb2 hc2 (Nat.zero_le _)
          (Dataset.no_pos_at_key (Or.inr ⟨q, hnx.trans hn, by omega⟩)) hcov
      obtain ⟨st', h1, h2⟩ := tail_arrive hwf k hstuck (hnx.trans hn) (by omega) (Or.inl hem)
      exact ⟨st', h1, h2.toFrom hwf hiff⟩

/-- The seek lands on a real point outside every span. -/
theorem seek_point_uncovered {D : Dataset} (hwf : D.WF) {fk : Nat} {st : DataIter}
    {k : MVCCKey} (hp : (D.pointAt k).isSome = true)
    (hr : D.rangeAt k.Key = none) (hb : Coupled st (DataCursor.onKey k) false)
    (hc : CacheOK D st) (hfk : fk ≤ k.Key) :
    ∃ st', updateSeekGEPosition (dataIter D) k st = some st' ∧ LandsFrom D fk st' k := by
  rw [useek_noRange k hb.iter hr, hp]
  exact ⟨_, rfl, Or.inr ⟨k, Or.inl (fwdReal_cleared hwf hb hc hp hr hfk),
    MVCCKey.Less.irrefl k, fun e _ h => h⟩⟩

/-- The seek key is neither a point nor inside a span: the iterator lands on the
next position. -/
theorem seek_uncovered {D : Dataset} (hwf : D.WF) {fk : Nat} {st : DataIter}
    {k : MVCCKey} (hp : (D.pointAt k).isSome = false)
    (hr : D.rangeAt k.Key = none) (hb : Coupled st (D.nextPos k) false)
    (hc : CacheOK D st) (hfk : fk ≤ k.Key) :
    ∃ st', (if (D.nextPos k).isOn = true then updateSeekGEPosition (dataIter D) k st
        else updatePosition (dataIter D) st) = some st' ∧ LandsFrom D fk st' k := by
  have hnexp : ¬ D.isExposed fk k := hwf.not_exposed hp (Or.inr hr)
  have hiff : ∀ e, D.isExposed fk e → (k.Less e ↔ ¬ e.Less k) := by
    intro e he
    apply MVCCKey.less_iff_not_of_ne
    intro hek
    rw [hek] at he
    exact hnexp he
  have hcov : ∀ r, D.rangeAt k.Key = some r → k.Key ≠ r.start ∧ k.Key ≠ fk := by
    intro r h; rw [hr] at h; cases h
  rcases D.nextPos_cases k with ⟨hn, -⟩ | ⟨q, hn, hq, hkq, hmin⟩
  · rw [hn]
    simp only [DataCursor.isOn, Bool.false_eq_true, if_false]
    have hstuck : FwdStuck D fk st k :=
      fwdStuck_intro hb hc hfk (Dataset.no_pos_at_key (Or.inl hn)) hcov
    obtain ⟨st', h1, h2⟩ := fwdStuck_updatePosition hwf hstuck
    exact ⟨st', h1, h2.toFrom hwf hiff⟩
  · have hi : st.iter = some (DataCursor.onKey q) := by rw [hb.iter, hn]
    rw [hn]
    simp only [DataCursor.isOn, if_true]
    by_cases hqK : q.Key = k.Key
    · have hrq : D.rangeAt q.Key = none := by rw [hqK]; exact hr
      have hpq := hwf.position_point_or_range hq hrq
      rw [hn] at hb
      rw [useek_noRange k hi hrq, hpq]
      refine ⟨_, rfl, Or.inr ⟨q, Or.inl (fwdReal_cleared hwf hb hc hpq hrq (by omega)),
        MVCCKey.Less.asymm hkq, ?_⟩⟩
      intro e he hek heq
      rcases Dataset.isExposed_cases he with hpe | ⟨r', hr', -⟩
      · exact hmin e (Dataset.point_mem_positions hpe) ((hiff e he).2 hek) heq
      · have : e.Key = k.Key := by
          unfold MVCCKey.Less at hek heq; omega
        rw [this, hr] at hr'; cases hr'
    · have hlt : k.Key < q.Key := by
        unfold MVCCKey.Less at hkq; omega
      have hstuck : FwdStuck D fk st k :=
        fwdStuck_intro hb hc hfk (Dataset.no_pos_at_key (Or.inr ⟨q, hn, hlt⟩)) hcov
      cases hrq : D.rangeAt q.Key with
      | none =>
        obtain ⟨hpq, hl⟩ := arrive_uncovered hwf hstuck hn hrq
        rw [useek_noRange k hi hrq, hpq]
        exact ⟨_, rfl, hl.toFrom hwf hiff⟩
      | some r =>
        obtain ⟨hrm, hrs, hre⟩ := Dataset.rangeAt_some hrq
        have hks : k.Key < r.start := by
          by_contra hge
          rw [Dataset.rangeAt_eq_none] at hr
          exact hr r hrm ⟨by omega, by omega⟩
        have hsq : ¬ MVCCKey.Less ⟨r.start, 0⟩ q :=
          hmin _ (Dataset.start_mem_positions hrm)
            (by rw [MVCCKey.less_zero_right]; exact hks)
        rw [MVCCKey.less_zero_left] at hsq
        have hpq : (D.pointAt q).isSome = false := by
          cases h : (D.pointAt q).isSome
          · rfl
          · exfalso
            have h1 : q.Key = r.start := by omega
            have h2 : q.Timestamp = 0 := by omega
            have h3 : q = ⟨r.start, 0⟩ := by
              cases q; simp only at h1 h2; subst h1; subst h2; rfl
            rw [h3, hwf.start_not_point hrm] at h
            cases h
        have hbare := hwf.bare_position hq hpq hrq
        have hqs : r.start = q.Key := by rw [hbare]
        obtain ⟨st', h1, h2⟩ := tail_arrive hwf k hstuck hn (le_refl _) (Or.inr (Or.inl hpq))
        rw [hpq, hrq] at h1
        rw [useek_direct k hi hrq (Or.inr (Or.inr hqs)), hpq]
        exact ⟨st', h1, h2.toFrom hwf hiff⟩

/-- `SeekGE` from any ready state lands on the first exposed key at or after the
seek key; with `emitOnSeekGE` the seek key itself joins the keys at which every
range key version is synthesized. -/
theorem seekGE_lands {D : Dataset} (hwf : D.WF) {st : DataIter} (hst : Ready D st)
    (k : MVCCKey) :
    ∃ st', SeekGE (dataIter D) k st = some st' ∧
      LandsFrom D (if st.emitOnSeekGE = true then k.Key else 0) st' k := by
  obtain ⟨it, hit⟩ := Option.isSome_iff_exists.1 hst.1
  have hfk : (if st.emitOnSeekGE = true then k.Key else 0) ≤ k.Key := by split <;> omega
  rw [seekGE_eval k hit]
  by_cases hcov : (D.pointAt k).isSome = true ∨ (D.rangeAt k.Key).isSome = true
  · rw [dataIter_SeekGE_covered hcov]
    simp only [DataCursor.isOn, if_true]
    have hb : Coupled { st with
        reverse := false, iter := some (DataCursor.onKey k), iterValid := true,
        iterErr := none } (DataCursor.onKey k) false := ⟨rfl, rfl, rfl, rfl⟩
    have hc : CacheOK D { st with
        reverse := false, iter := some (DataCursor.onKey k), iterValid := true,
        iterErr := none } := hst.2.of_eq rfl rfl rfl
    cases hr : D.rangeAt k.Key with
    | none =>
      have hp : (D.pointAt k).isSome = true := by
        rcases hcov with h | h
        · exact h
        · rw [hr] at h; cases h
      exact seek_point_uncovered hwf hp hr hb hc hfk
    | some r =>
      cases hp : (D.pointAt k).isSome with
      | true => exact seek_point_covered hwf hp hr hb hc rfl
      | false =>
        by_cases hdir : st.emitOnSeekGE = true ∨ r.start = k.Key
        · exact seek_bare_direct hwf hp hr hb hc rfl hdir
        · have hem : st.emitOnSeekGE = false := by
            cases h : st.emitOnSeekGE
            · rfl
            · exact absurd (Or.inl h) hdir
          rw [if_neg (by rw [hem]; simp)]
          exact seek_bare_skip hwf hp hr hb hc hem (fun h => hdir (Or.inr h))
  · have hp : (D.pointAt k).isSome = false := by
      cases h : (D.pointAt k).isSome
      · rfl
      · exact absurd (Or.inl h) hcov
    have hr : D.rangeAt k.Key = none := by
      cases h : D.rangeAt k.Key
      · rfl
      · rw [h] at hcov; exact absurd (Or.inr rfl) hcov
    rw [dataIter_SeekGE_uncovered hp hr]
    have hb : Coupled { st with
        reverse := false, iter := some (D.nextPos k), iterValid := (D.nextPos k).isOn,
        iterErr := none } (D.nextPos k) false := ⟨rfl, rfl, rfl, rfl⟩
    have hc : CacheOK D { st with
        reverse := false, iter := some (D.nextPos k), iterValid := (D.nextPos k).isOn,
        iterErr := none } := hst.2.of_eq rfl rfl rfl
    exact seek_uncovered hwf hp hr hb hc hfk

/-! ### What a positioned adapter exposes -/

theorem fwdAt_valid {D : Dataset} {fk : Nat} {st : DataIter} {x : MVCCKey}
    (h : FwdAt D fk st x) : Valid st = (true, none) := by
  rcases h with h | h
  · unfold Valid
    rw [if_neg (by rw [h.atPoint]; simp), h.base.iterValid, h.base.iterErr]
    rfl
  · obtain ⟨r, -, -, hidx, -, e, hend, hlt, -⟩ := h.covered
    unfold Valid
    rw [if_pos ⟨h.base.iterErr, h.atPoint, by rw [hidx]; omega, by rw [hidx, hend]; omega⟩]

theorem fwdDone_valid {st : DataIter} (h : FwdDone st) : Valid st = (false, none) := by
  unfold Valid
  rw [if_neg (by rw [h.idx, h.endEq]; simp), h.base.iterValid, h.base.iterErr]
  rfl

theorem fwdAt_key {D : Dataset} {fk : Nat} {st : DataIter} {x : MVCCKey}
    (h : FwdAt D fk st x) : UnsafeKey (dataIter D) st = some x := by
  rcases h with h | h
  · unfold UnsafeKey
    rw [if_pos h.atPoint, h.base.iter]
    rfl
  · obtain ⟨r, -, hc, hidx, ⟨v, hv, hvt⟩, e, hend, hlt, -⟩ := h.covered
    unfold UnsafeKey
    rw [if_neg (by rw [h.atPoint]; simp), if_neg (by rw [hidx, hend]; omega), hidx,
      sliceIndex_ofNat, hc.rangeKeys, hv, hc.pos]
    simp only [Option.map, hvt]

theorem find_version {V : MVCCRangeKeyVersions} (hs : versionsSorted V = true) {c : Nat}
    {v : MVCCRangeKeyVersion} (hv : V[c]? = some v) :
    V.find? (fun w => w.Timestamp == v.Timestamp) = some v := by
  induction V generalizing c with
  | nil => simp at hv
  | cons a l ih =>
    obtain ⟨-, h2, h3⟩ := versionsSorted_cons hs
    cases c with
    | zero =>
      simp only [List.getElem?_cons_zero, Option.some.injEq] at hv
      subst hv
      simp [List.find?]
    | succ c =>
      simp only [List.getElem?_cons_succ] at hv
      have hmem := List.getElem?_mem hv
      have hlt := h2 v hmem
      rw [List.find?_cons_of_neg _ (by simp only [beq_iff_eq]; omega)]
      exact ih h3 hv

theorem Dataset.WF.syn_not_point {D : Dataset} (hwf : D.WF) {K : Nat} {r : RangeKV}
    {v : MVCCRangeKeyVersion} (hr : D.rangeAt K = some r) (hv : v ∈ r.versions) :
    D.pointAt ⟨K, v.Timestamp⟩ = none := by
  rw [Dataset.pointAt_eq_none]
  intro p hp ⟨h1, h2⟩
  obtain ⟨hrm, hrs, hre⟩ := Dataset.rangeAt_some hr
  simp only at h1 h2
  exact hwf.ts_ne hp hrm ⟨by omega, by omega⟩ hv h2.symm

theorem fwdAt_value {D : Dataset} (hwf : D.WF) {fk : Nat} {st : DataIter} {x : MVCCKey}
    (h : FwdAt D fk st x) : UnsafeValue (dataIter D) st = some (D.valueOf x) := by
  rcases h with h | h
  · unfold UnsafeValue
    rw [if_pos h.atPoint, h.base.iter]
    simp only [Option.map, dataIter_UnsafeValue_on, Dataset.valueOf]
    obtain ⟨p, hp⟩ := Option.isSome_iff_exists.1 h.point
    rw [hp]
    rfl
  · obtain ⟨r, hr, hc, hidx, ⟨v, hv, hvt⟩, e, hend, hlt, hendok⟩ := h.covered
    have hs := (hwf.range_ok (Dataset.rangeAt_some hr).1).2.2.2
    have hle := D.window_le_length fk r x.Key
    have hmem := List.getElem?_mem hv
    unfold UnsafeValue
    rw [if_neg (by rw [h.atPoint]; simp),
      if_neg (by rw [hidx, hc.rangeKeys]; have := hendok.1; omega), hidx,
      sliceIndex_ofNat, hc.rangeKeys, hv]
    have hx : x = ⟨x.Key, v.Timestamp⟩ := by rw [hvt]
    have hnp : D.pointAt x = none := by rw [hx]; exact hwf.syn_not_point hr hmem
    simp only [Option.map, Dataset.valueOf, hnp, hr]
    rw [← hvt, find_version hs hv]
    rfl

/-! ### Forward scans -/

theorem Dataset.exposed_finite (D : Dataset) (fk : Nat) :
    ∃ L : List MVCCKey, ∀ e, D.isExposed fk e → e ∈ L := by
  refine ⟨D.positions ++ D.ranges.flatMap (fun r => r.versions.flatMap (fun v =>
    (fk :: D.positions.map (fun p => p.Key)).map (fun K => (⟨K, v.Timestamp⟩ : MVCCKey)))), ?_⟩
  intro e he
  rw [List.mem_append]
  rcases he with hp | ⟨r, hr, v, hv, hvt, hsyn⟩
  · exact Or.inl (Dataset.point_mem_positions hp)
  · right
    rw [List.mem_flatMap]
    refine ⟨r, (Dataset.rangeAt_some hr).1, ?_⟩
    rw [List.mem_flatMap]
    refine ⟨v, hv, ?_⟩
    rw [List.mem_map]
    refine ⟨e.Key, ?_, by rw [hvt]⟩
    rw [Dataset.synthAt_iff] at hsyn
    rcases hsyn with h | h | ⟨p, hp, hpk, -, -⟩
    · apply List.mem_cons_of_mem
      rw [List.mem_map]
      exact ⟨⟨r.start, 0⟩, Dataset.start_mem_positions (Dataset.rangeAt_some hr).1, h.symm⟩
    · rw [h]; exact List.mem_cons_self _ _
    · apply List.mem_cons_of_mem
      rw [List.mem_map]
      exact ⟨⟨p.key, p.ts⟩, Dataset.mem_positions.2 (Or.inl ⟨p, hp, rfl⟩), hpk⟩

theorem filter_length_lt {α : Type} {l : List α} {p q : α → Bool}
    (hpq : ∀ a ∈ l, p a = true → q a = true) {y : α} (hy : y ∈ l) (hq : q y = true)
    (hnp : p y = false) : (l.filter p).length < (l.filter q).length := by
  induction l with
  | nil => cases hy
  | cons a l ih =>
    have hmono : (l.filter p).length ≤ (l.filter q).length := by
      clear ih hy
      induction l with
      | nil => simp
      | cons b l ih2 =>
        have hb := hpq b (List.mem_cons_of_mem _ (List.mem_cons_self _ _))
        have ih3 := ih2 (fun c hc => hpq c (by
          rcases List.mem_cons.1 hc with h | h
          · rw [h]; exact List.mem_cons_self _ _
          · exact List.mem_cons_of_mem _ (List.mem_cons_of_mem _ h)))
        simp only [List.filter_cons]
        cases hpb : p b
        · simp only [Bool.false_eq_true, if_false]
          split
          · simp only [List.length_cons]; omega
          · exact ih3
        · rw [hb hpb]
          simp only [if_true, List.length_cons]
          omega
    rcases List.mem_cons.1 hy with h | h
    · subst h
      simp only [List.filter_cons, hq, hnp, if_true, Bool.false_eq_true, if_false,
        List.length_cons]
      omega
    · have ih' := ih (fun c hc => hpq c (List.mem_cons_of_mem _ hc)) h
      have ha := hpq a (List.mem_cons_self _ _)
      simp only [List.filter_cons]
      cases hpa : p a
      · simp only [Bool.false_eq_true, if_false]
        split
        · simp only [List.length_cons]; omega
        · exact ih'
      · rw [ha hpa]
        simp only [if_true, List.length_cons]
        omega

/-- The records of a forward scan from a positioned adapter: in strictly
increasing order, the exposed keys from the current one on, each with its
value. -/
theorem scan_fwdAt {D : Dataset} (hwf : D.WF) {fk : Nat} (L : List MVCCKey)
    (hL : ∀ e, D.isExposed fk e → e ∈ L) :
    ∀ (n : Nat) (st : DataIter) (x : MVCCKey), FwdAt D fk st x →
      (L.filter (fun e => decide (x.Less e))).length + 2 ≤ n →
      ∃ out, scanLoop (dataIter D) (Next (dataIter D)) n st = some out ∧
        (out.map Prod.fst).Pairwise MVCCKey.Less ∧
        ∀ rec, rec ∈ out ↔
          (D.isExposed fk rec.1 ∧ ¬ rec.1.Less x ∧ rec.2 = D.valueOf rec.1) := by
  intro n
  induction n with
  | zero => intro st x _ h; omega
  | succ n ih =>
    intro st x hat hn
    obtain ⟨st', hnext, hland⟩ := fwdAt_next hwf hat
    have hxe := hat.exposed hwf
    unfold scanLoop
    rw [fwdAt_valid hat, fwdAt_key hat, fwdAt_value hwf hat, hnext]
    simp only [if_true]
    rcases hland with ⟨hd, hnone⟩ | ⟨y, hy, hxy, hmin⟩
    · obtain ⟨m, rfl⟩ : ∃ m, n = m + 1 := ⟨n - 1, by omega⟩
      refine ⟨[(x, D.valueOf x)], ?_, ?_, ?_⟩
      · unfold scanLoop
        rw [fwdDone_valid hd]
        simp
      · simp
      · intro rec
        simp only [List.mem_singleton]
        constructor
        · rintro rfl
          exact ⟨hxe, MVCCKey.Less.irrefl x, rfl⟩
        · rintro ⟨h1, h2, h3⟩
          have h4 := hnone rec.1 h1
          rcases MVCCKey.Less.total x rec.1 with h | h | h
          · exact absurd h h4
          · cases rec; simp only at h h3; subst h; subst h3; rfl
          · exact absurd h h2
    · have hlt : (L.filter (fun e => decide (y.Less e))).length <
          (L.filter (fun e => decide (x.Less e))).length := by
        apply filter_length_lt (y := y)
        · intro a _ ha
          simp only [decide_eq_true_eq] at ha ⊢
          exact MVCCKey.Less.trans hxy ha
        · exact hL y (hy.exposed hwf)
        · simp only [decide_eq_true_eq]; exact hxy
        · simp only [decide_eq_false_iff_not]; exact MVCCKey.Less.irrefl y
      obtain ⟨out, hout, hsorted, hmem⟩ := ih st' y hy (by omega)
      refine ⟨(x, D.valueOf x) :: out, ?_, ?_, ?_⟩
      · rw [hout]; rfl
      · simp only [List.map_cons, List.pairwise_cons]
        refine ⟨?_, hsorted⟩
        intro a ha
        rw [List.mem_map] at ha
        obtain ⟨rec, hrec, rfl⟩ := ha
        have h2 := ((hmem rec).1 hrec).2.1
        rcases MVCCKey.Less.total y rec.1 with h | h | h
        · exact MVCCKey.Less.trans hxy h
        · rw [← h]; exact hxy
        · exact absurd h h2
      · intro rec
        simp only [List.mem_cons]
        constructor
        · rintro (rfl | h)
          · exact ⟨hxe, MVCCKey.Less.irrefl x, rfl⟩
          · obtain ⟨h1, h2, h3⟩ := (hmem rec).1 h
            refine ⟨h1, ?_, h3⟩
            intro h4
            exact h2 (MVCCKey.Less.trans h4 hxy)
        · rintro ⟨h1, h2, h3⟩
          rcases MVCCKey.Less.total x rec.1 with h | h | h
          · right
            exact (hmem rec).2 ⟨h1, hmin rec.1 h1 h, h3⟩
          · left
            cases rec; simp only at h h3; subst h; subst h3; rfl
          · exact absurd h h2

/-- A full forward scan from `SeekGE k`: the exposed keys at or after `k`, in
strictly increasing order, each with its value. -/
theorem forwardScan_spec {D : Dataset} (hwf : D.WF) {st : DataIter} (hst : Ready D st)
    (k : MVCCKey) :
    ∃ n out, forwardScan (dataIter D) k n st = some out ∧
      (out.map Prod.fst).Pairwise MVCCKey.Less ∧
      ∀ rec, rec ∈ out ↔
        (D.isExposed (if st.emitOnSeekGE = true then k.Key else 0) rec.1 ∧
          ¬ rec.1.Less k ∧ rec.2 = D.valueOf rec.1) := by
  obtain ⟨st', hseek, hland⟩ := seekGE_lands hwf hst k
  obtain ⟨L, hL⟩ := D.exposed_finite (if st.emitOnSeekGE = true then k.Key else 0)
  rcases hland with ⟨hd, hnone⟩ | ⟨y, hy, hky, hmin⟩
  · refine ⟨1, [], ?_, by simp, ?_⟩
    · unfold forwardScan
      rw [hseek, Option.some_bind]
      unfold scanLoop
      rw [fwdDone_valid hd]
      simp
    · intro rec
      simp only [List.not_mem_nil, false_iff, not_and]
      intro h1 h2
      exact absurd (hnone rec.1 h1) h2
  · obtain ⟨out, hout, hsorted, hmem⟩ := scan_fwdAt hwf L hL _ st' y hy (le_refl _)
    refine ⟨(L.filter (fun e => decide (y.Less e))).length + 2, out, ?_, hsorted, ?_⟩
    · unfold forwardScan
      rw [hseek, Option.some_bind]
      exact hout
    · intro rec
      rw [hmem]
      constructor
      · rintro ⟨h1, h2, h3⟩
        refine ⟨h1, ?_, h3⟩
        intro h4
        rcases MVCCKey.Less.total y rec.1 with h | h | h
        · exact hky (MVCCKey.Less.trans h h4)
        · rw [h] at hky; exact hky h4
        · exact h2 h
      · rintro ⟨h1, h2, h3⟩
        exact ⟨h1, hmin rec.1 h1 h2, h3⟩

theorem Dataset.WF.exposed_iff_reference {D : Dataset} (hwf : D.WF) (rec : MVCCKey × Value) :
    (D.isExposed 0 rec.1 ∧ rec.2 = D.valueOf rec.1) ↔ D.Reference rec := by
  obtain ⟨x, val⟩ := rec
  simp only
  constructor
  · rintro ⟨hexp, hval⟩
    rcases hexp with hp | ⟨r, hr, v, hv, hvt, hsyn⟩
    · left
      obtain ⟨p, hp'⟩ := Option.isSome_iff_exists.1 hp
      obtain ⟨h1, h2, h3⟩ := Dataset.pointAt_some hp'
      refine ⟨p, h1, ?_⟩
      rw [hval]
      simp only [Dataset.valueOf, hp', h2, h3]
    · right
      obtain ⟨hrm, hrs, hre⟩ := Dataset.rangeAt_some hr
      have hs := (hwf.range_ok hrm).2.2.2
      refine ⟨r, hrm, by simp [RangeKV.covers, hrs, hre], v, hv, ?_, ?_⟩
      · have hx : x = ⟨x.Key, v.Timestamp⟩ := by rw [hvt]
        have hnp : D.pointAt x = none := by rw [hx]; exact hwf.syn_not_point hr hv
        obtain ⟨c, hc⟩ := List.getElem?_of_mem hv
        rw [hval]
        simp only [Dataset.valueOf, hnp, hr]
        rw [← hvt, find_version hs hc, ← hx]
        rfl
      · rw [Dataset.synthAt_iff] at hsyn
        rcases hsyn with h | h | h
        · exact Or.inl h
        · exact absurd h (hwf.covered_key_ne hr)
        · exact Or.inr h
  · rintro (⟨p, hp, heq⟩ | ⟨r, hrm, hcov, v, hv, heq, hsyn⟩)
    · have hx : x = ⟨p.key, p.ts⟩ := (Prod.mk.inj heq).1
      have hv : val = p.value := (Prod.mk.inj heq).2
      have hpa := hwf.pointAt_eq hp
      rw [← hx] at hpa
      refine ⟨Or.inl (by rw [hpa]; rfl), ?_⟩
      rw [hv]
      simp only [Dataset.valueOf, hpa]
    · have hx : x = ⟨x.Key, v.Timestamp⟩ := (Prod.mk.inj heq).1
      have hval : val = v.Value := (Prod.mk.inj heq).2
      simp only [RangeKV.covers, Bool.and_eq_true, decide_eq_true_eq] at hcov
      have hr := hwf.rangeAt_eq hrm hcov
      have hs := (hwf.range_ok hrm).2.2.2
      have hvt : v.Timestamp = x.Timestamp := by
        have := congrArg MVCCKey.Timestamp hx
        simp only at this
        exact this.symm
      refine ⟨Or.inr ⟨r, hr, v, hv, hvt, ?_⟩, ?_⟩
      · rw [Dataset.synthAt_iff]
        rcases hsyn with h | h
        · exact Or.inl h
        · exact Or.inr (Or.inr h)
      · have hnp : D.pointAt x = none := by rw [hx]; exact hwf.syn_not_point hr hv
        obtain ⟨c, hc⟩ := List.getElem?_of_mem hv
        rw [hval]
        simp only [Dataset.valueOf, hnp, hr]
        rw [← hvt, find_version hs hc]
        rfl

/-! ### Reverse direction: evaluation -/

theorem Dataset.prevPos_on {D : Dataset} {x q : MVCCKey} (hn : D.prevPos x = DataCursor.onKey q) :
    q ∈ D.positions ∧ q.Less x ∧ ∀ p ∈ D.positions, p.Less x → ¬ q.Less p := by
  rcases D.prevPos_cases x with ⟨hn', _⟩ | ⟨q', hn', h1, h2, h3⟩
  · rw [hn] at hn'; cases hn'
  · have hqq : q' = q := by rw [hn] at hn'; injection hn' with h; exact h.symm
    subst hqq; exact ⟨h1, h2, h3⟩

theorem Dataset.prevPos_before {D : Dataset} {x : MVCCKey}
    (hn : D.prevPos x = DataCursor.before) : ∀ p ∈ D.positions, ¬ p.Less x := by
  rcases D.prevPos_cases x with ⟨_, h⟩ | ⟨q', hn', _⟩
  · exact h
  · rw [hn] at hn'; cases hn'

theorem Dataset.prevPos_ne_after (D : Dataset) (x : MVCCKey) :
    D.prevPos x ≠ DataCursor.after := by
  rcases D.prevPos_cases x with ⟨h, _⟩ | ⟨q', h, _⟩ <;> rw [h] <;> simp

/-- Reverse direction, a point of the cached key: `atPoint` is decided by the
cursor and the timestamps. -/
theorem updateAtPoint_rev {D : Dataset} {st : DataIter} {q : MVCCKey}
    (hi : st.iter = some (DataCursor.onKey q)) (hv : st.iterValid = true)
    (hp : (D.pointAt q).isSome = true) (hr : st.rangeKeys ≠ [])
    (hk : q.Key = st.rangeKeysPos) (hrev : st.reverse = true)
    {m : Nat} (hm : st.rangeKeysIdx = (m : Int) - 1)
    (hin : 0 < m → m - 1 < st.rangeKeys.length) :
    updateAtPoint (dataIter D) st = some { st with
      atPoint := decide (m = 0 ∨ (q.Timestamp ≠ 0 ∧
        ∃ v, st.rangeKeys[m - 1]? = some v ∧ q.Timestamp ≤ v.Timestamp)) } := by
  have hl : st.rangeKeys.length ≠ 0 := fun h0 => hr (List.length_eq_zero.1 h0)
  simp only [updateAtPoint, hi, hv, dataIter_HasPointAndRange_on, dataIter_UnsafeKey_on,
    roachpb.Key.Equal, hp, hl, hk, hrev, hm, hlc.Timestamp.IsSet, hlc.Timestamp.LessEq]
  simp only [Bool.not_true, Bool.false_eq_true, ↓reduceIte, beq_self_eq_true, Bool.not_false]
  by_cases h0 : m = 0
  · subst h0
    simp
  · have hpos : 0 < m := by omega
    have hjl := hin hpos
    have hidx : (m : Int) - 1 = ((m - 1 : Nat) : Int) := by omega
    rw [if_neg (by omega), hidx, sliceIndex_ofNat, List.getElem?_eq_getElem hjl]
    by_cases ht : q.Timestamp = 0
    · simp [ht, h0]
    · simp [ht, h0]

/-! ### Reverse direction: the middle of a step -/

theorem RevEndOK.mono {D : Dataset} {fk : Nat} {r : RangeKV} {K : Nat} {x x' : MVCCKey}
    {e : Nat} (h : RevEndOK D fk r K x e) (hx : ¬ x.Less x') : RevEndOK D fk r K x' e := by
  rcases h with h | ⟨h1, h2, q, hq, hqk, hqx, hle⟩
  · exact Or.inl h
  · refine Or.inr ⟨h1, h2, q, hq, hqk, ?_, hle⟩
    intro hlt
    rcases MVCCKey.Less.total x' x with h3 | h3 | h3
    · exact hqx (MVCCKey.Less.trans hlt h3)
    · rw [h3] at hlt; exact hqx hlt
    · exact hx h3

theorem RevMid.sorted_rev {D : Dataset} {fk : Nat} (hwf : D.WF) {st : DataIter} {K : Nat}
    {x : MVCCKey} {r : RangeKV} {e : Nat} (h : RevMid D fk st K x r e) :
    versionsSorted r.versions = true :=
  (hwf.range_ok (Dataset.rangeAt_some h.range).1).2.2.2

theorem RevMid.e_le_rev {D : Dataset} {fk : Nat} {st : DataIter} {K : Nat}
    {x : MVCCKey} {r : RangeKV} {e : Nat} (h : RevMid D fk st K x r e) :
    e ≤ r.versions.length :=
  Nat.le_trans h.end_le (D.window_le_length fk r K)

theorem newerPt_lt_iff {V : MVCCRangeKeyVersions} (hs : versionsSorted V = true) (t : Nat)
    {j : Nat} {v : MVCCRangeKeyVersion} (hv : V[j]? = some v) :
    j < newerPt V t ↔ (t ≠ 0 ∧ t < v.Timestamp) := by
  unfold newerPt
  split
  · omega
  · rw [newer_lt_iff hs t hv]; omega

/-- An exposed synthesized key before `x` at the cached key is still to come. -/
theorem RevMid.exposed_lt_rem {D : Dataset} {fk : Nat} (hwf : D.WF) {st : DataIter} {K : Nat}
    {x : MVCCKey} {r : RangeKV} {e : Nat} (h : RevMid D fk st K x r e)
    {z : MVCCKey} (hz : D.isExposed fk z) (hzx : z.Less x) (hzK : z.Key = K)
    {j : Nat} {w : MVCCRangeKeyVersion} (hw : r.versions[j]? = some w)
    (hwt : w.Timestamp = z.Timestamp) : j < remaining r.versions K x e := by
  have hs := h.sorted_rev hwf
  have hwne := versionsSorted_ne_zero hs w (List.getElem?_mem hw)
  unfold remaining
  split
  · rename_i hxk
    rw [newerPt_lt_iff hs _ hw]
    unfold MVCCKey.Less at hzx; omega
  · rename_i hxk
    have hlt : K < x.Key := by have := h.key_ge; omega
    rw [(h.gapPos hlt).1, Dataset.window_lt_iff hs hw]
    rcases hz with hp | ⟨r', hr', v, hv, hvt, hsyn⟩
    · exfalso
      obtain ⟨p, hp'⟩ := Option.isSome_iff_exists.1 hp
      obtain ⟨h1, h2, h3⟩ := Dataset.pointAt_some hp'
      have hrm := Dataset.rangeAt_some h.range
      exact hwf.ts_ne h1 hrm.1 ⟨by omega, by omega⟩ (List.getElem?_mem hw) (by omega)
    · rw [hzK, h.range] at hr'
      injection hr' with hr'
      subst hr'
      obtain ⟨c, hc⟩ := List.getElem?_of_mem hv
      have h1 := newer_self hs hc
      have h2 := newer_self hs hw
      have hcj : c = j := by rw [← h1, ← h2, hvt, hwt]
      subst hcj
      rw [hw] at hc
      injection hc with hc
      subst hc
      rw [hzK] at hsyn
      exact hsyn

/-- A version still to come lies before `x`. -/
theorem RevMid.rem_less {D : Dataset} {fk : Nat} (hwf : D.WF) {st : DataIter} {K : Nat}
    {x : MVCCKey} {r : RangeKV} {e : Nat} (h : RevMid D fk st K x r e)
    {j : Nat} {w : MVCCRangeKeyVersion} (hw : r.versions[j]? = some w)
    (hj : j < remaining r.versions K x e) : MVCCKey.Less ⟨K, w.Timestamp⟩ x := by
  have hs := h.sorted_rev hwf
  have hwne := versionsSorted_ne_zero hs w (List.getElem?_mem hw)
  unfold remaining at hj
  split at hj
  · rename_i hxk
    rw [newerPt_lt_iff hs _ hw] at hj
    rw [MVCCKey.less_mk_left]; omega
  · rename_i hxk
    have := h.key_ge
    rw [MVCCKey.less_mk_left]; omega

theorem revMid_syn {D : Dataset} {fk : Nat} (hwf : D.WF) {st : DataIter} {K : Nat}
    {x : MVCCKey} {r : RangeKV} {e : Nat} (h : RevMid D fk st K x r e)
    (hm : 0 < remaining r.versions K x e)
    (hpos : ∀ q v, D.prevPos x = DataCursor.onKey q →
      r.versions[remaining r.versions K x e - 1]? = some v → q.Less ⟨K, v.Timestamp⟩) :
    LandsBefore D fk { st with atPoint := false } x := by
  have hs := h.sorted_rev hwf
  have hel := h.e_le_rev
  have hrl := h.rem_le
  have hlen : remaining r.versions K x e - 1 < r.versions.length := by omega
  obtain ⟨v, hv⟩ : ∃ v, r.versions[remaining r.versions K x e - 1]? = some v :=
    ⟨_, List.getElem?_eq_getElem hlen⟩
  have hnew : newer r.versions v.Timestamp = remaining r.versions K x e - 1 := newer_self hs hv
  have hyx : MVCCKey.Less ⟨K, v.Timestamp⟩ x := h.rem_less hwf hv (by omega)
  have hprev : D.prevPos ⟨K, v.Timestamp⟩ = D.prevPos x := by
    rcases D.prevPos_cases x with ⟨hn, hnone⟩ | ⟨q, hn, hq, hqx, hmax⟩
    · rw [hn]
      apply Dataset.prevPos_eq_before
      intro p hp hpy
      exact hnone p hp (MVCCKey.Less.trans hpy hyx)
    · rw [hn]
      apply Dataset.prevPos_eq_on hq (hpos q v hn hv)
      intro p hp hpy
      exact hmax p hp (MVCCKey.Less.trans hpy hyx)
  right
  refine ⟨⟨K, v.Timestamp⟩, Or.inr ?_, hyx, ?_⟩
  · refine ⟨?_, rfl, ?_, r, h.range, ⟨h.cache.rangeKeys, h.cache.pos, h.cache.start⟩, ?_,
      ⟨v, ?_, rfl⟩, e, h.endEq, ?_, h.end_le, h.endOK.mono (MVCCKey.Less.asymm hyx)⟩
    swap
    · have h1 := h.fk_ge
      have h2 := h.key_ge
      show fk = 0 ∨ K ≤ fk
      omega
    · rw [hprev]
      exact ⟨h.base.iter, h.base.reverse, h.base.iterErr, h.base.iterValid⟩
    · simp only [hnew]
      have := h.idx
      simp only at this ⊢
      rw [this]; omega
    · simp only [hnew]; exact hv
    · simp only [hnew]; omega
  · intro z hz hzx hyz
    have hzk : z.Key = K := by
      have := h.gapExp z hz hzx
      unfold MVCCKey.Less at hyz; simp only at hyz; omega
    rcases Dataset.isExposed_cases hz with hp | ⟨r', hr', j, w, hw, hwt, -⟩
    · have hzp := Dataset.point_mem_positions hp
      rcases D.prevPos_cases x with ⟨hn, hnone⟩ | ⟨q, hn, hq, hqx, hmax⟩
      · exact hnone z hzp hzx
      · exact hmax z hzp hzx (MVCCKey.Less.trans (hpos q v hn hv) hyz)
    · rw [hzk, h.range] at hr'
      injection hr' with hr'
      subst hr'
      have hj := h.exposed_lt_rem hwf hz hzx hzk hw hwt
      have hwne := versionsSorted_ne_zero hs w (List.getElem?_mem hw)
      have hvne := versionsSorted_ne_zero hs v (List.getElem?_mem hv)
      have hlt : w.Timestamp < v.Timestamp := by
        rw [MVCCKey.less_mk_left] at hyz; omega
      have h1 : remaining r.versions K x e - 1 < newer r.versions w.Timestamp := by
        rw [newer_lt_iff hs _ hv]; exact hlt
      rw [newer_self hs hw] at h1
      omega

theorem revMid_real {D : Dataset} {fk : Nat} (hwf : D.WF) {st : DataIter} {K : Nat}
    {x : MVCCKey} {r : RangeKV} {e : Nat} (h : RevMid D fk st K x r e) {q : MVCCKey}
    (hn : D.prevPos x = DataCursor.onKey q) (hp : (D.pointAt q).isSome = true)
    (hk : q.Key = K)
    (hdec : remaining r.versions K x e = 0 ∨ (q.Timestamp ≠ 0 ∧
      ∃ v, r.versions[remaining r.versions K x e - 1]? = some v ∧
        q.Timestamp ≤ v.Timestamp)) :
    LandsBefore D fk { st with atPoint := true } x := by
  have hs := h.sorted_rev hwf
  have hel := h.e_le_rev
  have hrl := h.rem_le
  obtain ⟨hq, hqx, hmax⟩ := Dataset.prevPos_on hn
  have hrq : D.rangeAt q.Key = some r := by rw [hk]; exact h.range
  have hwin := Dataset.newerPt_le_window (D := D) (f := fk) hs hp
  rw [hk] at hwin
  have hle1 : newerPt r.versions q.Timestamp ≤ remaining r.versions K x e := by
    apply count_le (newerPt_le_length _ _)
    intro j w hw hj
    have hj' := hj
    rw [newerPt_lt_iff hs _ hw] at hj
    have hexp : D.isExposed fk ⟨K, w.Timestamp⟩ :=
      Dataset.isExposed_syn hs h.range hw (by omega)
    have hless : MVCCKey.Less ⟨K, w.Timestamp⟩ x := by
      apply MVCCKey.Less.trans _ hqx
      rw [MVCCKey.less_mk_left]; omega
    exact h.exposed_lt_rem hwf hexp hless rfl hw rfl
  have hle2 : remaining r.versions K x e ≤ newerPt r.versions q.Timestamp := by
    rcases hdec with hd | ⟨hqt, v, hv, hqv⟩
    · omega
    · by_cases h0 : remaining r.versions K x e = 0
      · omega
      · have hne : v.Timestamp ≠ q.Timestamp := by
          obtain ⟨p, hp'⟩ := Option.isSome_iff_exists.1 hp
          obtain ⟨h1, h2, h3⟩ := Dataset.pointAt_some hp'
          have hrm := Dataset.rangeAt_some hrq
          have := hwf.ts_ne h1 hrm.1 ⟨by omega, by omega⟩ (List.getElem?_mem hv)
          omega
        have : remaining r.versions K x e - 1 < newerPt r.versions q.Timestamp := by
          rw [newerPt_lt_iff hs _ hv]; omega
        omega
  have hidx : newerPt r.versions q.Timestamp = remaining r.versions K x e := by omega
  right
  refine ⟨q, Or.inl ?_, hqx, ?_⟩
  · refine ⟨?_, hp, rfl, ?_, ?_, ?_⟩
    · have := h.base
      rw [hn] at this
      exact ⟨this.iter, this.reverse, this.iterErr, this.iterValid⟩
    · have h1 := h.fk_ge
      have h2 := h.key_ge
      omega
    · intro hnone; rw [hrq] at hnone; cases hnone
    · intro r' hr'
      rw [hrq] at hr'
      injection hr' with hr'
      subst hr'
      refine ⟨⟨h.cache.rangeKeys, ?_, h.cache.start⟩, ?_, e, h.endEq, by omega, ?_, ?_⟩
      · rw [hk]; exact h.cache.pos
      · rw [hidx]; exact h.idx
      · rw [hk]; exact h.end_le
      · rw [hk]; exact h.endOK.mono (MVCCKey.Less.asymm hqx)
  · intro z hz hzx hqz
    have hzk : z.Key = K := by
      have := h.gapExp z hz hzx
      unfold MVCCKey.Less at hqz; omega
    rcases Dataset.isExposed_cases hz with hp' | ⟨r', hr', j, w, hw, hwt, -⟩
    · exact hmax z (Dataset.point_mem_positions hp') hzx hqz
    · rw [hzk, h.range] at hr'
      injection hr' with hr'
      subst hr'
      have hj := h.exposed_lt_rem hwf hz hzx hzk hw hwt
      rw [← hidx, newerPt_lt_iff hs _ hw] at hj
      unfold MVCCKey.Less at hqz; omega

theorem revMid_stuck {D : Dataset} {fk : Nat} (hwf : D.WF) {st : DataIter} {K : Nat}
    {x : MVCCKey} {r : RangeKV} {e : Nat} (h : RevMid D fk st K x r e)
    (hm : remaining r.versions K x e = 0)
    (hpos : ∀ q, D.prevPos x = DataCursor.onKey q → (D.pointAt q).isSome = true → q.Key < K) :
    x.Key = K ∧ RevStuck D fk { st with atPoint := false } x := by
  have hs := h.sorted_rev hwf
  have hrm := Dataset.rangeAt_some h.range
  have hne := (hwf.range_ok hrm.1).2.2.1
  have hxk : x.Key = K := by
    by_contra hc
    have hlt : K < x.Key := by have := h.key_ge; omega
    obtain ⟨hew, q, hq, hqk⟩ := h.gapPos hlt
    have hme : remaining r.versions K x e = e := by
      unfold remaining; rw [if_neg hc]
    obtain ⟨hqp, -, -⟩ := Dataset.prevPos_on hq
    cases hp : (D.pointAt q).isSome with
    | true => have := hpos q hq hp; omega
    | false =>
      have hb := hwf.bare_position hqp hp (by rw [hqk]; exact h.range)
      have hst : K = r.start := by rw [← hqk, hb]
      have := Dataset.window_full (D := D) (f := fk) (K := K) hs (Or.inl hst)
      have : r.versions.length ≠ 0 := fun h0 => hne (List.length_eq_zero.1 h0)
      omega
  have hgap : ∀ y, D.isExposed fk y → y.Less x → y.Key < K := by
    intro y hy hyx
    have hle := h.gapExp y hy hyx
    by_contra hc
    have hyk : y.Key = K := by omega
    rcases Dataset.isExposed_cases hy with hp | ⟨r', hr', j, w, hw, hwt, -⟩
    · have hyp := Dataset.point_mem_positions hp
      rcases D.prevPos_cases x with ⟨hn, hnone⟩ | ⟨q, hn, hq, hqx, hmax⟩
      · exact hnone y hyp hyx
      · have h2 := hmax y hyp hyx
        cases hpq : (D.pointAt q).isSome with
        | true =>
          have h1 := hpos q hn hpq
          unfold MVCCKey.Less at h2; omega
        | false =>
          have hqK : q.Key = K := by
            unfold MVCCKey.Less at h2 hqx; omega
          have hb := hwf.bare_position hq hpq (by rw [hqK]; exact h.range)
          have hqt : q.Timestamp = 0 := by rw [hb]
          have hyq : y = q := by
            rcases MVCCKey.Less.total y q with h3 | h3 | h3
            · unfold MVCCKey.Less at h3; omega
            · exact h3
            · exact absurd h3 h2
          rw [hyq, hpq] at hp
          cases hp
    · rw [hyk, h.range] at hr'
      injection hr' with hr'
      subst hr'
      have := h.exposed_lt_rem hwf hy hyx hyk hw hwt
      omega
  refine ⟨hxk, ⟨h.base.iter, h.base.reverse, h.base.iterErr, h.base.iterValid⟩, ?_, ?_, ?_,
    h.fk_ge⟩
  · exact Or.inr ⟨r, hrm.1, h.cache.rangeKeys, h.cache.start⟩
  · intro q _ _
    have : st.rangeKeysPos = K := h.cache.pos
    simp only
    rw [this, hxk]
  · intro y hy hyx hyk
    have := hgap y hy hyx
    omega

/-- `updateAtPoint` in the middle of a reverse step: either the state lands on
the last exposed key before `x`, or nothing is left at the key and the
iterator has left its points. -/
theorem revMid_decide {D : Dataset} {fk : Nat} (hwf : D.WF) {st : DataIter} {K : Nat}
    {x : MVCCKey} {r : RangeKV} {e : Nat} (h : RevMid D fk st K x r e) :
    ∃ b : Bool, updateAtPoint (dataIter D) st = some { st with atPoint := b } ∧
      ((LandsBefore D fk { st with atPoint := b } x ∧
          ((b = true ∧ ∃ q, D.prevPos x = DataCursor.onKey q ∧ q.Key = K) ∨
            (b = false ∧ 0 < remaining r.versions K x e))) ∨
       (b = false ∧ remaining r.versions K x e = 0 ∧ x.Key = K ∧
          RevStuck D fk { st with atPoint := false } x)) := by
  have hs := h.sorted_rev hwf
  have hel := h.e_le_rev
  have hrl := h.rem_le
  have hr := Dataset.rangeAt_some h.range
  have hrk : st.rangeKeys ≠ [] := by
    rw [h.cache.rangeKeys]; exact (hwf.range_ok hr.1).2.2.1
  -- the outcome when the iterator is not on a point of the cached key
  have other : (∀ q, D.prevPos x = DataCursor.onKey q → (D.pointAt q).isSome = true →
        q.Key < K) →
      ((LandsBefore D fk { st with atPoint := false } x ∧
          ((false = true ∧ ∃ q, D.prevPos x = DataCursor.onKey q ∧ q.Key = K) ∨
            (false = false ∧ 0 < remaining r.versions K x e))) ∨
       (false = false ∧ remaining r.versions K x e = 0 ∧ x.Key = K ∧
          RevStuck D fk { st with atPoint := false } x)) := by
    intro hpos
    by_cases hm : 0 < remaining r.versions K x e
    · left
      refine ⟨revMid_syn hwf h hm ?_, Or.inr ⟨rfl, hm⟩⟩
      intro q v hq _
      obtain ⟨hqp, hqx, -⟩ := Dataset.prevPos_on hq
      have hqK : q.Key ≤ K := by
        by_cases hxk : K < x.Key
        · obtain ⟨-, q', hq', hqk⟩ := h.gapPos hxk
          have hqq : q = q' := by rw [hq] at hq'; injection hq'
          subst hqq; omega
        · have := h.key_ge
          unfold MVCCKey.Less at hqx; omega
      have hvne := versionsSorted_ne_zero hs v (List.getElem?_mem (by assumption))
      cases hp : (D.pointAt q).isSome with
      | true =>
        have := hpos q hq hp
        rw [MVCCKey.less_mk_right]; omega
      | false =>
        by_cases hqk : q.Key = K
        · have hb := hwf.bare_position hqp hp (by rw [hqk]; exact h.range)
          have hqt : q.Timestamp = 0 := by rw [hb]
          rw [MVCCKey.less_mk_right]; omega
        · rw [MVCCKey.less_mk_right]; omega
    · right
      obtain ⟨h1, h2⟩ := revMid_stuck hwf h (by omega) hpos
      exact ⟨rfl, by omega, h1, h2⟩
  rcases D.prevPos_cases x with ⟨hn, hnone⟩ | ⟨q, hn, hq, hqx, hmax⟩
  · -- the iterator is exhausted
    have hv : st.iterValid = false := by rw [h.base.iterValid, hn]; rfl
    refine ⟨false, updateAtPoint_invalid hv, other ?_⟩
    intro q hq; rw [hn] at hq; cases hq
  · have hi : st.iter = some (DataCursor.onKey q) := by rw [h.base.iter, hn]
    have hv : st.iterValid = true := by rw [h.base.iterValid, hn]; rfl
    have hqK : q.Key ≤ K := by
      by_cases hxk : K < x.Key
      · obtain ⟨-, q', hq', hqk⟩ := h.gapPos hxk
        have hqq : q = q' := by rw [hn] at hq'; injection hq'
        subst hqq; omega
      · have := h.key_ge
        unfold MVCCKey.Less at hqx; omega
    by_cases hp : (D.pointAt q).isSome = true
    · by_cases hk : q.Key = K
      · -- a point of the cached key
        have hk' : q.Key = st.rangeKeysPos := by rw [h.cache.pos]; exact hk
        have hin : 0 < remaining r.versions K x e →
            remaining r.versions K x e - 1 < st.rangeKeys.length := by
          intro _
          rw [h.cache.rangeKeys]; omega
        refine ⟨_, updateAtPoint_rev hi hv hp hrk hk' h.base.reverse h.idx hin, ?_⟩
        by_cases hdec : (remaining r.versions K x e = 0 ∨ (q.Timestamp ≠ 0 ∧
            ∃ v, st.rangeKeys[remaining r.versions K x e - 1]? = some v ∧
              q.Timestamp ≤ v.Timestamp))
        · left
          simp only [hdec, decide_True, true_and]
          refine ⟨?_, Or.inl ⟨q, hn, hk⟩⟩
          apply revMid_real hwf h hn hp hk
          rw [h.cache.rangeKeys] at hdec
          exact hdec
        · left
          simp only [hdec, decide_False]
          rw [h.cache.rangeKeys] at hdec
          have hm : 0 < remaining r.versions K x e := by
            by_contra hc; exact hdec (Or.inl (by omega))
          refine ⟨revMid_syn hwf h hm ?_, Or.inr ⟨trivial, hm⟩⟩
          intro q' v hq' hv'
          have hqq : q = q' := by rw [hn] at hq'; injection hq'
          subst hqq
          have hvne := versionsSorted_ne_zero hs v (List.getElem?_mem hv')
          have h2 : ¬ (q.Timestamp ≠ 0 ∧ q.Timestamp ≤ v.Timestamp) :=
            fun h0 => hdec (Or.inr ⟨h0.1, v, hv', h0.2⟩)
          rw [MVCCKey.less_mk_right]; omega
      · have hk' : q.Key ≠ st.rangeKeysPos := by rw [h.cache.pos]; exact hk
        refine ⟨false, updateAtPoint_otherKey hi hrk hk', other ?_⟩
        intro q' hq' _
        have hqq : q = q' := by rw [hn] at hq'; injection hq'
        subst hqq; omega
    · -- a bare range position
      have hp' : (D.pointAt q).isSome = false := by simpa using hp
      refine ⟨false, updateAtPoint_noPoint hi hp', other ?_⟩
      intro q' hq' hpq
      have hqq : q = q' := by rw [hn] at hq'; injection hq'
      subst hqq
      rw [hpq] at hp'; cases hp'

/-! ### Reverse direction: `updatePosition` -/

theorem updatePosition_rev_stay {D : Dataset} {st : DataIter} {q : MVCCKey} {r : RangeKV}
    (hi : st.iter = some (DataCursor.onKey q)) (hv : st.iterValid = true)
    (hr : D.rangeAt q.Key = some r) (hrev : st.reverse = true)
    (hns : (D.pointAt q).isSome = true ∨ q.Key ≠ st.rangeKeysPos) :
    updatePosition (dataIter D) st =
      (updateRangeKeys (dataIter D) st).bind (updateAtPoint (dataIter D)) := by
  simp only [updatePosition, hi, hv, dataIter_HasPointAndRange_on, hr, Option.isSome_some,
    hrev, dataIter_UnsafeKey_on, roachpb.Key.Equal, Bool.not_true, Bool.false_eq_true,
    if_false, Bool.true_and]
  rw [if_neg]
  · simp only
    cases updateRangeKeys (dataIter D) st <;> rfl
  · rcases hns with h | h
    · simp [h]
    · simp [h]

theorem updatePosition_rev_skip {D : Dataset} {st : DataIter} {q : MVCCKey} {r : RangeKV}
    (hi : st.iter = some (DataCursor.onKey q)) (hv : st.iterValid = true)
    (hr : D.rangeAt q.Key = some r) (hrev : st.reverse = true)
    (hp : (D.pointAt q).isSome = false) (hk : q.Key = st.rangeKeysPos) :
    updatePosition (dataIter D) st =
      (updateRangeKeys (dataIter D) { st with
        iter := some (D.prevPos q), iterValid := (D.prevPos q).isOn, iterErr := none }).bind
        (updateAtPoint (dataIter D)) := by
  cases st
  simp only at hi hv hrev hk
  subst hi hv hrev hk
  simp only [updatePosition, dataIter_HasPointAndRange_on, hr, Option.isSome_some,
    dataIter_UnsafeKey_on, roachpb.Key.Equal, Bool.not_true, Bool.false_eq_true,
    if_false, Bool.true_and, hp, Bool.not_false, beq_self_eq_true, if_true]
  rw [iterPrev_on rfl]
  simp only [ne_eq, not_true_eq_false, decide_False]
  cases updateRangeKeys (dataIter D) _ <;> rfl

/-- In the reverse direction without a skip, `updatePosition` is
`updateRangeKeys` followed by `updateAtPoint`. -/
theorem updatePosition_rev_eq {D : Dataset} (hwf : D.WF) {st : DataIter} {c : DataCursor}
    (hb : Coupled st c true) (hc : CacheOK D st)
    (hns : ∀ q, c = DataCursor.onKey q → (D.pointAt q).isSome = false →
      q.Key ≠ st.rangeKeysPos) :
    updatePosition (dataIter D) st =
      (updateRangeKeys (dataIter D) st).bind (updateAtPoint (dataIter D)) := by
  have hclear := hc.clear hwf
  cases c with
  | onKey q =>
    have hv : st.iterValid = true := by rw [hb.iterValid]; rfl
    cases hr : D.rangeAt q.Key with
    | none =>
      rw [updatePosition_noRange hb.iter hv hr,
        updateRangeKeys_clear hb.iter (by rw [hv]; rfl)
          (by intro q' hq'; injection hq' with hq'; subst hq'; exact hr),
        Option.some_bind, clearRangeKeys_eval ?_, clearRangeKeys_eval ?_]
      · cases hp : (D.pointAt q).isSome with
        | true =>
          rw [updateAtPoint_noRange (q := q) ?_ ?_ hp ?_]
          · exact hb.iter
          · exact hv
          · rfl
        | false =>
          rw [updateAtPoint_noPoint (q := q) ?_ hp]
          exact hb.iter
      · exact hclear
      · exact hclear
    | some r =>
      apply updatePosition_rev_stay hb.iter hv hr hb.reverse
      cases hp : (D.pointAt q).isSome with
      | true => exact Or.inl rfl
      | false => exact Or.inr (hns q rfl hp)
  | before =>
    have hv : st.iterValid = false := by rw [hb.iterValid]; rfl
    rw [updatePosition_invalid hv,
      updateRangeKeys_clear hb.iter (by rw [hv]; rfl) (by intro q' hq'; cases hq'),
      Option.some_bind, clearRangeKeys_eval ?_, clearRangeKeys_eval ?_]
    · rw [updateAtPoint_invalid ?_]
      exact hv
    · exact hclear
    · exact hclear
  | after =>
    have hv : st.iterValid = false := by rw [hb.iterValid]; rfl
    rw [updatePosition_invalid hv,
      updateRangeKeys_clear hb.iter (by rw [hv]; rfl) (by intro q' hq'; cases hq'),
      Option.some_bind, clearRangeKeys_eval ?_, clearRangeKeys_eval ?_]
    · rw [updateAtPoint_invalid ?_]
      exact hv
    · exact hclear
    · exact hclear

/-! ### Reverse direction: arrivals -/

theorem Dataset.WF.exposed_key_ne {D : Dataset} {fk : Nat} (hwf : D.WF) {z : MVCCKey}
    (hz : D.isExposed fk z) : z.Key ≠ 0 := by
  rcases hz with hp | ⟨r, hr, -⟩
  · exact hwf.point_ne_zero hp
  · exact hwf.covered_key_ne hr

theorem revDone_cleared {D : Dataset} (hwf : D.WF) {st : DataIter}
    (hb : Coupled st DataCursor.before true) (hc : CacheOK D st) :
    RevDone (clearRangeKeys { st with atPoint := false }) := by
  rw [clearRangeKeys_eval ?_]
  · refine ⟨⟨hb.iter, hb.reverse, hb.iterErr, hb.iterValid⟩, rfl, ⟨rfl, rfl, rfl⟩, ?_, rfl⟩
    simp [hb.reverse]
  · exact hc.clear hwf

theorem revReal_cleared {D : Dataset} {fk : Nat} (hwf : D.WF) {st : DataIter} {q : MVCCKey}
    (hb : Coupled st (DataCursor.onKey q) true) (hc : CacheOK D st)
    (hp : (D.pointAt q).isSome = true) (hr : D.rangeAt q.Key = none)
    (hfk : fk = 0 ∨ q.Key ≤ fk) :
    RevReal D fk (clearRangeKeys { st with atPoint := true }) q := by
  rw [clearRangeKeys_eval ?_]
  · refine ⟨⟨hb.iter, hb.reverse, hb.iterErr, hb.iterValid⟩, hp, rfl, hfk, ?_, ?_⟩
    · intro _
      exact ⟨⟨rfl, rfl, rfl⟩, by simp [hb.reverse], rfl⟩
    · intro r' hr'; rw [hr] at hr'; cases hr'
  · exact hc.clear hwf

/-- The window at the last position of a key, as `updateRangeKeys` computes it
in the reverse direction. -/
theorem Dataset.WF.window_last {D : Dataset} {fk : Nat} (hwf : D.WF) {q : MVCCKey} {r : RangeKV}
    (hq : q ∈ D.positions) (hr : D.rangeAt q.Key = some r)
    (hlast : ∀ p ∈ D.positions, p.Key = q.Key → ¬ q.Less p) (hfk : q.Key ≠ fk) :
    D.window fk r q.Key = (if q.Key = r.start then r.versions.length
      else if (D.pointAt q).isSome = true ∧ q.Timestamp ≠ 0
        then newerEq r.versions q.Timestamp else 0) := by
  have hs := (hwf.range_ok (Dataset.rangeAt_some hr).1).2.2.2
  by_cases hst : q.Key = r.start
  · rw [if_pos hst]
    exact Dataset.window_full hs (Or.inl hst)
  · rw [if_neg hst]
    have hp : (D.pointAt q).isSome = true := by
      cases h : (D.pointAt q).isSome
      · have := hwf.bare_position hq h hr
        rw [this] at hst
        exact absurd rfl hst
      · rfl
    have h1 := hwf.window_le_last (f := fk) hr hst hfk hlast
    have h2 := Dataset.newerPt_le_window (D := D) (f := fk) hs hp
    by_cases ht : q.Timestamp = 0
    · rw [if_neg (by omega)]
      unfold newerPt at h1; rw [if_pos ht] at h1
      omega
    · rw [if_pos ⟨hp, ht⟩, hwf.newerEq_point hp hr]
      unfold newerPt at h1 h2; rw [if_neg ht] at h1 h2
      omega

/-- Arrival at the last position before `x` in the reverse direction:
`updateRangeKeys` and `updateAtPoint` land on the last exposed key before `x`. -/
theorem rev_arrive {D : Dataset} {fk : Nat} (hwf : D.WF) {s : DataIter} {x : MVCCKey}
    (hb : Coupled s (D.prevPos x) true) (hc : CacheOK D s)
    (hbare : ∀ q, D.prevPos x = DataCursor.onKey q → (D.pointAt q).isSome = false →
      q.Key < x.Key)
    (hsame : ∀ y, D.isExposed fk y → y.Less x → y.Key = x.Key →
      (D.pointAt y).isSome = true ∧ D.rangeAt x.Key = none)
    (hfk : fk = 0 ∨ x.Key ≤ fk) :
    ∃ s', (updateRangeKeys (dataIter D) s).bind (updateAtPoint (dataIter D)) = some s' ∧
      LandsBefore D fk s' x := by
  have hclear := hc.clear hwf
  -- the keys below the key of `x` are not the `emitOnSeekGE` key
  have hne : ∀ K : Nat, K ≠ 0 → K < x.Key → K ≠ fk := by
    intro K h0 hlt; omega
  -- an exposed key before `x` has a position before `x`
  have hposn : ∀ y, D.isExposed fk y → y.Less x → ∃ p ∈ D.positions, p.Key = y.Key ∧ p.Less x := by
    intro y hy hyx
    by_cases hk : y.Key = x.Key
    · exact ⟨y, Dataset.point_mem_positions (hsame y hy hyx hk).1, rfl, hyx⟩
    · obtain ⟨p, hp, hpk⟩ := hwf.exposed_position hy
        (hne y.Key (hwf.exposed_key_ne hy) (by unfold MVCCKey.Less at hyx; omega))
      refine ⟨p, hp, hpk, ?_⟩
      unfold MVCCKey.Less at hyx ⊢; omega
  rcases D.prevPos_cases x with ⟨hn, hnone⟩ | ⟨q, hn, hq, hqx, hmax⟩
  · rw [hn] at hb
    have hv : s.iterValid = false := by rw [hb.iterValid]; rfl
    rw [updateRangeKeys_clear hb.iter (by rw [hv]; rfl) (by intro q' hq'; cases hq'),
      Option.some_bind, clearRangeKeys_eval hclear, updateAtPoint_invalid ?_]
    swap
    · exact hv
    refine ⟨_, rfl, Or.inl ⟨?_, ?_⟩⟩
    · have := revDone_cleared hwf hb hc
      rw [clearRangeKeys_eval ?_] at this
      · exact this
      · exact hclear
    · intro y hy hyx
      obtain ⟨p, hp, -, hpx⟩ := hposn y hy hyx
      exact hnone p hp hpx
  · rw [hn] at hb
    have hv : s.iterValid = true := by rw [hb.iterValid]; rfl
    cases hr : D.rangeAt q.Key with
    | none =>
      have hp := hwf.position_point_or_range hq hr
      rw [updateRangeKeys_clear hb.iter (by rw [hv]; rfl)
          (by intro q' hq'; injection hq' with hq'; subst hq'; exact hr),
        Option.some_bind, clearRangeKeys_eval hclear, updateAtPoint_noRange (q := q) ?_ ?_ hp ?_]
      · refine ⟨_, rfl, Or.inr ⟨q, Or.inl ?_, hqx, ?_⟩⟩
        · have := revReal_cleared hwf hb hc hp hr
            (show fk = 0 ∨ q.Key ≤ fk by unfold MVCCKey.Less at hqx; omega)
          rw [clearRangeKeys_eval ?_] at this
          · exact this
          · exact hclear
        · intro z hz hzx hqz
          rcases Dataset.isExposed_cases hz with hpz | ⟨r', hr', -⟩
          · exact hmax z (Dataset.point_mem_positions hpz) hzx hqz
          · obtain ⟨p, hp', hpk, hpx⟩ := hposn z hz hzx
            have hne : z.Key ≠ q.Key := by
              intro h; rw [h, hr] at hr'; cases hr'
            have := hmax p hp' hpx
            unfold MVCCKey.Less at this hqz; omega
      · exact hb.iter
      · exact hv
      · rfl
    | some r =>
      obtain ⟨hrm, hrs, hre⟩ := Dataset.rangeAt_some hr
      have hs := (hwf.range_ok hrm).2.2.2
      have hqK : q.Key < x.Key := by
        cases hp : (D.pointAt q).isSome with
        | false => exact hbare q hn hp
        | true =>
          by_contra hc'
          have hk : q.Key = x.Key := by unfold MVCCKey.Less at hqx; omega
          have := (hsame q (Or.inl hp) hqx hk).2
          rw [← hk, hr] at this; cases this
      have hlast : ∀ p ∈ D.positions, p.Key = q.Key → ¬ q.Less p := by
        intro p hp hpk
        apply hmax p hp
        unfold MVCCKey.Less; omega
      obtain ⟨e, he, hupd⟩ := updateRangeKeys_on hb.iter hv hr hs (fun h => hc.memo hwf hrm h)
      rw [← hwf.window_last hq hr hlast (hne q.Key (hwf.position_key_ne hq) hqK)] at he
      rw [hupd, Option.some_bind, if_pos hb.reverse]
      have hmid : RevMid D fk { s with
            rangeKeysPos := q.Key, rangeKeysStart := r.start, rangeKeys := r.versions,
            rangeKeysEnd := (e : Int), rangeKeysIdx := (e : Int) - 1 } q.Key x r e := by
        have hrem : remaining r.versions q.Key x e = e := by
          unfold remaining; rw [if_neg (by omega)]
        refine ⟨⟨?_, hb.reverse, hb.iterErr, ?_⟩, hr, ⟨rfl, rfl, rfl⟩, by omega, ?_, rfl,
          by omega, by omega, ?_, ?_, hfk, Or.inl (by omega)⟩
        · rw [hn]; exact hb.iter
        · rw [hn]; exact hb.iterValid
        · rw [hrem]
        · intro _; exact ⟨he, q, hn, rfl⟩
        · intro y hy hyx
          obtain ⟨p, hp, hpk, hpx⟩ := hposn y hy hyx
          have := hmax p hp hpx
          unfold MVCCKey.Less at this; omega
      obtain ⟨b, hdec, hres⟩ := revMid_decide hwf hmid
      rw [hdec]
      rcases hres with ⟨hl, -⟩ | ⟨-, -, hk, -⟩
      · exact ⟨_, rfl, hl⟩
      · omega

theorem LandsBefore.weaken_rev {D : Dataset} {fk : Nat} {st : DataIter} {x x' : MVCCKey}
    (h : LandsBefore D fk st x') (hx : x'.Less x)
    (hgap : ∀ z, D.isExposed fk z → z.Less x → z.Less x') : LandsBefore D fk st x := by
  rcases h with ⟨hd, hnone⟩ | ⟨y, hy, hyx, hmax⟩
  · left
    refine ⟨hd, ?_⟩
    intro e he hex
    exact hnone e he (hgap e he hex)
  · right
    refine ⟨y, hy, MVCCKey.Less.trans hyx hx, ?_⟩
    intro e he hex
    exact hmax e he (hgap e he hex)

/-- `updatePosition` in the reverse direction lands on the last exposed key
before `x`. -/
theorem revStuck_updatePosition {D : Dataset} {fk : Nat} (hwf : D.WF) {st : DataIter}
    {x : MVCCKey} (h : RevStuck D fk st x) :
    ∃ st', updatePosition (dataIter D) st = some st' ∧ LandsBefore D fk st' x := by
  by_cases hskip : ∃ q, D.prevPos x = DataCursor.onKey q ∧ (D.pointAt q).isSome = false ∧
      q.Key = x.Key
  · obtain ⟨q, hn, hp, hk⟩ := hskip
    obtain ⟨hq, hqx, hmax⟩ := Dataset.prevPos_on hn
    have hi : st.iter = some (DataCursor.onKey q) := by rw [h.base.iter, hn]
    have hv : st.iterValid = true := by rw [h.base.iterValid, hn]; rfl
    have hpos := (h.skip q hn hp).2 hk
    obtain ⟨r, hrm, hqe⟩ : ∃ r ∈ D.ranges, q = ⟨r.start, 0⟩ := by
      rcases Dataset.positions_cases hq with h1 | h1
      · rw [hp] at h1; cases h1
      · exact h1
    have hr : D.rangeAt q.Key = some r := by rw [hqe]; exact hwf.rangeAt_start hrm
    have hqt : q.Timestamp = 0 := by rw [hqe]
    rw [updatePosition_rev_skip hi hv hr h.base.reverse hp hpos]
    obtain ⟨st', h1, h2⟩ := rev_arrive (x := q) hwf
      (s := { st with
        iter := some (D.prevPos q), iterValid := (D.prevPos q).isOn, iterErr := none })
      ⟨rfl, h.base.reverse, rfl, rfl⟩ (h.cache.of_eq rfl rfl rfl)
      (by
        intro q' hq' _
        obtain ⟨-, hlt, -⟩ := Dataset.prevPos_on hq'
        unfold MVCCKey.Less at hlt; omega)
      (by
        intro y _ hyq hyk
        unfold MVCCKey.Less at hyq; omega)
      (show fk = 0 ∨ q.Key ≤ fk by rw [hk]; exact h.fk_ge)
    refine ⟨st', h1, h2.weaken_rev hqx ?_⟩
    intro z hz hzx
    by_cases hzk : z.Key = x.Key
    · have := (h.same z hz hzx hzk).2
      rw [← hk, hr] at this; cases this
    · unfold MVCCKey.Less at hzx ⊢; omega
  · have hns : ∀ q, D.prevPos x = DataCursor.onKey q → (D.pointAt q).isSome = false →
        q.Key ≠ st.rangeKeysPos := by
      intro q hn hp hk
      exact hskip ⟨q, hn, hp, (h.skip q hn hp).1 hk⟩
    rw [updatePosition_rev_eq hwf h.base h.cache hns]
    apply rev_arrive hwf h.base h.cache _ h.same h.fk_ge
    intro q hn hp
    obtain ⟨-, hqx, -⟩ := Dataset.prevPos_on hn
    by_contra hc
    have hk : q.Key = x.Key := by unfold MVCCKey.Less at hqx; omega
    exact hskip ⟨q, hn, hp, hk⟩

/-! ### Reverse direction: `Prev` -/

theorem prevStep_real {σ : Type} (I : MVCCIterator σ) (i : pointSynthesizingIter σ)
    (h : i.atPoint = true) :
    prevStep I i = (iterPrev I i).bind (fun i1 =>
      if i1.iterErr ≠ none then some i1 else finishRev I i1) := by
  unfold prevStep
  simp only [h, if_true]
  cases iterPrev I i with
  | none => rfl
  | some i1 =>
    simp only [Option.bind]
    by_cases he : i1.iterErr = none
    · simp [he]
    · simp [he]

theorem prevStep_syn {σ : Type} (I : MVCCIterator σ) (i : pointSynthesizingIter σ)
    (h : i.atPoint = false) :
    prevStep I i = finishRev I { i with rangeKeysIdx := i.rangeKeysIdx - 1 } := by
  unfold prevStep
  simp only [h, Bool.false_eq_true, if_false]

theorem iterPrev_eval {D : Dataset} {st : DataIter} {c : DataCursor}
    (hi : st.iter = some c) :
    iterPrev (dataIter D) st = some { st with
      iter := some ((dataIter D).Prev c), iterValid := ((dataIter D).Prev c).isOn,
      iterErr := none } := by
  simp only [iterPrev, updateValid, hi]
  cases (dataIter D).Prev c <;> rfl

theorem revMid_finish {D : Dataset} {fk : Nat} (hwf : D.WF) {st : DataIter} {K : Nat}
    {x : MVCCKey} {r : RangeKV} {e : Nat} (h : RevMid D fk st K x r e) :
    ∃ st', finishRev (dataIter D) st = some st' ∧ LandsBefore D fk st' x := by
  obtain ⟨b, hdec, hres⟩ := revMid_decide hwf h
  unfold finishRev
  rw [hdec]
  simp only
  rcases hres with ⟨hl, ⟨hb, q, hn, hqK⟩ | ⟨hb, hm⟩⟩ | ⟨hb, hm, -, hstuck⟩
  · subst hb
    have hi : st.iter = some (DataCursor.onKey q) := by rw [h.base.iter, hn]
    have hpos : st.rangeKeysPos = q.Key := by rw [h.cache.pos, hqK]
    refine ⟨_, ?_, hl⟩
    simp [hi, roachpb.Key.Equal, hpos]
  · subst hb
    have hidx := h.idx
    refine ⟨_, ?_, hl⟩
    rw [if_neg]
    simp only [decide_eq_true_eq, hidx]
    omega
  · subst hb
    have hidx := h.idx
    have hcond : decide (st.rangeKeysIdx < 0) = true := by
      simp only [decide_eq_true_eq, hidx]; omega
    obtain ⟨st', h1, h2⟩ := revStuck_updatePosition hwf hstuck
    refine ⟨st', ?_, h2⟩
    rw [if_pos hcond]
    simp only [Bool.not_false, if_true]
    exact h1

/-- After stepping off a real point outside every span, the end of `Prev`
always re-synchronises with `updatePosition`. -/
theorem finishRev_cleared {D : Dataset} (hwf : D.WF) {st : DataIter} {x : MVCCKey}
    (hb : Coupled st (D.prevPos x) true) (hc : CacheEmpty st)
    (hidx : st.rangeKeysIdx = -1) :
    ∃ b : Bool, finishRev (dataIter D) st =
      updatePosition (dataIter D) { st with atPoint := b } := by
  have hcond : decide (st.rangeKeysIdx < 0) = true := by
    simp only [decide_eq_true_eq, hidx]; omega
  rcases D.prevPos_cases x with ⟨hn, -⟩ | ⟨q, hn, hq, -, -⟩
  · have hv : st.iterValid = false := by rw [hb.iterValid, hn]; rfl
    refine ⟨false, ?_⟩
    unfold finishRev
    rw [updateAtPoint_invalid hv]
    simp only
    rw [if_pos hcond]
    simp
  · have hi : st.iter = some (DataCursor.onKey q) := by rw [hb.iter, hn]
    have hv : st.iterValid = true := by rw [hb.iterValid, hn]; rfl
    have hq0 := hwf.position_key_ne hq
    cases hp : (D.pointAt q).isSome with
    | true =>
      refine ⟨true, ?_⟩
      unfold finishRev
      rw [updateAtPoint_noRange hi hv hp hc.rangeKeys]
      simp only
      rw [if_pos hcond]
      have : (0 == q.Key) = false := by
        simp only [beq_eq_false_iff_ne]; omega
      simp [hi, roachpb.Key.Equal, hc.pos, this]
    | false =>
      refine ⟨false, ?_⟩
      unfold finishRev
      rw [updateAtPoint_noPoint hi hp]
      simp only
      rw [if_pos hcond]
      simp

/-- The state that `updatePosition` re-synchronises after a real point outside
every span. -/
theorem revStuck_uncovered {D : Dataset} {fk : Nat} (hwf : D.WF) {st : DataIter} {x : MVCCKey}
    (hb : Coupled st (D.prevPos x) true) (hc : CacheEmpty st)
    (hr : D.rangeAt x.Key = none) (hfk : fk = 0 ∨ x.Key ≤ fk) : RevStuck D fk st x := by
  refine ⟨hb, Or.inl hc, ?_, ?_, hfk⟩
  · intro q hn hp
    obtain ⟨hq, -, -⟩ := Dataset.prevPos_on hn
    have hq0 := hwf.position_key_ne hq
    rw [hc.pos]
    constructor
    · intro h; omega
    · intro h
      exfalso
      rcases Dataset.positions_cases hq with h1 | ⟨r, hrm, h1⟩
      · rw [hp] at h1; cases h1
      · have := hwf.rangeAt_start hrm
        rw [h1] at h
        simp only at h
        rw [h, hr] at this; cases this
  · intro y hy _ hyk
    rcases hy with hp | ⟨r, hr', -⟩
    · exact ⟨hp, hr⟩
    · rw [hyk, hr] at hr'; cases hr'

theorem finishRev_uncovered {D : Dataset} {fk : Nat} (hwf : D.WF) {st : DataIter} {x : MVCCKey}
    (hr : D.rangeAt x.Key = none) (hb : Coupled st (D.prevPos x) true) (hc : CacheEmpty st)
    (hidx : st.rangeKeysIdx = -1) (hfk : fk = 0 ∨ x.Key ≤ fk) :
    ∃ st', finishRev (dataIter D) st = some st' ∧ LandsBefore D fk st' x := by
  obtain ⟨b, hfin⟩ := finishRev_cleared hwf hb hc hidx
  rw [hfin]
  apply revStuck_updatePosition hwf
  exact revStuck_uncovered hwf ⟨hb.iter, hb.reverse, hb.iterErr, hb.iterValid⟩
    ⟨hc.rangeKeys, hc.pos, hc.start⟩ hr hfk

theorem revReal_prev {D : Dataset} {fk : Nat} (hwf : D.WF) {st : DataIter} {x : MVCCKey}
    (h : RevReal D fk st x) :
    ∃ st', Prev (dataIter D) st = some st' ∧ LandsBefore D fk st' x := by
  unfold Prev
  simp only [h.base.reverse, Bool.not_true, Bool.false_eq_true, if_false]
  rw [prevStep_real _ _ h.atPoint, iterPrev_on h.base.iter, Option.some_bind]
  simp only [ne_eq, not_true_eq_false, if_false]
  cases hr : D.rangeAt x.Key with
  | none =>
    obtain ⟨hc, hidx, hend⟩ := h.bare hr
    exact finishRev_uncovered hwf hr ⟨rfl, h.base.reverse, rfl, rfl⟩
      ⟨hc.rangeKeys, hc.pos, hc.start⟩ hidx h.fk_ge
  | some r =>
    obtain ⟨hc, hidx, e, hend, hle, hwin, hok⟩ := h.covered r hr
    apply revMid_finish (K := x.Key) (r := r) (e := e) hwf
    have hrem : remaining r.versions x.Key x e = newerPt r.versions x.Timestamp := by
      unfold remaining; rw [if_pos rfl]
    refine ⟨⟨rfl, h.base.reverse, rfl, rfl⟩, hr, ⟨hc.rangeKeys, hc.pos, hc.start⟩, le_refl _,
      ?_, hend, ?_, hwin, ?_, ?_, h.fk_ge, hok⟩
    · rw [hrem]; exact hidx
    · rw [hrem]; exact hle
    · intro hlt; omega
    · intro y _ hyx; unfold MVCCKey.Less at hyx; omega

theorem revSyn_prev {D : Dataset} {fk : Nat} (hwf : D.WF) {st : DataIter} {x : MVCCKey}
    (h : RevSyn D fk st x) :
    ∃ st', Prev (dataIter D) st = some st' ∧ LandsBefore D fk st' x := by
  obtain ⟨r, hr, hc, hidx, ⟨v, hv, hvt⟩, e, hend, hlt, hwin, hok⟩ := h.covered
  have hs := (hwf.range_ok (Dataset.rangeAt_some hr).1).2.2.2
  have hvne := versionsSorted_ne_zero hs v (List.getElem?_mem hv)
  unfold Prev
  simp only [h.base.reverse, Bool.not_true, Bool.false_eq_true, if_false]
  rw [prevStep_syn _ _ h.atPoint]
  apply revMid_finish (K := x.Key) (r := r) (e := e) hwf
  have hrem : remaining r.versions x.Key x e = newer r.versions x.Timestamp := by
    unfold remaining newerPt; rw [if_pos rfl, if_neg (by omega)]
  refine ⟨⟨h.base.iter, h.base.reverse, h.base.iterErr, h.base.iterValid⟩, hr,
    ⟨hc.rangeKeys, hc.pos, hc.start⟩, le_refl _, ?_, hend, ?_, hwin, ?_, ?_, h.fk_ge, hok⟩
  · rw [hrem]; simp only [hidx]
  · rw [hrem]; omega
  · intro hlt; omega
  · intro y _ hyx; unfold MVCCKey.Less at hyx; omega

/-! ### Direction switch -/

theorem Dataset.prevPos_congr {D : Dataset} {x y : MVCCKey}
    (h : ∀ p ∈ D.positions, p.Less x ↔ p.Less y) : D.prevPos x = D.prevPos y := by
  unfold Dataset.prevPos
  congr 2
  apply List.filter_congr
  intro p hp
  have := h p hp
  simp only [decide_eq_decide]
  exact this

/-- Stepping the iterator back from the first position after a key that is not
itself a position reaches the last position before that key. -/
theorem dataIter_prev_next {D : Dataset} {x : MVCCKey} (hx : x ∉ D.positions) :
    (dataIter D).Prev (D.nextPos x) = D.prevPos x := by
  have hne : ∀ p ∈ D.positions, p ≠ x := fun p hp h => hx (h ▸ hp)
  rcases D.nextPos_cases x with ⟨hn, hnone⟩ | ⟨n, hn, hnp, hxn, hmin⟩
  · rw [hn]
    simp only [dataIter, Dataset.prevPos]
    congr 2
    symm
    rw [List.filter_eq_self]
    intro p hp
    simp only [decide_eq_true_eq]
    rcases MVCCKey.Less.total p x with h | h | h
    · exact h
    · exact absurd h (hne p hp)
    · exact absurd h (hnone p hp)
  · rw [hn, dataIter_Prev_on]
    apply Dataset.prevPos_congr
    intro p hp
    constructor
    · intro hpn
      rcases MVCCKey.Less.total p x with h | h | h
      · exact h
      · exact absurd h (hne p hp)
      · exact absurd hpn (hmin p hp h)
    · intro hpx
      exact MVCCKey.Less.trans hpx hxn

theorem fwdReal_prev {D : Dataset} {fk : Nat} (hwf : D.WF) {st : DataIter} {x : MVCCKey}
    (h : FwdReal D fk st x) (hfk : fk = 0 ∨ x.Key ≤ fk) :
    ∃ st', Prev (dataIter D) st = some st' ∧ LandsBefore D fk st' x := by
  unfold Prev
  simp only [h.base.reverse, Bool.not_false, if_true, h.atPoint, Bool.not_true,
    Bool.false_and, Bool.false_eq_true, if_false]
  rw [prevStep_real _ _ rfl, iterPrev_on (q := x) ?_, Option.some_bind]
  swap
  · exact h.base.iter
  simp only [ne_eq, not_true_eq_false, if_false]
  cases hr : D.rangeAt x.Key with
  | none =>
    obtain ⟨hc, hidx, hend⟩ := h.bare hr
    exact finishRev_uncovered hwf hr ⟨rfl, rfl, rfl, rfl⟩
      ⟨hc.rangeKeys, hc.pos, hc.start⟩ (by simp only [hidx]; omega) hfk
  | some r =>
    obtain ⟨hc, hidx, e, hend, hendok⟩ := h.covered r hr
    have hs := (hwf.range_ok (Dataset.rangeAt_some hr).1).2.2.2
    have hle : newerPt r.versions x.Timestamp ≤ e := by
      rcases hendok.2 with hw | ⟨-, -, q, hq, -, hq'⟩
      · have := Dataset.newerPt_le_window (D := D) (f := fk) hs h.point
        omega
      · injection hq with hq
        subst hq
        exact hq'
    apply revMid_finish (K := x.Key) (r := r) (e := e) hwf
    have hrem : remaining r.versions x.Key x e = newerPt r.versions x.Timestamp := by
      unfold remaining; rw [if_pos rfl]
    refine ⟨⟨rfl, rfl, rfl, rfl⟩, hr, ⟨hc.rangeKeys, hc.pos, hc.start⟩, le_refl _,
      ?_, hend, ?_, hendok.1, ?_, ?_, hfk, ?_⟩
    · rw [hrem]; simp only [hidx]
    · rw [hrem]; exact hle
    · intro hlt; omega
    · intro y _ hyx; unfold MVCCKey.Less at hyx; omega
    · rcases hendok.2 with hw | ⟨h1, h2, q, hq, hqk, hq'⟩
      · exact Or.inl hw
      · injection hq with hq
        subst hq
        exact Or.inr ⟨h1, h2, x, h.point, rfl, MVCCKey.Less.irrefl x, hq'⟩

theorem fwdSyn_prev {D : Dataset} {fk : Nat} (hwf : D.WF) {st : DataIter} {x : MVCCKey}
    (h : FwdSyn D fk st x) (hfk : fk = 0 ∨ x.Key ≤ fk) :
    ∃ st', Prev (dataIter D) st = some st' ∧ LandsBefore D fk st' x := by
  obtain ⟨r, hr, hc, hidx, ⟨v, hv, hvt⟩, e, hend, hlt, hendok⟩ := h.covered
  obtain ⟨hrm, -, -⟩ := Dataset.rangeAt_some hr
  have hs := (hwf.range_ok hrm).2.2.2
  have hne := (hwf.range_ok hrm).2.2.1
  have hvne := versionsSorted_ne_zero hs v (List.getElem?_mem hv)
  have hxpos : x ∉ D.positions := by
    intro hx
    rcases Dataset.positions_cases hx with h1 | ⟨r', -, h1⟩
    · have h2 := hwf.syn_not_point hr (List.getElem?_mem hv)
      rw [hvt] at h2
      rw [h2] at h1
      cases h1
    · rw [h1] at hvt; simp only at hvt; omega
  have hlen : st.rangeKeys.length ≠ 0 := by
    rw [hc.rangeKeys]; exact fun h0 => hne (List.length_eq_zero.1 h0)
  unfold Prev
  simp only [h.base.reverse, Bool.not_false, if_true, h.atPoint, Bool.true_and,
    Bool.false_eq_true, if_false, hlen, decide_False]
  rw [iterPrev_eval (c := D.nextPos x) ?_]
  swap
  · exact h.base.iter
  simp only [ne_eq, not_true_eq_false, if_false]
  rw [prevStep_syn _ _ rfl, dataIter_prev_next hxpos]
  apply revMid_finish (K := x.Key) (r := r) (e := e) hwf
  have hrem : remaining r.versions x.Key x e = newer r.versions x.Timestamp := by
    unfold remaining newerPt; rw [if_pos rfl, if_neg (by omega)]
  refine ⟨⟨rfl, rfl, rfl, rfl⟩, hr, ⟨hc.rangeKeys, hc.pos, hc.start⟩, le_refl _,
    ?_, hend, ?_, hendok.1, ?_, ?_, hfk, ?_⟩
  · rw [hrem]; simp only [hidx]
  · rw [hrem]; omega
  · intro hlt; omega
  · intro y _ hyx; unfold MVCCKey.Less at hyx; omega
  · rcases hendok.2 with hw | ⟨h1, h2, q, hq, hqk, hq'⟩
    · exact Or.inl hw
    · obtain ⟨hqp, hxq, -⟩ := Dataset.nextPos_on hq
      have hpq : (D.pointAt q).isSome = true := by
        cases hp : (D.pointAt q).isSome
        · have := hwf.bare_position hqp hp (by rw [hqk]; exact hr)
          rw [this] at hqk
          exact absurd hqk.symm h1
        · rfl
      exact Or.inr ⟨h1, h2, q, hpq, hqk, MVCCKey.Less.asymm hxq, hq'⟩

/-- `Prev` from a positioned adapter, in either direction, lands on the last
exposed key before the current one. -/
theorem at_prev {D : Dataset} {fk : Nat} (hwf : D.WF) {st : DataIter} {x : MVCCKey}
    (h : FwdAt D fk st x ∨ RevAt D fk st x) (hfk : fk = 0 ∨ x.Key ≤ fk) :
    ∃ st', Prev (dataIter D) st = some st' ∧ LandsBefore D fk st' x := by
  rcases h with (h | h) | (h | h)
  · exact fwdReal_prev hwf h hfk
  · exact fwdSyn_prev hwf h hfk
  · exact revReal_prev hwf h
  · exact revSyn_prev hwf h

/-! ### What a positioned adapter exposes, reverse direction -/

theorem RevAt.exposed_rev {D : Dataset} {fk : Nat} (hwf : D.WF) {st : DataIter} {y : MVCCKey}
    (h : RevAt D fk st y) : D.isExposed fk y := by
  rcases h with h | h
  · exact Or.inl h.point
  · obtain ⟨r, hr, _, _, ⟨v, hv, hvt⟩, e, _, hlt, hend⟩ := h.covered
    have hs := (hwf.range_ok (Dataset.rangeAt_some hr).1).2.2.2
    have := Dataset.isExposed_syn (f := fk) hs hr hv (by omega)
    rw [hvt] at this
    exact this

theorem revAt_valid {D : Dataset} {fk : Nat} {st : DataIter} {x : MVCCKey}
    (h : RevAt D fk st x) : Valid st = (true, none) := by
  rcases h with h | h
  · unfold Valid
    rw [if_neg (by rw [h.atPoint]; simp), h.base.iterValid, h.base.iterErr]
    rfl
  · obtain ⟨r, -, -, hidx, -, e, hend, hlt, -⟩ := h.covered
    unfold Valid
    rw [if_pos ⟨h.base.iterErr, h.atPoint, by rw [hidx]; omega, by rw [hidx, hend]; omega⟩]

theorem revDone_valid {st : DataIter} (h : RevDone st) : Valid st = (false, none) := by
  unfold Valid
  rw [if_neg (by rw [h.idx, h.endEq]; simp), h.base.iterValid, h.base.iterErr]
  rfl

theorem revAt_key {D : Dataset} {fk : Nat} {st : DataIter} {x : MVCCKey}
    (h : RevAt D fk st x) : UnsafeKey (dataIter D) st = some x := by
  rcases h with h | h
  · unfold UnsafeKey
    rw [if_pos h.atPoint, h.base.iter]
    rfl
  · obtain ⟨r, -, hc, hidx, ⟨v, hv, hvt⟩, e, hend, hlt, -⟩ := h.covered
    unfold UnsafeKey
    rw [if_neg (by rw [h.atPoint]; simp), if_neg (by rw [hidx, hend]; omega), hidx,
      sliceIndex_ofNat, hc.rangeKeys, hv, hc.pos]
    simp only [Option.map, hvt]

theorem revAt_value {D : Dataset} {fk : Nat} (hwf : D.WF) {st : DataIter} {x : MVCCKey}
    (h : RevAt D fk st x) : UnsafeValue (dataIter D) st = some (D.valueOf x) := by
  rcases h with h | h
  · unfold UnsafeValue
    rw [if_pos h.atPoint, h.base.iter]
    simp only [Option.map, dataIter_UnsafeValue_on, Dataset.valueOf]
    obtain ⟨p, hp⟩ := Option.isSome_iff_exists.1 h.point
    rw [hp]
    rfl
  · obtain ⟨r, hr, hc, hidx, ⟨v, hv, hvt⟩, e, hend, hlt, hwin⟩ := h.covered
    have hs := (hwf.range_ok (Dataset.rangeAt_some hr).1).2.2.2
    have hle := D.window_le_length fk r x.Key
    have hmem := List.getElem?_mem hv
    unfold UnsafeValue
    rw [if_neg (by rw [h.atPoint]; simp),
      if_neg (by rw [hidx, hc.rangeKeys]; omega), hidx,
      sliceIndex_ofNat, hc.rangeKeys, hv]
    have hx : x = ⟨x.Key, v.Timestamp⟩ := by rw [hvt]
    have hnp : D.pointAt x = none := by rw [hx]; exact hwf.syn_not_point hr hmem
    simp only [Option.map, Dataset.valueOf, hnp, hr]
    rw [← hvt, find_version hs hv]
    rfl

/-! ### `SeekLT` to an unversioned key -/

theorem seekLT_eval {D : Dataset} {st : DataIter} {it : DataCursor} (k : MVCCKey)
    (hi : st.iter = some it) (hk : k.Timestamp = 0) :
    SeekLT (dataIter D) k st =
      match D.prevPos k with
      | DataCursor.onKey q =>
        if (D.rangeAt q.Key).isSome = true then
          ((updateRangeKeys (dataIter D) { st with
            reverse := true, iter := some (D.prevPos k), iterValid := (D.prevPos k).isOn,
            iterErr := none }).bind (updateAtPoint (dataIter D))).bind (fun i3 =>
              if !i3.atPoint && decide (i3.rangeKeysIdx < 0) then updatePosition (dataIter D) i3
              else some i3)
        else
          updatePosition (dataIter D) { st with
            reverse := true, iter := some (D.prevPos k), iterValid := (D.prevPos k).isOn,
            iterErr := none }
      | _ =>
        updatePosition (dataIter D) { st with
          reverse := true, iter := some (D.prevPos k), iterValid := (D.prevPos k).isOn,
          iterErr := none } := by
  simp only [SeekLT, hi, updateValid, dataIter_Valid, dataIter_SeekLT]
  cases hn : D.prevPos k with
  | before => simp [DataCursor.isOn]
  | after => simp [DataCursor.isOn]
  | onKey q =>
    simp only [DataCursor.isOn, Bool.not_true, Bool.false_eq_true, if_false,
      dataIter_HasPointAndRange_on, hlc.Timestamp.IsSet, hk, bne_self_eq_false,
      Bool.false_and]
    cases hr : D.rangeAt q.Key with
    | none =>
      simp only [Option.isSome_none, Bool.not_false, if_true, Bool.false_eq_true, if_false]
      rw [updatePosition_noRange rfl rfl hr]
    | some r =>
      simp only [Option.isSome_some, Bool.not_true, Bool.false_eq_true, if_false, if_true]
      cases updateRangeKeys (dataIter D) _ with
      | none => rfl
      | some i2 =>
        simp only [Option.some_bind, seekLTTail, seekLTCursor, hlc.Timestamp.IsSet, hk, bne_self_eq_false,
          Bool.false_and, Bool.false_eq_true, if_false]
        cases updateAtPoint (dataIter D) i2 <;> rfl

theorem revAt_settled {D : Dataset} {fk : Nat} {st : DataIter} {y : MVCCKey} (h : RevAt D fk st y) :
    (!st.atPoint && decide (st.rangeKeysIdx < 0)) = false := by
  rcases h with h | h
  · rw [h.atPoint]; rfl
  · obtain ⟨r, -, -, hidx, -⟩ := h.covered
    rw [hidx]
    simp

/-- `SeekLT` to an unversioned key lands on the last exposed key before it. -/
theorem seekLT_lands {D : Dataset} (hwf : D.WF) {st : DataIter} (hst : Ready D st)
    (k : MVCCKey) (hk : k.Timestamp = 0) :
    ∃ st', SeekLT (dataIter D) k st = some st' ∧ LandsBefore D 0 st' k := by
  obtain ⟨it, hit⟩ := Option.isSome_iff_exists.1 hst.1
  have hb : Coupled { st with
      reverse := true, iter := some (D.prevPos k), iterValid := (D.prevPos k).isOn,
      iterErr := none } (D.prevPos k) true := ⟨rfl, rfl, rfl, rfl⟩
  have hc : CacheOK D { st with
      reverse := true, iter := some (D.prevPos k), iterValid := (D.prevPos k).isOn,
      iterErr := none } := hst.2.of_eq rfl rfl rfl
  have hbare : ∀ q, D.prevPos k = DataCursor.onKey q → q.Key < k.Key := by
    intro q hn
    obtain ⟨-, hlt, -⟩ := Dataset.prevPos_on hn
    unfold MVCCKey.Less at hlt; omega
  obtain ⟨st1, harr, hland⟩ := rev_arrive hwf hb hc (fun q hn _ => hbare q hn)
    (by intro y _ hyk hkey; unfold MVCCKey.Less at hyk; omega) (Or.inl rfl)
  rw [seekLT_eval k hit hk]
  rcases D.prevPos_cases k with ⟨hn, -⟩ | ⟨q, hn, hq, -, -⟩
  · rw [updatePosition_rev_eq hwf hb hc ?_, harr]
    · rw [hn]
      exact ⟨st1, rfl, hland⟩
    · intro q hq; rw [hn] at hq; cases hq
  · cases hr : D.rangeAt q.Key with
    | none =>
      rw [updatePosition_rev_eq hwf hb hc ?_, harr]
      · rw [hn]
        simp only [hr, Option.isSome_none, Bool.false_eq_true, if_false]
        exact ⟨st1, rfl, hland⟩
      · intro q' hq' hp
        rw [hn] at hq'
        injection hq' with hq'
        subst hq'
        rw [hwf.position_point_or_range hq hr] at hp
        cases hp
    | some r =>
      rw [harr, hn]
      simp only [hr, Option.isSome_some, if_true, Option.some_bind]
      rcases hland with ⟨hd, hnone⟩ | ⟨y, hy, hyk, hmax⟩
      · have hcond : (!st1.atPoint && decide (st1.rangeKeysIdx < 0)) = true := by
          rw [hd.atPoint, hd.idx]; rfl
        rw [if_pos hcond, updatePosition_invalid (by rw [hd.base.iterValid]; rfl)]
        exact ⟨_, rfl, Or.inl ⟨revDone_cleared hwf hd.base (Or.inl hd.cache), hnone⟩⟩
      · rw [if_neg (by rw [revAt_settled hy]; simp)]
        exact ⟨st1, rfl, Or.inr ⟨y, hy, hyk, hmax⟩⟩

/-! ### Reverse scans -/

/-- Two lists of records in strictly increasing key order with the same members
are equal. -/
theorem sorted_records_unique {l₁ l₂ : List (MVCCKey × Value)}
    (h₁ : (l₁.map Prod.fst).Pairwise MVCCKey.Less)
    (h₂ : (l₂.map Prod.fst).Pairwise MVCCKey.Less)
    (hmem : ∀ rec, rec ∈ l₁ ↔ rec ∈ l₂) : l₁ = l₂ := by
  rw [List.pairwise_map] at h₁ h₂
  haveI : IsIrrefl (MVCCKey × Value) (fun a b => a.1.Less b.1) :=
    ⟨fun a => MVCCKey.Less.irrefl a.1⟩
  haveI : IsAntisymm (MVCCKey × Value) (fun a b => a.1.Less b.1) :=
    ⟨fun a b hab hba => absurd hba (MVCCKey.Less.asymm hab)⟩
  exact List.eq_of_perm_of_sorted
    ((List.perm_ext_iff_of_nodup h₁.nodup h₂.nodup).2 hmem) h₁ h₂

/-- The records of a reverse scan from a positioned adapter: in strictly
decreasing order, the exposed keys from the current one down, each with its
value. -/
theorem scan_revAt {D : Dataset} (hwf : D.WF) (L : List MVCCKey)
    (hL : ∀ e, D.isExposed 0 e → e ∈ L) :
    ∀ (n : Nat) (st : DataIter) (x : MVCCKey), (FwdAt D 0 st x ∨ RevAt D 0 st x) →
      (L.filter (fun e => decide (e.Less x))).length + 2 ≤ n →
      ∃ out, scanLoop (dataIter D) (Prev (dataIter D)) n st = some out ∧
        (out.reverse.map Prod.fst).Pairwise MVCCKey.Less ∧
        ∀ rec, rec ∈ out ↔
          (D.isExposed 0 rec.1 ∧ ¬ x.Less rec.1 ∧ rec.2 = D.valueOf rec.1) := by
  intro n
  induction n with
  | zero => intro st x _ h; omega
  | succ n ih =>
    intro st x hat hn
    obtain ⟨st', hprev, hland⟩ := at_prev hwf hat (Or.inl rfl)
    have hxe : D.isExposed 0 x := by
      rcases hat with h | h
      · exact h.exposed hwf
      · exact h.exposed_rev hwf
    have hvalid : Valid st = (true, none) := by
      rcases hat with h | h
      · exact fwdAt_valid h
      · exact revAt_valid h
    have hkey : UnsafeKey (dataIter D) st = some x := by
      rcases hat with h | h
      · exact fwdAt_key h
      · exact revAt_key h
    have hval : UnsafeValue (dataIter D) st = some (D.valueOf x) := by
      rcases hat with h | h
      · exact fwdAt_value hwf h
      · exact revAt_value hwf h
    unfold scanLoop
    rw [hvalid, hkey, hval, hprev]
    simp only [if_true]
    rcases hland with ⟨hd, hnone⟩ | ⟨y, hy, hyx, hmax⟩
    · obtain ⟨m, rfl⟩ : ∃ m, n = m + 1 := ⟨n - 1, by omega⟩
      refine ⟨[(x, D.valueOf x)], ?_, ?_, ?_⟩
      · unfold scanLoop
        rw [revDone_valid hd]
        simp
      · simp
      · intro rec
        simp only [List.mem_singleton]
        constructor
        · rintro rfl
          exact ⟨hxe, MVCCKey.Less.irrefl x, rfl⟩
        · rintro ⟨h1, h2, h3⟩
          have h4 := hnone rec.1 h1
          rcases MVCCKey.Less.total x rec.1 with h | h | h
          · exact absurd h h2
          · cases rec; simp only at h h3; subst h; subst h3; rfl
          · exact absurd h h4
    · have hlt : (L.filter (fun e => decide (e.Less y))).length <
          (L.filter (fun e => decide (e.Less x))).length := by
        apply filter_length_lt (y := y)
        · intro a _ ha
          simp only [decide_eq_true_eq] at ha ⊢
          exact MVCCKey.Less.trans ha hyx
        · exact hL y (hy.exposed_rev hwf)
        · simp only [decide_eq_true_eq]; exact hyx
        · simp only [decide_eq_false_iff_not]; exact MVCCKey.Less.irrefl y
      obtain ⟨out, hout, hsorted, hmem⟩ := ih st' y (Or.inr hy) (by omega)
      refine ⟨(x, D.valueOf x) :: out, ?_, ?_, ?_⟩
      · rw [hout]; rfl
      · rw [List.reverse_cons, List.map_append, List.pairwise_append]
        refine ⟨hsorted, by simp, ?_⟩
        intro a ha b hb
        simp only [List.map_cons, List.map_nil, List.mem_singleton] at hb
        subst hb
        rw [List.mem_map] at ha
        obtain ⟨rec, hrec, rfl⟩ := ha
        rw [List.mem_reverse] at hrec
        have h2 := ((hmem rec).1 hrec).2.1
        rcases MVCCKey.Less.total rec.1 y with h | h | h
        · exact MVCCKey.Less.trans h hyx
        · rw [h]; exact hyx
        · exact absurd h h2
      · intro rec
        simp only [List.mem_cons]
        constructor
        · rintro (rfl | h)
          · exact ⟨hxe, MVCCKey.Less.irrefl x, rfl⟩
          · obtain ⟨h1, h2, h3⟩ := (hmem rec).1 h
            refine ⟨h1, ?_, h3⟩
            intro h4
            exact h2 (MVCCKey.Less.trans hyx h4)
        · rintro ⟨h1, h2, h3⟩
          rcases MVCCKey.Less.total rec.1 x with h | h | h
          · right
            exact (hmem rec).2 ⟨h1, hmax rec.1 h1 h, h3⟩
          · left
            cases rec; simp only at h h3; subst h; subst h3; rfl
          · exact absurd h h2

/-- A full reverse scan from `SeekLT k`, for an unversioned `k`: the exposed
keys before `k`, in strictly decreasing order, each with its value. -/
theorem reverseScan_spec {D : Dataset} (hwf : D.WF) {st : DataIter} (hst : Ready D st)
    (k : MVCCKey) (hk : k.Timestamp = 0) :
    ∃ n out, reverseScan (dataIter D) k n st = some out ∧
      (out.reverse.map Prod.fst).Pairwise MVCCKey.Less ∧
      ∀ rec, rec ∈ out ↔
        (D.isExposed 0 rec.1 ∧ rec.1.Less k ∧ rec.2 = D.valueOf rec.1) := by
  obtain ⟨st', hseek, hland⟩ := seekLT_lands hwf hst k hk
  obtain ⟨L, hL⟩ := D.exposed_finite 0
  rcases hland with ⟨hd, hnone⟩ | ⟨y, hy, hyk, hmax⟩
  · refine ⟨1, [], ?_, by simp, ?_⟩
    · unfold reverseScan
      rw [hseek, Option.some_bind]
      unfold scanLoop
      rw [revDone_valid hd]
      simp
    · intro rec
      simp only [List.not_mem_nil, false_iff, not_and]
      intro h1 h2
      exact absurd h2 (hnone rec.1 h1)
  · obtain ⟨out, hout, hsorted, hmem⟩ := scan_revAt hwf L hL _ st' y (Or.inr hy) (le_refl _)
    refine ⟨(L.filter (fun e => decide (e.Less y))).length + 2, out, ?_, hsorted, ?_⟩
    · unfold reverseScan
      rw [hseek, Option.some_bind]
      exact hout
    · intro rec
      rw [hmem]
      constructor
      · rintro ⟨h1, h2, h3⟩
        refine ⟨h1, ?_, h3⟩
        rcases MVCCKey.Less.total rec.1 y with h | h | h
        · exact MVCCKey.Less.trans h hyk
        · rw [h]; exact hyk
        · exact absurd h h2
      · rintro ⟨h1, h2, h3⟩
        exact ⟨h1, hmax rec.1 h1 h2, h3⟩

/-! ### The `emitOnSeekGE` setting is never changed -/

section Frame

variable {σ : Type}

theorem updateValid_emit {I : MVCCIterator σ} {i s : pointSynthesizingIter σ}
    (h : updateValid I i = some s) : s.emitOnSeekGE = i.emitOnSeekGE := by
  unfold updateValid at h
  split at h
  · cases h
  · injection h with h; subst h; rfl

theorem iterNext_emit {I : MVCCIterator σ} {i s : pointSynthesizingIter σ}
    (h : iterNext I i = some s) : s.emitOnSeekGE = i.emitOnSeekGE := by
  unfold iterNext at h
  split at h
  · cases h
  · have := updateValid_emit h
    exact this

theorem iterPrev_emit {I : MVCCIterator σ} {i s : pointSynthesizingIter σ}
    (h : iterPrev I i = some s) : s.emitOnSeekGE = i.emitOnSeekGE := by
  unfold iterPrev at h
  split at h
  · cases h
  · have := updateValid_emit h
    exact this

theorem clearRangeKeys_emit (i : pointSynthesizingIter σ) :
    (clearRangeKeys i).emitOnSeekGE = i.emitOnSeekGE := by
  unfold clearRangeKeys
  simp only
  split <;> split <;> rfl

theorem extend_emit {I : MVCCIterator σ} {i s : pointSynthesizingIter σ}
    (h : extendRangeKeysEnd I i = some s) : s.emitOnSeekGE = i.emitOnSeekGE := by
  unfold extendRangeKeysEnd at h
  simp only at h
  repeat' split at h
  all_goals first | (cases h; done) | (injection h with h; subst h; rfl)

theorem updateAtPoint_emit {I : MVCCIterator σ} {i s : pointSynthesizingIter σ}
    (h : updateAtPoint I i = some s) : s.emitOnSeekGE = i.emitOnSeekGE := by
  unfold updateAtPoint at h
  simp only at h
  repeat' split at h
  all_goals first | (cases h; done) | (injection h with h; subst h; rfl)

theorem updateRangeKeys_emit {I : MVCCIterator σ} {i s : pointSynthesizingIter σ}
    (h : updateRangeKeys I i = some s) : s.emitOnSeekGE = i.emitOnSeekGE := by
  unfold updateRangeKeys at h
  split at h
  · injection h with h; subst h; exact clearRangeKeys_emit i
  · split at h
    · cases h
    · split at h
      · simp only at h
        split at h
        · cases h
        · rename_i i4 hi3
          have h4 : i4.emitOnSeekGE = i.emitOnSeekGE := by
            repeat' split at hi3
            all_goals first
              | (injection hi3 with hi3; rw [← hi3])
              | (have h5 := extend_emit hi3; exact h5)
          split at h
          · injection h with h; subst h; exact h4
          · injection h with h; subst h; exact h4
      · injection h with h; subst h; exact clearRangeKeys_emit i

theorem steppedPrev_emit {I : MVCCIterator σ} {i i1 : pointSynthesizingIter σ} {c b : Bool}
    (h : (if c = true then
        match iterPrev I i with
        | none => none
        | some i1 => some (i1, decide (i1.iterErr ≠ none))
      else some (i, false)) = some (i1, b)) : i1.emitOnSeekGE = i.emitOnSeekGE := by
  split at h
  · split at h
    · cases h
    · rename_i i2 h2
      simp only [Option.some.injEq, Prod.mk.injEq] at h
      rw [← h.1]
      exact iterPrev_emit h2
  · simp only [Option.some.injEq, Prod.mk.injEq] at h
    rw [← h.1]

theorem updatePosition_emit {I : MVCCIterator σ} {i s : pointSynthesizingIter σ}
    (h : updatePosition I i = some s) : s.emitOnSeekGE = i.emitOnSeekGE := by
  unfold updatePosition at h
  split at h
  · injection h with h; subst h; exact clearRangeKeys_emit _
  · split at h
    · cases h
    · simp only at h
      split at h
      · injection h with h; subst h; exact clearRangeKeys_emit _
      · split at h
        · split at h
          · cases h
          · rename_i i1 h1
            have e1 := updateRangeKeys_emit h1
            split at h
            · split at h
              · cases h
              · rename_i i2 h2
                have e2 := iterNext_emit h2
                split at h
                · injection h with h; subst h; rw [e2, e1]
                · split at h
                  · cases h
                  · rename_i i3 h3
                    rw [updateAtPoint_emit h, extend_emit h3, e2, e1]
            · rw [updateAtPoint_emit h, e1]
        · split at h
          · cases h
          · rename_i i1 hst
            injection h with h; subst h
            exact steppedPrev_emit hst
          · rename_i i1 hst
            have e1 := steppedPrev_emit hst
            split at h
            · cases h
            · rename_i i2 h2
              rw [updateAtPoint_emit h, updateRangeKeys_emit h2, e1]

theorem finishFwd_emit {I : MVCCIterator σ} {i s : pointSynthesizingIter σ}
    (h : finishFwd I i = some s) : s.emitOnSeekGE = i.emitOnSeekGE := by
  unfold finishFwd at h
  split at h
  · cases h
  · rename_i i2 h2
    have e2 := updateAtPoint_emit h2
    split at h
    · rw [updatePosition_emit h, e2]
    · injection h with h; subst h; exact e2

theorem seekWindow_emit (b : Bool) (i : pointSynthesizingIter σ) :
    (seekWindow b i).emitOnSeekGE = i.emitOnSeekGE := by
  unfold seekWindow
  split <;> rfl

theorem seekCursor_emit {k : MVCCKey} {i s : pointSynthesizingIter σ}
    (h : seekCursor k i = some s) : s.emitOnSeekGE = i.emitOnSeekGE := by
  unfold seekCursor at h
  split at h
  · rw [Option.map_eq_some'] at h
    obtain ⟨n, -, hn⟩ := h
    rw [← hn]
  · injection h with h; subst h; rfl

theorem steppedNext_emit {I : MVCCIterator σ} {i i1 i0 : pointSynthesizingIter σ} {c b : Bool}
    (h0 : i0.emitOnSeekGE = i.emitOnSeekGE)
    (h : (if c = true then
        match iterNext I i with
        | none => none
        | some i2 =>
          if i2.iterErr ≠ none then some (i2, true)
          else (extendRangeKeysEnd I i2).map (fun i3 => (i3, false))
      else some (i0, false)) = some (i1, b)) : i1.emitOnSeekGE = i.emitOnSeekGE := by
  split at h
  · split at h
    · cases h
    · rename_i i2 h2
      have e2 := iterNext_emit h2
      split at h
      · simp only [Option.some.injEq, Prod.mk.injEq] at h
        rw [← h.1, e2]
      · rw [Option.map_eq_some'] at h
        obtain ⟨i3, h3, hp⟩ := h
        simp only [Prod.mk.injEq] at hp
        rw [← hp.1, extend_emit h3, e2]
  · simp only [Option.some.injEq, Prod.mk.injEq] at h
    rw [← h.1, h0]

theorem tail_emit {I : MVCCIterator σ} {k : MVCCKey} {hp hr : Bool}
    {i s : pointSynthesizingIter σ}
    (h : updateSeekGEPositionTail I k hp hr i = some s) :
    s.emitOnSeekGE = i.emitOnSeekGE := by
  unfold updateSeekGEPositionTail at h
  split at h
  · cases h
  · rename_i i1 h1
    have e1 := updateRangeKeys_emit h1
    simp only at h
    split at h
    · cases h
    · rename_i i2 hst
      have e2 := steppedNext_emit (i := i1) (show i1.emitOnSeekGE = i1.emitOnSeekGE from rfl) hst
      injection h with h; subst h
      rw [e2, e1]
    · rename_i i2 hst
      have e2 := steppedNext_emit (i := i1) (show i1.emitOnSeekGE = i1.emitOnSeekGE from rfl) hst
      split at h
      · cases h
      · rename_i i5 h5
        rw [finishFwd_emit h, seekCursor_emit h5, seekWindow_emit, e2, e1]

theorem updateSeekGEPosition_emit {I : MVCCIterator σ} {k : MVCCKey}
    {i s : pointSynthesizingIter σ}
    (h : updateSeekGEPosition I k i = some s) : s.emitOnSeekGE = i.emitOnSeekGE := by
  unfold updateSeekGEPosition at h
  split at h
  · cases h
  · simp only at h
    split at h
    · injection h with h; subst h; exact clearRangeKeys_emit _
    · split at h
      · split at h
        · cases h
        · rename_i i1 h1
          have e1 := iterNext_emit h1
          split at h
          · rw [updatePosition_emit h, e1]
          · split at h
            · cases h
            · rw [tail_emit h, e1]
      · exact tail_emit h

theorem seekGE_emit {I : MVCCIterator σ} {k : MVCCKey} {i s : pointSynthesizingIter σ}
    (h : SeekGE I k i = some s) : s.emitOnSeekGE = i.emitOnSeekGE := by
  unfold SeekGE at h
  split at h
  · cases h
  · split at h
    · cases h
    · rename_i i1 h1
      have e1 := updateValid_emit h1
      split at h
      · rw [updatePosition_emit h, e1]
      · rw [updateSeekGEPosition_emit h, e1]

theorem nextStep_emit {I : MVCCIterator σ} {i s : pointSynthesizingIter σ}
    (h : nextStep I i = some s) : s.emitOnSeekGE = i.emitOnSeekGE := by
  unfold nextStep at h
  simp only at h
  split at h
  · cases h
  · rename_i i1 hst
    have e1 := steppedNext_emit (i := i) (show ({ i with rangeKeysIdx := i.rangeKeysIdx + 1 } :
      pointSynthesizingIter σ).emitOnSeekGE = i.emitOnSeekGE from rfl) hst
    injection h with h; subst h
    exact e1
  · rename_i i1 hst
    have e1 := steppedNext_emit (i := i) (show ({ i with rangeKeysIdx := i.rangeKeysIdx + 1 } :
      pointSynthesizingIter σ).emitOnSeekGE = i.emitOnSeekGE from rfl) hst
    rw [finishFwd_emit h, e1]

theorem next_emit {I : MVCCIterator σ} {i s : pointSynthesizingIter σ}
    (h : Next I i = some s) : s.emitOnSeekGE = i.emitOnSeekGE := by
  unfold Next at h
  split at h
  · simp only at h
    split at h
    · split at h
      · cases h
      · rename_i i1 h1
        have e1 := iterNext_emit h1
        split at h
        · injection h with h; subst h; exact e1
        · rw [updatePosition_emit h, e1]
    · split at h
      · have := nextStep_emit h
        exact this
      · split at h
        · cases h
        · rename_i i1 h1
          have e1 := iterNext_emit h1
          split at h
          · injection h with h; subst h; exact e1
          · rw [nextStep_emit h, e1]
  · exact nextStep_emit h

end Frame

/-! ### Stepping forward and back -/

theorem stepN_succ_last {α : Type} (f : α → Option α) (n : Nat) (a : α) :
    stepN f (n + 1) a = (stepN f n a).bind f := by
  induction n generalizing a with
  | zero =>
    show (f a).bind (stepN f 0) = (some a).bind f
    rw [Option.some_bind]
    cases f a <;> rfl
  | succ n ih =>
    have h1 : stepN f (n + 1 + 1) a = (f a).bind (stepN f (n + 1)) := rfl
    have h2 : stepN f (n + 1) a = (f a).bind (stepN f n) := rfl
    rw [h1, h2]
    cases hfa : f a with
    | none => rfl
    | some b =>
      simp only [Option.some_bind]
      exact ih b

theorem stepN_one {α : Type} (f : α → Option α) (a : α) : stepN f 1 a = f a := by
  show (f a).bind (stepN f 0) = f a
  cases f a <;> rfl

/-- What a positioned adapter exposes, in either direction. -/
theorem at_observe {D : Dataset} (hwf : D.WF) {st : DataIter} {x : MVCCKey}
    (h : FwdAt D 0 st x ∨ RevAt D 0 st x) :
    Valid st = (true, none) ∧ UnsafeKey (dataIter D) st = some x ∧
      UnsafeValue (dataIter D) st = some (D.valueOf x) := by
  rcases h with h | h
  · exact ⟨fwdAt_valid h, fwdAt_key h, fwdAt_value hwf h⟩
  · exact ⟨revAt_valid h, revAt_key h, revAt_value hwf h⟩

/-- Stepping forward `N` times and back `j ≤ N` times reaches the key that
`N - j` forward steps reach. -/
theorem chain_back {D : Dataset} (hwf : D.WF) :
    ∀ (N : Nat) (s0 : DataIter) (x0 : MVCCKey), FwdAt D 0 s0 x0 →
      (∀ j, j ≤ N → ∃ s, stepN (Next (dataIter D)) j s0 = some s ∧ (Valid s).1 = true) →
      ∃ sN, stepN (Next (dataIter D)) N s0 = some sN ∧
        ∀ j, j ≤ N → ∃ s t y, stepN (Next (dataIter D)) (N - j) s0 = some s ∧
          stepN (Prev (dataIter D)) j sN = some t ∧ FwdAt D 0 s y ∧
          (FwdAt D 0 t y ∨ RevAt D 0 t y) := by
  intro N
  induction N with
  | zero =>
    intro s0 x0 h0 _
    refine ⟨s0, rfl, ?_⟩
    intro j hj
    have : j = 0 := by omega
    subst this
    exact ⟨s0, s0, x0, rfl, rfl, h0, Or.inl h0⟩
  | succ N ih =>
    intro s0 x0 h0 hvalid
    obtain ⟨s1, hnext, hland⟩ := fwdAt_next hwf h0
    have hstep : ∀ n, stepN (Next (dataIter D)) (n + 1) s0 = stepN (Next (dataIter D)) n s1 := by
      intro n
      show (Next (dataIter D) s0).bind (stepN (Next (dataIter D)) n) = _
      rw [hnext, Option.some_bind]
    obtain ⟨s1', h1, hv1⟩ := hvalid 1 (by omega)
    rw [stepN_one, hnext] at h1
    injection h1 with h1
    subst h1
    obtain ⟨x1, hx1, hlt, hmin⟩ : ∃ x1, FwdAt D 0 s1 x1 ∧ x0.Less x1 ∧
        ∀ e, D.isExposed 0 e → x0.Less e → ¬ e.Less x1 := by
      rcases hland with ⟨hd, -⟩ | h
      · rw [fwdDone_valid hd] at hv1
        cases hv1
      · exact h
    obtain ⟨sN, hsN, hback⟩ := ih s1 x1 hx1 (by
      intro j hj
      have := hvalid (j + 1) (by omega)
      rw [hstep] at this
      exact this)
    refine ⟨sN, by rw [hstep]; exact hsN, ?_⟩
    intro j hj
    by_cases hjN : j ≤ N
    · obtain ⟨s, t, y, hs, ht, hsy, hty⟩ := hback j hjN
      refine ⟨s, t, y, ?_, ht, hsy, hty⟩
      have : N + 1 - j = (N - j) + 1 := by omega
      rw [this, hstep]
      exact hs
    · have hj' : j = N + 1 := by omega
      subst hj'
      obtain ⟨s, t, y, hs, ht, hsy, hty⟩ := hback N (le_refl _)
      have hs' : s = s1 := by
        rw [Nat.sub_self] at hs
        injection hs with hs
        exact hs.symm
      subst hs'
      have hy : y = x1 := by
        have a := fwdAt_key hsy
        have b := fwdAt_key hx1
        rw [a] at b
        injection b
      subst hy
      obtain ⟨t', hprev, hlb⟩ := at_prev hwf hty (Or.inl rfl)
      have hx0e := h0.exposed hwf
      refine ⟨s0, t', x0, by rw [Nat.sub_self]; rfl, ?_, h0, Or.inr ?_⟩
      · rw [stepN_succ_last, ht, Option.some_bind]
        exact hprev
      · rcases hlb with ⟨-, hnone⟩ | ⟨y', hy', hy'lt, hmax⟩
        · exact absurd hlt (hnone x0 hx0e)
        · have : y' = x0 := by
            rcases MVCCKey.Less.total y' x0 with h | h | h
            · exact absurd h (hmax x0 hx0e hlt)
            · exact h
            · exact absurd hy'lt (hmin y' (hy'.exposed_rev hwf) h)
          rw [this] at hy'
          exact hy'

/-! ## The adapter over an arbitrary wrapped iterator -/

theorem sortSearchLoop_total (f : Nat → Option Bool) (n : Nat)
    (hf : ∀ a, a < n → (f a).isSome = true) :
    ∀ fuel i j, i ≤ j → j ≤ n → j - i ≤ fuel →
      ∃ k, sortSearchLoop f fuel i j = some k ∧ i ≤ k ∧ k ≤ j := by
  intro fuel
  induction fuel with
  | zero =>
    intro i j hij hjn hfuel
    have : i = j := by omega
    subst this
    exact ⟨i, by simp [sortSearchLoop], le_refl _, le_refl _⟩
  | succ fuel ih =>
    intro i j hij hjn hfuel
    by_cases hlt : i < j
    · have hh : (i + j) / 2 < n := by omega
      obtain ⟨b, hb⟩ := Option.isSome_iff_exists.1 (hf _ hh)
      simp only [sortSearchLoop, hlt, if_true, hb]
      cases b with
      | false =>
        obtain ⟨k, h1, h2, h3⟩ := ih ((i + j) / 2 + 1) j (by omega) hjn (by omega)
        exact ⟨k, h1, by omega, h3⟩
      | true =>
        obtain ⟨k, h1, h2, h3⟩ := ih i ((i + j) / 2) (by omega) (by omega) (by omega)
        exact ⟨k, h1, h2, by omega⟩
    · have : i = j := by omega
      subst this
      exact ⟨i, by simp [sortSearchLoop], le_refl _, le_refl _⟩

/-- `sort.Search` over a prefix of a slice returns, whatever the predicate. -/
theorem sortSearch_total {α : Type} (s : List α) (q : α → Bool) (n : Int)
    (hn : n ≤ s.length) :
    ∃ k : Int, sortSearch n (fun idx => (sliceIndex s idx).map q) = some k ∧ 0 ≤ k ∧
      k ≤ max n 0 := by
  have hf : ∀ a, a < n.toNat →
      ((fun idx : Nat => (sliceIndex s (idx : Int)).map q) a).isSome = true := by
    intro a ha
    have : a < s.length := by omega
    simp [sliceIndex_ofNat, List.getElem?_eq_getElem this]
  obtain ⟨k, h1, -, h3⟩ := sortSearchLoop_total _ n.toNat hf n.toNat 0 n.toNat (Nat.zero_le _)
    (le_refl _) (by omega)
  refine ⟨(k : Int), ?_, by omega, by omega⟩
  simp only [sortSearch]
  rw [h1]; rfl

/-- A slice sorted by descending timestamp. -/
theorem descending_get {V : MVCCRangeKeyVersions}
    (hs : V.Pairwise (fun a b => b.Timestamp ≤ a.Timestamp)) {a b : Nat}
    {x y : MVCCRangeKeyVersion} (hab : a ≤ b) (hx : V[a]? = some x) (hy : V[b]? = some y) :
    y.Timestamp ≤ x.Timestamp := by
  rcases Nat.eq_or_lt_of_le hab with rfl | hlt
  · rw [hx] at hy; cases hy; exact le_refl _
  · obtain ⟨ha, rfl⟩ := List.getElem?_eq_some_iff.1 hx
    obtain ⟨hb, rfl⟩ := List.getElem?_eq_some_iff.1 hy
    exact (List.pairwise_iff_getElem.1 hs) a b ha hb hlt

/-- The binary search of the versioned seeks: the least index of the window
whose timestamp is at most `T`, the window end when there is none. -/
theorem search_window {V : MVCCRangeKeyVersions}
    (hs : V.Pairwise (fun a b => b.Timestamp ≤ a.Timestamp)) {en : Int} (h0 : 0 ≤ en)
    (h1 : en ≤ V.length) (T : Nat) :
    ∃ j : Nat, (j : Int) ≤ en ∧
      (∀ (a : Nat) (v : MVCCRangeKeyVersion), (a : Int) < en → V[a]? = some v →
        (v.Timestamp ≤ T ↔ j ≤ a)) ∧
      sortSearch en (fun idx => (sliceIndex V idx).map
        (fun v => hlc.Timestamp.LessEq v.Timestamp T)) = some (j : Int) := by
  obtain ⟨n, rfl⟩ := Int.eq_ofNat_of_zero_le h0
  obtain ⟨j, h2, h3, h4, h5⟩ := sortSearch_spec V
    (fun v => hlc.Timestamp.LessEq v.Timestamp T) n (by omega)
    (by
      intro a b x y hab hx hy hq
      simp only [hlc.Timestamp.LessEq, decide_eq_true_eq] at hq ⊢
      have := descending_get hs hab hx hy
      omega)
  refine ⟨j, by omega, ?_, h2⟩
  intro a v han hav
  constructor
  · intro hle
    by_contra hc
    have := h4 a v (by omega) hav
    simp only [hlc.Timestamp.LessEq, decide_eq_false_iff_not] at this
    omega
  · intro hja
    have := h5 a v hja (by omega) hav
    simpa [hlc.Timestamp.LessEq] using this

section Generic

variable {σ : Type}

/-- The fields after `clearRangeKeys`. -/
theorem clearRangeKeys_fields (i : pointSynthesizingIter σ) :
    (clearRangeKeys i).rangeKeys = [] ∧ (clearRangeKeys i).rangeKeysEnd = 0 ∧
    (clearRangeKeys i).rangeKeysIdx = (if i.reverse = true then -1 else 0) ∧
    (clearRangeKeys i).rangeKeysPos = (if i.rangeKeys.length = 0 then i.rangeKeysPos else 0) ∧
    (clearRangeKeys i).rangeKeysStart =
      (if i.rangeKeys.length = 0 then i.rangeKeysStart else 0) ∧
    (clearRangeKeys i).atPoint = i.atPoint ∧ (clearRangeKeys i).reverse = i.reverse ∧
    (clearRangeKeys i).iterValid = i.iterValid ∧ (clearRangeKeys i).iterErr = i.iterErr ∧
    (clearRangeKeys i).emitOnSeekGE = i.emitOnSeekGE ∧ (clearRangeKeys i).iter = i.iter := by
  unfold clearRangeKeys
  by_cases hl : i.rangeKeys.length = 0 <;> cases hr : i.reverse <;>
    simp [hl, hr, List.length_eq_zero.1]

/-- `extendRangeKeysEnd` returns whenever the adapter wraps an iterator; it
changes `rangeKeysEnd` only, never lowers it, and a new value is within the
slice. -/
theorem extend_spec {I : MVCCIterator σ} {i : pointSynthesizingIter σ}
    (hit : i.iterValid = true → i.iter.isSome = true) :
    ∃ e : Int, extendRangeKeysEnd I i = some { i with rangeKeysEnd := e } ∧
      i.rangeKeysEnd ≤ e ∧ (e = i.rangeKeysEnd ∨ (0 ≤ e ∧ e ≤ i.rangeKeys.length)) := by
  unfold extendRangeKeysEnd
  by_cases hv : i.iterValid = true
  · obtain ⟨it, hit'⟩ := Option.isSome_iff_exists.1 (hit hv)
    cases i with
    | mk iter V pos idx en start atPoint reverse emit iterValid iterErr =>
    simp only at hit' hv
    subst hit' hv
    simp only [if_true]
    split
    · split
      · obtain ⟨k, hk, h0, h1⟩ := sortSearch_total V
          (fun v => hlc.Timestamp.Less v.Timestamp (I.UnsafeKey it).Timestamp)
          V.length (le_refl _)
        rw [hk]
        simp only []
        split
        · exact ⟨k, rfl, by omega, Or.inr ⟨h0, by omega⟩⟩
        · exact ⟨en, rfl, le_refl _, Or.inl rfl⟩
      · exact ⟨en, rfl, le_refl _, Or.inl rfl⟩
    · exact ⟨en, rfl, le_refl _, Or.inl rfl⟩
  · rw [if_neg hv]
    exact ⟨i.rangeKeysEnd, rfl, le_refl _, Or.inl rfl⟩

/-- `extendRangeKeysEnd` does not read the cursor. -/
theorem extend_idx (I : MVCCIterator σ) (i : pointSynthesizingIter σ) (n : Int) :
    extendRangeKeysEnd I { i with rangeKeysIdx := n } =
      (extendRangeKeysEnd I i).map (fun s => { s with rangeKeysIdx := n }) := by
  cases i with
  | mk iter V pos idx en start atPoint reverse emit iterValid iterErr =>
  unfold extendRangeKeysEnd
  simp only []
  split
  · cases iter with
    | none => rfl
    | some it =>
      simp only []
      split
      · split
        · cases sortSearch _ _ with
          | none => rfl
          | some e =>
            simp only []
            split <;> rfl
        · rfl
      · rfl
  · rfl

/-- What `updateRangeKeys` does on a valid position with a range. -/
theorem updateRangeKeys_spec {I : MVCCIterator σ} {i : pointSynthesizingIter σ} {it : σ}
    (hit : i.iter = some it) (hv : i.iterValid = true) (hr : (I.HasPointAndRange it).2 = true) :
    ∃ e : Int,
      (if (I.UnsafeKey it).Key = (I.RangeBounds it).Key then
          e = ((if (I.RangeBounds it).Key = i.rangeKeysStart then i.rangeKeys
            else (I.RangeKeys it).Versions).length : Int)
        else extendRangeKeysEnd I { i with
            rangeKeysPos := (I.UnsafeKey it).Key, rangeKeysStart := (I.RangeBounds it).Key,
            rangeKeys := if (I.RangeBounds it).Key = i.rangeKeysStart then i.rangeKeys
              else (I.RangeKeys it).Versions,
            rangeKeysEnd := 0 } =
          some { i with
            rangeKeysPos := (I.UnsafeKey it).Key, rangeKeysStart := (I.RangeBounds it).Key,
            rangeKeys := if (I.RangeBounds it).Key = i.rangeKeysStart then i.rangeKeys
              else (I.RangeKeys it).Versions,
            rangeKeysEnd := e }) ∧
      updateRangeKeys I i = some { i with
        rangeKeysPos := (I.UnsafeKey it).Key, rangeKeysStart := (I.RangeBounds it).Key,
        rangeKeys := if (I.RangeBounds it).Key = i.rangeKeysStart then i.rangeKeys
          else (I.RangeKeys it).Versions,
        rangeKeysEnd := e, rangeKeysIdx := if i.reverse = true then e - 1 else 0 } := by
  cases i with
  | mk iter V pos idx en start atPoint reverse emit iterValid iterErr =>
  simp only at hit hv ⊢
  subst hit hv
  have key : ∀ (V' : MVCCRangeKeyVersions) (start' : Nat),
      ∃ e : Int,
        (if (I.UnsafeKey it).Key = start' then e = (V'.length : Int)
          else extendRangeKeysEnd I
              ⟨some it, V', (I.UnsafeKey it).Key, idx, 0, start', atPoint, reverse, emit, true,
                iterErr⟩ =
            some ⟨some it, V', (I.UnsafeKey it).Key, idx, e, start', atPoint, reverse, emit, true,
              iterErr⟩) ∧
        (match (if roachpb.Key.Equal (I.UnsafeKey it).Key start' = true then
              some (⟨some it, V', (I.UnsafeKey it).Key, idx, (V'.length : Int), start', atPoint,
                reverse, emit, true, iterErr⟩ : pointSynthesizingIter σ)
            else extendRangeKeysEnd I
              ⟨some it, V', (I.UnsafeKey it).Key, idx, 0, start', atPoint, reverse, emit, true,
                iterErr⟩) with
          | none => none
          | some i4 =>
            if (!i4.reverse) = true then some { i4 with rangeKeysIdx := 0 }
            else some { i4 with rangeKeysIdx := i4.rangeKeysEnd - 1 }) =
          some ⟨some it, V', (I.UnsafeKey it).Key, if reverse = true then e - 1 else 0, e, start',
            atPoint, reverse, emit, true, iterErr⟩ := by
    intro V' start'
    by_cases hps : (I.UnsafeKey it).Key = start'
    · refine ⟨(V'.length : Int), ?_, ?_⟩
      · rw [if_pos hps]
      · rw [if_pos (by simp [roachpb.Key.Equal, hps])]
        cases reverse <;> rfl
    · obtain ⟨e, he, -, -⟩ := extend_spec (I := I)
        (i := ⟨some it, V', (I.UnsafeKey it).Key, idx, 0, start', atPoint, reverse, emit, true,
          iterErr⟩) (fun _ => rfl)
      refine ⟨e, ?_, ?_⟩
      · rw [if_neg hps]; exact he
      · rw [if_neg (by simp [roachpb.Key.Equal, hps]), he]
        cases reverse <;> rfl
  unfold updateRangeKeys
  simp only [Bool.not_true, Bool.false_eq_true, if_false, hr, if_true]
  by_cases hst : (I.RangeBounds it).Key = start
  · have h1 : (!roachpb.Key.Equal (I.RangeBounds it).Key start) = false := by
      simp [roachpb.Key.Equal, hst]
    simp only [h1, Bool.false_eq_true, if_false, if_pos hst]
    rw [hst]
    exact key V start
  · have h1 : (!roachpb.Key.Equal (I.RangeBounds it).Key start) = true := by
      simp [roachpb.Key.Equal, hst]
    simp only [h1, if_true, if_neg hst]
    exact key _ _

/-- `updateRangeKeys` away from a valid position with a range. -/
theorem updateRangeKeys_none {I : MVCCIterator σ} {i : pointSynthesizingIter σ} {it : σ}
    (hit : i.iter = some it) (h : i.iterValid = false ∨ (I.HasPointAndRange it).2 = false) :
    updateRangeKeys I i = some (clearRangeKeys i) := by
  unfold updateRangeKeys
  rcases h with h | h
  · simp [h]
  · cases hv : i.iterValid <;> simp [hit, h]

/-- In the forward direction `updateRangeKeys` leaves the cursor at 0. -/
theorem updateRangeKeys_idx_fwd {I : MVCCIterator σ} {i s : pointSynthesizingIter σ}
    (hrev : i.reverse = false) (h : updateRangeKeys I i = some s) : s.rangeKeysIdx = 0 := by
  cases hit : i.iter with
  | none =>
    unfold updateRangeKeys at h
    rw [hit] at h
    by_cases hv : i.iterValid = true
    · simp [hv] at h
    · simp only [hv, Bool.not_false, Bool.false_eq_true, not_false_eq_true, if_true,
        Option.some.injEq] at h
      subst h
      rw [(clearRangeKeys_fields i).2.2.1, hrev]
      rfl
  | some it =>
    by_cases hc : i.iterValid = true ∧ (I.HasPointAndRange it).2 = true
    · obtain ⟨e, -, hs⟩ := updateRangeKeys_spec hit hc.1 hc.2
      rw [hs] at h
      cases h
      simp [hrev]
    · rw [updateRangeKeys_none hit (by
        by_cases hv : i.iterValid = true
        · right
          cases hr : (I.HasPointAndRange it).2
          · rfl
          · exact absurd ⟨hv, hr⟩ hc
        · left; simpa using hv)] at h
      cases h
      rw [(clearRangeKeys_fields i).2.2.1, hrev]
      rfl

/-- `updatePosition` on an invalid underlying position: everything is
cleared, as far as `clearRangeKeys` clears. -/
theorem updatePosition_cleared {I : MVCCIterator σ} {i : pointSynthesizingIter σ}
    (hv : i.iterValid = false) :
    ∃ s, updatePosition I i = some s ∧ s.iter = i.iter ∧ s.atPoint = false ∧
      s.rangeKeys = [] ∧ s.rangeKeysEnd = 0 ∧
      s.rangeKeysIdx = (if i.reverse = true then -1 else 0) ∧
      s.rangeKeysPos = (if i.rangeKeys.length = 0 then i.rangeKeysPos else 0) ∧
      s.rangeKeysStart = (if i.rangeKeys.length = 0 then i.rangeKeysStart else 0) ∧
      s.reverse = i.reverse ∧ s.emitOnSeekGE = i.emitOnSeekGE ∧
      s.iterValid = false ∧ s.iterErr = i.iterErr ∧
      UnsafeKey I s = some ⟨0, 0⟩ ∧ Valid s = (false, i.iterErr) := by
  have hup : updatePosition I i = some (clearRangeKeys { i with atPoint := false }) := by
    simp [updatePosition, hv]
  obtain ⟨h1, h2, h3, h4, h5, h6, h7, h8, h9, h10, h11⟩ :=
    clearRangeKeys_fields { i with atPoint := false }
  simp only at h3 h4 h5 h6 h7 h8 h9 h10 h11
  refine ⟨_, hup, h11, h6, h1, h2, h3, h4, h5, h7, h10, h8.trans hv, h9, ?_, ?_⟩
  · unfold UnsafeKey
    rw [h6, if_neg (by simp), if_pos]
    rw [h2, h3]
    by_cases hr : i.reverse = true
    · rw [if_pos hr]; omega
    · rw [if_neg hr]; omega
  · unfold Valid
    rw [if_neg, h8, h9, hv]
    rw [h2, h3]
    rintro ⟨-, -, ha, hb⟩
    by_cases hr : i.reverse = true
    · rw [if_pos hr] at ha; omega
    · rw [if_neg hr] at hb; omega

end Generic

/-! ## Scans against the reference -/

theorem Dataset.WF.exposed_key_pos {D : Dataset} (hwf : D.WF) {e : MVCCKey}
    (he : D.isExposed 0 e) : ∃ p ∈ D.positions, p.Key = e.Key := by
  apply hwf.exposed_position he
  rcases he with hp | ⟨r, hr, -⟩
  · exact hwf.point_ne_zero hp
  · exact hwf.covered_key_ne hr

/-- Nothing is exposed before an unversioned key at or below every position. -/
theorem Dataset.WF.exposed_not_less_min {D : Dataset} (hwf : D.WF) {k e : MVCCKey}
    (hk : k.Timestamp = 0) (hmin : ∀ p ∈ D.positions, k.Key ≤ p.Key)
    (he : D.isExposed 0 e) : ¬ e.Less k := by
  obtain ⟨p, hp, hpe⟩ := hwf.exposed_key_pos he
  have := hmin p hp
  unfold MVCCKey.Less
  omega

/-- Everything exposed lies before a key above every position. -/
theorem Dataset.WF.exposed_less_max {D : Dataset} (hwf : D.WF) {k e : MVCCKey}
    (hmax : ∀ p ∈ D.positions, p.Key < k.Key) (he : D.isExposed 0 e) : e.Less k := by
  obtain ⟨p, hp, hpe⟩ := hwf.exposed_key_pos he
  have := hmax p hp
  unfold MVCCKey.Less
  omega

/-- The value of a synthesized key is the value of its range key version. -/
theorem Dataset.WF.valueOf_syn {D : Dataset} (hwf : D.WF) {K : Nat} {r : RangeKV}
    {v : MVCCRangeKeyVersion} (hr : D.rangeAt K = some r) (hv : v ∈ r.versions) :
    D.valueOf ⟨K, v.Timestamp⟩ = v.Value := by
  have hs := (hwf.range_ok (Dataset.rangeAt_some hr).1).2.2.2
  obtain ⟨c, hc⟩ := List.getElem?_of_mem hv
  unfold Dataset.valueOf
  rw [hwf.syn_not_point hr hv]
  simp only [hr]
  rw [find_version hs hc]
  rfl

/-- Every version of a span is synthesized at its start key and at the key of
an `emitOnSeekGE` seek. -/
theorem Dataset.isExposed_full {D : Dataset} {fk K : Nat} {r : RangeKV}
    {v : MVCCRangeKeyVersion} (hr : D.rangeAt K = some r) (hv : v ∈ r.versions)
    (hk : K = r.start ∨ K = fk) : D.isExposed fk ⟨K, v.Timestamp⟩ := by
  right
  refine ⟨r, hr, v, hv, rfl, ?_⟩
  rw [Dataset.synthAt_iff]
  rcases hk with h | h
  · exact Or.inl h
  · exact Or.inr (Or.inl h)

/-- At the start key of a span, and at the key of an `emitOnSeekGE` seek, the
window is the whole stack. -/
theorem fwdAt_end_full {D : Dataset} (hwf : D.WF) {fk : Nat} {st : DataIter} {y : MVCCKey}
    {r : RangeKV} (h : FwdAt D fk st y) (hr : D.rangeAt y.Key = some r)
    (hk : y.Key = r.start ∨ y.Key = fk) : st.rangeKeysEnd = (r.versions.length : Int) := by
  have hs := (hwf.range_ok (Dataset.rangeAt_some hr).1).2.2.2
  have hfull := Dataset.window_full (D := D) hs hk
  rcases h with h | h
  · obtain ⟨-, -, e, he, h1, h2⟩ := h.covered r hr
    rw [he]
    rcases h2 with h2 | ⟨h2, h3, -⟩
    · omega
    · rcases hk with hk | hk
      · exact absurd hk h2
      · exact absurd hk h3
  · obtain ⟨r', hr', -, -, -, e, he, -, h1, h2⟩ := h.covered
    rw [hr] at hr'
    cases hr'
    rw [he]
    rcases h2 with h2 | ⟨h2, h3, -⟩
    · omega
    · rcases hk with hk | hk
      · exact absurd hk h2
      · exact absurd hk h3

/-- A positioned adapter is on a real point exactly when the key it exposes is
one. -/
theorem fwdAt_atPoint {D : Dataset} (hwf : D.WF) {fk : Nat} {st : DataIter} {y : MVCCKey}
    (h : FwdAt D fk st y) : st.atPoint = (D.pointAt y).isSome := by
  rcases h with h | h
  · rw [h.atPoint, h.point]
  · obtain ⟨r, hr, -, -, ⟨v, hv, hvt⟩, -⟩ := h.covered
    have := hwf.syn_not_point hr (List.getElem?_mem hv)
    rw [hvt] at this
    rw [h.atPoint, show y = ⟨y.Key, y.Timestamp⟩ from rfl, this]
    rfl

theorem fwdDone_key {D : Dataset} {st : DataIter} (h : FwdDone st) :
    UnsafeKey (dataIter D) st = some ⟨0, 0⟩ := by
  unfold UnsafeKey
  rw [if_neg (by rw [h.atPoint]; simp), if_pos (by rw [h.idx, h.endEq]; omega)]

theorem ready_fresh (D : Dataset) (b : Bool) : Ready D (freshIter b) :=
  ⟨rfl, Or.inl ⟨rfl, rfl, rfl⟩⟩

theorem fwdAt_ready {D : Dataset} {fk : Nat} {st : DataIter} {y : MVCCKey}
    (h : FwdAt D fk st y) : Ready D st := by
  rcases h with h | h
  · refine ⟨by rw [h.base.iter]; rfl, ?_⟩
    cases hr : D.rangeAt y.Key with
    | none => exact Or.inl (h.bare hr).1
    | some r =>
      obtain ⟨hc, -⟩ := h.covered r hr
      exact Or.inr ⟨r, (Dataset.rangeAt_some hr).1, hc.rangeKeys, hc.start⟩
  · refine ⟨by rw [h.base.iter]; rfl, ?_⟩
    obtain ⟨r, hr, hc, -⟩ := h.covered
    exact Or.inr ⟨r, (Dataset.rangeAt_some hr).1, hc.rangeKeys, hc.start⟩

theorem fwdDone_ready {D : Dataset} {st : DataIter} (h : FwdDone st) : Ready D st :=
  ⟨by rw [h.base.iter]; rfl, Or.inl h.cache⟩

/-- A landing state is positioned or exhausted. -/
theorem landsFrom_settled {D : Dataset} {fk : Nat} {st : DataIter} {k : MVCCKey}
    (h : LandsFrom D fk st k) : (∃ y, FwdAt D fk st y) ∨ FwdDone st := by
  rcases h with ⟨hd, -⟩ | ⟨y, hy, -⟩
  · exact Or.inr hd
  · exact Or.inl ⟨y, hy⟩

theorem landsAfter_settled {D : Dataset} {fk : Nat} {st : DataIter} {k : MVCCKey}
    (h : LandsAfter D fk st k) : (∃ y, FwdAt D fk st y) ∨ FwdDone st := by
  rcases h with ⟨hd, -⟩ | ⟨y, hy, -⟩
  · exact Or.inr hd
  · exact Or.inl ⟨y, hy⟩

/-- With `emitOnSeekGE` disabled, every sequence of `SeekGE` and `Next` calls on
a positioned or exhausted adapter returns, and leaves it positioned or
exhausted. -/
theorem forward_run {D : Dataset} (hwf : D.WF) :
    ∀ (ops : List PosOp), (∀ op ∈ ops, op.isForward = true) →
      ∀ st : DataIter, ((∃ y, FwdAt D 0 st y) ∨ FwdDone st) → st.emitOnSeekGE = false →
        ∃ s, PosOp.run (dataIter D) ops st = some s ∧
          ((∃ y, FwdAt D 0 s y) ∨ FwdDone s) ∧ s.emitOnSeekGE = false := by
  intro ops
  induction ops with
  | nil => intro _ st h he; exact ⟨st, rfl, h, he⟩
  | cons op ops ih =>
    intro hops st h he
    have hstep : ∃ s1, op.apply (dataIter D) st = some s1 ∧
        ((∃ y, FwdAt D 0 s1 y) ∨ FwdDone s1) ∧ s1.emitOnSeekGE = false := by
      have hf := hops op (List.mem_cons_self _ _)
      cases op with
      | seekIntentGE _ _ => cases hf
      | seekLT _ => cases hf
      | nextKey => cases hf
      | prev => cases hf
      | next =>
        rcases h with ⟨y, hy⟩ | hd
        · obtain ⟨s1, h1, h2⟩ := fwdAt_next hwf hy
          exact ⟨s1, h1, landsAfter_settled h2, (next_emit h1).trans he⟩
        · obtain ⟨s1, h1, h2⟩ := fwdDone_next (D := D) hd
          exact ⟨s1, h1, Or.inr h2, (next_emit h1).trans he⟩
      | seekGE k =>
        have hr : Ready D st := by
          rcases h with ⟨y, hy⟩ | hd
          · exact fwdAt_ready hy
          · exact fwdDone_ready hd
        obtain ⟨s1, h1, h2⟩ := seekGE_lands hwf hr k
        rw [he] at h2
        exact ⟨s1, h1, landsFrom_settled h2, (seekGE_emit h1).trans he⟩
    obtain ⟨s1, h1, h2, h3⟩ := hstep
    obtain ⟨s, h4, h5, h6⟩ := ih (fun op' ho => hops op' (List.mem_cons_of_mem _ ho)) s1 h2 h3
    refine ⟨s, ?_, h5, h6⟩
    show (op.apply (dataIter D) st).bind (PosOp.run (dataIter D) ops) = some s
    rw [h1]
    exact h4

/-! ## What every step keeps, over an arbitrary wrapped iterator -/

section Keep

variable {σ : Type}

theorem keeps_refl (I : MVCCIterator σ) (i : pointSynthesizingIter σ) : Keeps I i i :=
  ⟨id, Or.inl ⟨rfl, rfl, rfl⟩⟩

theorem keeps_trans {I : MVCCIterator σ} {a b c : pointSynthesizingIter σ}
    (h1 : Keeps I a b) (h2 : Keeps I b c) : Keeps I a c := by
  refine ⟨fun h => h2.1 (h1.1 h), ?_⟩
  rcases h2.2 with ⟨e1, e2, e3⟩ | hs
  · rcases h1.2 with ⟨f1, f2, f3⟩ | ⟨it, hit, hv⟩
    · exact Or.inl ⟨e1.trans f1, e2.trans f2, e3.trans f3⟩
    · exact Or.inr ⟨it, e1.trans hit, by rw [hv, e2, e3]⟩
  · exact Or.inr hs

theorem keeps_of_eq {I : MVCCIterator σ} {i s : pointSynthesizingIter σ}
    (h1 : s.iter = i.iter) (h2 : s.iterValid = i.iterValid) (h3 : s.iterErr = i.iterErr)
    (h4 : s.rangeKeys = i.rangeKeys) (h5 : s.rangeKeysEnd = i.rangeKeysEnd) : Keeps I i s := by
  refine ⟨fun h => ?_, Or.inl ⟨h1, h2, h3⟩⟩
  unfold WindowOK at h ⊢
  rw [h4, h5]
  exact h

theorem Keeps.synced {I : MVCCIterator σ} {i s : pointSynthesizingIter σ} (h : Keeps I i s)
    (hs : Synced I i) : Synced I s := by
  rcases h.2 with ⟨e1, e2, e3⟩ | h'
  · obtain ⟨it, hit, hv⟩ := hs
    exact ⟨it, e1.trans hit, by rw [hv, e2, e3]⟩
  · exact h'

theorem updateValid_keeps {I : MVCCIterator σ} {i s : pointSynthesizingIter σ}
    (h : updateValid I i = some s) : Keeps I i s ∧ Synced I s := by
  unfold updateValid at h
  split at h
  · cases h
  · rename_i it hit
    injection h with h
    subst h
    have hs : Synced I { i with iterValid := (I.Valid it).1, iterErr := (I.Valid it).2 } :=
      ⟨it, hit, rfl⟩
    exact ⟨⟨fun hw => hw, Or.inr hs⟩, hs⟩

theorem iterNext_keeps {I : MVCCIterator σ} {i s : pointSynthesizingIter σ}
    (h : iterNext I i = some s) : Keeps I i s ∧ Synced I s := by
  unfold iterNext at h
  split at h
  · cases h
  · obtain ⟨h1, h2⟩ := updateValid_keeps h
    exact ⟨⟨fun hw => h1.1 hw, Or.inr h2⟩, h2⟩

theorem iterPrev_keeps {I : MVCCIterator σ} {i s : pointSynthesizingIter σ}
    (h : iterPrev I i = some s) : Keeps I i s ∧ Synced I s := by
  unfold iterPrev at h
  split at h
  · cases h
  · obtain ⟨h1, h2⟩ := updateValid_keeps h
    exact ⟨⟨fun hw => h1.1 hw, Or.inr h2⟩, h2⟩

theorem clearRangeKeys_window (i : pointSynthesizingIter σ) : WindowOK (clearRangeKeys i) := by
  obtain ⟨h1, h2, -⟩ := clearRangeKeys_fields i
  unfold WindowOK
  rw [h1, h2]
  exact ⟨le_refl _, le_refl _⟩

theorem clearRangeKeys_keeps (I : MVCCIterator σ) (i : pointSynthesizingIter σ) :
    Keeps I i (clearRangeKeys i) := by
  obtain ⟨-, -, -, -, -, -, -, h8, h9, -, h11⟩ := clearRangeKeys_fields i
  exact ⟨fun _ => clearRangeKeys_window i, Or.inl ⟨h11, h8, h9⟩⟩

/-- `extendRangeKeysEnd`, when it returns. -/
theorem extend_of_some {I : MVCCIterator σ} {i s : pointSynthesizingIter σ}
    (h : extendRangeKeysEnd I i = some s) :
    ∃ e : Int, s = { i with rangeKeysEnd := e } ∧ i.rangeKeysEnd ≤ e ∧
      (e = i.rangeKeysEnd ∨ (0 ≤ e ∧ e ≤ i.rangeKeys.length)) := by
  by_cases hc : i.iterValid = true → i.iter.isSome = true
  · obtain ⟨e, he, h1, h2⟩ := extend_spec (I := I) hc
    rw [he] at h
    exact ⟨e, (Option.some.inj h).symm, h1, h2⟩
  · exfalso
    have hv : i.iterValid = true := by
      by_contra hv
      exact hc (fun h => absurd h hv)
    have hi : i.iter = none := by
      cases hi : i.iter with
      | none => rfl
      | some it => exact absurd (fun _ => by rw [hi]; rfl) hc
    unfold extendRangeKeysEnd at h
    rw [if_pos hv, hi] at h
    cases h

theorem extend_keeps {I : MVCCIterator σ} {i s : pointSynthesizingIter σ}
    (h : extendRangeKeysEnd I i = some s) : Keeps I i s := by
  obtain ⟨e, rfl, h1, h2⟩ := extend_of_some h
  refine ⟨fun hw => ?_, Or.inl ⟨rfl, rfl, rfl⟩⟩
  unfold WindowOK at hw ⊢
  simp only
  rcases h2 with h2 | h2
  · rw [h2]; exact hw
  · exact h2

/-- `updateAtPoint`, when it returns, has changed `atPoint` only, and has set
it only if the cached validity is true and the underlying iterator is on a
point. -/
theorem updateAtPoint_of_some {I : MVCCIterator σ} {i s : pointSynthesizingIter σ}
    (h : updateAtPoint I i = some s) :
    s = { i with atPoint := s.atPoint } ∧
      (s.atPoint = true →
        i.iterValid = true ∧ ∃ it, i.iter = some it ∧ (I.HasPointAndRange it).1 = true) := by
  cases i with
  | mk iter V pos idx en start atPoint reverse emit iterValid iterErr =>
  unfold updateAtPoint at h
  simp only at h
  split at h
  · injection h with h; subst h
    exact ⟨rfl, fun h => by cases h⟩
  · rename_i hv
    replace hv : iterValid = true := by simpa using hv
    split at h
    · cases h
    · rename_i it
      split at h
      · injection h with h; subst h
        exact ⟨rfl, fun h => by cases h⟩
      · rename_i hp
        replace hp : (I.HasPointAndRange it).1 = true := by simpa using hp
        have key : ∀ b : Bool, (⟨some it, V, pos, idx, en, start, b, reverse, emit, iterValid,
            iterErr⟩ : pointSynthesizingIter σ) =
              { (⟨some it, V, pos, idx, en, start, atPoint, reverse, emit, iterValid,
                iterErr⟩ : pointSynthesizingIter σ) with atPoint := b } ∧
            (b = true → iterValid = true ∧ ∃ it', some it = some it' ∧
              (I.HasPointAndRange it').1 = true) :=
          fun b => ⟨rfl, fun _ => ⟨hv, it, rfl, hp⟩⟩
        repeat' split at h
        all_goals first
          | (cases h; done)
          | (injection h with h; subst h; exact key _)

theorem updateAtPoint_keeps {I : MVCCIterator σ} {i s : pointSynthesizingIter σ}
    (h : updateAtPoint I i = some s) : Keeps I i s := by
  obtain ⟨h1, -⟩ := updateAtPoint_of_some h
  rw [h1]
  exact keeps_of_eq rfl rfl rfl rfl rfl

theorem updateAtPoint_atPointOK {I : MVCCIterator σ} {i s : pointSynthesizingIter σ}
    (h : updateAtPoint I i = some s) : AtPointOK I s := by
  obtain ⟨h1, h2⟩ := updateAtPoint_of_some h
  intro _ hat
  obtain ⟨a, it, b, c⟩ := h2 hat
  rw [h1]
  exact ⟨a, it, b, c⟩

theorem atPointOK_of_err {I : MVCCIterator σ} {s : pointSynthesizingIter σ}
    (h : s.iterErr ≠ none) : AtPointOK I s :=
  fun he => absurd he h

theorem atPointOK_clear_false (I : MVCCIterator σ) (i : pointSynthesizingIter σ) :
    AtPointOK I (clearRangeKeys { i with atPoint := false }) := by
  intro _ hat
  rw [(clearRangeKeys_fields _).2.2.2.2.2.1] at hat
  cases hat

theorem atPointOK_clear {I : MVCCIterator σ} {i : pointSynthesizingIter σ} {it : σ}
    (hv : i.iterValid = true) (hit : i.iter = some it) :
    AtPointOK I (clearRangeKeys { i with atPoint := (I.HasPointAndRange it).1 }) := by
  obtain ⟨-, -, -, -, -, h6, -, h8, -, -, h11⟩ :=
    clearRangeKeys_fields { i with atPoint := (I.HasPointAndRange it).1 }
  intro _ hat
  rw [h6] at hat
  rw [h8, h11]
  exact ⟨hv, it, hit, hat⟩

theorem clear_atPoint_keeps (I : MVCCIterator σ) (i : pointSynthesizingIter σ) (b : Bool) :
    Keeps I i (clearRangeKeys { i with atPoint := b }) :=
  keeps_trans (keeps_of_eq rfl rfl rfl rfl rfl : Keeps I i { i with atPoint := b })
    (clearRangeKeys_keeps I _)

theorem updateRangeKeys_keeps {I : MVCCIterator σ} {i s : pointSynthesizingIter σ}
    (h : updateRangeKeys I i = some s) : Keeps I i s ∧ WindowOK s := by
  have hclear : Keeps I i (clearRangeKeys i) ∧ WindowOK (clearRangeKeys i) :=
    ⟨clearRangeKeys_keeps I i, clearRangeKeys_window i⟩
  cases hit : i.iter with
  | none =>
    unfold updateRangeKeys at h
    rw [hit] at h
    by_cases hv : i.iterValid = true
    · simp [hv] at h
    · simp only [hv, Bool.not_false, Bool.false_eq_true, not_false_eq_true, if_true,
        Option.some.injEq] at h
      subst h
      exact hclear
  | some it =>
    by_cases hc : i.iterValid = true ∧ (I.HasPointAndRange it).2 = true
    · obtain ⟨e, he, hs⟩ := updateRangeKeys_spec hit hc.1 hc.2
      rw [hs] at h
      cases h
      have hw : WindowOK ({ i with
          rangeKeysPos := (I.UnsafeKey it).Key, rangeKeysStart := (I.RangeBounds it).Key,
          rangeKeys := if (I.RangeBounds it).Key = i.rangeKeysStart then i.rangeKeys
            else (I.RangeKeys it).Versions,
          rangeKeysEnd := e, rangeKeysIdx := if i.reverse = true then e - 1 else 0 } :
          pointSynthesizingIter σ) := by
        unfold WindowOK
        simp only
        split at he
        · rw [he]
          exact ⟨by omega, le_refl _⟩
        · obtain ⟨e', h1, h2, h3⟩ := extend_of_some he
          have : e = e' := congrArg (fun s => s.rangeKeysEnd) h1
          subst this
          simp only at h2 h3
          rcases h3 with h3 | h3
          · rw [h3]; exact ⟨le_refl _, by omega⟩
          · exact h3
      exact ⟨⟨fun _ => hw, Or.inl ⟨rfl, rfl, rfl⟩⟩, hw⟩
    · rw [updateRangeKeys_none hit (by
        by_cases hv : i.iterValid = true
        · right
          cases hr : (I.HasPointAndRange it).2
          · rfl
          · exact absurd ⟨hv, hr⟩ hc
        · left; simpa using hv)] at h
      cases h
      exact hclear

theorem steppedPrev_keeps {I : MVCCIterator σ} {i i1 : pointSynthesizingIter σ} {c b : Bool}
    (h : (if c = true then
        match iterPrev I i with
        | none => none
        | some i1 => some (i1, decide (i1.iterErr ≠ none))
      else some (i, false)) = some (i1, b)) :
    Keeps I i i1 ∧ (b = true → i1.iterErr ≠ none) := by
  split at h
  · split at h
    · cases h
    · rename_i i2 h2
      simp only [Option.some.injEq, Prod.mk.injEq] at h
      obtain ⟨rfl, rfl⟩ := h
      exact ⟨(iterPrev_keeps h2).1, fun hb => by simpa using hb⟩
  · simp only [Option.some.injEq, Prod.mk.injEq] at h
    obtain ⟨rfl, rfl⟩ := h
    exact ⟨keeps_refl I i, fun hb => by cases hb⟩

theorem updatePosition_keeps {I : MVCCIterator σ} {i s : pointSynthesizingIter σ}
    (h : updatePosition I i = some s) : Keeps I i s ∧ AtPointOK I s := by
  unfold updatePosition at h
  split at h
  · injection h with h; subst h
    exact ⟨clear_atPoint_keeps I i _,
      atPointOK_clear_false I i⟩
  · rename_i hv
    replace hv : i.iterValid = true := by simpa using hv
    split at h
    · cases h
    · rename_i it hit
      simp only at h
      split at h
      · injection h with h; subst h
        exact ⟨clear_atPoint_keeps I i _,
          atPointOK_clear hv hit⟩
      · split at h
        · split at h
          · cases h
          · rename_i i1 h1
            have e1 := (updateRangeKeys_keeps h1).1
            split at h
            · split at h
              · cases h
              · rename_i i2 h2
                have e2 := (iterNext_keeps h2).1
                split at h
                · rename_i herr
                  injection h with h; subst h
                  exact ⟨keeps_trans e1 e2, atPointOK_of_err herr⟩
                · split at h
                  · cases h
                  · rename_i i3 h3
                    exact ⟨keeps_trans e1 (keeps_trans e2 (keeps_trans (extend_keeps h3)
                      (updateAtPoint_keeps h))), updateAtPoint_atPointOK h⟩
            · exact ⟨keeps_trans e1 (updateAtPoint_keeps h), updateAtPoint_atPointOK h⟩
        · split at h
          · cases h
          · rename_i i1 hst
            injection h with h; subst h
            obtain ⟨a, b⟩ := steppedPrev_keeps hst
            exact ⟨a, atPointOK_of_err (b rfl)⟩
          · rename_i i1 hst
            have e1 := (steppedPrev_keeps hst).1
            split at h
            · cases h
            · rename_i i2 h2
              exact ⟨keeps_trans e1 (keeps_trans (updateRangeKeys_keeps h2).1
                (updateAtPoint_keeps h)), updateAtPoint_atPointOK h⟩

theorem finishFwd_keeps {I : MVCCIterator σ} {i s : pointSynthesizingIter σ}
    (h : finishFwd I i = some s) : Keeps I i s ∧ AtPointOK I s := by
  unfold finishFwd at h
  split at h
  · cases h
  · rename_i i2 h2
    have e2 := updateAtPoint_keeps h2
    split at h
    · obtain ⟨a, b⟩ := updatePosition_keeps h
      exact ⟨keeps_trans e2 a, b⟩
    · injection h with h; subst h
      exact ⟨e2, updateAtPoint_atPointOK h2⟩

theorem seekWindow_keeps (I : MVCCIterator σ) (b : Bool) (i : pointSynthesizingIter σ) :
    Keeps I i (seekWindow b i) := by
  unfold seekWindow
  split
  · refine ⟨fun _ => ?_, Or.inl ⟨rfl, rfl, rfl⟩⟩
    unfold WindowOK
    simp only
    exact ⟨by omega, le_refl _⟩
  · exact keeps_refl I i

theorem seekCursor_keeps {I : MVCCIterator σ} {k : MVCCKey} {i s : pointSynthesizingIter σ}
    (h : seekCursor k i = some s) : Keeps I i s := by
  unfold seekCursor at h
  split at h
  · rw [Option.map_eq_some'] at h
    obtain ⟨n, -, hn⟩ := h
    rw [← hn]
    exact keeps_of_eq rfl rfl rfl rfl rfl
  · injection h with h; subst h
    exact keeps_refl I i

theorem seekLTCursor_keeps {I : MVCCIterator σ} {k : MVCCKey} {i s : pointSynthesizingIter σ}
    (h : seekLTCursor k i = some s) : Keeps I i s := by
  unfold seekLTCursor at h
  split at h
  · rw [Option.map_eq_some'] at h
    obtain ⟨n, -, hn⟩ := h
    rw [← hn]
    exact keeps_of_eq rfl rfl rfl rfl rfl
  · injection h with h; subst h
    exact keeps_refl I i

theorem steppedNext_keeps {I : MVCCIterator σ} {i i1 i0 : pointSynthesizingIter σ} {c b : Bool}
    (h0 : Keeps I i i0)
    (h : (if c = true then
        match iterNext I i with
        | none => none
        | some i2 =>
          if i2.iterErr ≠ none then some (i2, true)
          else (extendRangeKeysEnd I i2).map (fun i3 => (i3, false))
      else some (i0, false)) = some (i1, b)) :
    Keeps I i i1 ∧ (b = true → i1.iterErr ≠ none) := by
  split at h
  · split at h
    · cases h
    · rename_i i2 h2
      have e2 := (iterNext_keeps h2).1
      split at h
      · rename_i herr
        simp only [Option.some.injEq, Prod.mk.injEq] at h
        obtain ⟨rfl, rfl⟩ := h
        exact ⟨e2, fun _ => herr⟩
      · rw [Option.map_eq_some'] at h
        obtain ⟨i3, h3, hp⟩ := h
        simp only [Prod.mk.injEq] at hp
        obtain ⟨rfl, rfl⟩ := hp
        exact ⟨keeps_trans e2 (extend_keeps h3), fun hb => by cases hb⟩
  · simp only [Option.some.injEq, Prod.mk.injEq] at h
    obtain ⟨rfl, rfl⟩ := h
    exact ⟨h0, fun hb => by cases hb⟩

theorem tail_keeps {I : MVCCIterator σ} {k : MVCCKey} {hp hr : Bool}
    {i s : pointSynthesizingIter σ}
    (h : updateSeekGEPositionTail I k hp hr i = some s) : Keeps I i s ∧ AtPointOK I s := by
  unfold updateSeekGEPositionTail at h
  split at h
  · cases h
  · rename_i i1 h1
    have e1 := (updateRangeKeys_keeps h1).1
    simp only at h
    split at h
    · cases h
    · rename_i i2 hst
      obtain ⟨e2, herr⟩ := steppedNext_keeps (keeps_refl I i1) hst
      injection h with h; subst h
      exact ⟨keeps_trans e1 e2, atPointOK_of_err (herr rfl)⟩
    · rename_i i2 hst
      obtain ⟨e2, -⟩ := steppedNext_keeps (keeps_refl I i1) hst
      split at h
      · cases h
      · rename_i i5 h5
        obtain ⟨a, b⟩ := finishFwd_keeps h
        exact ⟨keeps_trans e1 (keeps_trans e2 (keeps_trans (seekWindow_keeps I hr i2)
          (keeps_trans (seekCursor_keeps h5) a))), b⟩

theorem updateSeekGEPosition_keeps {I : MVCCIterator σ} {k : MVCCKey}
    {i s : pointSynthesizingIter σ} (hv : i.iterValid = true)
    (h : updateSeekGEPosition I k i = some s) : Keeps I i s ∧ AtPointOK I s := by
  unfold updateSeekGEPosition at h
  split at h
  · cases h
  · rename_i it hit
    simp only at h
    split at h
    · injection h with h; subst h
      exact ⟨clear_atPoint_keeps I i _,
        atPointOK_clear hv hit⟩
    · split at h
      · split at h
        · cases h
        · rename_i i1 h1
          have e1 := (iterNext_keeps h1).1
          split at h
          · obtain ⟨a, b⟩ := updatePosition_keeps h
            exact ⟨keeps_trans e1 a, b⟩
          · split at h
            · cases h
            · obtain ⟨a, b⟩ := tail_keeps h
              exact ⟨keeps_trans e1 a, b⟩
      · exact tail_keeps h

theorem seekGE_keeps {I : MVCCIterator σ} {k : MVCCKey} {i s : pointSynthesizingIter σ}
    (h : SeekGE I k i = some s) :
    (WindowOK i → WindowOK s) ∧ Synced I s ∧ AtPointOK I s := by
  unfold SeekGE at h
  split at h
  · cases h
  · split at h
    · cases h
    · rename_i i1 h1
      obtain ⟨e1, hs1⟩ := updateValid_keeps h1
      have hw1 : WindowOK i → WindowOK i1 := fun hw => e1.1 hw
      split at h
      · obtain ⟨a, b⟩ := updatePosition_keeps h
        exact ⟨fun hw => a.1 (hw1 hw), a.synced hs1, b⟩
      · rename_i hv
        obtain ⟨a, b⟩ := updateSeekGEPosition_keeps (by simpa using hv) h
        exact ⟨fun hw => a.1 (hw1 hw), a.synced hs1, b⟩

theorem seekIntentGE_keeps {I : MVCCIterator σ} {k : Nat} {u : uuid.UUID}
    {i s : pointSynthesizingIter σ} (h : SeekIntentGE I k u i = some s) :
    (WindowOK i → WindowOK s) ∧ Synced I s ∧ AtPointOK I s := by
  unfold SeekIntentGE at h
  split at h
  · cases h
  · split at h
    · cases h
    · rename_i i1 h1
      obtain ⟨e1, hs1⟩ := updateValid_keeps h1
      have hw1 : WindowOK i → WindowOK i1 := fun hw => e1.1 hw
      split at h
      · obtain ⟨a, b⟩ := updatePosition_keeps h
        exact ⟨fun hw => a.1 (hw1 hw), a.synced hs1, b⟩
      · rename_i hv
        obtain ⟨a, b⟩ := updateSeekGEPosition_keeps (by simpa using hv) h
        exact ⟨fun hw => a.1 (hw1 hw), a.synced hs1, b⟩

theorem nextStep_keeps {I : MVCCIterator σ} {i s : pointSynthesizingIter σ}
    (h : nextStep I i = some s) : Keeps I i s ∧ AtPointOK I s := by
  unfold nextStep at h
  simp only at h
  split at h
  · cases h
  · rename_i i1 hst
    obtain ⟨e1, herr⟩ := steppedNext_keeps (i := i)
      (keeps_of_eq rfl rfl rfl rfl rfl :
        Keeps I i { i with rangeKeysIdx := i.rangeKeysIdx + 1 }) hst
    injection h with h; subst h
    exact ⟨e1, atPointOK_of_err (herr rfl)⟩
  · rename_i i1 hst
    obtain ⟨e1, -⟩ := steppedNext_keeps (i := i)
      (keeps_of_eq rfl rfl rfl rfl rfl :
        Keeps I i { i with rangeKeysIdx := i.rangeKeysIdx + 1 }) hst
    obtain ⟨a, b⟩ := finishFwd_keeps h
    exact ⟨keeps_trans e1 a, b⟩

theorem next_keeps {I : MVCCIterator σ} {i s : pointSynthesizingIter σ}
    (h : Next I i = some s) : Keeps I i s ∧ AtPointOK I s := by
  have k0 : Keeps I i { i with reverse := false } := keeps_of_eq rfl rfl rfl rfl rfl
  unfold Next at h
  split at h
  · simp only at h
    split at h
    · split at h
      · cases h
      · rename_i i1 h1
        have e1 := keeps_trans k0 (iterNext_keeps h1).1
        split at h
        · rename_i herr
          injection h with h; subst h
          exact ⟨e1, atPointOK_of_err herr⟩
        · obtain ⟨a, b⟩ := updatePosition_keeps h
          exact ⟨keeps_trans e1 a, b⟩
    · split at h
      · obtain ⟨a, b⟩ := nextStep_keeps h
        exact ⟨keeps_trans (keeps_of_eq rfl rfl rfl rfl rfl) a, b⟩
      · split at h
        · cases h
        · rename_i i1 h1
          have e1 := keeps_trans k0 (iterNext_keeps h1).1
          split at h
          · rename_i herr
            injection h with h; subst h
            exact ⟨e1, atPointOK_of_err herr⟩
          · obtain ⟨a, b⟩ := nextStep_keeps h
            exact ⟨keeps_trans e1 a, b⟩
  · exact nextStep_keeps h

theorem updateValid_moved {I : MVCCIterator σ} {i s : pointSynthesizingIter σ} {it : σ}
    {r : Bool} (h : updateValid I { i with reverse := r, iter := some it } = some s) :
    Keeps I i s ∧ Synced I s := by
  obtain ⟨h1, h2⟩ := updateValid_keeps h
  exact ⟨⟨fun hw => h1.1 hw, Or.inr h2⟩, h2⟩

theorem nextKey_keeps {I : MVCCIterator σ} {i s : pointSynthesizingIter σ}
    (h : NextKey I i = some s) : Keeps I i s ∧ AtPointOK I s := by
  unfold NextKey at h
  simp only at h
  have tailK : ∀ {i1 : pointSynthesizingIter σ}, Keeps I i i1 →
      (match i1.iter with
        | none => none
        | some it =>
          if (i1.atPoint || roachpb.Key.Equal i1.rangeKeysPos (I.UnsafeKey it).Key) = true then
            match updateValid I { i1 with iter := some (I.NextKey it) } with
            | none => none
            | some i2 => if i2.iterErr ≠ none then some i2 else updatePosition I i2
          else updatePosition I i1) = some s → Keeps I i s ∧ AtPointOK I s := by
    intro i1 e1 h
    split at h
    · cases h
    · rename_i it hit
      split at h
      · split at h
        · cases h
        · rename_i i2 h2
          have e2 : Keeps I i1 i2 := (updateValid_moved (r := i1.reverse) h2).1
          split at h
          · rename_i herr
            injection h with h; subst h
            exact ⟨keeps_trans e1 e2, atPointOK_of_err herr⟩
          · obtain ⟨a, b⟩ := updatePosition_keeps h
            exact ⟨keeps_trans e1 (keeps_trans e2 a), b⟩
      · obtain ⟨a, b⟩ := updatePosition_keeps h
        exact ⟨keeps_trans e1 a, b⟩
  split at h
  · cases h
  · rename_i i1 hst
    injection h with h; subst h
    split at hst
    · split at hst
      · split at hst
        · cases hst
        · rename_i i2 h2
          simp only [Option.some.injEq, Prod.mk.injEq] at hst
          obtain ⟨rfl, hb⟩ := hst
          exact ⟨keeps_trans (keeps_of_eq rfl rfl rfl rfl rfl : Keeps I i { i with reverse := false })
            (iterNext_keeps h2).1, atPointOK_of_err (by simpa using hb)⟩
      · simp at hst
    · simp at hst
  · rename_i i1 hst
    refine tailK ?_ h
    split at hst
    · split at hst
      · split at hst
        · cases hst
        · rename_i i2 h2
          simp only [Option.some.injEq, Prod.mk.injEq] at hst
          obtain ⟨rfl, -⟩ := hst
          exact keeps_trans (keeps_of_eq rfl rfl rfl rfl rfl : Keeps I i { i with reverse := false })
            (iterNext_keeps h2).1
      · simp only [Option.some.injEq, Prod.mk.injEq] at hst
        obtain ⟨rfl, -⟩ := hst
        exact keeps_of_eq rfl rfl rfl rfl rfl
    · simp only [Option.some.injEq, Prod.mk.injEq] at hst
      obtain ⟨rfl, -⟩ := hst
      exact keeps_refl I i

theorem seekLTTail_keeps {I : MVCCIterator σ} {k : MVCCKey} {i s : pointSynthesizingIter σ}
    (h : seekLTTail I k i = some s) : Keeps I i s ∧ AtPointOK I s := by
  unfold seekLTTail at h
  split at h
  · cases h
  · rename_i i2 h2
    have e2 : Keeps I i i2 := seekLTCursor_keeps h2
    split at h
    · cases h
    · rename_i i3 h3
      have e3 := updateAtPoint_keeps h3
      split at h
      · obtain ⟨a, b⟩ := updatePosition_keeps h
        exact ⟨keeps_trans e2 (keeps_trans e3 a), b⟩
      · injection h with h; subst h
        exact ⟨keeps_trans e2 e3, updateAtPoint_atPointOK h3⟩

theorem seekLT_keeps {I : MVCCIterator σ} {k : MVCCKey} {i s : pointSynthesizingIter σ}
    (h : SeekLT I k i = some s) :
    (WindowOK i → WindowOK s) ∧ Synced I s ∧ AtPointOK I s := by
  unfold SeekLT at h
  split at h
  · cases h
  · split at h
    · cases h
    · rename_i i1 h1
      obtain ⟨e1, hs1⟩ := updateValid_moved h1
      suffices hk : Keeps I i1 s ∧ AtPointOK I s from
        ⟨fun hw => hk.1.1 (e1.1 hw), hk.1.synced hs1, hk.2⟩
      split at h
      · exact updatePosition_keeps h
      · rename_i hv
        replace hv : i1.iterValid = true := by simpa using hv
        split at h
        · cases h
        · rename_i it1 hit1
          simp only at h
          split at h
          · injection h with h; subst h
            exact ⟨clear_atPoint_keeps I i1 _, atPointOK_clear hv hit1⟩
          · split at h
            · split at h
              · cases h
              · rename_i i2 h2
                have e2 := (iterNext_keeps h2).1
                split at h
                · rename_i herr
                  injection h with h; subst h
                  exact ⟨e2, atPointOK_of_err herr⟩
                · split at h
                  · cases h
                  · rename_i i3 positioned hpk
                    have e3 : Keeps I i2 i3 := by
                      split at hpk
                      · split at hpk
                        · cases hpk
                        · split at hpk
                          · rw [Option.map_eq_some'] at hpk
                            obtain ⟨i3', h3', hp⟩ := hpk
                            simp only [Prod.mk.injEq] at hp
                            obtain ⟨rfl, -⟩ := hp
                            exact (updateRangeKeys_keeps h3').1
                          · simp only [Option.some.injEq, Prod.mk.injEq] at hpk
                            obtain ⟨rfl, -⟩ := hpk
                            exact keeps_refl I i2
                      · simp only [Option.some.injEq, Prod.mk.injEq] at hpk
                        obtain ⟨rfl, -⟩ := hpk
                        exact keeps_refl I i2
                    split at h
                    · cases h
                    · rename_i i4 h4
                      have e4 := keeps_trans e2 (keeps_trans e3 (iterPrev_keeps h4).1)
                      split at h
                      · obtain ⟨a, b⟩ := updatePosition_keeps h
                        exact ⟨keeps_trans e4 a, b⟩
                      · split at h
                        · obtain ⟨a, b⟩ := seekLTTail_keeps h
                          exact ⟨keeps_trans e4 a, b⟩
                        · split at h
                          · cases h
                          · rename_i i5 h5
                            obtain ⟨a, b⟩ := seekLTTail_keeps h
                            exact ⟨keeps_trans e4 (keeps_trans (updateRangeKeys_keeps h5).1 a), b⟩
            · split at h
              · cases h
              · rename_i i2 h2
                obtain ⟨a, b⟩ := seekLTTail_keeps h
                exact ⟨keeps_trans (updateRangeKeys_keeps h2).1 a, b⟩

theorem finishRev_keeps {I : MVCCIterator σ} {i s : pointSynthesizingIter σ}
    (h : finishRev I i = some s) : Keeps I i s ∧ AtPointOK I s := by
  unfold finishRev at h
  split at h
  · cases h
  · rename_i i2 h2
    have e2 := updateAtPoint_keeps h2
    have a2 := updateAtPoint_atPointOK h2
    split at h
    · split at h
      · obtain ⟨a, b⟩ := updatePosition_keeps h
        exact ⟨keeps_trans e2 a, b⟩
      · split at h
        · cases h
        · split at h
          · obtain ⟨a, b⟩ := updatePosition_keeps h
            exact ⟨keeps_trans e2 a, b⟩
          · injection h with h; subst h
            exact ⟨e2, a2⟩
    · injection h with h; subst h
      exact ⟨e2, a2⟩

theorem prevStep_keeps {I : MVCCIterator σ} {i s : pointSynthesizingIter σ}
    (h : prevStep I i = some s) : Keeps I i s ∧ AtPointOK I s := by
  unfold prevStep at h
  simp only at h
  split at h
  · cases h
  · rename_i i1 hst
    injection h with h; subst h
    split at hst
    · split at hst
      · cases hst
      · rename_i i2 h2
        simp only [Option.some.injEq, Prod.mk.injEq] at hst
        obtain ⟨rfl, hb⟩ := hst
        exact ⟨(iterPrev_keeps h2).1, atPointOK_of_err (by simpa using hb)⟩
    · simp at hst
  · rename_i i1 hst
    have e1 : Keeps I i i1 := by
      split at hst
      · split at hst
        · cases hst
        · rename_i i2 h2
          simp only [Option.some.injEq, Prod.mk.injEq] at hst
          obtain ⟨rfl, -⟩ := hst
          exact (iterPrev_keeps h2).1
      · simp only [Option.some.injEq, Prod.mk.injEq] at hst
        obtain ⟨rfl, -⟩ := hst
        exact keeps_of_eq rfl rfl rfl rfl rfl
    obtain ⟨a, b⟩ := finishRev_keeps h
    exact ⟨keeps_trans e1 a, b⟩

theorem prev_keeps {I : MVCCIterator σ} {i s : pointSynthesizingIter σ}
    (h : Prev I i = some s) : Keeps I i s ∧ AtPointOK I s := by
  have k0 : Keeps I i { i with reverse := true } := keeps_of_eq rfl rfl rfl rfl rfl
  unfold Prev at h
  split at h
  · simp only at h
    split at h
    · split at h
      · cases h
      · rename_i i1 h1
        have e1 := keeps_trans k0 (iterPrev_keeps h1).1
        split at h
        · rename_i herr
          injection h with h; subst h
          exact ⟨e1, atPointOK_of_err herr⟩
        · obtain ⟨a, b⟩ := updatePosition_keeps h
          exact ⟨keeps_trans e1 a, b⟩
    · split at h
      · obtain ⟨a, b⟩ := prevStep_keeps h
        exact ⟨keeps_trans (keeps_of_eq rfl rfl rfl rfl rfl) a, b⟩
      · split at h
        · cases h
        · rename_i i1 h1
          have e1 := keeps_trans k0 (iterPrev_keeps h1).1
          split at h
          · rename_i herr
            injection h with h; subst h
            exact ⟨e1, atPointOK_of_err herr⟩
          · obtain ⟨a, b⟩ := prevStep_keeps h
            exact ⟨keeps_trans e1 a, b⟩
  · exact prevStep_keeps h

/-- Every public positioning call keeps the window bound, and the cached
validity unchanged or synchronised; after it a real point is a point of the
underlying iterator. -/
theorem apply_keeps {I : MVCCIterator σ} {op : PosOp} {i s : pointSynthesizingIter σ}
    (h : op.apply I i = some s) : Keeps I i s ∧ AtPointOK I s := by
  cases op with
  | seekGE k =>
    obtain ⟨a, b, c⟩ := seekGE_keeps h
    exact ⟨⟨a, Or.inr b⟩, c⟩
  | seekIntentGE k u =>
    obtain ⟨a, b, c⟩ := seekIntentGE_keeps h
    exact ⟨⟨a, Or.inr b⟩, c⟩
  | seekLT k =>
    obtain ⟨a, b, c⟩ := seekLT_keeps h
    exact ⟨⟨a, Or.inr b⟩, c⟩
  | next => exact next_keeps h
  | nextKey => exact nextKey_keeps h
  | prev => exact prev_keeps h

theorem apply_seek_synced {I : MVCCIterator σ} {op : PosOp} {i s : pointSynthesizingIter σ}
    (hop : op.isSeek = true) (h : op.apply I i = some s) : Synced I s := by
  cases op with
  | seekGE k => exact (seekGE_keeps h).2.1
  | seekIntentGE k u => exact (seekIntentGE_keeps h).2.1
  | seekLT k => exact (seekLT_keeps h).2.1
  | next => cases hop
  | nextKey => cases hop
  | prev => cases hop

theorem run_cons {I : MVCCIterator σ} {op : PosOp} {ops : List PosOp}
    {i s : pointSynthesizingIter σ} (h : PosOp.run I (op :: ops) i = some s) :
    ∃ m, op.apply I i = some m ∧ PosOp.run I ops m = some s := by
  unfold PosOp.run at h
  cases hm : op.apply I i with
  | none => rw [hm] at h; cases h
  | some m => rw [hm] at h; exact ⟨m, rfl, h⟩

theorem run_keeps {I : MVCCIterator σ} {ops : List PosOp} {i s : pointSynthesizingIter σ}
    (h : PosOp.run I ops i = some s) : Keeps I i s := by
  induction ops generalizing i with
  | nil =>
    unfold PosOp.run at h
    injection h with h; subst h
    exact keeps_refl I i
  | cons op ops ih =>
    obtain ⟨m, h1, h2⟩ := run_cons h
    exact keeps_trans (apply_keeps h1).1 (ih h2)

theorem run_snoc {I : MVCCIterator σ} {ops : List PosOp} {op : PosOp}
    {i s : pointSynthesizingIter σ} (h : PosOp.run I (ops ++ [op]) i = some s) :
    ∃ m, PosOp.run I ops i = some m ∧ op.apply I m = some s := by
  induction ops generalizing i with
  | nil =>
    obtain ⟨m, h1, h2⟩ := run_cons h
    unfold PosOp.run at h2
    injection h2 with h2; subst h2
    exact ⟨i, rfl, h1⟩
  | cons o ops ih =>
    obtain ⟨m, h1, h2⟩ := run_cons h
    obtain ⟨m2, h3, h4⟩ := ih h2
    refine ⟨m2, ?_, h4⟩
    show (PosOp.apply I o i).bind (PosOp.run I ops) = some m2
    rw [h1]
    exact h3

end Keep

/-! ## An iterator without range keys -/

section Plain

variable {σ : Type}

theorem passthrough_clear (I : MVCCIterator σ) (i : pointSynthesizingIter σ) {it : σ} {b : Bool}
    (hit : i.iter = some it) (hv : I.Valid it = (i.iterValid, i.iterErr))
    (hb : i.iterValid = true → b = true) :
    Passthrough I (clearRangeKeys { i with atPoint := b }) it := by
  obtain ⟨h1, h2, -, -, -, h6, -, h8, h9, -, h11⟩ := clearRangeKeys_fields { i with atPoint := b }
  refine ⟨h11.trans hit, h1, h2, ?_, ?_⟩
  · rw [h8, h9]; exact hv
  · rw [h8, h6]; exact hb

theorem updatePosition_plain {I : MVCCIterator σ}
    (hR : ∀ c, (I.HasPointAndRange c).2 = false)
    (hP : ∀ c, (I.Valid c).1 = true → (I.HasPointAndRange c).1 = true)
    {i : pointSynthesizingIter σ} {it : σ} (hit : i.iter = some it)
    (hv : I.Valid it = (i.iterValid, i.iterErr)) :
    ∃ s, updatePosition I i = some s ∧ Passthrough I s it := by
  cases hval : i.iterValid with
  | false =>
    refine ⟨clearRangeKeys { i with atPoint := false }, by simp [updatePosition, hval],
      passthrough_clear I i hit hv ?_⟩
    intro h; rw [hval] at h; cases h
  | true =>
    have hp : (I.HasPointAndRange it).1 = true := hP it (by rw [hv]; exact hval)
    refine ⟨clearRangeKeys { i with atPoint := true }, ?_, passthrough_clear I i hit hv (fun _ => rfl)⟩
    simp [updatePosition, hval, hit, hR it, hp]

theorem updateAtPoint_plain {I : MVCCIterator σ}
    (hP : ∀ c, (I.Valid c).1 = true → (I.HasPointAndRange c).1 = true)
    {i : pointSynthesizingIter σ} {it : σ} (hit : i.iter = some it)
    (hv : I.Valid it = (i.iterValid, i.iterErr)) (hk : i.rangeKeys = []) :
    updateAtPoint I i = some { i with atPoint := i.iterValid } := by
  cases hval : i.iterValid with
  | false => simp [updateAtPoint, hval]
  | true =>
    have hp : (I.HasPointAndRange it).1 = true := hP it (by rw [hv]; exact hval)
    simp [updateAtPoint, hval, hit, hp, hk]

theorem extend_plain {I : MVCCIterator σ} {i : pointSynthesizingIter σ} {it : σ}
    (hit : i.iter = some it) (hk : i.rangeKeys = []) (he : i.rangeKeysEnd = 0) :
    extendRangeKeysEnd I i = some i := by
  unfold extendRangeKeysEnd
  rw [hit, hk, he]
  simp only [List.length_nil]
  split
  · split
    · split
      · simp [sortSearch, sortSearchLoop]
      · rfl
    · rfl
  · rfl

/-- After an underlying step taken from a real point, in either direction, the
adapter passes the iterator through. -/
theorem finish_plain {I : MVCCIterator σ}
    (hR : ∀ c, (I.HasPointAndRange c).2 = false)
    (hP : ∀ c, (I.Valid c).1 = true → (I.HasPointAndRange c).1 = true)
    {i : pointSynthesizingIter σ} {it : σ} (hit : i.iter = some it)
    (hv : I.Valid it = (i.iterValid, i.iterErr)) (hk : i.rangeKeys = [])
    (he : i.rangeKeysEnd = 0) :
    (∃ s, finishFwd I i = some s ∧ Passthrough I s it) ∧
      (∃ s, finishRev I i = some s ∧ Passthrough I s it) := by
  have hap := updateAtPoint_plain hP hit hv hk
  cases i with
  | mk iter V pos idx en start atPoint reverse emit iterValid iterErr =>
  simp only at hit hk he hv hap
  subst hit hk he
  have hpt : Passthrough I
      ⟨some it, [], pos, idx, 0, start, iterValid, reverse, emit, iterValid, iterErr⟩ it :=
    ⟨rfl, rfl, rfl, hv, fun h => h⟩
  have hup := updatePosition_plain hR hP
    (i := ⟨some it, [], pos, idx, 0, start, iterValid, reverse, emit, iterValid, iterErr⟩) rfl hv
  constructor
  · unfold finishFwd
    rw [hap]
    simp only
    split
    · exact hup
    · exact ⟨_, rfl, hpt⟩
  · unfold finishRev
    rw [hap]
    simp only
    split
    · split
      · exact hup
      · split
        · exact hup
        · exact ⟨_, rfl, hpt⟩
    · exact ⟨_, rfl, hpt⟩

theorem iterNext_eq {I : MVCCIterator σ} {i : pointSynthesizingIter σ} {it : σ}
    (hit : i.iter = some it) :
    iterNext I i = some
      { i with
        iter := some (I.Next it)
        iterValid := (I.Valid (I.Next it)).1
        iterErr := (I.Valid (I.Next it)).2 } := by
  simp [iterNext, updateValid, hit]

theorem iterPrev_eq {I : MVCCIterator σ} {i : pointSynthesizingIter σ} {it : σ}
    (hit : i.iter = some it) :
    iterPrev I i = some
      { i with
        iter := some (I.Prev it)
        iterValid := (I.Valid (I.Prev it)).1
        iterErr := (I.Valid (I.Prev it)).2 } := by
  simp [iterPrev, updateValid, hit]

theorem nextStep_plain {I : MVCCIterator σ}
    (hR : ∀ c, (I.HasPointAndRange c).2 = false)
    (hP : ∀ c, (I.Valid c).1 = true → (I.HasPointAndRange c).1 = true)
    {i : pointSynthesizingIter σ} {it : σ} (hit : i.iter = some it) (hat : i.atPoint = true)
    (hk : i.rangeKeys = []) (he : i.rangeKeysEnd = 0) :
    ∃ s, nextStep I i = some s ∧ Passthrough I s (I.Next it) := by
  cases i with
  | mk iter V pos idx en start atPoint reverse emit iterValid iterErr =>
  simp only at hit hat hk he
  subst hit hat hk he
  rcases hV : I.Valid (I.Next it) with ⟨v, e⟩
  have hfin := (finish_plain hR hP
    (i := ⟨some (I.Next it), [], pos, idx, 0, start, true, reverse, emit, v, e⟩) rfl hV rfl rfl).1
  have hx := extend_plain (I := I)
    (i := ⟨some (I.Next it), [], pos, idx, 0, start, true, reverse, emit, v, e⟩) rfl rfl rfl
  cases e with
  | none => simpa [nextStep, iterNext, updateValid, hV, hx] using hfin
  | some e =>
    exact ⟨⟨some (I.Next it), [], pos, idx, 0, start, true, reverse, emit, v, some e⟩,
      by simp [nextStep, iterNext, updateValid, hV], rfl, rfl, rfl, hV, fun _ => rfl⟩

theorem prevStep_plain {I : MVCCIterator σ}
    (hR : ∀ c, (I.HasPointAndRange c).2 = false)
    (hP : ∀ c, (I.Valid c).1 = true → (I.HasPointAndRange c).1 = true)
    {i : pointSynthesizingIter σ} {it : σ} (hit : i.iter = some it) (hat : i.atPoint = true)
    (hk : i.rangeKeys = []) (he : i.rangeKeysEnd = 0) :
    ∃ s, prevStep I i = some s ∧ Passthrough I s (I.Prev it) := by
  cases i with
  | mk iter V pos idx en start atPoint reverse emit iterValid iterErr =>
  simp only at hit hat hk he
  subst hit hat hk he
  rcases hV : I.Valid (I.Prev it) with ⟨v, e⟩
  have hfin := (finish_plain hR hP
    (i := ⟨some (I.Prev it), [], pos, idx, 0, start, true, reverse, emit, v, e⟩) rfl hV rfl rfl).2
  cases e with
  | none => simpa [prevStep, iterPrev, updateValid, hV] using hfin
  | some e =>
    exact ⟨⟨some (I.Prev it), [], pos, idx, 0, start, true, reverse, emit, v, some e⟩,
      by simp [prevStep, iterPrev, updateValid, hV], rfl, rfl, rfl, hV, fun _ => rfl⟩

theorem next_plain {I : MVCCIterator σ}
    (hR : ∀ c, (I.HasPointAndRange c).2 = false)
    (hP : ∀ c, (I.Valid c).1 = true → (I.HasPointAndRange c).1 = true)
    {i : pointSynthesizingIter σ} {it : σ} (h : Passthrough I i it)
    (hval : i.iterValid = true) :
    ∃ s, Next I i = some s ∧ Passthrough I s (I.Next it) := by
  obtain ⟨hit, hk, he, -, hat⟩ := h
  have hat := hat hval
  have h1 := nextStep_plain hR hP hit hat hk he
  have h2 := nextStep_plain hR hP
    (i := { i with reverse := false, rangeKeysIdx := i.rangeKeysIdx + 1 }) hit hat hk he
  unfold Next
  split
  · simpa [hat] using h2
  · exact h1

theorem prev_plain {I : MVCCIterator σ}
    (hR : ∀ c, (I.HasPointAndRange c).2 = false)
    (hP : ∀ c, (I.Valid c).1 = true → (I.HasPointAndRange c).1 = true)
    {i : pointSynthesizingIter σ} {it : σ} (h : Passthrough I i it)
    (hval : i.iterValid = true) :
    ∃ s, Prev I i = some s ∧ Passthrough I s (I.Prev it) := by
  obtain ⟨hit, hk, he, -, hat⟩ := h
  have hat := hat hval
  have h1 := prevStep_plain hR hP hit hat hk he
  have h2 := prevStep_plain hR hP
    (i := { i with reverse := true, rangeKeysIdx := i.rangeKeysIdx - 1 }) hit hat hk he
  unfold Prev
  split
  · simpa [hat] using h2
  · exact h1

theorem seekGE_plain {I : MVCCIterator σ}
    (hR : ∀ c, (I.HasPointAndRange c).2 = false)
    (hP : ∀ c, (I.Valid c).1 = true → (I.HasPointAndRange c).1 = true)
    {i : pointSynthesizingIter σ} {it : σ} (hit : i.iter = some it) (k : MVCCKey) :
    ∃ s, SeekGE I k i = some s ∧ Passthrough I s (I.SeekGE k it) := by
  unfold SeekGE
  simp only [hit, updateValid]
  split
  · exact updatePosition_plain hR hP rfl rfl
  · rename_i hval
    replace hval : (I.Valid (I.SeekGE k it)).1 = true := by simpa using hval
    have hc : Passthrough I
        (clearRangeKeys
          { i with
            reverse := false
            iter := some (I.SeekGE k it)
            iterValid := (I.Valid (I.SeekGE k it)).1
            iterErr := (I.Valid (I.SeekGE k it)).2
            atPoint := true })
        (I.SeekGE k it) :=
      passthrough_clear I
        { i with
          reverse := false
          iter := some (I.SeekGE k it)
          iterValid := (I.Valid (I.SeekGE k it)).1
          iterErr := (I.Valid (I.SeekGE k it)).2 }
        rfl rfl (fun _ => rfl)
    refine ⟨_, ?_, hc⟩
    simp [updateSeekGEPosition, hR, hP _ hval]

theorem seekLT_plain {I : MVCCIterator σ}
    (hR : ∀ c, (I.HasPointAndRange c).2 = false)
    (hP : ∀ c, (I.Valid c).1 = true → (I.HasPointAndRange c).1 = true)
    {i : pointSynthesizingIter σ} {it : σ} (hit : i.iter = some it) (k : MVCCKey) :
    ∃ s, SeekLT I k i = some s ∧ Passthrough I s (I.SeekLT k it) := by
  unfold SeekLT
  simp only [hit, updateValid]
  split
  · exact updatePosition_plain hR hP rfl rfl
  · rename_i hval
    replace hval : (I.Valid (I.SeekLT k it)).1 = true := by simpa using hval
    have hc : Passthrough I
        (clearRangeKeys
          { i with
            reverse := true
            iter := some (I.SeekLT k it)
            iterValid := (I.Valid (I.SeekLT k it)).1
            iterErr := (I.Valid (I.SeekLT k it)).2
            atPoint := true })
        (I.SeekLT k it) :=
      passthrough_clear I
        { i with
          reverse := true
          iter := some (I.SeekLT k it)
          iterValid := (I.Valid (I.SeekLT k it)).1
          iterErr := (I.Valid (I.SeekLT k it)).2 }
        rfl rfl (fun _ => rfl)
    refine ⟨_, ?_, hc⟩
    simp [hR, hP _ hval]

/-- What an adapter that passes the iterator through reports. -/
theorem passthrough_reports {I : MVCCIterator σ} {s : pointSynthesizingIter σ} {it : σ}
    (h : Passthrough I s it) :
    Valid s = I.Valid it ∧
      ((Valid s).1 = true →
        UnsafeKey I s = some (I.UnsafeKey it) ∧ UnsafeValue I s = some (I.UnsafeValue it)) := by
  obtain ⟨hit, hk, he, hv, hat⟩ := h
  have hV : Valid s = (s.iterValid, s.iterErr) := by
    unfold Valid
    rw [if_neg]
    rw [he]
    intro hc
    omega
  refine ⟨hV.trans hv.symm, fun hval => ?_⟩
  rw [hV] at hval
  have := hat hval
  simp [UnsafeKey, UnsafeValue, this, hit]

theorem run_append_one (I : MVCCIterator σ) (ops : List PosOp) (o : PosOp)
    (i : pointSynthesizingIter σ) :
    PosOp.run I (ops ++ [o]) i = (PosOp.run I ops i).bind (o.apply I) := by
  induction ops generalizing i with
  | nil =>
    show (o.apply I i).bind (PosOp.run I []) = (some i).bind (o.apply I)
    cases h : o.apply I i with
    | none => simp [h]
    | some m => simp [h, PosOp.run]
  | cons p ops ih =>
    show (p.apply I i).bind (PosOp.run I (ops ++ [o])) =
      ((p.apply I i).bind (PosOp.run I ops)).bind (o.apply I)
    cases p.apply I i with
    | none => rfl
    | some m => exact ih m

theorem underRun_append_one (I : MVCCIterator σ) (ops : List PosOp) (o : PosOp) (c : σ) :
    PosOp.underRun I (ops ++ [o]) c = o.under I (PosOp.underRun I ops c) := by
  induction ops generalizing c with
  | nil => rfl
  | cons p ops ih => exact ih (p.under I c)

theorem whileValid_snoc {I : MVCCIterator σ} {ops : List PosOp} {o : PosOp}
    {i : pointSynthesizingIter σ} (h : PosOp.whileValid I (ops ++ [o]) i = true) :
    PosOp.whileValid I ops i = true ∧
      ∀ m, PosOp.run I ops i = some m → o.isSeek = true ∨ (Valid m).1 = true := by
  induction ops generalizing i with
  | nil =>
    refine ⟨rfl, fun m hm => ?_⟩
    cases hm
    simp only [List.nil_append, PosOp.whileValid, Bool.and_eq_true, Bool.or_eq_true] at h
    exact h.1
  | cons p ops ih =>
    simp only [List.cons_append, PosOp.whileValid, Bool.and_eq_true] at h ⊢
    obtain ⟨h1, h2⟩ := h
    cases hp : p.apply I i with
    | none =>
      refine ⟨⟨h1, rfl⟩, fun m hm => ?_⟩
      simp only [PosOp.run, hp, Option.bind] at hm
      cases hm
    | some s =>
      rw [hp] at h2
      simp only at h2 ⊢
      obtain ⟨a, b⟩ := ih h2
      refine ⟨⟨h1, a⟩, fun m hm => b m ?_⟩
      simpa only [PosOp.run, hp, Option.bind] using hm

theorem apply_plain {I : MVCCIterator σ}
    (hR : ∀ c, (I.HasPointAndRange c).2 = false)
    (hP : ∀ c, (I.Valid c).1 = true → (I.HasPointAndRange c).1 = true)
    {o : PosOp} (ho : o.isPlain = true) {i : pointSynthesizingIter σ} {it : σ}
    (hit : i.iter = some it)
    (hg : o.isSeek = true ∨ (Passthrough I i it ∧ i.iterValid = true)) :
    ∃ s, o.apply I i = some s ∧ Passthrough I s (o.under I it) := by
  cases o with
  | seekGE k => exact seekGE_plain hR hP hit k
  | seekLT k => exact seekLT_plain hR hP hit k
  | seekIntentGE k u => cases ho
  | nextKey => cases ho
  | next =>
    rcases hg with hg | ⟨hp, hv⟩
    · cases hg
    · exact next_plain hR hP hp hv
  | prev =>
    rcases hg with hg | ⟨hp, hv⟩
    · cases hg
    · exact prev_plain hR hP hp hv

/-- Over an iterator without range keys, a sequence of `SeekGE`, `SeekLT`,
`Next` and `Prev` on a constructed adapter, each `Next` and `Prev` issued while
the adapter is valid, returns, leaves the wrapped iterator where the same calls
lead it, and after the first call the adapter passes it through. -/
theorem run_plain {I : MVCCIterator σ}
    (hR : ∀ c, (I.HasPointAndRange c).2 = false)
    (hP : ∀ c, (I.Valid c).1 = true → (I.HasPointAndRange c).1 = true)
    (pooled : pointSynthesizingIter σ) (parent : σ) (emit : Bool) (ops : List PosOp)
    (hops : ∀ o ∈ ops, o.isPlain = true)
    (hg : PosOp.whileValid I ops (newPointSynthesizingIter (release pooled) parent emit) = true) :
    ∃ s, PosOp.run I ops (newPointSynthesizingIter (release pooled) parent emit) = some s ∧
      s.iter = some (PosOp.underRun I ops parent) ∧
      ((ops = [] ∧ s = newPointSynthesizingIter (release pooled) parent emit) ∨
        Passthrough I s (PosOp.underRun I ops parent)) := by
  induction ops using List.reverseRecOn with
  | nil => exact ⟨_, rfl, rfl, Or.inl ⟨rfl, rfl⟩⟩
  | append_singleton ops o ih =>
    obtain ⟨hg1, hg2⟩ := whileValid_snoc hg
    obtain ⟨m, hm, hit, hinv⟩ := ih (fun p hp => hops p (List.mem_append_left _ hp)) hg1
    have ho := hops o (List.mem_append_right _ (List.mem_singleton_self o))
    have hgo : o.isSeek = true ∨
        (Passthrough I m (PosOp.underRun I ops parent) ∧ m.iterValid = true) := by
      rcases hg2 m hm with h | h
      · exact Or.inl h
      · rcases hinv with ⟨-, rfl⟩ | hp
        · exact absurd h (by simp [Valid, newPointSynthesizingIter, release])
        · refine Or.inr ⟨hp, ?_⟩
          have := (passthrough_reports hp).1
          rw [this, hp.2.2.2.1] at h
          exact h
    obtain ⟨s, hs, hps⟩ := apply_plain hR hP ho hit hgo
    refine ⟨s, ?_, ?_, Or.inr ?_⟩
    · rw [run_append_one, hm]
      exact hs
    · rw [underRun_append_one]
      exact hps.1
    · rw [underRun_append_one]
      exact hps

end Plain

/-! ## The cursor bound, over an arbitrary wrapped iterator -/

section Cursor

variable {σ : Type}

/-- What `updateAtPoint` decides, when the indexing it performs is in bounds. -/
theorem updateAtPoint_spec (I : MVCCIterator σ) (i : pointSynthesizingIter σ)
    (it : σ) (hit : i.iter = some it)
    (hb : i.iterValid = true → (I.HasPointAndRange it).1 = true → i.rangeKeys ≠ [] →
      (I.UnsafeKey it).Key = i.rangeKeysPos → (I.UnsafeKey it).Timestamp ≠ 0 →
      (if i.reverse = true then 0 ≤ i.rangeKeysIdx else i.rangeKeysIdx < i.rangeKeysEnd) →
      0 ≤ i.rangeKeysIdx ∧ i.rangeKeysIdx < i.rangeKeys.length) :
    ∃ b : Bool, updateAtPoint I i = some { i with atPoint := b } ∧
      (b = true ↔
        (i.iterValid = true ∧ (I.HasPointAndRange it).1 = true ∧
          (i.rangeKeys = [] ∨
            ((I.UnsafeKey it).Key = i.rangeKeysPos ∧
              (i.reverse = false →
                (i.rangeKeysEnd ≤ i.rangeKeysIdx ∨ (I.UnsafeKey it).Timestamp = 0 ∨
                  ∃ v, sliceIndex i.rangeKeys i.rangeKeysIdx = some v ∧
                    v.Timestamp ≤ (I.UnsafeKey it).Timestamp)) ∧
              (i.reverse = true →
                (i.rangeKeysIdx < 0 ∨ ((I.UnsafeKey it).Timestamp ≠ 0 ∧
                  ∃ v, sliceIndex i.rangeKeys i.rangeKeysIdx = some v ∧
                    (I.UnsafeKey it).Timestamp ≤ v.Timestamp))))))) := by
  cases i with
  | mk iter V pos idx en start atPoint reverse emit iterValid iterErr =>
  simp only at hit hb ⊢
  subst hit
  cases iterValid with
  | false => exact ⟨false, by simp [updateAtPoint], by simp⟩
  | true =>
  cases hp : (I.HasPointAndRange it).1 with
  | false => exact ⟨false, by simp [updateAtPoint, hp], by simp⟩
  | true =>
  by_cases hV : V = []
  · subst hV
    exact ⟨true, by simp [updateAtPoint, hp], by simp⟩
  have hlen : ¬ V.length = 0 := fun h => hV (List.length_eq_zero.1 h)
  by_cases hk : (I.UnsafeKey it).Key = pos
  swap
  · refine ⟨false, by simp [updateAtPoint, hp, hlen, roachpb.Key.Equal, hk], ?_⟩
    refine ⟨(fun h => by cases h), ?_⟩
    rintro ⟨-, -, h | ⟨h, -⟩⟩
    · exact absurd h hV
    · exact absurd h hk
  have hb' := hb rfl hp hV hk
  cases reverse with
  | false =>
    simp only [Bool.false_eq_true, if_false] at hb'
    by_cases hc : idx ≥ en ∨ (I.UnsafeKey it).Timestamp = 0
    · refine ⟨true, ?_, ?_⟩
      · have : (decide (idx ≥ en) || !hlc.Timestamp.IsSet (I.UnsafeKey it).Timestamp) = true := by
          rcases hc with hc | hc
          · simp [hc]
          · simp [hlc.Timestamp.IsSet, hc]
        simp [updateAtPoint, hp, hlen, roachpb.Key.Equal, hk, this]
      · refine ⟨fun _ => ⟨by trivial, by trivial, Or.inr ⟨hk, fun _ => ?_, (fun h => by cases h)⟩⟩, fun _ => rfl⟩
        rcases hc with hc | hc
        · exact Or.inl hc
        · exact Or.inr (Or.inl hc)
    · have hc1 : ¬ idx ≥ en := fun h => hc (Or.inl h)
      have hc2 : (I.UnsafeKey it).Timestamp ≠ 0 := fun h => hc (Or.inr h)
      obtain ⟨h0, h1⟩ := hb' hc2 (by omega)
      have hlt : idx.toNat < V.length := by omega
      have hsl : sliceIndex V idx = some V[idx.toNat] := by
        simp only [sliceIndex, if_neg (not_lt.2 h0), List.getElem?_eq_getElem hlt]
      refine ⟨hlc.Timestamp.LessEq V[idx.toNat].Timestamp (I.UnsafeKey it).Timestamp, ?_, ?_⟩
      · have : (decide (idx ≥ en) || !hlc.Timestamp.IsSet (I.UnsafeKey it).Timestamp) = false := by
          simp [hlc.Timestamp.IsSet, hc2]; omega
        simp [updateAtPoint, hp, hlen, roachpb.Key.Equal, hk, this, hsl]
      · simp only [hlc.Timestamp.LessEq, decide_eq_true_eq]
        constructor
        · intro h
          exact ⟨by trivial, by trivial, Or.inr ⟨hk, fun _ => Or.inr (Or.inr ⟨_, hsl, h⟩), (fun h => by cases h)⟩⟩
        · rintro ⟨-, -, h | ⟨-, h, -⟩⟩
          · exact absurd h hV
          · rcases h (by trivial) with h | h | ⟨v, hv, hle⟩
            · omega
            · exact absurd h hc2
            · rw [hsl] at hv; cases hv; exact hle
  | true =>
    simp only [if_true] at hb'
    by_cases hneg : idx < 0
    · refine ⟨true, by simp [updateAtPoint, hp, hlen, roachpb.Key.Equal, hk, hneg], ?_⟩
      exact ⟨fun _ => ⟨by trivial, by trivial, Or.inr ⟨hk, (fun h => by cases h), fun _ => Or.inl hneg⟩⟩,
        fun _ => rfl⟩
    by_cases hts : (I.UnsafeKey it).Timestamp = 0
    · refine ⟨false, by simp [updateAtPoint, hp, hlen, roachpb.Key.Equal, hk, hneg,
        hlc.Timestamp.IsSet, hts], ?_⟩
      refine ⟨(fun h => by cases h), ?_⟩
      rintro ⟨-, -, h | ⟨-, -, h⟩⟩
      · exact absurd h hV
      · rcases h (by trivial) with h | ⟨h, -⟩
        · exact absurd h hneg
        · exact absurd hts h
    · obtain ⟨h0, h1⟩ := hb' hts (by omega)
      have hlt : idx.toNat < V.length := by omega
      have hsl : sliceIndex V idx = some V[idx.toNat] := by
        simp only [sliceIndex, if_neg (not_lt.2 h0), List.getElem?_eq_getElem hlt]
      refine ⟨hlc.Timestamp.LessEq (I.UnsafeKey it).Timestamp V[idx.toNat].Timestamp, ?_, ?_⟩
      · simp [updateAtPoint, hp, hlen, roachpb.Key.Equal, hk, hneg, hlc.Timestamp.IsSet, hts, hsl]
      · simp only [hlc.Timestamp.LessEq, decide_eq_true_eq]
        constructor
        · intro h
          exact ⟨by trivial, by trivial, Or.inr ⟨hk, (fun h => by cases h), fun _ => Or.inr ⟨hts, _, hsl, h⟩⟩⟩
        · rintro ⟨-, -, h | ⟨-, -, h⟩⟩
          · exact absurd h hV
          · rcases h (by trivial) with h | ⟨-, v, hv, hle⟩
            · exact absurd h hneg
            · rw [hsl] at hv; cases hv; exact hle

theorem updateAtPoint_ignores (I : MVCCIterator σ) (i : pointSynthesizingIter σ) (b : Bool) :
    updateAtPoint I { i with atPoint := b } = updateAtPoint I i := by
  cases i with
  | mk iter V pos idx en start atPoint reverse emit iterValid iterErr =>
  unfold updateAtPoint
  rfl

theorem updateAtPoint_settled {I : MVCCIterator σ} {i s : pointSynthesizingIter σ}
    (h : updateAtPoint I i = some s) : Settled I s := by
  have h1 := (updateAtPoint_of_some h).1
  unfold Settled
  rw [h1, updateAtPoint_ignores, h, ← h1]

theorem updateAtPoint_cursor {I : MVCCIterator σ} {i s : pointSynthesizingIter σ}
    (h : updateAtPoint I i = some s) :
    s.rangeKeysIdx = i.rangeKeysIdx ∧ s.rangeKeysEnd = i.rangeKeysEnd ∧ s.reverse = i.reverse ∧
      s.iterErr = i.iterErr ∧ s.rangeKeys = i.rangeKeys := by
  have h1 := (updateAtPoint_of_some h).1
  rw [h1]
  exact ⟨rfl, rfl, rfl, rfl, rfl⟩

theorem cursorOK_of_eq {i s : pointSynthesizingIter σ} (h1 : s.rangeKeysIdx = i.rangeKeysIdx)
    (h2 : s.rangeKeysEnd = i.rangeKeysEnd) (h3 : s.reverse = i.reverse) (h : CursorOK i) :
    CursorOK s := by
  unfold CursorOK at h ⊢
  rw [h1, h2, h3]
  exact h

theorem cursorOK_clear (i : pointSynthesizingIter σ) : CursorOK (clearRangeKeys i) := by
  obtain ⟨-, h2, h3, -, -, -, h7, -⟩ := clearRangeKeys_fields i
  unfold CursorOK
  rw [h2, h3, h7]
  cases i.reverse <;> simp

theorem settled_clear_invalid (I : MVCCIterator σ) {i : pointSynthesizingIter σ}
    (hv : i.iterValid = false) : Settled I (clearRangeKeys { i with atPoint := false }) := by
  cases i with
  | mk iter V pos idx en start atPoint reverse emit iterValid iterErr =>
  simp only at hv
  subst hv
  unfold Settled
  cases reverse <;> by_cases hl : V.length = 0 <;> simp [updateAtPoint, clearRangeKeys, hl]

theorem settled_clear_valid (I : MVCCIterator σ) {i : pointSynthesizingIter σ} {it : σ}
    (hit : i.iter = some it) (hv : i.iterValid = true) :
    Settled I (clearRangeKeys { i with atPoint := (I.HasPointAndRange it).1 }) := by
  cases i with
  | mk iter V pos idx en start atPoint reverse emit iterValid iterErr =>
  simp only at hv hit
  subst hv hit
  unfold Settled
  cases hp : (I.HasPointAndRange it).1 <;> cases reverse <;> by_cases hl : V.length = 0 <;>
    simp [updateAtPoint, clearRangeKeys, hl, hp]

/-- What `updateRangeKeys` leaves: the direction, the flag and the cached
validity as they were, the window within the slice and the cursor at the end of
the window the direction starts from. -/
theorem updateRangeKeys_cursor {I : MVCCIterator σ} {i s : pointSynthesizingIter σ}
    (h : updateRangeKeys I i = some s) :
    WindowOK s ∧ CursorOK s ∧ s.reverse = i.reverse ∧ s.iterErr = i.iterErr ∧
      s.iterValid = i.iterValid ∧ s.iter = i.iter := by
  have hw := (updateRangeKeys_keeps h).2
  refine ⟨hw, ?_⟩
  have hclear : CursorOK (clearRangeKeys i) ∧ (clearRangeKeys i).reverse = i.reverse ∧
      (clearRangeKeys i).iterErr = i.iterErr ∧ (clearRangeKeys i).iterValid = i.iterValid ∧
      (clearRangeKeys i).iter = i.iter := by
    obtain ⟨-, -, -, -, -, -, h7, h8, h9, -, h11⟩ := clearRangeKeys_fields i
    exact ⟨cursorOK_clear i, h7, h9, h8, h11⟩
  cases hit : i.iter with
  | none =>
    unfold updateRangeKeys at h
    rw [hit] at h
    by_cases hv : i.iterValid = true
    · simp [hv] at h
    · simp only [hv, Bool.not_false, Bool.false_eq_true, not_false_eq_true, if_true,
        Option.some.injEq] at h
      subst h
      rw [← hit]
      exact hclear
  | some it =>
    rw [← hit]
    by_cases hc : i.iterValid = true ∧ (I.HasPointAndRange it).2 = true
    · obtain ⟨e, -, hs⟩ := updateRangeKeys_spec hit hc.1 hc.2
      rw [hs] at h
      cases h
      refine ⟨?_, rfl, rfl, rfl, rfl⟩
      have he : (0 : Int) ≤ e := hw.1
      unfold CursorOK
      simp only
      cases hr : i.reverse
      · simp only [Bool.false_eq_true, if_false]; omega
      · simp only [if_true]; omega
    · rw [updateRangeKeys_none hit (by
        by_cases hv : i.iterValid = true
        · right
          cases hr : (I.HasPointAndRange it).2
          · rfl
          · exact absurd ⟨hv, hr⟩ hc
        · left; simpa using hv)] at h
      cases h
      exact hclear

theorem extend_cursor {I : MVCCIterator σ} {i s : pointSynthesizingIter σ}
    (h : extendRangeKeysEnd I i = some s) :
    (CursorOK i → CursorOK s) ∧ s.rangeKeysIdx = i.rangeKeysIdx ∧
      i.rangeKeysEnd ≤ s.rangeKeysEnd ∧ s.reverse = i.reverse ∧
      s.iterErr = i.iterErr ∧ s.atPoint = i.atPoint ∧ s.iterValid = i.iterValid ∧
      s.iter = i.iter ∧ s.rangeKeys = i.rangeKeys := by
  obtain ⟨e, hs, he, -⟩ := extend_of_some h
  subst hs
  refine ⟨fun hc => ?_, rfl, he, rfl, rfl, rfl, rfl, rfl, rfl⟩
  unfold CursorOK at hc ⊢
  simp only
  by_cases hr : i.reverse = true
  · rw [if_pos hr] at hc ⊢; omega
  · rw [if_neg hr] at hc ⊢; omega

theorem iterNext_cursor {I : MVCCIterator σ} {i s : pointSynthesizingIter σ}
    (h : iterNext I i = some s) :
    s.rangeKeysIdx = i.rangeKeysIdx ∧ s.rangeKeysEnd = i.rangeKeysEnd ∧
      s.reverse = i.reverse ∧ s.atPoint = i.atPoint ∧ s.rangeKeys = i.rangeKeys := by
  unfold iterNext at h
  split at h
  · cases h
  · unfold updateValid at h
    simp only at h
    cases h
    exact ⟨rfl, rfl, rfl, rfl, rfl⟩

theorem iterPrev_cursor {I : MVCCIterator σ} {i s : pointSynthesizingIter σ}
    (h : iterPrev I i = some s) :
    s.rangeKeysIdx = i.rangeKeysIdx ∧ s.rangeKeysEnd = i.rangeKeysEnd ∧
      s.reverse = i.reverse ∧ s.atPoint = i.atPoint ∧ s.rangeKeys = i.rangeKeys := by
  unfold iterPrev at h
  split at h
  · cases h
  · unfold updateValid at h
    simp only at h
    cases h
    exact ⟨rfl, rfl, rfl, rfl, rfl⟩

theorem bounded_iterNext {I : MVCCIterator σ} {i s : pointSynthesizingIter σ} {r : Bool}
    (h : iterNext I i = some s) (hb : Bounded r i) : Bounded r s := by
  obtain ⟨h1, h2, h3, -, -⟩ := iterNext_cursor h
  exact ⟨(iterNext_keeps h).1.1 hb.1, cursorOK_of_eq h1 h2 h3 hb.2.1, h3.trans hb.2.2⟩

theorem bounded_iterPrev {I : MVCCIterator σ} {i s : pointSynthesizingIter σ} {r : Bool}
    (h : iterPrev I i = some s) (hb : Bounded r i) : Bounded r s := by
  obtain ⟨h1, h2, h3, -, -⟩ := iterPrev_cursor h
  exact ⟨(iterPrev_keeps h).1.1 hb.1, cursorOK_of_eq h1 h2 h3 hb.2.1, h3.trans hb.2.2⟩

theorem bounded_extend {I : MVCCIterator σ} {i s : pointSynthesizingIter σ} {r : Bool}
    (h : extendRangeKeysEnd I i = some s) (hb : Bounded r i) : Bounded r s := by
  obtain ⟨h1, -, -, h3, -⟩ := extend_cursor h
  exact ⟨(extend_keeps h).1 hb.1, h1 hb.2.1, h3.trans hb.2.2⟩

theorem bounded_updateRangeKeys {I : MVCCIterator σ} {i s : pointSynthesizingIter σ}
    (h : updateRangeKeys I i = some s) : Bounded i.reverse s := by
  obtain ⟨h1, h2, h3, -⟩ := updateRangeKeys_cursor h
  exact ⟨h1, h2, h3⟩

theorem bounded_updateAtPoint {I : MVCCIterator σ} {i s : pointSynthesizingIter σ} {r : Bool}
    (h : updateAtPoint I i = some s) (hb : Bounded r i) : Bounded r s ∧ CursorInv I s := by
  obtain ⟨h1, h2, h3, -, -⟩ := updateAtPoint_cursor h
  have hw := (updateAtPoint_keeps h).1 hb.1
  have hc := cursorOK_of_eq h1 h2 h3 hb.2.1
  exact ⟨⟨hw, hc, h3.trans hb.2.2⟩, hw, hc, updateAtPoint_settled h⟩

theorem bounded_clear (i : pointSynthesizingIter σ) (b : Bool) :
    Bounded i.reverse (clearRangeKeys { i with atPoint := b }) :=
  ⟨clearRangeKeys_window _, cursorOK_clear _, (clearRangeKeys_fields _).2.2.2.2.2.2.1⟩

/-- After `updatePosition`, when it leaves no error: the bounds hold and
`atPoint` is decided. -/
theorem updatePosition_cursor {I : MVCCIterator σ} {i s : pointSynthesizingIter σ}
    (h : updatePosition I i = some s) (he : s.iterErr = none) :
    Bounded i.reverse s ∧ CursorInv I s := by
  unfold updatePosition at h
  split at h
  · rename_i hv
    replace hv : i.iterValid = false := by simpa using hv
    injection h with h; subst h
    have hb := bounded_clear i false
    exact ⟨hb, hb.1, hb.2.1, settled_clear_invalid I hv⟩
  · rename_i hv
    replace hv : i.iterValid = true := by simpa using hv
    split at h
    · cases h
    · rename_i it hit
      simp only at h
      split at h
      · injection h with h; subst h
        have hb := bounded_clear i (I.HasPointAndRange it).1
        exact ⟨hb, hb.1, hb.2.1, settled_clear_valid I hit hv⟩
      · split at h
        · split at h
          · cases h
          · rename_i i1 h1
            have b1 := bounded_updateRangeKeys h1
            split at h
            · split at h
              · cases h
              · rename_i i2 h2
                have b2 := bounded_iterNext h2 b1
                split at h
                · rename_i herr
                  injection h with h; subst h
                  exact absurd he herr
                · split at h
                  · cases h
                  · rename_i i3 h3
                    exact bounded_updateAtPoint h (bounded_extend h3 b2)
            · exact bounded_updateAtPoint h b1
        · split at h
          · cases h
          · rename_i i1 hst
            injection h with h; subst h
            exact absurd he ((steppedPrev_keeps hst).2 rfl)
          · rename_i i1 hst
            have b1 : i1.reverse = i.reverse := by
              split at hst
              · split at hst
                · cases hst
                · rename_i i2 h2
                  simp only [Option.some.injEq, Prod.mk.injEq] at hst
                  obtain ⟨rfl, -⟩ := hst
                  exact (iterPrev_cursor h2).2.2.1
              · simp only [Option.some.injEq, Prod.mk.injEq] at hst
                obtain ⟨rfl, -⟩ := hst
                rfl
            split at h
            · cases h
            · rename_i i2 h2
              have b2 := bounded_updateRangeKeys h2
              rw [b1] at b2
              exact bounded_updateAtPoint h b2

theorem sortSearchLoop_bounds (f : Nat → Option Bool) :
    ∀ (fuel i j k : Nat), i ≤ j → sortSearchLoop f fuel i j = some k → i ≤ k ∧ k ≤ j := by
  intro fuel
  induction fuel with
  | zero =>
    intro i j k hij h
    unfold sortSearchLoop at h
    split at h
    · cases h
    · injection h with h; omega
  | succ n ih =>
    intro i j k hij h
    unfold sortSearchLoop at h
    split at h
    · rename_i hlt
      split at h
      · cases h
      · have := ih _ _ _ (by omega) h
        omega
      · have := ih _ _ _ (by omega) h
        omega
    · injection h with h; omega

theorem sortSearch_bounds {n : Int} {f : Nat → Option Bool} {k : Int}
    (h : sortSearch n f = some k) : 0 ≤ k ∧ k ≤ max n 0 := by
  unfold sortSearch at h
  rw [Option.map_eq_some'] at h
  obtain ⟨a, ha, rfl⟩ := h
  have := sortSearchLoop_bounds f _ _ _ _ (Nat.zero_le _) ha
  show (0 : Int) ≤ (a : Int) ∧ (a : Int) ≤ max n 0
  omega

theorem seekCursor_cursor {k : MVCCKey} {i s : pointSynthesizingIter σ}
    (h : seekCursor k i = some s) (hb : Bounded false i) : Bounded false s := by
  unfold seekCursor at h
  split at h
  · rw [Option.map_eq_some'] at h
    obtain ⟨n, hn, rfl⟩ := h
    have := sortSearch_bounds hn
    obtain ⟨hw, -, hr⟩ := hb
    refine ⟨hw, ?_, hr⟩
    unfold CursorOK
    simp only at hr ⊢
    rw [hr]
    have h0 := hw.1
    simp only [Bool.false_eq_true, if_false]
    omega
  · injection h with h; subst h
    exact hb

theorem seekLTCursor_cursor {k : MVCCKey} {i s : pointSynthesizingIter σ}
    (h : seekLTCursor k i = some s) (hb : Bounded true i) : Bounded true s := by
  unfold seekLTCursor at h
  split at h
  · rw [Option.map_eq_some'] at h
    obtain ⟨n, hn, rfl⟩ := h
    have := sortSearch_bounds hn
    obtain ⟨hw, -, hr⟩ := hb
    refine ⟨hw, ?_, hr⟩
    unfold CursorOK
    simp only at hr ⊢
    rw [hr]
    have h0 := hw.1
    simp only [if_true]
    omega
  · injection h with h; subst h
    exact hb

theorem seekWindow_cursor (b : Bool) {i : pointSynthesizingIter σ} (hb : Bounded false i) :
    Bounded false (seekWindow b i) := by
  unfold seekWindow
  split
  · obtain ⟨hw, hc, hr⟩ := hb
    refine ⟨⟨by simp, le_refl _⟩, ?_, hr⟩
    unfold CursorOK at hc ⊢
    simp only at hr ⊢
    rw [hr] at hc ⊢
    simp only [Bool.false_eq_true, if_false] at hc ⊢
    have := hw.2
    omega
  · exact hb

/-- The end of a forward step: when it leaves no error the bounds hold and
`atPoint` is decided, provided the cursor is not below the window and is at most
its end, or `updateAtPoint` decides against a real point. -/
theorem finishFwd_cursor {I : MVCCIterator σ} {i s : pointSynthesizingIter σ}
    (h : finishFwd I i = some s) (he : s.iterErr = none) (hw : WindowOK i)
    (hr : i.reverse = false) (h0 : 0 ≤ i.rangeKeysIdx)
    (hc : i.rangeKeysIdx ≤ i.rangeKeysEnd ∨
      ∀ s2, updateAtPoint I i = some s2 → s2.atPoint = false) :
    Bounded false s ∧ CursorInv I s := by
  unfold finishFwd at h
  split at h
  · cases h
  · rename_i i2 h2
    obtain ⟨e1, e2, e3, -, -⟩ := updateAtPoint_cursor h2
    split at h
    · have := updatePosition_cursor h he
      rw [e3, hr] at this
      exact this
    · rename_i hcond
      injection h with h; subst h
      have hw2 := (updateAtPoint_keeps h2).1 hw
      have hc2 : CursorOK i2 := by
        unfold CursorOK
        rw [e3, hr, e1, e2]
        simp only [Bool.false_eq_true, if_false]
        refine ⟨h0, ?_⟩
        rcases hc with hc | hc
        · exact hc
        · have hat := hc i2 h2
          simp only [hat, Bool.not_false, Bool.true_and, decide_eq_true_eq, ge_iff_le, not_le,
            e1, e2] at hcond
          omega
      exact ⟨⟨hw2, hc2, e3.trans hr⟩, hw2, hc2, updateAtPoint_settled h2⟩

theorem cursorOK_fwd {i : pointSynthesizingIter σ} (hb : Bounded false i) :
    0 ≤ i.rangeKeysIdx ∧ i.rangeKeysIdx ≤ i.rangeKeysEnd := by
  obtain ⟨-, hc, hr⟩ := hb
  unfold CursorOK at hc
  rw [hr] at hc
  simpa using hc

theorem cursorOK_rev {i : pointSynthesizingIter σ} (hb : Bounded true i) :
    -1 ≤ i.rangeKeysIdx ∧ i.rangeKeysIdx ≤ i.rangeKeysEnd - 1 := by
  obtain ⟨-, hc, hr⟩ := hb
  unfold CursorOK at hc
  rw [hr] at hc
  simpa using hc

theorem updateValid_reverse {I : MVCCIterator σ} {i s : pointSynthesizingIter σ}
    (h : updateValid I i = some s) : s.reverse = i.reverse := by
  unfold updateValid at h
  split at h
  · cases h
  · injection h with h; subst h; rfl

theorem steppedNext_bounded {I : MVCCIterator σ} {i i1 : pointSynthesizingIter σ} {c b r : Bool}
    (hb : Bounded r i)
    (h : (if c = true then
        match iterNext I i with
        | none => none
        | some i2 =>
          if i2.iterErr ≠ none then some (i2, true)
          else (extendRangeKeysEnd I i2).map (fun i3 => (i3, false))
      else some (i, false)) = some (i1, b)) :
    Bounded r i1 := by
  split at h
  · split at h
    · cases h
    · rename_i i2 h2
      have b2 := bounded_iterNext h2 hb
      split at h
      · simp only [Option.some.injEq, Prod.mk.injEq] at h
        obtain ⟨rfl, -⟩ := h
        exact b2
      · rw [Option.map_eq_some'] at h
        obtain ⟨i3, h3, hp⟩ := h
        simp only [Prod.mk.injEq] at hp
        obtain ⟨rfl, -⟩ := hp
        exact bounded_extend h3 b2
  · simp only [Option.some.injEq, Prod.mk.injEq] at h
    obtain ⟨rfl, -⟩ := h
    exact hb

theorem tail_cursor {I : MVCCIterator σ} {k : MVCCKey} {hp hr : Bool}
    {i s : pointSynthesizingIter σ}
    (h : updateSeekGEPositionTail I k hp hr i = some s) (he : s.iterErr = none)
    (hrev : i.reverse = false) : Bounded false s ∧ CursorInv I s := by
  unfold updateSeekGEPositionTail at h
  split at h
  · cases h
  · rename_i i1 h1
    have b1 := bounded_updateRangeKeys h1
    rw [hrev] at b1
    simp only at h
    split at h
    · cases h
    · rename_i i2 hst
      injection h with h; subst h
      exact absurd he ((steppedNext_keeps (keeps_refl I i1) hst).2 rfl)
    · rename_i i2 hst
      have b2 := steppedNext_bounded b1 hst
      split at h
      · cases h
      · rename_i i5 h5
        have b5 := seekCursor_cursor h5 (seekWindow_cursor hr b2)
        obtain ⟨c0, c1⟩ := cursorOK_fwd b5
        exact finishFwd_cursor h he b5.1 b5.2.2 c0 (Or.inl c1)

theorem updateSeekGEPosition_cursor {I : MVCCIterator σ} {k : MVCCKey}
    {i s : pointSynthesizingIter σ} (hv : i.iterValid = true) (hrev : i.reverse = false)
    (h : updateSeekGEPosition I k i = some s) (he : s.iterErr = none) :
    Bounded false s ∧ CursorInv I s := by
  unfold updateSeekGEPosition at h
  split at h
  · cases h
  · rename_i it hit
    simp only at h
    split at h
    · injection h with h; subst h
      have hb := bounded_clear i (I.HasPointAndRange it).1
      exact ⟨⟨hb.1, hb.2.1, hb.2.2.trans hrev⟩, hb.1, hb.2.1, settled_clear_valid I hit hv⟩
    · split at h
      · split at h
        · cases h
        · rename_i i1 h1
          have r1 : i1.reverse = false := (iterNext_cursor h1).2.2.1.trans hrev
          split at h
          · have := updatePosition_cursor h he
            rw [r1] at this
            exact this
          · split at h
            · cases h
            · exact tail_cursor h he r1
      · exact tail_cursor h he hrev

theorem seekGE_cursor {I : MVCCIterator σ} {k : MVCCKey} {i s : pointSynthesizingIter σ}
    (h : SeekGE I k i = some s) (he : s.iterErr = none) : CursorInv I s := by
  unfold SeekGE at h
  split at h
  · cases h
  · split at h
    · cases h
    · rename_i i1 h1
      have r1 : i1.reverse = false := updateValid_reverse h1
      split at h
      · exact (updatePosition_cursor h he).2
      · rename_i hv
        exact (updateSeekGEPosition_cursor (by simpa using hv) r1 h he).2

theorem seekIntentGE_cursor {I : MVCCIterator σ} {k : Nat} {u : uuid.UUID}
    {i s : pointSynthesizingIter σ} (h : SeekIntentGE I k u i = some s)
    (he : s.iterErr = none) : CursorInv I s := by
  unfold SeekIntentGE at h
  split at h
  · cases h
  · split at h
    · cases h
    · rename_i i1 h1
      have r1 : i1.reverse = false := updateValid_reverse h1
      split at h
      · exact (updatePosition_cursor h he).2
      · rename_i hv
        exact (updateSeekGEPosition_cursor (by simpa using hv) r1 h he).2

/-- Forward, off a real point and with the cursor at or past the window end:
one more step of the cursor does not put the adapter on a real point. -/
theorem settled_shift_fwd {I : MVCCIterator σ} {i s2 : pointSynthesizingIter σ}
    (hs : Settled I i) (hr : i.reverse = false) (hat : i.atPoint = false)
    (hge : i.rangeKeysEnd ≤ i.rangeKeysIdx)
    (h2 : updateAtPoint I { i with rangeKeysIdx := i.rangeKeysIdx + 1 } = some s2) :
    s2.atPoint = false := by
  cases i with
  | mk iter V pos idx en start atPoint reverse emit iterValid iterErr =>
  simp only at hr hat hge h2
  subst hr hat
  unfold Settled at hs
  cases iter with
  | none =>
    cases iterValid with
    | false =>
      simp only [updateAtPoint, Bool.not_false, if_true, Option.some.injEq] at h2
      subst h2
      rfl
    | true => simp [updateAtPoint] at h2
  | some it =>
    obtain ⟨b, hb, hiff⟩ := updateAtPoint_spec I
      ⟨some it, V, pos, idx, en, start, false, false, emit, iterValid, iterErr⟩ it rfl (by
        intro _ _ _ _ _ h
        simp only [Bool.false_eq_true, if_false] at h
        omega)
    obtain ⟨b2, hb2, hiff2⟩ := updateAtPoint_spec I
      ⟨some it, V, pos, idx + 1, en, start, false, false, emit, iterValid, iterErr⟩ it rfl (by
        intro _ _ _ _ _ h
        simp only [Bool.false_eq_true, if_false] at h
        omega)
    rw [hb] at hs
    rw [hb2] at h2
    injection hs with hs
    injection h2 with h2
    subst h2
    have hbf : b = false := by
      have := congrArg pointSynthesizingIter.atPoint hs
      exact this
    show b2 = false
    cases hb2t : b2 with
    | false => rfl
    | true =>
      obtain ⟨c1, c2, c3⟩ := hiff2.1 hb2t
      have : b = true := by
        refine hiff.2 ⟨c1, c2, ?_⟩
        rcases c3 with c3 | ⟨c3, -, c5⟩
        · exact Or.inl c3
        · exact Or.inr ⟨c3, fun _ => Or.inl hge, fun h => by cases h⟩
      rw [hbf] at this
      cases this

/-- In reverse, off a real point and with the cursor before the window: one
more step of the cursor does not put the adapter on a real point. -/
theorem settled_shift_rev {I : MVCCIterator σ} {i s2 : pointSynthesizingIter σ}
    (hs : Settled I i) (hr : i.reverse = true) (hat : i.atPoint = false)
    (hlt : i.rangeKeysIdx < 0)
    (h2 : updateAtPoint I { i with rangeKeysIdx := i.rangeKeysIdx - 1 } = some s2) :
    s2.atPoint = false := by
  cases i with
  | mk iter V pos idx en start atPoint reverse emit iterValid iterErr =>
  simp only at hr hat hlt h2
  subst hr hat
  unfold Settled at hs
  cases iter with
  | none =>
    cases iterValid with
    | false =>
      simp only [updateAtPoint, Bool.not_false, if_true, Option.some.injEq] at h2
      subst h2
      rfl
    | true => simp [updateAtPoint] at h2
  | some it =>
    obtain ⟨b, hb, hiff⟩ := updateAtPoint_spec I
      ⟨some it, V, pos, idx, en, start, false, true, emit, iterValid, iterErr⟩ it rfl (by
        intro _ _ _ _ _ h
        simp only [if_true] at h
        omega)
    obtain ⟨b2, hb2, hiff2⟩ := updateAtPoint_spec I
      ⟨some it, V, pos, idx - 1, en, start, false, true, emit, iterValid, iterErr⟩ it rfl (by
        intro _ _ _ _ _ h
        simp only [if_true] at h
        omega)
    rw [hb] at hs
    rw [hb2] at h2
    injection hs with hs
    injection h2 with h2
    subst h2
    have hbf : b = false := by
      have := congrArg pointSynthesizingIter.atPoint hs
      exact this
    show b2 = false
    cases hb2t : b2 with
    | false => rfl
    | true =>
      obtain ⟨c1, c2, c3⟩ := hiff2.1 hb2t
      have : b = true := by
        refine hiff.2 ⟨c1, c2, ?_⟩
        rcases c3 with c3 | ⟨c3, -, -⟩
        · exact Or.inl c3
        · exact Or.inr ⟨c3, (fun h => by cases h), fun _ => Or.inl hlt⟩
      rw [hbf] at this
      cases this

theorem nextStep_cursor {I : MVCCIterator σ} {i s : pointSynthesizingIter σ}
    (h : nextStep I i = some s) (he : s.iterErr = none) (hw : WindowOK i)
    (hr : i.reverse = false)
    (hreal : i.atPoint = true → 0 ≤ i.rangeKeysIdx ∧ i.rangeKeysIdx ≤ i.rangeKeysEnd)
    (hsyn : i.atPoint = false → -1 ≤ i.rangeKeysIdx ∧
      (i.rangeKeysIdx + 1 ≤ i.rangeKeysEnd ∨
        ∀ s2, updateAtPoint I { i with rangeKeysIdx := i.rangeKeysIdx + 1 } = some s2 →
          s2.atPoint = false)) :
    Bounded false s ∧ CursorInv I s := by
  unfold nextStep at h
  simp only at h
  split at h
  · cases h
  · rename_i i1 hst
    injection h with h; subst h
    exact absurd he ((steppedNext_keeps (i := i)
      (keeps_of_eq rfl rfl rfl rfl rfl :
        Keeps I i { i with rangeKeysIdx := i.rangeKeysIdx + 1 }) hst).2 rfl)
  · rename_i i1 hst
    cases hat : i.atPoint with
    | true =>
      obtain ⟨c0, c1⟩ := hreal hat
      have hb : Bounded false i := by
        refine ⟨hw, ?_, hr⟩
        unfold CursorOK
        rw [hr]
        simp only [Bool.false_eq_true, if_false]
        exact ⟨c0, c1⟩
      rw [hat] at hst
      simp only [if_true] at hst
      have b1 : Bounded false i1 := by
        split at hst
        · cases hst
        · rename_i i2 h2
          have b2 := bounded_iterNext h2 hb
          split at hst
          · simp only [Option.some.injEq, Prod.mk.injEq] at hst
            exact absurd hst.2 (by simp)
          · rw [Option.map_eq_some'] at hst
            obtain ⟨i3, h3, hp⟩ := hst
            simp only [Prod.mk.injEq] at hp
            obtain ⟨rfl, -⟩ := hp
            exact bounded_extend h3 b2
      obtain ⟨d0, d1⟩ := cursorOK_fwd b1
      exact finishFwd_cursor h he b1.1 b1.2.2 d0 (Or.inl d1)
    | false =>
      obtain ⟨c0, c1⟩ := hsyn hat
      rw [hat] at hst
      simp only [Bool.false_eq_true, if_false, Option.some.injEq, Prod.mk.injEq] at hst
      obtain ⟨rfl, -⟩ := hst
      exact finishFwd_cursor h he hw hr (by simp only; omega) c1

theorem next_cursor {I : MVCCIterator σ} {i s : pointSynthesizingIter σ}
    (h : Next I i = some s) (he : s.iterErr = none) (hg : CursorInv I i) :
    CursorInv I s := by
  obtain ⟨hw, hc, hs⟩ := hg
  unfold Next at h
  split at h
  · rename_i hrev
    have hbr := cursorOK_rev ⟨hw, hc, hrev⟩
    simp only at h
    split at h
    · split at h
      · cases h
      · rename_i i1 h1
        split at h
        · rename_i herr
          injection h with h; subst h
          exact absurd he herr
        · exact (updatePosition_cursor h he).2
    · split at h
      · rename_i hat
        refine (nextStep_cursor h he hw rfl (fun _ => ?_) (fun hf => ?_)).2
        · simp only; omega
        · simp only at hf hat
          rw [hat] at hf
          cases hf
      · rename_i hat
        replace hat : i.atPoint = false := by simpa using hat
        split at h
        · cases h
        · rename_i i1 h1
          obtain ⟨e1, e2, e3, e4, -⟩ := iterNext_cursor h1
          have w1 : WindowOK i1 := (iterNext_keeps h1).1.1 hw
          split at h
          · rename_i herr
            injection h with h; subst h
            exact absurd he herr
          · refine (nextStep_cursor h he w1 e3 (fun hf => ?_) (fun _ => ?_)).2
            · rw [e4] at hf
              simp only at hf
              rw [hat] at hf
              cases hf
            · rw [e1, e2]
              simp only
              exact ⟨hbr.1, Or.inl (by omega)⟩
  · rename_i hrev
    replace hrev : i.reverse = false := by simpa using hrev
    have hbf := cursorOK_fwd ⟨hw, hc, hrev⟩
    refine (nextStep_cursor h he hw hrev (fun _ => hbf) (fun hat => ⟨by omega, ?_⟩)).2
    by_cases hlt : i.rangeKeysIdx < i.rangeKeysEnd
    · exact Or.inl (by omega)
    · exact Or.inr (fun s2 h2 => settled_shift_fwd hs hrev hat (by omega) h2)

theorem nextKey_cursor {I : MVCCIterator σ} {i s : pointSynthesizingIter σ}
    (h : NextKey I i = some s) (he : s.iterErr = none) : CursorInv I s := by
  unfold NextKey at h
  simp only at h
  have tailK : ∀ {i1 : pointSynthesizingIter σ},
      (match i1.iter with
        | none => none
        | some it =>
          if (i1.atPoint || roachpb.Key.Equal i1.rangeKeysPos (I.UnsafeKey it).Key) = true then
            match updateValid I { i1 with iter := some (I.NextKey it) } with
            | none => none
            | some i2 => if i2.iterErr ≠ none then some i2 else updatePosition I i2
          else updatePosition I i1) = some s → CursorInv I s := by
    intro i1 h
    split at h
    · cases h
    · split at h
      · split at h
        · cases h
        · split at h
          · rename_i herr
            injection h with h; subst h
            exact absurd he herr
          · exact (updatePosition_cursor h he).2
      · exact (updatePosition_cursor h he).2
  split at h
  · cases h
  · rename_i i1 hst
    injection h with h; subst h
    exfalso
    split at hst
    · split at hst
      · split at hst
        · cases hst
        · rename_i i2 h2
          simp only [Option.some.injEq, Prod.mk.injEq] at hst
          obtain ⟨rfl, hb⟩ := hst
          exact absurd he (by simpa using hb)
      · simp at hst
    · simp at hst
  · exact tailK h

/-- The end of a reverse step: when it leaves no error the bounds hold and
`atPoint` is decided, provided the cursor is inside the window or just before
it, or `updateAtPoint` decides against a real point. -/
theorem finishRev_cursor {I : MVCCIterator σ} {i s : pointSynthesizingIter σ}
    (h : finishRev I i = some s) (he : s.iterErr = none) (hw : WindowOK i)
    (hr : i.reverse = true) (h1 : i.rangeKeysIdx ≤ i.rangeKeysEnd - 1)
    (hc : -1 ≤ i.rangeKeysIdx ∨ ∀ s2, updateAtPoint I i = some s2 → s2.atPoint = false) :
    Bounded true s ∧ CursorInv I s := by
  unfold finishRev at h
  split at h
  · cases h
  · rename_i i2 h2
    obtain ⟨e1, e2, e3, -, -⟩ := updateAtPoint_cursor h2
    have hw2 := (updateAtPoint_keeps h2).1 hw
    have done : -1 ≤ i.rangeKeysIdx → Bounded true i2 ∧ CursorInv I i2 := by
      intro h0
      have hc2 : CursorOK i2 := by
        unfold CursorOK
        rw [e3, hr, e1, e2]
        simp only [if_true]
        exact ⟨h0, h1⟩
      exact ⟨⟨hw2, hc2, e3.trans hr⟩, hw2, hc2, updateAtPoint_settled h2⟩
    have upd : ∀ {s}, updatePosition I i2 = some s → s.iterErr = none →
        Bounded true s ∧ CursorInv I s := by
      intro s h he
      have := updatePosition_cursor h he
      rw [e3, hr] at this
      exact this
    split at h
    · rename_i hneg
      simp only [decide_eq_true_eq, e1] at hneg
      split at h
      · exact upd h he
      · rename_i hat
        replace hat : i2.atPoint = true := by simpa using hat
        split at h
        · cases h
        · split at h
          · exact upd h he
          · injection h with h; subst h
            rcases hc with hc | hc
            · exact done hc
            · rw [hc i2 h2] at hat
              cases hat
    · rename_i hneg
      simp only [decide_eq_true_eq, e1] at hneg
      injection h with h; subst h
      exact done (by omega)

theorem prevStep_cursor {I : MVCCIterator σ} {i s : pointSynthesizingIter σ}
    (h : prevStep I i = some s) (he : s.iterErr = none) (hw : WindowOK i)
    (hr : i.reverse = true)
    (hreal : i.atPoint = true → -1 ≤ i.rangeKeysIdx ∧ i.rangeKeysIdx ≤ i.rangeKeysEnd - 1)
    (hsyn : i.atPoint = false → i.rangeKeysIdx ≤ i.rangeKeysEnd ∧
      (0 ≤ i.rangeKeysIdx ∨
        ∀ s2, updateAtPoint I { i with rangeKeysIdx := i.rangeKeysIdx - 1 } = some s2 →
          s2.atPoint = false)) :
    Bounded true s ∧ CursorInv I s := by
  unfold prevStep at h
  simp only at h
  split at h
  · cases h
  · rename_i i1 hst
    injection h with h; subst h
    exfalso
    split at hst
    · split at hst
      · cases hst
      · rename_i i2 h2
        simp only [Option.some.injEq, Prod.mk.injEq] at hst
        obtain ⟨rfl, hb⟩ := hst
        exact absurd he (by simpa using hb)
    · simp at hst
  · rename_i i1 hst
    cases hat : i.atPoint with
    | true =>
      obtain ⟨c0, c1⟩ := hreal hat
      rw [hat] at hst
      simp only [if_true] at hst
      split at hst
      · cases hst
      · rename_i i2 h2
        simp only [Option.some.injEq, Prod.mk.injEq] at hst
        obtain ⟨rfl, -⟩ := hst
        obtain ⟨e1, e2, e3, -, -⟩ := iterPrev_cursor h2
        exact finishRev_cursor h he ((iterPrev_keeps h2).1.1 hw) (e3.trans hr)
          (by rw [e1, e2]; exact c1) (Or.inl (by rw [e1]; exact c0))
    | false =>
      obtain ⟨c0, c1⟩ := hsyn hat
      rw [hat] at hst
      simp only [Bool.false_eq_true, if_false, Option.some.injEq, Prod.mk.injEq] at hst
      obtain ⟨rfl, -⟩ := hst
      refine finishRev_cursor h he hw hr (by simp only; omega) ?_
      rcases c1 with c1 | c1
      · exact Or.inl (by simp only; omega)
      · exact Or.inr c1

theorem prev_cursor {I : MVCCIterator σ} {i s : pointSynthesizingIter σ}
    (h : Prev I i = some s) (he : s.iterErr = none) (hg : CursorInv I i) :
    CursorInv I s := by
  obtain ⟨hw, hc, hs⟩ := hg
  unfold Prev at h
  split at h
  · rename_i hrev
    replace hrev : i.reverse = false := by simpa using hrev
    have hbf := cursorOK_fwd ⟨hw, hc, hrev⟩
    simp only at h
    split at h
    · split at h
      · cases h
      · rename_i i1 h1
        split at h
        · rename_i herr
          injection h with h; subst h
          exact absurd he herr
        · exact (updatePosition_cursor h he).2
    · split at h
      · rename_i hat
        refine (prevStep_cursor h he hw rfl (fun _ => ?_) (fun hf => ?_)).2
        · simp only; omega
        · simp only at hf hat
          rw [hat] at hf
          cases hf
      · rename_i hat
        replace hat : i.atPoint = false := by simpa using hat
        split at h
        · cases h
        · rename_i i1 h1
          obtain ⟨e1, e2, e3, e4, -⟩ := iterPrev_cursor h1
          have w1 : WindowOK i1 := (iterPrev_keeps h1).1.1 hw
          split at h
          · rename_i herr
            injection h with h; subst h
            exact absurd he herr
          · refine (prevStep_cursor h he w1 e3 (fun hf => ?_) (fun _ => ?_)).2
            · rw [e4] at hf
              simp only at hf
              rw [hat] at hf
              cases hf
            · rw [e1, e2]
              simp only
              exact ⟨hbf.2, Or.inl hbf.1⟩
  · rename_i hrev
    replace hrev : i.reverse = true := by simpa using hrev
    have hbr := cursorOK_rev ⟨hw, hc, hrev⟩
    refine (prevStep_cursor h he hw hrev (fun _ => hbr) (fun hat => ⟨by omega, ?_⟩)).2
    by_cases hlt : 0 ≤ i.rangeKeysIdx
    · exact Or.inl hlt
    · exact Or.inr (fun s2 h2 => settled_shift_rev hs hrev hat (by omega) h2)

theorem seekLTTail_cursor {I : MVCCIterator σ} {k : MVCCKey} {i s : pointSynthesizingIter σ}
    (h : seekLTTail I k i = some s) (he : s.iterErr = none) (hb : Bounded true i) :
    CursorInv I s := by
  unfold seekLTTail at h
  split at h
  · cases h
  · rename_i i2 h2
    have b2 := seekLTCursor_cursor h2 hb
    split at h
    · cases h
    · rename_i i3 h3
      split at h
      · exact (updatePosition_cursor h he).2
      · injection h with h; subst h
        exact (bounded_updateAtPoint h3 b2).2

theorem seekLT_cursor {I : MVCCIterator σ} {k : MVCCKey} {i s : pointSynthesizingIter σ}
    (h : SeekLT I k i = some s) (he : s.iterErr = none) : CursorInv I s := by
  unfold SeekLT at h
  split at h
  · cases h
  · split at h
    · cases h
    · rename_i i1 h1
      have r1 : i1.reverse = true := updateValid_reverse h1
      split at h
      · exact (updatePosition_cursor h he).2
      · rename_i hv
        replace hv : i1.iterValid = true := by simpa using hv
        split at h
        · cases h
        · rename_i it1 hit1
          simp only at h
          split at h
          · injection h with h; subst h
            have hb := bounded_clear i1 (I.HasPointAndRange it1).1
            exact ⟨hb.1, hb.2.1, settled_clear_valid I hit1 hv⟩
          · split at h
            · split at h
              · cases h
              · rename_i i2 h2
                have r2 : i2.reverse = true := (iterNext_cursor h2).2.2.1.trans r1
                split at h
                · rename_i herr
                  injection h with h; subst h
                  exact absurd he herr
                · split at h
                  · cases h
                  · rename_i i3 positioned hpk
                    have r3 : i3.reverse = true ∧ (positioned = true → Bounded true i3) := by
                      split at hpk
                      · split at hpk
                        · cases hpk
                        · split at hpk
                          · rw [Option.map_eq_some'] at hpk
                            obtain ⟨i3', h3', hp⟩ := hpk
                            simp only [Prod.mk.injEq] at hp
                            obtain ⟨rfl, -⟩ := hp
                            have := bounded_updateRangeKeys h3'
                            rw [r2] at this
                            exact ⟨this.2.2, fun _ => this⟩
                          · simp only [Option.some.injEq, Prod.mk.injEq] at hpk
                            obtain ⟨rfl, rfl⟩ := hpk
                            exact ⟨r2, fun h => by cases h⟩
                      · simp only [Option.some.injEq, Prod.mk.injEq] at hpk
                        obtain ⟨rfl, rfl⟩ := hpk
                        exact ⟨r2, fun h => by cases h⟩
                    split at h
                    · cases h
                    · rename_i i4 h4
                      split at h
                      · exact (updatePosition_cursor h he).2
                      · split at h
                        · rename_i hpos
                          exact seekLTTail_cursor h he (bounded_iterPrev h4 (r3.2 hpos))
                        · split at h
                          · cases h
                          · rename_i i5 h5
                            have b5 := bounded_updateRangeKeys h5
                            rw [(iterPrev_cursor h4).2.2.1, r3.1] at b5
                            exact seekLTTail_cursor h he b5
            · split at h
              · cases h
              · rename_i i2 h2
                have b2 := bounded_updateRangeKeys h2
                rw [r1] at b2
                exact seekLTTail_cursor h he b2

/-- Every seek that leaves no error establishes the bounds, from any state. -/
theorem apply_seek_cursor {I : MVCCIterator σ} {op : PosOp} {i s : pointSynthesizingIter σ}
    (hop : op.isSeek = true) (h : op.apply I i = some s) (he : s.iterErr = none) :
    CursorInv I s := by
  cases op with
  | seekGE k => exact seekGE_cursor h he
  | seekIntentGE k u => exact seekIntentGE_cursor h he
  | seekLT k => exact seekLT_cursor h he
  | next => cases hop
  | nextKey => cases hop
  | prev => cases hop

/-- Every public positioning call that leaves no error keeps the bounds. -/
theorem apply_cursor {I : MVCCIterator σ} {op : PosOp} {i s : pointSynthesizingIter σ}
    (h : op.apply I i = some s) (he : s.iterErr = none) (hg : CursorInv I i) :
    CursorInv I s := by
  cases op with
  | seekGE k => exact seekGE_cursor h he
  | seekIntentGE k u => exact seekIntentGE_cursor h he
  | seekLT k => exact seekLT_cursor h he
  | next => exact next_cursor h he hg
  | nextKey => exact nextKey_cursor h he
  | prev => exact prev_cursor h he hg

theorem runClean_cursor {I : MVCCIterator σ} {ops : List PosOp}
    {i s : pointSynthesizingIter σ} (h : PosOp.runClean I ops i = some s)
    (hg : CursorInv I i) : CursorInv I s := by
  induction ops generalizing i with
  | nil =>
    unfold PosOp.runClean at h
    injection h with h; subst h
    exact hg
  | cons op ops ih =>
    unfold PosOp.runClean at h
    cases hm : op.apply I i with
    | none => rw [hm] at h; cases h
    | some m =>
      rw [hm] at h
      simp only [Option.bind] at h
      split at h
      · rename_i hem
        exact ih h (apply_cursor hm hem hg)
      · cases h

theorem cursorInv_new (I : MVCCIterator σ) (pooled : pointSynthesizingIter σ) (parent : σ)
    (emit : Bool) : CursorInv I (newPointSynthesizingIter pooled parent emit) := by
  refine ⟨⟨le_refl _, Int.ofNat_nonneg _⟩, by simp [CursorOK, newPointSynthesizingIter], ?_⟩
  simp [Settled, updateAtPoint, newPointSynthesizingIter]

end Cursor

/-! ## The synthetic cursor, over an iterator that obeys its contract -/

section Syn

variable {σ : Type}

theorem rest_of_frame {I : MVCCIterator σ} {i s : pointSynthesizingIter σ}
    (h1 : s.iter = i.iter) (h2 : s.iterValid = i.iterValid) (h3 : s.iterErr = i.iterErr)
    (h4 : s.rangeKeys = i.rangeKeys) (h5 : s.rangeKeysStart = i.rangeKeysStart)
    (h : Rest I i) : Rest I s := by
  obtain ⟨a, b, c⟩ := h
  refine ⟨?_, ?_, ?_⟩
  · rcases a with ⟨it, hit, hv⟩ | ⟨hv, he⟩
    · exact Or.inl ⟨it, h1.trans hit, by rw [hv, h2, h3]⟩
    · exact Or.inr ⟨h2.trans hv, h3.trans he⟩
  · intro hk
    rw [h5]
    exact b (h4 ▸ hk)
  · intro hv it hit
    exact c (h2 ▸ hv) it (h1 ▸ hit)

theorem rest_noErr {I : MVCCIterator σ} (hI : IterContract I) {s : pointSynthesizingIter σ}
    (h : SyncedOrIdle I s) : s.iterErr = none := by
  rcases h with ⟨it, -, hv⟩ | ⟨-, he⟩
  · have := hI.noError it
    rw [hv] at this
    exact this
  · exact he

theorem synced_valid {I : MVCCIterator σ} {s : pointSynthesizingIter σ} {it : σ}
    (h : SyncedOrIdle I s) (hit : s.iter = some it) (hv : s.iterValid = true) :
    (I.Valid it).1 = true := by
  rcases h with ⟨it', hit', hv'⟩ | ⟨hv', -⟩
  · rw [hit] at hit'
    cases hit'
    rw [hv']
    exact hv
  · rw [hv] at hv'
    cases hv'

/-- After `updateValid` on a position where a bare range is at its span start. -/
theorem rest_updateValid {I : MVCCIterator σ} {i s : pointSynthesizingIter σ} {c : σ}
    (hc : BareAtStart I c) (hit : i.iter = some c) (hk : Coherent i)
    (h : updateValid I i = some s) : Rest I s := by
  cases i with
  | mk iter V pos idx en start atPoint reverse emit iterValid iterErr =>
  simp only at hit
  subst hit
  unfold updateValid at h
  simp only at h
  injection h with h
  subst h
  refine ⟨Or.inl ⟨c, rfl, rfl⟩, hk, ?_⟩
  intro hv it hit'
  simp only at hv hit'
  cases hit'
  exact hc hv

theorem rest_iterNext {I : MVCCIterator σ} (hI : IterContract I)
    {i s : pointSynthesizingIter σ} (hk : Coherent i) (h : iterNext I i = some s) :
    Rest I s := by
  unfold iterNext at h
  split at h
  · cases h
  · rename_i it hit
    exact rest_updateValid (i := { i with iter := some (I.Next it) }) (hI.bareNext it) rfl hk h

theorem rest_iterPrev {I : MVCCIterator σ} (hI : IterContract I)
    {i s : pointSynthesizingIter σ} (hk : Coherent i) (h : iterPrev I i = some s) :
    Rest I s := by
  unfold iterPrev at h
  split at h
  · cases h
  · rename_i it hit
    exact rest_updateValid (i := { i with iter := some (I.Prev it) }) (hI.barePrev it) rfl hk h

theorem rest_extend {I : MVCCIterator σ} {i s : pointSynthesizingIter σ}
    (h : extendRangeKeysEnd I i = some s) (hr : Rest I i) : Rest I s := by
  obtain ⟨e, hs, -, -⟩ := extend_of_some h
  subst hs
  exact rest_of_frame rfl rfl rfl rfl rfl hr

theorem rest_updateAtPoint {I : MVCCIterator σ} {i s : pointSynthesizingIter σ}
    (h : updateAtPoint I i = some s) (hr : Rest I i) : Rest I s := by
  have hs := (updateAtPoint_of_some h).1
  rw [hs]
  exact rest_of_frame rfl rfl rfl rfl rfl hr

theorem rest_clear {I : MVCCIterator σ} (i : pointSynthesizingIter σ) (b : Bool)
    (hs : SyncedOrIdle I i) (hk : Coherent i)
    (ha : i.iterValid = true → ∀ it, i.iter = some it → (I.HasPointAndRange it).2 = true →
      (I.HasPointAndRange it).1 = false → (I.UnsafeKey it).Key = (I.RangeBounds it).Key) :
    Rest I (clearRangeKeys { i with atPoint := b }) := by
  obtain ⟨h1, -, -, -, h5, -, -, h8, h9, -, h11⟩ := clearRangeKeys_fields { i with atPoint := b }
  refine ⟨?_, ?_, ?_⟩
  · rcases hs with ⟨it, hit, hv⟩ | ⟨hv, he⟩
    · exact Or.inl ⟨it, h11.trans hit, by rw [hv, h8, h9]⟩
    · exact Or.inr ⟨h8.trans hv, h9.trans he⟩
  · intro _
    rw [h5]
    simp only
    split
    · rename_i hl
      exact hk (List.length_eq_zero.1 hl)
    · rfl
  · intro hv it hit
    rw [h8] at hv
    rw [h11] at hit
    exact ha hv it hit

theorem syncedOrIdle_of_frame {I : MVCCIterator σ} {i s : pointSynthesizingIter σ}
    (h1 : s.iter = i.iter) (h2 : s.iterValid = i.iterValid) (h3 : s.iterErr = i.iterErr)
    (h : SyncedOrIdle I i) : SyncedOrIdle I s := by
  rcases h with ⟨it, hit, hv⟩ | ⟨hv, he⟩
  · exact Or.inl ⟨it, h1.trans hit, by rw [hv, h2, h3]⟩
  · exact Or.inr ⟨h2.trans hv, h3.trans he⟩

theorem atRest_of_frame {I : MVCCIterator σ} {i s : pointSynthesizingIter σ}
    (h1 : s.iter = i.iter) (h2 : s.iterValid = i.iterValid) (h : AtRest I i) : AtRest I s :=
  fun hv it hit => h (h2 ▸ hv) it (h1 ▸ hit)

theorem coherent_clear {i : pointSynthesizingIter σ} (hk : Coherent i) :
    Coherent (clearRangeKeys i) := by
  obtain ⟨-, -, -, -, h5, -⟩ := clearRangeKeys_fields i
  intro _
  rw [h5]
  split
  · rename_i hl
    exact hk (List.length_eq_zero.1 hl)
  · rfl

/-- What `updateRangeKeys` leaves over an iterator that obeys its contract: the
cache cleared, or on a valid position with a range a non-empty stack at the key of
the position, the window the whole stack when that key is the span start. -/
theorem updateRangeKeys_cache {I : MVCCIterator σ} (hI : IterContract I)
    {i s : pointSynthesizingIter σ} (hs : SyncedOrIdle I i) (hk : Coherent i)
    (h : updateRangeKeys I i = some s) :
    SyncedOrIdle I s ∧ Coherent s ∧ s.atPoint = i.atPoint ∧
      ((s.rangeKeys = [] ∧
          (i.iterValid = false ∨ ∃ it, i.iter = some it ∧ (I.HasPointAndRange it).2 = false)) ∨
        (i.iterValid = true ∧ ∃ it, i.iter = some it ∧ (I.HasPointAndRange it).2 = true ∧
          s.rangeKeys ≠ [] ∧ s.rangeKeysPos = (I.UnsafeKey it).Key ∧
          s.rangeKeysIdx = (if i.reverse = true then s.rangeKeysEnd - 1 else 0) ∧
          ((I.UnsafeKey it).Key = (I.RangeBounds it).Key →
            s.rangeKeysEnd = s.rangeKeys.length))) := by
  obtain ⟨-, -, -, c4, c5, c6⟩ := updateRangeKeys_cursor h
  refine ⟨syncedOrIdle_of_frame c6 c5 c4 hs, ?_⟩
  have hclear : Coherent (clearRangeKeys i) ∧ (clearRangeKeys i).atPoint = i.atPoint ∧
      (clearRangeKeys i).rangeKeys = [] :=
    ⟨coherent_clear hk, (clearRangeKeys_fields i).2.2.2.2.2.1, (clearRangeKeys_fields i).1⟩
  cases hit : i.iter with
  | none =>
    unfold updateRangeKeys at h
    rw [hit] at h
    by_cases hv : i.iterValid = true
    · simp [hv] at h
    · replace hv : i.iterValid = false := by simpa using hv
      simp only [hv, Bool.not_false, if_true, Option.some.injEq] at h
      subst h
      exact ⟨hclear.1, hclear.2.1, Or.inl ⟨hclear.2.2, Or.inl hv⟩⟩
  | some it =>
    by_cases hc : i.iterValid = true ∧ (I.HasPointAndRange it).2 = true
    · obtain ⟨e, he, hsp⟩ := updateRangeKeys_spec hit hc.1 hc.2
      rw [hsp] at h
      cases h
      have hval := synced_valid hs hit hc.1
      have hne : (if (I.RangeBounds it).Key = i.rangeKeysStart then i.rangeKeys
          else (I.RangeKeys it).Versions) ≠ [] := by
        split
        · rename_i heq
          intro hnil
          exact hI.startKey it hval hc.2 (heq.trans (hk hnil))
        · exact hI.versions it hval hc.2
      refine ⟨?_, rfl, Or.inr ⟨hc.1, it, rfl, hc.2, hne, rfl, rfl, ?_⟩⟩
      · intro hnil
        exact absurd hnil hne
      · intro hks
        simp only
        rw [if_pos hks] at he
        exact he
    · have hnone := updateRangeKeys_none (I := I) hit (by
        by_cases hv : i.iterValid = true
        · right
          cases hr : (I.HasPointAndRange it).2
          · rfl
          · exact absurd ⟨hv, hr⟩ hc
        · left; simpa using hv)
      rw [hnone] at h
      cases h
      refine ⟨hclear.1, hclear.2.1, Or.inl ⟨hclear.2.2, ?_⟩⟩
      by_cases hv : i.iterValid = true
      · right
        refine ⟨it, rfl, ?_⟩
        cases hr : (I.HasPointAndRange it).2
        · rfl
        · exact absurd ⟨hv, hr⟩ hc
      · left; simpa using hv

theorem updateRangeKeys_rest {I : MVCCIterator σ} (hI : IterContract I)
    {i s : pointSynthesizingIter σ} (hr : Rest I i) (h : updateRangeKeys I i = some s) :
    Rest I s ∧ s.atPoint = i.atPoint ∧
      ((s.rangeKeys = [] ∧
          (i.iterValid = false ∨ ∃ it, i.iter = some it ∧ (I.HasPointAndRange it).2 = false)) ∨
        (i.iterValid = true ∧ ∃ it, i.iter = some it ∧ (I.HasPointAndRange it).2 = true ∧
          s.rangeKeys ≠ [] ∧ s.rangeKeysPos = (I.UnsafeKey it).Key ∧
          s.rangeKeysIdx = (if i.reverse = true then s.rangeKeysEnd - 1 else 0) ∧
          ((I.UnsafeKey it).Key = (I.RangeBounds it).Key →
            s.rangeKeysEnd = s.rangeKeys.length))) := by
  obtain ⟨a, b, c, d⟩ := updateRangeKeys_cache hI hr.1 hr.2.1 h
  obtain ⟨-, -, -, -, c5, c6⟩ := updateRangeKeys_cursor h
  exact ⟨⟨a, b, atRest_of_frame c6 c5 hr.2.2⟩, c, d⟩

theorem synOK_of_window {s : pointSynthesizingIter σ} (h0 : 0 ≤ s.rangeKeysIdx)
    (h1 : s.rangeKeysIdx < s.rangeKeysEnd) : SynOK s :=
  fun _ _ => ⟨h0, h1⟩

theorem synOK_of_atPoint {s : pointSynthesizingIter σ} (h : s.atPoint = true) : SynOK s :=
  fun hf _ => by rw [h] at hf; cases hf

theorem synOK_of_exhausted {s : pointSynthesizingIter σ} (hv : s.iterValid = false)
    (hk : s.rangeKeys = []) : SynOK s := by
  intro _ h
  rcases h with h | h
  · rw [hv] at h; cases h
  · exact absurd hk h

/-- On a valid point at the cached key, `updateAtPoint` decides against the real
point only with a non-empty stack and the cursor on the window side of its
sentinel. -/
theorem updateAtPoint_false {I : MVCCIterator σ} {j s : pointSynthesizingIter σ} {it : σ}
    (h : updateAtPoint I j = some s) (hat : s.atPoint = false) (hit : j.iter = some it)
    (hv : j.iterValid = true) (hp : (I.HasPointAndRange it).1 = true)
    (hkey : j.rangeKeys ≠ [] → (I.UnsafeKey it).Key = j.rangeKeysPos) :
    j.rangeKeys ≠ [] ∧ (j.reverse = false → j.rangeKeysIdx < j.rangeKeysEnd) ∧
      (j.reverse = true → 0 ≤ j.rangeKeysIdx) := by
  cases j with
  | mk iter V pos idx en start atPoint reverse emit iterValid iterErr =>
  simp only at hit hv hkey
  subst hit hv
  unfold updateAtPoint at h
  simp only [Bool.not_true, Bool.false_eq_true, if_false, hp] at h
  split at h
  · injection h with h; subst h; cases hat
  · rename_i hl
    have hne : V ≠ [] := fun hnil => hl (by rw [hnil]; rfl)
    have hk := hkey hne
    have hkb : roachpb.Key.Equal (I.UnsafeKey it).Key pos = true := by
      simp [roachpb.Key.Equal, hk]
    simp only [hkb, Bool.not_true, Bool.false_eq_true, if_false] at h
    refine ⟨hne, ?_, ?_⟩
    · intro hr
      simp only at hr
      subst hr
      simp only [Bool.not_false, if_true] at h
      split at h
      · injection h with h; subst h; cases hat
      · rename_i hc
        simp only [Bool.or_eq_true, decide_eq_true_eq, not_or, ge_iff_le, not_le] at hc
        exact hc.1
    · intro hr
      simp only at hr
      subst hr
      simp only [Bool.not_true, Bool.false_eq_true, if_false] at h
      split at h
      · injection h with h; subst h; cases hat
      · rename_i hc
        simp only [not_lt] at hc
        exact hc

theorem updateAtPoint_true {I : MVCCIterator σ} {j s : pointSynthesizingIter σ} {it : σ}
    (h : updateAtPoint I j = some s) (hit : j.iter = some it)
    (hv : j.iterValid = true) (hp : (I.HasPointAndRange it).1 = true)
    (hk : j.rangeKeys = []) : s.atPoint = true := by
  cases j with
  | mk iter V pos idx en start atPoint reverse emit iterValid iterErr =>
  simp only at hit hv hk
  subst hit hv hk
  simp only [updateAtPoint, Bool.not_true, Bool.false_eq_true, if_false, hp, List.length_nil,
    if_true, Option.some.injEq] at h
  subst h
  rfl

/-- After `updatePosition` over an iterator that obeys its contract: off a real
point and not exhausted, the cursor is inside the window. -/
theorem updatePosition_synOK {I : MVCCIterator σ} (hI : IterContract I)
    {i s : pointSynthesizingIter σ} (hr : Rest I i) (h : updatePosition I i = some s) :
    Rest I s ∧ SynOK s := by
  obtain ⟨hs, hk, ha⟩ := hr
  unfold updatePosition at h
  split at h
  · rename_i hv
    replace hv : i.iterValid = false := by simpa using hv
    injection h with h; subst h
    refine ⟨rest_clear i false hs hk ha, synOK_of_exhausted ?_ (clearRangeKeys_fields _).1⟩
    rw [(clearRangeKeys_fields _).2.2.2.2.2.2.2.1]
    exact hv
  · rename_i hv
    replace hv : i.iterValid = true := by simpa using hv
    split at h
    · cases h
    · rename_i it hit
      have hval := synced_valid hs hit hv
      simp only at h
      split at h
      · rename_i hnr
        replace hnr : (I.HasPointAndRange it).2 = false := by simpa using hnr
        injection h with h; subst h
        refine ⟨rest_clear i _ hs hk ha, synOK_of_atPoint ?_⟩
        rw [(clearRangeKeys_fields _).2.2.2.2.2.1]
        rcases hI.pointOrRange it hval with hp | hp
        · exact hp
        · rw [hnr] at hp; cases hp
      · rename_i hnr
        replace hnr : (I.HasPointAndRange it).2 = true := by simpa using hnr
        split at h
        · rename_i hfwd
          replace hfwd : i.reverse = false := by simpa using hfwd
          split at h
          · cases h
          · rename_i i1 h1
            obtain ⟨r1, -, f1⟩ := updateRangeKeys_rest hI ⟨hs, hk, ha⟩ h1
            obtain ⟨-, c1, rv1, -, v1, it1⟩ := updateRangeKeys_cursor h1
            rcases f1 with ⟨-, f | ⟨it', hit', f⟩⟩ | ⟨-, it', hit', -, hne, hpos, hidx, hend⟩
            · rw [hv] at f; cases f
            · rw [hit] at hit'; cases hit'
              rw [hnr] at f; cases f
            · rw [hit] at hit'; cases hit'
              rw [hfwd] at hidx
              simp only [Bool.false_eq_true, if_false] at hidx
              split at h
              · rename_i hbare
                have hnp : (I.HasPointAndRange it).1 = false := by
                  simpa [hnr] using hbare
                have hlen := hend (ha hv it hit hnr hnp)
                split at h
                · cases h
                · rename_i i2 h2
                  have r2 := rest_iterNext hI r1.2.1 h2
                  obtain ⟨e1, e2, -, -, e5⟩ := iterNext_cursor h2
                  split at h
                  · rename_i herr
                    exact absurd (rest_noErr hI r2.1) herr
                  · split at h
                    · cases h
                    · rename_i i3 h3
                      obtain ⟨-, g1, g2, -⟩ := extend_cursor h3
                      obtain ⟨u1, u2, -, -, -⟩ := updateAtPoint_cursor h
                      refine ⟨rest_updateAtPoint h (rest_extend h3 r2), synOK_of_window ?_ ?_⟩
                      · rw [u1, g1, e1, hidx]
                      · rw [u1, g1, e1, hidx, u2]
                        have : 0 < i1.rangeKeys.length := List.length_pos.2 hne
                        omega
              · rename_i hbare
                have hp : (I.HasPointAndRange it).1 = true := by
                  simpa [hnr] using hbare
                obtain ⟨u1, u2, -, -, -⟩ := updateAtPoint_cursor h
                refine ⟨rest_updateAtPoint h r1, fun hat _ => ?_⟩
                obtain ⟨-, q, -⟩ := updateAtPoint_false h hat (it1.trans hit) (v1.trans hv) hp
                  (fun _ => hpos.symm)
                rw [u1, u2, hidx]
                have := q (rv1.trans hfwd)
                rw [hidx] at this
                exact ⟨le_refl _, this⟩
        · rename_i hfwd
          replace hfwd : i.reverse = true := by simpa using hfwd
          split at h
          · cases h
          · rename_i i1 hst
            exact absurd (rest_noErr hI (by
              split at hst
              · split at hst
                · cases hst
                · rename_i i2 h2
                  simp only [Option.some.injEq, Prod.mk.injEq] at hst
                  obtain ⟨rfl, -⟩ := hst
                  exact (rest_iterPrev hI hk h2).1
              · simp only [Option.some.injEq, Prod.mk.injEq] at hst
                obtain ⟨rfl, -⟩ := hst
                exact hs)) ((steppedPrev_keeps hst).2 rfl)
          · rename_i i1 hst
            have r1 : Rest I i1 ∧ i1.reverse = true := by
              split at hst
              · split at hst
                · cases hst
                · rename_i i2 h2
                  simp only [Option.some.injEq, Prod.mk.injEq] at hst
                  obtain ⟨rfl, -⟩ := hst
                  exact ⟨rest_iterPrev hI hk h2, (iterPrev_cursor h2).2.2.1.trans hfwd⟩
              · simp only [Option.some.injEq, Prod.mk.injEq] at hst
                obtain ⟨rfl, -⟩ := hst
                exact ⟨⟨hs, hk, ha⟩, hfwd⟩
            split at h
            · cases h
            · rename_i i2 h2
              obtain ⟨r2, -, f2⟩ := updateRangeKeys_rest hI r1.1 h2
              obtain ⟨w2, -, rv2, -, v2, it2⟩ := updateRangeKeys_cursor h2
              obtain ⟨u1, u2, -, -, u5⟩ := updateAtPoint_cursor h
              have hs1 := (updateAtPoint_of_some h).1
              refine ⟨rest_updateAtPoint h r2, ?_⟩
              rcases f2 with ⟨hnil, f⟩ | ⟨hv1, it', hit', hr', hne, hpos, hidx, hend⟩
              · intro hat hprem
                exfalso
                have hsv : s.iterValid = i2.iterValid := by rw [hs1]
                rcases hprem with hprem | hprem
                · rw [hsv, v2] at hprem
                  rcases f with f | ⟨it', hit', f⟩
                  · rw [hprem] at f; cases f
                  · have hval' := synced_valid r1.1.1 hit' hprem
                    have hp' : (I.HasPointAndRange it').1 = true := by
                      rcases hI.pointOrRange it' hval' with hp | hp
                      · exact hp
                      · rw [f] at hp; cases hp
                    have := updateAtPoint_true h (it2.trans hit') (v2.trans hprem) hp' hnil
                    rw [hat] at this
                    cases this
                · exact hprem (u5.trans hnil)
              · rw [r1.2] at hidx
                simp only [if_true] at hidx
                cases hp' : (I.HasPointAndRange it').1 with
                | false =>
                  have hlen := hend (r1.1.2.2 hv1 it' hit' hr' hp')
                  have : 0 < i2.rangeKeys.length := List.length_pos.2 hne
                  exact synOK_of_window (by rw [u1, hidx]; omega) (by rw [u1, u2, hidx]; omega)
                | true =>
                  intro hat _
                  obtain ⟨-, -, q⟩ := updateAtPoint_false h hat (it2.trans hit') (v2.trans hv1) hp'
                    (fun _ => hpos.symm)
                  have := q (rv2.trans r1.2)
                  rw [u1, u2]
                  exact ⟨this, by rw [hidx]; omega⟩

theorem finishFwd_synOK {I : MVCCIterator σ} (hI : IterContract I)
    {i s : pointSynthesizingIter σ} (hr : Rest I i) (h0 : 0 ≤ i.rangeKeysIdx)
    (h : finishFwd I i = some s) : Rest I s ∧ SynOK s := by
  unfold finishFwd at h
  split at h
  · cases h
  · rename_i i2 h2
    have r2 := rest_updateAtPoint h2 hr
    obtain ⟨e1, e2, -, -, -⟩ := updateAtPoint_cursor h2
    split at h
    · exact updatePosition_synOK hI r2 h
    · rename_i hc
      injection h with h; subst h
      refine ⟨r2, fun hat _ => ?_⟩
      simp only [hat, Bool.not_false, Bool.true_and, decide_eq_true_eq, ge_iff_le, not_le] at hc
      rw [e1] at hc ⊢
      exact ⟨h0, hc⟩

theorem finishRev_synOK {I : MVCCIterator σ} (hI : IterContract I)
    {i s : pointSynthesizingIter σ} (hr : Rest I i) (h1 : i.rangeKeysIdx < i.rangeKeysEnd)
    (h : finishRev I i = some s) : Rest I s ∧ SynOK s := by
  unfold finishRev at h
  split at h
  · cases h
  · rename_i i2 h2
    have r2 := rest_updateAtPoint h2 hr
    obtain ⟨e1, e2, -, -, -⟩ := updateAtPoint_cursor h2
    split at h
    · split at h
      · exact updatePosition_synOK hI r2 h
      · rename_i hat
        replace hat : i2.atPoint = true := by simpa using hat
        split at h
        · cases h
        · split at h
          · exact updatePosition_synOK hI r2 h
          · injection h with h; subst h
            exact ⟨r2, synOK_of_atPoint hat⟩
    · rename_i hneg
      simp only [decide_eq_true_eq, not_lt] at hneg
      injection h with h; subst h
      exact ⟨r2, synOK_of_window hneg (by rw [e1, e2]; exact h1)⟩

theorem rest_seekWindow {I : MVCCIterator σ} (b : Bool) {i : pointSynthesizingIter σ}
    (hr : Rest I i) : Rest I (seekWindow b i) := by
  unfold seekWindow
  split
  · exact rest_of_frame rfl rfl rfl rfl rfl hr
  · exact hr

theorem rest_seekCursor {I : MVCCIterator σ} {k : MVCCKey} {i s : pointSynthesizingIter σ}
    (h : seekCursor k i = some s) (hr : Rest I i) : Rest I s := by
  unfold seekCursor at h
  split at h
  · rw [Option.map_eq_some'] at h
    obtain ⟨n, -, rfl⟩ := h
    exact rest_of_frame rfl rfl rfl rfl rfl hr
  · injection h with h; subst h
    exact hr

theorem rest_seekLTCursor {I : MVCCIterator σ} {k : MVCCKey} {i s : pointSynthesizingIter σ}
    (h : seekLTCursor k i = some s) (hr : Rest I i) : Rest I s := by
  unfold seekLTCursor at h
  split at h
  · rw [Option.map_eq_some'] at h
    obtain ⟨n, -, rfl⟩ := h
    exact rest_of_frame rfl rfl rfl rfl rfl hr
  · injection h with h; subst h
    exact hr

theorem seekLTTail_synOK {I : MVCCIterator σ} (hI : IterContract I) {k : MVCCKey}
    {i s : pointSynthesizingIter σ} (hr : Rest I i) (hb : Bounded true i)
    (h : seekLTTail I k i = some s) : Rest I s ∧ SynOK s := by
  unfold seekLTTail at h
  split at h
  · cases h
  · rename_i i2 h2
    have r2 := rest_seekLTCursor h2 hr
    have b2 := cursorOK_rev (seekLTCursor_cursor h2 hb)
    split at h
    · cases h
    · rename_i i3 h3
      have r3 := rest_updateAtPoint h3 r2
      obtain ⟨e1, e2, -, -, -⟩ := updateAtPoint_cursor h3
      split at h
      · exact updatePosition_synOK hI r3 h
      · rename_i hc
        injection h with h; subst h
        refine ⟨r3, fun hat _ => ?_⟩
        simp only [hat, Bool.not_false, Bool.true_and, decide_eq_true_eq, not_lt] at hc
        rw [e1] at hc
        rw [e1, e2]
        exact ⟨hc, by omega⟩

theorem tail_synOK {I : MVCCIterator σ} (hI : IterContract I) {k : MVCCKey} {hp hr : Bool}
    {i s : pointSynthesizingIter σ} {it : σ} (hs : SyncedOrIdle I i) (hk : Coherent i)
    (hit : i.iter = some it) (hpe : hp = (I.HasPointAndRange it).1)
    (hre : hr = (I.HasPointAndRange it).2) (hrev : i.reverse = false)
    (h : updateSeekGEPositionTail I k hp hr i = some s) : Rest I s ∧ SynOK s := by
  unfold updateSeekGEPositionTail at h
  split at h
  · cases h
  · rename_i i1 h1
    have b1 := bounded_updateRangeKeys h1
    rw [hrev] at b1
    obtain ⟨-, -, -, -, v1, it1⟩ := updateRangeKeys_cursor h1
    obtain ⟨s1, k1, -, -⟩ := updateRangeKeys_cache hI hs hk h1
    simp only at h
    split at h
    · cases h
    · rename_i i2 hst
      exfalso
      have herr := (steppedNext_keeps (keeps_refl I i1) hst).2 rfl
      have : SyncedOrIdle I i2 := by
        split at hst
        · split at hst
          · cases hst
          · rename_i i3 h3
            split at hst
            · simp only [Option.some.injEq, Prod.mk.injEq] at hst
              obtain ⟨rfl, -⟩ := hst
              exact (rest_iterNext hI k1 h3).1
            · rw [Option.map_eq_some'] at hst
              obtain ⟨i4, -, hp4⟩ := hst
              simp only [Prod.mk.injEq] at hp4
              exact absurd hp4.2 (by simp)
        · simp only [Option.some.injEq, Prod.mk.injEq] at hst
          exact absurd hst.2 (by simp)
      exact herr (rest_noErr hI this)
    · rename_i i2 hst
      have b2 := steppedNext_bounded b1 hst
      have r2 : Rest I i2 := by
        split at hst
        · split at hst
          · cases hst
          · rename_i i3 h3
            split at hst
            · simp only [Option.some.injEq, Prod.mk.injEq] at hst
              exact absurd hst.2 (by simp)
            · rw [Option.map_eq_some'] at hst
              obtain ⟨i4, h4, hp4⟩ := hst
              simp only [Prod.mk.injEq] at hp4
              obtain ⟨rfl, -⟩ := hp4
              exact rest_extend h4 (rest_iterNext hI k1 h3)
        · rename_i hbare
          simp only [Option.some.injEq, Prod.mk.injEq] at hst
          obtain ⟨rfl, -⟩ := hst
          refine ⟨s1, k1, fun _ it' hit' h2 h3 => ?_⟩
          rw [it1, hit] at hit'
          cases hit'
          rw [← hre] at h2
          rw [← hpe] at h3
          rw [h2, h3] at hbare
          exact absurd rfl hbare
      split at h
      · cases h
      · rename_i i5 h5
        have b5 := seekCursor_cursor h5 (seekWindow_cursor hr b2)
        exact finishFwd_synOK hI (rest_seekCursor h5 (rest_seekWindow hr r2)) (cursorOK_fwd b5).1 h

theorem updateSeekGEPosition_synOK {I : MVCCIterator σ} (hI : IterContract I) {k : MVCCKey}
    {i s : pointSynthesizingIter σ} (hs : SyncedOrIdle I i) (hk : Coherent i)
    (hv : i.iterValid = true) (hrev : i.reverse = false)
    (h : updateSeekGEPosition I k i = some s) : Rest I s ∧ SynOK s := by
  unfold updateSeekGEPosition at h
  split at h
  · cases h
  · rename_i it hit
    have hval := synced_valid hs hit hv
    simp only at h
    split at h
    · rename_i hnr
      replace hnr : (I.HasPointAndRange it).2 = false := by simpa using hnr
      injection h with h; subst h
      refine ⟨rest_clear i _ hs hk (fun _ it' hit' h2 _ => ?_), synOK_of_atPoint ?_⟩
      · rw [hit] at hit'; cases hit'
        rw [hnr] at h2; cases h2
      · rw [(clearRangeKeys_fields _).2.2.2.2.2.1]
        rcases hI.pointOrRange it hval with hp | hp
        · exact hp
        · rw [hnr] at hp; cases hp
    · split at h
      · split at h
        · cases h
        · rename_i i1 h1
          have r1 := rest_iterNext hI hk h1
          have rv1 : i1.reverse = false := (iterNext_cursor h1).2.2.1.trans hrev
          split at h
          · exact updatePosition_synOK hI r1 h
          · split at h
            · cases h
            · rename_i it1 hit1
              exact tail_synOK hI r1.1 r1.2.1 hit1 rfl rfl rv1 h
      · exact tail_synOK hI hs hk hit rfl rfl hrev h

theorem rest_landed {I : MVCCIterator σ} {i s : pointSynthesizingIter σ} {c : σ} {r : Bool}
    (hk : Coherent i) (h : updateValid I { i with reverse := r, iter := some c } = some s) :
    SyncedOrIdle I s ∧ Coherent s ∧ s.reverse = r ∧ (s.iterValid = false → Rest I s) := by
  cases i with
  | mk iter V pos idx en start atPoint reverse emit iterValid iterErr =>
  unfold updateValid at h
  simp only at h
  injection h with h
  subst h
  refine ⟨Or.inl ⟨c, rfl, rfl⟩, hk, rfl, fun hv => ⟨Or.inl ⟨c, rfl, rfl⟩, hk, fun hv' => ?_⟩⟩
  rw [hv] at hv'
  cases hv'

theorem seekGE_synOK {I : MVCCIterator σ} (hI : IterContract I) {k : MVCCKey}
    {i s : pointSynthesizingIter σ} (hk : Coherent i) (h : SeekGE I k i = some s) :
    Rest I s ∧ SynOK s := by
  unfold SeekGE at h
  split at h
  · cases h
  · split at h
    · cases h
    · rename_i i1 h1
      obtain ⟨s1, k1, rv1, r1⟩ := rest_landed hk h1
      split at h
      · rename_i hv
        exact updatePosition_synOK hI (r1 (by simpa using hv)) h
      · rename_i hv
        exact updateSeekGEPosition_synOK hI s1 k1 (by simpa using hv) rv1 h

theorem seekIntentGE_synOK {I : MVCCIterator σ} (hI : IterContract I) {k : Nat} {u : uuid.UUID}
    {i s : pointSynthesizingIter σ} (hk : Coherent i) (h : SeekIntentGE I k u i = some s) :
    Rest I s ∧ SynOK s := by
  unfold SeekIntentGE at h
  split at h
  · cases h
  · split at h
    · cases h
    · rename_i i1 h1
      obtain ⟨s1, k1, rv1, r1⟩ := rest_landed hk h1
      split at h
      · rename_i hv
        exact updatePosition_synOK hI (r1 (by simpa using hv)) h
      · rename_i hv
        exact updateSeekGEPosition_synOK hI s1 k1 (by simpa using hv) rv1 h

theorem nextStep_synOK {I : MVCCIterator σ} (hI : IterContract I)
    {i s : pointSynthesizingIter σ} (hr : Rest I i)
    (hreal : i.atPoint = true → 0 ≤ i.rangeKeysIdx)
    (hsyn : i.atPoint = false → -1 ≤ i.rangeKeysIdx)
    (h : nextStep I i = some s) : Rest I s ∧ SynOK s := by
  unfold nextStep at h
  simp only at h
  cases hat : i.atPoint with
  | true =>
    rw [hat] at h
    simp only [if_true] at h
    split at h
    · cases h
    · rename_i i1 hst
      exfalso
      split at hst
      · cases hst
      · rename_i i2 h2
        split at hst
        · rename_i herr
          exact herr (rest_noErr hI (rest_iterNext hI hr.2.1 h2).1)
        · rw [Option.map_eq_some'] at hst
          obtain ⟨i4, -, hp4⟩ := hst
          simp only [Prod.mk.injEq] at hp4
          exact absurd hp4.2 (by simp)
    · rename_i i1 hst
      split at hst
      · cases hst
      · rename_i i2 h2
        split at hst
        · simp only [Option.some.injEq, Prod.mk.injEq] at hst
          exact absurd hst.2 (by simp)
        · rw [Option.map_eq_some'] at hst
          obtain ⟨i4, h4, hp4⟩ := hst
          simp only [Prod.mk.injEq] at hp4
          obtain ⟨rfl, -⟩ := hp4
          refine finishFwd_synOK hI (rest_extend h4 (rest_iterNext hI hr.2.1 h2)) ?_ h
          rw [(extend_cursor h4).2.1, (iterNext_cursor h2).1]
          exact hreal hat
  | false =>
    rw [hat] at h
    simp only [Bool.false_eq_true, if_false] at h
    refine finishFwd_synOK hI
      (i := { i with rangeKeysIdx := i.rangeKeysIdx + 1, atPoint := false })
      (rest_of_frame rfl rfl rfl rfl rfl hr) ?_ h
    have := hsyn hat
    simp only
    omega

theorem next_synOK {I : MVCCIterator σ} (hI : IterContract I)
    {i s : pointSynthesizingIter σ} (hr : Rest I i) (hg : CursorInv I i)
    (h : Next I i = some s) : Rest I s ∧ SynOK s := by
  obtain ⟨hw, hc, -⟩ := hg
  unfold Next at h
  split at h
  · rename_i hrev
    have hbr := cursorOK_rev ⟨hw, hc, hrev⟩
    simp only at h
    split at h
    · split at h
      · cases h
      · rename_i i1 h1
        have r1 := rest_iterNext hI (i := { i with reverse := false }) hr.2.1 h1
        split at h
        · rename_i herr
          exact absurd (rest_noErr hI r1.1) herr
        · exact updatePosition_synOK hI r1 h
    · split at h
      · exact nextStep_synOK hI
          (i := { i with reverse := false, rangeKeysIdx := i.rangeKeysIdx + 1 })
          (rest_of_frame rfl rfl rfl rfl rfl hr) (fun _ => by simp only; omega)
          (fun _ => by simp only; omega) h
      · rename_i hat
        replace hat : i.atPoint = false := by simpa using hat
        split at h
        · cases h
        · rename_i i1 h1
          have r1 := rest_iterNext hI (i := { i with reverse := false }) hr.2.1 h1
          obtain ⟨e1, -, -, e4, -⟩ := iterNext_cursor h1
          split at h
          · rename_i herr
            exact absurd (rest_noErr hI r1.1) herr
          · refine nextStep_synOK hI r1 (fun hf => ?_) (fun _ => ?_) h
            · rw [e4] at hf
              simp only at hf
              rw [hat] at hf
              cases hf
            · rw [e1]
              simp only
              omega
  · rename_i hrev
    replace hrev : i.reverse = false := by simpa using hrev
    have hbf := cursorOK_fwd ⟨hw, hc, hrev⟩
    exact nextStep_synOK hI hr (fun _ => hbf.1) (fun _ => by omega) h

theorem nextKey_synOK {I : MVCCIterator σ} (hI : IterContract I)
    {i s : pointSynthesizingIter σ} (hr : Rest I i) (h : NextKey I i = some s) :
    Rest I s ∧ SynOK s := by
  unfold NextKey at h
  simp only at h
  have tailK : ∀ {i1 : pointSynthesizingIter σ}, Rest I i1 →
      (match i1.iter with
        | none => none
        | some it =>
          if (i1.atPoint || roachpb.Key.Equal i1.rangeKeysPos (I.UnsafeKey it).Key) = true then
            match updateValid I { i1 with iter := some (I.NextKey it) } with
            | none => none
            | some i2 => if i2.iterErr ≠ none then some i2 else updatePosition I i2
          else updatePosition I i1) = some s → Rest I s ∧ SynOK s := by
    intro i1 r1 h
    split at h
    · cases h
    · rename_i it hit
      split at h
      · split at h
        · cases h
        · rename_i i2 h2
          have r2 := rest_updateValid (i := { i1 with iter := some (I.NextKey it) })
            (hI.bareNextKey it) rfl r1.2.1 h2
          split at h
          · rename_i herr
            exact absurd (rest_noErr hI r2.1) herr
          · exact updatePosition_synOK hI r2 h
      · exact updatePosition_synOK hI r1 h
  split at h
  · cases h
  · rename_i i1 hst
    exfalso
    split at hst
    · split at hst
      · split at hst
        · cases hst
        · rename_i i2 h2
          simp only [Option.some.injEq, Prod.mk.injEq] at hst
          obtain ⟨rfl, hb⟩ := hst
          have := rest_noErr hI
            (rest_iterNext hI (i := { i with reverse := false }) hr.2.1 h2).1
          exact absurd this (by simpa using hb)
      · simp at hst
    · simp at hst
  · rename_i i1 hst
    refine tailK ?_ h
    split at hst
    · split at hst
      · split at hst
        · cases hst
        · rename_i i2 h2
          simp only [Option.some.injEq, Prod.mk.injEq] at hst
          obtain ⟨rfl, -⟩ := hst
          exact rest_iterNext hI (i := { i with reverse := false }) hr.2.1 h2
      · simp only [Option.some.injEq, Prod.mk.injEq] at hst
        obtain ⟨rfl, -⟩ := hst
        exact rest_of_frame rfl rfl rfl rfl rfl hr
    · simp only [Option.some.injEq, Prod.mk.injEq] at hst
      obtain ⟨rfl, -⟩ := hst
      exact hr

theorem prevStep_synOK {I : MVCCIterator σ} (hI : IterContract I)
    {i s : pointSynthesizingIter σ} (hr : Rest I i)
    (hreal : i.atPoint = true → i.rangeKeysIdx < i.rangeKeysEnd)
    (hsyn : i.atPoint = false → i.rangeKeysIdx ≤ i.rangeKeysEnd)
    (h : prevStep I i = some s) : Rest I s ∧ SynOK s := by
  unfold prevStep at h
  simp only at h
  cases hat : i.atPoint with
  | true =>
    rw [hat] at h
    simp only [if_true] at h
    split at h
    · cases h
    · rename_i i1 hst
      exfalso
      split at hst
      · cases hst
      · rename_i i2 h2
        simp only [Option.some.injEq, Prod.mk.injEq] at hst
        obtain ⟨rfl, hb⟩ := hst
        exact absurd (rest_noErr hI (rest_iterPrev hI hr.2.1 h2).1) (by simpa using hb)
    · rename_i i1 hst
      split at hst
      · cases hst
      · rename_i i2 h2
        simp only [Option.some.injEq, Prod.mk.injEq] at hst
        obtain ⟨rfl, -⟩ := hst
        refine finishRev_synOK hI (rest_iterPrev hI hr.2.1 h2) ?_ h
        rw [(iterPrev_cursor h2).1, (iterPrev_cursor h2).2.1]
        exact hreal hat
  | false =>
    rw [hat] at h
    simp only [Bool.false_eq_true, if_false] at h
    refine finishRev_synOK hI
      (i := { i with rangeKeysIdx := i.rangeKeysIdx - 1, atPoint := false })
      (rest_of_frame rfl rfl rfl rfl rfl hr) ?_ h
    have := hsyn hat
    simp only
    omega

theorem prev_synOK {I : MVCCIterator σ} (hI : IterContract I)
    {i s : pointSynthesizingIter σ} (hr : Rest I i) (hg : CursorInv I i)
    (h : Prev I i = some s) : Rest I s ∧ SynOK s := by
  obtain ⟨hw, hc, -⟩ := hg
  unfold Prev at h
  split at h
  · rename_i hrev
    replace hrev : i.reverse = false := by simpa using hrev
    have hbf := cursorOK_fwd ⟨hw, hc, hrev⟩
    simp only at h
    split at h
    · split at h
      · cases h
      · rename_i i1 h1
        have r1 := rest_iterPrev hI (i := { i with reverse := true }) hr.2.1 h1
        split at h
        · rename_i herr
          exact absurd (rest_noErr hI r1.1) herr
        · exact updatePosition_synOK hI r1 h
    · split at h
      · exact prevStep_synOK hI
          (i := { i with reverse := true, rangeKeysIdx := i.rangeKeysIdx - 1 })
          (rest_of_frame rfl rfl rfl rfl rfl hr) (fun _ => by simp only; omega)
          (fun _ => by simp only; omega) h
      · rename_i hat
        replace hat : i.atPoint = false := by simpa using hat
        split at h
        · cases h
        · rename_i i1 h1
          have r1 := rest_iterPrev hI (i := { i with reverse := true }) hr.2.1 h1
          obtain ⟨e1, e2, -, e4, -⟩ := iterPrev_cursor h1
          split at h
          · rename_i herr
            exact absurd (rest_noErr hI r1.1) herr
          · refine prevStep_synOK hI r1 (fun hf => ?_) (fun _ => ?_) h
            · rw [e4] at hf
              simp only at hf
              rw [hat] at hf
              cases hf
            · rw [e1, e2]
              simp only
              omega
  · rename_i hrev
    replace hrev : i.reverse = true := by simpa using hrev
    have hbr := cursorOK_rev ⟨hw, hc, hrev⟩
    exact prevStep_synOK hI hr (fun _ => by omega) (fun _ => by omega) h

theorem seekLT_synOK {I : MVCCIterator σ} (hI : IterContract I) {k : MVCCKey}
    {i s : pointSynthesizingIter σ} (hk : Coherent i) (h : SeekLT I k i = some s) :
    Rest I s ∧ SynOK s := by
  unfold SeekLT at h
  split at h
  · cases h
  · rename_i it hit
    split at h
    · cases h
    · rename_i i1 h1
      have r1 := rest_updateValid
        (i := { i with reverse := true, iter := some (I.SeekLT k it) })
        (hI.bareSeekLT k it) rfl hk h1
      have rv1 : i1.reverse = true := updateValid_reverse h1
      split at h
      · exact updatePosition_synOK hI r1 h
      · rename_i hv
        replace hv : i1.iterValid = true := by simpa using hv
        split at h
        · cases h
        · rename_i it1 hit1
          have hval := synced_valid r1.1 hit1 hv
          simp only at h
          split at h
          · rename_i hnr
            replace hnr : (I.HasPointAndRange it1).2 = false := by simpa using hnr
            injection h with h; subst h
            refine ⟨rest_clear i1 _ r1.1 r1.2.1 r1.2.2, synOK_of_atPoint ?_⟩
            rw [(clearRangeKeys_fields _).2.2.2.2.2.1]
            rcases hI.pointOrRange it1 hval with hp | hp
            · exact hp
            · rw [hnr] at hp; cases hp
          · split at h
            · split at h
              · cases h
              · rename_i i2 h2
                have r2 := rest_iterNext hI r1.2.1 h2
                have rv2 : i2.reverse = true := (iterNext_cursor h2).2.2.1.trans rv1
                split at h
                · rename_i herr
                  exact absurd (rest_noErr hI r2.1) herr
                · split at h
                  · cases h
                  · rename_i i3 positioned hpk
                    have r3 : Rest I i3 ∧ i3.reverse = true ∧
                        (positioned = true → Bounded true i3) := by
                      split at hpk
                      · split at hpk
                        · cases hpk
                        · split at hpk
                          · rw [Option.map_eq_some'] at hpk
                            obtain ⟨i3', h3', hp⟩ := hpk
                            simp only [Prod.mk.injEq] at hp
                            obtain ⟨rfl, -⟩ := hp
                            have := bounded_updateRangeKeys h3'
                            rw [rv2] at this
                            exact ⟨(updateRangeKeys_rest hI r2 h3').1, this.2.2, fun _ => this⟩
                          · simp only [Option.some.injEq, Prod.mk.injEq] at hpk
                            obtain ⟨rfl, rfl⟩ := hpk
                            exact ⟨r2, rv2, fun h => by cases h⟩
                      · simp only [Option.some.injEq, Prod.mk.injEq] at hpk
                        obtain ⟨rfl, rfl⟩ := hpk
                        exact ⟨r2, rv2, fun h => by cases h⟩
                    split at h
                    · cases h
                    · rename_i i4 h4
                      have r4 := rest_iterPrev hI r3.1.2.1 h4
                      split at h
                      · exact updatePosition_synOK hI r4 h
                      · split at h
                        · rename_i hpos
                          exact seekLTTail_synOK hI r4 (bounded_iterPrev h4 (r3.2.2 hpos)) h
                        · split at h
                          · cases h
                          · rename_i i5 h5
                            have b5 := bounded_updateRangeKeys h5
                            rw [(iterPrev_cursor h4).2.2.1, r3.2.1] at b5
                            exact seekLTTail_synOK hI (updateRangeKeys_rest hI r4 h5).1 b5 h
            · split at h
              · cases h
              · rename_i i2 h2
                have b2 := bounded_updateRangeKeys h2
                rw [rv1] at b2
                exact seekLTTail_synOK hI (updateRangeKeys_rest hI r1 h2).1 b2 h

/-- Every public positioning call, over an iterator that obeys its contract,
leaves the adapter at rest with the synthetic cursor inside the window. -/
theorem apply_synOK {I : MVCCIterator σ} (hI : IterContract I) {op : PosOp}
    {i s : pointSynthesizingIter σ} (hr : Rest I i) (hg : CursorInv I i)
    (h : op.apply I i = some s) : Rest I s ∧ SynOK s ∧ CursorInv I s := by
  have key : Rest I s ∧ SynOK s := by
    cases op with
    | seekGE k => exact seekGE_synOK hI hr.2.1 h
    | seekIntentGE k u => exact seekIntentGE_synOK hI hr.2.1 h
    | seekLT k => exact seekLT_synOK hI hr.2.1 h
    | next => exact next_synOK hI hr hg h
    | nextKey => exact nextKey_synOK hI hr h
    | prev => exact prev_synOK hI hr hg h
  exact ⟨key.1, key.2, apply_cursor h (rest_noErr hI key.1.1) hg⟩

theorem rest_new (I : MVCCIterator σ) (pooled : pointSynthesizingIter σ) (parent : σ)
    (emit : Bool) : Rest I (newPointSynthesizingIter (release pooled) parent emit) :=
  ⟨Or.inr ⟨rfl, rfl⟩, fun _ => rfl, fun h => by cases h⟩

theorem run_synOK {I : MVCCIterator σ} (hI : IterContract I) {ops : List PosOp}
    {i s : pointSynthesizingIter σ} (hr : Rest I i) (hg : CursorInv I i) (hq : SynOK i)
    (h : PosOp.run I ops i = some s) : Rest I s ∧ SynOK s ∧ CursorInv I s := by
  induction ops generalizing i with
  | nil =>
    unfold PosOp.run at h
    injection h with h; subst h
    exact ⟨hr, hq, hg⟩
  | cons op ops ih =>
    obtain ⟨m, h1, h2⟩ := run_cons h
    obtain ⟨a, b, c⟩ := apply_synOK hI hr hg h1
    exact ih a c b h2

end Syn

theorem shadowRows_index (c : Int) :
    c = 0 ∨ c = 1 ∨ sliceIndex shadowRows c = none := by
  by_cases h0 : c < 0
  · right; right
    simp [sliceIndex, h0]
  · by_cases h1 : c = 0
    · exact Or.inl h1
    · by_cases h2 : c = 1
      · exact Or.inr (Or.inl h2)
      · right; right
        have : 2 ≤ c.toNat := by omega
        simp only [sliceIndex, if_neg h0]
        exact List.getElem?_eq_none (by simpa [shadowRows] using this)

theorem shadowRows_bare (c : Int) : BareAtStart (tableIter shadowRows) c := by
  rcases shadowRows_index c with rfl | rfl | h
  · intro _ _ _; rfl
  · intro _ _ h; exact absurd h (by decide)
  · intro hv
    simp [tableIter, h] at hv

/-- The table iterator over `shadowRows` obeys the contract. -/
theorem shadowRows_contract : IterContract (tableIter shadowRows) := by
  refine ⟨fun _ => rfl, ?_, ?_, ?_, fun _ => shadowRows_bare _, fun _ => shadowRows_bare _,
    fun _ => shadowRows_bare _, fun _ _ => shadowRows_bare _⟩
  · intro c hv
    rcases shadowRows_index c with rfl | rfl | h
    · exact Or.inr rfl
    · exact Or.inl rfl
    · simp [tableIter, h] at hv
  · intro c hv _
    rcases shadowRows_index c with rfl | rfl | h
    · decide
    · decide
    · simp [tableIter, h] at hv
  · intro c hv _
    rcases shadowRows_index c with rfl | rfl | h
    · decide
    · decide
    · simp [tableIter, h] at hv

/-! ### `SeekLT` to a versioned key -/

/-- An exposed key is a real point, or lies after the start position of the
span that covers it. -/
theorem Dataset.WF.exposed_anchor {D : Dataset} (hwf : D.WF) {z : MVCCKey}
    (hz : D.isExposed 0 z) :
    ((D.pointAt z).isSome = true ∧ z ∈ D.positions) ∨
    ∃ r, D.rangeAt z.Key = some r ∧ z.Timestamp ≠ 0 ∧
      (⟨r.start, 0⟩ : MVCCKey) ∈ D.positions ∧ (⟨r.start, 0⟩ : MVCCKey).Less z := by
  rcases Dataset.isExposed_cases hz with hp | ⟨r, hr, j, v, hv, hvt, -⟩
  · exact Or.inl ⟨hp, Dataset.point_mem_positions hp⟩
  · right
    obtain ⟨hrm, hrs, -⟩ := Dataset.rangeAt_some hr
    have hs := (hwf.range_ok hrm).2.2.2
    have hne := versionsSorted_ne_zero hs v (List.getElem?_mem hv)
    refine ⟨r, hr, by omega, Dataset.start_mem_positions hrm, ?_⟩
    rw [MVCCKey.less_zero_left]
    omega

/-- An exposed key before `k` has a position before `k`. -/
theorem Dataset.WF.exposed_position_before {D : Dataset} (hwf : D.WF) {z k : MVCCKey}
    (hz : D.isExposed 0 z) (hzk : z.Less k) : ∃ p ∈ D.positions, p.Less k := by
  rcases hwf.exposed_anchor hz with ⟨-, hp⟩ | ⟨r, -, -, hp, hlt⟩
  · exact ⟨z, hp, hzk⟩
  · exact ⟨_, hp, MVCCKey.Less.trans hlt hzk⟩

theorem LandsBefore.weaken_le {D : Dataset} {st : DataIter} {x x' : MVCCKey}
    (h : LandsBefore D 0 st x') (hx : ¬ x.Less x')
    (hgap : ∀ z, D.isExposed 0 z → z.Less x → z.Less x') : LandsBefore D 0 st x := by
  rcases MVCCKey.Less.total x' x with hlt | heq | hgt
  · exact h.weaken_rev hlt hgap
  · rw [← heq]; exact h
  · exact absurd hgt hx

/-- The end of `SeekLT` from the middle of a reverse step. -/
theorem revMid_tail {D : Dataset} (hwf : D.WF) {s : DataIter} {K : Nat}
    {x : MVCCKey} {r : RangeKV} {e : Nat} (h : RevMid D 0 s K x r e) :
    ∃ st', (updateAtPoint (dataIter D) s).bind (fun i3 =>
        if !i3.atPoint && decide (i3.rangeKeysIdx < 0) then updatePosition (dataIter D) i3
        else some i3) = some st' ∧ LandsBefore D 0 st' x := by
  obtain ⟨b, hdec, hres⟩ := revMid_decide hwf h
  rw [hdec, Option.some_bind]
  rcases hres with ⟨hl, hb | hb⟩ | ⟨hb, hrem, -, hstuck⟩
  · obtain ⟨hb, -⟩ := hb
    subst hb
    exact ⟨_, rfl, hl⟩
  · obtain ⟨hb, hpos⟩ := hb
    subst hb
    have hidx := h.idx
    simp only [Bool.not_false, Bool.true_and, decide_eq_true_eq]
    rw [if_neg (by omega)]
    exact ⟨_, rfl, hl⟩
  · subst hb
    have hidx := h.idx
    simp only [Bool.not_false, Bool.true_and, decide_eq_true_eq]
    rw [if_pos (by omega)]
    exact revStuck_updatePosition hwf hstuck

theorem seekLTTail_of_cursor {D : Dataset} (hwf : D.WF) {k : MVCCKey} {s0 s : DataIter}
    {K : Nat} {x : MVCCKey} {r : RangeKV} {e : Nat}
    (hc : seekLTCursor k s0 = some s) (h : RevMid D 0 s K x r e) :
    ∃ st', seekLTTail (dataIter D) k s0 = some st' ∧ LandsBefore D 0 st' x := by
  obtain ⟨st', h1, h2⟩ := revMid_tail hwf h
  refine ⟨st', ?_, h2⟩
  unfold seekLTTail
  rw [hc]
  simp only
  cases hu : updateAtPoint (dataIter D) s with
  | none => rw [hu] at h1; cases h1
  | some i3 =>
    rw [hu, Option.some_bind] at h1
    exact h1

theorem seekLTCursor_skip {k : MVCCKey} {s : DataIter}
    (h : k.Timestamp = 0 ∨ k.Key ≠ s.rangeKeysPos) : seekLTCursor k s = some s := by
  unfold seekLTCursor
  rw [if_neg]
  rcases h with h | h
  · simp [hlc.Timestamp.IsSet, h]
  · simp [roachpb.Key.Equal, h]

theorem seekLTCursor_versioned {k : MVCCKey} {s : DataIter} {e : Nat}
    (hs : versionsSorted s.rangeKeys = true)
    (hk : k.Timestamp ≠ 0) (hpos : k.Key = s.rangeKeysPos) (he : s.rangeKeysEnd = (e : Int))
    (hle : e ≤ s.rangeKeys.length) :
    seekLTCursor k s = some { s with
      rangeKeysIdx := ((min e (newer s.rangeKeys k.Timestamp) : Nat) : Int) - 1 } := by
  unfold seekLTCursor
  rw [if_pos (by simp [hlc.Timestamp.IsSet, hk, roachpb.Key.Equal, hpos])]
  rw [he, search_lessEq hs _ _ hle]
  rfl

/-- Stepping the iterator back from the first position after a position
returns to that position. -/
theorem dataIter_prev_next_on {D : Dataset} {q : MVCCKey} (hq : q ∈ D.positions) :
    (dataIter D).Prev (D.nextPos q) = DataCursor.onKey q := by
  rcases D.nextPos_cases q with ⟨hn, hnone⟩ | ⟨n, hn, hnp, hqn, hmin⟩
  · rw [hn]
    show DataCursor.ofMax (maxKey D.positions) = DataCursor.onKey q
    cases hm : maxKey D.positions with
    | none =>
      rw [maxKey_eq_none] at hm
      rw [hm] at hq
      cases hq
    | some m =>
      have h1 := maxKey_mem hm
      have h2 := maxKey_ge hm q hq
      have h3 := hnone m h1
      rcases MVCCKey.Less.total q m with h | h | h
      · exact absurd h h3
      · rw [h]; rfl
      · exact absurd h h2
  · rw [hn, dataIter_Prev_on]
    apply Dataset.prevPos_eq_on hq hqn
    intro p hp hpn hqp
    exact hmin p hp hqp hpn

theorem compare_neg_iff (a b : Nat) : roachpb.Key.Compare a b < 0 ↔ a < b := by
  unfold roachpb.Key.Compare
  split
  · simp [*]
  · split <;> simp [*]

/-- `SeekLT` when the seek lands on a position outside every span. -/
theorem seekLT_eval_noRange {D : Dataset} {st : DataIter} {it : DataCursor} {q : MVCCKey}
    (k : MVCCKey) (hi : st.iter = some it) (hn : D.prevPos k = DataCursor.onKey q)
    (hr : D.rangeAt q.Key = none) :
    SeekLT (dataIter D) k st = some (clearRangeKeys { st with
      reverse := true, iter := some (DataCursor.onKey q), iterValid := true, iterErr := none,
      atPoint := (D.pointAt q).isSome }) := by
  simp [SeekLT, hi, updateValid, hn, hr]

/-- `SeekLT` when the seek finds no position. -/
theorem seekLT_eval_invalid {D : Dataset} {st : DataIter} {it : DataCursor}
    (k : MVCCKey) (hi : st.iter = some it) (hn : D.prevPos k = DataCursor.before) :
    SeekLT (dataIter D) k st = updatePosition (dataIter D) { st with
      reverse := true, iter := some DataCursor.before, iterValid := false, iterErr := none } := by
  simp [SeekLT, hi, updateValid, hn]

/-- `SeekLT` when the seek lands in a span that ends at or before the seek key. -/
theorem seekLT_eval_direct {D : Dataset} {st : DataIter} {it : DataCursor} {q : MVCCKey}
    {r : RangeKV} (k : MVCCKey) (hi : st.iter = some it)
    (hn : D.prevPos k = DataCursor.onKey q) (hr : D.rangeAt q.Key = some r)
    (hno : k.Timestamp = 0 ∨ r.endKey ≤ k.Key) :
    SeekLT (dataIter D) k st = (updateRangeKeys (dataIter D) { st with
      reverse := true, iter := some (DataCursor.onKey q), iterValid := true,
      iterErr := none }).bind (seekLTTail (dataIter D) k) := by
  have hc : (hlc.Timestamp.IsSet k.Timestamp &&
      decide (roachpb.Key.Compare k.Key r.endKey < 0)) = false := by
    rcases hno with h | h
    · simp [hlc.Timestamp.IsSet, h]
    · have : ¬ roachpb.Key.Compare k.Key r.endKey < 0 := by
        rw [compare_neg_iff]; omega
      simp [this]
  simp only [SeekLT, hi, updateValid, dataIter_Valid, dataIter_SeekLT, hn,
    DataCursor.isOn_onKey, Bool.not_true, Bool.false_eq_true, if_false,
    dataIter_HasPointAndRange_on, hr, Option.isSome_some, Bool.and_true,
    dataIter_RangeBounds_on hr, hc]
  cases updateRangeKeys (dataIter D) _ <;> rfl

/-- `SeekLT` to a versioned key inside the span the seek lands in, when the
position after the landing position is a point at the seek key. -/
theorem seekLT_eval_peek_point {D : Dataset} {st i3 : DataIter} {it : DataCursor}
    {q p : MVCCKey} {r : RangeKV} (k : MVCCKey) (hi : st.iter = some it)
    (hn : D.prevPos k = DataCursor.onKey q) (hq : q ∈ D.positions)
    (hr : D.rangeAt q.Key = some r)
    (hk : k.Timestamp ≠ 0) (hlt : k.Key < r.endKey)
    (hnext : D.nextPos q = DataCursor.onKey p) (hp : (D.pointAt p).isSome = true)
    (hpk : p.Key = k.Key)
    (hu : updateRangeKeys (dataIter D) { st with
      reverse := true, iter := some (DataCursor.onKey p), iterValid := true,
      iterErr := none } = some i3)
    (hi3 : i3.iter = some (DataCursor.onKey p)) :
    SeekLT (dataIter D) k st = seekLTTail (dataIter D) k { i3 with
        iter := some (DataCursor.onKey q), iterValid := true, iterErr := none } := by
  have hc : (hlc.Timestamp.IsSet k.Timestamp &&
      decide (roachpb.Key.Compare k.Key r.endKey < 0)) = true := by
    have : roachpb.Key.Compare k.Key r.endKey < 0 := by
      rw [compare_neg_iff]; omega
    simp [hlc.Timestamp.IsSet, hk, this]
  have hback := dataIter_prev_next_on hq
  rw [hnext, dataIter_Prev_on] at hback
  simp only [SeekLT, hi, updateValid, dataIter_Valid, dataIter_SeekLT, hn,
    DataCursor.isOn_onKey, Bool.not_true, Bool.false_eq_true, if_false,
    dataIter_HasPointAndRange_on, hr, Option.isSome_some, Bool.and_true,
    dataIter_RangeBounds_on hr, hc, if_true, iterNext, dataIter_Next_on, hnext, ne_eq,
    not_true_eq_false, dataIter_UnsafeKey_on, hp, roachpb.Key.Equal, hpk, beq_self_eq_true,
    Bool.true_and, hu, Option.map_some']
  rw [iterPrev_on hi3, hback]
  rfl

/-- `SeekLT` to a versioned key inside the span the seek lands in, when the
position after the landing position is not a point at the seek key. -/
theorem seekLT_eval_peek_other {D : Dataset} {st : DataIter} {it : DataCursor}
    {q : MVCCKey} {r : RangeKV} (k : MVCCKey) (hi : st.iter = some it)
    (hn : D.prevPos k = DataCursor.onKey q) (hq : q ∈ D.positions)
    (hr : D.rangeAt q.Key = some r)
    (hk : k.Timestamp ≠ 0) (hlt : k.Key < r.endKey)
    (hnext : ∀ p, D.nextPos q = DataCursor.onKey p → (D.pointAt p).isSome = true →
      p.Key ≠ k.Key) :
    SeekLT (dataIter D) k st = (updateRangeKeys (dataIter D) { st with
      reverse := true, iter := some (DataCursor.onKey q), iterValid := true,
      iterErr := none }).bind (seekLTTail (dataIter D) k) := by
  have hc : (hlc.Timestamp.IsSet k.Timestamp &&
      decide (roachpb.Key.Compare k.Key r.endKey < 0)) = true := by
    have : roachpb.Key.Compare k.Key r.endKey < 0 := by
      rw [compare_neg_iff]; omega
    simp [hlc.Timestamp.IsSet, hk, this]
  have hback := dataIter_prev_next_on hq
  simp only [SeekLT, hi, updateValid, dataIter_Valid, dataIter_SeekLT, hn,
    DataCursor.isOn_onKey, Bool.not_true, Bool.false_eq_true, if_false,
    dataIter_HasPointAndRange_on, hr, Option.isSome_some, Bool.and_true,
    dataIter_RangeBounds_on hr, hc, if_true, iterNext, dataIter_Next_on, ne_eq,
    not_true_eq_false]
  cases hnx : D.nextPos q with
  | before =>
    rw [hnx] at hback
    simp only [DataCursor.isOn_before, Bool.false_eq_true, if_false]
    rw [iterPrev_eval rfl, hback]
    simp only [DataCursor.isOn_onKey, Bool.not_true, Bool.false_eq_true, if_false]
    cases updateRangeKeys (dataIter D) _ <;> rfl
  | after =>
    rw [hnx] at hback
    simp only [DataCursor.isOn_after, Bool.false_eq_true, if_false]
    rw [iterPrev_eval rfl, hback]
    simp only [DataCursor.isOn_onKey, Bool.not_true, Bool.false_eq_true, if_false]
    cases updateRangeKeys (dataIter D) _ <;> rfl
  | onKey p =>
    rw [hnx] at hback
    have hcond : ((D.pointAt p).isSome && (p.Key == k.Key)) = false := by
      cases hp : (D.pointAt p).isSome with
      | false => rfl
      | true =>
        have := hnext p hnx hp
        simp [this]
    simp only [DataCursor.isOn_onKey, if_true, dataIter_HasPointAndRange_on,
      dataIter_UnsafeKey_on, roachpb.Key.Equal, hcond, Bool.false_eq_true, if_false]
    rw [iterPrev_eval rfl, hback]
    simp only [DataCursor.isOn_onKey, Bool.not_true, Bool.false_eq_true, if_false]
    cases updateRangeKeys (dataIter D) _ <;> rfl

/-- Arrival on the last position before `k`, at a key below the key of `k`
with nothing exposed in between. -/
theorem seekLT_arrive_lt {D : Dataset} (hwf : D.WF) {s : DataIter} {k q : MVCCKey}
    {r : RangeKV} (hn : D.prevPos k = DataCursor.onKey q)
    (hb : Coupled s (DataCursor.onKey q) true) (hc : CacheOK D s)
    (hr : D.rangeAt q.Key = some r) (hlt : q.Key < k.Key)
    (hgap : ∀ y, D.isExposed 0 y → y.Less k → y.Key ≤ q.Key) :
    ∃ st', (updateRangeKeys (dataIter D) s).bind (seekLTTail (dataIter D) k) = some st' ∧
      LandsBefore D 0 st' k := by
  obtain ⟨hq, hqk, hmax⟩ := Dataset.prevPos_on hn
  obtain ⟨hrm, hrs, hre⟩ := Dataset.rangeAt_some hr
  have hs := (hwf.range_ok hrm).2.2.2
  have hv : s.iterValid = true := by rw [hb.iterValid]; rfl
  have hlast : ∀ p ∈ D.positions, p.Key = q.Key → ¬ q.Less p := by
    intro p hp hpk
    apply hmax p hp
    unfold MVCCKey.Less; omega
  obtain ⟨e, he, hupd⟩ := updateRangeKeys_on hb.iter hv hr hs (fun h => hc.memo hwf hrm h)
  rw [← hwf.window_last hq hr hlast (hwf.position_key_ne hq)] at he
  rw [hupd, Option.some_bind, if_pos hb.reverse]
  apply seekLTTail_of_cursor hwf
    (seekLTCursor_skip (Or.inr (by show k.Key ≠ q.Key; omega))) (K := q.Key) (r := r) (e := e)
  have hrem : remaining r.versions q.Key k e = e := by
    unfold remaining; rw [if_neg (by omega)]
  refine ⟨⟨?_, hb.reverse, hb.iterErr, ?_⟩, hr, ⟨rfl, rfl, rfl⟩, by omega, ?_, rfl,
    by omega, by omega, ?_, hgap, Or.inl rfl, Or.inl (by omega)⟩
  · rw [hn]; exact hb.iter
  · rw [hn]; exact hb.iterValid
  · rw [hrem]
  · intro _; exact ⟨he, q, hn, rfl⟩

theorem exists_ts_bound (V : MVCCRangeKeyVersions) (T : Nat) :
    ∃ t, T ≤ t ∧ newer V t = 0 := by
  have hb : ∃ t, T ≤ t ∧ ∀ v ∈ V, v.Timestamp ≤ t := by
    induction V with
    | nil => exact ⟨T, le_refl _, by simp⟩
    | cons w l ih =>
      obtain ⟨t, h1, h2⟩ := ih
      refine ⟨max t w.Timestamp, by omega, ?_⟩
      intro v hv
      rcases List.mem_cons.1 hv with rfl | hv
      · omega
      · have := h2 v hv; omega
  obtain ⟨t, h1, h2⟩ := hb
  refine ⟨t, h1, ?_⟩
  unfold newer
  rw [List.length_eq_zero, List.filter_eq_nil_iff]
  intro v hv
  have := h2 v hv
  simp only [decide_eq_true_eq]
  omega

/-- With no point of the seek key at or after `k` next to the landing position,
every position of the seek key lies before `k`. -/
theorem no_point_after {D : Dataset} {k q : MVCCKey} (hk : k.Timestamp ≠ 0)
    (hn : D.prevPos k = DataCursor.onKey q)
    (hnext : ∀ p, D.nextPos q = DataCursor.onKey p → (D.pointAt p).isSome = true →
      p.Key ≠ k.Key) :
    ∀ p ∈ D.positions, p.Key = k.Key → p.Less k := by
  obtain ⟨hq, hqk, hmax⟩ := Dataset.prevPos_on hn
  intro p hp hpk
  by_contra hnl
  have hqp : q.Less p := by
    rcases MVCCKey.Less.total p k with h | h | h
    · exact absurd h hnl
    · rw [h]; exact hqk
    · exact MVCCKey.Less.trans hqk h
  rcases D.nextPos_cases q with ⟨-, hnone⟩ | ⟨n, hnx, hnp, hqn, hmin⟩
  · exact hnone p hp hqp
  · have h1 := hmin p hp hqp
    have h2 : ¬ n.Less k := fun h => hmax n hnp h hqn
    have hnk : n.Key = k.Key ∧ n.Timestamp ≠ 0 := by
      unfold MVCCKey.Less at h1 h2 hnl
      omega
    rcases Dataset.positions_cases hnp with hpt | ⟨r, -, hnr⟩
    · exact hnext n hnx hpt hnk.1
    · rw [hnr] at hnk
      exact hnk.2 rfl

/-- Arrival on the last position before the versioned key `k`, at the key of
`k`, when no point of that key lies at or after `k`. -/
theorem seekLT_arrive_eq {D : Dataset} (hwf : D.WF) {s : DataIter} {k q : MVCCKey}
    {r : RangeKV} (hk : k.Timestamp ≠ 0) (hn : D.prevPos k = DataCursor.onKey q)
    (hb : Coupled s (DataCursor.onKey q) true) (hc : CacheOK D s)
    (hr : D.rangeAt q.Key = some r) (hqK : q.Key = k.Key)
    (hF : ∀ p ∈ D.positions, p.Key = k.Key → p.Less k) :
    ∃ st', (updateRangeKeys (dataIter D) s).bind (seekLTTail (dataIter D) k) = some st' ∧
      LandsBefore D 0 st' k := by
  obtain ⟨hq, hqk, hmax⟩ := Dataset.prevPos_on hn
  obtain ⟨hrm, hrs, hre⟩ := Dataset.rangeAt_some hr
  have hs := (hwf.range_ok hrm).2.2.2
  have hv : s.iterValid = true := by rw [hb.iterValid]; rfl
  have hlast : ∀ p ∈ D.positions, p.Key = q.Key → ¬ q.Less p := by
    intro p hp hpk
    exact hmax p hp (hF p hp (by omega))
  obtain ⟨e, he, hupd⟩ := updateRangeKeys_on hb.iter hv hr hs (fun h => hc.memo hwf hrm h)
  have hwin := hwf.window_last hq hr hlast (hwf.position_key_ne hq)
  have hele : e ≤ r.versions.length := by
    rw [he, ← hwin]; exact D.window_le_length 0 r q.Key
  rw [hupd, Option.some_bind, if_pos hb.reverse]
  have hcur := seekLTCursor_versioned (k := k) (e := e) (s := { s with
      rangeKeysPos := q.Key, rangeKeysStart := r.start, rangeKeys := r.versions,
      rangeKeysEnd := (e : Int), rangeKeysIdx := (e : Int) - 1 }) hs hk hqK.symm rfl hele
  -- the key `x` the state is in the middle of a step before
  have hx : ∃ x : MVCCKey, x.Key = k.Key ∧ x.Timestamp ≠ 0 ∧ k.Timestamp ≤ x.Timestamp ∧
      q.Less x ∧ newer r.versions x.Timestamp = min e (newer r.versions k.Timestamp) ∧
      ∀ z, D.isExposed 0 z → z.Less k → z.Less x := by
    by_cases hst : q.Key = r.start
    · refine ⟨k, rfl, hk, le_refl _, hqk, ?_, fun z _ h => h⟩
      rw [he, if_pos hst]
      have := newer_le_length r.versions k.Timestamp
      omega
    · have hpq : (D.pointAt q).isSome = true := by
        cases h : (D.pointAt q).isSome
        · have := hwf.bare_position hq h hr
          rw [this] at hst
          exact absurd rfl hst
        · rfl
      rw [if_neg hst] at he
      -- a synthesized key of the seek key lies above a point at or above `q`
      have hsyn : ∀ z, D.isExposed 0 z → z.Less k → z.Key = k.Key →
          (D.pointAt z).isSome = false → q.Timestamp ≠ 0 ∧ q.Timestamp < z.Timestamp := by
        intro z hz hzk hzK hzp
        rcases Dataset.isExposed_cases hz with hp' | ⟨r', hr', j, v, hv', hvt, h1 | h1 | h1⟩
        · rw [hzp] at hp'; cases hp'
        · rw [hzK, ← hqK, hr] at hr'
          cases hr'
          omega
        · exact absurd h1 (hwf.exposed_key_ne hz)
        · obtain ⟨p', hp', hk', ht', hlt'⟩ := h1
          have hpos : (⟨p'.key, p'.ts⟩ : MVCCKey) ∈ D.positions := by
            rw [Dataset.mem_positions]; exact Or.inl ⟨p', hp', rfl⟩
          have h2 := hmax _ hpos (hF _ hpos (by simp only; omega))
          rw [MVCCKey.less_mk_right] at h2
          omega
      by_cases hqt : q.Timestamp = 0
      · obtain ⟨t, ht1, ht2⟩ := exists_ts_bound r.versions k.Timestamp
        have he0 : e = 0 := by rw [he, if_neg (by simp [hqt])]
        refine ⟨⟨k.Key, t⟩, rfl, by simp only; omega, ht1, ?_, ?_, ?_⟩
        · rw [MVCCKey.less_mk_right]; omega
        · simp only [ht2, he0]; omega
        · intro z hz hzk
          by_cases hzK : z.Key = k.Key
          · cases hzp : (D.pointAt z).isSome with
            | true =>
              have := hmax z (Dataset.point_mem_positions hzp) hzk
              rw [MVCCKey.less_mk_right]
              unfold MVCCKey.Less at this
              omega
            | false => exact absurd hqt (hsyn z hz hzk hzK hzp).1
          · rw [MVCCKey.less_mk_right]
            unfold MVCCKey.Less at hzk
            omega
      · have hqT : k.Timestamp < q.Timestamp := by
          unfold MVCCKey.Less at hqk; omega
        have he1 : e = newer r.versions (q.Timestamp - 1) := by
          rw [he, if_pos ⟨hpq, hqt⟩, ← newerEq_succ]
          congr 1
          omega
        have hmono := newer_mono hs (show k.Timestamp ≤ q.Timestamp - 1 by omega)
        refine ⟨⟨k.Key, q.Timestamp - 1⟩, rfl, by simp only; omega, by simp only; omega,
          ?_, ?_, ?_⟩
        · rw [MVCCKey.less_mk_right]; omega
        · simp only; omega
        · intro z hz hzk
          by_cases hzK : z.Key = k.Key
          · cases hzp : (D.pointAt z).isSome with
            | true =>
              have := hmax z (Dataset.point_mem_positions hzp) hzk
              rw [MVCCKey.less_mk_right]
              unfold MVCCKey.Less at this
              unfold MVCCKey.Less at hzk
              omega
            | false =>
              have := hsyn z hz hzk hzK hzp
              rw [MVCCKey.less_mk_right]
              omega
          · rw [MVCCKey.less_mk_right]
            unfold MVCCKey.Less at hzk
            omega
  obtain ⟨x, hxK, hxt, hxT, hqx, hxe, hgap⟩ := hx
  have hprev : D.prevPos x = DataCursor.onKey q := by
    apply Dataset.prevPos_eq_on hq hqx
    intro p hp hpx
    apply hmax p hp
    unfold MVCCKey.Less at hpx ⊢
    omega
  have hrem : remaining r.versions q.Key x e = newer r.versions x.Timestamp := by
    unfold remaining newerPt
    rw [if_pos (by omega), if_neg hxt]
  obtain ⟨st', h1, h2⟩ := seekLTTail_of_cursor hwf hcur (K := q.Key) (x := x) (r := r) (e := e)
    (by
      refine ⟨⟨?_, hb.reverse, hb.iterErr, ?_⟩, hr, ⟨rfl, rfl, rfl⟩, by omega, ?_, rfl,
        ?_, ?_, ?_, ?_, Or.inl rfl, Or.inl ?_⟩
      · rw [hprev]; exact hb.iter
      · rw [hprev]; exact hb.iterValid
      · rw [hrem, hxe]
      · rw [hrem, hxe]; omega
      · rw [hwin, ← he]
      · intro h; omega
      · intro y _ hyx
        unfold MVCCKey.Less at hyx
        omega
      · rw [hwin, ← he])
  refine ⟨st', h1, h2.weaken_le ?_ hgap⟩
  unfold MVCCKey.Less
  omega

/-- The peek of a versioned `SeekLT` found a point of the seek key at or after
`k`: the range keys are loaded on that point, and the end of `SeekLT` back on
the landing position lands on the last exposed key before `k`. -/
theorem seekLT_arrive_point {D : Dataset} (hwf : D.WF) {s : DataIter} {k q p : MVCCKey}
    {r : RangeKV} (hk : k.Timestamp ≠ 0) (hn : D.prevPos k = DataCursor.onKey q)
    (hnext : D.nextPos q = DataCursor.onKey p) (hp : (D.pointAt p).isSome = true)
    (hpk : p.Key = k.Key) (hb : Coupled s (DataCursor.onKey p) true) (hc : CacheOK D s)
    (hr : D.rangeAt p.Key = some r) :
    ∃ i3, updateRangeKeys (dataIter D) s = some i3 ∧ i3.iter = some (DataCursor.onKey p) ∧
      ∃ st', seekLTTail (dataIter D) k { i3 with
        iter := some (DataCursor.onKey q), iterValid := true, iterErr := none } = some st' ∧
        LandsBefore D 0 st' k := by
  obtain ⟨hq, hqk, hmax⟩ := Dataset.prevPos_on hn
  obtain ⟨hpp, hqp, hmin⟩ := Dataset.nextPos_on hnext
  obtain ⟨hrm, hrs, hre⟩ := Dataset.rangeAt_some hr
  have hs := (hwf.range_ok hrm).2.2.2
  have hv : s.iterValid = true := by rw [hb.iterValid]; rfl
  have hpt : p.Timestamp ≠ 0 ∧ p.Timestamp ≤ k.Timestamp := by
    have h1 : ¬ p.Less k := fun h => hmax p hpp h hqp
    unfold MVCCKey.Less at h1
    omega
  obtain ⟨e, he, hupd⟩ := updateRangeKeys_on hb.iter hv hr hs (fun h => hc.memo hwf hrm h)
  rw [if_pos hb.reverse] at hupd
  refine ⟨_, hupd, hb.iter, ?_⟩
  have hnew : newer r.versions k.Timestamp ≤ e ∧ e ≤ D.window 0 r p.Key ∧
      RevEndOK D 0 r p.Key k e := by
    by_cases hst : p.Key = r.start
    · rw [if_pos hst] at he
      rw [he, Dataset.window_full hs (Or.inl hst)]
      exact ⟨newer_le_length _ _, le_refl _,
        Or.inl (by rw [Dataset.window_full hs (Or.inl hst)])⟩
    · rw [if_neg hst, if_pos ⟨hp, hpt.1⟩, hwf.newerEq_point hp hr] at he
      have h1 := newer_mono hs hpt.2
      have h2 := Dataset.newerPt_le_window (D := D) (f := 0) hs hp
      unfold newerPt at h2
      rw [if_neg hpt.1] at h2
      refine ⟨by omega, by omega, Or.inr ⟨hst, hwf.position_key_ne hpp, p, hp, rfl,
        fun h => hmax p hpp h hqp, ?_⟩⟩
      unfold newerPt
      rw [if_neg hpt.1]
      omega
  have hele : e ≤ r.versions.length := by
    have := D.window_le_length 0 r p.Key
    omega
  have hcur := seekLTCursor_versioned (k := k) (e := e) (s := { s with
      rangeKeysPos := p.Key, rangeKeysStart := r.start, rangeKeys := r.versions,
      rangeKeysEnd := (e : Int), rangeKeysIdx := (e : Int) - 1,
      iter := some (DataCursor.onKey q), iterValid := true, iterErr := none })
    hs hk hpk.symm rfl hele
  have hrem : remaining r.versions p.Key k e = newer r.versions k.Timestamp := by
    unfold remaining newerPt
    rw [if_pos hpk.symm, if_neg hk]
  apply seekLTTail_of_cursor hwf hcur (K := p.Key) (x := k) (r := r) (e := e)
  refine ⟨⟨?_, hb.reverse, rfl, ?_⟩, hr, ⟨rfl, rfl, rfl⟩, by omega, ?_, rfl,
    ?_, hnew.2.1, ?_, ?_, Or.inl rfl, hnew.2.2⟩
  · rw [hn]
  · rw [hn]; rfl
  · rw [hrem]
    show (((min e (newer r.versions k.Timestamp) : Nat) : Int) - 1) = _
    have := hnew.1
    rw [Nat.min_eq_right this]
  · rw [hrem]; exact hnew.1
  · intro h; omega
  · intro y _ hyk
    unfold MVCCKey.Less at hyk
    omega

/-- `SeekLT` to a versioned key lands on the last exposed key before it. -/
theorem seekLT_lands_versioned {D : Dataset} (hwf : D.WF) {st : DataIter} (hst : Ready D st)
    (k : MVCCKey) (hk : k.Timestamp ≠ 0) :
    ∃ st', SeekLT (dataIter D) k st = some st' ∧ LandsBefore D 0 st' k := by
  obtain ⟨it, hit⟩ := Option.isSome_iff_exists.1 hst.1
  rcases D.prevPos_cases k with ⟨hn, hnone⟩ | ⟨q, hn, hq, hqk, hmax⟩
  · rw [seekLT_eval_invalid k hit hn, updatePosition_invalid rfl]
    refine ⟨_, rfl, Or.inl ⟨revDone_cleared hwf ⟨rfl, rfl, rfl, rfl⟩
      (hst.2.of_eq rfl rfl rfl), ?_⟩⟩
    intro e he hek
    obtain ⟨p, hp, hpk⟩ := hwf.exposed_position_before he hek
    exact hnone p hp hpk
  · have hb : Coupled { st with
        reverse := true, iter := some (DataCursor.onKey q), iterValid := true,
        iterErr := none } (DataCursor.onKey q) true := ⟨rfl, rfl, rfl, rfl⟩
    have hc : CacheOK D { st with
        reverse := true, iter := some (DataCursor.onKey q), iterValid := true,
        iterErr := none } := hst.2.of_eq rfl rfl rfl
    -- a span that covers an exposed key between `q` and `k` covers `q`
    have hcover : ∀ z, D.isExposed 0 z → z.Less k → q.Less z →
        (D.pointAt z).isSome = false → ∀ r', D.rangeAt z.Key = some r' →
          D.rangeAt q.Key = some r' := by
      intro z hz hzk hqz hzp r' hr'
      rcases hwf.exposed_anchor hz with ⟨hp, -⟩ | ⟨r'', hr'', -, hap, halt⟩
      · rw [hzp] at hp; cases hp
      · rw [hr'] at hr''
        cases hr''
        obtain ⟨hrm, hrs, hre⟩ := Dataset.rangeAt_some hr'
        have h1 := hmax _ hap (MVCCKey.Less.trans halt hzk)
        apply hwf.rangeAt_eq hrm
        rw [MVCCKey.less_mk_right] at h1
        unfold MVCCKey.Less at hqz
        omega
    cases hr : D.rangeAt q.Key with
    | none =>
      have hp := hwf.position_point_or_range hq hr
      rw [seekLT_eval_noRange k hit hn hr, hp]
      refine ⟨_, rfl, Or.inr ⟨q, Or.inl (revReal_cleared hwf hb hc hp hr (Or.inl rfl)), hqk, ?_⟩⟩
      intro z hz hzk hqz
      cases hzp : (D.pointAt z).isSome with
      | true => exact hmax z (Dataset.point_mem_positions hzp) hzk hqz
      | false =>
        rcases Dataset.isExposed_cases hz with hp' | ⟨r', hr', -⟩
        · rw [hzp] at hp'; cases hp'
        · have := hcover z hz hzk hqz hzp r' hr'
          rw [hr] at this; cases this
    | some r =>
      obtain ⟨hrm, hrs, hre⟩ := Dataset.rangeAt_some hr
      by_cases hlt : k.Key < r.endKey
      · have hrk : D.rangeAt k.Key = some r := by
          apply hwf.rangeAt_eq hrm
          unfold MVCCKey.Less at hqk
          omega
        by_cases hpt : ∃ p, D.nextPos q = DataCursor.onKey p ∧
            (D.pointAt p).isSome = true ∧ p.Key = k.Key
        · obtain ⟨p, hnext, hp, hpk⟩ := hpt
          obtain ⟨i3, hu, hi3, st', h1, h2⟩ := seekLT_arrive_point hwf (s := { st with
              reverse := true, iter := some (DataCursor.onKey p), iterValid := true,
              iterErr := none }) hk hn hnext hp hpk ⟨rfl, rfl, rfl, rfl⟩
            (hst.2.of_eq rfl rfl rfl) (by rw [hpk]; exact hrk)
          rw [seekLT_eval_peek_point k hit hn hq hr hk hlt hnext hp hpk hu hi3]
          exact ⟨st', h1, h2⟩
        · have hnext : ∀ p, D.nextPos q = DataCursor.onKey p → (D.pointAt p).isSome = true →
              p.Key ≠ k.Key := fun p h1 h2 h3 => hpt ⟨p, h1, h2, h3⟩
          have hF := no_point_after hk hn hnext
          rw [seekLT_eval_peek_other k hit hn hq hr hk hlt hnext]
          by_cases hqK : q.Key = k.Key
          · exact seekLT_arrive_eq hwf hk hn hb hc hr hqK hF
          · have hqlt : q.Key < k.Key := by
              unfold MVCCKey.Less at hqk; omega
            apply seekLT_arrive_lt hwf hn hb hc hr hqlt
            intro y hy hyk
            by_contra hgt
            obtain ⟨p, hp, hpk⟩ := hwf.exposed_position hy (hwf.exposed_key_ne hy)
            by_cases hyK : y.Key = k.Key
            · have := hmax p hp (hF p hp (by omega))
              unfold MVCCKey.Less at this
              omega
            · apply hmax p hp
              · unfold MVCCKey.Less at hyk ⊢; omega
              · unfold MVCCKey.Less; omega
      · rw [seekLT_eval_direct k hit hn hr (Or.inr (by omega))]
        apply seekLT_arrive_lt hwf hn hb hc hr (by omega)
        intro y hy hyk
        by_contra hgt
        have hqy : q.Less y := by unfold MVCCKey.Less; omega
        by_cases hyK : y.Key = k.Key
        · cases hyp : (D.pointAt y).isSome with
          | true => exact hmax y (Dataset.point_mem_positions hyp) hyk hqy
          | false =>
            rcases Dataset.isExposed_cases hy with hp' | ⟨r', hr', -⟩
            · rw [hyp] at hp'; cases hp'
            · have := hcover y hy hyk hqy hyp r' hr'
              rw [hr] at this; cases this
              obtain ⟨-, -, hye⟩ := Dataset.rangeAt_some hr'
              omega
        · obtain ⟨p, hp, hpk⟩ := hwf.exposed_position hy (hwf.exposed_key_ne hy)
          apply hmax p hp
          · unfold MVCCKey.Less at hyk ⊢; omega
          · unfold MVCCKey.Less; omega

/-- `SeekLT` lands on the last exposed key before the seek key, versioned or
not. -/
theorem seekLT_lands_any {D : Dataset} (hwf : D.WF) {st : DataIter} (hst : Ready D st)
    (k : MVCCKey) :
    ∃ st', SeekLT (dataIter D) k st = some st' ∧ LandsBefore D 0 st' k := by
  by_cases hk : k.Timestamp = 0
  · exact seekLT_lands hwf hst k hk
  · exact seekLT_lands_versioned hwf hst k hk

/-! ### Changing the `emitOnSeekGE` key away from the current key -/

theorem Dataset.synthAt_congr {D : Dataset} {f f' : Nat} {r : RangeKV} {K : Nat}
    (v : MVCCRangeKeyVersion) (h1 : K ≠ f) (h2 : K ≠ f') :
    D.synthAt f r K v = D.synthAt f' r K v := by
  simp [Dataset.synthAt, h1, h2]

theorem Dataset.window_congr {D : Dataset} {f f' : Nat} {r : RangeKV} {K : Nat}
    (h1 : K ≠ f) (h2 : K ≠ f') : D.window f r K = D.window f' r K := by
  unfold Dataset.window
  congr 1
  apply List.filter_congr
  intro v _
  exact Dataset.synthAt_congr v h1 h2

theorem Dataset.isExposed_congr {D : Dataset} {f f' : Nat} {z : MVCCKey}
    (h1 : z.Key ≠ f) (h2 : z.Key ≠ f') : D.isExposed f z ↔ D.isExposed f' z := by
  unfold Dataset.isExposed
  constructor
  · rintro (h | ⟨r, hr, v, hv, hvt, hs⟩)
    · exact Or.inl h
    · exact Or.inr ⟨r, hr, v, hv, hvt, by rw [← Dataset.synthAt_congr v h1 h2]; exact hs⟩
  · rintro (h | ⟨r, hr, v, hv, hvt, hs⟩)
    · exact Or.inl h
    · exact Or.inr ⟨r, hr, v, hv, hvt, by rw [Dataset.synthAt_congr v h1 h2]; exact hs⟩

theorem EndOK.rebase {D : Dataset} {f f' : Nat} {r : RangeKV} {K : Nat} {ic : DataCursor}
    {e : Nat} (h : EndOK D f r K ic e) (h1 : K ≠ f) (h2 : K ≠ f') : EndOK D f' r K ic e := by
  unfold EndOK at h ⊢
  rw [← Dataset.window_congr h1 h2]
  refine ⟨h.1, ?_⟩
  rcases h.2 with h | ⟨h3, -, h4⟩
  · exact Or.inl h
  · exact Or.inr ⟨h3, h2, h4⟩

theorem RevEndOK.rebaseRev {D : Dataset} {f f' : Nat} {r : RangeKV} {K : Nat} {x : MVCCKey}
    {e : Nat} (h : RevEndOK D f r K x e) (h1 : K ≠ f) (h2 : K ≠ f') :
    RevEndOK D f' r K x e := by
  unfold RevEndOK at h ⊢
  rw [← Dataset.window_congr h1 h2]
  rcases h with h | ⟨h3, -, h4⟩
  · exact Or.inl h
  · exact Or.inr ⟨h3, h2, h4⟩

theorem FwdReal.rebaseReal {D : Dataset} {f f' : Nat} {st : DataIter} {x : MVCCKey}
    (h : FwdReal D f st x) (h1 : x.Key ≠ f) (h2 : x.Key ≠ f') (h3 : f' ≤ x.Key) :
    FwdReal D f' st x := by
  refine ⟨h.base, h.point, h.atPoint, h3, h.bare, ?_⟩
  intro r hr
  obtain ⟨hc, hidx, e, he, hend⟩ := h.covered r hr
  exact ⟨hc, hidx, e, he, hend.rebase h1 h2⟩

theorem FwdSyn.rebaseSyn {D : Dataset} {f f' : Nat} {st : DataIter} {x : MVCCKey}
    (h : FwdSyn D f st x) (h1 : x.Key ≠ f) (h2 : x.Key ≠ f') (h3 : f' ≤ x.Key) :
    FwdSyn D f' st x := by
  obtain ⟨r, hr, hc, hidx, hv, e, he, hlt, hend⟩ := h.covered
  exact ⟨h.base, h.atPoint, h3, r, hr, hc, hidx, hv, e, he, hlt, hend.rebase h1 h2⟩

theorem FwdAt.rebaseAt {D : Dataset} {f f' : Nat} {st : DataIter} {x : MVCCKey}
    (h : FwdAt D f st x) (h1 : x.Key ≠ f) (h2 : x.Key ≠ f') (h3 : f' ≤ x.Key) :
    FwdAt D f' st x := by
  rcases h with h | h
  · exact Or.inl (h.rebaseReal h1 h2 h3)
  · exact Or.inr (h.rebaseSyn h1 h2 h3)

theorem RevReal.rebaseRevReal {D : Dataset} {f f' : Nat} {st : DataIter} {x : MVCCKey}
    (h : RevReal D f st x) (h1 : x.Key ≠ f) (h2 : x.Key ≠ f') (h3 : f' = 0 ∨ x.Key ≤ f') :
    RevReal D f' st x := by
  refine ⟨h.base, h.point, h.atPoint, h3, h.bare, ?_⟩
  intro r hr
  obtain ⟨hc, hidx, e, he, hle, hwin, hend⟩ := h.covered r hr
  refine ⟨hc, hidx, e, he, hle, ?_, hend.rebaseRev h1 h2⟩
  rw [← Dataset.window_congr h1 h2]
  exact hwin

theorem RevSyn.rebaseRevSyn {D : Dataset} {f f' : Nat} {st : DataIter} {x : MVCCKey}
    (h : RevSyn D f st x) (h1 : x.Key ≠ f) (h2 : x.Key ≠ f') (h3 : f' = 0 ∨ x.Key ≤ f') :
    RevSyn D f' st x := by
  obtain ⟨r, hr, hc, hidx, hv, e, he, hlt, hwin, hend⟩ := h.covered
  refine ⟨h.base, h.atPoint, h3, r, hr, hc, hidx, hv, e, he, hlt, ?_, hend.rebaseRev h1 h2⟩
  rw [← Dataset.window_congr h1 h2]
  exact hwin

theorem RevAt.rebaseRevAt {D : Dataset} {f f' : Nat} {st : DataIter} {x : MVCCKey}
    (h : RevAt D f st x) (h1 : x.Key ≠ f) (h2 : x.Key ≠ f') (h3 : f' = 0 ∨ x.Key ≤ f') :
    RevAt D f' st x := by
  rcases h with h | h
  · exact Or.inl (h.rebaseRevReal h1 h2 h3)
  · exact Or.inr (h.rebaseRevSyn h1 h2 h3)

/-- The key of a positioned adapter is not empty. -/
theorem FwdAt.key_ne {D : Dataset} (hwf : D.WF) {f : Nat} {st : DataIter} {x : MVCCKey}
    (h : FwdAt D f st x) : x.Key ≠ 0 := by
  rcases h with h | h
  · exact hwf.point_ne_zero h.point
  · obtain ⟨r, hr, -⟩ := h.covered
    exact hwf.covered_key_ne hr

theorem RevAt.rev_key_ne {D : Dataset} (hwf : D.WF) {f : Nat} {st : DataIter} {x : MVCCKey}
    (h : RevAt D f st x) : x.Key ≠ 0 := by
  rcases h with h | h
  · exact hwf.point_ne_zero h.point
  · obtain ⟨r, hr, -⟩ := h.covered
    exact hwf.covered_key_ne hr

/-- A forward position has an `emitOnSeekGE` key that is empty or its own key. -/
theorem FwdAt.normal {D : Dataset} (hwf : D.WF) {f : Nat} {st : DataIter} {x : MVCCKey}
    (h : FwdAt D f st x) : ∃ f', FwdAt D f' st x ∧ (f' = 0 ∨ f' = x.Key) := by
  have hle : f ≤ x.Key := by
    rcases h with h | h
    · exact h.fk_le
    · exact h.fk_le
  by_cases hf : f = x.Key
  · exact ⟨f, h, Or.inr hf⟩
  · exact ⟨0, h.rebaseAt (fun h' => hf h'.symm) (h.key_ne hwf) (Nat.zero_le _), Or.inl rfl⟩

/-- A reverse position has an `emitOnSeekGE` key that is empty or its own key. -/
theorem RevAt.rev_normal {D : Dataset} (hwf : D.WF) {f : Nat} {st : DataIter} {x : MVCCKey}
    (h : RevAt D f st x) : ∃ f', RevAt D f' st x ∧ (f' = 0 ∨ f' = x.Key) := by
  by_cases hf : f = x.Key
  · exact ⟨f, h, Or.inr hf⟩
  · exact ⟨0, h.rebaseRevAt (fun h' => hf h'.symm) (h.rev_key_ne hwf) (Or.inl rfl), Or.inl rfl⟩

/-! ### From the reverse direction to the forward direction -/

theorem iterNext_eval {D : Dataset} {st : DataIter} {c : DataCursor}
    (hi : st.iter = some c) :
    iterNext (dataIter D) st = some { st with
      iter := some ((dataIter D).Next c), iterValid := ((dataIter D).Next c).isOn,
      iterErr := none } := by
  simp only [iterNext, updateValid, hi]
  cases (dataIter D).Next c <;> rfl

/-- Every position lies after the empty key. -/
theorem Dataset.WF.nextPos_zero {D : Dataset} (hwf : D.WF) :
    D.nextPos ⟨0, 0⟩ = DataCursor.ofMin (minKey D.positions) := by
  unfold Dataset.nextPos
  congr 2
  rw [List.filter_eq_self]
  intro p hp
  have := hwf.position_key_ne hp
  simp only [decide_eq_true_eq]
  rw [MVCCKey.less_mk_left]
  omega

/-- Stepping the iterator on from the last position before a key that is not
itself a position reaches the first position after that key. -/
theorem dataIter_next_prev {D : Dataset} (hwf : D.WF) {x : MVCCKey} (hx : x ∉ D.positions) :
    (dataIter D).Next (D.prevPos x) = D.nextPos x := by
  have hne : ∀ p ∈ D.positions, p ≠ x := fun p hp h => hx (h ▸ hp)
  rcases D.prevPos_cases x with ⟨hn, hnone⟩ | ⟨n, hn, hnp, hnx, hmax⟩
  · rw [hn]
    show DataCursor.ofMin (minKey D.positions) = D.nextPos x
    rw [← hwf.nextPos_zero]
    apply Dataset.nextPos_congr
    intro p hp
    have := hwf.position_key_ne hp
    constructor
    · intro _
      rcases MVCCKey.Less.total p x with h | h | h
      · exact absurd h (hnone p hp)
      · exact absurd h (hne p hp)
      · exact h
    · intro _
      rw [MVCCKey.less_mk_left]
      omega
  · rw [hn, dataIter_Next_on]
    apply Dataset.nextPos_congr
    intro p hp
    constructor
    · intro hnp'
      rcases MVCCKey.Less.total p x with h | h | h
      · exact absurd hnp' (hmax p hp h)
      · exact absurd h (hne p hp)
      · exact h
    · intro hxp
      exact MVCCKey.Less.trans hnx hxp

/-- A synthesized key is not a position. -/
theorem Dataset.WF.syn_not_position {D : Dataset} (hwf : D.WF) {x : MVCCKey} {r : RangeKV}
    {v : MVCCRangeKeyVersion} (hr : D.rangeAt x.Key = some r) (hv : v ∈ r.versions)
    (hvt : v.Timestamp = x.Timestamp) : x ∉ D.positions := by
  have hs := (hwf.range_ok (Dataset.rangeAt_some hr).1).2.2.2
  have hvne := versionsSorted_ne_zero hs v hv
  intro hx
  rcases Dataset.positions_cases hx with h1 | ⟨r', -, h1⟩
  · have h2 := hwf.syn_not_point hr hv
    rw [hvt] at h2
    rw [h2] at h1
    cases h1
  · rw [h1] at hvt; simp only at hvt; omega

theorem newerPt_antitone {V : MVCCRangeKeyVersions} (hs : versionsSorted V = true)
    {q q' : MVCCKey} (hk : q'.Key = q.Key) (h : ¬ q.Less q') :
    newerPt V q'.Timestamp ≤ newerPt V q.Timestamp := by
  unfold newerPt
  by_cases h0 : q'.Timestamp = 0
  · rw [if_pos h0]; omega
  · have h1 : q.Timestamp ≠ 0 ∧ q.Timestamp ≤ q'.Timestamp := by
      unfold MVCCKey.Less at h; omega
    rw [if_neg h0, if_neg h1.1]
    exact newer_mono hs h1.2

/-- A reverse position on a real point, read in the forward direction. -/
theorem RevReal.toFwd {D : Dataset} {f : Nat} {st : DataIter} {x : MVCCKey}
    (h : RevReal D f st x) (hf : f ≤ x.Key) :
    FwdReal D f { st with reverse := false, rangeKeysIdx := st.rangeKeysIdx + 1 } x := by
  refine ⟨⟨h.base.iter, rfl, h.base.iterErr, h.base.iterValid⟩, h.point, h.atPoint, hf, ?_, ?_⟩
  · intro hr
    obtain ⟨hc, hidx, hend⟩ := h.bare hr
    refine ⟨⟨hc.rangeKeys, hc.pos, hc.start⟩, ?_, hend⟩
    show st.rangeKeysIdx + 1 = 0
    rw [hidx]; rfl
  · intro r hr
    obtain ⟨hc, hidx, e, he, hle, hwin, hend⟩ := h.covered r hr
    refine ⟨⟨hc.rangeKeys, hc.pos, hc.start⟩, ?_, e, he, hwin, ?_⟩
    · show st.rangeKeysIdx + 1 = _
      rw [hidx]; omega
    · rcases hend with hw | ⟨h1, h2, -⟩
      · exact Or.inl hw
      · exact Or.inr ⟨h1, h2, x, rfl, rfl, hle⟩

/-- A reverse position on a synthesized point, read in the forward direction
once the iterator has stepped on. -/
theorem RevSyn.toFwdSyn {D : Dataset} (hwf : D.WF) {f : Nat} {st : DataIter} {x : MVCCKey}
    (h : RevSyn D f st x) (hf : f ≤ x.Key) :
    FwdSyn D f { st with
      reverse := false, iter := some (D.nextPos x), iterValid := (D.nextPos x).isOn,
      iterErr := none } x := by
  obtain ⟨r, hr, hc, hidx, ⟨v, hv, hvt⟩, e, he, hlt, hwin, hend⟩ := h.covered
  have hs := (hwf.range_ok (Dataset.rangeAt_some hr).1).2.2.2
  have hxpos := hwf.syn_not_position hr (List.getElem?_mem hv) hvt
  refine ⟨⟨rfl, rfl, rfl, rfl⟩, h.atPoint, hf, r, hr, ⟨hc.rangeKeys, hc.pos, hc.start⟩, hidx,
    ⟨v, hv, hvt⟩, e, he, hlt, hwin, ?_⟩
  rcases hend with hw | ⟨h1, h2, q0, hq0, hq0k, hq0x, hq0e⟩
  · exact Or.inl hw
  · right
    refine ⟨h1, h2, ?_⟩
    have hq0p := Dataset.point_mem_positions hq0
    have hxq0 : x.Less q0 := by
      rcases MVCCKey.Less.total x q0 with h3 | h3 | h3
      · exact h3
      · rw [h3] at hxpos; exact absurd hq0p hxpos
      · exact absurd h3 hq0x
    rcases D.nextPos_cases x with ⟨-, hnone⟩ | ⟨q1, hn, hq1p, hxq1, hmin⟩
    · exact absurd hxq0 (hnone q0 hq0p)
    · have h4 := hmin q0 hq0p hxq0
      have hk : q1.Key = q0.Key := by
        unfold MVCCKey.Less at h4 hxq1
        omega
      refine ⟨q1, hn, by omega, ?_⟩
      have := newerPt_antitone hs hk h4
      omega

theorem next_forward {σ : Type} (I : MVCCIterator σ) (i : pointSynthesizingIter σ)
    (h : i.reverse = false) : Next I i = nextStep I i := by
  unfold Next
  simp [h]

theorem next_rev_real {σ : Type} (I : MVCCIterator σ) (i : pointSynthesizingIter σ)
    (hr : i.reverse = true) (ha : i.atPoint = true) :
    Next I i = nextStep I { i with reverse := false, rangeKeysIdx := i.rangeKeysIdx + 1 } := by
  unfold Next
  simp [hr, ha]

theorem next_rev_syn {σ : Type} (I : MVCCIterator σ) (i : pointSynthesizingIter σ)
    (hr : i.reverse = true) (ha : i.atPoint = false) (hl : i.rangeKeys.length ≠ 0) :
    Next I i = (iterNext I { i with reverse := false }).bind (fun i1 =>
      if i1.iterErr ≠ none then some i1 else nextStep I i1) := by
  unfold Next
  simp only [hr, if_true, ha, Bool.not_false, Bool.true_and, hl, decide_False,
    Bool.false_eq_true, if_false]
  cases iterNext I _ <;> rfl

theorem next_rev_done {σ : Type} (I : MVCCIterator σ) (i : pointSynthesizingIter σ)
    (hr : i.reverse = true) (ha : i.atPoint = false) (hl : i.rangeKeys.length = 0) :
    Next I i = (iterNext I { i with reverse := false }).bind (fun i1 =>
      if i1.iterErr ≠ none then some i1 else updatePosition I i1) := by
  unfold Next
  simp only [hr, if_true, ha, Bool.not_false, Bool.true_and, hl, decide_True]
  cases iterNext I _ <;> rfl

/-- `Next` from a reverse position lands on the first exposed key after the
current one. -/
theorem revAt_next {D : Dataset} (hwf : D.WF) {f : Nat} {st : DataIter} {x : MVCCKey}
    (h : RevAt D f st x) (hf : f ≤ x.Key) :
    ∃ st', Next (dataIter D) st = some st' ∧ LandsAfter D f st' x := by
  rcases h with h | h
  · obtain ⟨st', h1, h2⟩ := fwdAt_next hwf (Or.inl (h.toFwd hf))
    refine ⟨st', ?_, h2⟩
    rw [next_forward _ _ rfl] at h1
    rw [← h1, next_rev_real _ _ h.base.reverse h.atPoint]
  · obtain ⟨st', h1, h2⟩ := fwdAt_next hwf (Or.inr (h.toFwdSyn hwf hf))
    refine ⟨st', ?_, h2⟩
    rw [next_forward _ _ rfl] at h1
    rw [← h1]
    obtain ⟨r, hr, hc, hidx, ⟨v, hv, hvt⟩, -⟩ := h.covered
    have hxpos := hwf.syn_not_position hr (List.getElem?_mem hv) hvt
    have hne := (hwf.range_ok (Dataset.rangeAt_some hr).1).2.2.1
    have hlen : st.rangeKeys.length ≠ 0 := by
      rw [hc.rangeKeys]; exact fun h0 => hne (List.length_eq_zero.1 h0)
    rw [next_rev_syn _ _ h.base.reverse h.atPoint hlen,
      @iterNext_eval D { st with reverse := false } (D.prevPos x) h.base.iter,
      dataIter_next_prev hwf hxpos]
    simp

/-- `Next` from the exhausted reverse state lands on the first exposed key. -/
theorem revDone_next {D : Dataset} (hwf : D.WF) {st : DataIter} (h : RevDone st) :
    ∃ st', Next (dataIter D) st = some st' ∧ LandsAfter D 0 st' ⟨0, 0⟩ := by
  have hstuck : FwdStuck D 0 { st with
      reverse := false, iter := some (D.nextPos ⟨0, 0⟩),
      iterValid := (D.nextPos ⟨0, 0⟩).isOn, iterErr := none } ⟨0, 0⟩ := by
    refine ⟨⟨rfl, rfl, rfl, rfl⟩, Or.inl ⟨h.cache.rangeKeys, h.cache.pos, h.cache.start⟩,
      le_refl _, ?_, ?_⟩
    · intro q hq
      obtain ⟨hqp, -, -⟩ := Dataset.nextPos_on hq
      have := hwf.position_key_ne hqp
      show 0 < q.Key
      omega
    · intro y hy _
      have := hwf.exposed_key_ne hy
      show 0 < y.Key
      omega
  obtain ⟨st', h1, h2⟩ := fwdStuck_updatePosition hwf hstuck
  refine ⟨st', ?_, h2⟩
  rw [← h1]
  have hlen : st.rangeKeys.length = 0 := by rw [h.cache.rangeKeys]; rfl
  have : (dataIter D).Next DataCursor.before = D.nextPos ⟨0, 0⟩ := by
    rw [hwf.nextPos_zero]; rfl
  rw [next_rev_done _ _ h.base.reverse h.atPoint hlen,
    @iterNext_eval D { st with reverse := false } DataCursor.before h.base.iter, this]
  simp

/-! ### `NextKey` -/

theorem dataIter_NextKey_on (D : Dataset) (q : MVCCKey) :
    (dataIter D).NextKey (DataCursor.onKey q) = D.nextPos ⟨q.Key, 1⟩ := by
  show DataCursor.ofMin (minKey (D.positions.filter (fun p => decide (q.Key < p.Key)))) = _
  unfold Dataset.nextPos
  congr 2
  apply List.filter_congr
  intro p _
  simp only [decide_eq_decide]
  rw [MVCCKey.less_mk_left]
  omega

/-- The first position after the last possible version of a key. -/
theorem Dataset.nextPos_last {D : Dataset} {x : MVCCKey}
    (h : ∀ q, D.nextPos x = DataCursor.onKey q → q.Key ≠ x.Key) :
    D.nextPos x = D.nextPos ⟨x.Key, 1⟩ := by
  rcases D.nextPos_cases x with ⟨hn, hnone⟩ | ⟨q, hn, hq, hxq, hmin⟩
  · rw [hn]
    symm
    apply Dataset.nextPos_eq_after
    intro p hp hlt
    apply hnone p hp
    rw [MVCCKey.less_mk_left] at hlt
    unfold MVCCKey.Less
    omega
  · rw [hn]
    symm
    have hk := h q hn
    apply Dataset.nextPos_eq_on hq
    · rw [MVCCKey.less_mk_left]
      unfold MVCCKey.Less at hxq
      omega
    · intro p hp hlt
      apply hmin p hp
      rw [MVCCKey.less_mk_left] at hlt
      unfold MVCCKey.Less
      omega

/-- The state that `updatePosition` re-synchronises once the iterator has left
the key `K`. -/
theorem fwdStuck_nextKey {D : Dataset} {f : Nat} {s : DataIter} {K : Nat}
    (hc : CacheOK D s) (hb : Coupled s (D.nextPos ⟨K, 1⟩) false) (hf : f ≤ K) :
    FwdStuck D f s ⟨K, 1⟩ := by
  refine ⟨hb, hc, hf, ?_, ?_⟩
  · intro q hq
    obtain ⟨-, hlt, -⟩ := Dataset.nextPos_on hq
    rw [MVCCKey.less_mk_left] at hlt
    show K < q.Key
    omega
  · intro y _ hlt
    rw [MVCCKey.less_mk_left] at hlt
    show K < y.Key
    omega

theorem nextKey_forward {D : Dataset} {s : DataIter} {c : DataCursor}
    (hr : s.reverse = false) (hi : s.iter = some c) :
    NextKey (dataIter D) s =
      if s.atPoint || roachpb.Key.Equal s.rangeKeysPos ((dataIter D).UnsafeKey c).Key then
        updatePosition (dataIter D) { s with
          iter := some ((dataIter D).NextKey c), iterValid := ((dataIter D).NextKey c).isOn,
          iterErr := none }
      else updatePosition (dataIter D) s := by
  unfold NextKey
  simp only [hr, Bool.false_eq_true, if_false, hi, updateValid, dataIter_Valid]
  split
  · simp
  · rfl

theorem nextKey_rev_real {σ : Type} (I : MVCCIterator σ) (i : pointSynthesizingIter σ)
    (hr : i.reverse = true) (ha : i.atPoint = true) :
    NextKey I i = NextKey I { i with reverse := false } := by
  unfold NextKey
  simp [hr, ha]

theorem nextKey_rev_syn {D : Dataset} {s : DataIter} {c : DataCursor}
    (hr : s.reverse = true) (ha : s.atPoint = false) (hi : s.iter = some c) :
    NextKey (dataIter D) s = NextKey (dataIter D) { s with
      reverse := false, iter := some ((dataIter D).Next c),
      iterValid := ((dataIter D).Next c).isOn, iterErr := none } := by
  cases s with
  | mk iter V pos idx en start atPoint reverse emit iterValid iterErr =>
    simp only at hr ha hi
    subst hr ha hi
    unfold NextKey
    simp [iterNext, updateValid]

/-- `NextKey` in the forward direction with the adapter on a real point of key
`K`: it lands on the first exposed key after the key `K`. -/
theorem nextKey_real {D : Dataset} (hwf : D.WF) {f : Nat} {s : DataIter} {x : MVCCKey}
    (hb : Coupled s (DataCursor.onKey x) false) (hc : CacheOK D s) (ha : s.atPoint = true)
    (hf : f ≤ x.Key) :
    ∃ st', NextKey (dataIter D) s = some st' ∧ LandsAfter D f st' ⟨x.Key, 1⟩ := by
  rw [nextKey_forward hb.reverse hb.iter, if_pos (by rw [ha]; rfl), dataIter_NextKey_on]
  exact fwdStuck_updatePosition hwf
    (fwdStuck_nextKey (hc.of_eq rfl rfl rfl) ⟨rfl, hb.reverse, rfl, rfl⟩ hf)

/-- `NextKey` in the forward direction with the adapter on a synthesized point
`x`, the iterator on the first position after it: it lands on the first
exposed key after the key of `x`. -/
theorem nextKey_syn {D : Dataset} (hwf : D.WF) {f : Nat} {s : DataIter} {x : MVCCKey}
    (hb : Coupled s (D.nextPos x) false) (hc : CacheOK D s) (ha : s.atPoint = false)
    (hpos : s.rangeKeysPos = x.Key) (hx : x.Key ≠ 0) (hf : f ≤ x.Key) :
    ∃ st', NextKey (dataIter D) s = some st' ∧ LandsAfter D f st' ⟨x.Key, 1⟩ := by
  rw [nextKey_forward hb.reverse hb.iter]
  by_cases hq : ∃ q, D.nextPos x = DataCursor.onKey q ∧ q.Key = x.Key
  · obtain ⟨q, hn, hqk⟩ := hq
    rw [if_pos (by rw [ha, hpos, hn, dataIter_UnsafeKey_on, hqk]; simp [roachpb.Key.Equal]),
      hn, dataIter_NextKey_on, hqk]
    exact fwdStuck_updatePosition hwf
      (fwdStuck_nextKey (hc.of_eq rfl rfl rfl) ⟨rfl, hb.reverse, rfl, rfl⟩ hf)
  · have hlast : D.nextPos x = D.nextPos ⟨x.Key, 1⟩ := by
      apply Dataset.nextPos_last
      intro q hn hqk
      exact hq ⟨q, hn, hqk⟩
    have hne : roachpb.Key.Equal x.Key ((dataIter D).UnsafeKey (D.nextPos x)).Key = false := by
      simp only [roachpb.Key.Equal, beq_eq_false_iff_ne]
      cases hn : D.nextPos x with
      | before => exact hx
      | after => exact hx
      | onKey q =>
        intro hqk
        exact hq ⟨q, hn, hqk.symm⟩
    rw [if_neg (by rw [ha, hpos, hne]; simp)]
    apply fwdStuck_updatePosition hwf
    apply fwdStuck_nextKey hc _ hf
    rw [← hlast]
    exact hb

/-! ### The exhausted and the fresh states -/

theorem fresh_freshIter (b : Bool) : Fresh (freshIter b) :=
  ⟨⟨rfl, rfl, rfl, rfl⟩, rfl, ⟨rfl, rfl, rfl⟩, rfl, rfl⟩

theorem revAt_ready {D : Dataset} {fk : Nat} {st : DataIter} {y : MVCCKey}
    (h : RevAt D fk st y) : Ready D st := by
  rcases h with h | h
  · refine ⟨by rw [h.base.iter]; rfl, ?_⟩
    cases hr : D.rangeAt y.Key with
    | none => exact Or.inl (h.bare hr).1
    | some r =>
      obtain ⟨hc, -⟩ := h.covered r hr
      exact Or.inr ⟨r, (Dataset.rangeAt_some hr).1, hc.rangeKeys, hc.start⟩
  · refine ⟨by rw [h.base.iter]; rfl, ?_⟩
    obtain ⟨r, hr, hc, -⟩ := h.covered
    exact Or.inr ⟨r, (Dataset.rangeAt_some hr).1, hc.rangeKeys, hc.start⟩

theorem revDone_ready {D : Dataset} {st : DataIter} (h : RevDone st) : Ready D st :=
  ⟨by rw [h.base.iter]; rfl, Or.inl h.cache⟩

theorem fresh_ready {D : Dataset} {st : DataIter} (h : Fresh st) : Ready D st :=
  ⟨by rw [h.base.iter]; rfl, Or.inl h.cache⟩

theorem Tracked.ready {D : Dataset} {st : DataIter} (h : Tracked D st) : Ready D st := by
  rcases h with h | h | h | ⟨fk, x, h | h⟩
  · exact fresh_ready h
  · exact fwdDone_ready h
  · exact revDone_ready h
  · exact fwdAt_ready h
  · exact revAt_ready h

theorem landsAfter_tracked {D : Dataset} {fk : Nat} {st : DataIter} {k : MVCCKey}
    (h : LandsAfter D fk st k) : Tracked D st := by
  rcases h with ⟨hd, -⟩ | ⟨y, hy, -⟩
  · exact Or.inr (Or.inl hd)
  · exact Or.inr (Or.inr (Or.inr ⟨fk, y, Or.inl hy⟩))

theorem landsFrom_tracked {D : Dataset} {fk : Nat} {st : DataIter} {k : MVCCKey}
    (h : LandsFrom D fk st k) : Tracked D st := by
  rcases h with ⟨hd, -⟩ | ⟨y, hy, -⟩
  · exact Or.inr (Or.inl hd)
  · exact Or.inr (Or.inr (Or.inr ⟨fk, y, Or.inl hy⟩))

theorem landsBefore_tracked {D : Dataset} {fk : Nat} {st : DataIter} {k : MVCCKey}
    (h : LandsBefore D fk st k) : Tracked D st := by
  rcases h with ⟨hd, -⟩ | ⟨y, hy, -⟩
  · exact Or.inr (Or.inr (Or.inl hd))
  · exact Or.inr (Or.inr (Or.inr ⟨fk, y, Or.inr hy⟩))

/-- `Next` on a fresh adapter leaves it fresh. -/
theorem fresh_next {D : Dataset} {st : DataIter} (h : Fresh st) :
    ∃ st', Next (dataIter D) st = some st' ∧ Fresh st' := by
  unfold Next
  simp only [h.base.reverse, Bool.false_eq_true, if_false]
  rw [nextStep_syn _ _ h.atPoint]
  unfold finishFwd
  rw [updateAtPoint_invalid (by simp [h.base.iterValid])]
  have hcond : (!false && decide (st.rangeKeysIdx + 1 ≥ st.rangeKeysEnd)) = true := by
    simp [h.idx, h.endEq]
  refine ⟨_, (if_pos hcond).trans (updatePosition_invalid (by simp [h.base.iterValid])), ?_⟩
  rw [clearRangeKeys_eval (by intro _; exact ⟨h.cache.pos, h.cache.start⟩)]
  exact ⟨⟨h.base.iter, h.base.reverse, h.base.iterErr, h.base.iterValid⟩, rfl, ⟨rfl, rfl, rfl⟩,
    by simp [h.base.reverse], rfl⟩

/-- The state that `updatePosition` re-synchronises at the start of a forward
scan. -/
theorem fwdStuck_zero {D : Dataset} (hwf : D.WF) {s : DataIter}
    (hc : CacheOK D s) (hb : Coupled s (D.nextPos ⟨0, 0⟩) false) :
    FwdStuck D 0 s ⟨0, 0⟩ := by
  refine ⟨hb, hc, le_refl _, ?_, ?_⟩
  · intro q hq
    obtain ⟨hqp, -, -⟩ := Dataset.nextPos_on hq
    have := hwf.position_key_ne hqp
    show 0 < q.Key
    omega
  · intro y hy _
    have := hwf.exposed_key_ne hy
    show 0 < y.Key
    omega

theorem dataIter_NextKey_before {D : Dataset} (hwf : D.WF) :
    (dataIter D).NextKey DataCursor.before = D.nextPos ⟨0, 0⟩ := by
  rw [hwf.nextPos_zero]; rfl

theorem dataIter_Next_before {D : Dataset} (hwf : D.WF) :
    (dataIter D).Next DataCursor.before = D.nextPos ⟨0, 0⟩ := by
  rw [hwf.nextPos_zero]; rfl

/-- `NextKey` on a fresh adapter lands on the first exposed key. -/
theorem fresh_nextKey {D : Dataset} (hwf : D.WF) {st : DataIter} (h : Fresh st) :
    ∃ st', NextKey (dataIter D) st = some st' ∧ LandsAfter D 0 st' ⟨0, 0⟩ := by
  rw [nextKey_forward h.base.reverse h.base.iter,
    if_pos (by rw [h.atPoint, h.cache.pos]; rfl), dataIter_NextKey_before hwf]
  exact fwdStuck_updatePosition hwf (fwdStuck_zero hwf
    (Or.inl ⟨h.cache.rangeKeys, h.cache.pos, h.cache.start⟩) ⟨rfl, h.base.reverse, rfl, rfl⟩)

/-- `NextKey` on an exhausted adapter leaves it exhausted. -/
theorem fwdDone_nextKey {D : Dataset} {st : DataIter} (h : FwdDone st) :
    ∃ st', NextKey (dataIter D) st = some st' ∧ FwdDone st' := by
  rw [nextKey_forward h.base.reverse h.base.iter,
    if_pos (by rw [h.atPoint, h.cache.pos]; rfl)]
  refine ⟨_, updatePosition_invalid rfl, ?_⟩
  rw [clearRangeKeys_eval (by intro _; exact ⟨h.cache.pos, h.cache.start⟩)]
  exact ⟨⟨rfl, h.base.reverse, rfl, rfl⟩, rfl, ⟨rfl, rfl, rfl⟩,
    by simp [h.base.reverse], rfl⟩

/-- `NextKey` from the exhausted reverse state lands on the first exposed key. -/
theorem revDone_nextKey {D : Dataset} (hwf : D.WF) {st : DataIter} (h : RevDone st) :
    ∃ st', NextKey (dataIter D) st = some st' ∧ LandsAfter D 0 st' ⟨0, 0⟩ := by
  rw [nextKey_rev_syn h.base.reverse h.atPoint h.base.iter, dataIter_Next_before hwf,
    nextKey_forward rfl rfl]
  have hc : CacheOK D { st with
      reverse := false, iter := some (D.nextPos ⟨0, 0⟩),
      iterValid := (D.nextPos ⟨0, 0⟩).isOn, iterErr := none } :=
    Or.inl ⟨h.cache.rangeKeys, h.cache.pos, h.cache.start⟩
  cases hn : D.nextPos ⟨0, 0⟩ with
  | before =>
    rcases D.nextPos_cases ⟨0, 0⟩ with ⟨h1, -⟩ | ⟨q, h1, -⟩ <;> rw [hn] at h1 <;> cases h1
  | after =>
    rw [hn] at hc
    rw [if_pos (by
      show (st.atPoint || roachpb.Key.Equal st.rangeKeysPos 0) = true
      rw [h.atPoint, h.cache.pos]; rfl)]
    apply fwdStuck_updatePosition hwf
    apply fwdStuck_zero hwf (hc.of_eq rfl rfl rfl)
    rw [hn]
    exact ⟨rfl, rfl, rfl, rfl⟩
  | onKey q =>
    rw [hn] at hc
    obtain ⟨hqp, -, -⟩ := Dataset.nextPos_on hn
    have hq0 := hwf.position_key_ne hqp
    rw [if_neg (by
      show ¬ (st.atPoint || roachpb.Key.Equal st.rangeKeysPos q.Key) = true
      rw [h.atPoint, h.cache.pos]
      simp only [roachpb.Key.Equal, Bool.false_or, beq_iff_eq]
      omega)]
    apply fwdStuck_updatePosition hwf
    apply fwdStuck_zero hwf hc
    rw [hn]
    exact ⟨rfl, rfl, rfl, rfl⟩

theorem prev_fwd_done {σ : Type} (I : MVCCIterator σ) (i : pointSynthesizingIter σ)
    (hr : i.reverse = false) (ha : i.atPoint = false) (hl : i.rangeKeys.length = 0) :
    Prev I i = (iterPrev I { i with reverse := true }).bind (fun i1 =>
      if i1.iterErr ≠ none then some i1 else updatePosition I i1) := by
  unfold Prev
  simp only [hr, Bool.not_false, if_true, ha, Bool.true_and, hl, decide_True]
  cases iterPrev I _ <;> rfl

/-- `Prev` on a fresh adapter exhausts it in the reverse direction. -/
theorem fresh_prev {D : Dataset} (hwf : D.WF) {st : DataIter} (h : Fresh st) :
    ∃ st', Prev (dataIter D) st = some st' ∧ RevDone st' := by
  have hlen : st.rangeKeys.length = 0 := by rw [h.cache.rangeKeys]; rfl
  rw [prev_fwd_done _ _ h.base.reverse h.atPoint hlen,
    @iterPrev_eval D { st with reverse := true } DataCursor.before h.base.iter]
  simp only [dataIter_Prev_before, Option.some_bind, ne_eq, not_true_eq_false, if_false]
  refine ⟨_, updatePosition_invalid rfl, ?_⟩
  exact revDone_cleared hwf ⟨rfl, rfl, rfl, rfl⟩
    (Or.inl ⟨h.cache.rangeKeys, h.cache.pos, h.cache.start⟩)

/-- A key above every position. -/
theorem Dataset.exists_top (D : Dataset) : ∃ N, ∀ p ∈ D.positions, p.Key < N := by
  have : ∀ l : List MVCCKey, ∃ N, ∀ p ∈ l, p.Key < N := by
    intro l
    induction l with
    | nil => exact ⟨0, by simp⟩
    | cons a l ih =>
      obtain ⟨N, hN⟩ := ih
      refine ⟨max N (a.Key + 1), ?_⟩
      intro p hp
      rcases List.mem_cons.1 hp with rfl | hp
      · omega
      · have := hN p hp; omega
  exact this D.positions

theorem Dataset.prevPos_top {D : Dataset} {N : Nat} (hN : ∀ p ∈ D.positions, p.Key < N) :
    D.prevPos ⟨N, 0⟩ = DataCursor.ofMax (maxKey D.positions) := by
  unfold Dataset.prevPos
  congr 2
  rw [List.filter_eq_self]
  intro p hp
  have := hN p hp
  simp only [decide_eq_true_eq]
  rw [MVCCKey.less_zero_right]
  exact this

/-- `Prev` on an adapter exhausted in the forward direction lands on the last
exposed key. -/
theorem fwdDone_prev {D : Dataset} (hwf : D.WF) {st : DataIter} (h : FwdDone st) :
    ∃ st' N, Prev (dataIter D) st = some st' ∧ LandsBefore D 0 st' ⟨N, 0⟩ := by
  obtain ⟨N, hN⟩ := D.exists_top
  have hlen : st.rangeKeys.length = 0 := by rw [h.cache.rangeKeys]; rfl
  have hprev : (dataIter D).Prev DataCursor.after = D.prevPos ⟨N, 0⟩ := by
    rw [Dataset.prevPos_top hN]; rfl
  rw [prev_fwd_done _ _ h.base.reverse h.atPoint hlen,
    @iterPrev_eval D { st with reverse := true } DataCursor.after h.base.iter, hprev]
  simp only [Option.some_bind, ne_eq, not_true_eq_false, if_false]
  have hstuck : RevStuck D 0 { st with
      reverse := true, iter := some (D.prevPos ⟨N, 0⟩),
      iterValid := (D.prevPos ⟨N, 0⟩).isOn, iterErr := none } ⟨N, 0⟩ := by
    refine ⟨⟨rfl, rfl, rfl, rfl⟩, Or.inl ⟨h.cache.rangeKeys, h.cache.pos, h.cache.start⟩,
      ?_, ?_, Or.inl rfl⟩
    · intro q hq _
      obtain ⟨hqp, -, -⟩ := Dataset.prevPos_on hq
      have h1 := hN q hqp
      have h2 := hwf.position_key_ne hqp
      show q.Key = st.rangeKeysPos ↔ q.Key = N
      rw [h.cache.pos]
      omega
    · intro y hy _ hyk
      obtain ⟨p, hp, hpk⟩ := hwf.exposed_position hy (hwf.exposed_key_ne hy)
      have := hN p hp
      simp only at hyk
      omega
  obtain ⟨st', h1, h2⟩ := revStuck_updatePosition hwf hstuck
  exact ⟨st', N, h1, h2⟩

/-- `Prev` on an adapter exhausted in the reverse direction leaves it
exhausted. -/
theorem revDone_prev {D : Dataset} (hwf : D.WF) {st : DataIter} (h : RevDone st) :
    ∃ st', Prev (dataIter D) st = some st' ∧ RevDone st' := by
  unfold Prev
  simp only [h.base.reverse, Bool.not_true, Bool.false_eq_true, if_false]
  rw [prevStep_syn _ _ h.atPoint]
  unfold finishRev
  rw [updateAtPoint_invalid (by simp [h.base.iterValid])]
  have hcond : decide (st.rangeKeysIdx - 1 < 0) = true := by
    simp [h.idx]
  simp only [hcond, if_true, Bool.not_false]
  refine ⟨_, updatePosition_invalid (by simp [h.base.iterValid]), ?_⟩
  exact revDone_cleared hwf ⟨h.base.iter, h.base.reverse, h.base.iterErr, h.base.iterValid⟩
    (Or.inl ⟨h.cache.rangeKeys, h.cache.pos, h.cache.start⟩)

/-! ### Every operation keeps the adapter on track -/

/-- `NextKey` from a positioned adapter, in either direction, lands on the first
exposed key after the current user key. -/
theorem at_nextKey {D : Dataset} (hwf : D.WF) {f : Nat} {st : DataIter} {x : MVCCKey}
    (h : FwdAt D f st x ∨ RevAt D f st x) :
    ∃ st', NextKey (dataIter D) st = some st' ∧ LandsAfter D 0 st' ⟨x.Key, 1⟩ := by
  rcases h with (h | h) | (h | h)
  · exact nextKey_real hwf h.base (fwdAt_ready (Or.inl h)).2 h.atPoint (Nat.zero_le _)
  · obtain ⟨r, hr, hc, -⟩ := h.covered
    exact nextKey_syn hwf h.base (fwdAt_ready (Or.inr h)).2 h.atPoint hc.pos
      (hwf.covered_key_ne hr) (Nat.zero_le _)
  · rw [nextKey_rev_real _ _ h.base.reverse h.atPoint]
    exact nextKey_real hwf ⟨h.base.iter, rfl, h.base.iterErr, h.base.iterValid⟩
      ((revAt_ready (Or.inl h)).2.of_eq rfl rfl rfl) h.atPoint (Nat.zero_le _)
  · obtain ⟨r, hr, hc, -, ⟨v, hv, hvt⟩, -⟩ := h.covered
    have hxpos := hwf.syn_not_position hr (List.getElem?_mem hv) hvt
    rw [nextKey_rev_syn h.base.reverse h.atPoint h.base.iter, dataIter_next_prev hwf hxpos]
    exact nextKey_syn hwf ⟨rfl, rfl, rfl, rfl⟩
      ((revAt_ready (Or.inr h)).2.of_eq rfl rfl rfl) h.atPoint hc.pos
      (hwf.covered_key_ne hr) (Nat.zero_le _)

theorem seekIntentGE_eq {D : Dataset} (k : Nat) (u : uuid.UUID) (st : DataIter) :
    SeekIntentGE (dataIter D) k u st = SeekGE (dataIter D) ⟨k, 0⟩ st := rfl

/-- `Next` from a positioned adapter, in either direction, lands on the first
exposed key after the current one. -/
theorem at_next {D : Dataset} (hwf : D.WF) {f : Nat} {st : DataIter} {x : MVCCKey}
    (h : FwdAt D f st x ∨ RevAt D f st x) :
    ∃ st' f', Next (dataIter D) st = some st' ∧ LandsAfter D f' st' x := by
  rcases h with h | h
  · obtain ⟨st', h1, h2⟩ := fwdAt_next hwf h
    exact ⟨st', f, h1, h2⟩
  · obtain ⟨f', h', hf'⟩ := h.rev_normal hwf
    obtain ⟨st', h1, h2⟩ := revAt_next hwf h' (by omega)
    exact ⟨st', f', h1, h2⟩

/-- `Prev` from a positioned adapter, in either direction and whatever the
`emitOnSeekGE` key, lands on the last exposed key before the current one. -/
theorem at_prev_any {D : Dataset} (hwf : D.WF) {f : Nat} {st : DataIter} {x : MVCCKey}
    (h : FwdAt D f st x ∨ RevAt D f st x) :
    ∃ st' f', Prev (dataIter D) st = some st' ∧ LandsBefore D f' st' x := by
  rcases h with h | h
  · obtain ⟨f', h', hf'⟩ := h.normal hwf
    obtain ⟨st', h1, h2⟩ := at_prev hwf (Or.inl h') (by omega)
    exact ⟨st', f', h1, h2⟩
  · have hf : f = 0 ∨ x.Key ≤ f := by
      rcases h with h | h
      · exact h.fk_ge
      · exact h.fk_ge
    obtain ⟨st', h1, h2⟩ := at_prev hwf (Or.inr h) hf
    exact ⟨st', f, h1, h2⟩

/-- Every public positioning operation returns and keeps the adapter on
track. -/
theorem tracked_apply {D : Dataset} (hwf : D.WF) {st : DataIter} (h : Tracked D st)
    (op : PosOp) : ∃ st', op.apply (dataIter D) st = some st' ∧ Tracked D st' := by
  cases op with
  | seekGE k =>
    obtain ⟨st', h1, h2⟩ := seekGE_lands hwf h.ready k
    exact ⟨st', h1, landsFrom_tracked h2⟩
  | seekIntentGE k u =>
    obtain ⟨st', h1, h2⟩ := seekGE_lands hwf h.ready ⟨k, 0⟩
    exact ⟨st', h1, landsFrom_tracked h2⟩
  | seekLT k =>
    obtain ⟨st', h1, h2⟩ := seekLT_lands_any hwf h.ready k
    exact ⟨st', h1, landsBefore_tracked h2⟩
  | next =>
    rcases h with h | h | h | ⟨fk, x, h⟩
    · obtain ⟨st', h1, h2⟩ := fresh_next (D := D) h
      exact ⟨st', h1, Or.inl h2⟩
    · obtain ⟨st', h1, h2⟩ := fwdDone_next (D := D) h
      exact ⟨st', h1, Or.inr (Or.inl h2)⟩
    · obtain ⟨st', h1, h2⟩ := revDone_next hwf h
      exact ⟨st', h1, landsAfter_tracked h2⟩
    · obtain ⟨st', f', h1, h2⟩ := at_next hwf h
      exact ⟨st', h1, landsAfter_tracked h2⟩
  | nextKey =>
    rcases h with h | h | h | ⟨fk, x, h⟩
    · obtain ⟨st', h1, h2⟩ := fresh_nextKey hwf h
      exact ⟨st', h1, landsAfter_tracked h2⟩
    · obtain ⟨st', h1, h2⟩ := fwdDone_nextKey (D := D) h
      exact ⟨st', h1, Or.inr (Or.inl h2)⟩
    · obtain ⟨st', h1, h2⟩ := revDone_nextKey hwf h
      exact ⟨st', h1, landsAfter_tracked h2⟩
    · obtain ⟨st', h1, h2⟩ := at_nextKey hwf h
      exact ⟨st', h1, landsAfter_tracked h2⟩
  | prev =>
    rcases h with h | h | h | ⟨fk, x, h⟩
    · obtain ⟨st', h1, h2⟩ := fresh_prev hwf h
      exact ⟨st', h1, Or.inr (Or.inr (Or.inl h2))⟩
    · obtain ⟨st', N, h1, h2⟩ := fwdDone_prev hwf h
      exact ⟨st', h1, landsBefore_tracked h2⟩
    · obtain ⟨st', h1, h2⟩ := revDone_prev hwf h
      exact ⟨st', h1, Or.inr (Or.inr (Or.inl h2))⟩
    · obtain ⟨st', f', h1, h2⟩ := at_prev_any hwf h
      exact ⟨st', h1, landsBefore_tracked h2⟩

/-- Every sequence of public positioning operations returns and keeps the
adapter on track. -/
theorem tracked_run {D : Dataset} (hwf : D.WF) (ops : List PosOp) :
    ∀ st : DataIter, Tracked D st →
      ∃ st', PosOp.run (dataIter D) ops st = some st' ∧ Tracked D st' := by
  induction ops with
  | nil => intro st h; exact ⟨st, rfl, h⟩
  | cons op ops ih =>
    intro st h
    obtain ⟨s1, h1, h2⟩ := tracked_apply hwf h op
    obtain ⟨s2, h3, h4⟩ := ih s1 h2
    refine ⟨s2, ?_, h4⟩
    show (op.apply (dataIter D) st).bind (PosOp.run (dataIter D) ops) = some s2
    rw [h1]
    exact h3

theorem fresh_valid {st : DataIter} (h : Fresh st) : Valid st = (false, none) := by
  unfold Valid
  rw [if_neg (by rw [h.idx, h.endEq]; simp), h.base.iterValid, h.base.iterErr]
  rfl

/-- A valid adapter in the forward direction is on an exposed key. -/
theorem Tracked.forward_at {D : Dataset} {st : DataIter} (h : Tracked D st)
    (hfwd : st.reverse = false) (hvalid : (Valid st).1 = true) :
    ∃ fk x, FwdAt D fk st x := by
  rcases h with h | h | h | ⟨fk, x, h | h⟩
  · rw [fresh_valid h] at hvalid; cases hvalid
  · rw [fwdDone_valid h] at hvalid; cases hvalid
  · rw [h.base.reverse] at hfwd; cases hfwd
  · exact ⟨fk, x, h⟩
  · have : st.reverse = true := by
      rcases h with h | h
      · exact h.base.reverse
      · exact h.base.reverse
    rw [this] at hfwd; cases hfwd

/-! ### The relative positioning of the iterator and the cursor -/

/-- A bound of `assertInvariants`: the key of the window entry at index `j`, or
the default when `j` is outside the window. -/
theorem bound_eval (V : MVCCRangeKeyVersions) (K : Nat) (j : Int) (e : Nat)
    (hel : e ≤ V.length) (d : MVCCKey) :
    ∃ b, (if j ≥ 0 ∧ j < (e : Int) then
        Option.map (fun v => ({ Key := K, Timestamp := v.Timestamp } : MVCCKey)) (sliceIndex V j)
      else some d) = some b ∧
      ((¬ (j ≥ 0 ∧ j < (e : Int)) ∧ b = d) ∨
        ∃ (n : Nat) (v : MVCCRangeKeyVersion), j = (n : Int) ∧ n < e ∧ V[n]? = some v ∧
          b = ⟨K, v.Timestamp⟩) := by
  by_cases hj : j ≥ 0 ∧ j < (e : Int)
  · obtain ⟨n, rfl⟩ := Int.eq_ofNat_of_zero_le hj.1
    have hn : n < V.length := by omega
    refine ⟨⟨K, (V.get ⟨n, hn⟩).Timestamp⟩, ?_, Or.inr ⟨n, V.get ⟨n, hn⟩, rfl, by omega, ?_, rfl⟩⟩
    · rw [if_pos hj, sliceIndex_ofNat, List.getElem?_eq_getElem hn]
      rfl
    · rw [List.getElem?_eq_getElem hn]
      rfl
  · exact ⟨d, by rw [if_neg hj], Or.inl ⟨hj, rfl⟩⟩

theorem check_true {a b c d : Bool} (h1 : (a && b) = false) (h2 : (c && d) = false) :
    (!(a && b) && !(c && d)) = true := by
  rw [h1, h2]; rfl

theorem fwdReal_relative {D : Dataset} (hwf : D.WF) {fk : Nat} {st : DataIter} {x : MVCCKey}
    (h : FwdReal D fk st x) (hne : st.rangeKeys ≠ []) :
    assertRelativePosition (dataIter D) st = some true := by
  cases hr : D.rangeAt x.Key with
  | none => exact absurd (h.bare hr).1.rangeKeys hne
  | some r =>
    obtain ⟨hc, hidx, e, he, hend⟩ := h.covered r hr
    have hs := (hwf.range_ok (Dataset.rangeAt_some hr).1).2.2.2
    have hel : e ≤ r.versions.length := le_trans hend.1 (D.window_le_length fk r x.Key)
    unfold assertRelativePosition
    rw [h.base.iter]
    simp only [h.base.reverse, h.atPoint, hidx, he, hc.rangeKeys, hc.pos, Bool.not_false,
      Bool.not_true, if_true, if_false, Bool.false_eq_true, dataIter_UnsafeKey_on]
    obtain ⟨lo, hlo, hlo'⟩ := bound_eval r.versions x.Key
      ((newerPt r.versions x.Timestamp : Int) - 1) e hel ⟨x.Key, 0⟩
    obtain ⟨hi, hhi, hhi'⟩ := bound_eval r.versions x.Key
      (newerPt r.versions x.Timestamp : Int) e hel ⟨0, 0⟩
    rw [hlo, hhi]
    simp only [Option.some.injEq]
    apply check_true
    · have : ¬ x.Less lo := by
        rcases hlo' with ⟨-, rfl⟩ | ⟨n, v, hn, -, hv, rfl⟩
        · rw [MVCCKey.less_zero_right]; omega
        · have h1 := (newerPt_lt_iff hs x.Timestamp hv).1 (by omega)
          rw [MVCCKey.less_mk_right]; omega
      simp [this]
    · have : hi.Key = 0 ∨ ¬ hi.Less x := by
        rcases hhi' with ⟨-, rfl⟩ | ⟨n, v, hn, -, hv, rfl⟩
        · exact Or.inl rfl
        · right
          have h1 := (newerPt_lt_iff hs x.Timestamp hv).not.1 (by omega)
          have hvne := versionsSorted_ne_zero hs v (List.getElem?_mem hv)
          rw [MVCCKey.less_mk_left]; omega
      rcases this with h0 | h0
      · simp [h0]
      · simp [h0]

theorem revReal_relative {D : Dataset} (hwf : D.WF) {fk : Nat} {st : DataIter} {x : MVCCKey}
    (h : RevReal D fk st x) (hne : st.rangeKeys ≠ []) :
    assertRelativePosition (dataIter D) st = some true := by
  cases hr : D.rangeAt x.Key with
  | none => exact absurd (h.bare hr).1.rangeKeys hne
  | some r =>
    obtain ⟨hc, hidx, e, he, hle, hwin, -⟩ := h.covered r hr
    have hs := (hwf.range_ok (Dataset.rangeAt_some hr).1).2.2.2
    have hel : e ≤ r.versions.length := le_trans hwin (D.window_le_length fk r x.Key)
    unfold assertRelativePosition
    rw [h.base.iter]
    simp only [h.base.reverse, h.atPoint, hidx, he, hc.rangeKeys, hc.pos, Bool.not_false,
      Bool.not_true, if_true, if_false, Bool.false_eq_true, dataIter_UnsafeKey_on]
    obtain ⟨lo, hlo, hlo'⟩ := bound_eval r.versions x.Key
      ((newerPt r.versions x.Timestamp : Int) - 1) e hel ⟨0, 0⟩
    obtain ⟨hi, hhi, hhi'⟩ := bound_eval r.versions x.Key
      ((newerPt r.versions x.Timestamp : Int) - 1 + 1) e hel ⟨x.Key, hlc.MinTimestamp⟩
    rw [hlo, hhi]
    simp only [Option.some.injEq]
    apply check_true
    · have : lo.Key = 0 ∨ ¬ x.Less lo := by
        rcases hlo' with ⟨-, rfl⟩ | ⟨n, v, hn, -, hv, rfl⟩
        · exact Or.inl rfl
        · right
          have h1 := (newerPt_lt_iff hs x.Timestamp hv).1 (by omega)
          rw [MVCCKey.less_mk_right]; omega
      rcases this with h0 | h0
      · simp [h0]
      · simp [h0]
    · have : ¬ hi.Less x := by
        rcases hhi' with ⟨-, rfl⟩ | ⟨n, v, hn, -, hv, rfl⟩
        · rw [MVCCKey.less_mk_left]
          unfold hlc.MinTimestamp
          omega
        · have h1 := (newerPt_lt_iff hs x.Timestamp hv).not.1 (by omega)
          have hvne := versionsSorted_ne_zero hs v (List.getElem?_mem hv)
          rw [MVCCKey.less_mk_left]; omega
      simp [this]

theorem fwdSyn_relative {D : Dataset} {fk : Nat} {st : DataIter} {x : MVCCKey}
    (h : FwdSyn D fk st x) (hv : st.iterValid = true) :
    assertRelativePosition (dataIter D) st = some true := by
  obtain ⟨r, hr, hc, hidx, ⟨v, hv', hvt⟩, e, he, hlt, hend⟩ := h.covered
  have hel : e ≤ r.versions.length := le_trans hend.1 (D.window_le_length fk r x.Key)
  have hon : (D.nextPos x).isOn = true := by rw [← h.base.iterValid]; exact hv
  cases hn : D.nextPos x with
  | before => rw [hn] at hon; cases hon
  | after => rw [hn] at hon; cases hon
  | onKey q =>
    obtain ⟨-, hxq, -⟩ := Dataset.nextPos_on hn
    unfold assertRelativePosition
    rw [h.base.iter, hn]
    simp only [h.base.reverse, h.atPoint, hidx, he, hc.rangeKeys, hc.pos, Bool.not_false,
      Bool.not_true, if_true, if_false, Bool.false_eq_true, dataIter_UnsafeKey_on]
    obtain ⟨lo, hlo, hlo'⟩ := bound_eval r.versions x.Key
      (newer r.versions x.Timestamp : Int) e hel ⟨x.Key, 0⟩
    obtain ⟨hi, hhi, hhi'⟩ := bound_eval r.versions x.Key (-1) e hel ⟨0, 0⟩
    rw [hlo, hhi]
    simp only [Option.some.injEq]
    apply check_true
    · have : ¬ q.Less lo := by
        rcases hlo' with ⟨hc', -⟩ | ⟨n, w, hn', -, hw, rfl⟩
        · exact absurd ⟨by omega, by omega⟩ hc'
        · have hnn : n = newer r.versions x.Timestamp := by omega
          rw [hnn, hv'] at hw
          cases hw
          rw [hvt]
          exact MVCCKey.Less.asymm hxq
      simp [this]
    · have : hi.Key = 0 := by
        rcases hhi' with ⟨-, rfl⟩ | ⟨n, w, hn', -⟩
        · rfl
        · omega
      simp [this]

theorem revSyn_relative {D : Dataset} {fk : Nat} {st : DataIter} {x : MVCCKey}
    (h : RevSyn D fk st x) (hv : st.iterValid = true) :
    assertRelativePosition (dataIter D) st = some true := by
  obtain ⟨r, hr, hc, hidx, ⟨v, hv', hvt⟩, e, he, hlt, hwin, -⟩ := h.covered
  have hel : e ≤ r.versions.length := le_trans hwin (D.window_le_length fk r x.Key)
  have hon : (D.prevPos x).isOn = true := by rw [← h.base.iterValid]; exact hv
  cases hn : D.prevPos x with
  | before => rw [hn] at hon; cases hon
  | after => rw [hn] at hon; cases hon
  | onKey q =>
    obtain ⟨-, hqx, -⟩ := Dataset.prevPos_on hn
    unfold assertRelativePosition
    rw [h.base.iter, hn]
    simp only [h.base.reverse, h.atPoint, hidx, he, hc.rangeKeys, hc.pos, Bool.not_false,
      Bool.not_true, if_true, if_false, Bool.false_eq_true, dataIter_UnsafeKey_on]
    obtain ⟨lo, hlo, hlo'⟩ := bound_eval r.versions x.Key (-1) e hel ⟨0, 0⟩
    obtain ⟨hi, hhi, hhi'⟩ := bound_eval r.versions x.Key
      (newer r.versions x.Timestamp : Int) e hel ⟨x.Key, hlc.MinTimestamp⟩
    rw [hlo, hhi]
    simp only [Option.some.injEq]
    apply check_true
    · have : lo.Key = 0 := by
        rcases hlo' with ⟨-, rfl⟩ | ⟨n, w, hn', -⟩
        · rfl
        · omega
      simp [this]
    · have : ¬ hi.Less q := by
        rcases hhi' with ⟨hc', -⟩ | ⟨n, w, hn', -, hw, rfl⟩
        · exact absurd ⟨by omega, by omega⟩ hc'
        · have hnn : n = newer r.versions x.Timestamp := by omega
          rw [hnn, hv'] at hw
          cases hw
          rw [hvt]
          exact MVCCKey.Less.asymm hqx
      simp [this]

/-- On track, with range keys and a valid underlying iterator, the relative
positioning check of `assertInvariants` passes. -/
theorem tracked_relative {D : Dataset} (hwf : D.WF) {st : DataIter} (h : Tracked D st)
    (hne : st.rangeKeys ≠ []) (hv : st.iterValid = true) :
    assertRelativePosition (dataIter D) st = some true := by
  rcases h with h | h | h | ⟨fk, x, (h | h) | (h | h)⟩
  · exact absurd h.cache.rangeKeys hne
  · exact absurd h.cache.rangeKeys hne
  · exact absurd h.cache.rangeKeys hne
  · exact fwdReal_relative hwf h hne
  · exact fwdSyn_relative h hv
  · exact revReal_relative hwf h hne
  · exact revSyn_relative h hv

/-- On track, the cached validity is the validity of the underlying iterator. -/
theorem tracked_synced {D : Dataset} {st : DataIter} (h : Tracked D st) :
    ∃ c, st.iter = some c ∧ st.iterValid = c.isOn ∧ st.iterErr = none := by
  rcases h with h | h | h | ⟨fk, x, (h | h) | (h | h)⟩
  · exact ⟨_, h.base.iter, h.base.iterValid, h.base.iterErr⟩
  · exact ⟨_, h.base.iter, h.base.iterValid, h.base.iterErr⟩
  · exact ⟨_, h.base.iter, h.base.iterValid, h.base.iterErr⟩
  · exact ⟨_, h.base.iter, h.base.iterValid, h.base.iterErr⟩
  · exact ⟨_, h.base.iter, h.base.iterValid, h.base.iterErr⟩
  · exact ⟨_, h.base.iter, h.base.iterValid, h.base.iterErr⟩
  · exact ⟨_, h.base.iter, h.base.iterValid, h.base.iterErr⟩

/-! ### What the relative positioning check says -/

theorem check_cases {a b c d : Bool} (h : (!(a && b) && !(c && d)) = true) :
    (a = false ∨ b = false) ∧ (c = false ∨ d = false) := by
  cases a <;> cases b <;> cases c <;> cases d <;> simp at h ⊢

theorem bound_spec (V : MVCCRangeKeyVersions) (K : Nat) (j : Int) (e : Nat)
    (hel : e ≤ V.length) (d : MVCCKey) :
    ∃ b, (if j ≥ 0 ∧ j < (e : Int) then
        Option.map (fun v => ({ Key := K, Timestamp := v.Timestamp } : MVCCKey)) (sliceIndex V j)
      else some d) = some b ∧
      (∀ v, 0 ≤ j → j < (e : Int) → sliceIndex V j = some v → b = ⟨K, v.Timestamp⟩) ∧
      (b = d ∨ b.Key = K) := by
  obtain ⟨b, h1, h2⟩ := bound_eval V K j e hel d
  refine ⟨b, h1, ?_, ?_⟩
  · intro v h3 h4 h5
    rcases h2 with ⟨h6, -⟩ | ⟨n, w, h6, -, h7, rfl⟩
    · exact absurd ⟨h3, h4⟩ h6
    · rw [h6, sliceIndex_ofNat, h7] at h5
      cases h5
      rfl
  · rcases h2 with ⟨-, h6⟩ | ⟨n, w, -, -, -, rfl⟩
    · exact Or.inl h6
    · exact Or.inr rfl

theorem not_less_floor {k b : MVCCKey} {K : Nat} (hb : b.Key = K) (h : ¬ k.Less b) :
    ¬ k.Less ⟨K, 0⟩ := by
  rw [MVCCKey.less_zero_right]
  unfold MVCCKey.Less at h
  omega

theorem not_less_ceil {k b : MVCCKey} {K : Nat} (hb : b.Key = K) (h : ¬ b.Less k) :
    ¬ MVCCKey.Less ⟨K, hlc.MinTimestamp⟩ k := by
  rw [MVCCKey.less_mk_left]
  unfold hlc.MinTimestamp
  unfold MVCCKey.Less at h
  omega

theorem guard_lo {k b : MVCCKey} (hb : b.Key ≠ 0)
    (h : (b.Key != 0) = false ∨ decide (k.Less b) = false) : ¬ k.Less b := by
  rcases h with h | h
  · simp at h; exact absurd h hb
  · simpa using h

theorem guard_hi {k b : MVCCKey} (hb : b.Key ≠ 0)
    (h : (b.Key != 0) = false ∨ decide (b.Less k) = false) : ¬ b.Less k := by
  rcases h with h | h
  · simp at h; exact absurd h hb
  · simpa using h

/-- The relative positioning check of `assertInvariants`, spelled out: in the
forward direction the iterator is not before the cached key, in the reverse
direction it is not after the last version of the cached key; off a point it
is not behind the synthesized point in the current direction; on a point it
lies between the window entries around the cursor. -/
theorem relative_meaning {σ : Type} (I : MVCCIterator σ) (i : pointSynthesizingIter σ)
    (it : σ) (hit : i.iter = some it) (hw : WindowOK i) (hK : i.rangeKeysPos ≠ 0)
    (h : assertRelativePosition I i = some true) :
    (i.reverse = false → ¬ (I.UnsafeKey it).Less ⟨i.rangeKeysPos, 0⟩) ∧
    (i.reverse = true →
      ¬ MVCCKey.Less ⟨i.rangeKeysPos, hlc.MinTimestamp⟩ (I.UnsafeKey it)) ∧
    (i.atPoint = false → ∀ v, 0 ≤ i.rangeKeysIdx → i.rangeKeysIdx < i.rangeKeysEnd →
      sliceIndex i.rangeKeys i.rangeKeysIdx = some v →
      (i.reverse = false → ¬ (I.UnsafeKey it).Less ⟨i.rangeKeysPos, v.Timestamp⟩) ∧
      (i.reverse = true → ¬ MVCCKey.Less ⟨i.rangeKeysPos, v.Timestamp⟩ (I.UnsafeKey it))) ∧
    (i.atPoint = true →
      ∀ l : Int, l = (if i.reverse = true then i.rangeKeysIdx else i.rangeKeysIdx - 1) →
      (∀ v, 0 ≤ l → l < i.rangeKeysEnd → sliceIndex i.rangeKeys l = some v →
        ¬ (I.UnsafeKey it).Less ⟨i.rangeKeysPos, v.Timestamp⟩) ∧
      (∀ v, 0 ≤ l + 1 → l + 1 < i.rangeKeysEnd → sliceIndex i.rangeKeys (l + 1) = some v →
        ¬ MVCCKey.Less ⟨i.rangeKeysPos, v.Timestamp⟩ (I.UnsafeKey it))) := by
  cases i with
  | mk iter V pos idx en start atPoint reverse emit iterValid iterErr =>
    unfold WindowOK at hw
    simp only at hit hK hw ⊢
    subst hit
    obtain ⟨h0, hl⟩ := hw
    obtain ⟨e, rfl⟩ := Int.eq_ofNat_of_zero_le h0
    have hel : e ≤ V.length := by omega
    unfold assertRelativePosition at h
    cases reverse <;> cases atPoint
    · -- forward, off a point
      simp only [Bool.not_false, Bool.not_true, if_true, if_false, Bool.false_eq_true] at h ⊢
      obtain ⟨lo, hlo, hlo1, hlo2⟩ := bound_spec V pos idx e hel ⟨pos, 0⟩
      obtain ⟨hi, hhi, -, -⟩ := bound_spec V pos (-1) e hel ⟨0, 0⟩
      rw [hlo, hhi] at h
      simp only [Option.some.injEq] at h
      obtain ⟨h1, -⟩ := check_cases h
      have hlk : lo.Key = pos := by
        rcases hlo2 with rfl | h2
        · rfl
        · exact h2
      have hlo3 := guard_lo (by rw [hlk]; exact hK) h1
      refine ⟨fun _ => not_less_floor hlk hlo3, fun hf => absurd hf (by simp), ?_,
        fun hf => absurd hf (by simp)⟩
      intro _ v hv0 hv1 hv
      rw [← hlo1 v hv0 hv1 hv]
      exact ⟨fun _ => hlo3, fun hf => absurd hf (by simp)⟩
    · -- forward, on a point
      simp only [Bool.not_false, Bool.not_true, if_true, if_false, Bool.false_eq_true] at h ⊢
      obtain ⟨lo, hlo, hlo1, hlo2⟩ := bound_spec V pos (idx - 1) e hel ⟨pos, 0⟩
      obtain ⟨hi, hhi, hhi1, -⟩ := bound_spec V pos idx e hel ⟨0, 0⟩
      rw [hlo, hhi] at h
      simp only [Option.some.injEq] at h
      obtain ⟨h1, h2⟩ := check_cases h
      have hlk : lo.Key = pos := by
        rcases hlo2 with rfl | h2
        · rfl
        · exact h2
      have hlo3 := guard_lo (by rw [hlk]; exact hK) h1
      refine ⟨fun _ => not_less_floor hlk hlo3, fun hf => absurd hf (by simp),
        fun hf => absurd hf (by simp), ?_⟩
      intro _ l hl'
      subst hl'
      refine ⟨?_, ?_⟩
      · intro v hv0 hv1 hv
        rw [← hlo1 v hv0 hv1 hv]
        exact hlo3
      · intro v hv0 hv1 hv
        have hidx : idx - 1 + 1 = idx := by omega
        rw [hidx] at hv0 hv1 hv
        have hb := hhi1 v hv0 hv1 hv
        rw [hb] at h2
        exact guard_hi (b := ⟨pos, v.Timestamp⟩) hK h2
    · -- reverse, off a point
      simp only [Bool.not_false, Bool.not_true, if_true, if_false, Bool.false_eq_true] at h ⊢
      obtain ⟨lo, hlo, -, -⟩ := bound_spec V pos (-1) e hel ⟨0, 0⟩
      obtain ⟨hi, hhi, hhi1, hhi2⟩ := bound_spec V pos idx e hel ⟨pos, hlc.MinTimestamp⟩
      rw [hlo, hhi] at h
      simp only [Option.some.injEq] at h
      obtain ⟨-, h2⟩ := check_cases h
      have hhk : hi.Key = pos := by
        rcases hhi2 with rfl | h2
        · rfl
        · exact h2
      have hhi3 := guard_hi (by rw [hhk]; exact hK) h2
      refine ⟨fun hf => absurd hf (by simp), fun _ => not_less_ceil hhk hhi3, ?_,
        fun hf => absurd hf (by simp)⟩
      intro _ v hv0 hv1 hv
      rw [← hhi1 v hv0 hv1 hv]
      exact ⟨fun hf => absurd hf (by simp), fun _ => hhi3⟩
    · -- reverse, on a point
      simp only [Bool.not_false, Bool.not_true, if_true, if_false, Bool.false_eq_true] at h ⊢
      obtain ⟨lo, hlo, hlo1, -⟩ := bound_spec V pos idx e hel ⟨0, 0⟩
      obtain ⟨hi, hhi, hhi1, hhi2⟩ := bound_spec V pos (idx + 1) e hel ⟨pos, hlc.MinTimestamp⟩
      rw [hlo, hhi] at h
      simp only [Option.some.injEq] at h
      obtain ⟨h1, h2⟩ := check_cases h
      have hhk : hi.Key = pos := by
        rcases hhi2 with rfl | h2
        · rfl
        · exact h2
      have hhi3 := guard_hi (by rw [hhk]; exact hK) h2
      refine ⟨fun hf => absurd hf (by simp), fun _ => not_less_ceil hhk hhi3,
        fun hf => absurd hf (by simp), ?_⟩
      intro _ l hl'
      subst hl'
      refine ⟨?_, ?_⟩
      · intro v hv0 hv1 hv
        have hb := hlo1 v hv0 hv1 hv
        rw [hb] at h1
        exact guard_lo (b := ⟨pos, v.Timestamp⟩) hK h1
      · intro v hv0 hv1 hv
        rw [← hhi1 v hv0 hv1 hv]
        exact hhi3

/-- On track, the window is within the cached stack. -/
theorem tracked_window {D : Dataset} {st : DataIter} (h : Tracked D st) : WindowOK st := by
  unfold WindowOK
  rcases h with h | h | h | ⟨fk, x, (h | h) | (h | h)⟩
  · rw [h.endEq]; exact ⟨le_refl _, Int.ofNat_nonneg _⟩
  · rw [h.endEq]; exact ⟨le_refl _, Int.ofNat_nonneg _⟩
  · rw [h.endEq]; exact ⟨le_refl _, Int.ofNat_nonneg _⟩
  · cases hr : D.rangeAt x.Key with
    | none =>
      rw [(h.bare hr).2.2]; exact ⟨le_refl _, Int.ofNat_nonneg _⟩
    | some r =>
      obtain ⟨hc, -, e, he, hend⟩ := h.covered r hr
      have := D.window_le_length fk r x.Key
      have := hend.1
      rw [he, hc.rangeKeys]
      omega
  · obtain ⟨r, hr, hc, -, -, e, he, -, hend⟩ := h.covered
    have := D.window_le_length fk r x.Key
    have := hend.1
    rw [he, hc.rangeKeys]
    omega
  · cases hr : D.rangeAt x.Key with
    | none =>
      rw [(h.bare hr).2.2]; exact ⟨le_refl _, Int.ofNat_nonneg _⟩
    | some r =>
      obtain ⟨hc, -, e, he, -, hwin, -⟩ := h.covered r hr
      have := D.window_le_length fk r x.Key
      rw [he, hc.rangeKeys]
      omega
  · obtain ⟨r, hr, hc, -, -, e, he, -, hwin, -⟩ := h.covered
    have := D.window_le_length fk r x.Key
    rw [he, hc.rangeKeys]
    omega

/-- On track with range keys, the cached key is not empty. -/
theorem tracked_pos_ne {D : Dataset} (hwf : D.WF) {st : DataIter} (h : Tracked D st)
    (hne : st.rangeKeys ≠ []) : st.rangeKeysPos ≠ 0 := by
  rcases h with h | h | h | ⟨fk, x, (h | h) | (h | h)⟩
  · exact absurd h.cache.rangeKeys hne
  · exact absurd h.cache.rangeKeys hne
  · exact absurd h.cache.rangeKeys hne
  · cases hr : D.rangeAt x.Key with
    | none => exact absurd (h.bare hr).1.rangeKeys hne
    | some r =>
      rw [(h.covered r hr).1.pos]
      exact hwf.covered_key_ne hr
  · obtain ⟨r, hr, hc, -⟩ := h.covered
    rw [hc.pos]
    exact hwf.covered_key_ne hr
  · cases hr : D.rangeAt x.Key with
    | none => exact absurd (h.bare hr).1.rangeKeys hne
    | some r =>
      rw [(h.covered r hr).1.pos]
      exact hwf.covered_key_ne hr
  · obtain ⟨r, hr, hc, -⟩ := h.covered
    rw [hc.pos]
    exact hwf.covered_key_ne hr

/-! ## The synthetic cursor over a dataset -/

/-- On track, the wrapped iterator rests before the first position, after the
last one, or on a position of the dataset. -/
theorem tracked_position {D : Dataset} {st : DataIter} (h : Tracked D st) :
    ∃ c, st.iter = some c ∧ st.iterValid = c.isOn ∧ st.iterErr = none ∧
      ∀ q, c = DataCursor.onKey q → q ∈ D.positions := by
  have hnext : ∀ x q, D.nextPos x = DataCursor.onKey q → q ∈ D.positions := by
    intro x q hq
    rcases D.nextPos_cases x with ⟨h1, -⟩ | ⟨q', h1, h2, -⟩
    · rw [h1] at hq; cases hq
    · rw [h1] at hq; cases hq; exact h2
  have hprev : ∀ x q, D.prevPos x = DataCursor.onKey q → q ∈ D.positions := by
    intro x q hq
    rcases D.prevPos_cases x with ⟨h1, -⟩ | ⟨q', h1, h2, -⟩
    · rw [h1] at hq; cases hq
    · rw [h1] at hq; cases hq; exact h2
  rcases h with h | h | h | ⟨fk, x, (h | h) | (h | h)⟩
  · exact ⟨_, h.base.iter, h.base.iterValid, h.base.iterErr, fun q hq => by cases hq⟩
  · exact ⟨_, h.base.iter, h.base.iterValid, h.base.iterErr, fun q hq => by cases hq⟩
  · exact ⟨_, h.base.iter, h.base.iterValid, h.base.iterErr, fun q hq => by cases hq⟩
  · refine ⟨_, h.base.iter, h.base.iterValid, h.base.iterErr, fun q hq => ?_⟩
    cases hq
    exact Dataset.point_mem_positions h.point
  · exact ⟨_, h.base.iter, h.base.iterValid, h.base.iterErr, fun q hq => hnext x q hq⟩
  · refine ⟨_, h.base.iter, h.base.iterValid, h.base.iterErr, fun q hq => ?_⟩
    cases hq
    exact Dataset.point_mem_positions h.point
  · exact ⟨_, h.base.iter, h.base.iterValid, h.base.iterErr, fun q hq => hprev x q hq⟩

/-- The dataset iterator obeys its contract on the positions of the dataset: the
position has a point or a range; a range comes with a span start key and a
non-empty stack; a bare range position is at the start key of its span. -/
theorem Dataset.WF.position_contract {D : Dataset} (hwf : D.WF) {q : MVCCKey}
    (hq : q ∈ D.positions) :
    (((dataIter D).HasPointAndRange (DataCursor.onKey q)).1 = true ∨
        ((dataIter D).HasPointAndRange (DataCursor.onKey q)).2 = true) ∧
      (((dataIter D).HasPointAndRange (DataCursor.onKey q)).2 = true →
        ((dataIter D).RangeBounds (DataCursor.onKey q)).Key ≠ 0 ∧
        ((dataIter D).RangeKeys (DataCursor.onKey q)).Versions ≠ [] ∧
        (((dataIter D).HasPointAndRange (DataCursor.onKey q)).1 = false →
          ((dataIter D).UnsafeKey (DataCursor.onKey q)).Key =
            ((dataIter D).RangeBounds (DataCursor.onKey q)).Key)) := by
  rw [dataIter_HasPointAndRange_on, dataIter_UnsafeKey_on]
  simp only
  constructor
  · cases hr : D.rangeAt q.Key with
    | none => exact Or.inl (hwf.position_point_or_range hq hr)
    | some r => exact Or.inr rfl
  · intro hr
    cases hra : D.rangeAt q.Key with
    | none => rw [hra] at hr; cases hr
    | some r =>
      have hmem := (Dataset.rangeAt_some hra).1
      have hok := hwf.range_ok hmem
      rw [dataIter_RangeBounds_on hra, dataIter_RangeKeys_on hra]
      refine ⟨hok.1, hok.2.2.1, fun hp => ?_⟩
      have := hwf.bare_position hq hp hra
      rw [this]

/-- On track, off a point and not exhausted, the cursor is inside the window; and
with no range keys and a valid iterator the adapter is on a point. -/
theorem tracked_cursor {D : Dataset} {st : DataIter} (h : Tracked D st) :
    (st.atPoint = false → (st.iterValid = true ∨ st.rangeKeys ≠ []) →
        0 ≤ st.rangeKeysIdx ∧ st.rangeKeysIdx < st.rangeKeysEnd) ∧
      (st.rangeKeys = [] → st.iterValid = true → st.atPoint = true) := by
  rcases h with h | h | h | ⟨fk, x, (h | h) | (h | h)⟩
  · have hv : st.iterValid = false := h.base.iterValid
    refine ⟨fun _ hc => ?_, fun _ hv' => ?_⟩
    · rcases hc with hc | hc
      · rw [hv] at hc; cases hc
      · exact absurd h.cache.rangeKeys hc
    · rw [hv] at hv'; cases hv'
  · have hv : st.iterValid = false := h.base.iterValid
    refine ⟨fun _ hc => ?_, fun _ hv' => ?_⟩
    · rcases hc with hc | hc
      · rw [hv] at hc; cases hc
      · exact absurd h.cache.rangeKeys hc
    · rw [hv] at hv'; cases hv'
  · have hv : st.iterValid = false := h.base.iterValid
    refine ⟨fun _ hc => ?_, fun _ hv' => ?_⟩
    · rcases hc with hc | hc
      · rw [hv] at hc; cases hc
      · exact absurd h.cache.rangeKeys hc
    · rw [hv] at hv'; cases hv'
  · refine ⟨fun hat _ => ?_, fun _ _ => h.atPoint⟩
    rw [h.atPoint] at hat; cases hat
  · obtain ⟨r, -, hc, hidx, ⟨v, hv, -⟩, e, he, hlt, -⟩ := h.covered
    refine ⟨fun _ _ => ?_, fun hnil _ => ?_⟩
    · rw [hidx, he]
      exact ⟨Int.ofNat_nonneg _, by exact_mod_cast hlt⟩
    · rw [hc.rangeKeys] at hnil
      rw [hnil] at hv
      simp at hv
  · refine ⟨fun hat _ => ?_, fun _ _ => h.atPoint⟩
    rw [h.atPoint] at hat; cases hat
  · obtain ⟨r, -, hc, hidx, ⟨v, hv, -⟩, e, he, hlt, -⟩ := h.covered
    refine ⟨fun _ _ => ?_, fun hnil _ => ?_⟩
    · rw [hidx, he]
      exact ⟨Int.ofNat_nonneg _, by exact_mod_cast hlt⟩
    · rw [hc.rangeKeys] at hnil
      rw [hnil] at hv
      simp at hv

/-! ## Arriving at the start key of a span -/

/-- A valid adapter on track is positioned on an exposed key, the key it
reports. -/
theorem tracked_at {D : Dataset} {st : DataIter} (h : Tracked D st)
    (hvalid : (Valid st).1 = true) :
    ∃ f x, (FwdAt D f st x ∨ RevAt D f st x) ∧ UnsafeKey (dataIter D) st = some x := by
  rcases h with h | h | h | ⟨fk, x, h | h⟩
  · rw [fresh_valid h] at hvalid; cases hvalid
  · rw [fwdDone_valid h] at hvalid; cases hvalid
  · rw [revDone_valid h] at hvalid; cases hvalid
  · exact ⟨fk, x, Or.inl h, fwdAt_key h⟩
  · exact ⟨fk, x, Or.inr h, revAt_key h⟩

/-- An adapter that lands, after a key before the span of `r`, on the start key
of `r`: the window is the whole stack and the forward steps from there expose
every version of the stack, in MVCC order. -/
theorem landed_span_start {D : Dataset} (hwf : D.WF) {f : Nat} {st : DataIter} {x0 y : MVCCKey}
    {r : RangeKV} (hr : r ∈ D.ranges) (hland : LandsAfter D f st x0) (hx : x0.Key < r.start)
    (hvalid : (Valid st).1 = true) (hkey : UnsafeKey (dataIter D) st = some y)
    (hy : y.Key = r.start) :
    st.rangeKeysEnd = (r.versions.length : Int) ∧
      ∃ n out, scanLoop (dataIter D) (Next (dataIter D)) n st = some out ∧
        (out.map Prod.fst).Pairwise MVCCKey.Less ∧
        ∀ v ∈ r.versions, ((⟨r.start, v.Timestamp⟩, v.Value) : MVCCKey × Value) ∈ out := by
  have hra := hwf.rangeAt_start hr
  rcases hland with ⟨hd, -⟩ | ⟨y', hy', hlt, hmin⟩
  · rw [fwdDone_valid hd] at hvalid; cases hvalid
  · have : y' = y := by
      have := fwdAt_key hy'
      rw [hkey] at this
      exact (Option.some.inj this).symm
    subst this
    refine ⟨fwdAt_end_full hwf hy' (by rw [hy]; exact hra) (Or.inl hy), ?_⟩
    obtain ⟨L, hL⟩ := D.exposed_finite f
    obtain ⟨out, hout, hsorted, hmem⟩ := scan_fwdAt hwf L hL _ st y' hy' (le_refl _)
    refine ⟨_, out, hout, hsorted, fun v hv => ?_⟩
    rw [hmem]
    have hexp : D.isExposed f ⟨r.start, v.Timestamp⟩ := Dataset.isExposed_full hra hv (Or.inl rfl)
    refine ⟨hexp, hmin _ hexp ?_, (hwf.valueOf_syn hra hv).symm⟩
    unfold MVCCKey.Less
    exact Or.inl hx

/-- `Next` from a valid adapter on track, on a key before the span of `r`: it
returns, and if it lands on the start key of `r` the window is the whole stack
and the forward steps expose every version. -/
theorem next_span_start {D : Dataset} (hwf : D.WF) {st : DataIter} (h : Tracked D st)
    (hvalid : (Valid st).1 = true) {x : MVCCKey} (hkey : UnsafeKey (dataIter D) st = some x)
    {r : RangeKV} (hr : r ∈ D.ranges) (hx : x.Key < r.start) :
    ∃ s1, Next (dataIter D) st = some s1 ∧
      ∀ y, (Valid s1).1 = true → UnsafeKey (dataIter D) s1 = some y → y.Key = r.start →
        s1.rangeKeysEnd = (r.versions.length : Int) ∧
        ∃ n out, scanLoop (dataIter D) (Next (dataIter D)) n s1 = some out ∧
          (out.map Prod.fst).Pairwise MVCCKey.Less ∧
          ∀ v ∈ r.versions, ((⟨r.start, v.Timestamp⟩, v.Value) : MVCCKey × Value) ∈ out := by
  obtain ⟨f, z, hat, hk⟩ := tracked_at h hvalid
  rw [hkey] at hk
  cases hk
  obtain ⟨s1, f', h1, h2⟩ := at_next hwf hat
  exact ⟨s1, h1, fun y hv hy hys => landed_span_start hwf hr h2 hx hv hy hys⟩

/-- `NextKey` from a valid adapter on track, on a key before the span of `r`: as
for `Next`. -/
theorem nextKey_span_start {D : Dataset} (hwf : D.WF) {st : DataIter} (h : Tracked D st)
    (hvalid : (Valid st).1 = true) {x : MVCCKey} (hkey : UnsafeKey (dataIter D) st = some x)
    {r : RangeKV} (hr : r ∈ D.ranges) (hx : x.Key < r.start) :
    ∃ s1, NextKey (dataIter D) st = some s1 ∧
      ∀ y, (Valid s1).1 = true → UnsafeKey (dataIter D) s1 = some y → y.Key = r.start →
        s1.rangeKeysEnd = (r.versions.length : Int) ∧
        ∃ n out, scanLoop (dataIter D) (Next (dataIter D)) n s1 = some out ∧
          (out.map Prod.fst).Pairwise MVCCKey.Less ∧
          ∀ v ∈ r.versions, ((⟨r.start, v.Timestamp⟩, v.Value) : MVCCKey × Value) ∈ out := by
  obtain ⟨f, z, hat, hk⟩ := tracked_at h hvalid
  rw [hkey] at hk
  cases hk
  obtain ⟨s1, h1, h2⟩ := at_nextKey hwf hat
  exact ⟨s1, h1, fun y hv hy hys =>
    landed_span_start hwf hr h2 hx hv hy hys⟩

/-- `SeekGE` that leaves the adapter valid on the start key of the span of `r`
leaves the whole stack in the window. -/
theorem seekGE_span_start {D : Dataset} (hwf : D.WF) {st : DataIter} (hst : Ready D st)
    {r : RangeKV} (hr : r ∈ D.ranges) (k : MVCCKey) {s0 : DataIter} {y : MVCCKey}
    (hseek : SeekGE (dataIter D) k st = some s0) (hvalid : (Valid s0).1 = true)
    (hkey : UnsafeKey (dataIter D) s0 = some y) (hy : y.Key = r.start) :
    s0.rangeKeysEnd = (r.versions.length : Int) := by
  obtain ⟨s0', hseek', hland⟩ := seekGE_lands hwf hst k
  rw [hseek] at hseek'
  cases hseek'
  rcases hland with ⟨hd, -⟩ | ⟨y', hy', -, -⟩
  · rw [fwdDone_valid hd] at hvalid; cases hvalid
  · have : y' = y := by
      have := fwdAt_key hy'
      rw [hkey] at this
      exact (Option.some.inj this).symm
    subst this
    exact fwdAt_end_full hwf hy' (by rw [hy]; exact hwf.rangeAt_start hr) (Or.inl hy)

/-! ## Every positioning operation is a sequence of steps -/

section Walk

variable {σ : Type}

theorem moves_refl (I : MVCCIterator σ) (b : Bool) (i : pointSynthesizingIter σ) :
    Moves I b i i :=
  Relation.ReflTransGen.refl

theorem moves_trans {I : MVCCIterator σ} {b : Bool} {x y z : pointSynthesizingIter σ}
    (h1 : Moves I b x y) (h2 : Moves I b y z) : Moves I b x z :=
  Relation.ReflTransGen.trans h1 h2

/-- A change of the cursor, the window, the direction or `atPoint`. -/
theorem moves_frame {I : MVCCIterator σ} {b : Bool} {i s : pointSynthesizingIter σ}
    (h1 : s.iter = i.iter) (h2 : s.iterValid = i.iterValid) (h3 : s.iterErr = i.iterErr)
    (h4 : s.rangeKeys = i.rangeKeys) (h5 : s.rangeKeysPos = i.rangeKeysPos)
    (h6 : s.rangeKeysStart = i.rangeKeysStart) : Moves I b i s :=
  Relation.ReflTransGen.single (Or.inl ⟨h1, h2, h3, h4, h5, h6⟩)

/-- A call of the wrapped iterator followed by `updateValid`. -/
theorem updateValid_moves {I : MVCCIterator σ} {b : Bool} {i j s : pointSynthesizingIter σ}
    {it c : σ} (h : updateValid I j = some s) (hit : i.iter = some it)
    (hj : j.iter = some c)
    (h4 : j.rangeKeys = i.rangeKeys) (h5 : j.rangeKeysPos = i.rangeKeysPos)
    (h6 : j.rangeKeysStart = i.rangeKeysStart)
    (hc : c = I.Next it ∨ c = I.Prev it ∨ c = I.NextKey it ∨ b = true) : Moves I b i s := by
  unfold updateValid at h
  rw [hj] at h
  simp only [Option.some.injEq] at h
  subst h
  exact Relation.ReflTransGen.single
    (Or.inr (Or.inl ⟨it, c, hit, hc, rfl, rfl, rfl, h4, h5, h6⟩))

theorem iterNext_moves {I : MVCCIterator σ} {b : Bool} {i s : pointSynthesizingIter σ}
    (h : iterNext I i = some s) : Moves I b i s := by
  unfold iterNext at h
  split at h
  · cases h
  · rename_i it hit
    exact updateValid_moves h hit rfl rfl rfl rfl (Or.inl rfl)

theorem iterPrev_moves {I : MVCCIterator σ} {b : Bool} {i s : pointSynthesizingIter σ}
    (h : iterPrev I i = some s) : Moves I b i s := by
  unfold iterPrev at h
  split at h
  · cases h
  · rename_i it hit
    exact updateValid_moves h hit rfl rfl rfl rfl (Or.inr (Or.inl rfl))

theorem clearRangeKeys_moves (I : MVCCIterator σ) (b : Bool) (i : pointSynthesizingIter σ) :
    Moves I b i (clearRangeKeys i) := by
  obtain ⟨h1, -, -, h4, h5, -, -, h8, h9, -, h11⟩ := clearRangeKeys_fields i
  by_cases hl : i.rangeKeys.length = 0
  · rw [if_pos hl] at h4 h5
    exact moves_frame h11 h8 h9 (by rw [h1, List.length_eq_zero.1 hl]) h4 h5
  · rw [if_neg hl] at h4 h5
    exact Relation.ReflTransGen.single (Or.inr (Or.inr (Or.inl ⟨h11, h8, h9, h1, h4, h5⟩)))

theorem clear_atPoint_moves (I : MVCCIterator σ) (b : Bool) (i : pointSynthesizingIter σ)
    (a : Bool) : Moves I b i (clearRangeKeys { i with atPoint := a }) :=
  moves_trans (moves_frame rfl rfl rfl rfl rfl rfl : Moves I b i { i with atPoint := a })
    (clearRangeKeys_moves I b _)

theorem extend_moves {I : MVCCIterator σ} {b : Bool} {i s : pointSynthesizingIter σ}
    (h : extendRangeKeysEnd I i = some s) : Moves I b i s := by
  obtain ⟨e, rfl, -, -⟩ := extend_of_some h
  exact moves_frame rfl rfl rfl rfl rfl rfl

theorem updateAtPoint_moves {I : MVCCIterator σ} {b : Bool} {i s : pointSynthesizingIter σ}
    (h : updateAtPoint I i = some s) : Moves I b i s := by
  obtain ⟨hs, -⟩ := updateAtPoint_of_some h
  rw [hs]
  exact moves_frame rfl rfl rfl rfl rfl rfl

theorem updateRangeKeys_moves {I : MVCCIterator σ} {b : Bool} {i s : pointSynthesizingIter σ}
    (h : updateRangeKeys I i = some s) : Moves I b i s := by
  cases hit : i.iter with
  | none =>
    unfold updateRangeKeys at h
    rw [hit] at h
    by_cases hv : i.iterValid = true
    · simp [hv] at h
    · simp only [hv, Bool.not_false, Bool.false_eq_true, not_false_eq_true, if_true,
        Option.some.injEq] at h
      subst h
      exact clearRangeKeys_moves I b i
  | some it =>
    by_cases hc : i.iterValid = true ∧ (I.HasPointAndRange it).2 = true
    · obtain ⟨e, -, hs⟩ := updateRangeKeys_spec hit hc.1 hc.2
      rw [hs] at h
      cases h
      exact Relation.ReflTransGen.single
        (Or.inr (Or.inr (Or.inr ⟨it, hit, hc.1, hc.2, rfl, rfl, rfl, rfl, rfl, rfl⟩)))
    · rw [updateRangeKeys_none hit (by
        by_cases hv : i.iterValid = true
        · right
          cases hr : (I.HasPointAndRange it).2
          · rfl
          · exact absurd ⟨hv, hr⟩ hc
        · left; simpa using hv)] at h
      cases h
      exact clearRangeKeys_moves I b i

theorem steppedPrev_moves {I : MVCCIterator σ} {b : Bool} {i i1 : pointSynthesizingIter σ}
    {c d : Bool}
    (h : (if c = true then
        match iterPrev I i with
        | none => none
        | some i1 => some (i1, decide (i1.iterErr ≠ none))
      else some (i, false)) = some (i1, d)) :
    Moves I b i i1 := by
  split at h
  · split at h
    · cases h
    · rename_i i2 h2
      simp only [Option.some.injEq, Prod.mk.injEq] at h
      obtain ⟨rfl, -⟩ := h
      exact iterPrev_moves h2
  · simp only [Option.some.injEq, Prod.mk.injEq] at h
    obtain ⟨rfl, -⟩ := h
    exact moves_refl I b i

theorem updatePosition_moves {I : MVCCIterator σ} {b : Bool} {i s : pointSynthesizingIter σ}
    (h : updatePosition I i = some s) : Moves I b i s := by
  unfold updatePosition at h
  split at h
  · injection h with h; subst h
    exact clear_atPoint_moves I b i _
  · split at h
    · cases h
    · rename_i it hit
      simp only at h
      split at h
      · injection h with h; subst h
        exact clear_atPoint_moves I b i _
      · split at h
        · split at h
          · cases h
          · rename_i i1 h1
            have e1 : Moves I b i i1 := updateRangeKeys_moves h1
            split at h
            · split at h
              · cases h
              · rename_i i2 h2
                have e2 : Moves I b i1 i2 := iterNext_moves h2
                split at h
                · injection h with h; subst h
                  exact moves_trans e1 e2
                · split at h
                  · cases h
                  · rename_i i3 h3
                    exact moves_trans e1 (moves_trans e2 (moves_trans (extend_moves h3)
                      (updateAtPoint_moves h)))
            · exact moves_trans e1 (updateAtPoint_moves h)
        · split at h
          · cases h
          · rename_i i1 hst
            injection h with h; subst h
            exact steppedPrev_moves hst
          · rename_i i1 hst
            have e1 : Moves I b i i1 := steppedPrev_moves hst
            split at h
            · cases h
            · rename_i i2 h2
              exact moves_trans e1 (moves_trans (updateRangeKeys_moves h2)
                (updateAtPoint_moves h))

theorem finishFwd_moves {I : MVCCIterator σ} {b : Bool} {i s : pointSynthesizingIter σ}
    (h : finishFwd I i = some s) : Moves I b i s := by
  unfold finishFwd at h
  split at h
  · cases h
  · rename_i i2 h2
    have e2 : Moves I b i i2 := updateAtPoint_moves h2
    split at h
    · exact moves_trans e2 (updatePosition_moves h)
    · injection h with h; subst h
      exact e2

theorem seekWindow_moves (I : MVCCIterator σ) (b c : Bool) (i : pointSynthesizingIter σ) :
    Moves I b i (seekWindow c i) := by
  unfold seekWindow
  split
  · exact moves_frame rfl rfl rfl rfl rfl rfl
  · exact moves_refl I b i

theorem seekCursor_moves {I : MVCCIterator σ} {b : Bool} {k : MVCCKey}
    {i s : pointSynthesizingIter σ} (h : seekCursor k i = some s) : Moves I b i s := by
  unfold seekCursor at h
  split at h
  · rw [Option.map_eq_some'] at h
    obtain ⟨n, -, hn⟩ := h
    rw [← hn]
    exact moves_frame rfl rfl rfl rfl rfl rfl
  · injection h with h; subst h
    exact moves_refl I b i

theorem seekLTCursor_moves {I : MVCCIterator σ} {b : Bool} {k : MVCCKey}
    {i s : pointSynthesizingIter σ} (h : seekLTCursor k i = some s) : Moves I b i s := by
  unfold seekLTCursor at h
  split at h
  · rw [Option.map_eq_some'] at h
    obtain ⟨n, -, hn⟩ := h
    rw [← hn]
    exact moves_frame rfl rfl rfl rfl rfl rfl
  · injection h with h; subst h
    exact moves_refl I b i

theorem steppedNext_moves {I : MVCCIterator σ} {b : Bool} {i i1 i0 : pointSynthesizingIter σ}
    {c d : Bool} (h0 : Moves I b i i0)
    (h : (if c = true then
        match iterNext I i with
        | none => none
        | some i2 =>
          if i2.iterErr ≠ none then some (i2, true)
          else (extendRangeKeysEnd I i2).map (fun i3 => (i3, false))
      else some (i0, false)) = some (i1, d)) :
    Moves I b i i1 := by
  split at h
  · split at h
    · cases h
    · rename_i i2 h2
      have e2 : Moves I b i i2 := iterNext_moves h2
      split at h
      · simp only [Option.some.injEq, Prod.mk.injEq] at h
        obtain ⟨rfl, -⟩ := h
        exact e2
      · rw [Option.map_eq_some'] at h
        obtain ⟨i3, h3, hp⟩ := h
        simp only [Prod.mk.injEq] at hp
        obtain ⟨rfl, -⟩ := hp
        exact moves_trans e2 (extend_moves h3)
  · simp only [Option.some.injEq, Prod.mk.injEq] at h
    obtain ⟨rfl, -⟩ := h
    exact h0

theorem tail_moves {I : MVCCIterator σ} {b : Bool} {k : MVCCKey} {hp hr : Bool}
    {i s : pointSynthesizingIter σ}
    (h : updateSeekGEPositionTail I k hp hr i = some s) : Moves I b i s := by
  unfold updateSeekGEPositionTail at h
  split at h
  · cases h
  · rename_i i1 h1
    have e1 : Moves I b i i1 := updateRangeKeys_moves h1
    simp only at h
    split at h
    · cases h
    · rename_i i2 hst
      have e2 : Moves I b i1 i2 := steppedNext_moves (moves_refl I b i1) hst
      injection h with h; subst h
      exact moves_trans e1 e2
    · rename_i i2 hst
      have e2 : Moves I b i1 i2 := steppedNext_moves (moves_refl I b i1) hst
      split at h
      · cases h
      · rename_i i5 h5
        exact moves_trans e1 (moves_trans e2 (moves_trans (seekWindow_moves I b hr i2)
          (moves_trans (seekCursor_moves h5) (finishFwd_moves h))))

theorem updateSeekGEPosition_moves {I : MVCCIterator σ} {b : Bool} {k : MVCCKey}
    {i s : pointSynthesizingIter σ}
    (h : updateSeekGEPosition I k i = some s) : Moves I b i s := by
  unfold updateSeekGEPosition at h
  split at h
  · cases h
  · rename_i it hit
    simp only at h
    split at h
    · injection h with h; subst h
      exact clear_atPoint_moves I b i _
    · split at h
      · split at h
        · cases h
        · rename_i i1 h1
          have e1 : Moves I b i i1 := iterNext_moves h1
          split at h
          · exact moves_trans e1 (updatePosition_moves h)
          · split at h
            · cases h
            · exact moves_trans e1 (tail_moves h)
      · exact tail_moves h

theorem seekGE_moves {I : MVCCIterator σ} {k : MVCCKey} {i s : pointSynthesizingIter σ}
    (h : SeekGE I k i = some s) : Moves I true i s := by
  unfold SeekGE at h
  split at h
  · cases h
  · rename_i it hit
    split at h
    · cases h
    · rename_i i1 h1
      have e1 : Moves I true i i1 :=
        updateValid_moves h1 hit rfl rfl rfl rfl (Or.inr (Or.inr (Or.inr rfl)))
      split at h
      · exact moves_trans e1 (updatePosition_moves h)
      · exact moves_trans e1 (updateSeekGEPosition_moves h)

theorem seekIntentGE_moves {I : MVCCIterator σ} {k : Nat} {u : uuid.UUID}
    {i s : pointSynthesizingIter σ} (h : SeekIntentGE I k u i = some s) :
    Moves I true i s := by
  unfold SeekIntentGE at h
  split at h
  · cases h
  · rename_i it hit
    split at h
    · cases h
    · rename_i i1 h1
      have e1 : Moves I true i i1 :=
        updateValid_moves h1 hit rfl rfl rfl rfl (Or.inr (Or.inr (Or.inr rfl)))
      split at h
      · exact moves_trans e1 (updatePosition_moves h)
      · exact moves_trans e1 (updateSeekGEPosition_moves h)

theorem nextStep_moves {I : MVCCIterator σ} {b : Bool} {i s : pointSynthesizingIter σ}
    (h : nextStep I i = some s) : Moves I b i s := by
  unfold nextStep at h
  simp only at h
  split at h
  · cases h
  · rename_i i1 hst
    have e1 : Moves I b i i1 := steppedNext_moves (i := i)
      (moves_frame rfl rfl rfl rfl rfl rfl :
        Moves I b i { i with rangeKeysIdx := i.rangeKeysIdx + 1 }) hst
    injection h with h; subst h
    exact e1
  · rename_i i1 hst
    have e1 : Moves I b i i1 := steppedNext_moves (i := i)
      (moves_frame rfl rfl rfl rfl rfl rfl :
        Moves I b i { i with rangeKeysIdx := i.rangeKeysIdx + 1 }) hst
    exact moves_trans e1 (finishFwd_moves h)

theorem next_moves {I : MVCCIterator σ} {b : Bool} {i s : pointSynthesizingIter σ}
    (h : Next I i = some s) : Moves I b i s := by
  have k0 : Moves I b i { i with reverse := false } := moves_frame rfl rfl rfl rfl rfl rfl
  unfold Next at h
  split at h
  · simp only at h
    split at h
    · split at h
      · cases h
      · rename_i i1 h1
        have e1 : Moves I b i i1 := moves_trans k0 (iterNext_moves h1)
        split at h
        · injection h with h; subst h
          exact e1
        · exact moves_trans e1 (updatePosition_moves h)
    · split at h
      · have e2 := nextStep_moves (b := b) h
        refine moves_trans ?_ e2
        exact moves_frame rfl rfl rfl rfl rfl rfl
      · split at h
        · cases h
        · rename_i i1 h1
          have e1 : Moves I b i i1 := moves_trans k0 (iterNext_moves h1)
          split at h
          · injection h with h; subst h
            exact e1
          · exact moves_trans e1 (nextStep_moves h)
  · exact nextStep_moves h

theorem nextKey_moves {I : MVCCIterator σ} {b : Bool} {i s : pointSynthesizingIter σ}
    (h : NextKey I i = some s) : Moves I b i s := by
  unfold NextKey at h
  simp only at h
  have tailK : ∀ {i1 : pointSynthesizingIter σ}, Moves I b i i1 →
      (match i1.iter with
        | none => none
        | some it =>
          if (i1.atPoint || roachpb.Key.Equal i1.rangeKeysPos (I.UnsafeKey it).Key) = true then
            match updateValid I { i1 with iter := some (I.NextKey it) } with
            | none => none
            | some i2 => if i2.iterErr ≠ none then some i2 else updatePosition I i2
          else updatePosition I i1) = some s → Moves I b i s := by
    intro i1 e1 h
    split at h
    · cases h
    · rename_i it hit
      split at h
      · split at h
        · cases h
        · rename_i i2 h2
          have e2 : Moves I b i1 i2 :=
            updateValid_moves h2 hit rfl rfl rfl rfl (Or.inr (Or.inr (Or.inl rfl)))
          split at h
          · injection h with h; subst h
            exact moves_trans e1 e2
          · exact moves_trans e1 (moves_trans e2 (updatePosition_moves h))
      · exact moves_trans e1 (updatePosition_moves h)
  split at h
  · cases h
  · rename_i i1 hst
    injection h with h; subst h
    split at hst
    · split at hst
      · split at hst
        · cases hst
        · rename_i i2 h2
          simp only [Option.some.injEq, Prod.mk.injEq] at hst
          obtain ⟨rfl, -⟩ := hst
          exact moves_trans
            (moves_frame rfl rfl rfl rfl rfl rfl : Moves I b i { i with reverse := false })
            (iterNext_moves h2)
      · simp at hst
    · simp at hst
  · rename_i i1 hst
    refine tailK ?_ h
    split at hst
    · split at hst
      · split at hst
        · cases hst
        · rename_i i2 h2
          simp only [Option.some.injEq, Prod.mk.injEq] at hst
          obtain ⟨rfl, -⟩ := hst
          exact moves_trans
            (moves_frame rfl rfl rfl rfl rfl rfl : Moves I b i { i with reverse := false })
            (iterNext_moves h2)
      · simp only [Option.some.injEq, Prod.mk.injEq] at hst
        obtain ⟨rfl, -⟩ := hst
        exact moves_frame rfl rfl rfl rfl rfl rfl
    · simp only [Option.some.injEq, Prod.mk.injEq] at hst
      obtain ⟨rfl, -⟩ := hst
      exact moves_refl I b i

theorem seekLTTail_moves {I : MVCCIterator σ} {b : Bool} {k : MVCCKey}
    {i s : pointSynthesizingIter σ} (h : seekLTTail I k i = some s) : Moves I b i s := by
  unfold seekLTTail at h
  split at h
  · cases h
  · rename_i i2 h2
    have e2 : Moves I b i i2 := seekLTCursor_moves h2
    split at h
    · cases h
    · rename_i i3 h3
      have e3 : Moves I b i2 i3 := updateAtPoint_moves h3
      split at h
      · exact moves_trans e2 (moves_trans e3 (updatePosition_moves h))
      · injection h with h; subst h
        exact moves_trans e2 e3

theorem seekLT_moves {I : MVCCIterator σ} {k : MVCCKey} {i s : pointSynthesizingIter σ}
    (h : SeekLT I k i = some s) : Moves I true i s := by
  unfold SeekLT at h
  split at h
  · cases h
  · rename_i it hit
    split at h
    · cases h
    · rename_i i1 h1
      have e1 : Moves I true i i1 :=
        updateValid_moves h1 hit rfl rfl rfl rfl (Or.inr (Or.inr (Or.inr rfl)))
      refine moves_trans e1 ?_
      split at h
      · exact updatePosition_moves h
      · split at h
        · cases h
        · rename_i it1 hit1
          simp only at h
          split at h
          · injection h with h; subst h
            exact clear_atPoint_moves I true i1 _
          · split at h
            · split at h
              · cases h
              · rename_i i2 h2
                have e2 : Moves I true i1 i2 := iterNext_moves h2
                split at h
                · injection h with h; subst h
                  exact e2
                · split at h
                  · cases h
                  · rename_i i3 positioned hpk
                    have e3 : Moves I true i2 i3 := by
                      split at hpk
                      · split at hpk
                        · cases hpk
                        · split at hpk
                          · rw [Option.map_eq_some'] at hpk
                            obtain ⟨i3', h3', hp⟩ := hpk
                            simp only [Prod.mk.injEq] at hp
                            obtain ⟨rfl, -⟩ := hp
                            exact updateRangeKeys_moves h3'
                          · simp only [Option.some.injEq, Prod.mk.injEq] at hpk
                            obtain ⟨rfl, -⟩ := hpk
                            exact moves_refl I true i2
                      · simp only [Option.some.injEq, Prod.mk.injEq] at hpk
                        obtain ⟨rfl, -⟩ := hpk
                        exact moves_refl I true i2
                    split at h
                    · cases h
                    · rename_i i4 h4
                      have e4 : Moves I true i1 i4 :=
                        moves_trans e2 (moves_trans e3 (iterPrev_moves h4))
                      split at h
                      · exact moves_trans e4 (updatePosition_moves h)
                      · split at h
                        · exact moves_trans e4 (seekLTTail_moves h)
                        · split at h
                          · cases h
                          · rename_i i5 h5
                            exact moves_trans e4 (moves_trans (updateRangeKeys_moves h5)
                              (seekLTTail_moves h))
            · split at h
              · cases h
              · rename_i i2 h2
                exact moves_trans (updateRangeKeys_moves h2) (seekLTTail_moves h)

theorem finishRev_moves {I : MVCCIterator σ} {b : Bool} {i s : pointSynthesizingIter σ}
    (h : finishRev I i = some s) : Moves I b i s := by
  unfold finishRev at h
  split at h
  · cases h
  · rename_i i2 h2
    have e2 : Moves I b i i2 := updateAtPoint_moves h2
    split at h
    · split at h
      · exact moves_trans e2 (updatePosition_moves h)
      · split at h
        · cases h
        · split at h
          · exact moves_trans e2 (updatePosition_moves h)
          · injection h with h; subst h
            exact e2
    · injection h with h; subst h
      exact e2

theorem prevStep_moves {I : MVCCIterator σ} {b : Bool} {i s : pointSynthesizingIter σ}
    (h : prevStep I i = some s) : Moves I b i s := by
  unfold prevStep at h
  simp only at h
  split at h
  · cases h
  · rename_i i1 hst
    injection h with h; subst h
    split at hst
    · split at hst
      · cases hst
      · rename_i i2 h2
        simp only [Option.some.injEq, Prod.mk.injEq] at hst
        obtain ⟨rfl, -⟩ := hst
        exact iterPrev_moves h2
    · simp at hst
  · rename_i i1 hst
    have e1 : Moves I b i i1 := by
      split at hst
      · split at hst
        · cases hst
        · rename_i i2 h2
          simp only [Option.some.injEq, Prod.mk.injEq] at hst
          obtain ⟨rfl, -⟩ := hst
          exact iterPrev_moves h2
      · simp only [Option.some.injEq, Prod.mk.injEq] at hst
        obtain ⟨rfl, -⟩ := hst
        exact moves_frame rfl rfl rfl rfl rfl rfl
    exact moves_trans e1 (finishRev_moves h)

theorem prev_moves {I : MVCCIterator σ} {b : Bool} {i s : pointSynthesizingIter σ}
    (h : Prev I i = some s) : Moves I b i s := by
  have k0 : Moves I b i { i with reverse := true } := moves_frame rfl rfl rfl rfl rfl rfl
  unfold Prev at h
  split at h
  · simp only at h
    split at h
    · split at h
      · cases h
      · rename_i i1 h1
        have e1 : Moves I b i i1 := moves_trans k0 (iterPrev_moves h1)
        split at h
        · injection h with h; subst h
          exact e1
        · exact moves_trans e1 (updatePosition_moves h)
    · split at h
      · have e2 := prevStep_moves (b := b) h
        refine moves_trans ?_ e2
        exact moves_frame rfl rfl rfl rfl rfl rfl
      · split at h
        · cases h
        · rename_i i1 h1
          have e1 : Moves I b i i1 := moves_trans k0 (iterPrev_moves h1)
          split at h
          · injection h with h; subst h
            exact e1
          · exact moves_trans e1 (prevStep_moves h)
  · exact prevStep_moves h

/-- Every public positioning call is a sequence of steps. -/
theorem apply_moves {I : MVCCIterator σ} {op : PosOp} {i s : pointSynthesizingIter σ}
    (h : op.apply I i = some s) : Moves I true i s := by
  cases op with
  | seekGE k => exact seekGE_moves h
  | seekIntentGE k u => exact seekIntentGE_moves h
  | seekLT k => exact seekLT_moves h
  | next => exact next_moves h
  | nextKey => exact nextKey_moves h
  | prev => exact prev_moves h

/-- `Next`, `NextKey` and `Prev` are sequences of steps without a seek. -/
theorem apply_moves_step {I : MVCCIterator σ} {op : PosOp} {i s : pointSynthesizingIter σ}
    (hop : op.isSeek = false) (h : op.apply I i = some s) : Moves I false i s := by
  cases op with
  | seekGE k => cases hop
  | seekIntentGE k u => cases hop
  | seekLT k => cases hop
  | next => exact next_moves h
  | nextKey => exact nextKey_moves h
  | prev => exact prev_moves h

theorem run_moves {I : MVCCIterator σ} {ops : List PosOp} {i s : pointSynthesizingIter σ}
    (h : PosOp.run I ops i = some s) : Moves I true i s := by
  induction ops generalizing i with
  | nil =>
    unfold PosOp.run at h
    injection h with h; subst h
    exact moves_refl I true i
  | cons op ops ih =>
    obtain ⟨m, h1, h2⟩ := run_cons h
    exact moves_trans (apply_moves h1) (ih h2)

/-- A property that every step keeps is kept by every sequence of steps. -/
theorem moves_keep {I : MVCCIterator σ} {b : Bool} {P : pointSynthesizingIter σ → Prop}
    (hP : ∀ i s, Move I b i s → P i → P s) {i s : pointSynthesizingIter σ}
    (h : Moves I b i s) (hi : P i) : P s := by
  induction h with
  | refl => exact hi
  | tail _ h2 ih => exact hP _ _ h2 ih

end Walk

/-! ## The cached range keys of a reachable state -/

section Cleared

variable {σ : Type}

/-- Every step keeps the cached validity that of a position of the wrapped
iterator. -/
theorem validAt_move {I : MVCCIterator σ} {b : Bool} {i s : pointSynthesizingIter σ}
    (h : Move I b i s)
    (hi : i.iterValid = true → ∃ it, i.iter = some it ∧ (I.Valid it).1 = true) :
    s.iterValid = true → ∃ it, s.iter = some it ∧ (I.Valid it).1 = true := by
  intro hs
  rcases h with ⟨h1, h2, -⟩ | ⟨_, c, -, -, h1, h2, -⟩ | ⟨h1, h2, -⟩ | ⟨_, -, -, -, h1, h2, -⟩
  · rw [h1]; exact hi (h2 ▸ hs)
  · exact ⟨c, h1, h2 ▸ hs⟩
  · rw [h1]; exact hi (h2 ▸ hs)
  · rw [h1]; exact hi (h2 ▸ hs)

/-- Every step keeps `rangeKeysPos` and `rangeKeysStart` empty while `rangeKeys`
is: a load of range keys leaves a non-empty `rangeKeys`. -/
theorem keysCleared_move {I : MVCCIterator σ} (hI : SpansSet I) {b : Bool}
    {i s : pointSynthesizingIter σ} (h : Move I b i s)
    (hi : KeysCleared i ∧
      (i.iterValid = true → ∃ it, i.iter = some it ∧ (I.Valid it).1 = true)) :
    KeysCleared s ∧ (s.iterValid = true → ∃ it, s.iter = some it ∧ (I.Valid it).1 = true) := by
  refine ⟨fun hs => ?_, validAt_move h hi.2⟩
  obtain ⟨hi, hv⟩ := hi
  rcases h with ⟨-, -, -, h4, h5, h6⟩ | ⟨_, _, -, -, -, -, -, h4, h5, h6⟩ |
    ⟨-, -, -, -, h5, h6⟩ | ⟨it, hit, hval, hr, -, -, -, -, h6, h4⟩
  · rw [h5, h6]
    exact hi (h4 ▸ hs)
  · rw [h5, h6]
    exact hi (h4 ▸ hs)
  · exact ⟨h5, h6⟩
  · exfalso
    obtain ⟨it1, hit1, hv1⟩ := hv hval
    rw [hit] at hit1
    injection hit1 with hit1
    subst hit1
    obtain ⟨hk, hne⟩ := hI it hv1 hr
    rw [h4] at hs
    by_cases he : (I.RangeBounds it).Key = i.rangeKeysStart
    · rw [if_pos he] at hs
      exact hk (he.trans (hi hs).2)
    · rw [if_neg he] at hs
      exact hne hs

theorem keysCleared_new (pooled : pointSynthesizingIter σ) (parent : σ) (emit : Bool) :
    KeysCleared (newPointSynthesizingIter (release pooled) parent emit) :=
  fun _ => ⟨rfl, rfl⟩

theorem run_keysCleared {I : MVCCIterator σ} (hI : SpansSet I) {ops : List PosOp}
    (pooled : pointSynthesizingIter σ) (parent : σ) (emit : Bool)
    {s : pointSynthesizingIter σ}
    (h : PosOp.run I ops (newPointSynthesizingIter (release pooled) parent emit) = some s) :
    KeysCleared s :=
  (moves_keep
    (P := fun i => KeysCleared i ∧
      (i.iterValid = true → ∃ it, i.iter = some it ∧ (I.Valid it).1 = true))
    (fun _ _ hm hp => keysCleared_move hI hm hp) (run_moves h)
    ⟨keysCleared_new pooled parent emit, fun hv => by cases hv⟩).1

/-- Every step keeps the wrapped iterator in place. -/
theorem iter_some_move {I : MVCCIterator σ} {b : Bool} {i s : pointSynthesizingIter σ}
    (h : Move I b i s) (hi : ∃ it, i.iter = some it) : ∃ it, s.iter = some it := by
  rcases h with ⟨h1, -⟩ | ⟨_, c, -, -, h1, -⟩ | ⟨h1, -⟩ | ⟨_, -, -, -, h1, -⟩
  · rw [h1]; exact hi
  · exact ⟨c, h1⟩
  · rw [h1]; exact hi
  · rw [h1]; exact hi

theorem run_iter_some {I : MVCCIterator σ} {ops : List PosOp}
    {i s : pointSynthesizingIter σ} (h : PosOp.run I ops i = some s)
    (hi : ∃ it, i.iter = some it) : ∃ it, s.iter = some it :=
  moves_keep (fun _ _ hm hp => iter_some_move hm hp) (run_moves h) hi

/-- A seek whose delegated seek leaves the wrapped iterator invalid, from any
state: `rangeKeysPos` and `rangeKeysStart` are emptied if `rangeKeys` was not
empty, and keep their value otherwise. -/
theorem seek_invalid_fields {σ : Type} (I : MVCCIterator σ) (i : pointSynthesizingIter σ)
    (it : σ) (hit : i.iter = some it) :
    (∀ k, (I.Valid (I.SeekGE k it)).1 = false →
      ∃ s, SeekGE I k i = some s ∧ s.iter = some (I.SeekGE k it) ∧ s.atPoint = false ∧
        s.rangeKeys = [] ∧ s.rangeKeysEnd = 0 ∧
        s.rangeKeysPos = (if i.rangeKeys.length = 0 then i.rangeKeysPos else 0) ∧
        s.rangeKeysStart = (if i.rangeKeys.length = 0 then i.rangeKeysStart else 0) ∧
        UnsafeKey I s = some ⟨0, 0⟩ ∧ Valid s = (false, (I.Valid (I.SeekGE k it)).2)) ∧
    (∀ k u, (I.Valid (I.SeekIntentGE k u it)).1 = false →
      ∃ s, SeekIntentGE I k u i = some s ∧ s.iter = some (I.SeekIntentGE k u it) ∧
        s.atPoint = false ∧ s.rangeKeys = [] ∧ s.rangeKeysEnd = 0 ∧
        s.rangeKeysPos = (if i.rangeKeys.length = 0 then i.rangeKeysPos else 0) ∧
        s.rangeKeysStart = (if i.rangeKeys.length = 0 then i.rangeKeysStart else 0) ∧
        UnsafeKey I s = some ⟨0, 0⟩ ∧
        Valid s = (false, (I.Valid (I.SeekIntentGE k u it)).2)) ∧
    (∀ k, (I.Valid (I.SeekLT k it)).1 = false →
      ∃ s, SeekLT I k i = some s ∧ s.iter = some (I.SeekLT k it) ∧ s.atPoint = false ∧
        s.rangeKeys = [] ∧ s.rangeKeysEnd = 0 ∧
        s.rangeKeysPos = (if i.rangeKeys.length = 0 then i.rangeKeysPos else 0) ∧
        s.rangeKeysStart = (if i.rangeKeys.length = 0 then i.rangeKeysStart else 0) ∧
        UnsafeKey I s = some ⟨0, 0⟩ ∧ Valid s = (false, (I.Valid (I.SeekLT k it)).2)) := by
  refine ⟨fun k hv => ?_, fun k u hv => ?_, fun k hv => ?_⟩
  · obtain ⟨s, h1, h2, h3, h4, h5, -, h7, h8, -, -, -, -, h13, h14⟩ :=
      updatePosition_cleared (I := I) (i := { i with
        reverse := false, iter := some (I.SeekGE k it), iterValid := (I.Valid (I.SeekGE k it)).1,
        iterErr := (I.Valid (I.SeekGE k it)).2 }) hv
    refine ⟨s, ?_, h2, h3, h4, h5, h7, h8, h13, h14⟩
    unfold SeekGE
    simp only [hit, updateValid, hv, Bool.not_false, if_true]
    rw [hv] at h1
    exact h1
  · obtain ⟨s, h1, h2, h3, h4, h5, -, h7, h8, -, -, -, -, h13, h14⟩ :=
      updatePosition_cleared (I := I) (i := { i with
        reverse := false, iter := some (I.SeekIntentGE k u it),
        iterValid := (I.Valid (I.SeekIntentGE k u it)).1,
        iterErr := (I.Valid (I.SeekIntentGE k u it)).2 }) hv
    refine ⟨s, ?_, h2, h3, h4, h5, h7, h8, h13, h14⟩
    unfold SeekIntentGE
    simp only [hit, updateValid, hv, Bool.not_false, if_true]
    rw [hv] at h1
    exact h1
  · obtain ⟨s, h1, h2, h3, h4, h5, -, h7, h8, -, -, -, -, h13, h14⟩ :=
      updatePosition_cleared (I := I) (i := { i with
        reverse := true, iter := some (I.SeekLT k it), iterValid := (I.Valid (I.SeekLT k it)).1,
        iterErr := (I.Valid (I.SeekLT k it)).2 }) hv
    refine ⟨s, ?_, h2, h3, h4, h5, h7, h8, h13, h14⟩
    unfold SeekLT
    simp only [hit, updateValid, hv, Bool.not_false, if_true]
    rw [hv] at h1
    exact h1

end Cleared

/-! ## The dataset iterator has span starts and version stacks -/

theorem Dataset.WF.spansSet {D : Dataset} (hwf : D.WF) : SpansSet (dataIter D) := by
  intro c _ hc
  cases c with
  | before => cases hc
  | after => cases hc
  | onKey k =>
    simp only [dataIter] at hc ⊢
    cases hr : D.rangeAt k.Key with
    | none => rw [hr] at hc; cases hc
    | some r =>
      simp only
      have hm := (Dataset.rangeAt_some hr).1
      exact ⟨(hwf.2.2.1 r hm).1, (hwf.2.2.1 r hm).2.2.1⟩

theorem spansSet_faultyIter {D : Dataset} (hwf : D.WF) (e : Error) :
    SpansSet (faultyIter D e) :=
  fun c _ hc => by
    cases c with
    | before => cases hc
    | after => cases hc
    | onKey k => exact hwf.spansSet (DataCursor.onKey k) rfl hc

/-! ## Errors of the wrapped iterator that persist until the next seek -/

section Sticky

variable {σ : Type}

/-- A step without a seek keeps a cached error that the wrapped iterator still
reports. -/
theorem errored_move {I : MVCCIterator σ} (hI : ErrorsPersist I)
    {i s : pointSynthesizingIter σ} (h : Move I false i s) (hi : Errored I i) :
    Errored I s := by
  obtain ⟨he, it, hit, hv⟩ := hi
  rcases h with ⟨h1, -, h3, -⟩ | ⟨it1, c, hit1, hc, h1, -, h3, -⟩ | ⟨h1, -, h3, -⟩ |
    ⟨_, -, -, -, h1, -, h3, -⟩
  · exact ⟨h3 ▸ he, it, h1.trans hit, hv⟩
  · rw [hit] at hit1
    injection hit1 with hit1
    subst hit1
    obtain ⟨a, b, d⟩ := hI it hv
    have hcv : (I.Valid c).2 ≠ none := by
      rcases hc with rfl | rfl | rfl | hc
      · exact a
      · exact b
      · exact d
      · cases hc
    exact ⟨h3 ▸ hcv, c, h1, hcv⟩
  · exact ⟨h3 ▸ he, it, h1.trans hit, hv⟩
  · exact ⟨h3 ▸ he, it, h1.trans hit, hv⟩

/-- The bounds of the cursor while no error is cached, and the error the
wrapped iterator still reports while one is. -/
theorem apply_sentinel {I : MVCCIterator σ} (hI : ErrorsPersist I) {op : PosOp}
    {i s : pointSynthesizingIter σ} (h : op.apply I i = some s)
    (hi : (i.iterErr = none → CursorInv I i) ∧ (i.iterErr ≠ none → Errored I i)) :
    (s.iterErr = none → CursorInv I s) ∧ (s.iterErr ≠ none → Errored I s) := by
  have h2 : s.iterErr ≠ none → Errored I s := by
    intro hs
    rcases (apply_keeps h).1.2 with ⟨e1, -, e3⟩ | ⟨it, hit, hv⟩
    · obtain ⟨-, it, hit, hv⟩ := hi.2 (e3 ▸ hs)
      exact ⟨hs, it, e1.trans hit, hv⟩
    · refine ⟨hs, it, hit, ?_⟩
      rw [hv]
      exact hs
  refine ⟨fun hs => ?_, h2⟩
  by_cases hop : op.isSeek = true
  · exact apply_seek_cursor hop h hs
  · by_cases he : i.iterErr = none
    · exact apply_cursor h hs (hi.1 he)
    · have hm : Moves I false i s := apply_moves_step (by simpa using hop) h
      have hq : Errored I s :=
        moves_keep (fun _ _ hm hp => errored_move hI hm hp) hm (hi.2 he)
      exact absurd hs hq.1

theorem run_sentinel {I : MVCCIterator σ} (hI : ErrorsPersist I) {ops : List PosOp}
    {i s : pointSynthesizingIter σ} (h : PosOp.run I ops i = some s)
    (hi : (i.iterErr = none → CursorInv I i) ∧ (i.iterErr ≠ none → Errored I i)) :
    (s.iterErr = none → CursorInv I s) ∧ (s.iterErr ≠ none → Errored I s) := by
  induction ops generalizing i with
  | nil =>
    unfold PosOp.run at h
    injection h with h; subst h
    exact hi
  | cons op ops ih =>
    obtain ⟨m, h1, h2⟩ := run_cons h
    exact ih h2 (apply_sentinel hI h1 hi)

end Sticky

/-! ## Iterators whose errors persist -/

theorem errorsPersist_dataIter (D : Dataset) : ErrorsPersist (dataIter D) := by
  intro c hc
  cases c <;> exact absurd rfl hc

theorem errorsPersist_failedIter (D : Dataset) (e : Error) : ErrorsPersist (failedIter D e) := by
  intro c hc
  cases c with
  | before => exact absurd rfl hc
  | onKey k => exact absurd rfl hc
  | after => exact ⟨by simp [failedIter, faultyIter, dataIter],
      by simp [failedIter, faultyIter], by simp [failedIter, faultyIter, dataIter]⟩

/-! ## The query methods -/

/-- C10 (no range leakage): for every adapter state, whatever the state of the
underlying iterator it holds, `HasPointAndRange` returns exactly `(true, false)`,
`RangeBounds` the empty span, `RangeKeys` the empty stack and `RangeKeyChanged`
false. -/
theorem no_range_leakage {σ : Type} (i : pointSynthesizingIter σ) :
    HasPointAndRange i = (true, false) ∧ RangeBounds i = ⟨0, 0⟩ ∧
      RangeKeys i = ⟨⟨0, 0⟩, []⟩ ∧ RangeKeyChanged i = false :=
  ⟨rfl, rfl, rfl, rfl⟩

/-- C11 (validity query): `Valid` returns `(true, nil)` exactly when the cached
error is nil and either the cached validity is true or the adapter is on a
synthetic point (`atPoint` false and `0 ≤ rangeKeysIdx < rangeKeysEnd`); in every
other case it returns `(iterValid, iterErr)`. -/
theorem valid_query {σ : Type} (i : pointSynthesizingIter σ) :
    (Valid i = (true, none) ↔
      (i.iterErr = none ∧ (i.iterValid = true ∨
        (i.atPoint = false ∧ 0 ≤ i.rangeKeysIdx ∧ i.rangeKeysIdx < i.rangeKeysEnd)))) ∧
    (Valid i = (true, none) ∨ Valid i = (i.iterValid, i.iterErr)) := by
  unfold Valid
  by_cases h : i.iterErr = none ∧ i.atPoint = false ∧ i.rangeKeysIdx ≥ 0 ∧
      i.rangeKeysIdx < i.rangeKeysEnd
  · rw [if_pos h]
    exact ⟨⟨fun _ => ⟨h.1, Or.inr ⟨h.2.1, h.2.2.1, h.2.2.2⟩⟩, fun _ => rfl⟩, Or.inl rfl⟩
  · rw [if_neg h]
    refine ⟨⟨fun he => ?_, fun hc => ?_⟩, Or.inr rfl⟩
    · have h1 : i.iterValid = true := congrArg Prod.fst he
      have h2 : i.iterErr = none := congrArg Prod.snd he
      exact ⟨h2, Or.inl h1⟩
    · rcases hc with ⟨he, hv | hs⟩
      · rw [hv, he]
      · exact absurd ⟨he, hs.1, hs.2.1, hs.2.2⟩ h

/-- C13 (key and value exposure): in a state with `rangeKeysEnd ≤
len(rangeKeys)` (so in every state with `0 ≤ rangeKeysEnd ≤ len(rangeKeys)`), on
a real point `UnsafeKey` and `UnsafeValue` are those of the
underlying iterator; off a point with the cursor in the window they are
`(rangeKeysPos, rangeKeys[rangeKeysIdx].Timestamp)` and
`rangeKeys[rangeKeysIdx].Value`; off a point with the cursor outside the window
`UnsafeKey` is the empty key. -/
theorem key_value_exposure {σ : Type} (I : MVCCIterator σ) (i : pointSynthesizingIter σ)
    (it : σ) (hit : i.iter = some it) (hhi : i.rangeKeysEnd ≤ i.rangeKeys.length) :
    (i.atPoint = true →
      UnsafeKey I i = some (I.UnsafeKey it) ∧ UnsafeValue I i = some (I.UnsafeValue it)) ∧
    (i.atPoint = false → 0 ≤ i.rangeKeysIdx → i.rangeKeysIdx < i.rangeKeysEnd →
      ∃ v, i.rangeKeys[i.rangeKeysIdx.toNat]? = some v ∧
        UnsafeKey I i = some ⟨i.rangeKeysPos, v.Timestamp⟩ ∧
        UnsafeValue I i = some v.Value) ∧
    (i.atPoint = false → (i.rangeKeysIdx < 0 ∨ i.rangeKeysEnd ≤ i.rangeKeysIdx) →
      UnsafeKey I i = some ⟨0, 0⟩) := by
  refine ⟨fun h => ?_, fun h h0 h1 => ?_, fun h h1 => ?_⟩
  · unfold UnsafeKey UnsafeValue
    rw [if_pos h, if_pos h, hit]
    exact ⟨rfl, rfl⟩
  · have hlen : i.rangeKeysIdx.toNat < i.rangeKeys.length := by omega
    refine ⟨i.rangeKeys[i.rangeKeysIdx.toNat], List.getElem?_eq_getElem hlen, ?_, ?_⟩
    · unfold UnsafeKey
      rw [if_neg (by rw [h]; simp), if_neg (by omega)]
      simp only [sliceIndex, if_neg (not_lt.2 h0), List.getElem?_eq_getElem hlen, Option.map]
    · unfold UnsafeValue
      rw [if_neg (by rw [h]; simp), if_neg (by omega)]
      simp only [sliceIndex, if_neg (not_lt.2 h0), List.getElem?_eq_getElem hlen, Option.map]
  · unfold UnsafeKey
    rw [if_neg (by rw [h]; simp), if_pos (by omega)]

/-- C13, at an instance: the synthetic point `1@20` of `scenarioShadow`. -/
theorem key_value_exposure_witness :
    UnsafeKey (dataIter scenarioShadow) stateSynthetic = some ⟨1, 20⟩ ∧
      UnsafeValue (dataIter scenarioShadow) stateSynthetic = some (some [20]) := by
  obtain ⟨v, hv, hk, hval⟩ := (key_value_exposure (dataIter scenarioShadow) stateSynthetic
    (DataCursor.onKey ⟨1, 15⟩) rfl (by decide)).2.1 rfl (by decide) (by decide)
  have hv' : v = ⟨20, some [20]⟩ := by
    have : stateSynthetic.rangeKeys[stateSynthetic.rangeKeysIdx.toNat]? =
        some ⟨20, some [20]⟩ := rfl
    rw [this] at hv
    exact (Option.some.inj hv).symm
  subst hv'
  exact ⟨hk, hval⟩

/-- C22 (release): `release` zeroes every field and empties the three slices,
so an adapter built by `newPointSynthesizingIter` from a released instance starts
with an empty cache, and its `Valid` is `(false, nil)`. -/
theorem release_resets {σ : Type} (i : pointSynthesizingIter σ) (parent : σ)
    (emitOnSeekGE : Bool) :
    release i =
      { iter := none, rangeKeys := [], rangeKeysPos := 0, rangeKeysIdx := 0,
        rangeKeysEnd := 0, rangeKeysStart := 0, atPoint := false, reverse := false,
        emitOnSeekGE := false, iterValid := false, iterErr := none } ∧
    newPointSynthesizingIter (release i) parent emitOnSeekGE =
      { iter := some parent, rangeKeys := [], rangeKeysPos := 0, rangeKeysIdx := 0,
        rangeKeysEnd := 0, rangeKeysStart := 0, atPoint := false, reverse := false,
        emitOnSeekGE := emitOnSeekGE, iterValid := false, iterErr := none } ∧
    Valid (newPointSynthesizingIter (release i) parent emitOnSeekGE) = (false, none) :=
  ⟨rfl, rfl, rfl⟩

/-- C26, counterexample: in a state whose `rangeKeys` is empty while
`rangeKeysPos` and `rangeKeysStart` hold the key 5, `clearRangeKeys` leaves both
keys in place. -/
theorem clearRangeKeys_keeps_stale_keys :
    stateStalePos.rangeKeys = [] ∧ (clearRangeKeys stateStalePos).rangeKeysPos = 5 ∧
      (clearRangeKeys stateStalePos).rangeKeysStart = 5 :=
  ⟨rfl, rfl, rfl⟩

/-- C26 (amended): `clearRangeKeys` empties `rangeKeys`, sets `rangeKeysEnd` to 0
and `rangeKeysIdx` to 0 forward and -1 in reverse, and changes no other field,
except that it empties `rangeKeysPos` and `rangeKeysStart` when, and only when,
`rangeKeys` was not empty. -/
theorem clearRangeKeys_spec {σ : Type} (i : pointSynthesizingIter σ) :
    (clearRangeKeys i).rangeKeys = [] ∧ (clearRangeKeys i).rangeKeysEnd = 0 ∧
    (clearRangeKeys i).rangeKeysIdx = (if i.reverse = true then -1 else 0) ∧
    (clearRangeKeys i).rangeKeysPos = (if i.rangeKeys.length = 0 then i.rangeKeysPos else 0) ∧
    (clearRangeKeys i).rangeKeysStart =
      (if i.rangeKeys.length = 0 then i.rangeKeysStart else 0) ∧
    (clearRangeKeys i).atPoint = i.atPoint ∧ (clearRangeKeys i).reverse = i.reverse ∧
    (clearRangeKeys i).iterValid = i.iterValid ∧ (clearRangeKeys i).iterErr = i.iterErr ∧
    (clearRangeKeys i).emitOnSeekGE = i.emitOnSeekGE ∧ (clearRangeKeys i).iter = i.iter :=
  clearRangeKeys_fields i

/-- C30, counterexample: in `stateClosedWindow` (`rangeKeysEnd = 0`,
`len(rangeKeys) = 2`, `rangeKeysIdx = 0`, not on a point) `UnsafeKey` is the empty
key while `UnsafeValue` is the value of `rangeKeys[0]`, not nil. -/
theorem value_without_key :
    0 ≤ stateClosedWindow.rangeKeysEnd ∧
      stateClosedWindow.rangeKeysEnd ≤ stateClosedWindow.rangeKeys.length ∧
      stateClosedWindow.atPoint = false ∧
      UnsafeKey (dataIter scenarioShadow) stateClosedWindow = some ⟨0, 0⟩ ∧
      UnsafeValue (dataIter scenarioShadow) stateClosedWindow = some (some [20]) := by
  decide

/-- C30 (amended): in a state with `0 ≤ rangeKeysEnd` (the claim's
`rangeKeysEnd ≤ len(rangeKeys)` is not needed) and off a point, whenever the
cursor is outside the window `[0, rangeKeysEnd)` `UnsafeKey` is the empty key;
`UnsafeValue` is then nil when the cursor is also outside `[0, len(rangeKeys))`,
and the value of `rangeKeys[rangeKeysIdx]` when
`rangeKeysEnd ≤ rangeKeysIdx < len(rangeKeys)`. -/
theorem key_value_absence {σ : Type} (I : MVCCIterator σ) (i : pointSynthesizingIter σ)
    (hat : i.atPoint = false) (hlo : 0 ≤ i.rangeKeysEnd) :
    ((i.rangeKeysIdx < 0 ∨ i.rangeKeysEnd ≤ i.rangeKeysIdx) →
      UnsafeKey I i = some ⟨0, 0⟩) ∧
    ((i.rangeKeysIdx < 0 ∨ (i.rangeKeys.length : Int) ≤ i.rangeKeysIdx) →
      UnsafeValue I i = some none) ∧
    (i.rangeKeysEnd ≤ i.rangeKeysIdx → i.rangeKeysIdx < i.rangeKeys.length →
      ∃ v, i.rangeKeys[i.rangeKeysIdx.toNat]? = some v ∧ UnsafeValue I i = some v.Value) := by
  refine ⟨fun h => ?_, fun h => ?_, fun h1 h2 => ?_⟩
  · unfold UnsafeKey
    rw [if_neg (by rw [hat]; simp), if_pos (by omega)]
  · unfold UnsafeValue
    rw [if_neg (by rw [hat]; simp), if_pos (by omega)]
  · have h0 : 0 ≤ i.rangeKeysIdx := le_trans hlo h1
    have hlen : i.rangeKeysIdx.toNat < i.rangeKeys.length := by omega
    refine ⟨i.rangeKeys[i.rangeKeysIdx.toNat], List.getElem?_eq_getElem hlen, ?_⟩
    unfold UnsafeValue
    rw [if_neg (by rw [hat]; simp), if_neg (by omega)]
    simp only [sliceIndex, if_neg (not_lt.2 h0), List.getElem?_eq_getElem hlen, Option.map]

/-- C30 (amended), at an instance: `stateClosedWindow`, whose cursor 0 is outside
the window `[0, 0)` and inside the stack of length 2. -/
theorem key_value_absence_witness :
    stateClosedWindow.atPoint = false ∧ 0 ≤ stateClosedWindow.rangeKeysEnd ∧
      stateClosedWindow.rangeKeysEnd ≤ stateClosedWindow.rangeKeys.length ∧
      UnsafeKey (dataIter scenarioShadow) stateClosedWindow = some ⟨0, 0⟩ ∧
      ∃ v : MVCCRangeKeyVersion,
        UnsafeValue (dataIter scenarioShadow) stateClosedWindow = some v.Value := by
  obtain ⟨hk, -, hv⟩ := key_value_absence (dataIter scenarioShadow) stateClosedWindow rfl
    (by decide)
  obtain ⟨v, -, hv⟩ := hv (by decide) (by decide)
  exact ⟨rfl, by decide, by decide, hk (Or.inr (by decide)), v, hv⟩

/-! ## The internal steps -/

/-- C21 (window extension): with `rangeKeys` sorted by descending timestamp, if
the underlying iterator is valid and on a point whose key is `rangeKeysPos` and
whose timestamp `p` is set, `extendRangeKeysEnd` sets `rangeKeysEnd` to
`max(rangeKeysEnd, j)`, `j` being the first index whose timestamp is below `p`
(`len(rangeKeys)` if there is none); otherwise it changes nothing. In every case
`rangeKeysEnd` does not decrease and no other field changes. -/
theorem window_extension {σ : Type} (I : MVCCIterator σ) (i : pointSynthesizingIter σ)
    (it : σ) (hit : i.iter = some it)
    (hs : i.rangeKeys.Pairwise (fun a b => b.Timestamp ≤ a.Timestamp)) :
    ((i.iterValid = true ∧ (I.HasPointAndRange it).1 = true ∧
        (I.UnsafeKey it).Key = i.rangeKeysPos ∧ (I.UnsafeKey it).Timestamp ≠ 0) →
      ∃ j : Nat, j ≤ i.rangeKeys.length ∧
        (∀ (a : Nat) (v : MVCCRangeKeyVersion), i.rangeKeys[a]? = some v →
          (v.Timestamp < (I.UnsafeKey it).Timestamp ↔ j ≤ a)) ∧
        extendRangeKeysEnd I i = some { i with rangeKeysEnd := max i.rangeKeysEnd j }) ∧
    (¬ (i.iterValid = true ∧ (I.HasPointAndRange it).1 = true ∧
        (I.UnsafeKey it).Key = i.rangeKeysPos ∧ (I.UnsafeKey it).Timestamp ≠ 0) →
      extendRangeKeysEnd I i = some i) ∧
    (∃ e : Int, extendRangeKeysEnd I i = some { i with rangeKeysEnd := e } ∧
      i.rangeKeysEnd ≤ e) := by
  refine ⟨?_, ?_, ?_⟩
  · rintro ⟨hv, hp, hk, ht⟩
    obtain ⟨j, h1, h2, h3, h4⟩ := sortSearch_spec i.rangeKeys
      (fun v => hlc.Timestamp.Less v.Timestamp (I.UnsafeKey it).Timestamp) i.rangeKeys.length
      (le_refl _)
      (by
        intro a b x y hab hx hy hq
        simp only [hlc.Timestamp.Less, decide_eq_true_eq] at hq ⊢
        have := descending_get hs hab hx hy
        omega)
    refine ⟨j, h2, ?_, ?_⟩
    · intro a v hav
      have hal : a < i.rangeKeys.length := by
        by_contra hc
        rw [List.getElem?_eq_none (by omega)] at hav; cases hav
      constructor
      · intro hlt
        by_contra hc
        have := h3 a v (by omega) hav
        simp only [hlc.Timestamp.Less, decide_eq_false_iff_not] at this
        omega
      · intro hja
        have := h4 a v hja hal hav
        simpa [hlc.Timestamp.Less] using this
    · cases i with
      | mk iter V pos idx en start atPoint reverse emit iterValid iterErr =>
      simp only at hit hv hk h1 ⊢
      subst hit hv hk
      unfold extendRangeKeysEnd
      simp only [if_true, hp, roachpb.Key.Equal, beq_self_eq_true, hlc.Timestamp.IsEmpty,
        Bool.true_and, h1]
      rw [if_pos (by simpa using ht)]
      by_cases hgt : (j : Int) > en
      · rw [if_pos hgt, max_eq_right (by omega)]
      · rw [if_neg hgt, max_eq_left (by omega)]
  · intro hn
    cases i with
    | mk iter V pos idx en start atPoint reverse emit iterValid iterErr =>
    simp only at hit hn ⊢
    subst hit
    unfold extendRangeKeysEnd
    simp only []
    split
    · split
      · split
        · rename_i h1 h2 h3
          exfalso
          apply hn
          simp only [roachpb.Key.Equal, hlc.Timestamp.IsEmpty, Bool.and_eq_true, beq_iff_eq,
            Bool.not_eq_true', beq_eq_false_iff_ne, ne_eq] at h3
          exact ⟨h1, h2, h3.1, h3.2⟩
        · rfl
      · rfl
    · rfl
  · obtain ⟨e, he, hle, -⟩ := extend_spec (I := I) (i := i) (fun _ => by rw [hit]; rfl)
    exact ⟨e, he, hle⟩

/-- C21, at an instance: over `scenarioShadow`, on the point `1@15` with the
stack `[20, 10]` and the window closed, the window end becomes 1. -/
theorem window_extension_witness :
    extendRangeKeysEnd (dataIter scenarioShadow) stateClosedWindow =
      some { stateClosedWindow with rangeKeysEnd := 1 } := by
  obtain ⟨j, -, hiff, he⟩ := (window_extension (dataIter scenarioShadow) stateClosedWindow
    (DataCursor.onKey ⟨1, 15⟩) rfl (by decide)).1 ⟨rfl, rfl, rfl, by decide⟩
  have h0 := hiff 0 ⟨20, some [20]⟩ rfl
  have h1 := hiff 1 ⟨10, some [10]⟩ rfl
  have hj : j = 1 := by
    have a1 : j ≤ 1 := h1.1 (by decide)
    have a0 : ¬ j ≤ 0 := fun h => absurd (h0.2 h) (by decide)
    omega
  subst hj
  exact he

/-- C24 (real-versus-synthetic decision): when the indexing it performs is in
bounds, `updateAtPoint` changes `atPoint` only, and sets it to true exactly when
the underlying iterator is valid and has a point and either `rangeKeys` is empty,
or the point's key is `rangeKeysPos` and, forward, `rangeKeysIdx ≥ rangeKeysEnd`
or the point's timestamp is unset or `rangeKeys[rangeKeysIdx].Timestamp` is at
most the point's timestamp, and, in reverse, `rangeKeysIdx < 0` or the point's
timestamp is set and at most `rangeKeys[rangeKeysIdx].Timestamp`. -/
theorem atPoint_decision {σ : Type} (I : MVCCIterator σ) (i : pointSynthesizingIter σ)
    (it : σ) (hit : i.iter = some it)
    (hb : i.iterValid = true → (I.HasPointAndRange it).1 = true → i.rangeKeys ≠ [] →
      (I.UnsafeKey it).Key = i.rangeKeysPos → (I.UnsafeKey it).Timestamp ≠ 0 →
      (if i.reverse = true then 0 ≤ i.rangeKeysIdx else i.rangeKeysIdx < i.rangeKeysEnd) →
      0 ≤ i.rangeKeysIdx ∧ i.rangeKeysIdx < i.rangeKeys.length) :
    ∃ b : Bool, updateAtPoint I i = some { i with atPoint := b } ∧
      (b = true ↔
        (i.iterValid = true ∧ (I.HasPointAndRange it).1 = true ∧
          (i.rangeKeys = [] ∨
            ((I.UnsafeKey it).Key = i.rangeKeysPos ∧
              (i.reverse = false →
                (i.rangeKeysEnd ≤ i.rangeKeysIdx ∨ (I.UnsafeKey it).Timestamp = 0 ∨
                  ∃ v, sliceIndex i.rangeKeys i.rangeKeysIdx = some v ∧
                    v.Timestamp ≤ (I.UnsafeKey it).Timestamp)) ∧
              (i.reverse = true →
                (i.rangeKeysIdx < 0 ∨ ((I.UnsafeKey it).Timestamp ≠ 0 ∧
                  ∃ v, sliceIndex i.rangeKeys i.rangeKeysIdx = some v ∧
                    (I.UnsafeKey it).Timestamp ≤ v.Timestamp))))))) :=
  updateAtPoint_spec I i it hit hb

/-- C24, at an instance: over `scenarioShadow`, forward, with the cursor on the
version 20 and the underlying iterator on the point `1@15`, `atPoint` is false. -/
theorem atPoint_decision_witness :
    updateAtPoint (dataIter scenarioShadow) stateSynthetic =
      some { stateSynthetic with atPoint := false } := by
  obtain ⟨b, hb, hiff⟩ := atPoint_decision (dataIter scenarioShadow) stateSynthetic
    (DataCursor.onKey ⟨1, 15⟩) rfl (fun _ _ _ _ _ _ => by decide)
  cases b with
  | false => exact hb
  | true =>
    exfalso
    obtain ⟨-, -, h | ⟨-, h, -⟩⟩ := hiff.1 rfl
    · cases h
    · rcases h rfl with h | h | ⟨v, hv, hle⟩
      · exact absurd h (by decide)
      · exact absurd h (by decide)
      · have hv' : sliceIndex stateSynthetic.rangeKeys stateSynthetic.rangeKeysIdx =
            some ⟨20, some [20]⟩ := rfl
        rw [hv'] at hv
        cases hv
        exact absurd hle (by decide)

/-- C31 (index safety): in a state that wraps an iterator and satisfies `0 ≤
rangeKeysEnd ≤ len(rangeKeys)` and the cursor bound of its direction,
`updateAtPoint`, `UnsafeKey` and `UnsafeValue` return: none of them indexes
`rangeKeys` out of bounds, whatever the underlying iterator reports. -/
theorem index_safety {σ : Type} (I : MVCCIterator σ) (i : pointSynthesizingIter σ)
    (it : σ) (hit : i.iter = some it) (hw : WindowOK i) (hc : CursorOK i) :
    (∃ b, updateAtPoint I i = some { i with atPoint := b }) ∧
      (∃ k, UnsafeKey I i = some k) ∧ (∃ v, UnsafeValue I i = some v) := by
  obtain ⟨hw0, hw1⟩ := hw
  refine ⟨?_, ?_, ?_⟩
  · obtain ⟨b, hb, -⟩ := updateAtPoint_spec I i it hit (by
      intro _ _ _ _ _ h
      unfold CursorOK at hc
      by_cases hr : i.reverse = true
      · rw [if_pos hr] at hc h; omega
      · rw [if_neg hr] at hc h; omega)
    exact ⟨b, hb⟩
  · unfold UnsafeKey
    split
    · rw [hit]; exact ⟨_, rfl⟩
    · split
      · exact ⟨_, rfl⟩
      · rename_i h
        have hlt : i.rangeKeysIdx.toNat < i.rangeKeys.length := by omega
        simp only [sliceIndex, if_neg (show ¬ i.rangeKeysIdx < 0 by omega),
          List.getElem?_eq_getElem hlt]
        exact ⟨_, rfl⟩
  · unfold UnsafeValue
    split
    · rw [hit]; exact ⟨_, rfl⟩
    · split
      · exact ⟨_, rfl⟩
      · rename_i h
        have hlt : i.rangeKeysIdx.toNat < i.rangeKeys.length := by omega
        simp only [sliceIndex, if_neg (show ¬ i.rangeKeysIdx < 0 by omega),
          List.getElem?_eq_getElem hlt]
        exact ⟨_, rfl⟩

/-- C31, at an instance: `stateSynthetic`. -/
theorem index_safety_witness :
    WindowOK stateSynthetic ∧ CursorOK stateSynthetic ∧
      ∃ k, UnsafeKey (dataIter scenarioShadow) stateSynthetic = some k :=
  ⟨by decide, by decide,
    (index_safety (dataIter scenarioShadow) stateSynthetic (DataCursor.onKey ⟨1, 15⟩) rfl
      (by decide) (by decide)).2.1⟩

/-- C25 (cache refresh): `updateRangeKeys` does what `clearRangeKeys` does when
`iterValid` is false or the underlying position has no range. Otherwise it sets
`rangeKeysPos` to the underlying key; it replaces `rangeKeysStart` and `rangeKeys`
by the underlying span start and version stack exactly when that start differs
from the cached `rangeKeysStart`; it sets `rangeKeysEnd` to `len(rangeKeys)` when
`rangeKeysPos` equals `rangeKeysStart` and otherwise to what `extendRangeKeysEnd`
reaches from 0; it sets `rangeKeysIdx` to 0 forward and to `rangeKeysEnd - 1` in
reverse; and it changes nothing else. -/
theorem cache_refresh {σ : Type} (I : MVCCIterator σ) (i : pointSynthesizingIter σ) (it : σ)
    (hit : i.iter = some it) :
    ((i.iterValid = false ∨ (I.HasPointAndRange it).2 = false) →
      updateRangeKeys I i = some (clearRangeKeys i)) ∧
    (i.iterValid = true → (I.HasPointAndRange it).2 = true →
      ∃ s, updateRangeKeys I i = some s ∧
        s.rangeKeysPos = (I.UnsafeKey it).Key ∧
        s.rangeKeysStart = (I.RangeBounds it).Key ∧
        s.rangeKeys = (if (I.RangeBounds it).Key = i.rangeKeysStart then i.rangeKeys
          else (I.RangeKeys it).Versions) ∧
        (s.rangeKeysPos = s.rangeKeysStart → s.rangeKeysEnd = s.rangeKeys.length) ∧
        (s.rangeKeysPos ≠ s.rangeKeysStart →
          extendRangeKeysEnd I { s with rangeKeysEnd := 0 } = some s) ∧
        s.rangeKeysIdx = (if i.reverse = true then s.rangeKeysEnd - 1 else 0) ∧
        s.iter = i.iter ∧ s.atPoint = i.atPoint ∧ s.reverse = i.reverse ∧
        s.emitOnSeekGE = i.emitOnSeekGE ∧ s.iterValid = i.iterValid ∧
        s.iterErr = i.iterErr) := by
  refine ⟨fun h => updateRangeKeys_none hit h, fun hv hr => ?_⟩
  obtain ⟨e, he, hs⟩ := updateRangeKeys_spec hit hv hr
  refine ⟨_, hs, rfl, rfl, rfl, ?_, ?_, rfl, rfl, rfl, rfl, rfl, rfl, rfl⟩
  · intro hps
    simp only at hps ⊢
    rw [if_pos hps] at he
    exact he
  · intro hps
    simp only at hps ⊢
    rw [if_neg hps] at he
    have := extend_idx I { i with
      rangeKeysPos := (I.UnsafeKey it).Key, rangeKeysStart := (I.RangeBounds it).Key,
      rangeKeys := if (I.RangeBounds it).Key = i.rangeKeysStart then i.rangeKeys
        else (I.RangeKeys it).Versions,
      rangeKeysEnd := 0 } (if i.reverse = true then e - 1 else 0)
    rw [he] at this
    exact this

/-- C25, at an instance: over `scenarioShadow`, on the point `1@15` at the span
start, the stack is kept and the window is the whole stack. -/
theorem cache_refresh_witness :
    ∃ s, updateRangeKeys (dataIter scenarioShadow) stateClosedWindow = some s ∧
      s.rangeKeysPos = 1 ∧ s.rangeKeysStart = 1 ∧ s.rangeKeysEnd = 2 ∧ s.rangeKeysIdx = 0 := by
  obtain ⟨s, hs, h1, h2, h3, h4, -, h6, -⟩ :=
    (cache_refresh (dataIter scenarioShadow) stateClosedWindow (DataCursor.onKey ⟨1, 15⟩)
      rfl).2 rfl rfl
  have h3' : s.rangeKeys = stackShadow := h3
  have h4' := h4 (h1.trans h2.symm)
  rw [h3'] at h4'
  exact ⟨s, hs, h1, h2, h4', h6⟩

/-- C27 (versioned `SeekGE` cursor): in `SeekGE(K@T)`, with the window within
`rangeKeys` and `rangeKeys` sorted by descending timestamp, when `rangeKeys` is
non-empty, `T` is set and `K` is `rangeKeysPos`, the cursor is set to the least
index `j` of `[0, rangeKeysEnd]` with `rangeKeys[j].Timestamp ≤ T` (`rangeKeysEnd`
when no version of the window qualifies), so that every version of the window
before the cursor is newer than `T`; otherwise the cursor is left where
`updateRangeKeys` put it, which is 0 in the forward direction. -/
theorem versioned_seekGE_cursor {σ : Type} (I : MVCCIterator σ) (k : MVCCKey)
    (i : pointSynthesizingIter σ) (hw : WindowOK i)
    (hs : i.rangeKeys.Pairwise (fun a b => b.Timestamp ≤ a.Timestamp)) :
    ((i.rangeKeys ≠ [] ∧ k.Timestamp ≠ 0 ∧ k.Key = i.rangeKeysPos) →
      ∃ j : Nat, (j : Int) ≤ i.rangeKeysEnd ∧
        (∀ (a : Nat) (v : MVCCRangeKeyVersion), (a : Int) < i.rangeKeysEnd →
          i.rangeKeys[a]? = some v → (v.Timestamp ≤ k.Timestamp ↔ j ≤ a)) ∧
        seekCursor k i = some { i with rangeKeysIdx := j }) ∧
    (¬ (i.rangeKeys ≠ [] ∧ k.Timestamp ≠ 0 ∧ k.Key = i.rangeKeysPos) →
      seekCursor k i = some i) ∧
    (∀ i0 s : pointSynthesizingIter σ, i0.reverse = false → updateRangeKeys I i0 = some s →
      s.rangeKeysIdx = 0) := by
  refine ⟨?_, ?_, fun i0 s h0 h => updateRangeKeys_idx_fwd h0 h⟩
  · rintro ⟨hV, hT, hK⟩
    obtain ⟨j, h1, h2, h3⟩ := search_window hs hw.1 hw.2 k.Timestamp
    refine ⟨j, h1, h2, ?_⟩
    have hlen : i.rangeKeys.length > 0 := List.length_pos.2 hV
    unfold seekCursor
    rw [if_pos (by simp [hlen, hlc.Timestamp.IsSet, hT, roachpb.Key.Equal, hK]), h3]
    rfl
  · intro hn
    unfold seekCursor
    rw [if_neg]
    intro hc
    apply hn
    simp only [hlc.Timestamp.IsSet, roachpb.Key.Equal, Bool.and_eq_true, decide_eq_true_eq,
      bne_iff_ne, ne_eq, beq_iff_eq] at hc
    exact ⟨List.length_pos.1 hc.1.1, hc.1.2, hc.2⟩

/-- C27, at an instance: over the stack `[20, 10]` at key 1 with the whole
stack in the window, `SeekGE(1@15)` puts the cursor on index 1, the version 10. -/
theorem versioned_seekGE_cursor_witness :
    seekCursor ⟨1, 15⟩ stateSynthetic = some { stateSynthetic with rangeKeysIdx := 1 } := by
  obtain ⟨j, -, hiff, he⟩ := (versioned_seekGE_cursor (dataIter scenarioShadow) ⟨1, 15⟩
    stateSynthetic (by decide) (by decide)).1 ⟨by decide, by decide, rfl⟩
  have h0 := hiff 0 ⟨20, some [20]⟩ (by decide) rfl
  have h1 := hiff 1 ⟨10, some [10]⟩ (by decide) rfl
  have hj : j = 1 := by
    have a1 : j ≤ 1 := h1.1 (by decide)
    have a0 : ¬ j ≤ 0 := fun h => absurd (h0.2 h) (by decide)
    omega
  subst hj
  exact he

/-- C28, counterexample: over the stack `[20, 10]` at key 1 with the whole
stack in the window, the `SeekLT(1@15)` cursor is index 0, the version 20, which
is newer than 15; the version 10, the newest one at or older than 15, is at index
1. Accordingly `SeekLT(1@15)` over `scenarioTwoVersions` exposes `1@20`. -/
theorem seekLT_cursor_selects_newer :
    (seekLTCursor ⟨1, 15⟩ stateSynthetic).map (fun s => s.rangeKeysIdx) = some 0 ∧
      stateSynthetic.rangeKeys[0]? = some ⟨20, some [20]⟩ ∧
      stateSynthetic.rangeKeys[1]? = some ⟨10, some [10]⟩ ∧
      (SeekLT (dataIter scenarioTwoVersions) ⟨1, 15⟩ (freshIter false)).bind
        (UnsafeKey (dataIter scenarioTwoVersions)) = some ⟨1, 20⟩ := by
  decide

/-- C28 (amended): in `SeekLT(K@T)` with `T` set and `K = rangeKeysPos`, with
the window within `rangeKeys` and `rangeKeys` sorted by descending timestamp, the
cursor is set to `j - 1`, `j` being the least index of `[0, rangeKeysEnd]` with
`rangeKeys[j].Timestamp ≤ T`: it selects the oldest version of the window that
is newer than `T`, and is -1 when the window has none. -/
theorem versioned_seekLT_cursor {σ : Type} (k : MVCCKey) (i : pointSynthesizingIter σ)
    (hw : WindowOK i) (hs : i.rangeKeys.Pairwise (fun a b => b.Timestamp ≤ a.Timestamp))
    (hT : k.Timestamp ≠ 0) (hK : k.Key = i.rangeKeysPos) :
    ∃ j : Nat, (j : Int) ≤ i.rangeKeysEnd ∧
      (∀ (a : Nat) (v : MVCCRangeKeyVersion), (a : Int) < i.rangeKeysEnd →
        i.rangeKeys[a]? = some v → (k.Timestamp < v.Timestamp ↔ a < j)) ∧
      seekLTCursor k i = some { i with rangeKeysIdx := (j : Int) - 1 } := by
  obtain ⟨j, h1, h2, h3⟩ := search_window hs hw.1 hw.2 k.Timestamp
  refine ⟨j, h1, ?_, ?_⟩
  · intro a v ha hv
    have := h2 a v ha hv
    omega
  · unfold seekLTCursor
    rw [if_pos (by simp [hlc.Timestamp.IsSet, hT, roachpb.Key.Equal, hK]), h3]
    rfl

/-- C28 (amended), at an instance: over the stack `[20, 10]`, `SeekLT(1@15)`
puts the cursor on index 0. -/
theorem versioned_seekLT_cursor_witness :
    seekLTCursor ⟨1, 15⟩ stateSynthetic = some { stateSynthetic with rangeKeysIdx := 0 } := by
  obtain ⟨j, -, hiff, he⟩ := versioned_seekLT_cursor ⟨1, 15⟩ stateSynthetic (by decide)
    (by decide) (by decide) rfl
  have h0 := hiff 0 ⟨20, some [20]⟩ (by decide) rfl
  have h1 := hiff 1 ⟨10, some [10]⟩ (by decide) rfl
  have hj : j = 1 := by
    have a0 : 0 < j := h0.1 (by decide)
    have a1 : ¬ 1 < j := fun h => absurd (h1.2 h) (by decide)
    omega
  subst hj
  exact he

/-! ## The synthetic cursor -/

/-- C18 (synthetic-cursor invariant): over the faithful iterator of a well-formed
dataset, which never reports an error and obeys its contract, in every state
reached from a fresh adapter (with `emitOnSeekGE` on or off) by a sequence of
`SeekGE`, `SeekIntentGE`, `SeekLT`, `Next`, `NextKey` and `Prev`: if `atPoint` is
false and the position is not exhausted (the wrapped iterator is valid or
`rangeKeys` is non-empty), then `0 ≤ rangeKeysIdx < rangeKeysEnd`; and an empty
`rangeKeys` with a valid wrapped iterator implies `atPoint`. The last part states
the contract at the position `it` the wrapped iterator is left on: no error; if
valid, a point or a range; with a range, a non-empty version stack, and a bare
range position is at the start key of its span. -/
theorem synthetic_cursor_invariant (D : Dataset) (hwf : D.WF) (emitOnSeekGE : Bool)
    (ops : List PosOp) (st : DataIter) (it : DataCursor)
    (hrun : PosOp.run (dataIter D) ops (freshIter emitOnSeekGE) = some st)
    (hit : st.iter = some it) :
    (st.atPoint = false → (((dataIter D).Valid it).1 = true ∨ st.rangeKeys ≠ []) →
        0 ≤ st.rangeKeysIdx ∧ st.rangeKeysIdx < st.rangeKeysEnd) ∧
      (st.rangeKeys = [] → ((dataIter D).Valid it).1 = true → st.atPoint = true) ∧
      (((dataIter D).Valid it).2 = none ∧
        (((dataIter D).Valid it).1 = true →
          (((dataIter D).HasPointAndRange it).1 = true ∨
            ((dataIter D).HasPointAndRange it).2 = true) ∧
          (((dataIter D).HasPointAndRange it).2 = true →
            ((dataIter D).RangeKeys it).Versions ≠ [] ∧
            (((dataIter D).HasPointAndRange it).1 = false →
              ((dataIter D).UnsafeKey it).Key = ((dataIter D).RangeBounds it).Key)))) := by
  obtain ⟨s, hs, htr⟩ := tracked_run hwf ops (freshIter emitOnSeekGE)
    (Or.inl (fresh_freshIter emitOnSeekGE))
  rw [hrun] at hs
  cases hs
  obtain ⟨c, hc, hv, -, hpos⟩ := tracked_position htr
  rw [hit] at hc
  cases hc
  obtain ⟨h1, h2⟩ := tracked_cursor htr
  rw [dataIter_Valid]
  simp only
  rw [← hv]
  refine ⟨h1, h2, trivial, fun hval => ?_⟩
  rw [hv] at hval
  cases it with
  | before => cases hval
  | after => cases hval
  | onKey q =>
    obtain ⟨a, b⟩ := hwf.position_contract (hpos q rfl)
    exact ⟨a, fun hr => ⟨(b hr).2.1, (b hr).2.2⟩⟩

/-- C18, at an instance: over `scenarioMidShadow` (versions 20 and 10 over
`[a, d)`, points `b@15` and `b@5`), `SeekGE(a)`, `NextKey`, `Next`, `Next` leaves the
adapter off a point, on the synthesized `(b, 10)`, with `rangeKeysIdx = 1` in the
window `[0, 2)` and the wrapped iterator on the point `b@5`. -/
theorem synthetic_cursor_invariant_witness :
    (PosOp.run (dataIter scenarioMidShadow) [PosOp.seekGE ⟨1, 0⟩, PosOp.nextKey, PosOp.next, PosOp.next]
        (freshIter false)).map
        (fun s => (s.iter, s.atPoint, s.rangeKeysIdx, s.rangeKeysEnd, s.rangeKeys.length)) =
        some (some (DataCursor.onKey ⟨2, 5⟩), false, 1, 2, 2) ∧
      ∀ st, PosOp.run (dataIter scenarioMidShadow)
          [PosOp.seekGE ⟨1, 0⟩, PosOp.nextKey, PosOp.next, PosOp.next] (freshIter false) = some st →
        st.iter = some (DataCursor.onKey ⟨2, 5⟩) →
        (st.atPoint = false →
          (((dataIter scenarioMidShadow).Valid (DataCursor.onKey ⟨2, 5⟩)).1 = true ∨
            st.rangeKeys ≠ []) →
          0 ≤ st.rangeKeysIdx ∧ st.rangeKeysIdx < st.rangeKeysEnd) ∧
        (st.rangeKeys = [] →
          ((dataIter scenarioMidShadow).Valid (DataCursor.onKey ⟨2, 5⟩)).1 = true →
          st.atPoint = true) :=
  ⟨by decide, fun st h hit =>
    ⟨(synthetic_cursor_invariant scenarioMidShadow (by decide) false _ st _ h hit).1,
      (synthetic_cursor_invariant scenarioMidShadow (by decide) false _ st _ h hit).2.1⟩⟩

/-! ## Synthesis at the start key of a span -/

/-- C3, counterexample: over `scenarioTwoVersions` (versions 20 and 10 over
`[a, d)`, no points), `SeekGE(a@15)` lands the underlying iterator on a bare range
position at the start key `a`, and the forward steps expose `(a, 10)` only, not
`(a, 20)`; `SeekGE(a@5)` leaves `rangeKeysEnd = 0`. -/
theorem versioned_seek_at_span_start :
    (dataIter scenarioTwoVersions).HasPointAndRange
        ((dataIter scenarioTwoVersions).SeekGE ⟨1, 15⟩ DataCursor.before) = (false, true) ∧
      ((dataIter scenarioTwoVersions).RangeBounds
        ((dataIter scenarioTwoVersions).SeekGE ⟨1, 15⟩ DataCursor.before)).Key = 1 ∧
      ((dataIter scenarioTwoVersions).UnsafeKey
        ((dataIter scenarioTwoVersions).SeekGE ⟨1, 15⟩ DataCursor.before)).Key = 1 ∧
      forwardScan (dataIter scenarioTwoVersions) ⟨1, 15⟩ 5 (freshIter false) =
        some [(⟨1, 10⟩, some [10])] ∧
      (SeekGE (dataIter scenarioTwoVersions) ⟨1, 5⟩ (freshIter false)).map
        (fun s => s.rangeKeysEnd) = some 0 := by
  decide

/-- C3 (amended): over the faithful iterator of a well-formed dataset, for the
span `r` with start key `s` and stack `V`. (1) `SeekGE(k)` followed by `Next` until
invalid returns and exposes, in increasing MVCC order and so before any record of
a greater key, the synthesized point `(s, v.timestamp)` with value `v.value` for
exactly the `v` in `V` with `(s, v.timestamp)` not before `k`: for every `v` when
`k` is unversioned and at or before `s`, and for the `v` at or below the seek
timestamp when `k = s@T`, whether or not a real point exists at `s`. (2) When `k`
has key `s` and some such `v` exists, `SeekGE(k)` leaves the adapter valid at key
`s`. (3) Whenever `SeekGE(k)` leaves the adapter valid at key `s`,
`rangeKeysEnd = |V|`. (4) From a valid state, reached from a fresh adapter by any
public calls, on a key before `s`: `Next` and `NextKey` return, and when they leave
the adapter valid at key `s` (they have re-synchronised on the bare range position
that opens the span) `rangeKeysEnd = |V|` and `Next` until invalid exposes, in
increasing MVCC order, `(s, v.timestamp)` with value `v.value` for every `v` in
`V`. -/
theorem span_start_synthesis (D : Dataset) (hwf : D.WF) (st : DataIter) (hst : Ready D st)
    (r : RangeKV) (hr : r ∈ D.ranges) (k : MVCCKey) :
    (∃ n out, forwardScan (dataIter D) k n st = some out ∧
      (out.map Prod.fst).Pairwise MVCCKey.Less ∧
      ∀ v ∈ r.versions, (((⟨r.start, v.Timestamp⟩, v.Value) : MVCCKey × Value) ∈ out ↔
        ¬ MVCCKey.Less ⟨r.start, v.Timestamp⟩ k)) ∧
    (k.Key = r.start → (k.Timestamp = 0 ∨ ∃ v ∈ r.versions, v.Timestamp ≤ k.Timestamp) →
      ∃ s0 x, SeekGE (dataIter D) k st = some s0 ∧ Valid s0 = (true, none) ∧
        UnsafeKey (dataIter D) s0 = some x ∧ x.Key = r.start ∧
        s0.rangeKeysEnd = (r.versions.length : Int)) ∧
    (∀ s0 y, SeekGE (dataIter D) k st = some s0 → (Valid s0).1 = true →
      UnsafeKey (dataIter D) s0 = some y → y.Key = r.start →
      s0.rangeKeysEnd = (r.versions.length : Int)) ∧
    (∀ (emitOnSeekGE : Bool) (ops : List PosOp) (s1 : DataIter) (x : MVCCKey),
      PosOp.run (dataIter D) ops (freshIter emitOnSeekGE) = some s1 →
      (Valid s1).1 = true → UnsafeKey (dataIter D) s1 = some x → x.Key < r.start →
      (∃ s2, Next (dataIter D) s1 = some s2 ∧
        ∀ y, (Valid s2).1 = true → UnsafeKey (dataIter D) s2 = some y → y.Key = r.start →
          s2.rangeKeysEnd = (r.versions.length : Int) ∧
          ∃ n out, scanLoop (dataIter D) (Next (dataIter D)) n s2 = some out ∧
            (out.map Prod.fst).Pairwise MVCCKey.Less ∧
            ∀ v ∈ r.versions,
              ((⟨r.start, v.Timestamp⟩, v.Value) : MVCCKey × Value) ∈ out) ∧
      (∃ s2, NextKey (dataIter D) s1 = some s2 ∧
        ∀ y, (Valid s2).1 = true → UnsafeKey (dataIter D) s2 = some y → y.Key = r.start →
          s2.rangeKeysEnd = (r.versions.length : Int) ∧
          ∃ n out, scanLoop (dataIter D) (Next (dataIter D)) n s2 = some out ∧
            (out.map Prod.fst).Pairwise MVCCKey.Less ∧
            ∀ v ∈ r.versions,
              ((⟨r.start, v.Timestamp⟩, v.Value) : MVCCKey × Value) ∈ out)) := by
  have hra := hwf.rangeAt_start hr
  refine ⟨?_, ?_, fun s0 y h1 h2 h3 h4 => seekGE_span_start hwf hst hr k h1 h2 h3 h4, ?_⟩
  · obtain ⟨n, out, h1, h2, h3⟩ := forwardScan_spec hwf hst k
    refine ⟨n, out, h1, h2, fun v hv => ?_⟩
    rw [h3]
    constructor
    · rintro ⟨-, h, -⟩
      exact h
    · intro h
      exact ⟨Dataset.isExposed_full hra hv (Or.inl rfl), h, (hwf.valueOf_syn hra hv).symm⟩
  · intro hk hex
    obtain ⟨s0, hseek, hland⟩ := seekGE_lands hwf hst k
    have hv : ∃ v ∈ r.versions, ¬ MVCCKey.Less ⟨r.start, v.Timestamp⟩ k := by
      rcases hex with h0 | ⟨v, hv, hle⟩
      · obtain ⟨v0, hv0⟩ :=
          List.exists_mem_of_ne_nil _ (hwf.range_ok hr).2.2.1
        refine ⟨v0, hv0, ?_⟩
        rw [MVCCKey.less_mk_left]
        omega
      · refine ⟨v, hv, ?_⟩
        have := versionsSorted_ne_zero (hwf.range_ok hr).2.2.2 v hv
        rw [MVCCKey.less_mk_left]
        omega
    obtain ⟨v, hv, hnl⟩ := hv
    have hexp : D.isExposed (if st.emitOnSeekGE = true then k.Key else 0)
        ⟨r.start, v.Timestamp⟩ := Dataset.isExposed_full hra hv (Or.inl rfl)
    rcases hland with ⟨-, hnone⟩ | ⟨y, hy, hky, hmin⟩
    · exact absurd (hnone _ hexp) hnl
    · have hkey : y.Key = r.start := by
        have h1 := hmin _ hexp hnl
        rw [MVCCKey.less_mk_left] at h1
        unfold MVCCKey.Less at hky
        omega
      exact ⟨s0, y, hseek, fwdAt_valid hy, fwdAt_key hy, hkey,
        fwdAt_end_full hwf hy (by rw [hkey]; exact hra) (Or.inl hkey)⟩
  · intro emitOnSeekGE ops s1 x hrun hvalid hkey hx
    obtain ⟨s, hs, htr⟩ := tracked_run hwf ops (freshIter emitOnSeekGE)
      (Or.inl (fresh_freshIter emitOnSeekGE))
    rw [hrun] at hs
    cases hs
    exact ⟨next_span_start hwf htr hvalid hkey hr hx,
      nextKey_span_start hwf htr hvalid hkey hr hx⟩

/-- C3 (amended), at an instance: over `scenarioAhead` (point `a@5`, versions 20
and 10 over `[b, e)`), `SeekGE(a)` then `Next` until invalid exposes `a@5`,
`(b, 20)`, `(b, 10)`; from `a@5`, where `SeekGE(a)` leaves the adapter, `Next` lands
on `(b, 20)` with `rangeKeysEnd = 2` and the forward steps expose `(b, 20)` and
`(b, 10)`. -/
theorem span_start_synthesis_witness :
    (forwardScan (dataIter scenarioAhead) ⟨1, 0⟩ 5 (freshIter false) =
        some [(⟨1, 5⟩, some [5]), (⟨2, 20⟩, some [20]), (⟨2, 10⟩, some [10])] ∧
      (PosOp.run (dataIter scenarioAhead) [PosOp.seekGE ⟨1, 0⟩] (freshIter false)).map
        (fun s => ((Valid s).1, UnsafeKey (dataIter scenarioAhead) s)) =
        some (true, some ⟨1, 5⟩) ∧
      (PosOp.run (dataIter scenarioAhead) [PosOp.seekGE ⟨1, 0⟩, PosOp.next]
        (freshIter false)).map
        (fun s => ((Valid s).1, UnsafeKey (dataIter scenarioAhead) s, s.rangeKeysEnd)) =
        some (true, some ⟨2, 20⟩, 2)) ∧
      ∀ s1, PosOp.run (dataIter scenarioAhead) [PosOp.seekGE ⟨1, 0⟩] (freshIter false) =
          some s1 → (Valid s1).1 = true →
        UnsafeKey (dataIter scenarioAhead) s1 = some ⟨1, 5⟩ →
        ∃ s2, Next (dataIter scenarioAhead) s1 = some s2 ∧
          ∀ y, (Valid s2).1 = true → UnsafeKey (dataIter scenarioAhead) s2 = some y →
            y.Key = 2 →
            s2.rangeKeysEnd = 2 ∧
            ∃ n out, scanLoop (dataIter scenarioAhead) (Next (dataIter scenarioAhead)) n s2 =
                some out ∧
              (out.map Prod.fst).Pairwise MVCCKey.Less ∧
              ∀ v ∈ [(⟨20, some [20]⟩ : MVCCRangeKeyVersion), ⟨10, some [10]⟩],
                ((⟨2, v.Timestamp⟩, v.Value) : MVCCKey × Value) ∈ out :=
  ⟨⟨by decide, by decide, by decide⟩, fun s1 h1 h2 h3 =>
    ((span_start_synthesis scenarioAhead (by decide) (freshIter false) (ready_fresh _ _)
      ⟨2, 5, [⟨20, some [20]⟩, ⟨10, some [10]⟩]⟩ (by decide) ⟨1, 0⟩).2.2.2
        false [PosOp.seekGE ⟨1, 0⟩] s1 ⟨1, 5⟩ h1 h2 h3 (by decide)).1⟩

/-! ## Seeks onto an invalid position -/

/-- C23: over an underlying iterator whose valid range positions carry a span
start key and a non-empty version stack, in every state that public positioning calls
reach from a constructed adapter, each of `SeekGE`, `SeekIntentGE` and `SeekLT`
whose delegated seek leaves the underlying iterator invalid, with result
`(false, e)`, returns with `atPoint` false, `rangeKeys`, `rangeKeysPos` and
`rangeKeysStart` empty, `rangeKeysEnd = 0`, the empty key as `UnsafeKey` and
`(false, e)` as `Valid`. -/
theorem seek_onto_invalid {σ : Type} (I : MVCCIterator σ) (hI : SpansSet I)
    (pooled : pointSynthesizingIter σ) (parent : σ) (emitOnSeekGE : Bool) (ops : List PosOp)
    (i : pointSynthesizingIter σ)
    (hrun : PosOp.run I ops (newPointSynthesizingIter (release pooled) parent emitOnSeekGE) =
      some i) :
    ∃ it, i.iter = some it ∧
      (∀ k e, I.Valid (I.SeekGE k it) = (false, e) →
        ∃ s, SeekGE I k i = some s ∧ s.iter = some (I.SeekGE k it) ∧ s.atPoint = false ∧
          s.rangeKeys = [] ∧ s.rangeKeysPos = 0 ∧ s.rangeKeysStart = 0 ∧ s.rangeKeysEnd = 0 ∧
          UnsafeKey I s = some ⟨0, 0⟩ ∧ Valid s = (false, e)) ∧
      (∀ k u e, I.Valid (I.SeekIntentGE k u it) = (false, e) →
        ∃ s, SeekIntentGE I k u i = some s ∧ s.iter = some (I.SeekIntentGE k u it) ∧
          s.atPoint = false ∧ s.rangeKeys = [] ∧ s.rangeKeysPos = 0 ∧ s.rangeKeysStart = 0 ∧
          s.rangeKeysEnd = 0 ∧ UnsafeKey I s = some ⟨0, 0⟩ ∧ Valid s = (false, e)) ∧
      (∀ k e, I.Valid (I.SeekLT k it) = (false, e) →
        ∃ s, SeekLT I k i = some s ∧ s.iter = some (I.SeekLT k it) ∧ s.atPoint = false ∧
          s.rangeKeys = [] ∧ s.rangeKeysPos = 0 ∧ s.rangeKeysStart = 0 ∧ s.rangeKeysEnd = 0 ∧
          UnsafeKey I s = some ⟨0, 0⟩ ∧ Valid s = (false, e)) := by
  obtain ⟨it, hit⟩ := run_iter_some hrun ⟨parent, rfl⟩
  have hc : KeysCleared i := run_keysCleared hI pooled parent emitOnSeekGE hrun
  have hp : (if i.rangeKeys.length = 0 then i.rangeKeysPos else 0) = 0 := by
    by_cases h0 : i.rangeKeys.length = 0
    · rw [if_pos h0]; exact (hc (List.length_eq_zero.mp h0)).1
    · rw [if_neg h0]
  have hs : (if i.rangeKeys.length = 0 then i.rangeKeysStart else 0) = 0 := by
    by_cases h0 : i.rangeKeys.length = 0
    · rw [if_pos h0]; exact (hc (List.length_eq_zero.mp h0)).2
    · rw [if_neg h0]
  obtain ⟨f1, f2, f3⟩ := seek_invalid_fields I i it hit
  refine ⟨it, hit, fun k e hv => ?_, fun k u e hv => ?_, fun k e hv => ?_⟩
  · obtain ⟨s, h1, h2, h3, h4, h5, h6, h7, h8, h9⟩ := f1 k (by rw [hv])
    rw [hv] at h9
    exact ⟨s, h1, h2, h3, h4, h6.trans hp, h7.trans hs, h5, h8, h9⟩
  · obtain ⟨s, h1, h2, h3, h4, h5, h6, h7, h8, h9⟩ := f2 k u (by rw [hv])
    rw [hv] at h9
    exact ⟨s, h1, h2, h3, h4, h6.trans hp, h7.trans hs, h5, h8, h9⟩
  · obtain ⟨s, h1, h2, h3, h4, h5, h6, h7, h8, h9⟩ := f3 k (by rw [hv])
    rw [hv] at h9
    exact ⟨s, h1, h2, h3, h4, h6.trans hp, h7.trans hs, h5, h8, h9⟩

/-- C23, at an instance: over `scenarioPointBelow` (range `[a, c)` at 10, point
`a@5`) with an
underlying iterator that reports the error `io` past the last record, after
`SeekGE(a)` has loaded the range keys of the span, `SeekGE(9)` leaves the
underlying iterator past the last record, and the adapter returns with
everything cleared and `(false, io)` as `Valid`. -/
theorem seek_onto_invalid_witness :
    (PosOp.run (faultyIter scenarioPointBelow "io") [PosOp.seekGE ⟨1, 0⟩] (freshIter false)).map
        (fun s => (s.iter, s.rangeKeys.length, s.rangeKeysPos, s.rangeKeysStart)) =
        some (some (DataCursor.onKey ⟨1, 5⟩), 1, 1, 1) ∧
      (faultyIter scenarioPointBelow "io").Valid
        ((faultyIter scenarioPointBelow "io").SeekGE ⟨9, 0⟩ (DataCursor.onKey ⟨1, 5⟩)) =
        (false, some "io") ∧
      ∀ i, PosOp.run (faultyIter scenarioPointBelow "io") [PosOp.seekGE ⟨1, 0⟩] (freshIter false) =
          some i →
        ∃ it, i.iter = some it ∧
          ∀ e, (faultyIter scenarioPointBelow "io").Valid
              ((faultyIter scenarioPointBelow "io").SeekGE ⟨9, 0⟩ it) = (false, e) →
            ∃ s, SeekGE (faultyIter scenarioPointBelow "io") ⟨9, 0⟩ i = some s ∧
              s.atPoint = false ∧ s.rangeKeys = [] ∧ s.rangeKeysPos = 0 ∧
              s.rangeKeysStart = 0 ∧ s.rangeKeysEnd = 0 ∧
              UnsafeKey (faultyIter scenarioPointBelow "io") s = some ⟨0, 0⟩ ∧
              Valid s = (false, e) :=
  ⟨by decide, by decide, fun i h => by
    obtain ⟨it, hit, h1, -⟩ := seek_onto_invalid (faultyIter scenarioPointBelow "io")
      (spansSet_faultyIter (by decide) "io") _ DataCursor.before false _ i h
    refine ⟨it, hit, fun e he => ?_⟩
    obtain ⟨s, a1, -, a3, a4, a5, a6, a7, a8, a9⟩ := h1 ⟨9, 0⟩ e he
    exact ⟨s, a1, a3, a4, a5, a6, a7, a8, a9⟩⟩

/-! ## Scans over a dataset -/

/-- C1 (forward-scan reference): over the faithful iterator of a well-formed
dataset, with `emitOnSeekGE` disabled, `SeekGE` to an unversioned key at or below
every position followed by `Next` until `Valid` is false returns, and exposes in
strictly increasing MVCC order, each once, exactly the records of the reference:
every real point, and the synthesized point `(K, v.timestamp)` with value
`v.value` for the covering range versions `v` and keys `K` where `K` is the start
key of the span of `v` or carries a real timestamped point below `v`. -/
theorem forward_scan_reference (D : Dataset) (hwf : D.WF) (st : DataIter) (hst : Ready D st)
    (hemit : st.emitOnSeekGE = false) (k : MVCCKey) (hk : k.Timestamp = 0)
    (hmin : ∀ p ∈ D.positions, k.Key ≤ p.Key) :
    ∃ n out, forwardScan (dataIter D) k n st = some out ∧
      (out.map Prod.fst).Pairwise MVCCKey.Less ∧ ∀ rec, rec ∈ out ↔ D.Reference rec := by
  obtain ⟨n, out, h1, h2, h3⟩ := forwardScan_spec hwf hst k
  rw [hemit] at h3
  refine ⟨n, out, h1, h2, fun rec => ?_⟩
  rw [h3 rec, ← hwf.exposed_iff_reference rec]
  constructor
  · rintro ⟨ha, -, hc⟩
    exact ⟨ha, hc⟩
  · rintro ⟨ha, hc⟩
    exact ⟨ha, hwf.exposed_not_less_min hk hmin ha, hc⟩

/-- C1, at an instance: range `[a, c)@10` with the point `a@5`; the forward
scan from `a` yields the synthesized `(a, 10)`, then the real `(a, 5)`. -/
theorem forward_scan_reference_witness :
    scenarioPointBelow.WF ∧
      forwardScan (dataIter scenarioPointBelow) ⟨1, 0⟩ 5 (freshIter false) =
        some [(⟨1, 10⟩, some [10]), (⟨1, 5⟩, some [5])] ∧
      ∃ n out, forwardScan (dataIter scenarioPointBelow) ⟨1, 0⟩ n (freshIter false) = some out ∧
        (out.map Prod.fst).Pairwise MVCCKey.Less ∧
        ∀ rec, rec ∈ out ↔ scenarioPointBelow.Reference rec :=
  ⟨by decide, by decide,
    forward_scan_reference scenarioPointBelow (by decide) (freshIter false) (ready_fresh _ _)
      rfl ⟨1, 0⟩ rfl (by decide)⟩

/-- C7 (reverse scan mirrors forward scan): over the faithful iterator of a
well-formed dataset, with `emitOnSeekGE` disabled, the records exposed by
`SeekLT` past the largest key followed by `Prev` until invalid are the reverse of
the records exposed by `SeekGE` at the smallest key followed by `Next` until
invalid; both scans return. -/
theorem reverse_scan_mirrors (D : Dataset) (hwf : D.WF) (st st' : DataIter)
    (hst : Ready D st) (hst' : Ready D st') (hemit : st.emitOnSeekGE = false)
    (lo hi : MVCCKey) (hlo : lo.Timestamp = 0) (hhi : hi.Timestamp = 0)
    (hmin : ∀ p ∈ D.positions, lo.Key ≤ p.Key) (hmax : ∀ p ∈ D.positions, p.Key < hi.Key) :
    ∃ n m out, forwardScan (dataIter D) lo n st = some out ∧
      reverseScan (dataIter D) hi m st' = some out.reverse := by
  obtain ⟨n, outF, h1, h2, h3⟩ := forwardScan_spec hwf hst lo
  rw [hemit] at h3
  obtain ⟨m, outR, h4, h5, h6⟩ := reverseScan_spec hwf hst' hi hhi
  have : outF = outR.reverse := by
    apply sorted_records_unique h2 h5
    intro rec
    rw [List.mem_reverse, h3 rec, h6 rec]
    constructor
    · rintro ⟨ha, -, hc⟩
      exact ⟨ha, hwf.exposed_less_max hmax ha, hc⟩
    · rintro ⟨ha, -, hc⟩
      exact ⟨ha, hwf.exposed_not_less_min hlo hmin ha, hc⟩
  refine ⟨n, m, outF, h1, ?_⟩
  rw [h4, this, List.reverse_reverse]

/-- C7, at an instance: range `[a, c)@10` with the point `a@5` gives `(a, 10)`,
`(a, 5)` forward and `(a, 5)`, `(a, 10)` in reverse. -/
theorem reverse_scan_mirrors_witness :
    forwardScan (dataIter scenarioPointBelow) ⟨1, 0⟩ 5 (freshIter false) =
        some [(⟨1, 10⟩, some [10]), (⟨1, 5⟩, some [5])] ∧
      reverseScan (dataIter scenarioPointBelow) ⟨3, 0⟩ 5 (freshIter false) =
        some [(⟨1, 5⟩, some [5]), (⟨1, 10⟩, some [10])] ∧
      ∃ n m out, forwardScan (dataIter scenarioPointBelow) ⟨1, 0⟩ n (freshIter false) = some out ∧
        reverseScan (dataIter scenarioPointBelow) ⟨3, 0⟩ m (freshIter false) =
          some out.reverse :=
  ⟨by decide, by decide,
    reverse_scan_mirrors scenarioPointBelow (by decide) (freshIter false) (freshIter false)
      (ready_fresh _ _) (ready_fresh _ _) rfl ⟨1, 0⟩ ⟨3, 0⟩ rfl rfl (by decide) (by decide)⟩

/-- C6 (no duplication across direction reversal): with `emitOnSeekGE` disabled,
over the faithful iterator of a well-formed dataset, from the position reached by
a `SeekGE`, for every `N` such that `N` calls to `Next` keep the adapter valid,
`N` calls to `Next` followed by `j ≤ N` calls to `Prev` return and leave the
adapter valid on the key and value that `N - j` calls to `Next` expose; for
`j = N` these are the original key and value. -/
theorem no_duplication_across_reversal (D : Dataset) (hwf : D.WF) (st : DataIter)
    (hst : Ready D st) (hemit : st.emitOnSeekGE = false) (k : MVCCKey) :
    ∃ s0, SeekGE (dataIter D) k st = some s0 ∧
      ∀ N : Nat,
        (∀ j, j ≤ N → ∃ s, stepN (Next (dataIter D)) j s0 = some s ∧ (Valid s).1 = true) →
        ∃ sN, stepN (Next (dataIter D)) N s0 = some sN ∧
          ∀ j, j ≤ N → ∃ s t x val,
            stepN (Next (dataIter D)) (N - j) s0 = some s ∧
            stepN (Prev (dataIter D)) j sN = some t ∧
            Valid s = (true, none) ∧ Valid t = (true, none) ∧
            UnsafeKey (dataIter D) s = some x ∧ UnsafeKey (dataIter D) t = some x ∧
            UnsafeValue (dataIter D) s = some val ∧ UnsafeValue (dataIter D) t = some val := by
  obtain ⟨s0, hseek, hland⟩ := seekGE_lands hwf hst k
  rw [hemit] at hland
  refine ⟨s0, hseek, fun N hvalid => ?_⟩
  have hat : ∃ y, FwdAt D 0 s0 y := by
    rcases landsFrom_settled hland with h | hd
    · exact h
    · obtain ⟨s, hs, hv⟩ := hvalid 0 (Nat.zero_le _)
      have : s = s0 := by
        have h0 : stepN (Next (dataIter D)) 0 s0 = some s0 := rfl
        rw [h0] at hs
        exact (Option.some.inj hs).symm
      subst this
      rw [fwdDone_valid hd] at hv
      cases hv
  obtain ⟨y0, hy0⟩ := hat
  obtain ⟨sN, hN, hall⟩ := chain_back hwf N s0 y0 hy0 hvalid
  refine ⟨sN, hN, fun j hj => ?_⟩
  obtain ⟨s, t, y, h1, h2, h3, h4⟩ := hall j hj
  obtain ⟨a1, a2, a3⟩ := at_observe hwf (Or.inl h3 : FwdAt D 0 s y ∨ RevAt D 0 s y)
  obtain ⟨b1, b2, b3⟩ := at_observe hwf h4
  exact ⟨s, t, y, D.valueOf y, h1, h2, a1, b1, a2, b2, a3, b3⟩

/-- C6, at an instance: over `scenarioShadow`, from `SeekGE(a)`, two `Next`
and two `Prev` lead back to `(a, 20)`. -/
theorem no_duplication_across_reversal_witness :
    scenarioShadow.WF ∧
      ((SeekGE (dataIter scenarioShadow) ⟨1, 0⟩ (freshIter false)).bind
        (stepN (Next (dataIter scenarioShadow)) 2)).bind
          (fun s => (stepN (Prev (dataIter scenarioShadow)) 2 s).bind
            (UnsafeKey (dataIter scenarioShadow))) = some ⟨1, 20⟩ ∧
      ∃ s0, SeekGE (dataIter scenarioShadow) ⟨1, 0⟩ (freshIter false) = some s0 ∧
        ∀ N : Nat,
          (∀ j, j ≤ N → ∃ s, stepN (Next (dataIter scenarioShadow)) j s0 = some s ∧
            (Valid s).1 = true) →
          ∃ sN, stepN (Next (dataIter scenarioShadow)) N s0 = some sN ∧
            ∀ j, j ≤ N → ∃ s t x val,
              stepN (Next (dataIter scenarioShadow)) (N - j) s0 = some s ∧
              stepN (Prev (dataIter scenarioShadow)) j sN = some t ∧
              Valid s = (true, none) ∧ Valid t = (true, none) ∧
              UnsafeKey (dataIter scenarioShadow) s = some x ∧
              UnsafeKey (dataIter scenarioShadow) t = some x ∧
              UnsafeValue (dataIter scenarioShadow) s = some val ∧
              UnsafeValue (dataIter scenarioShadow) t = some val :=
  ⟨by decide, by decide,
    no_duplication_across_reversal scenarioShadow (by decide) (freshIter false)
      (ready_fresh _ _) rfl ⟨1, 0⟩⟩

/-- C8 (`emitOnSeekGE` mode): with `emitOnSeekGE` enabled, over the faithful
iterator of a well-formed dataset, an unversioned `SeekGE(K)` to a key inside a
span with version stack `V` leaves the adapter valid at key `K` with
`rangeKeysEnd = |V|`, and `Next` until invalid then exposes, in increasing MVCC
order, the synthesized point `(K, v.timestamp)` with value `v.value` for every
`v` in `V`, whatever the points of the dataset. -/
theorem emit_on_seekGE (D : Dataset) (hwf : D.WF) (st : DataIter) (hst : Ready D st)
    (hemit : st.emitOnSeekGE = true) (K : Nat) (r : RangeKV) (hr : D.rangeAt K = some r) :
    ∃ s0, SeekGE (dataIter D) ⟨K, 0⟩ st = some s0 ∧ Valid s0 = (true, none) ∧
      (∃ x, UnsafeKey (dataIter D) s0 = some x ∧ x.Key = K) ∧
      s0.rangeKeysEnd = (r.versions.length : Int) ∧
      ∃ n out, scanLoop (dataIter D) (Next (dataIter D)) n s0 = some out ∧
        (out.map Prod.fst).Pairwise MVCCKey.Less ∧
        ∀ v ∈ r.versions, ((⟨K, v.Timestamp⟩, v.Value) : MVCCKey × Value) ∈ out := by
  obtain ⟨s0, hseek, hland⟩ := seekGE_lands hwf hst ⟨K, 0⟩
  rw [hemit] at hland
  simp only [if_true] at hland
  have hexp : ∀ v ∈ r.versions, D.isExposed K ⟨K, v.Timestamp⟩ ∧
      ¬ MVCCKey.Less ⟨K, v.Timestamp⟩ ⟨K, 0⟩ := by
    intro v hv
    refine ⟨Dataset.isExposed_full hr hv (Or.inr rfl), ?_⟩
    rw [MVCCKey.less_mk_left]
    simp
  obtain ⟨v0, hv0⟩ := List.exists_mem_of_ne_nil _ (hwf.range_ok (Dataset.rangeAt_some hr).1).2.2.1
  rcases hland with ⟨-, hnone⟩ | ⟨y, hy, hky, hmin⟩
  · exact absurd (hnone _ (hexp v0 hv0).1) (hexp v0 hv0).2
  · have hkey : y.Key = K := by
      have h1 := hmin _ (hexp v0 hv0).1 (hexp v0 hv0).2
      rw [MVCCKey.less_mk_left] at h1
      rw [MVCCKey.less_mk_right] at hky
      omega
    obtain ⟨L, hL⟩ := D.exposed_finite K
    obtain ⟨out, ho, hsorted, hmem⟩ := scan_fwdAt hwf L hL _ s0 y hy (le_refl _)
    refine ⟨s0, hseek, fwdAt_valid hy, ⟨y, fwdAt_key hy, hkey⟩,
      fwdAt_end_full hwf hy (by rw [hkey]; exact hr) (Or.inr hkey), _, out, ho, hsorted, ?_⟩
    intro v hv
    rw [hmem]
    exact ⟨(hexp v hv).1, hmin _ (hexp v hv).1 (hexp v hv).2, (hwf.valueOf_syn hr hv).symm⟩

/-- C8, at an instance: over `scenarioMidPoint` (range `[a, c)@10`, point
`b@5`), with `emitOnSeekGE` enabled, `SeekGE(b)` and `Next` until invalid expose
`(b, 10)` and `(b, 5)`. -/
theorem emit_on_seekGE_witness :
    forwardScan (dataIter scenarioMidPoint) ⟨2, 0⟩ 5 (freshIter true) =
        some [(⟨2, 10⟩, some [10]), (⟨2, 5⟩, some [5])] ∧
      ∃ s0, SeekGE (dataIter scenarioMidPoint) ⟨2, 0⟩ (freshIter true) = some s0 ∧
        Valid s0 = (true, none) ∧ s0.rangeKeysEnd = 1 := by
  refine ⟨by decide, ?_⟩
  obtain ⟨s0, h1, h2, -, h4, -⟩ := emit_on_seekGE scenarioMidPoint (by decide) (freshIter true)
    (ready_fresh _ _) rfl 2 ⟨1, 3, [⟨10, some [10]⟩]⟩ rfl
  exact ⟨s0, h1, h2, h4⟩

/-! ## Seeks over a dataset -/

/-- C5, counterexample: over `scenarioShadow` (versions 20 and 10 over
`[a, d)`, point `a@15`), `SeekGE(a@10)` leaves the adapter valid on the
synthesized point `(a, 10)`, not on the real point `(a, 15)`. -/
theorem seek_lands_below_shadowing_point :
    (SeekGE (dataIter scenarioShadow) ⟨1, 10⟩ (freshIter false)).map
        (fun s => (Valid s, s.atPoint, UnsafeKey (dataIter scenarioShadow) s)) =
        some ((true, none), false, some ⟨1, 10⟩) ∧
      (SeekGE (dataIter scenarioShadow) ⟨1, 10⟩ (freshIter false)).bind
        (UnsafeValue (dataIter scenarioShadow)) = some (some [10]) := by
  decide

/-- C5 (amended): over the faithful iterator of a well-formed dataset, for a
key `K` with a real point at `P` and a covering range version `v` at `T ≤ P`,
`SeekGE(K@T)` returns and never leaves the adapter on the real point `(K, P)`,
which precedes the seek key; it leaves the adapter on the synthesized point
`(K, T)` with value `v.value` whenever `K` is the start key of the span, or
`emitOnSeekGE` is enabled, or `K` carries a real timestamped point below `T`. -/
theorem seek_against_shadowing_point (D : Dataset) (hwf : D.WF) (st : DataIter)
    (hst : Ready D st) (K P T : Nat) (r : RangeKV) (v : MVCCRangeKeyVersion)
    (hp : (D.pointAt ⟨K, P⟩).isSome = true) (hr : D.rangeAt K = some r)
    (hv : v ∈ r.versions) (hvT : v.Timestamp = T) (hPT : T ≤ P) :
    ∃ s0, SeekGE (dataIter D) ⟨K, T⟩ st = some s0 ∧
      UnsafeKey (dataIter D) s0 ≠ some ⟨K, P⟩ ∧
      ((K = r.start ∨ st.emitOnSeekGE = true ∨
          ∃ p ∈ D.points, p.key = K ∧ p.ts ≠ 0 ∧ p.ts < T) →
        Valid s0 = (true, none) ∧ s0.atPoint = false ∧
          UnsafeKey (dataIter D) s0 = some ⟨K, T⟩ ∧
          UnsafeValue (dataIter D) s0 = some v.Value) := by
  have hs := (hwf.range_ok (Dataset.rangeAt_some hr).1).2.2.2
  have hT0 : T ≠ 0 := by
    have := versionsSorted_ne_zero hs v hv
    omega
  have hTP : T ≠ P := by
    obtain ⟨p, hp1, hp2, hp3⟩ := Dataset.pointAt_isSome.1 hp
    have := hwf.ts_ne hp1 (Dataset.rangeAt_some hr).1
      ⟨by have := (Dataset.rangeAt_some hr).2.1; simp only at hp2; omega,
        by have := (Dataset.rangeAt_some hr).2.2; simp only at hp2; omega⟩ hv
    simp only at hp3
    omega
  have hless : MVCCKey.Less ⟨K, P⟩ ⟨K, T⟩ := by
    rw [MVCCKey.less_mk_left]
    right
    exact ⟨rfl, Or.inr ⟨hT0, Nat.lt_of_le_of_ne hPT hTP⟩⟩
  have hK0 : K ≠ 0 := hwf.covered_key_ne hr
  obtain ⟨s0, hseek, hland⟩ := seekGE_lands hwf hst ⟨K, T⟩
  refine ⟨s0, hseek, ?_, ?_⟩
  · rcases hland with ⟨hd, -⟩ | ⟨y, hy, hky, -⟩
    · rw [fwdDone_key hd]
      intro h
      cases h
      exact hK0 rfl
    · rw [fwdAt_key hy]
      intro h
      cases h
      exact hky hless
  · intro hsyn
    have hexp : D.isExposed (if st.emitOnSeekGE = true then K else 0) ⟨K, T⟩ := by
      right
      refine ⟨r, hr, v, hv, hvT, ?_⟩
      rw [Dataset.synthAt_iff]
      rcases hsyn with h | h | ⟨p, h1, h2, h3, h4⟩
      · exact Or.inl h
      · exact Or.inr (Or.inl (by rw [if_pos h]))
      · exact Or.inr (Or.inr ⟨p, h1, h2, h3, by omega⟩)
    rcases hland with ⟨-, hnone⟩ | ⟨y, hy, hky, hmin⟩
    · exact absurd (hnone _ hexp) (MVCCKey.Less.irrefl _)
    · have hyk : y = ⟨K, T⟩ := by
        rcases MVCCKey.Less.total y ⟨K, T⟩ with h | h | h
        · exact absurd h hky
        · exact h
        · exact absurd h (hmin _ hexp (MVCCKey.Less.irrefl _))
      subst hyk
      have hnp : D.pointAt ⟨K, T⟩ = none := by
        have := hwf.syn_not_point hr hv
        rw [hvT] at this
        exact this
      refine ⟨fwdAt_valid hy, ?_, fwdAt_key hy, ?_⟩
      · rw [fwdAt_atPoint hwf hy, hnp]
        rfl
      · rw [fwdAt_value hwf hy]
        have := hwf.valueOf_syn hr hv
        rw [hvT] at this
        rw [this]

/-- C5 (amended), at an instance: `scenarioShadow`, `K = a`, `P = 15`,
`T = 10`. -/
theorem seek_against_shadowing_point_witness :
    ∃ s0, SeekGE (dataIter scenarioShadow) ⟨1, 10⟩ (freshIter false) = some s0 ∧
      UnsafeKey (dataIter scenarioShadow) s0 ≠ some ⟨1, 15⟩ ∧
      Valid s0 = (true, none) ∧ s0.atPoint = false ∧
      UnsafeKey (dataIter scenarioShadow) s0 = some ⟨1, 10⟩ := by
  obtain ⟨s0, h1, h2, h3⟩ := seek_against_shadowing_point scenarioShadow (by decide)
    (freshIter false) (ready_fresh _ _) 1 15 10 ⟨1, 4, [⟨20, some [20]⟩, ⟨10, some [10]⟩]⟩
    ⟨10, some [10]⟩ (by decide) rfl (by decide) rfl (by decide)
  obtain ⟨h4, h5, h6, -⟩ := h3 (Or.inl rfl)
  exact ⟨s0, h1, h2, h4, h5, h6⟩

/-- C9, counterexample: over `scenarioMidPoint` (range `[a, c)@10`, point
`b@5`), with `emitOnSeekGE` disabled, `SeekGE(b)` lands the underlying iterator on
a bare range position at `b`, which is not the start key `a`, and the adapter
ends valid on the synthesized point `(b, 10)`. -/
theorem mid_span_seek_synthesizes :
    (dataIter scenarioMidPoint).HasPointAndRange
        ((dataIter scenarioMidPoint).SeekGE ⟨2, 0⟩ DataCursor.before) = (false, true) ∧
      (dataIter scenarioMidPoint).UnsafeKey
        ((dataIter scenarioMidPoint).SeekGE ⟨2, 0⟩ DataCursor.before) = ⟨2, 0⟩ ∧
      ((dataIter scenarioMidPoint).RangeBounds
        ((dataIter scenarioMidPoint).SeekGE ⟨2, 0⟩ DataCursor.before)).Key = 1 ∧
      (SeekGE (dataIter scenarioMidPoint) ⟨2, 0⟩ (freshIter false)).map
        (fun s => (Valid s, s.atPoint, UnsafeKey (dataIter scenarioMidPoint) s)) =
        some ((true, none), false, some ⟨2, 10⟩) := by
  decide

/-- C9 (amended): with `emitOnSeekGE` disabled, over the faithful iterator of a
well-formed dataset, when `SeekGE(k)` lands the underlying iterator on a bare
range position whose key is not the start key of its span, the underlying
iterator is stepped forward once and the adapter's position is the one that
`updateSeekGEPosition` derives from that next position (`updatePosition` when the
iterator is exhausted); the adapter then exposes a synthesized point with the key
of `k` only above a real timestamped point of that key. -/
theorem mid_span_seek (D : Dataset) (hwf : D.WF) (st : DataIter) (hst : Ready D st)
    (hemit : st.emitOnSeekGE = false) (k : MVCCKey) (r : RangeKV)
    (hp : (D.pointAt k).isSome = false) (hr : D.rangeAt k.Key = some r)
    (hns : r.start ≠ k.Key) :
    (SeekGE (dataIter D) k st =
      match D.nextPos k with
      | DataCursor.onKey q1 =>
        updateSeekGEPositionTail (dataIter D) k (D.pointAt q1).isSome (D.rangeAt q1.Key).isSome
          { st with reverse := false, iter := some (D.nextPos k),
                    iterValid := (D.nextPos k).isOn, iterErr := none }
      | _ =>
        updatePosition (dataIter D)
          { st with reverse := false, iter := some (D.nextPos k),
                    iterValid := (D.nextPos k).isOn, iterErr := none }) ∧
    ∃ s0, SeekGE (dataIter D) k st = some s0 ∧
      ∀ x, Valid s0 = (true, none) → s0.atPoint = false →
        UnsafeKey (dataIter D) s0 = some x → x.Key = k.Key →
        ∃ p ∈ D.points, p.key = k.Key ∧ p.ts ≠ 0 ∧ p.ts < x.Timestamp := by
  constructor
  · obtain ⟨it, hit⟩ := Option.isSome_iff_exists.1 hst.1
    rw [seekGE_eval k hit, dataIter_SeekGE_covered (Or.inr (by rw [hr]; rfl))]
    simp only [DataCursor.isOn, if_true]
    exact useek_skip k rfl hr hemit hp hns
  · obtain ⟨s0, hseek, hland⟩ := seekGE_lands hwf hst k
    rw [hemit] at hland
    refine ⟨s0, hseek, fun x hval hat hkey hxk => ?_⟩
    rcases hland with ⟨hd, -⟩ | ⟨y, hy, -, -⟩
    · rw [fwdDone_valid hd] at hval
      cases hval
    · rw [fwdAt_key hy] at hkey
      cases hkey
      have hnp : (D.pointAt x).isSome = false := by
        rw [← fwdAt_atPoint hwf hy]; exact hat
      rcases Dataset.isExposed_cases (hy.exposed hwf) with h | ⟨r', hr', j, v, -, -, h⟩
      · rw [hnp] at h; cases h
      · rw [hxk, hr] at hr'
        cases hr'
        rcases h with h | h | ⟨p, h1, h2, h3, h4⟩
        · exact absurd (hxk ▸ h).symm hns
        · exact absurd (hxk ▸ h) (hwf.covered_key_ne hr)
        · exact ⟨p, h1, h2.trans hxk, h3, h4⟩

/-- C9 (amended), at an instance: range `[a, c)@10` with no points; `SeekGE(b)`
leaves the adapter invalid, nothing is emitted at `b`. -/
theorem mid_span_seek_witness :
    (SeekGE (dataIter scenarioRangeOnly) ⟨2, 0⟩ (freshIter false)).map (fun s => Valid s) =
        some (false, none) ∧
      ∃ s0, SeekGE (dataIter scenarioRangeOnly) ⟨2, 0⟩ (freshIter false) = some s0 ∧
        ∀ x, Valid s0 = (true, none) → s0.atPoint = false →
          UnsafeKey (dataIter scenarioRangeOnly) s0 = some x → x.Key = 2 →
          ∃ p ∈ scenarioRangeOnly.points, p.key = 2 ∧ p.ts ≠ 0 ∧ p.ts < x.Timestamp :=
  ⟨by decide,
    (mid_span_seek scenarioRangeOnly (by decide) (freshIter false) (ready_fresh _ _) rfl ⟨2, 0⟩
      ⟨1, 3, [⟨10, some [10]⟩]⟩ rfl rfl (by decide)).2⟩

/-- C4, counterexample: with `emitOnSeekGE` enabled, over `scenarioRangeOnly`
(range `[a, c)@10`, no points), `SeekGE(b@15)` leaves the adapter valid on the
synthesized point `(b, 10)`, which the full forward scan `[(a, 10)]` does not
contain. -/
theorem seek_lands_outside_full_scan :
    (SeekGE (dataIter scenarioRangeOnly) ⟨2, 15⟩ (freshIter true)).map
        (fun s => (Valid s, s.atPoint, UnsafeKey (dataIter scenarioRangeOnly) s)) =
        some ((true, none), false, some ⟨2, 10⟩) ∧
      forwardScan (dataIter scenarioRangeOnly) ⟨1, 0⟩ 5 (freshIter true) =
        some [(⟨1, 10⟩, some [10])] := by
  decide

/-- C4 (amended): with `emitOnSeekGE` disabled, over the faithful iterator of a
well-formed dataset, `SeekGE(K@T)` with `T` set returns, and leaves the adapter
either invalid, every record of the full forward scan being before `K@T`, or
valid on the first record `y` of the full forward scan that is not before `K@T`
in MVCC order: when `y` has key `K` it is the newest record of the scan with key
`K` and a set timestamp at most `T`, and otherwise no such record exists and `y`
is the first record of the scan with a key above `K`. -/
theorem seek_exactness (D : Dataset) (hwf : D.WF) (st : DataIter) (hst : Ready D st)
    (hemit : st.emitOnSeekGE = false) (K T : Nat) (hT : T ≠ 0) :
    ∃ s0, SeekGE (dataIter D) ⟨K, T⟩ st = some s0 ∧
      ((Valid s0 = (false, none) ∧ ∀ rec, D.Reference rec → rec.1.Less ⟨K, T⟩) ∨
        ∃ y, Valid s0 = (true, none) ∧ UnsafeKey (dataIter D) s0 = some y ∧
          UnsafeValue (dataIter D) s0 = some (D.valueOf y) ∧ D.Reference (y, D.valueOf y) ∧
          ¬ y.Less ⟨K, T⟩ ∧ (∀ rec, D.Reference rec → ¬ rec.1.Less ⟨K, T⟩ → ¬ rec.1.Less y) ∧
          (y.Key = K → y.Timestamp ≠ 0 ∧ y.Timestamp ≤ T ∧
            ∀ rec, D.Reference rec → rec.1.Key = K → rec.1.Timestamp ≠ 0 →
              rec.1.Timestamp ≤ T → rec.1.Timestamp ≤ y.Timestamp) ∧
          (y.Key ≠ K → K < y.Key ∧
            (∀ rec, D.Reference rec → rec.1.Key = K →
              rec.1.Timestamp = 0 ∨ T < rec.1.Timestamp) ∧
            ∀ rec, D.Reference rec → K < rec.1.Key → ¬ rec.1.Less y)) := by
  obtain ⟨s0, hseek, hland⟩ := seekGE_lands hwf hst ⟨K, T⟩
  rw [hemit] at hland
  have href : ∀ rec, D.Reference rec → D.isExposed 0 rec.1 :=
    fun rec h => ((hwf.exposed_iff_reference rec).2 h).1
  refine ⟨s0, hseek, ?_⟩
  rcases hland with ⟨hd, hnone⟩ | ⟨y, hy, hky, hmin⟩
  · exact Or.inl ⟨fwdDone_valid hd, fun rec h => hnone _ (href rec h)⟩
  · right
    have hmin' : ∀ rec, D.Reference rec → ¬ rec.1.Less ⟨K, T⟩ → ¬ rec.1.Less y :=
      fun rec h => hmin _ (href rec h)
    refine ⟨y, fwdAt_valid hy, fwdAt_key hy, fwdAt_value hwf hy,
      (hwf.exposed_iff_reference (y, D.valueOf y)).1 ⟨hy.exposed hwf, rfl⟩, hky, hmin', ?_, ?_⟩
    · intro hyK
      rw [MVCCKey.less_mk_right] at hky
      refine ⟨by omega, by omega, fun rec h h1 h2 h3 => ?_⟩
      have := hmin' rec h (by rw [MVCCKey.less_mk_right]; omega)
      unfold MVCCKey.Less at this
      omega
    · intro hyK
      rw [MVCCKey.less_mk_right] at hky
      refine ⟨by omega, fun rec h h1 => ?_, fun rec h h1 => ?_⟩
      · by_contra hc
        have := hmin' rec h (by rw [MVCCKey.less_mk_right]; omega)
        unfold MVCCKey.Less at this
        omega
      · exact hmin' rec h (by rw [MVCCKey.less_mk_right]; omega)

/-- C4 (amended), at an instance: over `scenarioShadow`, `SeekGE(a@15)` lands
on the real point `(a, 15)`. -/
theorem seek_exactness_witness :
    (SeekGE (dataIter scenarioShadow) ⟨1, 15⟩ (freshIter false)).bind
        (UnsafeKey (dataIter scenarioShadow)) = some ⟨1, 15⟩ ∧
      ∃ s0, SeekGE (dataIter scenarioShadow) ⟨1, 15⟩ (freshIter false) = some s0 ∧
        ((Valid s0 = (false, none) ∧ ∀ rec, scenarioShadow.Reference rec → rec.1.Less ⟨1, 15⟩) ∨
          ∃ y, Valid s0 = (true, none) ∧ UnsafeKey (dataIter scenarioShadow) s0 = some y ∧
            ¬ y.Less ⟨1, 15⟩) := by
  refine ⟨by decide, ?_⟩
  obtain ⟨s0, h1, h2⟩ := seek_exactness scenarioShadow (by decide) (freshIter false)
    (ready_fresh _ _) rfl 1 15 (by decide)
  refine ⟨s0, h1, ?_⟩
  rcases h2 with h | ⟨y, a1, a2, -, -, a5, -⟩
  · exact Or.inl h
  · exact Or.inr ⟨y, a1, a2, a5⟩

/-- C2, counterexample: over `scenarioShadow` (versions 20 and 10 over
`[a, d)`, point `a@15`), the forward scan at `a` exposes `(a, 20)`, the real
`(a, 15)` and then `(a, 10)`; after `SeekGE(a)` and two `Next` the adapter is
valid, off the real point, on the synthesized `(a, 10)`. -/
theorem synthesized_below_point :
    forwardScan (dataIter scenarioShadow) ⟨1, 0⟩ 5 (freshIter false) =
        some [(⟨1, 20⟩, some [20]), (⟨1, 15⟩, some [15]), (⟨1, 10⟩, some [10])] ∧
      (PosOp.run (dataIter scenarioShadow) [PosOp.seekGE ⟨1, 0⟩, PosOp.next, PosOp.next]
        (freshIter false)).map
        (fun s => (Valid s, s.atPoint, UnsafeKey (dataIter scenarioShadow) s)) =
        some ((true, none), false, some ⟨1, 10⟩) := by
  decide

/-- C2 (amended): with `emitOnSeekGE` disabled, over the faithful iterator of a
well-formed dataset, every sequence of `SeekGE` and `Next` calls that begins with
a `SeekGE` returns, and whenever it leaves the adapter valid and off a real point,
the key exposed is `(K, v.timestamp)` with value `v.value` for a version `v` of
the span covering `K`, and either `K` is the start key of that span or `K`
carries a real timestamped point below `v.timestamp`. So at a key that is not a
span start, no synthesized point is exposed at or below the lowest real
timestamped point of the key. -/
theorem shadowing (D : Dataset) (hwf : D.WF) (st : DataIter) (hst : Ready D st)
    (hemit : st.emitOnSeekGE = false) (k : MVCCKey) (ops : List PosOp)
    (hops : ∀ op ∈ ops, op.isForward = true) :
    ∃ s, PosOp.run (dataIter D) (PosOp.seekGE k :: ops) st = some s ∧
      (Valid s = (true, none) → s.atPoint = false →
        ∃ x r v, UnsafeKey (dataIter D) s = some x ∧ D.rangeAt x.Key = some r ∧
          v ∈ r.versions ∧ v.Timestamp = x.Timestamp ∧
          UnsafeValue (dataIter D) s = some v.Value ∧
          (x.Key = r.start ∨ ∃ p ∈ D.points, p.key = x.Key ∧ p.ts ≠ 0 ∧ p.ts < x.Timestamp) ∧
          (x.Key ≠ r.start → ∀ T, (∀ p ∈ D.points, p.key = x.Key → p.ts ≠ 0 → T ≤ p.ts) →
            T < x.Timestamp)) := by
  obtain ⟨s1, hseek, hland⟩ := seekGE_lands hwf hst k
  rw [hemit] at hland
  obtain ⟨s, hrun, hs, -⟩ := forward_run hwf ops hops s1 (landsFrom_settled hland)
    ((seekGE_emit hseek).trans hemit)
  refine ⟨s, ?_, fun hval hat => ?_⟩
  · show (SeekGE (dataIter D) k st).bind (PosOp.run (dataIter D) ops) = some s
    rw [hseek]
    exact hrun
  · rcases hs with ⟨y, hy⟩ | hd
    · have hnp : (D.pointAt y).isSome = false := by
        rw [← fwdAt_atPoint hwf hy]; exact hat
      rcases Dataset.isExposed_cases (hy.exposed hwf) with h | ⟨r, hr, j, v, hv, hvt, h⟩
      · rw [hnp] at h; cases h
      · have hvm := List.getElem?_mem hv
        have hsyn : y.Key = r.start ∨
            ∃ p ∈ D.points, p.key = y.Key ∧ p.ts ≠ 0 ∧ p.ts < y.Timestamp := by
          rcases h with h | h | h
          · exact Or.inl h
          · exact absurd h (hwf.covered_key_ne hr)
          · exact Or.inr h
        refine ⟨y, r, v, fwdAt_key hy, hr, hvm, hvt, ?_, hsyn, ?_⟩
        · rw [fwdAt_value hwf hy]
          have := hwf.valueOf_syn hr hvm
          rw [hvt] at this
          rw [show y = ⟨y.Key, y.Timestamp⟩ from rfl, this]
        · intro hne T hT
          rcases hsyn with h | ⟨p, h1, h2, h3, h4⟩
          · exact absurd h hne
          · have := hT p h1 h2 h3
            omega
    · rw [fwdDone_valid hd] at hval
      cases hval

/-- C2 (amended), at an instance: over `scenarioMidShadow` (versions 20 and 10
over `[a, d)`, points `b@15` and `b@5`), `SeekGE(b)` and two `Next` leave the
adapter on the synthesized `(b, 10)`, above the real point `b@5`. -/
theorem shadowing_witness :
    (PosOp.run (dataIter scenarioMidShadow) [PosOp.seekGE ⟨2, 0⟩, PosOp.next, PosOp.next]
        (freshIter false)).map
        (fun s => (Valid s, s.atPoint, UnsafeKey (dataIter scenarioMidShadow) s)) =
        some ((true, none), false, some ⟨2, 10⟩) ∧
      ∃ s, PosOp.run (dataIter scenarioMidShadow)
          (PosOp.seekGE ⟨2, 0⟩ :: [PosOp.next, PosOp.next]) (freshIter false) = some s ∧
        (Valid s = (true, none) → s.atPoint = false →
          ∃ x, UnsafeKey (dataIter scenarioMidShadow) s = some x ∧
            (x.Key = 1 ∨ ∃ p ∈ scenarioMidShadow.points,
              p.key = x.Key ∧ p.ts ≠ 0 ∧ p.ts < x.Timestamp)) := by
  refine ⟨by decide, ?_⟩
  obtain ⟨s, h1, h2⟩ := shadowing scenarioMidShadow (by decide) (freshIter false)
    (ready_fresh _ _) rfl ⟨2, 0⟩ [PosOp.next, PosOp.next] (by decide)
  refine ⟨s, h1, fun hv ha => ?_⟩
  obtain ⟨x, r, v, a1, a2, -, -, -, a6, -⟩ := h2 hv ha
  refine ⟨x, a1, ?_⟩
  rcases a6 with h | h
  · left
    have hr := (Dataset.rangeAt_some a2).1
    have : r = ⟨1, 4, [⟨20, some [20]⟩, ⟨10, some [10]⟩]⟩ := by
      simpa [scenarioMidShadow] using hr
    rw [h, this]
  · exact Or.inr h

/-! ## Invariants over an arbitrary wrapped iterator -/

/-- C16 (window-bound invariant): for any wrapped iterator `I`, whatever it
does, and any pooled instance, the adapter built by `newPointSynthesizingIter`
satisfies `0 ≤ rangeKeysEnd ≤ len(rangeKeys)`, and so does every state reached
from it by a sequence of `SeekGE`, `SeekIntentGE`, `SeekLT`, `Next`, `NextKey`
and `Prev` (the empty sequence is the adapter as constructed). -/
theorem window_bound_invariant {σ : Type} (I : MVCCIterator σ)
    (pooled : pointSynthesizingIter σ) (parent : σ) (emitOnSeekGE : Bool) (ops : List PosOp)
    (s : pointSynthesizingIter σ)
    (h : PosOp.run I ops (newPointSynthesizingIter pooled parent emitOnSeekGE) = some s) :
    0 ≤ s.rangeKeysEnd ∧ s.rangeKeysEnd ≤ s.rangeKeys.length :=
  (run_keeps h).1 ⟨le_refl _, Int.ofNat_nonneg _⟩

/-- C16, at an instance: over `scenarioShadow`, after `SeekGE(a)`, `Next`,
`Prev`, `NextKey` the window is `[0, 0)` of an empty stack. -/
theorem window_bound_invariant_witness :
    (PosOp.run (dataIter scenarioShadow)
        [PosOp.seekGE ⟨1, 0⟩, PosOp.next, PosOp.prev, PosOp.nextKey] (freshIter false)).map
        (fun s => (s.rangeKeysEnd, s.rangeKeys.length)) = some (0, 0) ∧
      ∀ s, PosOp.run (dataIter scenarioShadow)
          [PosOp.seekGE ⟨1, 0⟩, PosOp.next, PosOp.prev, PosOp.nextKey] (freshIter false) = some s →
        0 ≤ s.rangeKeysEnd ∧ s.rangeKeysEnd ≤ s.rangeKeys.length :=
  ⟨by decide, fun s h => window_bound_invariant (dataIter scenarioShadow) _ _ _ _ s h⟩

/-- Errors are never masked in a build without the race assertions: for any
wrapped iterator `I` and any adapter state holding one, after a sequence of public
positioning operations that begins with a seek, if `I.Valid` reports an error `e`
at the position the wrapped iterator is left on, then `Valid` returns `e` as its
error, whatever `rangeKeysIdx` is; and in no build does it return `(true, nil)`. -/
theorem errors_never_masked {σ : Type} (I : MVCCIterator σ) (i : pointSynthesizingIter σ)
    (op : PosOp) (ops : List PosOp) (s : pointSynthesizingIter σ) (it : σ) (e : Error)
    (hop : op.isSeek = true) (h : PosOp.run I (op :: ops) i = some s)
    (hit : s.iter = some it) (herr : (I.Valid it).2 = some e) :
    (∃ b, ValidRace I false s = some (b, some e)) ∧
      ∀ raceEnabled, ValidRace I raceEnabled s ≠ some (true, none) := by
  obtain ⟨m, h1, h2⟩ := run_cons h
  obtain ⟨it', hit', hv⟩ := (run_keeps h2).synced (apply_seek_synced hop h1)
  rw [hit] at hit'
  cases hit'
  rw [hv] at herr
  simp only at herr
  have hne : ¬ (s.iterErr = none ∧ s.atPoint = false ∧ s.rangeKeysIdx ≥ 0 ∧
      s.rangeKeysIdx < s.rangeKeysEnd) := fun hc => by
    rw [hc.1] at herr
    cases herr
  have hval : Valid s = (s.iterValid, some e) := by
    unfold Valid
    rw [if_neg hne, herr]
  refine ⟨⟨s.iterValid, ?_⟩, fun raceEnabled hc => ?_⟩
  · unfold ValidRace
    rw [if_neg (by simp), hval]
  · unfold ValidRace at hc
    split at hc
    · split at hc
      · rw [hval] at hc
        have := congrArg (fun p => p.2) (Option.some.inj hc)
        cases this
      · cases hc
    · rw [hval] at hc
      have := congrArg (fun p => p.2) (Option.some.inj hc)
      cases this

/-- Errors are never masked, at an instance: over a range record `[a, c)@10`
whose iterator fails past the last record, `SeekGE(a)` leaves `rangeKeysIdx = 0`
inside the window `[0, 1)` with `atPoint` false, and `Valid` returns the error. -/
theorem errors_never_masked_witness :
    (SeekGE (faultyIter scenarioRangeOnly "io") ⟨1, 0⟩ (freshIter false)).map
        (fun s => (s.iter, s.atPoint, s.rangeKeysIdx, s.rangeKeysEnd)) =
        some (some DataCursor.after, false, 0, 1) ∧
      ∀ s, PosOp.run (faultyIter scenarioRangeOnly "io") [PosOp.seekGE ⟨1, 0⟩] (freshIter false) =
          some s → s.iter = some DataCursor.after →
        (∃ b, ValidRace (faultyIter scenarioRangeOnly "io") false s = some (b, some "io")) ∧
          ∀ raceEnabled,
            ValidRace (faultyIter scenarioRangeOnly "io") raceEnabled s ≠ some (true, none) :=
  ⟨by decide, fun s h hit =>
    errors_never_masked (faultyIter scenarioRangeOnly "io") (freshIter false)
      (PosOp.seekGE ⟨1, 0⟩) [] s DataCursor.after "io" rfl h hit rfl⟩

/-- C12 (errors are never masked), at the failing input, a race build: over the
range record `[a, c)@10` with no points, the wrapped iterator is valid on the bare
range key that `SeekGE(a)` lands on and reports the error `io` after the `Next` that
follows it; `updateSeekGEPosition` returns on that error (lines 369-371) with
`atPoint` false and `rangeKeysIdx = 0` inside `rangeKeys`, of length 1, the state
that `assertInvariants` rejects (lines 671-676). So `Valid` panics in a race
build, where the claim has it return the error; without the race assertions it
returns `(false, io)`. -/
theorem valid_panics_in_race_build :
    (faultyIter scenarioRangeOnly "io").Valid
        ((faultyIter scenarioRangeOnly "io").SeekGE ⟨1, 0⟩ DataCursor.before) = (true, none) ∧
      (faultyIter scenarioRangeOnly "io").Valid ((faultyIter scenarioRangeOnly "io").Next
        ((faultyIter scenarioRangeOnly "io").SeekGE ⟨1, 0⟩ DataCursor.before)) =
        (false, some "io") ∧
      (SeekGE (faultyIter scenarioRangeOnly "io") ⟨1, 0⟩ (freshIter false)).map
        (fun s => (s.iter, s.atPoint, s.rangeKeysIdx, s.rangeKeys.length, s.iterErr)) =
        some (some DataCursor.after, false, 0, 1, some "io") ∧
      (SeekGE (faultyIter scenarioRangeOnly "io") ⟨1, 0⟩ (freshIter false)).bind
        (assertInvariants (faultyIter scenarioRangeOnly "io")) =
        some (some "iterator error with synthetic point") ∧
      (SeekGE (faultyIter scenarioRangeOnly "io") ⟨1, 0⟩ (freshIter false)).bind
        (ValidRace (faultyIter scenarioRangeOnly "io") true) = none ∧
      (SeekGE (faultyIter scenarioRangeOnly "io") ⟨1, 0⟩ (freshIter false)).bind
        (ValidRace (faultyIter scenarioRangeOnly "io") false) = some (false, some "io") := by
  refine ⟨by decide, by decide, by decide, by decide, by decide, by decide⟩

/-- The cached validity of a constructed adapter, until the first call that
reaches the wrapped iterator: invalid, no error. -/
theorem run_synced_or_idle {σ : Type} {I : MVCCIterator σ} {pooled : pointSynthesizingIter σ}
    {parent : σ} {emitOnSeekGE : Bool} {ops : List PosOp} {s : pointSynthesizingIter σ}
    (h : PosOp.run I ops (newPointSynthesizingIter pooled parent emitOnSeekGE) = some s) :
    Synced I s ∨ (s.iterValid = false ∧ s.iterErr = none) := by
  rcases (run_keeps h).2 with ⟨-, e2, e3⟩ | hs
  · exact Or.inr ⟨e2, e3⟩
  · exact Or.inl hs

/-- C17 (real-point invariant): for any wrapped iterator `I`, in every state
reached from a constructed adapter by public positioning operations, if `I.Valid`
reports no error at the position the wrapped iterator is on and `atPoint` is
true, then `I.Valid` reports valid there and `I.HasPointAndRange` reports
`hasPoint = true`. -/
theorem real_point_invariant {σ : Type} (I : MVCCIterator σ) (pooled : pointSynthesizingIter σ)
    (parent : σ) (emitOnSeekGE : Bool) (ops : List PosOp) (op : PosOp)
    (s : pointSynthesizingIter σ) (it : σ)
    (h : PosOp.run I (ops ++ [op]) (newPointSynthesizingIter pooled parent emitOnSeekGE) = some s)
    (hit : s.iter = some it) (herr : (I.Valid it).2 = none) (hat : s.atPoint = true) :
    (I.Valid it).1 = true ∧ (I.HasPointAndRange it).1 = true := by
  obtain ⟨m, -, hop⟩ := run_snoc h
  have hap := (apply_keeps hop).2
  rcases run_synced_or_idle h with ⟨it', hit', hv⟩ | ⟨hv, he⟩
  · rw [hit] at hit'
    cases hit'
    rw [hv] at herr ⊢
    simp only at herr ⊢
    obtain ⟨h1, it2, h2, h3⟩ := hap herr hat
    rw [hit] at h2
    cases h2
    exact ⟨h1, h3⟩
  · have := (hap he hat).1
    rw [hv] at this
    cases this

/-- C17, at an instance: over `scenarioShadow`, `SeekGE(a)` then `Next` is on
the real point `a@15`. -/
theorem real_point_invariant_witness :
    (PosOp.run (dataIter scenarioShadow) ([PosOp.seekGE ⟨1, 0⟩] ++ [PosOp.next])
        (freshIter false)).map (fun s => (s.iter, s.atPoint)) =
        some (some (DataCursor.onKey ⟨1, 15⟩), true) ∧
      ∀ s, PosOp.run (dataIter scenarioShadow) ([PosOp.seekGE ⟨1, 0⟩] ++ [PosOp.next])
          (freshIter false) = some s → s.iter = some (DataCursor.onKey ⟨1, 15⟩) →
        s.atPoint = true →
        ((dataIter scenarioShadow).Valid (DataCursor.onKey ⟨1, 15⟩)).1 = true ∧
          ((dataIter scenarioShadow).HasPointAndRange (DataCursor.onKey ⟨1, 15⟩)).1 = true :=
  ⟨by decide, fun s h hit hat =>
    real_point_invariant (dataIter scenarioShadow) _ _ _ [PosOp.seekGE ⟨1, 0⟩] PosOp.next s
      (DataCursor.onKey ⟨1, 15⟩) h hit rfl hat⟩

/-! ## Transparency over an iterator without range keys -/

/-- C29 (transparency without range keys): over a wrapped iterator `I` that
never reports a range key and reports a point at every valid position, take any
non-empty sequence of `SeekGE`, `SeekLT`, `Next` and `Prev` on a constructed
adapter in which every `Next` and `Prev` is issued while the adapter is valid.
The sequence returns; the wrapped iterator is left where the same sequence of
calls, issued to it directly, leads it; `rangeKeys` is empty; the adapter's
`Valid` is the wrapped iterator's, and when it reports valid its `UnsafeKey` and
`UnsafeValue` are the wrapped iterator's. Every non-empty prefix of such a
sequence is such a sequence, so this holds after each call. -/
theorem transparency_without_ranges {σ : Type} (I : MVCCIterator σ)
    (hR : ∀ c, (I.HasPointAndRange c).2 = false)
    (hP : ∀ c, (I.Valid c).1 = true → (I.HasPointAndRange c).1 = true)
    (pooled : pointSynthesizingIter σ) (parent : σ) (emitOnSeekGE : Bool)
    (op : PosOp) (ops : List PosOp) (hops : ∀ o ∈ op :: ops, o.isPlain = true)
    (hg : PosOp.whileValid I (op :: ops)
      (newPointSynthesizingIter (release pooled) parent emitOnSeekGE) = true) :
    ∃ s, PosOp.run I (op :: ops)
        (newPointSynthesizingIter (release pooled) parent emitOnSeekGE) = some s ∧
      s.iter = some (PosOp.underRun I (op :: ops) parent) ∧ s.rangeKeys = [] ∧
      Valid s = I.Valid (PosOp.underRun I (op :: ops) parent) ∧
      ((Valid s).1 = true →
        UnsafeKey I s = some (I.UnsafeKey (PosOp.underRun I (op :: ops) parent)) ∧
        UnsafeValue I s = some (I.UnsafeValue (PosOp.underRun I (op :: ops) parent))) := by
  obtain ⟨s, hs, hit, hinv⟩ := run_plain hR hP pooled parent emitOnSeekGE (op :: ops) hops hg
  rcases hinv with ⟨h, -⟩ | hp
  · cases h
  · obtain ⟨h1, h2⟩ := passthrough_reports hp
    exact ⟨s, hs, hit, hp.2.1, h1, h2⟩

/-- C29, at an instance: over the points `a@5`, `b@7`, the sequence `SeekGE(a)`,
`Next`, `Prev`, `SeekLT(c)` leaves the wrapped iterator on index 1 and the adapter
on `b@7`. -/
theorem transparency_without_ranges_witness :
    PosOp.underRun (pointsIter twoPoints)
        [PosOp.seekGE ⟨1, 0⟩, PosOp.next, PosOp.prev, PosOp.seekLT ⟨3, 0⟩] (-1) = 1 ∧
      (PosOp.run (pointsIter twoPoints)
        [PosOp.seekGE ⟨1, 0⟩, PosOp.next, PosOp.prev, PosOp.seekLT ⟨3, 0⟩]
        (newPointSynthesizingIter
          (release ⟨none, [], 0, 0, 0, 0, false, false, false, false, none⟩) (-1) false)).bind
        (UnsafeKey (pointsIter twoPoints)) = some ⟨2, 7⟩ ∧
      ∃ s, PosOp.run (pointsIter twoPoints)
          [PosOp.seekGE ⟨1, 0⟩, PosOp.next, PosOp.prev, PosOp.seekLT ⟨3, 0⟩]
          (newPointSynthesizingIter
            (release ⟨none, [], 0, 0, 0, 0, false, false, false, false, none⟩) (-1) false) =
          some s ∧
        s.iter = some (PosOp.underRun (pointsIter twoPoints)
          [PosOp.seekGE ⟨1, 0⟩, PosOp.next, PosOp.prev, PosOp.seekLT ⟨3, 0⟩] (-1)) ∧
        s.rangeKeys = [] ∧
        Valid s = (pointsIter twoPoints).Valid (PosOp.underRun (pointsIter twoPoints)
          [PosOp.seekGE ⟨1, 0⟩, PosOp.next, PosOp.prev, PosOp.seekLT ⟨3, 0⟩] (-1)) ∧
        ((Valid s).1 = true →
          UnsafeKey (pointsIter twoPoints) s = some ((pointsIter twoPoints).UnsafeKey
            (PosOp.underRun (pointsIter twoPoints)
              [PosOp.seekGE ⟨1, 0⟩, PosOp.next, PosOp.prev, PosOp.seekLT ⟨3, 0⟩] (-1))) ∧
          UnsafeValue (pointsIter twoPoints) s = some ((pointsIter twoPoints).UnsafeValue
            (PosOp.underRun (pointsIter twoPoints)
              [PosOp.seekGE ⟨1, 0⟩, PosOp.next, PosOp.prev, PosOp.seekLT ⟨3, 0⟩] (-1)))) :=
  ⟨by decide, by decide,
    transparency_without_ranges (pointsIter twoPoints) (fun _ => rfl) (fun _ h => h)
      ⟨none, [], 0, 0, 0, 0, false, false, false, false, none⟩ (-1) false
      (PosOp.seekGE ⟨1, 0⟩) [PosOp.next, PosOp.prev, PosOp.seekLT ⟨3, 0⟩]
      (by decide) (by decide)⟩

/-! ## The cursor sentinel -/

/-- The bound of the cursor needs the errors of the wrapped iterator to persist
until the next seek. Over the range record `[a, c)@10` with the point `a@5` and
`faultyIter`, whose error past the last record is gone after a `Prev`,
`SeekGE(a@3)` and `NextKey` each leave an error, and the `Prev` after each of
them reports none; the second `Prev` ends in reverse on the valid point `a@5`
with `rangeKeysIdx = -2`, two steps before the window `[0, 1)`, a state that
`assertInvariants` (lines 695-703) rejects. -/
theorem cursor_escapes_unless_errors_persist :
    (PosOp.run (faultyIter scenarioPointBelow "io")
        [PosOp.seekGE ⟨1, 3⟩, PosOp.prev, PosOp.nextKey, PosOp.prev] (freshIter false)).map
        (fun s => (s.iter, s.reverse, s.rangeKeysIdx, s.rangeKeysEnd, s.iterValid)) =
        some (some (DataCursor.onKey ⟨1, 5⟩), true, -2, 1, true) ∧
      (PosOp.run (faultyIter scenarioPointBelow "io")
        [PosOp.seekGE ⟨1, 3⟩, PosOp.prev, PosOp.nextKey, PosOp.prev] (freshIter false)).map
        (fun s => s.iterErr) = some none ∧
      ((faultyIter scenarioPointBelow "io").Valid (DataCursor.onKey ⟨1, 5⟩)).2 = none ∧
      (PosOp.run (faultyIter scenarioPointBelow "io")
        [PosOp.seekGE ⟨1, 3⟩, PosOp.prev, PosOp.nextKey] (freshIter false)).map
        (fun s => s.iterErr) = some (some "io") := by
  refine ⟨by decide, by decide, by decide, by decide⟩

/-- The bound of the cursor over a history without a reported error, for any
wrapped iterator `I`: take any state `m` reached from a constructed
adapter, and from it a sequence of public positioning operations each of which
returns with no error cached; if `m` is the adapter as constructed, or the
sequence begins with a seek, then afterwards `rangeKeysIdx` is at most one step
outside the window: `0 ≤ rangeKeysIdx ≤ rangeKeysEnd` forward and
`-1 ≤ rangeKeysIdx ≤ rangeKeysEnd - 1` in reverse. -/
theorem clean_history_cursor_bound {σ : Type} (I : MVCCIterator σ) (pooled : pointSynthesizingIter σ)
    (parent : σ) (emitOnSeekGE : Bool) (pre ops : List PosOp) (m s : pointSynthesizingIter σ)
    (hpre : PosOp.run I pre (newPointSynthesizingIter pooled parent emitOnSeekGE) = some m)
    (hstart : pre = [] ∨ ∃ op rest, ops = op :: rest ∧ op.isSeek = true)
    (h : PosOp.runClean I ops m = some s) :
    (s.reverse = false → 0 ≤ s.rangeKeysIdx ∧ s.rangeKeysIdx ≤ s.rangeKeysEnd) ∧
      (s.reverse = true → -1 ≤ s.rangeKeysIdx ∧ s.rangeKeysIdx ≤ s.rangeKeysEnd - 1) := by
  have hg : CursorInv I s := by
    rcases hstart with rfl | ⟨op, rest, rfl, hop⟩
    · unfold PosOp.run at hpre
      injection hpre with hpre
      subst hpre
      exact runClean_cursor h (cursorInv_new I pooled parent emitOnSeekGE)
    · unfold PosOp.runClean at h
      cases hm : op.apply I m with
      | none => rw [hm] at h; cases h
      | some m1 =>
        rw [hm] at h
        simp only [Option.bind] at h
        split at h
        · rename_i hem
          exact runClean_cursor h (apply_seek_cursor hop hm hem)
        · cases h
  obtain ⟨hw, hc, -⟩ := hg
  exact ⟨fun hr => cursorOK_fwd ⟨hw, hc, hr⟩, fun hr => cursorOK_rev ⟨hw, hc, hr⟩⟩

/-- At an instance: over `scenarioShadow`, after `SeekGE(a)` and `Next`
(state `m`), the error-free `SeekLT(d)`, `Prev`, `Prev` end in reverse on the
synthesized `(a, 20)` with `rangeKeysIdx = 0` in the window `[0, 2)`. -/
theorem clean_history_cursor_bound_witness :
    ((PosOp.run (dataIter scenarioShadow) [PosOp.seekGE ⟨1, 0⟩, PosOp.next]
        (freshIter false)).bind (PosOp.runClean (dataIter scenarioShadow)
          [PosOp.seekLT ⟨4, 0⟩, PosOp.prev, PosOp.prev])).map
        (fun s => (s.reverse, s.rangeKeysIdx, s.rangeKeysEnd)) = some (true, 0, 2) ∧
      ∀ m s, PosOp.run (dataIter scenarioShadow) [PosOp.seekGE ⟨1, 0⟩, PosOp.next]
          (freshIter false) = some m →
        PosOp.runClean (dataIter scenarioShadow) [PosOp.seekLT ⟨4, 0⟩, PosOp.prev, PosOp.prev]
          m = some s →
        (s.reverse = false → 0 ≤ s.rangeKeysIdx ∧ s.rangeKeysIdx ≤ s.rangeKeysEnd) ∧
          (s.reverse = true → -1 ≤ s.rangeKeysIdx ∧ s.rangeKeysIdx ≤ s.rangeKeysEnd - 1) :=
  ⟨by decide, fun m s hm h =>
    clean_history_cursor_bound (dataIter scenarioShadow) _ _ _ [PosOp.seekGE ⟨1, 0⟩, PosOp.next]
      [PosOp.seekLT ⟨4, 0⟩, PosOp.prev, PosOp.prev] m s hm
      (Or.inr ⟨PosOp.seekLT ⟨4, 0⟩, [PosOp.prev, PosOp.prev], rfl, rfl⟩) h⟩

/-- C19 (cursor-sentinel invariant): over an underlying iterator whose errors
persist until it is next sought, after every sequence of public positioning
operations on a constructed adapter, if the underlying iterator reports no error
at the position it is on, then `rangeKeysIdx` is at most one step outside the
window: `0 ≤ rangeKeysIdx ≤ rangeKeysEnd` in the forward direction and
`-1 ≤ rangeKeysIdx ≤ rangeKeysEnd - 1` in the reverse direction. Errors reported
by earlier operations are allowed. -/
theorem cursor_sentinel {σ : Type} (I : MVCCIterator σ) (hI : ErrorsPersist I)
    (pooled : pointSynthesizingIter σ) (parent : σ) (emitOnSeekGE : Bool) (ops : List PosOp)
    (s : pointSynthesizingIter σ) (it : σ)
    (h : PosOp.run I ops (newPointSynthesizingIter pooled parent emitOnSeekGE) = some s)
    (hit : s.iter = some it) (he : (I.Valid it).2 = none) :
    (s.reverse = false → 0 ≤ s.rangeKeysIdx ∧ s.rangeKeysIdx ≤ s.rangeKeysEnd) ∧
      (s.reverse = true → -1 ≤ s.rangeKeysIdx ∧ s.rangeKeysIdx ≤ s.rangeKeysEnd - 1) := by
  obtain ⟨h1, h2⟩ := run_sentinel hI h
    ⟨fun _ => cursorInv_new I pooled parent emitOnSeekGE, fun hn => absurd rfl hn⟩
  have hs : s.iterErr = none := by
    by_contra hn
    obtain ⟨-, it1, hit1, hv⟩ := h2 hn
    rw [hit] at hit1
    injection hit1 with hit1
    subst hit1
    exact hv he
  obtain ⟨hw, hc, -⟩ := h1 hs
  exact ⟨fun hr => cursorOK_fwd ⟨hw, hc, hr⟩, fun hr => cursorOK_rev ⟨hw, hc, hr⟩⟩

/-- C19, at an instance: over `scenarioPointBelow` with an underlying iterator
that fails for good past the last record, `SeekGE(a@3)` and `Prev` each return
with the error `io`; `SeekLT(c)` then clears it, and after two more `Prev` the
underlying iterator is exhausted without an error, in reverse, with
`rangeKeysIdx = -1` and the window `[0, 0)`. -/
theorem cursor_sentinel_witness :
    ((PosOp.run (failedIter scenarioPointBelow "io") [PosOp.seekGE ⟨1, 3⟩, PosOp.prev]
        (freshIter false)).map (fun s => s.iterErr) = some (some "io") ∧
      (PosOp.run (failedIter scenarioPointBelow "io")
        [PosOp.seekGE ⟨1, 3⟩, PosOp.prev, PosOp.seekLT ⟨3, 0⟩, PosOp.prev, PosOp.prev]
        (freshIter false)).map (fun s => (s.iter, s.reverse, s.rangeKeysIdx, s.rangeKeysEnd)) =
        some (some DataCursor.before, true, -1, 0) ∧
      ((failedIter scenarioPointBelow "io").Valid DataCursor.before).2 = none) ∧
      ∀ s, PosOp.run (failedIter scenarioPointBelow "io")
          [PosOp.seekGE ⟨1, 3⟩, PosOp.prev, PosOp.seekLT ⟨3, 0⟩, PosOp.prev, PosOp.prev]
          (freshIter false) = some s →
        s.iter = some DataCursor.before →
        (s.reverse = false → 0 ≤ s.rangeKeysIdx ∧ s.rangeKeysIdx ≤ s.rangeKeysEnd) ∧
          (s.reverse = true → -1 ≤ s.rangeKeysIdx ∧ s.rangeKeysIdx ≤ s.rangeKeysEnd - 1) :=
  ⟨⟨by decide, by decide, by decide⟩, fun s h hit =>
    cursor_sentinel (failedIter scenarioPointBelow "io")
      (errorsPersist_failedIter scenarioPointBelow "io") _ DataCursor.before false _ s
      DataCursor.before h hit (by decide)⟩

/-! ## The synthetic cursor over any iterator that obeys the contract -/

/-- The synthetic-cursor bound over any wrapped iterator: let `I` obey its
contract (`IterContract`: no error; a valid position has a point or a range; a
position with a range has a non-empty version stack and a non-empty span start
key; a bare range position reached otherwise than by a forward seek is at its
span start). In every state reached by public positioning operations from an
adapter constructed on a pooled instance as `release` leaves it, the wrapped
iterator being invalid at construction or the first operation being a seek: if
`atPoint` is false and the position is not exhausted (the wrapped iterator is
valid or `rangeKeys` is non-empty), then `0 ≤ rangeKeysIdx < rangeKeysEnd`; and
an empty `rangeKeys` with a valid wrapped iterator implies `atPoint`. -/
theorem contract_cursor_invariant {σ : Type} (I : MVCCIterator σ) (hI : IterContract I)
    (pooled : pointSynthesizingIter σ) (parent : σ) (emitOnSeekGE : Bool) (ops : List PosOp)
    (s : pointSynthesizingIter σ) (it : σ)
    (hstart : (I.Valid parent).1 = false ∨ ∃ op rest, ops = op :: rest ∧ op.isSeek = true)
    (h : PosOp.run I ops (newPointSynthesizingIter (release pooled) parent emitOnSeekGE) =
      some s)
    (hit : s.iter = some it) :
    (s.atPoint = false → ((I.Valid it).1 = true ∨ s.rangeKeys ≠ []) →
        0 ≤ s.rangeKeysIdx ∧ s.rangeKeysIdx < s.rangeKeysEnd) ∧
      (s.rangeKeys = [] → (I.Valid it).1 = true → s.atPoint = true) := by
  have hq0 : SynOK (newPointSynthesizingIter (release pooled) parent emitOnSeekGE) := by
    intro _ hp
    rcases hp with hp | hp
    · cases hp
    · exact absurd rfl hp
  obtain ⟨-, hq, hw, -, -⟩ := run_synOK hI (rest_new I pooled parent emitOnSeekGE)
    (cursorInv_new I _ parent emitOnSeekGE) hq0 h
  have hsync : Synced I s := by
    rcases hstart with hp | ⟨op, rest, rfl, hop⟩
    · refine (run_keeps h).synced ⟨parent, rfl, ?_⟩
      have h2 := hI.noError parent
      exact Prod.ext hp h2
    · obtain ⟨m, h1, h2⟩ := run_cons h
      exact (run_keeps h2).synced (apply_seek_synced hop h1)
  obtain ⟨it', hit', hv⟩ := hsync
  rw [hit] at hit'
  cases hit'
  have hval : (I.Valid it).1 = s.iterValid := by rw [hv]
  rw [hval]
  refine ⟨hq, fun hk hv1 => ?_⟩
  cases hat : s.atPoint with
  | true => rfl
  | false =>
    have := hq hat (Or.inl hv1)
    have h2 := hw.2
    rw [hk] at h2
    simp only [List.length_nil] at h2
    omega

/-- The bound at an instance: over the table iterator on the positions of
`scenarioShadow`, `SeekGE(a)`, `Next`, `Next` leaves the adapter on the
synthesized `(a, 10)`, the wrapped iterator exhausted, with `rangeKeysIdx = 1` in
the window `[0, 2)`. -/
theorem contract_cursor_invariant_witness :
    (PosOp.run (tableIter shadowRows) [PosOp.seekGE ⟨1, 0⟩, PosOp.next, PosOp.next]
        (newPointSynthesizingIter
          (release ⟨none, [], 0, 0, 0, 0, false, false, false, false, none⟩) (-1) false)).map
        (fun s => (s.iter, s.atPoint, s.rangeKeysIdx, s.rangeKeysEnd, s.rangeKeys.length)) =
        some (some 2, false, 1, 2, 2) ∧
      ∀ s, PosOp.run (tableIter shadowRows) [PosOp.seekGE ⟨1, 0⟩, PosOp.next, PosOp.next]
          (newPointSynthesizingIter
            (release ⟨none, [], 0, 0, 0, 0, false, false, false, false, none⟩) (-1) false) =
          some s → s.iter = some 2 →
        (s.atPoint = false → (((tableIter shadowRows).Valid 2).1 = true ∨ s.rangeKeys ≠ []) →
            0 ≤ s.rangeKeysIdx ∧ s.rangeKeysIdx < s.rangeKeysEnd) ∧
          (s.rangeKeys = [] → ((tableIter shadowRows).Valid 2).1 = true → s.atPoint = true) :=
  ⟨by decide, fun s h hit =>
    contract_cursor_invariant (tableIter shadowRows) shadowRows_contract _ (-1) false
      [PosOp.seekGE ⟨1, 0⟩, PosOp.next, PosOp.next] s 2 (Or.inl (by decide)) h hit⟩

/-! ## `SeekLT` -/

/-- C15 (`SeekLT` lands strictly before the seek key): over the faithful iterator
of a well-formed dataset, from any state that wraps the iterator with a cleared
or memoized cache (a fresh adapter is one), for every seek key `k`, versioned
or not, `SeekLT(k)` returns; afterwards either the adapter is invalid with no
error and no record of the reference lies before `k`, or it is valid and exposes
a record of the reference, with its value, whose key is strictly less than `k`
in MVCC order, and no record of the reference lies strictly between that record
and `k`. -/
theorem seekLT_lands_before (D : Dataset) (hwf : D.WF) (st : DataIter) (hst : Ready D st)
    (k : MVCCKey) :
    ∃ st', SeekLT (dataIter D) k st = some st' ∧
      ((Valid st' = (false, none) ∧ ∀ rec, D.Reference rec → ¬ rec.1.Less k) ∨
        ∃ y, Valid st' = (true, none) ∧ UnsafeKey (dataIter D) st' = some y ∧
          UnsafeValue (dataIter D) st' = some (D.valueOf y) ∧
          D.Reference (y, D.valueOf y) ∧ y.Less k ∧
          ∀ rec, D.Reference rec → rec.1.Less k → ¬ y.Less rec.1) := by
  obtain ⟨st', hseek, hland⟩ := seekLT_lands_any hwf hst k
  refine ⟨st', hseek, ?_⟩
  rcases hland with ⟨hd, hnone⟩ | ⟨y, hy, hyk, hmax⟩
  · left
    refine ⟨revDone_valid hd, ?_⟩
    intro rec hrec
    exact hnone rec.1 ((hwf.exposed_iff_reference rec).2 hrec).1
  · right
    obtain ⟨h1, h2, h3⟩ := at_observe hwf (Or.inr hy)
    refine ⟨y, h1, h2, h3, ?_, hyk, ?_⟩
    · exact (hwf.exposed_iff_reference (y, D.valueOf y)).1 ⟨hy.exposed_rev hwf, rfl⟩
    · intro rec hrec hlt
      exact hmax rec.1 ((hwf.exposed_iff_reference rec).2 hrec).1 hlt

/-- C15, at an instance: over `scenarioShadow` (versions 20 and 10 over
`[a, d)`, point `a@15`), `SeekLT(a@8)` lands on the synthetic point `a@10` and
`SeekLT(a@12)` on the real point `a@15`. -/
theorem seekLT_lands_before_witness :
    ((SeekLT (dataIter scenarioShadow) ⟨1, 8⟩ (freshIter false)).bind
        (UnsafeKey (dataIter scenarioShadow)) = some ⟨1, 10⟩ ∧
      (SeekLT (dataIter scenarioShadow) ⟨1, 12⟩ (freshIter false)).bind
        (UnsafeKey (dataIter scenarioShadow)) = some ⟨1, 15⟩) ∧
    ∃ st', SeekLT (dataIter scenarioShadow) ⟨1, 8⟩ (freshIter false) = some st' ∧
      ((Valid st' = (false, none) ∧
          ∀ rec, scenarioShadow.Reference rec → ¬ rec.1.Less ⟨1, 8⟩) ∨
        ∃ y, Valid st' = (true, none) ∧ UnsafeKey (dataIter scenarioShadow) st' = some y ∧
          UnsafeValue (dataIter scenarioShadow) st' = some (scenarioShadow.valueOf y) ∧
          scenarioShadow.Reference (y, scenarioShadow.valueOf y) ∧ y.Less ⟨1, 8⟩ ∧
          ∀ rec, scenarioShadow.Reference rec → rec.1.Less ⟨1, 8⟩ → ¬ y.Less rec.1) :=
  ⟨⟨by decide, by decide⟩,
    seekLT_lands_before scenarioShadow (by decide) (freshIter false) (ready_fresh _ _) ⟨1, 8⟩⟩

/-! ## `NextKey` -/

/-- C14 (`NextKey` skips all versions of the current key): over the faithful
iterator of a well-formed dataset, in every state reached from a fresh adapter
(with `emitOnSeekGE` on or off) by a sequence of `SeekGE`, `SeekIntentGE`,
`SeekLT`, `Next`, `NextKey` and `Prev`, if the adapter is in the forward
direction and valid, then it exposes a key `x` and `NextKey` returns; afterwards
either the adapter is invalid with no error and no record of the reference has a
user key greater than the user key of `x`, or it is valid and exposes a record
of the reference, with its value, whose user key is strictly greater than the
user key of `x`, and which is the first record of the reference with a greater
user key. -/
theorem nextKey_skips_versions (D : Dataset) (hwf : D.WF) (emitOnSeekGE : Bool)
    (ops : List PosOp) (st : DataIter)
    (hrun : PosOp.run (dataIter D) ops (freshIter emitOnSeekGE) = some st)
    (hfwd : st.reverse = false) (hvalid : (Valid st).1 = true) :
    ∃ x st', UnsafeKey (dataIter D) st = some x ∧ NextKey (dataIter D) st = some st' ∧
      ((Valid st' = (false, none) ∧ ∀ rec, D.Reference rec → rec.1.Key ≤ x.Key) ∨
        ∃ y, Valid st' = (true, none) ∧ UnsafeKey (dataIter D) st' = some y ∧
          UnsafeValue (dataIter D) st' = some (D.valueOf y) ∧
          D.Reference (y, D.valueOf y) ∧ x.Key < y.Key ∧
          ∀ rec, D.Reference rec → x.Key < rec.1.Key → ¬ rec.1.Less y) := by
  obtain ⟨s, hs, htr⟩ := tracked_run hwf ops (freshIter emitOnSeekGE)
    (Or.inl (fresh_freshIter emitOnSeekGE))
  rw [hrun] at hs
  cases hs
  obtain ⟨fk, x, hx⟩ := htr.forward_at hfwd hvalid
  obtain ⟨st', hnk, hland⟩ := at_nextKey hwf (Or.inl hx : FwdAt D fk st x ∨ RevAt D fk st x)
  refine ⟨x, st', fwdAt_key hx, hnk, ?_⟩
  rcases hland with ⟨hd, hnone⟩ | ⟨y, hy, hlt, hmin⟩
  · left
    refine ⟨fwdDone_valid hd, ?_⟩
    intro rec hrec
    have h1 := hnone rec.1 ((hwf.exposed_iff_reference rec).2 hrec).1
    rw [MVCCKey.less_mk_left] at h1
    omega
  · right
    obtain ⟨h1, h2, h3⟩ := at_observe hwf (Or.inl hy : FwdAt D 0 st' y ∨ RevAt D 0 st' y)
    refine ⟨y, h1, h2, h3, ?_, ?_, ?_⟩
    · exact (hwf.exposed_iff_reference (y, D.valueOf y)).1 ⟨hy.exposed hwf, rfl⟩
    · rw [MVCCKey.less_mk_left] at hlt
      omega
    · intro rec hrec hk
      apply hmin rec.1 ((hwf.exposed_iff_reference rec).2 hrec).1
      rw [MVCCKey.less_mk_left]
      omega

/-- C14, at an instance: over `scenarioMidShadow` (versions 20 and 10 over
`[a, d)`, points `b@15` and `b@5`), `SeekGE(a)` exposes the synthetic point
`a@20` in the forward direction, and `NextKey` from there skips `a@10` and
lands on `b@20`, the first record of key `b`. -/
theorem nextKey_skips_versions_witness :
    ((PosOp.run (dataIter scenarioMidShadow) [PosOp.seekGE ⟨1, 0⟩] (freshIter false)).map
        (fun s => (s.reverse, (Valid s).1, UnsafeKey (dataIter scenarioMidShadow) s)) =
        some (false, true, some ⟨1, 20⟩) ∧
      (PosOp.run (dataIter scenarioMidShadow) [PosOp.seekGE ⟨1, 0⟩, PosOp.nextKey]
        (freshIter false)).bind (UnsafeKey (dataIter scenarioMidShadow)) = some ⟨2, 20⟩) ∧
    ∀ st, PosOp.run (dataIter scenarioMidShadow) [PosOp.seekGE ⟨1, 0⟩] (freshIter false) =
        some st → st.reverse = false → (Valid st).1 = true →
      ∃ x st', UnsafeKey (dataIter scenarioMidShadow) st = some x ∧
        NextKey (dataIter scenarioMidShadow) st = some st' ∧
        ((Valid st' = (false, none) ∧
            ∀ rec, scenarioMidShadow.Reference rec → rec.1.Key ≤ x.Key) ∨
          ∃ y, Valid st' = (true, none) ∧
            UnsafeKey (dataIter scenarioMidShadow) st' = some y ∧
            UnsafeValue (dataIter scenarioMidShadow) st' = some (scenarioMidShadow.valueOf y) ∧
            scenarioMidShadow.Reference (y, scenarioMidShadow.valueOf y) ∧ x.Key < y.Key ∧
            ∀ rec, scenarioMidShadow.Reference rec → x.Key < rec.1.Key → ¬ rec.1.Less y) :=
  ⟨⟨by decide, by decide⟩, fun st h1 h2 h3 =>
    nextKey_skips_versions scenarioMidShadow (by decide) false _ st h1 h2 h3⟩

/-! ## The relative position of the iterator -/

/-- C20 (relative-position invariant): over the faithful iterator of a
well-formed dataset, which never fails and steps in MVCC order, in every state
reached from a fresh adapter (with `emitOnSeekGE` on or off) by a sequence of
`SeekGE`, `SeekIntentGE`, `SeekLT`, `Next`, `NextKey` and `Prev`, if `rangeKeys`
is not empty and the underlying iterator is valid, then the relative positioning
check of `assertInvariants` passes. Spelled out, for the key of the underlying
iterator: in the forward direction it is at least `rangeKeysPos`, in the reverse
direction at most `rangeKeysPos` with the least timestamp; off a point it is at
least, in the forward direction, and at most, in the reverse direction, the
synthesized key `(rangeKeysPos, rangeKeys[rangeKeysIdx].Timestamp)`; on a point it
is at least the key of the window entry just before it and at most the key of
the window entry just after it, the two entries around the cursor (at
`rangeKeysIdx - 1` and `rangeKeysIdx` in the forward direction, at `rangeKeysIdx`
and `rangeKeysIdx + 1` in the reverse direction), whenever these are inside the
window. -/
theorem relative_position_invariant (D : Dataset) (hwf : D.WF) (emitOnSeekGE : Bool)
    (ops : List PosOp) (st : DataIter) (it : DataCursor)
    (hrun : PosOp.run (dataIter D) ops (freshIter emitOnSeekGE) = some st)
    (hne : st.rangeKeys ≠ []) (hit : st.iter = some it)
    (hvalid : ((dataIter D).Valid it).1 = true) :
    assertRelativePosition (dataIter D) st = some true ∧
    (st.reverse = false → ¬ ((dataIter D).UnsafeKey it).Less ⟨st.rangeKeysPos, 0⟩) ∧
    (st.reverse = true →
      ¬ MVCCKey.Less ⟨st.rangeKeysPos, hlc.MinTimestamp⟩ ((dataIter D).UnsafeKey it)) ∧
    (st.atPoint = false → ∀ v, 0 ≤ st.rangeKeysIdx → st.rangeKeysIdx < st.rangeKeysEnd →
      sliceIndex st.rangeKeys st.rangeKeysIdx = some v →
      (st.reverse = false →
        ¬ ((dataIter D).UnsafeKey it).Less ⟨st.rangeKeysPos, v.Timestamp⟩) ∧
      (st.reverse = true →
        ¬ MVCCKey.Less ⟨st.rangeKeysPos, v.Timestamp⟩ ((dataIter D).UnsafeKey it))) ∧
    (st.atPoint = true →
      ∀ l : Int, l = (if st.reverse = true then st.rangeKeysIdx else st.rangeKeysIdx - 1) →
      (∀ v, 0 ≤ l → l < st.rangeKeysEnd → sliceIndex st.rangeKeys l = some v →
        ¬ ((dataIter D).UnsafeKey it).Less ⟨st.rangeKeysPos, v.Timestamp⟩) ∧
      (∀ v, 0 ≤ l + 1 → l + 1 < st.rangeKeysEnd → sliceIndex st.rangeKeys (l + 1) = some v →
        ¬ MVCCKey.Less ⟨st.rangeKeysPos, v.Timestamp⟩ ((dataIter D).UnsafeKey it))) := by
  obtain ⟨s, hs, htr⟩ := tracked_run hwf ops (freshIter emitOnSeekGE)
    (Or.inl (fresh_freshIter emitOnSeekGE))
  rw [hrun] at hs
  cases hs
  obtain ⟨c, hc, hv, -⟩ := tracked_synced htr
  rw [hit] at hc
  cases hc
  rw [dataIter_Valid] at hvalid
  have hcheck := tracked_relative hwf htr hne (hv.trans hvalid)
  exact ⟨hcheck, relative_meaning (dataIter D) st it hit (tracked_window htr)
    (tracked_pos_ne hwf htr hne) hcheck⟩

/-- C20, at an instance: over `scenarioMidShadow` (versions 20 and 10 over
`[a, d)`, points `b@15` and `b@5`), after `SeekGE(b)`, `Next`, `Next`, `Prev` the
adapter is back on the real point `b@15` in the reverse direction, with the
cursor on version 20 and the whole stack in the window; the underlying iterator
is on `b@15`, between `b@20` and `b@10`. -/
theorem relative_position_invariant_witness :
    ((PosOp.run (dataIter scenarioMidShadow)
        [PosOp.seekGE ⟨2, 0⟩, PosOp.next, PosOp.next, PosOp.prev] (freshIter false)).map
        (fun s => (s.iter, s.reverse, s.atPoint)) =
        some (some (DataCursor.onKey ⟨2, 15⟩), true, true) ∧
      (PosOp.run (dataIter scenarioMidShadow)
        [PosOp.seekGE ⟨2, 0⟩, PosOp.next, PosOp.next, PosOp.prev] (freshIter false)).map
        (fun s => (s.rangeKeysPos, s.rangeKeysIdx, s.rangeKeysEnd, s.rangeKeys.length)) =
        some (2, 0, 2, 2)) ∧
    ∀ st it, PosOp.run (dataIter scenarioMidShadow)
        [PosOp.seekGE ⟨2, 0⟩, PosOp.next, PosOp.next, PosOp.prev] (freshIter false) = some st →
      st.rangeKeys ≠ [] → st.iter = some it →
      ((dataIter scenarioMidShadow).Valid it).1 = true →
      assertRelativePosition (dataIter scenarioMidShadow) st = some true ∧
      (st.reverse = false →
        ¬ ((dataIter scenarioMidShadow).UnsafeKey it).Less ⟨st.rangeKeysPos, 0⟩) ∧
      (st.reverse = true →
        ¬ MVCCKey.Less ⟨st.rangeKeysPos, hlc.MinTimestamp⟩
          ((dataIter scenarioMidShadow).UnsafeKey it)) ∧
      (st.atPoint = false → ∀ v, 0 ≤ st.rangeKeysIdx → st.rangeKeysIdx < st.rangeKeysEnd →
        sliceIndex st.rangeKeys st.rangeKeysIdx = some v →
        (st.reverse = false →
          ¬ ((dataIter scenarioMidShadow).UnsafeKey it).Less ⟨st.rangeKeysPos, v.Timestamp⟩) ∧
        (st.reverse = true →
          ¬ MVCCKey.Less ⟨st.rangeKeysPos, v.Timestamp⟩
            ((dataIter scenarioMidShadow).UnsafeKey it))) ∧
      (st.atPoint = true →
        ∀ l : Int, l = (if st.reverse = true then st.rangeKeysIdx else st.rangeKeysIdx - 1) →
        (∀ v, 0 ≤ l → l < st.rangeKeysEnd → sliceIndex st.rangeKeys l = some v →
          ¬ ((dataIter scenarioMidShadow).UnsafeKey it).Less ⟨st.rangeKeysPos, v.Timestamp⟩) ∧
        (∀ v, 0 ≤ l + 1 → l + 1 < st.rangeKeysEnd →
          sliceIndex st.rangeKeys (l + 1) = some v →
          ¬ MVCCKey.Less ⟨st.rangeKeysPos, v.Timestamp⟩
            ((dataIter scenarioMidShadow).UnsafeKey it))) :=
  ⟨⟨by decide, by decide⟩, fun st it h1 h2 h3 h4 =>
    relative_position_invariant scenarioMidShadow (by decide) false _ st it h1 h2 h3 h4⟩
